import Mathlib

/-!
# cpp-linker: a shallow embedding of the linking pipeline

The definitions below follow the C++ sources under `src/lib` function by function.
Machine integers are natural numbers (reduced modulo `2^64` where the source can wrap),
memory is a list of bytes, a null pointer is `none`, and a loop is a fold over the
range it iterates.  Indexing out of bounds, which the source never checks, reads a
zero value.  Two places where the source leaves the memory it owns have an outcome of
their own, `undefined`: a pointer sum of the element loop of `mergeSections` that
reaches `2^64`, and a write of `synthesizeSyntheticSections` behind the end of the
memory reserved for the string tables or for the symbol table.
-/

set_option autoImplicit false

namespace cppld

/-! ## Constants of the ELF format (`elf.h`) -/

/-- Modelled from the spec: the constants of the system header `elf.h`, which is not part
of the repository; the values are those of the System V gABI and the x86_64 psABI. -/
def SHN_UNDEF : Nat := 0
def SHN_LORESERVE : Nat := 0xff00
def SHN_ABS : Nat := 0xfff1
def SHN_XINDEX : Nat := 0xffff
def STN_UNDEF : Nat := 0
def STB_LOCAL : Nat := 0
def STB_GLOBAL : Nat := 1
def STB_WEAK : Nat := 2
def SHT_NULL : Nat := 0
def SHT_PROGBITS : Nat := 1
def SHT_SYMTAB : Nat := 2
def SHT_STRTAB : Nat := 3
def SHT_RELA : Nat := 4
def SHT_NOBITS : Nat := 8
def SHT_REL : Nat := 9
def SHT_GROUP : Nat := 17
def SHF_WRITE : Nat := 0x1
def SHF_ALLOC : Nat := 0x2
def SHF_EXECINSTR : Nat := 0x4
def SHF_MERGE : Nat := 0x10
def SHF_STRINGS : Nat := 0x20
def SHF_TLS : Nat := 0x400
def sizeof_Elf64_Sym : Nat := 24
def sizeof_Elf64_Rela : Nat := 24
def sizeof_Elf64_Shdr : Nat := 64
def sizeof_Elf64_Addr : Nat := 8

def R_X86_64_NONE : Nat := 0
def R_X86_64_64 : Nat := 1
def R_X86_64_PC32 : Nat := 2
def R_X86_64_GOT32 : Nat := 3
def R_X86_64_PLT32 : Nat := 4
def R_X86_64_GLOB_DAT : Nat := 6
def R_X86_64_JUMP_SLOT : Nat := 7
def R_X86_64_GOTPCREL : Nat := 9
def R_X86_64_32 : Nat := 10
def R_X86_64_32S : Nat := 11
def R_X86_64_16 : Nat := 12
def R_X86_64_PC16 : Nat := 13
def R_X86_64_8 : Nat := 14
def R_X86_64_PC8 : Nat := 15
def R_X86_64_PC64 : Nat := 24
def R_X86_64_GOTOFF64 : Nat := 25
def R_X86_64_GOTPC32 : Nat := 26
def R_X86_64_GOT64 : Nat := 27
def R_X86_64_GOTPCREL64 : Nat := 28
def R_X86_64_GOTPC64 : Nat := 29
def R_X86_64_SIZE32 : Nat := 32
def R_X86_64_SIZE64 : Nat := 33
def R_X86_64_GOTPCRELX : Nat := 41
def R_X86_64_REX_GOTPCRELX : Nat := 42

/-! ## Shared types (`cppld_api_types.hpp`, `reference_types.hpp`) -/

/-- The `StatusCode` enumeration of `cppld_api_types.hpp`. -/
inductive StatusCode where
  | ok
  | not_ok
  | bad_input_file
  | symbol_redefined
  | symbol_undefined
  | system_failure
  deriving DecidableEq, Repr

/-- A symbol-table record `Elf64_Sym`. -/
structure Elf64_Sym where
  st_name : Nat
  st_info : Nat
  st_other : Nat
  st_shndx : Nat
  st_value : Nat
  st_size : Nat
  deriving DecidableEq, Repr

/-- A section header `Elf64_Shdr`. -/
structure Elf64_Shdr where
  sh_name : Nat
  sh_type : Nat
  sh_flags : Nat
  sh_addr : Nat
  sh_offset : Nat
  sh_size : Nat
  sh_link : Nat
  sh_info : Nat
  sh_addralign : Nat
  sh_entsize : Nat
  deriving DecidableEq, Repr

instance : Inhabited Elf64_Shdr := ⟨⟨0, 0, 0, 0, 0, 0, 0, 0, 0, 0⟩⟩
instance : Inhabited Elf64_Sym := ⟨⟨0, 0, 0, 0, 0, 0⟩⟩

/-- The bytes of a mapped file, or what a pointer into one can reach. -/
abbrev Memory := List Nat

/-- A symbol or section name: the bytes of a `std::string_view`. -/
abbrev Name := List Nat

/-- The `SortKey` of `reference_types.hpp`, a 64-bit value. -/
abbrev SortKey := Nat

/-- One byte of memory; reading past the end gives zero. -/
def readByte (mem : Memory) (i : Nat) : Nat := mem.getD i 0 % 256

/-- A little-endian unsigned integer of `n` bytes at offset `off`. -/
def readLE (mem : Memory) : Nat → Nat → Nat
  | _, 0 => 0
  | off, n + 1 => readByte mem off + 256 * readLE mem (off + 1) n

/-- The record `Elf64_Sym` stored at offset `off` (the layout of `elf.h`). -/
def readSym (mem : Memory) (off : Nat) : Elf64_Sym :=
  { st_name := readLE mem off 4
    st_info := readByte mem (off + 4)
    st_other := readByte mem (off + 5)
    st_shndx := readLE mem (off + 6) 2
    st_value := readLE mem (off + 8) 8
    st_size := readLE mem (off + 16) 8 }

/-- The function `view_as_span<Elf64_Sym>(ptr, numElements)` of `convenient_functions.hpp`. -/
def view_as_span_Sym (mem : Memory) (off numElements : Nat) : List Elf64_Sym :=
  (List.range numElements).map (fun i => readSym mem (off + sizeof_Elf64_Sym * i))

/-- The bytes of a C string up to its terminator: what `std::string_view{ptr}` holds. -/
def cstrOf : Memory → Name
  | [] => []
  | b :: bs => if b % 256 = 0 then [] else (b % 256) :: cstrOf bs

/-- The C string that starts at offset `off`. -/
def cstrAt (mem : Memory) (off : Nat) : Name := cstrOf (mem.drop off)

/-- The loop `for_each_indexed` of `convenient_functions.hpp`, threading a state. -/
def forEachIndexedFrom {α σ : Type} (f : σ → α → Nat → σ) : Nat → List α → σ → σ
  | _, [], s => s
  | i, x :: xs, s => forEachIndexedFrom f (i + 1) xs (f s x i)

/-- The loop `for_each_indexed`, starting at index zero. -/
def forEachIndexed {α σ : Type} (xs : List α) (f : σ → α → Nat → σ) (s : σ) : σ :=
  forEachIndexedFrom f 0 xs s

/-- The macro `ELF64_ST_BIND`: the upper four bits of `st_info`. -/
def ELF64_ST_BIND (info : Nat) : Nat := info / 16

/-- A `SymbolRef`: a pointer to a symbol (`none` for `nullptr`) and the input it is from. -/
structure SymbolRef where
  symbol : Option Elf64_Sym
  elfID : Nat
  deriving DecidableEq, Repr

instance : Inhabited SymbolRef := ⟨⟨none, 0⟩⟩

/-- A `GlobalSymbolTableEntry`. -/
structure GlobalSymbolTableEntry where
  firstSearch : SymbolRef
  firstLoad : SymbolRef
  deriving DecidableEq, Repr

instance : Inhabited GlobalSymbolTableEntry := ⟨⟨default, default⟩⟩

/-- The `SymbolTable`: an `unordered_map` from names to entries, kept here as an
association list in order of first insertion. -/
abbrev SymbolTable := List (Name × GlobalSymbolTableEntry)

/-- The call `symbolTable.find(name)`. -/
def SymbolTable.find : SymbolTable → Name → Option GlobalSymbolTableEntry
  | [], _ => none
  | (k, e) :: rest, n => if k = n then some e else SymbolTable.find rest n

/-- The entry `symbolTable[name]` as read: a missing entry is value-initialised. -/
def SymbolTable.get (t : SymbolTable) (n : Name) : GlobalSymbolTableEntry :=
  (SymbolTable.find t n).getD default

/-- The update `symbolTable[name] = f(symbolTable[name])`, creating a missing entry. -/
def SymbolTable.modify : SymbolTable → Name → (GlobalSymbolTableEntry → GlobalSymbolTableEntry) →
    SymbolTable
  | [], n, f => [(n, f default)]
  | (k, e) :: rest, n, f =>
    if k = n then (k, f e) :: rest else (k, e) :: SymbolTable.modify rest n f

/-! ## `parseInputAndCreateSymbolTable.cpp` -/

/-- One relocatable input as the stages see it: the memory reachable from its base
address `elfAddresses[i]`, its section headers `sectionHeaders[i]`, and the base address
itself as a 64-bit number.  Offsets into `mem` are relative to the base address; its
value matters where the code compares pointers that it has computed by a sum.  An input
that does not say where it is mapped is mapped at `0x10000`. -/
structure ElfInput where
  mem : Memory
  headers : List Elf64_Shdr
  address : Nat := 0x10000
  deriving DecidableEq, Repr

/-- The function `makeSortKey`. -/
def makeSortKey (base : Nat) (sub : Nat) : Nat := (base * 2 ^ 32 + sub) % 2 ^ 64

/-- The function `split`: file index and sub-index of a sort key. -/
def split (k : Nat) : Nat × Nat := ((k / 2 ^ 32) % 2 ^ 32, k % 2 ^ 32)

/-- One element of the three parallel vectors `symbols`, `symbolStringTables`, `elfIDs`
that `insertSymbolsIntoSymbolTable` collects. -/
structure SymtabView where
  syms : List Elf64_Sym
  strings : Memory
  elfID : Nat
  deriving DecidableEq, Repr

/-- The inner loop of the first pass over one input: every `SHT_SYMTAB` header adds a
view; one with a wrong entry size sets the status and leaves the input. -/
def collectSymtabs (mem : Memory) (secHeaders : List Elf64_Shdr) (elfID startID : Nat) :
    List Elf64_Shdr → StatusCode × List SymtabView → StatusCode × List SymtabView
  | [], acc => acc
  | secHdr :: rest, (status, views) =>
    if secHdr.sh_type ≠ SHT_SYMTAB then
      collectSymtabs mem secHeaders elfID startID rest (status, views)
    else if secHdr.sh_entsize ≠ sizeof_Elf64_Sym then
      (StatusCode.bad_input_file, views)
    else
      let strTabHdr := secHeaders.getD secHdr.sh_link default
      collectSymtabs mem secHeaders elfID startID rest
        (status, views ++ [
          { syms := view_as_span_Sym mem secHdr.sh_offset (secHdr.sh_size / secHdr.sh_entsize)
            strings := mem.drop strTabHdr.sh_offset
            elfID := elfID + startID }])

def isLocal (sym : Elf64_Sym) : Bool := ELF64_ST_BIND sym.st_info == STB_LOCAL
def isWeak (sym : Elf64_Sym) : Bool := ELF64_ST_BIND sym.st_info == STB_WEAK
def isGlobal (sym : Elf64_Sym) : Bool := ELF64_ST_BIND sym.st_info == STB_GLOBAL

/-- The lambda `replaceIfAppropriate`. -/
def replaceIfAppropriate (elfSortKeys : List Nat) (entry : SymbolRef) (sym : Elf64_Sym)
    (elfID : Nat) : SymbolRef :=
  let entry1 : SymbolRef :=
    match entry.symbol with
    | none => ⟨some sym, elfID⟩
    | some _ => entry
  let entryIsWeak : Bool :=
    match entry1.symbol with
    | some s => isWeak s
    | none => false
  let symIsWeak := isWeak sym
  let entry2 : SymbolRef := if entryIsWeak && !symIsWeak then ⟨some sym, elfID⟩ else entry1
  if entryIsWeak == symIsWeak && elfSortKeys.getD elfID 0 < elfSortKeys.getD entry2.elfID 0 then
    ⟨some sym, elfID⟩
  else entry2

/-- The state of the second pass: the status, the symbol table and `searchedSymbolNames`. -/
structure InsertState where
  status : StatusCode
  symbolTable : SymbolTable
  searchedSymbolNames : List Name
  deriving DecidableEq, Repr

/-- The part of the innermost loop body of `insertSymbolsIntoSymbolTable` that follows the
two skip tests: the symbol `sym` of input `elfID` is inserted under its name. -/
def insertNamedSymbol (elfSortKeys : List Nat) (st : InsertState)
    (o : Name × Elf64_Sym × Nat) : InsertState :=
  let name := o.1
  let sym := o.2.1
  let elfID := o.2.2
  if sym.st_shndx = SHN_UNDEF then
    { st with
      searchedSymbolNames := st.searchedSymbolNames ++ [name]
      symbolTable := SymbolTable.modify st.symbolTable name (fun e =>
        { e with firstSearch := replaceIfAppropriate elfSortKeys e.firstSearch sym elfID }) }
  else
    let entry := (SymbolTable.get st.symbolTable name).firstLoad
    match entry.symbol with
    | some entrySym =>
      if isGlobal sym && isGlobal entrySym then
        { st with
          status := StatusCode.symbol_redefined
          symbolTable := SymbolTable.modify st.symbolTable name id }
      else
        { st with
          symbolTable := SymbolTable.modify st.symbolTable name (fun e =>
            { e with firstLoad := replaceIfAppropriate elfSortKeys e.firstLoad sym elfID }) }
    | none =>
      { st with
        symbolTable := SymbolTable.modify st.symbolTable name (fun e =>
          { e with firstLoad := replaceIfAppropriate elfSortKeys e.firstLoad sym elfID }) }

/-- The body of the innermost loop of `insertSymbolsIntoSymbolTable`, for the symbol
`sym` at index `symIndex` of a symbol table whose strings start at `strings`. -/
def insertSymbol (elfSortKeys : List Nat) (strings : Memory) (elfID : Nat)
    (st : InsertState) (sym : Elf64_Sym) (symIndex : Nat) : InsertState :=
  if symIndex = STN_UNDEF then st
  else if isLocal sym then st
  else insertNamedSymbol elfSortKeys st (cstrAt strings sym.st_name, sym, elfID)

/-- The second pass over one collected symbol table. -/
def insertSymtab (elfSortKeys : List Nat) (st : InsertState) (v : SymtabView) : InsertState :=
  forEachIndexed v.syms (insertSymbol elfSortKeys v.strings v.elfID) st

/-- The first pass of `insertSymbolsIntoSymbolTable` over all inputs. -/
def collectAllSymtabs (inputs : List ElfInput) (startID : Nat) : StatusCode × List SymtabView :=
  forEachIndexed inputs
    (fun acc e elfID => collectSymtabs e.mem e.headers elfID startID e.headers acc)
    (StatusCode.ok, [])

/-- The function `insertSymbolsIntoSymbolTable`.  The inputs are the parallel spans
`elfAddresses` and `sectionHeaders`; the result is the returned status, the symbol table
and the names pushed to `searchedSymbolNames`. -/
def insertSymbolsIntoSymbolTable (inputs : List ElfInput) (elfSortKeys : List Nat)
    (startID : Nat) (symbolTable : SymbolTable) : InsertState :=
  let collected := collectAllSymtabs inputs startID
  if collected.1 ≠ StatusCode.ok then ⟨collected.1, symbolTable, []⟩
  else collected.2.foldl (insertSymtab elfSortKeys) ⟨StatusCode.ok, symbolTable, []⟩

/-! ## Notions used to state the properties of the symbol table -/

/-- The symbols of a symbol table that the second pass inserts, with their names: all but
the entry at index zero and the local ones. -/
def symbolsFrom (strings : Memory) : Nat → List Elf64_Sym → List (Name × Elf64_Sym)
  | _, [] => []
  | i, s :: ss =>
    if i = STN_UNDEF ∨ isLocal s = true then symbolsFrom strings (i + 1) ss
    else (cstrAt strings s.st_name, s) :: symbolsFrom strings (i + 1) ss

/-- The symbol tables of one input: a view for each `SHT_SYMTAB` header. -/
def symtabViewsOf (e : ElfInput) (elfID : Nat) : List SymtabView :=
  (e.headers.filter (fun h => h.sh_type = SHT_SYMTAB)).map (fun secHdr =>
    { syms := view_as_span_Sym e.mem secHdr.sh_offset (secHdr.sh_size / secHdr.sh_entsize)
      strings := e.mem.drop (e.headers.getD secHdr.sh_link default).sh_offset
      elfID := elfID })

/-- The non-local symbols of one input with their names, in symbol-table order. -/
def globalSymbolsOf (e : ElfInput) : List (Name × Elf64_Sym) :=
  (symtabViewsOf e 0).flatMap (fun v => symbolsFrom v.strings 0 v.syms)

/-- The definitions of the name `n` in one input: its non-local symbols of that name
whose section index is not `SHN_UNDEF`. -/
def definitionsOf (e : ElfInput) (n : Name) : List Elf64_Sym :=
  ((globalSymbolsOf e).filter (fun p => p.1 = n ∧ p.2.st_shndx ≠ SHN_UNDEF)).map Prod.snd

/-- All definitions of `n` in a collection of inputs, each with the sort key of its input. -/
def allDefinitions (ins : List (Nat × ElfInput)) (n : Name) : List (Nat × Elf64_Sym) :=
  ins.flatMap (fun p => (definitionsOf p.2 n).map (fun s => (p.1, s)))

/-- The definitions of `n` whose binding is not `STB_WEAK`. -/
def nonWeakDefinitions (ins : List (Nat × ElfInput)) (n : Name) :
    List (Nat × Elf64_Sym) :=
  (allDefinitions ins n).filter (fun d => !isWeak d.2)

/-- What `firstLoad` of the name `n` holds after a run: the symbol and the sort key of the
input it is from, or nothing. -/
def firstLoadOf (st : InsertState) (elfSortKeys : List Nat) (n : Name) :
    Option (Nat × Elf64_Sym) :=
  match (SymbolTable.get st.symbolTable n).firstLoad with
  | ⟨some s, elfID⟩ => some (elfSortKeys.getD elfID 0, s)
  | ⟨none, _⟩ => none

/-- A symbol table of an input is well formed when its entry size is that of `Elf64_Sym`. -/
def symtabsWellFormed (e : ElfInput) : Prop :=
  ∀ h ∈ e.headers, h.sh_type = SHT_SYMTAB → h.sh_entsize = sizeof_Elf64_Sym

/-- The function `insertSymbolsIntoSymbolTable` called on a collection of inputs given
with their sort keys, from an empty symbol table. -/
def insertAll (ins : List (Nat × ElfInput)) : InsertState :=
  insertSymbolsIntoSymbolTable (ins.map Prod.snd) (ins.map Prod.fst) 0 []

/-! ## Building concrete inputs -/

/-- The `n` bytes of the little-endian encoding of `v`. -/
def writeLE (v : Nat) : Nat → List Nat
  | 0 => []
  | n + 1 => (v % 256) :: writeLE (v / 256) n

/-- The 24 bytes of a symbol record. -/
def encodeSym (s : Elf64_Sym) : List Nat :=
  writeLE s.st_name 4 ++ [s.st_info % 256, s.st_other % 256] ++ writeLE s.st_shndx 2 ++
    writeLE s.st_value 8 ++ writeLE s.st_size 8

/-- A relocatable object that holds only a symbol table (section 1) and its string
table (section 2). -/
def objectWithSymbols (syms : List Elf64_Sym) (strtab : List Nat) : ElfInput :=
  { mem := syms.flatMap encodeSym ++ strtab
    headers := [
      default,
      { sh_name := 0, sh_type := SHT_SYMTAB, sh_flags := 0, sh_addr := 0, sh_offset := 0,
        sh_size := sizeof_Elf64_Sym * syms.length, sh_link := 2, sh_info := 1,
        sh_addralign := 8, sh_entsize := sizeof_Elf64_Sym },
      { sh_name := 0, sh_type := SHT_STRTAB, sh_flags := 0, sh_addr := 0,
        sh_offset := sizeof_Elf64_Sym * syms.length, sh_size := strtab.length, sh_link := 0,
        sh_info := 0, sh_addralign := 1, sh_entsize := 0 }] }

/-- A symbol of binding `bind` named by the string at offset `name`, in section `shndx`. -/
def mkSym (name bind shndx value : Nat) : Elf64_Sym :=
  { st_name := name, st_info := bind * 16, st_other := 0, st_shndx := shndx,
    st_value := value, st_size := 0 }

/-! ## Notions used in the proofs about the symbol table -/

/-- What one definition `d = (sym, elfID)` of a name does to the `firstLoad` of that name:
the redefinition test, then `replaceIfAppropriate`. -/
def loadStep (keys : List Nat) (entry : SymbolRef) (d : Elf64_Sym × Nat) : SymbolRef :=
  match entry.symbol with
  | some es =>
    if isGlobal d.1 && isGlobal es then entry else replaceIfAppropriate keys entry d.1 d.2
  | none => replaceIfAppropriate keys entry d.1 d.2

/-- The inserted symbol `o` is a definition of the name `n`. -/
def isDefinitionOf (n : Name) (o : Name × Elf64_Sym × Nat) : Bool :=
  decide (o.1 = n) && decide (o.2.1.st_shndx ≠ SHN_UNDEF)

/-- The definitions of `n` among inserted symbols, each with the id of its input. -/
def definitionsAmong (n : Name) (os : List (Name × Elf64_Sym × Nat)) : List (Elf64_Sym × Nat) :=
  (os.filter (isDefinitionOf n)).map (fun o => (o.2.1, o.2.2))

/-- The `firstLoad` reference of the name `n`. -/
def loadOf (st : InsertState) (n : Name) : SymbolRef :=
  (SymbolTable.get st.symbolTable n).firstLoad

/-- The sort key of the input of a definition. -/
def keyOf (keys : List Nat) (d : Elf64_Sym × Nat) : Nat := keys.getD d.2 0

/-- The relation between the definitions `D` of a name inserted so far and its `firstLoad`:
it is one of them, it is the non-weak one if there is one, and otherwise it is the first
of those with the smallest sort key. -/
def EntryInv (keys : List Nat) (D : List (Elf64_Sym × Nat)) (entry : SymbolRef) : Prop :=
  match entry.symbol with
  | none => D = []
  | some s =>
    (s, entry.elfID) ∈ D ∧
    (∀ d ∈ D, isWeak d.1 = false → d = (s, entry.elfID)) ∧
    (isWeak s = true → ∀ d ∈ D, keys.getD entry.elfID 0 ≤ keyOf keys d) ∧
    (isWeak s = true →
      (D.filter (fun d => keyOf keys d = keys.getD entry.elfID 0)).head? = some (s, entry.elfID))

/-- The views that the first pass collects for the inputs from index `i` on. -/
def viewsFrom (startID : Nat) : Nat → List ElfInput → List SymtabView
  | _, [] => []
  | i, e :: es => symtabViewsOf e (i + startID) ++ viewsFrom startID (i + 1) es

/-- The symbols of one view that are inserted, with their names and the id of the input. -/
def insertedOfView (v : SymtabView) : List (Name × Elf64_Sym × Nat) :=
  (symbolsFrom v.strings 0 v.syms).map (fun p => (p.1, p.2, v.elfID))

/-- All inserted symbols of a call, in the order of the second pass. -/
def insertedSymbols (inputs : List ElfInput) (startID : Nat) : List (Name × Elf64_Sym × Nat) :=
  (viewsFrom startID 0 inputs).flatMap insertedOfView

/-- What `firstLoad` of a name must hold, given all its definitions `A` with the sort keys
of their inputs: nothing if there is no definition, the non-weak definition if there is
one, and otherwise a weak definition of the input with the smallest sort key (the first
one of that input). -/
def FirstLoadSpec (A : List (Nat × Elf64_Sym)) (r : Option (Nat × Elf64_Sym)) : Prop :=
  match r with
  | none => A = []
  | some d =>
    d ∈ A ∧
    (∀ x ∈ A, isWeak x.2 = false → x = d) ∧
    (isWeak d.2 = true → ∀ x ∈ A, d.1 ≤ x.1) ∧
    (isWeak d.2 = true → (A.filter (fun x => x.1 = d.1)).head? = some d)

/-- A `firstLoad` reference as a symbol with the sort key of its input. -/
def observeRef (keys : List Nat) (entry : SymbolRef) : Option (Nat × Elf64_Sym) :=
  match entry with
  | ⟨some s, elfID⟩ => some (keys.getD elfID 0, s)
  | ⟨none, _⟩ => none

/-- The redefinition test of the loop body fires for the inserted symbol `o` in state `st`:
`o` is a definition, `firstLoad` of its name is set, and both are `STB_GLOBAL`. -/
def redefinitionAt (st : InsertState) (o : Name × Elf64_Sym × Nat) : Bool :=
  decide (o.2.1.st_shndx ≠ SHN_UNDEF) &&
    (match (loadOf st o.1).symbol with
     | some es => isGlobal o.2.1 && isGlobal es
     | none => false)

instance (e : ElfInput) : Decidable (symtabsWellFormed e) := by
  unfold symtabsWellFormed
  infer_instance

/-- The string table `"\0a\0b\0"`: the name `a` is at offset 1, the name `b` at offset 3. -/
def strtabAB : List Nat := [0, 97, 0, 98, 0]

/-- An object that defines `a` as a weak symbol. -/
def objWeakA : ElfInput := objectWithSymbols [default, mkSym 1 STB_WEAK 1 11] strtabAB

/-- An object that defines `a` as a global symbol. -/
def objGlobalA : ElfInput := objectWithSymbols [default, mkSym 1 STB_GLOBAL 1 22] strtabAB

/-- An object that defines `a` as a weak symbol and refers to `b`. -/
def objWeakARefB : ElfInput :=
  objectWithSymbols [default, mkSym 1 STB_WEAK 1 33, mkSym 3 STB_GLOBAL SHN_UNDEF 0] strtabAB

/-- An object that defines `a` with the binding `STB_GNU_UNIQUE` (10). -/
def objUniqueA : ElfInput := objectWithSymbols [default, mkSym 1 10 1 44] strtabAB

/-- The binding of the symbol is `STB_GLOBAL` or `STB_WEAK`. -/
def isGlobalOrWeak (s : Elf64_Sym) : Bool := isGlobal s || isWeak s

/-- What holds of the inserted symbols `P` and the state reached after them as long as the
status is `ok`: every name has at most one non-weak definition in `P`, every `firstLoad`
has the binding `STB_GLOBAL` or `STB_WEAK`, and a name with a non-weak definition in `P`
has a `STB_GLOBAL` symbol as `firstLoad`. -/
def GlobalInv (P : List (Name × Elf64_Sym × Nat)) (st : InsertState) : Prop :=
  st.status = StatusCode.ok → ∀ n,
    ((definitionsAmong n P).filter (fun x => !isWeak x.1)).length ≤ 1 ∧
    (∀ es, (loadOf st n).symbol = some es → isGlobalOrWeak es = true) ∧
    (((definitionsAmong n P).filter (fun x => !isWeak x.1)).length = 1 →
      ∃ es, (loadOf st n).symbol = some es ∧ isGlobal es = true)

/-- A second object that defines `a` as a global symbol. -/
def objGlobalA2 : ElfInput := objectWithSymbols [default, mkSym 1 STB_GLOBAL 1 55] strtabAB

/-! ## `determineArchiveMembersToExtract` -/

/-- The `ArchiveSymbolTable`: from a symbol name to the ids of the archive members that
define it, as an association list. -/
abbrev ArchiveSymbolTable := List (Name × List Nat)

/-- The call `archiveSymbolTable.find(symName)`. -/
def ArchiveSymbolTable.find : ArchiveSymbolTable → Name → Option (List Nat)
  | [], _ => none
  | (k, ids) :: rest, n => if k = n then some ids else ArchiveSymbolTable.find rest n

/-- The iterator `loadFromSearchIt` after the search: `std::find_if` for the first member
whose sort key is greater than that of the first search (the lambda takes the id as a
`uint32_t`), and `archMemIDs.begin()` when there is none. -/
def loadFromSearch (archiveMemberSortKeys : List Nat) (archMemIDs : List Nat)
    (firstSearchSortKey : Nat) : Nat :=
  match archMemIDs.find?
      (fun memID => decide (archiveMemberSortKeys.getD (memID % 2 ^ 32) 0 > firstSearchSortKey)) with
  | some memID => memID
  | none => archMemIDs.headD 0

/-- The loop of `determineArchiveMembersToExtract` over `searchedSymbolNames`, with the
member ids pushed so far.  The result is `none` when `symbolTable.at` throws. -/
def determineLoop (symbolTable : SymbolTable) (archiveSymbolTable : ArchiveSymbolTable)
    (elfSortKeys archiveMemberSortKeys : List Nat) :
    List Name → List Nat → Option (StatusCode × List Nat)
  | [], archiveMemberIDs => some (StatusCode.ok, archiveMemberIDs)
  | symName :: rest, archiveMemberIDs =>
    match SymbolTable.find symbolTable symName with
    | none => none
    | some elfRef =>
      match ArchiveSymbolTable.find archiveSymbolTable symName with
      | none =>
        determineLoop symbolTable archiveSymbolTable elfSortKeys archiveMemberSortKeys rest
          archiveMemberIDs
      | some archMemIDs =>
        if archMemIDs.isEmpty then
          determineLoop symbolTable archiveSymbolTable elfSortKeys archiveMemberSortKeys rest
            archiveMemberIDs
        else
          let firstSearchSortKey := elfSortKeys.getD elfRef.firstSearch.elfID 0
          let loadFromSearchIt := loadFromSearch archiveMemberSortKeys archMemIDs firstSearchSortKey
          let archiveSortKey := archiveMemberSortKeys.getD loadFromSearchIt 0
          match elfRef.firstLoad.symbol with
          | none =>
            determineLoop symbolTable archiveSymbolTable elfSortKeys archiveMemberSortKeys rest
              (archiveMemberIDs ++ [loadFromSearchIt])
          | some _ =>
            if firstSearchSortKey < archiveSortKey ∧
                archiveSortKey < elfSortKeys.getD elfRef.firstLoad.elfID 0 then
              some (StatusCode.symbol_redefined, archiveMemberIDs)
            else
              determineLoop symbolTable archiveSymbolTable elfSortKeys archiveMemberSortKeys rest
                archiveMemberIDs

/-- The function `determineArchiveMembersToExtract`: the returned status and the ids
pushed to `archiveMemberIDsToExtract`, which the caller passes empty. -/
def determineArchiveMembersToExtract (symbolTable : SymbolTable)
    (archiveSymbolTable : ArchiveSymbolTable) (elfSortKeys archiveMemberSortKeys : List Nat)
    (searchedSymbolNames : List Name) : Option (StatusCode × List Nat) :=
  determineLoop symbolTable archiveSymbolTable elfSortKeys archiveMemberSortKeys
    searchedSymbolNames []

/-! ### The words of the specification about archive members -/

/-- The archive members of a name; none when the archive symbol table has no entry. -/
def membersOf (archiveSymbolTable : ArchiveSymbolTable) (n : Name) : List Nat :=
  (ArchiveSymbolTable.find archiveSymbolTable n).getD []

/-- The member selected for a name: the first of its members whose sort key is strictly
greater than the sort key of the input of `firstSearch`, else its first member. -/
def selectedMember (symbolTable : SymbolTable) (archiveSymbolTable : ArchiveSymbolTable)
    (elfSortKeys archiveMemberSortKeys : List Nat) (n : Name) : Nat :=
  let searchKey := elfSortKeys.getD (SymbolTable.get symbolTable n).firstSearch.elfID 0
  match (membersOf archiveSymbolTable n).find?
      (fun m => decide (searchKey < archiveMemberSortKeys.getD m 0)) with
  | some m => m
  | none => (membersOf archiveSymbolTable n).headD 0

/-- The name has a `firstLoad`, has an archive member, and the sort key of the selected
member lies strictly between those of the inputs of `firstSearch` and `firstLoad`. -/
def archiveConflict (symbolTable : SymbolTable) (archiveSymbolTable : ArchiveSymbolTable)
    (elfSortKeys archiveMemberSortKeys : List Nat) (n : Name) : Bool :=
  let e := SymbolTable.get symbolTable n
  let k := archiveMemberSortKeys.getD
    (selectedMember symbolTable archiveSymbolTable elfSortKeys archiveMemberSortKeys n) 0
  e.firstLoad.symbol.isSome && !(membersOf archiveSymbolTable n).isEmpty &&
    decide (elfSortKeys.getD e.firstSearch.elfID 0 < k) &&
    decide (k < elfSortKeys.getD e.firstLoad.elfID 0)

/-- The members scheduled for one occurrence of a searched name: the selected member when
the name has no `firstLoad` and has an archive member, nothing otherwise. -/
def scheduledFor (symbolTable : SymbolTable) (archiveSymbolTable : ArchiveSymbolTable)
    (elfSortKeys archiveMemberSortKeys : List Nat) (n : Name) : List Nat :=
  if (SymbolTable.get symbolTable n).firstLoad.symbol.isNone ∧
      ¬ (membersOf archiveSymbolTable n).isEmpty then
    [selectedMember symbolTable archiveSymbolTable elfSortKeys archiveMemberSortKeys n]
  else []

/-- The string table `"\0_start\0exit\0"`. -/
def strtabStartExit : List Nat :=
  [0, 95, 115, 116, 97, 114, 116, 0, 101, 120, 105, 116, 0]

/-- The name `exit`. -/
def nameExit : Name := [101, 120, 105, 116]

/-- The object `a.o` of the archive test: it defines `_start` and refers to `exit`. -/
def objA : ElfInput :=
  objectWithSymbols [default, mkSym 1 STB_GLOBAL 1 0, mkSym 8 STB_GLOBAL SHN_UNDEF 0]
    strtabStartExit

/-- The object `c.o` of the archive test: it defines `exit`. -/
def objC : ElfInput := objectWithSymbols [default, mkSym 8 STB_GLOBAL 1 0] strtabStartExit

/-- The index of the archive `b.a`: its only member (id 0) defines `exit`. -/
def archiveB : ArchiveSymbolTable := [(nameExit, [0])]

/-- The symbol table of the archive test after the objects `a.o` (file 0) and `c.o`
(file `fileC`) are inserted. -/
def archiveTestState (fileC : Nat) : InsertState :=
  insertSymbolsIntoSymbolTable [objA, objC] [makeSortKey 0 0, makeSortKey fileC 0] 0 []

/-- The call of `determineArchiveMembersToExtract` in the archive test: `a.o` is file 0,
`c.o` is file `fileC`, and the member of `b.a` (file `fileB`) lies at offset 82 of the
archive, behind the magic bytes, the header of the index and the index. -/
def archiveTest (fileB fileC : Nat) : Option (StatusCode × List Nat) :=
  determineArchiveMembersToExtract (archiveTestState fileC).symbolTable archiveB
    [makeSortKey 0 0, makeSortKey fileC 0] [makeSortKey fileB 82]
    (archiveTestState fileC).searchedSymbolNames

/-! ## Shared types of the mapping stage (`cppld_internal_types.hpp`) -/

/-- A two's complement 64-bit pattern as the signed value it denotes. -/
def toInt64 (v : Nat) : Int :=
  if v % 2 ^ 64 < 2 ^ 63 then ((v % 2 ^ 64 : Nat) : Int) else ((v % 2 ^ 64 : Nat) : Int) - 2 ^ 64

/-- The conversion `static_cast<size_t>` of a signed 64-bit value. -/
def toUInt64 (i : Int) : Nat := (i % 2 ^ 64).toNat

/-- A relocation record `Elf64_Rela`. -/
structure Elf64_Rela where
  r_offset : Nat
  r_info : Nat
  r_addend : Int
  deriving DecidableEq, Repr

/-- The record `Elf64_Rela` stored at offset `off`. -/
def readRela (mem : Memory) (off : Nat) : Elf64_Rela :=
  { r_offset := readLE mem off 8
    r_info := readLE mem (off + 8) 8
    r_addend := toInt64 (readLE mem (off + 16) 8) }

/-- The function `view_as_span<Elf64_Rela>(ptr, numElements)`. -/
def view_as_span_Rela (mem : Memory) (off numElements : Nat) : List Elf64_Rela :=
  (List.range numElements).map (fun i => readRela mem (off + sizeof_Elf64_Rela * i))

/-- The macro `ELF64_R_SYM`. -/
def ELF64_R_SYM (info : Nat) : Nat := info / 2 ^ 32

/-- The macro `ELF64_R_TYPE`. -/
def ELF64_R_TYPE (info : Nat) : Nat := info % 2 ^ 32

/-- A `PartCopy`: how many bytes are copied and to which offset of the output section. -/
structure PartCopy where
  size : Nat
  dstOffset : Nat
  deriving DecidableEq, Repr

/-- The variant `SectionMemCopies`. -/
inductive SectionMemCopies where
  | monostate
  | part (cmd : PartCopy)
  | parts (cmds : List PartCopy)
  deriving DecidableEq, Repr

instance : Inhabited SectionMemCopies := ⟨SectionMemCopies.monostate⟩

/-- The enumeration `ProcessedRela::Note`. -/
inductive Note where
  | none
  | undefinedWeak
  | absoluteValue
  deriving DecidableEq, Repr

/-- A `ProcessedRela`. -/
structure ProcessedRela where
  addend : Int
  outputSectionOffset : Nat
  symbolValue : Nat
  type : Nat
  symbolSectionID : Nat
  note : Note
  deriving DecidableEq, Repr

instance : Inhabited ProcessedRela := ⟨⟨0, 0, 0, 0, 0, Note.none⟩⟩

/-- A `GOTEntryPatchupInfo`. -/
structure GOTEntryPatchupInfo where
  elfID : Nat
  headerID : Nat
  symbolValue : Nat
  deriving DecidableEq, Repr

/-- An element `v[i][j]` of a `Vector2D`. -/
def get2D {α : Type} [Inhabited α] (v : List (List α)) (i j : Nat) : α :=
  (v.getD i []).getD j default

/-- The constant `meta::notAnOutputSection`, the largest `OutSectionID`. -/
def notAnOutputSection : Nat := 65535

/-- The constant `meta::numReservedGotEntries`. -/
def numReservedGotEntries : Nat := 3

/-! ## Relocation preprocessing (`mapInputSectionsToOutputSections.cpp`) -/

/-- The loop of `inputToOutputSectionOffset` over a vector of copy commands, with the
running `start`; `end` is `start + size`. -/
def searchPartCopies (offsetInInput : Nat) : List PartCopy → Nat → Option Nat
  | [], _ => none
  | copyCmd :: rest, start =>
    if start ≤ offsetInInput ∧ offsetInInput < start + copyCmd.size then
      some ((offsetInInput + copyCmd.dstOffset) % 2 ^ 64)
    else searchPartCopies offsetInInput rest (start + copyCmd.size)

/-- The function `inputToOutputSectionOffset`: the returned status and `offsetInOutput`. -/
def inputToOutputSectionOffset (elfIndex headerIndex offsetInInput : Nat)
    (inputSectionCopyCommands : List (List SectionMemCopies)) : StatusCode × Nat :=
  match get2D inputSectionCopyCommands elfIndex headerIndex with
  | SectionMemCopies.parts copyCmdsVec =>
    match searchPartCopies offsetInInput copyCmdsVec 0 with
    | some offsetInOutput => (StatusCode.ok, offsetInOutput)
    | none => (StatusCode.bad_input_file, offsetInInput)
  | SectionMemCopies.part cmd => (StatusCode.ok, (offsetInInput + cmd.dstOffset) % 2 ^ 64)
  | SectionMemCopies.monostate => (StatusCode.not_ok, offsetInInput)

/-- The lambda `needsGOTEntry`. -/
def needsGOTEntry (type : Nat) : Bool :=
  type == R_X86_64_GOT32 || type == R_X86_64_GOT64 || type == R_X86_64_GOTPCREL ||
    type == R_X86_64_GOTPCREL64 || type == R_X86_64_GOTPCRELX || type == R_X86_64_REX_GOTPCRELX

/-- What `processRelas` reads and writes: its status, the vector `processResults`, the map
`symbolNamesThatNeedGOTEntries`, the vector `gotEntryPatches`, and the statuses passed to
`report`, in order. -/
structure RelaState where
  status : StatusCode
  processResults : List ProcessedRela
  symbolNamesThatNeedGOTEntries : List (Name × Nat)
  gotEntryPatches : List GOTEntryPatchupInfo
  reported : List StatusCode
  deriving DecidableEq, Repr

/-- The outcome of a loop body that can end the function: `continue`, or `return code`. -/
inductive LoopStep (σ : Type) where
  | continue (s : σ)
  | return (code : StatusCode) (s : σ)

/-- The call `symbolNamesThatNeedGOTEntries.find(symName)`. -/
def gotIndexOf : List (Name × Nat) → Name → Option Nat
  | [], _ => none
  | (k, i) :: rest, n => if k = n then some i else gotIndexOf rest n

/-- The lambda `addGOTEntry`, applied to the last element `resRela` of `processResults`. -/
def addGOTEntry (gotSectionIndex : Nat) (st : RelaState) (resRela : ProcessedRela)
    (symName : Name) (patchInfo : GOTEntryPatchupInfo) : RelaState × ProcessedRela :=
  let nextIndex := st.symbolNamesThatNeedGOTEntries.length + numReservedGotEntries
  match gotIndexOf st.symbolNamesThatNeedGOTEntries symName with
  | some index =>
    (st, { resRela with symbolSectionID := gotSectionIndex,
                        symbolValue := index * sizeof_Elf64_Addr })
  | none =>
    ({ st with
       symbolNamesThatNeedGOTEntries := st.symbolNamesThatNeedGOTEntries ++ [(symName, nextIndex)]
       gotEntryPatches := st.gotEntryPatches ++ [patchInfo] },
     { resRela with symbolSectionID := gotSectionIndex,
                    symbolValue := nextIndex * sizeof_Elf64_Addr })

/-- The inputs of `processRelas` that stay fixed during the loop.  The span
`linkedSymbols` is the memory `mem` from offset `linkedSymbolsOffset` on, and `symStrings`
is the memory from offset `symStringsOffset` on. -/
structure ProcessRelasIn where
  elfID : Nat
  headerID : Nat
  mem : Memory
  symStringsOffset : Nat
  linkedSymbolsOffset : Nat
  symbolTable : SymbolTable
  inputToOutputSection : List (List Nat)
  inputSectionCopyCommands : List (List SectionMemCopies)
  gotSectionIndex : Nat

/-- The symbol `linkedSymbols[ELF64_R_SYM(rela.r_info)]`. -/
def linkedSymbol (p : ProcessRelasIn) (rela : Elf64_Rela) : Elf64_Sym :=
  readSym p.mem (p.linkedSymbolsOffset + sizeof_Elf64_Sym * ELF64_R_SYM rela.r_info)

/-- The name `symName` of the symbol of a relocation. -/
def relaSymName (p : ProcessRelasIn) (rela : Elf64_Rela) : Name :=
  cstrAt p.mem (p.symStringsOffset + (linkedSymbol p rela).st_name)

/-- The loop body of `processRelas` for a relocation whose symbol `sym` is local. -/
def processLocalRela (p : ProcessRelasIn) (st : RelaState) (rela : Elf64_Rela)
    (sym : Elf64_Sym) : LoopStep RelaState :=
  if sym.st_shndx = SHN_UNDEF then
    LoopStep.continue { st with status := StatusCode.not_ok
                                reported := st.reported ++ [StatusCode.not_ok] }
  else
    let outSection := inputToOutputSectionOffset p.elfID p.headerID rela.r_offset
      p.inputSectionCopyCommands
    if outSection.1 ≠ StatusCode.ok then
      LoopStep.return outSection.1 { st with reported := st.reported ++ [outSection.1] }
    else
      let symbolValue := inputToOutputSectionOffset p.elfID sym.st_shndx sym.st_value
        p.inputSectionCopyCommands
      if symbolValue.1 ≠ StatusCode.ok then
        LoopStep.return symbolValue.1 { st with reported := st.reported ++ [symbolValue.1] }
      else
        LoopStep.continue { st with processResults := st.processResults ++ [
          { addend := rela.r_addend, outputSectionOffset := outSection.2,
            symbolValue := symbolValue.2, type := ELF64_R_TYPE rela.r_info,
            symbolSectionID := get2D p.inputToOutputSection p.elfID sym.st_shndx,
            note := Note.none }] }

/-- The loop body of `processRelas` from `auto& symbol = *firstLoad.symbol` on: the symbol
`sym` of the relocation has the definition `symbol` in the input `firstLoadElfID`, and
`resRela` is the element appended to `processResults` so far. -/
def processDefinedRela (p : ProcessRelasIn) (st : RelaState) (sym : Elf64_Sym)
    (resRela : ProcessedRela) (symName : Name) (firstLoadElfID : Nat) (symbol : Elf64_Sym) :
    LoopStep RelaState :=
  if symbol.st_shndx = SHN_XINDEX then
    LoopStep.continue
      { st with status := StatusCode.bad_input_file
                processResults := st.processResults ++ [resRela]
                reported := st.reported ++ [StatusCode.bad_input_file] }
  else
    let resRela2 := { resRela with
      symbolSectionID := get2D p.inputToOutputSection firstLoadElfID symbol.st_shndx }
    let symbolValueState := inputToOutputSectionOffset firstLoadElfID symbol.st_shndx
      symbol.st_value p.inputSectionCopyCommands
    let resRela3 : ProcessedRela :=
      if symbol.st_shndx = SHN_ABS then
        { resRela2 with symbolValue := symbol.st_value, note := Note.absoluteValue }
      else { resRela2 with symbolValue := symbolValueState.2 }
    if symbol.st_shndx ≠ SHN_ABS ∧ symbolValueState.1 ≠ StatusCode.ok then
      LoopStep.return symbolValueState.1
        { st with processResults := st.processResults ++ [resRela3]
                  reported := st.reported ++ [symbolValueState.1] }
    else if needsGOTEntry resRela3.type then
      let r := addGOTEntry p.gotSectionIndex st resRela3 symName
        ⟨firstLoadElfID, symbol.st_shndx, symbol.st_value⟩
      LoopStep.continue { r.1 with processResults := st.processResults ++ [r.2] }
    else if resRela3.type = R_X86_64_SIZE32 ∨ resRela3.type = R_X86_64_SIZE64 then
      LoopStep.continue { st with processResults := st.processResults ++ [
        { resRela3 with symbolValue := sym.st_size }] }
    else
      LoopStep.continue { st with processResults := st.processResults ++ [resRela3] }

/-- The loop body of `processRelas` for a relocation whose symbol `sym` is global or weak,
from `processResults.emplace_back()` on. -/
def processGlobalRela (p : ProcessRelasIn) (st : RelaState) (rela : Elf64_Rela)
    (sym : Elf64_Sym) : LoopStep RelaState :=
  let outputSection := inputToOutputSectionOffset p.elfID p.headerID rela.r_offset
    p.inputSectionCopyCommands
  let resRela0 : ProcessedRela :=
    { (default : ProcessedRela) with addend := rela.r_addend,
                                     outputSectionOffset := outputSection.2 }
  if outputSection.1 ≠ StatusCode.ok then
    LoopStep.return outputSection.1
      { st with processResults := st.processResults ++ [resRela0]
                reported := st.reported ++ [outputSection.1] }
  else
    let resRela1 := { resRela0 with type := ELF64_R_TYPE rela.r_info }
    let symName := cstrAt p.mem (p.symStringsOffset + sym.st_name)
    match SymbolTable.find p.symbolTable symName with
    | none =>
      LoopStep.return StatusCode.symbol_undefined
        { st with processResults := st.processResults ++ [resRela1]
                  reported := st.reported ++ [StatusCode.symbol_undefined] }
    | some entry =>
      let isWeakSym : Bool := ELF64_ST_BIND sym.st_info == STB_WEAK
      match entry.firstLoad.symbol with
      | none =>
        if !isWeakSym then
          LoopStep.continue
            { st with status := StatusCode.symbol_undefined
                      processResults := st.processResults ++ [resRela1]
                      reported := st.reported ++ [StatusCode.symbol_undefined] }
        else
          let resRela2 := { resRela1 with symbolValue := 0, symbolSectionID := 0,
                                          note := Note.undefinedWeak }
          if needsGOTEntry resRela2.type then
            let r := addGOTEntry p.gotSectionIndex st resRela2 symName ⟨0, SHN_UNDEF, 0⟩
            LoopStep.continue { r.1 with processResults := st.processResults ++ [r.2] }
          else
            LoopStep.continue { st with processResults := st.processResults ++ [resRela2] }
      | some symbol =>
        processDefinedRela p st sym resRela1 symName entry.firstLoad.elfID symbol

/-- The body of the loop of `processRelas` for one relocation. -/
def processRela (p : ProcessRelasIn) (st : RelaState) (rela : Elf64_Rela) : LoopStep RelaState :=
  let sym := linkedSymbol p rela
  if sym.st_shndx = SHN_XINDEX then
    LoopStep.continue { st with status := StatusCode.bad_input_file
                                reported := st.reported ++ [StatusCode.bad_input_file] }
  else if sym.st_shndx = SHN_ABS then
    LoopStep.continue { st with processResults := st.processResults ++ [
      { addend := 0, outputSectionOffset := 0, symbolValue := sym.st_value,
        type := ELF64_R_TYPE rela.r_info, symbolSectionID := 0, note := Note.absoluteValue }] }
  else if ELF64_ST_BIND sym.st_info = STB_LOCAL then processLocalRela p st rela sym
  else processGlobalRela p st rela sym

/-- What one step of the loop of `processRelas` does to the status and to the reports:
reports are only added, and a status or return code that is set is not `ok` and has been
reported. -/
def RelaStepSpec (st : RelaState) : LoopStep RelaState → Prop
  | LoopStep.continue st' =>
    (∀ c ∈ st.reported, c ∈ st'.reported) ∧
      (st'.status = st.status ∨ (st'.status ≠ StatusCode.ok ∧ st'.status ∈ st'.reported))
  | LoopStep.return code st' =>
    (∀ c ∈ st.reported, c ∈ st'.reported) ∧ code ≠ StatusCode.ok ∧ code ∈ st'.reported

/-- The loop of `processRelas` over the relocations: the code of an early `return`, if
any, and the state reached. -/
def processRelasLoop (p : ProcessRelasIn) : List Elf64_Rela → RelaState →
    Option StatusCode × RelaState
  | [], st => (none, st)
  | rela :: rest, st =>
    match processRela p st rela with
    | LoopStep.continue st' => processRelasLoop p rest st'
    | LoopStep.return code st' => (some code, st')

/-- The function `processRelas`: the returned status and the state of its `inout` and
`out` parameters.  The local `status` starts as `ok`. -/
def processRelas (p : ProcessRelasIn) (relas : List Elf64_Rela) (st : RelaState) :
    StatusCode × RelaState :=
  let r := processRelasLoop p relas { st with status := StatusCode.ok }
  (r.1.getD r.2.status, r.2)

/-- What `preProcessesRelocations` writes: its status, the vectors `processedRelas` and
`gotEntryPatches`, the map `symbolNamesThatNeedGOTEntries`, and the statuses passed to
`report`, in order. -/
structure PreProcessState where
  status : StatusCode
  processedRelas : List (List ProcessedRela)
  symbolNamesThatNeedGOTEntries : List (Name × Nat)
  gotEntryPatches : List GOTEntryPatchupInfo
  reported : List StatusCode
  deriving DecidableEq, Repr

/-- The inputs of `preProcessesRelocations` other than the input files. -/
structure PreProcessIn where
  symbolTable : SymbolTable
  inputSectionCopyCommands : List (List SectionMemCopies)
  inputToOutputSection : List (List Nat)
  numberOfOutputSections : Nat
  gotSectionIndex : Nat

/-- The parameters of the call of `processRelas` for the section `header` of input `elfID`. -/
def processRelasInOf (q : PreProcessIn) (e : ElfInput) (elfID : Nat) (header : Elf64_Shdr) :
    ProcessRelasIn :=
  let symTabHdr := e.headers.getD header.sh_link default
  let symStrTabHdr := e.headers.getD symTabHdr.sh_link default
  { elfID := elfID
    headerID := header.sh_info
    mem := e.mem
    symStringsOffset := symStrTabHdr.sh_offset
    linkedSymbolsOffset := symTabHdr.sh_offset
    symbolTable := q.symbolTable
    inputToOutputSection := q.inputToOutputSection
    inputSectionCopyCommands := q.inputSectionCopyCommands
    gotSectionIndex := q.gotSectionIndex }

/-- The span `relas` of a `SHT_RELA` section. -/
def relasOf (e : ElfInput) (header : Elf64_Shdr) : List Elf64_Rela :=
  view_as_span_Rela e.mem header.sh_offset (header.sh_size / header.sh_entsize)

/-- The inner lambda of `preProcessesRelocations`, for one section header of input `elfID`. -/
def preProcessHeader (q : PreProcessIn) (e : ElfInput) (elfID : Nat) (st : PreProcessState)
    (header : Elf64_Shdr) (_headerIndex : Nat) : PreProcessState :=
  if header.sh_type ≠ SHT_RELA then st
  else if header.sh_entsize ≠ sizeof_Elf64_Rela then
    { st with status := StatusCode.not_ok, reported := st.reported ++ [StatusCode.not_ok] }
  else
    let outSectionID := get2D q.inputToOutputSection elfID header.sh_info
    if outSectionID = notAnOutputSection then st
    else
      let r := processRelas (processRelasInOf q e elfID header) (relasOf e header)
        { status := StatusCode.ok
          processResults := st.processedRelas.getD outSectionID []
          symbolNamesThatNeedGOTEntries := st.symbolNamesThatNeedGOTEntries
          gotEntryPatches := st.gotEntryPatches
          reported := st.reported }
      let st' : PreProcessState :=
        { status := st.status
          processedRelas := st.processedRelas.set outSectionID r.2.processResults
          symbolNamesThatNeedGOTEntries := r.2.symbolNamesThatNeedGOTEntries
          gotEntryPatches := r.2.gotEntryPatches
          reported := r.2.reported }
      if r.1 ≠ StatusCode.ok then { st' with status := r.1 } else st'

/-- The outer lambda of `preProcessesRelocations`, for one input. -/
def preProcessInput (q : PreProcessIn) (st : PreProcessState) (e : ElfInput) (elfID : Nat) :
    PreProcessState :=
  forEachIndexed e.headers (preProcessHeader q e elfID) st

/-- The function `preProcessesRelocations`; `inputs` are the parallel spans `elfAddresses`
and `sectionHeaders`. -/
def preProcessesRelocations (inputs : List ElfInput) (q : PreProcessIn) : PreProcessState :=
  forEachIndexed inputs (preProcessInput q)
    { status := StatusCode.ok
      processedRelas := List.replicate q.numberOfOutputSections []
      symbolNamesThatNeedGOTEntries := []
      gotEntryPatches := []
      reported := [] }

/-! ### Notions used to state the properties of the relocation stage -/

/-- The name has no `firstLoad` in the symbol table: it has no entry, or an entry whose
`firstLoad` is empty. -/
def hasNoFirstLoad (symbolTable : SymbolTable) (n : Name) : Prop :=
  ∀ entry, SymbolTable.find symbolTable n = some entry → entry.firstLoad.symbol = none

/-! ## `writeLinkingResultsToFile.cpp` -/

/-- Addition of `size_t` values. -/
def add64 (a b : Nat) : Nat := (a + b) % 2 ^ 64

/-- Subtraction of `size_t` values. -/
def sub64 (a b : Nat) : Nat := (a + (2 ^ 64 - b % 2 ^ 64)) % 2 ^ 64

/-- The `switch` of `prepareRelaWrite` over the relocation type: `relaValue` and
`relaValueSize`, or nothing in the `default` case.  `Z` is `rela.symbolValue`. -/
def relaSwitch (type S A P G GOT Z : Nat) : Option (Nat × Nat) :=
  if type = R_X86_64_NONE then some (0, 0)
  else if type = R_X86_64_64 then some (add64 S A, 8)
  else if type = R_X86_64_PLT32 ∨ type = R_X86_64_PC32 then some (sub64 (add64 S A) P, 4)
  else if type = R_X86_64_GOT32 then some (add64 G A, 4)
  else if type = R_X86_64_GLOB_DAT ∨ type = R_X86_64_JUMP_SLOT then some (S, 8)
  else if type = R_X86_64_GOTPCREL then some (sub64 (add64 (add64 G GOT) A) P, 4)
  else if type = R_X86_64_32 then some (add64 S A, 4)
  else if type = R_X86_64_32S then some (add64 S A, 4)
  else if type = R_X86_64_16 then some (add64 S A, 2)
  else if type = R_X86_64_PC16 then some (sub64 (add64 S A) P, 2)
  else if type = R_X86_64_8 then some (add64 S A, 1)
  else if type = R_X86_64_PC8 then some (sub64 (add64 S A) P, 1)
  else if type = R_X86_64_PC64 then some (sub64 (add64 S A) P, 8)
  else if type = R_X86_64_GOTOFF64 then some (sub64 (add64 S A) GOT, 8)
  else if type = R_X86_64_GOTPC32 then some (sub64 (add64 GOT A) P, 4)
  else if type = R_X86_64_GOT64 then some (add64 G A, 8)
  else if type = R_X86_64_GOTPCREL64 then some (sub64 (add64 (add64 G GOT) A) P, 8)
  else if type = R_X86_64_GOTPC64 then some (sub64 (add64 GOT A) P, 8)
  else if type = R_X86_64_SIZE32 then some (add64 Z A, 4)
  else if type = R_X86_64_SIZE64 then some (add64 Z A, 8)
  else if type = R_X86_64_GOTPCRELX ∨ type = R_X86_64_REX_GOTPCRELX then
    some (sub64 (add64 (add64 G GOT) A) P, 4)
  else none

/-- The value `S` that `prepareRelaWrite` computes. -/
def relaS (rela : ProcessedRela) (outputSectionAddresses : List Nat) : Nat :=
  let S0 := add64 (outputSectionAddresses.getD rela.symbolSectionID 0) rela.symbolValue
  let S1 := if rela.note = Note.undefinedWeak then 0 else S0
  if rela.note = Note.absoluteValue then rela.symbolValue else S1

/-- The function `prepareRelaWrite`: the returned status, `relaValue`, `relaValueSize` and
`filePos`. -/
def prepareRelaWrite (rela : ProcessedRela) (gotAddress : Nat) (outputSectionAddresses : List Nat)
    (outputAddress : Nat) (fileOffset : Int) : StatusCode × Nat × Nat × Int :=
  let A := toUInt64 rela.addend
  let GOT := gotAddress
  let S := relaS rela outputSectionAddresses
  let G := rela.symbolValue
  let P := add64 outputAddress rela.outputSectionOffset
  let filePos := toInt64 (toUInt64 (fileOffset + toInt64 rela.outputSectionOffset))
  match relaSwitch rela.type S A P G GOT rela.symbolValue with
  | some (relaValue, relaValueSize) => (StatusCode.ok, relaValue, relaValueSize, filePos)
  | none => (StatusCode.not_ok, 0, 0, filePos)

/-- The 24 bytes of a relocation record. -/
def encodeRela (r : Elf64_Rela) : List Nat :=
  writeLE r.r_offset 8 ++ writeLE r.r_info 8 ++ writeLE (toUInt64 r.r_addend) 8

/-- A relocatable object with a `.text` section (section 1, ten bytes that are not stored
here), a symbol table with the symbol `sym` at index 1 (section 2), the string table
`"\0a\0b\0"` (section 3), and a `SHT_RELA` section for `.text` with the relocation `rela`
(section 4). -/
def objectWithRelocation (sym : Elf64_Sym) (rela : Elf64_Rela) : ElfInput :=
  { mem := encodeSym default ++ encodeSym sym ++ strtabAB ++ encodeRela rela
    headers := [
      default,
      { sh_name := 0, sh_type := SHT_PROGBITS, sh_flags := SHF_ALLOC + SHF_EXECINSTR, sh_addr := 0,
        sh_offset := 77, sh_size := 10, sh_link := 0, sh_info := 0, sh_addralign := 1,
        sh_entsize := 0 },
      { sh_name := 0, sh_type := SHT_SYMTAB, sh_flags := 0, sh_addr := 0, sh_offset := 0,
        sh_size := 48, sh_link := 3, sh_info := 1, sh_addralign := 8,
        sh_entsize := sizeof_Elf64_Sym },
      { sh_name := 0, sh_type := SHT_STRTAB, sh_flags := 0, sh_addr := 0, sh_offset := 48,
        sh_size := 5, sh_link := 0, sh_info := 0, sh_addralign := 1, sh_entsize := 0 },
      { sh_name := 0, sh_type := SHT_RELA, sh_flags := 0, sh_addr := 0, sh_offset := 53,
        sh_size := 24, sh_link := 2, sh_info := 1, sh_addralign := 8,
        sh_entsize := sizeof_Elf64_Rela }] }

/-- The relocation of the tests with an undefined symbol: `movabsq $a, %rax`, of type
`R_X86_64_64` against the symbol at index 1, at offset 2 of `.text`, with addend 0. -/
def relaMovabs : Elf64_Rela := { r_offset := 2, r_info := 1 * 2 ^ 32 + R_X86_64_64, r_addend := 0 }

/-- An object whose `.text` refers to the undefined global symbol `a`. -/
def objRefGlobalA : ElfInput := objectWithRelocation (mkSym 1 STB_GLOBAL SHN_UNDEF 0) relaMovabs

/-- An object whose `.text` refers to the undefined weak symbol `a`. -/
def objRefWeakA : ElfInput := objectWithRelocation (mkSym 1 STB_WEAK SHN_UNDEF 0) relaMovabs

/-- The inputs of `preProcessesRelocations` for a link of the single object `obj` of the
shape of `objectWithRelocation`: its `.text` is the only output section (id 0) and the
global offset table would be output section 1. -/
def singleObjectLink (obj : ElfInput) : PreProcessIn :=
  { symbolTable := (insertSymbolsIntoSymbolTable [obj] [0] 0 []).symbolTable
    inputSectionCopyCommands :=
      [[SectionMemCopies.monostate, SectionMemCopies.part ⟨10, 0⟩, SectionMemCopies.monostate,
        SectionMemCopies.monostate, SectionMemCopies.monostate]]
    inputToOutputSection := [[notAnOutputSection, 0, notAnOutputSection, notAnOutputSection,
      notAnOutputSection]]
    numberOfOutputSections := 2
    gotSectionIndex := 1 }

/-- The relation between a state of `preProcessesRelocations` and a later one: reports are
only added, and a status that is set is not `ok` and has been reported. -/
def PreStepSpec (st st' : PreProcessState) : Prop :=
  (∀ c ∈ st.reported, c ∈ st'.reported) ∧
    (st'.status = st.status ∨ (st'.status ≠ StatusCode.ok ∧ st'.status ∈ st'.reported))

/-! ### The relocation table of the specification -/

/-- The formulas of the table, in the psABI notation; `Z` is the size of the symbol. -/
inductive RelaFormula where
  | none
  | S_A
  | S_A_P
  | G_A
  | S
  | G_GOT_A_P
  | S_A_GOT
  | GOT_A_P
  | Z_A
  deriving DecidableEq, Repr

/-- The table of the specification: relocation type, value and size in bytes. -/
def relocationTable : List (Nat × RelaFormula × Nat) :=
  [ (R_X86_64_NONE, RelaFormula.none, 0),
    (R_X86_64_64, RelaFormula.S_A, 8),
    (R_X86_64_PC32, RelaFormula.S_A_P, 4),
    (R_X86_64_PLT32, RelaFormula.S_A_P, 4),
    (R_X86_64_GOT32, RelaFormula.G_A, 4),
    (R_X86_64_GLOB_DAT, RelaFormula.S, 8),
    (R_X86_64_JUMP_SLOT, RelaFormula.S, 8),
    (R_X86_64_GOTPCREL, RelaFormula.G_GOT_A_P, 4),
    (R_X86_64_GOTPCRELX, RelaFormula.G_GOT_A_P, 4),
    (R_X86_64_REX_GOTPCRELX, RelaFormula.G_GOT_A_P, 4),
    (R_X86_64_32, RelaFormula.S_A, 4),
    (R_X86_64_32S, RelaFormula.S_A, 4),
    (R_X86_64_16, RelaFormula.S_A, 2),
    (R_X86_64_PC16, RelaFormula.S_A_P, 2),
    (R_X86_64_8, RelaFormula.S_A, 1),
    (R_X86_64_PC8, RelaFormula.S_A_P, 1),
    (R_X86_64_PC64, RelaFormula.S_A_P, 8),
    (R_X86_64_GOTOFF64, RelaFormula.S_A_GOT, 8),
    (R_X86_64_GOTPC32, RelaFormula.GOT_A_P, 4),
    (R_X86_64_GOT64, RelaFormula.G_A, 8),
    (R_X86_64_GOTPCREL64, RelaFormula.G_GOT_A_P, 8),
    (R_X86_64_GOTPC64, RelaFormula.GOT_A_P, 8),
    (R_X86_64_SIZE32, RelaFormula.Z_A, 4),
    (R_X86_64_SIZE64, RelaFormula.Z_A, 8) ]

/-- The row of the table for a relocation type, if it has one. -/
def tableRow (type : Nat) : Option (RelaFormula × Nat) :=
  (relocationTable.find? (fun row => row.1 == type)).map Prod.snd

/-- An integer reduced modulo `2^64`. -/
def mod64 (i : Int) : Nat := (i % 2 ^ 64).toNat

/-- The value of a formula of the table, modulo `2^64`. -/
def evalFormula (f : RelaFormula) (S A P G GOT Z : Nat) : Nat :=
  match f with
  | RelaFormula.none => 0
  | RelaFormula.S_A => mod64 (S + A)
  | RelaFormula.S_A_P => mod64 (S + A - P)
  | RelaFormula.G_A => mod64 (G + A)
  | RelaFormula.S => mod64 S
  | RelaFormula.G_GOT_A_P => mod64 (G + GOT + A - P)
  | RelaFormula.S_A_GOT => mod64 (S + A - GOT)
  | RelaFormula.GOT_A_P => mod64 (GOT + A - P)
  | RelaFormula.Z_A => mod64 (Z + A)

/-- The address `S` of the symbol of a processed relocation: zero for an undefined weak
symbol, the symbol value for an absolute one, and otherwise the address of the output
section of the symbol plus the symbol value. -/
def symbolAddress (rela : ProcessedRela) (outputSectionAddresses : List Nat) : Nat :=
  match rela.note with
  | Note.undefinedWeak => 0
  | Note.absoluteValue => rela.symbolValue
  | Note.none => outputSectionAddresses.getD rela.symbolSectionID 0 + rela.symbolValue

/-! ## `initOutputSections` -/

/-- The bytes of an ASCII string. -/
def bytesOf (s : String) : Name := s.toList.map Char.toNat

/-- The array `namesToTruncate` of the lambda `toOutputSectionName`. -/
def namesToTruncate : List Name :=
  [ bytesOf ".text", bytesOf ".data.rel.ro", bytesOf ".data", bytesOf ".ldata", bytesOf ".rodata",
    bytesOf ".lrodata", bytesOf ".bss.rel.ro", bytesOf ".bss", bytesOf ".lbss",
    bytesOf ".init_array", bytesOf ".fini_array", bytesOf ".tbss", bytesOf ".tdata" ]

/-- The lambda `toOutputSectionName`: the first entry of `namesToTruncate` that
`fullName` starts with cuts it to the length of the entry. -/
def toOutputSectionName (fullName : Name) : Name :=
  match namesToTruncate.find? (fun truncate => truncate.isPrefixOf fullName) with
  | some truncate => fullName.take truncate.length
  | none => fullName

/-- The lambda `sectionTypeReachesOutput`. -/
def sectionTypeReachesOutput (type : Nat) : Bool :=
  !([SHT_NULL, SHT_STRTAB, SHT_SYMTAB, SHT_GROUP, SHT_REL, SHT_RELA].contains type)

/-- A `SectionRef`: an input and the index of one of its section headers. -/
structure SectionRef where
  elfIndex : Nat
  headerIndex : Nat
  deriving DecidableEq, Repr

/-- The map `sectionMap` of `initOutputSections`, from an output section name to the input
sections of that name; an `unordered_map`, kept here in order of first insertion. -/
abbrev SectionMap := List (Name × List SectionRef)

/-- The statement `sectionMap[name].push_back(ref)`. -/
def SectionMap.push : SectionMap → Name → SectionRef → SectionMap
  | [], n, r => [(n, [r])]
  | (k, refs) :: rest, n, r =>
    if k = n then (k, refs ++ [r]) :: rest else (k, refs) :: SectionMap.push rest n r

/-- The diagnostics of `initOutputSections`. -/
inductive InitReport where
  | tooManyOutputSections (count : Nat)
  | incompatibleSections (outSecID : Nat)
  deriving DecidableEq, Repr

/-- What the first loop of `initOutputSections` computes. -/
structure InitScan where
  inputToOutputSection : List (List Nat)
  totalNumberOfLocalSymbols : Nat
  totalStringTableMemorySize : Nat
  sectionMap : SectionMap
  deriving DecidableEq, Repr

/-- The inner lambda of the first loop, for the section `header` of input `inputIndex`. -/
def scanHeader (stringTable : Memory) (inputIndex : Nat) (st : InitScan) (header : Elf64_Shdr)
    (headerIndex : Nat) : InitScan :=
  let st1 := if header.sh_type = SHT_STRTAB then
      { st with
        totalStringTableMemorySize := add64 st.totalStringTableMemorySize header.sh_size }
    else st
  let st2 := if header.sh_type = SHT_SYMTAB then
      { st1 with
        totalNumberOfLocalSymbols := add64 st1.totalNumberOfLocalSymbols header.sh_info }
    else st1
  if !sectionTypeReachesOutput header.sh_type then st2
  else
    let sectionName := cstrAt stringTable header.sh_name
    let outputSectionName := toOutputSectionName sectionName
    { st2 with sectionMap :=
        SectionMap.push st2.sectionMap outputSectionName ⟨inputIndex, headerIndex⟩ }

/-- The outer lambda of the first loop, for one input. -/
def scanInput (sectionStringTables : List Memory) (st : InitScan) (headers : List Elf64_Shdr)
    (inputIndex : Nat) : InitScan :=
  forEachIndexed headers (scanHeader (sectionStringTables.getD inputIndex []) inputIndex)
    { st with
      inputToOutputSection :=
        st.inputToOutputSection.set inputIndex (List.replicate headers.length notAnOutputSection) }

/-- The first loop of `initOutputSections`. -/
def scanSections (sectionHeaders : List (List Elf64_Shdr)) (sectionStringTables : List Memory) :
    InitScan :=
  forEachIndexed sectionHeaders (scanInput sectionStringTables)
    { inputToOutputSection := List.replicate sectionHeaders.length []
      totalNumberOfLocalSymbols := 0
      totalStringTableMemorySize := 0
      sectionMap := [] }

/-- The lambda `makeFlagsCompatible`: whether the flags are compatible, and the new value
of `sourceFlag`. -/
def makeFlagsCompatible (sourceFlag other : Nat) : Bool × Nat :=
  if sourceFlag = other then (true, sourceFlag)
  else
    let clearMergeFlagsMask := 2 ^ 64 - 1 - (SHF_MERGE ||| SHF_STRINGS)
    let cleanSource := sourceFlag &&& clearMergeFlagsMask
    let cleanOther := other &&& clearMergeFlagsMask
    if cleanOther = cleanSource then (true, cleanSource) else (false, sourceFlag)

/-- What the second loop of `initOutputSections` writes. -/
structure InitAttributes where
  status : StatusCode
  reported : List InitReport
  alignments : List Nat
  types : List Nat
  flags : List Nat
  inputToOutputSection : List (List Nat)
  deriving DecidableEq, Repr

/-- The statement `v[i][j] = x` on a `Vector2D`. -/
def set2D {α : Type} (v : List (List α)) (i j : Nat) (x : α) : List (List α) :=
  v.set i ((v.getD i []).set j x)

/-- The inner lambda of the second loop, for the input section `secRef` at position
`sectionIndex` of the output section `outSecID`. -/
def attributeOfSection (sectionHeaders : List (List Elf64_Shdr)) (outSecID : Nat)
    (st : InitAttributes) (secRef : SectionRef) (sectionIndex : Nat) : InitAttributes :=
  let inputSection : Elf64_Shdr := get2D sectionHeaders secRef.elfIndex secRef.headerIndex
  let st1 := { st with
    inputToOutputSection :=
      set2D st.inputToOutputSection secRef.elfIndex secRef.headerIndex outSecID }
  let st2 := if sectionIndex = 0 then
      { st1 with
        flags := st1.flags.set outSecID inputSection.sh_flags,
        types := st1.types.set outSecID inputSection.sh_type,
        alignments := st1.alignments.set outSecID inputSection.sh_addralign }
    else st1
  let compatible := makeFlagsCompatible (st2.flags.getD outSecID 0) inputSection.sh_flags
  let st3 := { st2 with flags := st2.flags.set outSecID compatible.2 }
  let st4 := if !compatible.1 ∨ st3.types.getD outSecID 0 ≠ inputSection.sh_type then
      { st3 with
        status := StatusCode.not_ok,
        reported := st3.reported ++ [InitReport.incompatibleSections outSecID] }
    else st3
  { st4 with
    alignments :=
      st4.alignments.set outSecID (max (st4.alignments.getD outSecID 0) inputSection.sh_addralign) }

/-- The outputs of `initOutputSections`, with the returned status and the diagnostics. -/
structure InitOutput where
  status : StatusCode
  reported : List InitReport
  names : List Name
  outputToInputSections : List (List SectionRef)
  alignments : List Nat
  types : List Nat
  flags : List Nat
  inputToOutputSection : List (List Nat)
  totalNumberOfLocalSymbols : Nat
  totalStringTableMemorySize : Nat
  deriving DecidableEq, Repr

/-- The function `initOutputSections`. -/
def initOutputSections (sectionHeaders : List (List Elf64_Shdr))
    (sectionStringTables : List Memory) : InitOutput :=
  let scan := scanSections sectionHeaders sectionStringTables
  if scan.sectionMap.length ≥ SHN_LORESERVE - 4 then
    { status := StatusCode.not_ok
      reported := [InitReport.tooManyOutputSections scan.sectionMap.length]
      names := []
      outputToInputSections := []
      alignments := []
      types := []
      flags := []
      inputToOutputSection := scan.inputToOutputSection
      totalNumberOfLocalSymbols := scan.totalNumberOfLocalSymbols
      totalStringTableMemorySize := scan.totalStringTableMemorySize }
  else
    let names := scan.sectionMap.map Prod.fst
    let outputToInputSections := scan.sectionMap.map Prod.snd
    let attributes := forEachIndexed outputToInputSections
      (fun st inputSections outSecID =>
        forEachIndexed inputSections (attributeOfSection sectionHeaders outSecID) st)
      { status := StatusCode.ok
        reported := []
        alignments := List.replicate names.length 0
        types := List.replicate names.length 0
        flags := List.replicate names.length 0
        inputToOutputSection := scan.inputToOutputSection }
    { status := attributes.status
      reported := attributes.reported
      names := names
      outputToInputSections := outputToInputSections
      alignments := attributes.alignments
      types := attributes.types
      flags := attributes.flags
      inputToOutputSection := attributes.inputToOutputSection
      totalNumberOfLocalSymbols := scan.totalNumberOfLocalSymbols
      totalStringTableMemorySize := scan.totalStringTableMemorySize }

/-! ### The words of the specification about the number of output sections -/

/-- The canonical output names of the sections of one input that reach the output, one
for each such section. -/
def canonicalNamesOf (stringTable : Memory) (headers : List Elf64_Shdr) : List Name :=
  (headers.filter (fun h => sectionTypeReachesOutput h.sh_type)).map
    (fun h => toOutputSectionName (cstrAt stringTable h.sh_name))

/-- The canonical output names over all inputs from index `i` on. -/
def canonicalNamesFrom (sectionStringTables : List Memory) : Nat → List (List Elf64_Shdr) →
    List Name
  | _, [] => []
  | i, headers :: rest =>
    canonicalNamesOf (sectionStringTables.getD i []) headers ++
      canonicalNamesFrom sectionStringTables (i + 1) rest

/-- The number of distinct canonical output-section names over all inputs. -/
def distinctOutputNames (sectionHeaders : List (List Elf64_Shdr))
    (sectionStringTables : List Memory) : Nat :=
  (canonicalNamesFrom sectionStringTables 0 sectionHeaders).dedup.length

/-- A section header of type `SHT_PROGBITS` whose name is at offset `name` of the section
name string table. -/
def progbitsHeader (name : Nat) : Elf64_Shdr :=
  { sh_name := name, sh_type := SHT_PROGBITS, sh_flags := SHF_ALLOC, sh_addr := 0, sh_offset := 0,
    sh_size := 0, sh_link := 0, sh_info := 0, sh_addralign := 1, sh_entsize := 0 }

/-- The section headers of an object with `n` sections of type `SHT_PROGBITS`, after the
null header. -/
def manySectionHeaders (n : Nat) : List Elf64_Shdr :=
  default :: (List.range n).map progbitsHeader

/-- The section name string table of that object: `n` letters `a` and a terminator, so
that the name at offset `i` is `a` repeated `n - i` times. -/
def manySectionNames (n : Nat) : Memory := List.replicate n 97 ++ [0]

/-- The keys of `sectionMap` after `sectionMap[name]` is accessed. -/
def addKey (keys : List Name) (name : Name) : List Name :=
  if name ∈ keys then keys else keys ++ [name]

/-! ## `mergeSections` -/

/-- The enumeration `MergeType`. -/
inductive MergeType where
  | fixedLength
  | variableLength
  deriving DecidableEq, Repr

/-- The `size` bytes of memory from offset `off` on. -/
def sectionBytes (mem : Memory) (off size : Nat) : List Nat :=
  (List.range size).map (fun i => readByte mem (off + i))

/-- The outcome of splitting the bytes of one section into elements: the elements; the
report of an element out of bounds; a loop that does not end; or undefined behaviour,
when a sum of a pointer and a length leaves the 64-bit address space. -/
inductive SplitResult where
  | elements (es : List (List Nat))
  | outOfBounds
  | diverges
  | undefined
  deriving DecidableEq, Repr

/-- The distance from `stringsStart` to `nextEnd` in one step of the element loop of
`mergeSections`: `sh_entsize` for elements of fixed length, and else the distance to the
byte behind the first terminator, or behind `stringsEnd` when `std::find` finds none. -/
def nextEndDistance (useFixedLength : Bool) (entsize : Nat) (rest : List Nat) : Nat :=
  if useFixedLength then entsize else (rest.takeWhile (fun b => b ≠ 0)).length + 1

/-- One step of the element loop of `mergeSections` on the bytes from `stringsStart` to
`stringsEnd`, when the sum that gives `nextEnd` stays in the address space: the element
up to `nextEnd` and the bytes behind it, or nothing when `nextEnd > stringsEnd`. -/
def nextElement (useFixedLength : Bool) (entsize : Nat) (rest : List Nat) :
    Option (List Nat × List Nat) :=
  let nextEnd := nextEndDistance useFixedLength entsize rest
  if nextEnd > rest.length then none else some (rest.take nextEnd, rest.drop nextEnd)

/-- The element loop of `mergeSections` for one section, `for (...; stringsStart <
stringsEnd; stringsStart = nextEnd)`, run for at most `fuel` iterations on the bytes from
the pointer `stringsStart` on.  The pointer `nextEnd` is a sum of 64 bits: when
`stringsStart` plus the distance is not below `2^64`, the sum wraps to a pointer below
`stringsStart`, the test `nextEnd > stringsEnd` does not fire, and the element is a view
of bytes that are not in the memory of the input, which `try_emplace` reads: the
behaviour is undefined. -/
def splitLoop (useFixedLength : Bool) (entsize : Nat) : Nat → Nat → List Nat → SplitResult
  | _, _, [] => SplitResult.elements []
  | 0, _, _ :: _ => SplitResult.diverges
  | fuel + 1, stringsStart, b :: bs =>
    if 2 ^ 64 ≤ stringsStart + nextEndDistance useFixedLength entsize (b :: bs) then
      SplitResult.undefined
    else
      match nextElement useFixedLength entsize (b :: bs) with
      | none => SplitResult.outOfBounds
      | some (element, rest) =>
        match splitLoop useFixedLength entsize fuel (stringsStart + element.length) rest with
        | SplitResult.elements es => SplitResult.elements (element :: es)
        | r => r

/-- The elements of one section whose bytes start at the pointer `stringsStart`.  An
iteration that consumes a byte leaves fewer bytes, so as many iterations as there are
bytes suffice; the loop runs out of them only when it does not advance, which is when it
never ends (fixed length with `sh_entsize = 0`). -/
def splitElements (useFixedLength : Bool) (entsize : Nat) (stringsStart : Nat)
    (bytes : List Nat) : SplitResult :=
  splitLoop useFixedLength entsize bytes.length stringsStart bytes

/-- The call `elementToOutSectionOffset.at(e)`, and `none` for a missing key. -/
def elementOffset : List (List Nat × Nat) → List Nat → Option Nat
  | [], _ => none
  | (k, off) :: rest, e => if k = e then some off else elementOffset rest e

/-- The statements `try_emplace(element, outSectionSize)` and, for a new element,
`outSectionSize += element.size()`, on the pair of the size and the map. -/
def tryEmplace (st : Nat × List (List Nat × Nat)) (element : List Nat) :
    Nat × List (List Nat × Nat) :=
  match elementOffset st.2 element with
  | some _ => st
  | none => (st.1 + element.length, st.2 ++ [(element, st.1)])

/-- The vector operation `resize(n)` with a value for the new elements. -/
def resizeTo {α : Type} (n : Nat) (x : α) (l : List α) : List α :=
  l.take n ++ List.replicate (n - l.length) x

/-- The statement `std::memcpy(view + offset, string.data(), string.size())`. -/
def writeAt (view : List Nat) (offset : Nat) (bytes : List Nat) : List Nat :=
  view.take offset ++ bytes ++ view.drop (offset + bytes.length)

/-- The state of the first loop of `mergeSections`. -/
structure MergeState where
  inputSectionCopyCommands : List (List SectionMemCopies)
  outSectionSize : Nat
  elementToOutSectionOffset : List (List Nat × Nat)
  sectionElements : List (List (List Nat))
  deriving DecidableEq, Repr

/-- The outcome of the first loop of `mergeSections`. -/
inductive MergeScan where
  | done (st : MergeState)
  | failed (st : MergeState)
  | diverges
  | undefined
  deriving DecidableEq, Repr

/-- The elements of the input section `secRef`: the element loop of `mergeSections` on the
`sh_size` bytes from `stringsStart = elfAddresses[secRef.elfIndex] + sh_offset` to
`stringsEnd = stringsStart + sh_size`.  Both are sums of a pointer and a 64-bit value of
the header: when the section does not lie in the address space, they are undefined. -/
def splitSection (inputs : List ElfInput) (mergeType : MergeType) (secRef : SectionRef) :
    SplitResult :=
  let e := inputs.getD secRef.elfIndex ⟨[], [], 0⟩
  let secHdr := e.headers.getD secRef.headerIndex default
  let stringsStart := e.address + secHdr.sh_offset
  if 2 ^ 64 ≤ stringsStart + secHdr.sh_size then SplitResult.undefined
  else
    splitElements (decide (mergeType = MergeType.fixedLength)) secHdr.sh_entsize stringsStart
      (sectionBytes e.mem secHdr.sh_offset secHdr.sh_size)

/-- The first loop of `mergeSections` over `sectionRefs`: each section is split into
elements, which are inserted into the map. -/
def mergeScan (inputs : List ElfInput) (mergeType : MergeType) :
    List SectionRef → MergeState → MergeScan
  | [], st => MergeScan.done st
  | secRef :: rest, st =>
    let e := inputs.getD secRef.elfIndex ⟨[], [], 0⟩
    let st1 := { st with
      inputSectionCopyCommands := st.inputSectionCopyCommands.set secRef.elfIndex
        (resizeTo e.headers.length SectionMemCopies.monostate
          (st.inputSectionCopyCommands.getD secRef.elfIndex [])) }
    match splitSection inputs mergeType secRef with
    | SplitResult.diverges => MergeScan.diverges
    | SplitResult.undefined => MergeScan.undefined
    | SplitResult.outOfBounds => MergeScan.failed st1
    | SplitResult.elements es =>
      let emplaced := es.foldl tryEmplace (st1.outSectionSize, st1.elementToOutSectionOffset)
      mergeScan inputs mergeType rest
        { st1 with
          outSectionSize := emplaced.1,
          elementToOutSectionOffset := emplaced.2,
          sectionElements := st1.sectionElements ++ [es] }

/-- The copy commands of one input section of a merged output section. -/
def partCopiesOf (elementToOutSectionOffset : List (List Nat × Nat)) (elements : List (List Nat)) :
    List PartCopy :=
  elements.map (fun e =>
    { size := e.length, dstOffset := (elementOffset elementToOutSectionOffset e).getD 0 })

/-- The second loop of `mergeSections`: the copy commands of every input section. -/
def writePartCopies (elementToOutSectionOffset : List (List Nat × Nat)) :
    List SectionRef → List (List (List Nat)) → List (List SectionMemCopies) →
      List (List SectionMemCopies)
  | secRef :: rest, elements :: restElements, cmds =>
    writePartCopies elementToOutSectionOffset rest restElements
      (set2D cmds secRef.elfIndex secRef.headerIndex
        (SectionMemCopies.parts (partCopiesOf elementToOutSectionOffset elements)))
  | _, _, cmds => cmds

/-- The outputs of `mergeSections`, with the returned status. -/
structure MergeOutput where
  status : StatusCode
  outputSectionSizes : List Nat
  inputSectionCopyCommands : List (List SectionMemCopies)
  materializedView : Option (List Nat)
  deriving DecidableEq, Repr

/-- The function `mergeSections`; `inputs` are the parallel spans `elfAddresses` and
`sectionHeaders`.  The bytes that `materializedSectionMemory.allocate(n)` returns are
`allocate n`, and the order in which the last loop visits the entries of the unordered
map, which the language leaves open, is `visitOrder`.  The result is `none` when the
function returns no status: its element loop does not end, or the behaviour of the loop
is undefined. -/
def mergeSections (inputs : List ElfInput) (sectionRefs : List SectionRef) (outSectionID : Nat)
    (mergeType : MergeType) (allocate : Nat → List Nat)
    (visitOrder : List (List Nat × Nat) → List (List Nat × Nat))
    (outputSectionSizes : List Nat)
    (inputSectionCopyCommands : List (List SectionMemCopies)) : Option MergeOutput :=
  match mergeScan inputs mergeType sectionRefs ⟨inputSectionCopyCommands, 0, [], []⟩ with
  | MergeScan.diverges => none
  | MergeScan.undefined => none
  | MergeScan.failed st =>
    some { status := StatusCode.not_ok
           outputSectionSizes := outputSectionSizes
           inputSectionCopyCommands := st.inputSectionCopyCommands
           materializedView := none }
  | MergeScan.done st =>
    some { status := StatusCode.ok
           outputSectionSizes := outputSectionSizes.set outSectionID st.outSectionSize
           inputSectionCopyCommands :=
             writePartCopies st.elementToOutSectionOffset sectionRefs st.sectionElements
               st.inputSectionCopyCommands
           materializedView := some
             ((visitOrder st.elementToOutSectionOffset).foldl
               (fun view p => writeAt view p.2 p.1) (allocate st.outSectionSize)) }

/-- The elements of the input section `secRef`, and none when the section cannot be
split. -/
def sectionElementsOf (inputs : List ElfInput) (mergeType : MergeType) (secRef : SectionRef) :
    List (List Nat) :=
  match splitSection inputs mergeType secRef with
  | SplitResult.elements es => es
  | _ => []

/-- All elements of the input sections of a merged output section, in the order of the
sections and, within a section, of the bytes. -/
def mergedElements (inputs : List ElfInput) (mergeType : MergeType)
    (sectionRefs : List SectionRef) : List (List Nat) :=
  sectionRefs.flatMap (sectionElementsOf inputs mergeType)

/-- The distinct elements of a list, in the order of their first occurrence. -/
def distinctElements (elements : List (List Nat)) : List (List Nat) :=
  elements.foldl addKey []

/-- The sum of the lengths of a list of elements. -/
def totalLength (elements : List (List Nat)) : Nat :=
  (elements.map List.length).sum

/-- The sum of the lengths of the distinct elements that come before the element `e`. -/
def dstOffsetOf (distinct : List (List Nat)) (e : List Nat) : Nat :=
  totalLength (distinct.takeWhile (fun d => d ≠ e))

/-- The elements of a list with consecutive offsets from `offset` on. -/
def tiled : List (List Nat) → Nat → List (List Nat × Nat)
  | [], _ => []
  | d :: ds, offset => (d, offset) :: tiled ds (offset + d.length)

/-- The entry size of the input section `secRef`. -/
def entsizeOf (inputs : List ElfInput) (secRef : SectionRef) : Nat :=
  ((inputs.getD secRef.elfIndex ⟨[], [], 0⟩).headers.getD secRef.headerIndex default).sh_entsize

/-- The number of section headers of the input `elfIndex`. -/
def headerCount (inputs : List ElfInput) (elfIndex : Nat) : Nat :=
  (inputs.getD elfIndex ⟨[], [], 0⟩).headers.length

/-- Two writes of elements at offsets that do not overlap. -/
def disjointWrites (p q : List Nat × Nat) : Prop :=
  p.2 + p.1.length ≤ q.2 ∨ q.2 + q.1.length ≤ p.2

/-- An object with one section (section 1) that holds the bytes `bytes`, with the entry
size `entsize`. -/
def objectWithData (bytes : List Nat) (entsize : Nat) : ElfInput :=
  { mem := bytes
    headers := [
      default,
      { sh_name := 0, sh_type := SHT_PROGBITS, sh_flags := SHF_ALLOC + SHF_MERGE, sh_addr := 0,
        sh_offset := 0, sh_size := bytes.length, sh_link := 0, sh_info := 0, sh_addralign := 1,
        sh_entsize := entsize }] }

/-- The section `sdata` of the test `FixedSize_Merge`: eight words of four bytes. -/
def fixedSizeData : List Nat :=
  [65, 65, 65, 65, 66, 66, 66, 66, 67, 67, 67, 67, 68, 68, 68, 0,
   66, 66, 66, 66, 69, 69, 69, 69, 67, 67, 67, 67, 70, 70, 70, 0]

/-- The copy commands after the statements `inputSectionCopyCommands[secRef.elfIndex]
.resize(sectionHeaders[secRef.elfIndex].size())` of the first loop of `mergeSections`. -/
def resizedCommands (inputs : List ElfInput) :
    List SectionRef → List (List SectionMemCopies) → List (List SectionMemCopies)
  | [], cmds => cmds
  | secRef :: rest, cmds =>
    resizedCommands inputs rest (cmds.set secRef.elfIndex
      (resizeTo (headerCount inputs secRef.elfIndex) SectionMemCopies.monostate
        (cmds.getD secRef.elfIndex [])))

/-! ## Segments and the layout of the loaded sections -/

def PT_NULL : Nat := 0
def PT_LOAD : Nat := 1
def PT_TLS : Nat := 7
def PT_GNU_STACK : Nat := 0x6474e551
def PF_X : Nat := 1
def PF_W : Nat := 2
def PF_R : Nat := 4
def sizeof_Elf64_Ehdr : Nat := 64
def sizeof_Elf64_Phdr : Nat := 56

/-- The record `Elf64_Phdr`. -/
structure Elf64_Phdr where
  p_type : Nat
  p_flags : Nat
  p_offset : Nat
  p_vaddr : Nat
  p_paddr : Nat
  p_filesz : Nat
  p_memsz : Nat
  p_align : Nat
  deriving DecidableEq, Repr

instance : Inhabited Elf64_Phdr := ⟨⟨0, 0, 0, 0, 0, 0, 0, 0⟩⟩

/-- The constant `meta::numProgramSegments`. -/
def numProgramSegments : Nat := 6

def SegmentLocation.readOnly : Nat := 0
def SegmentLocation.readWrite : Nat := 1
def SegmentLocation.readExecute : Nat := 2
def SegmentLocation.readWriteExecute : Nat := 3
def SegmentLocation.tlsTemplate : Nat := 4
def SegmentLocation.notLoaded : Nat := 5

/-- The array `meta::segmentFlags`. -/
def segmentFlags : List Nat :=
  [PF_R, PF_R ||| PF_W, PF_R ||| PF_X, PF_R ||| PF_W ||| PF_X, PF_R, 0]

/-- The array `meta::segmentTypes`. -/
def segmentTypes : List Nat := [PT_LOAD, PT_LOAD, PT_LOAD, PT_LOAD, PT_TLS, PT_NULL]

/-- The constant `meta::virtualAddressStart`. -/
def virtualAddressStart : Nat := 0x400000

/-- The constant `meta::pageSize`. -/
def pageSize : Nat := 0x1000

/-- The function `alignup` on 64-bit unsigned integers. -/
def alignup (address alignment : Nat) : Nat :=
  let alignment := max alignment 1
  let mod := address % alignment
  if mod ≠ 0 then add64 address (alignment - mod) else address

/-- The lambda `flagsToSegmentIndex` of `sortOutputSections`. -/
def flagsToSegmentIndex (flag : Nat) : Nat :=
  if flag &&& SHF_ALLOC = 0 then SegmentLocation.notLoaded
  else if flag &&& SHF_TLS ≠ 0 then SegmentLocation.tlsTemplate
  else if flag &&& SHF_WRITE ≠ 0 ∧ flag &&& SHF_EXECINSTR ≠ 0 then
    SegmentLocation.readWriteExecute
  else if flag &&& SHF_WRITE ≠ 0 then SegmentLocation.readWrite
  else if flag &&& SHF_EXECINSTR ≠ 0 then SegmentLocation.readExecute
  else SegmentLocation.readOnly

/-- The first loop of `sortOutputSections`, for one output section: the statement
`segmentedSections[flagsToSegmentIndex(flag)].push_back(outsecID)`. -/
def pushToSegment (segmentedSections : List (List Nat)) (flag : Nat) (outsecID : Nat) :
    List (List Nat) :=
  segmentedSections.set (flagsToSegmentIndex flag)
    (segmentedSections.getD (flagsToSegmentIndex flag) [] ++ [outsecID % 2 ^ 16])

/-- The comparison of the sort of `sortOutputSections`. -/
def nobitsLast (types : List Nat) (a b : Nat) : Bool :=
  !(types.getD a 0 == SHT_NOBITS) && (types.getD b 0 == SHT_NOBITS)

/-- The function `sortOutputSections`: the array `segmentedSections`.  The library
function `std::sort` is `sort`; it is not stable, so only what the language promises of it
can be assumed. -/
def sortOutputSections (types flags : List Nat)
    (sort : (Nat → Nat → Bool) → List Nat → List Nat) : List (List Nat) :=
  (forEachIndexed flags pushToSegment (List.replicate numProgramSegments [])).mapIdx
    (fun segmentLocation sections =>
      if segmentLocation = SegmentLocation.notLoaded then sections
      else sort (nobitsLast types) sections)

/-- The cursors of the section loop of `constructLoadedSectionLayout`, with the two
vectors it writes. -/
structure SectionCursor where
  filePos : Nat
  addressPos : Nat
  outputSectionAddresses : List Nat
  outputSectionFileOffsets : List Nat
  deriving DecidableEq, Repr

/-- The body of the section loop of `constructLoadedSectionLayout`. -/
def placeSection (outputSectionSizes outputSectionAlignments outputSectionTypes : List Nat)
    (st : SectionCursor) (outsecID : Nat) : SectionCursor :=
  let sectionAlignment := outputSectionAlignments.getD outsecID 0
  let sectionSize := outputSectionSizes.getD outsecID 0
  let filePos := alignup st.filePos sectionAlignment
  let addressPos := alignup st.addressPos sectionAlignment
  let st1 : SectionCursor :=
    { filePos := filePos
      addressPos := addressPos
      outputSectionAddresses := st.outputSectionAddresses.set outsecID addressPos
      outputSectionFileOffsets := st.outputSectionFileOffsets.set outsecID filePos }
  if outputSectionTypes.getD outsecID 0 = SHT_NOBITS then st1
  else { st1 with
    filePos := add64 filePos sectionSize,
    addressPos := add64 addressPos sectionSize }

/-- The variables of the second loop of `constructLoadedSectionLayout`. -/
structure LayoutState where
  programHeaders : List Elf64_Phdr
  outputSectionAddresses : List Nat
  outputSectionFileOffsets : List Nat
  fileStartPos : Nat
  segmentStartAddress : Nat
  ptHdrIndex : Nat
  deriving DecidableEq, Repr

/-- The program header of a segment, as the second loop of `constructLoadedSectionLayout`
fills it in: `st` holds the variables at the start of the iteration and `cur` the cursors
after the sections of the segment. -/
def segmentProgramHeader (fileHeadersSize : Nat) (st : LayoutState) (cur : SectionCursor) :
    Elf64_Phdr :=
  let segmentFileSize := sub64 cur.filePos st.fileStartPos
  let memSize := sub64 cur.addressPos st.segmentStartAddress
  let ptHdr := st.programHeaders.getD st.ptHdrIndex default
  let ptHdr1 : Elf64_Phdr :=
    { ptHdr with
      p_align := pageSize,
      p_offset := st.fileStartPos,
      p_memsz := memSize,
      p_filesz := segmentFileSize,
      p_vaddr := st.segmentStartAddress,
      p_paddr := st.segmentStartAddress }
  if st.ptHdrIndex = 0 then
    { ptHdr1 with
      p_vaddr := sub64 ptHdr1.p_vaddr fileHeadersSize,
      p_paddr := sub64 ptHdr1.p_paddr fileHeadersSize,
      p_offset := sub64 ptHdr1.p_offset fileHeadersSize,
      p_filesz := add64 ptHdr1.p_filesz fileHeadersSize,
      p_memsz := add64 ptHdr1.p_memsz fileHeadersSize }
  else ptHdr1

/-- The cursors after the section loop of `constructLoadedSectionLayout` over the sections
of a segment. -/
def placeSections (outputSectionSizes outputSectionAlignments outputSectionTypes : List Nat)
    (st : LayoutState) (sections : List Nat) : SectionCursor :=
  sections.foldl (placeSection outputSectionSizes outputSectionAlignments outputSectionTypes)
    { filePos := st.fileStartPos
      addressPos := st.segmentStartAddress
      outputSectionAddresses := st.outputSectionAddresses
      outputSectionFileOffsets := st.outputSectionFileOffsets }

/-- The body of the second loop of `constructLoadedSectionLayout` for a segment that is
not skipped. -/
def layoutLoadedSegment (outputSectionSizes outputSectionAlignments outputSectionTypes : List Nat)
    (fileHeadersSize : Nat) (st : LayoutState) (sections : List Nat) : LayoutState :=
  let cur := placeSections outputSectionSizes outputSectionAlignments outputSectionTypes st
    sections
  let segmentFileSize := sub64 cur.filePos st.fileStartPos
  let memSize := sub64 cur.addressPos st.segmentStartAddress
  { programHeaders :=
      st.programHeaders.set st.ptHdrIndex (segmentProgramHeader fileHeadersSize st cur)
    outputSectionAddresses := cur.outputSectionAddresses
    outputSectionFileOffsets := cur.outputSectionFileOffsets
    fileStartPos := alignup (add64 st.fileStartPos segmentFileSize) pageSize
    segmentStartAddress := alignup (add64 st.segmentStartAddress memSize) pageSize
    ptHdrIndex := st.ptHdrIndex + 1 }

/-- The condition under which both loops of `constructLoadedSectionLayout` skip a
segment. -/
def segmentSkipped (sections : List Nat) (segmentIndex : Nat) : Bool :=
  sections.isEmpty || segmentIndex == SegmentLocation.notLoaded

/-- The body of the second loop of `constructLoadedSectionLayout`. -/
def layoutSegment (outputSectionSizes outputSectionAlignments outputSectionTypes : List Nat)
    (fileHeadersSize : Nat) (st : LayoutState) (sections : List Nat) (segmentIndex : Nat) :
    LayoutState :=
  if segmentSkipped sections segmentIndex then st
  else layoutLoadedSegment outputSectionSizes outputSectionAlignments outputSectionTypes
    fileHeadersSize st sections

/-- The program header that `programHeaders.emplace_back(type, flags)` appends. -/
def newProgramHeader (type flags : Nat) : Elf64_Phdr :=
  { p_type := type, p_flags := flags, p_offset := 0, p_vaddr := 0, p_paddr := 0, p_filesz := 0,
    p_memsz := 0, p_align := 0 }

/-- The body of the first loop of `constructLoadedSectionLayout`. -/
def emplaceSegmentHeader (programHeaders : List Elf64_Phdr) (sections : List Nat)
    (segmentIndex : Nat) : List Elf64_Phdr :=
  if segmentSkipped sections segmentIndex then programHeaders
  else programHeaders ++
    [newProgramHeader (segmentTypes.getD segmentIndex 0) (segmentFlags.getD segmentIndex 0)]

/-- The outputs of `constructLoadedSectionLayout`, with the returned status. -/
structure LayoutOutput where
  status : StatusCode
  programHeaders : List Elf64_Phdr
  outputSectionAddresses : List Nat
  outputSectionFileOffsets : List Nat
  deriving DecidableEq, Repr

/-- The function `constructLoadedSectionLayout`.  The three output vectors are empty at
the call, as they are in `mapInputSectionsToOutputSections`. -/
def constructLoadedSectionLayout (segmentedSections : List (List Nat))
    (outputSectionSizes outputSectionAlignments outputSectionTypes : List Nat) : LayoutOutput :=
  let loaded := forEachIndexed segmentedSections emplaceSegmentHeader []
  let programHeaders := loaded ++
    [{ newProgramHeader PT_GNU_STACK (segmentFlags.getD SegmentLocation.readWrite 0) with
       p_align := 0x10 }]
  let fileHeadersSize := sizeof_Elf64_Ehdr + sizeof_Elf64_Phdr * programHeaders.length
  let st := forEachIndexed segmentedSections
    (layoutSegment outputSectionSizes outputSectionAlignments outputSectionTypes fileHeadersSize)
    { programHeaders := programHeaders
      outputSectionAddresses := List.replicate outputSectionSizes.length notAnOutputSection
      outputSectionFileOffsets := List.replicate outputSectionSizes.length notAnOutputSection
      fileStartPos := fileHeadersSize
      segmentStartAddress := add64 fileHeadersSize virtualAddressStart
      ptHdrIndex := 0 }
  { status := StatusCode.ok
    programHeaders := st.programHeaders
    outputSectionAddresses := st.outputSectionAddresses
    outputSectionFileOffsets := st.outputSectionFileOffsets }

/-- The segments that the loops of `constructLoadedSectionLayout` do not skip, with their
indices, from the index `segmentIndex` on. -/
def loadedBuckets : Nat → List (List Nat) → List (Nat × List Nat)
  | _, [] => []
  | segmentIndex, sections :: rest =>
    if segmentSkipped sections segmentIndex then loadedBuckets (segmentIndex + 1) rest
    else (segmentIndex, sections) :: loadedBuckets (segmentIndex + 1) rest

/-- A bound on the advance of a cursor over the sections of a segment: the size of every
section and what its alignment can add. -/
def sectionsBound (outputSectionSizes outputSectionAlignments : List Nat)
    (sections : List Nat) : Nat :=
  (sections.map (fun outsecID =>
    max (outputSectionAlignments.getD outsecID 0) 1 + outputSectionSizes.getD outsecID 0)).sum

/-- A bound on the advance of a cursor over segments: a page for every segment and the
bound of its sections. -/
def segmentsBound (outputSectionSizes outputSectionAlignments : List Nat)
    (segments : List (List Nat)) : Nat :=
  (segments.map (fun sections =>
    pageSize + sectionsBound outputSectionSizes outputSectionAlignments sections)).sum

/-- A bound on every address and file position of `constructLoadedSectionLayout`: when it
is below `2^64`, no `size_t` of the layout wraps around. -/
def layoutBound (segmentedSections : List (List Nat))
    (outputSectionSizes outputSectionAlignments : List Nat) : Nat :=
  virtualAddressStart + sizeof_Elf64_Ehdr + sizeof_Elf64_Phdr * (segmentedSections.length + 1) +
    segmentsBound outputSectionSizes outputSectionAlignments segmentedSections

/-- The order of two consecutive program headers of loaded segments: the first ends, in
memory and in the file, before the second starts. -/
def segmentBefore (h h2 : Elf64_Phdr) : Prop :=
  h.p_vaddr + h.p_memsz ≤ h2.p_vaddr ∧ h.p_offset + h.p_filesz ≤ h2.p_offset

/-- The layout of a link with `.text` (output section 0, twelve bytes), `.data` (output
section 1, eight bytes) and `.bss` (output section 2, `SHT_NOBITS`, two pages): the
writable segment holds `.data` and `.bss`, the executable segment `.text`. -/
def layoutWithBss : LayoutOutput :=
  constructLoadedSectionLayout [[], [1, 2], [0], [], [], []] [12, 8, 0x2000] [16, 8, 8]
    [SHT_PROGBITS, SHT_PROGBITS, SHT_NOBITS]

/-- A sort of the section ids of a segment with the comparison `less`. -/
def sortSections (less : Nat → Nat → Bool) (sections : List Nat) : List Nat :=
  sections.insertionSort (fun a b => less b a = false)

/-! ## `buildElfAndSectionHeaders` -/

def ET_REL : Nat := 1
def ET_EXEC : Nat := 2
def EM_X86_64 : Nat := 62
def EV_CURRENT : Nat := 1
def ELFCLASS64 : Nat := 2
def ELFDATA2LSB : Nat := 1
def ELFOSABI_GNU : Nat := 3
def alignof_Elf64_Shdr : Nat := 8

/-- The record `Elf64_Ehdr`. -/
structure Elf64_Ehdr where
  e_ident : List Nat
  e_type : Nat
  e_machine : Nat
  e_version : Nat
  e_entry : Nat
  e_phoff : Nat
  e_shoff : Nat
  e_flags : Nat
  e_ehsize : Nat
  e_phentsize : Nat
  e_phnum : Nat
  e_shentsize : Nat
  e_shnum : Nat
  e_shstrndx : Nat
  deriving DecidableEq, Repr

/-- The inputs of `buildElfAndSectionHeaders`. -/
structure BuildElfIn where
  names : List Name
  sh_names : List Nat
  types : List Nat
  flags : List Nat
  alignments : List Nat
  outputSectionAddresses : List Nat
  outputSectionFileOffsets : List Nat
  outputSectionSizes : List Nat
  sectionDataEnd : Nat
  symTabID : Nat
  strTabID : Nat
  shstrTabID : Nat
  numLocalSymbols : Nat
  inputSectionCopyCommands : List (List SectionMemCopies)
  inputToOutputSection : List (List Nat)
  entrySymbolInfo : GlobalSymbolTableEntry
  numProgramHeaders : Nat

/-- The outputs of `buildElfAndSectionHeaders`, with the returned status. -/
structure BuildElfOut where
  status : StatusCode
  outputSectionHeaders : List Elf64_Shdr
  elfHeader : Elf64_Ehdr
  deriving DecidableEq, Repr

/-- The section header that `buildElfAndSectionHeaders` pushes for the output section
`id`. -/
def outputSectionHeader (p : BuildElfIn) (id : Nat) : Elf64_Shdr :=
  { sh_name := p.sh_names.getD id 0
    sh_type := p.types.getD id 0
    sh_flags := p.flags.getD id 0
    sh_addr := p.outputSectionAddresses.getD id 0
    sh_offset := p.outputSectionFileOffsets.getD id 0
    sh_size := p.outputSectionSizes.getD id 0
    sh_link := 0
    sh_info := 0
    sh_addralign := max (p.alignments.getD id 0) 1
    sh_entsize := 0 }

/-- The three assignments to the header of `.symtab`, `outputSectionHeaders[symTabID + 1]`. -/
def linkSymTabHeader (p : BuildElfIn) (h : Elf64_Shdr) : Elf64_Shdr :=
  { h with
    sh_link := (p.strTabID + 1) % 2 ^ 32,
    sh_info := p.numLocalSymbols % 2 ^ 32,
    sh_entsize := sizeof_Elf64_Sym }

/-- The function `buildElfAndSectionHeaders`.  The result is `none` when
`entrySymbolInfo.firstLoad.symbol`, which the function dereferences, is a null pointer. -/
def buildElfAndSectionHeaders (p : BuildElfIn) : Option BuildElfOut :=
  let pushed := forEachIndexed p.names
    (fun (hs : List Elf64_Shdr) (_ : Name) id => hs ++ [outputSectionHeader p id]) [default]
  let outputSectionHeaders := pushed.set (p.symTabID + 1)
    (linkSymTabHeader p (pushed.getD (p.symTabID + 1) default))
  let sectionHeaderFileOffset := alignup p.sectionDataEnd alignof_Elf64_Shdr
  match p.entrySymbolInfo.firstLoad.symbol with
  | none => none
  | some entrySym =>
    let entrySectionID := get2D p.inputToOutputSection p.entrySymbolInfo.firstLoad.elfID
      entrySym.st_shndx
    let entrySymbolOutputOffset := (inputToOutputSectionOffset
      p.entrySymbolInfo.firstLoad.elfID entrySym.st_shndx entrySym.st_value
      p.inputSectionCopyCommands).2
    some
      { status := StatusCode.ok
        outputSectionHeaders := outputSectionHeaders
        elfHeader :=
          { e_ident := [0x7f, 69, 76, 70, ELFCLASS64, ELFDATA2LSB, EV_CURRENT, ELFOSABI_GNU,
              0, 0, 0, 0, 0, 0, 0, 0]
            e_type := ET_EXEC
            e_machine := EM_X86_64
            e_version := EV_CURRENT
            e_entry := add64 (p.outputSectionAddresses.getD entrySectionID 0)
              entrySymbolOutputOffset
            e_phoff := sizeof_Elf64_Ehdr
            e_shoff := sectionHeaderFileOffset
            e_flags := 0
            e_ehsize := sizeof_Elf64_Ehdr
            e_phentsize := sizeof_Elf64_Phdr
            e_phnum := p.numProgramHeaders % 2 ^ 16
            e_shentsize := sizeof_Elf64_Shdr
            e_shnum := outputSectionHeaders.length % 2 ^ 16
            e_shstrndx := (p.shstrTabID + 1) % 2 ^ 16 } }

/-- The inputs of `buildElfAndSectionHeaders` for a link with the output sections `.text`
at `0x401000` and `.got`, whose entry symbol is at offset 4 of the section 1 of input 0,
which is copied to the start of `.text`. -/
def buildElfExample : BuildElfIn :=
  { names := [bytesOf ".text", bytesOf ".got"]
    sh_names := [1, 7]
    types := [SHT_PROGBITS, SHT_PROGBITS]
    flags := [SHF_ALLOC + SHF_EXECINSTR, SHF_ALLOC + SHF_WRITE]
    alignments := [16, 8]
    outputSectionAddresses := [0x401000, 0x402000]
    outputSectionFileOffsets := [0x1000, 0x2000]
    outputSectionSizes := [12, 24]
    sectionDataEnd := 0x2019
    symTabID := 1
    strTabID := 0
    shstrTabID := 0
    numLocalSymbols := 3
    inputSectionCopyCommands := [[SectionMemCopies.monostate, SectionMemCopies.part ⟨12, 0⟩]]
    inputToOutputSection := [[notAnOutputSection, 0]]
    entrySymbolInfo := ⟨default, ⟨some (mkSym 1 STB_GLOBAL 1 4), 0⟩⟩
    numProgramHeaders := 3 }

/-! ## `concatenateSections` and `mergeAndSortInputSections` -/

/-- The variables of the loop of `concatenateSections`. -/
structure ConcatState where
  outSectionSize : Nat
  inputSectionCopyCommands : List (List SectionMemCopies)
  deriving DecidableEq, Repr

/-- The body of the loop of `concatenateSections`. -/
def concatenateSection (sectionHeaders : List (List Elf64_Shdr)) (st : ConcatState)
    (secRef : SectionRef) : ConcatState :=
  let elfID := secRef.elfIndex
  let inSecHdr : Elf64_Shdr := get2D sectionHeaders elfID secRef.headerIndex
  let outSectionSize := alignup st.outSectionSize inSecHdr.sh_addralign
  let copyCmds := resizeTo (sectionHeaders.getD elfID []).length SectionMemCopies.monostate
    (st.inputSectionCopyCommands.getD elfID [])
  { outSectionSize := add64 outSectionSize inSecHdr.sh_size
    inputSectionCopyCommands := st.inputSectionCopyCommands.set elfID
      (copyCmds.set secRef.headerIndex
        (SectionMemCopies.part { size := inSecHdr.sh_size, dstOffset := outSectionSize })) }

/-- The outputs of `concatenateSections`, with the returned status. -/
structure ConcatOutput where
  status : StatusCode
  outputSectionSizes : List Nat
  inputSectionCopyCommands : List (List SectionMemCopies)
  deriving DecidableEq, Repr

/-- The function `concatenateSections`. -/
def concatenateSections (sectionHeaders : List (List Elf64_Shdr)) (sectionRefs : List SectionRef)
    (outSectionID : Nat) (outputSectionSizes : List Nat)
    (inputSectionCopyCommands : List (List SectionMemCopies)) : ConcatOutput :=
  let st := sectionRefs.foldl (concatenateSection sectionHeaders) ⟨0, inputSectionCopyCommands⟩
  { status := StatusCode.ok
    outputSectionSizes := outputSectionSizes.set outSectionID st.outSectionSize
    inputSectionCopyCommands := st.inputSectionCopyCommands }

/-- The comparison of the sort of `mergeAndSortInputSections`. -/
def sectionRefBefore (sortKeys : List Nat) (a b : SectionRef) : Bool :=
  let precA := sortKeys.getD a.elfIndex 0
  let precB := sortKeys.getD b.elfIndex 0
  if precA ≠ precB then decide (precA < precB) else decide (a.headerIndex < b.headerIndex)

/-- What `mergeAndSortInputSections` writes, with its status. -/
structure MergeSortState where
  status : StatusCode
  outputToInputSections : List (List SectionRef)
  outputSectionSizes : List Nat
  inputSectionCopyCommands : List (List SectionMemCopies)
  materializedViews : List (Option (List Nat))
  deriving DecidableEq, Repr

/-- The body of the loop of `mergeAndSortInputSections` for one output section. -/
def mergeAndSortSection (inputs : List ElfInput) (sortKeys outSectionFlags : List Nat)
    (sortRefs : (SectionRef → SectionRef → Bool) → List SectionRef → List SectionRef)
    (allocate : Nat → List Nat) (visitOrder : List (List Nat × Nat) → List (List Nat × Nat))
    (state : Option MergeSortState) (sectionRefs : List SectionRef) (outSectionID : Nat) :
    Option MergeSortState :=
  match state with
  | none => none
  | some st =>
    let sorted := sortRefs (sectionRefBefore sortKeys) sectionRefs
    let st1 := { st with
      outputToInputSections := st.outputToInputSections.set outSectionID sorted }
    let sectionFlags := outSectionFlags.getD outSectionID 0
    if sectionFlags &&& SHF_MERGE = 0 then
      let r := concatenateSections (inputs.map ElfInput.headers) sorted (outSectionID % 2 ^ 16)
        st1.outputSectionSizes st1.inputSectionCopyCommands
      some { st1 with
        outputSectionSizes := r.outputSectionSizes,
        inputSectionCopyCommands := r.inputSectionCopyCommands }
    else
      let mergeType :=
        if sectionFlags &&& SHF_STRINGS ≠ 0 then MergeType.variableLength
        else MergeType.fixedLength
      match mergeSections inputs sorted (outSectionID % 2 ^ 16) mergeType allocate visitOrder
          st1.outputSectionSizes st1.inputSectionCopyCommands with
      | none => none
      | some r =>
        some { st1 with
          status := if r.status ≠ StatusCode.ok then r.status else st1.status,
          outputSectionSizes := r.outputSectionSizes,
          inputSectionCopyCommands := r.inputSectionCopyCommands,
          materializedViews :=
            if r.status = StatusCode.ok then st1.materializedViews.set outSectionID r.materializedView
            else st1.materializedViews }

/-- The function `mergeAndSortInputSections`.  The library function `std::sort` is
`sortRefs`, the allocation and the order of the unordered map of `mergeSections` are
`allocate` and `visitOrder`; the three output vectors are empty at the call.  The result
is `none` when the function does not return. -/
def mergeAndSortInputSections (inputs : List ElfInput) (sortKeys outSectionFlags : List Nat)
    (sortRefs : (SectionRef → SectionRef → Bool) → List SectionRef → List SectionRef)
    (allocate : Nat → List Nat) (visitOrder : List (List Nat × Nat) → List (List Nat × Nat))
    (outputToInputSections : List (List SectionRef)) : Option MergeSortState :=
  forEachIndexed outputToInputSections
    (mergeAndSortSection inputs sortKeys outSectionFlags sortRefs allocate visitOrder)
    (some
      { status := StatusCode.ok
        outputToInputSections := outputToInputSections
        outputSectionSizes := List.replicate outSectionFlags.length 0
        inputSectionCopyCommands := List.replicate inputs.length []
        materializedViews := List.replicate outSectionFlags.length none })

/-- A sort of section references with the comparison `less`. -/
def sortSectionRefs (less : SectionRef → SectionRef → Bool) (refs : List SectionRef) :
    List SectionRef :=
  refs.insertionSort (fun a b => less b a = false)

/-- An object of the shape of `objectWithRelocation` that defines the global symbol `a` at
the start of its `.text` of ten bytes and has the relocation `movabsq $a, %rax` of type
`R_X86_64_64` at the offset 1000 of `.text`. -/
def objRelocationOutside : ElfInput :=
  objectWithRelocation (mkSym 1 STB_GLOBAL 1 0)
    { r_offset := 1000, r_info := 1 * 2 ^ 32 + R_X86_64_64, r_addend := 0 }

/-- The inputs of `preProcessesRelocations` in the link of `objRelocationOutside`, whose
`.text` is the output section 0, with the copy commands of `mergeAndSortInputSections`. -/
def linkRelocationOutside : PreProcessIn :=
  { symbolTable := (insertSymbolsIntoSymbolTable [objRelocationOutside] [0] 0 []).symbolTable
    inputSectionCopyCommands :=
      match mergeAndSortInputSections [objRelocationOutside] [0] [SHF_ALLOC + SHF_EXECINSTR]
        sortSectionRefs (fun n => List.replicate n 0) id [[⟨0, 1⟩]] with
      | some st => st.inputSectionCopyCommands
      | none => []
    inputToOutputSection := [[notAnOutputSection, 0, notAnOutputSection, notAnOutputSection,
      notAnOutputSection]]
    numberOfOutputSections := 2
    gotSectionIndex := 1 }

/-! ## `synthesizeSyntheticSections` -/

/-- The inputs of `synthesizeSyntheticSections` other than the input files and the two
vectors it updates.  The pointers `enoughStringTableMemory` and `enoughSymbolTableMemory`
are given by the number of bytes of the memory that the caller has allocated for them. -/
structure SynthIn where
  gotID : Nat
  symTabID : Nat
  strTabID : Nat
  shstrTabID : Nat
  gotEntryPatches : List GOTEntryPatchupInfo
  outputSectionAddresses : List Nat
  inputToOutputSection : List (List Nat)
  inputSectionCopyCommands : List (List SectionMemCopies)
  flags : List Nat
  names : List Name
  symbolTable : SymbolTable
  enoughStringTableMemory : Nat
  enoughSymbolTableMemory : Nat

/-- The body of the loop of `synthesizeSyntheticSections` over `gotEntryPatches`, on the
bytes of `materializedViews[gotID]`. -/
def patchGotEntry (p : SynthIn) (view : List Nat) (patch : GOTEntryPatchupInfo)
    (patchID : Nat) : List Nat :=
  if patch.headerID = SHN_UNDEF then view
  else
    let gotEntry := add64
      (inputToOutputSectionOffset patch.elfID patch.headerID patch.symbolValue
        p.inputSectionCopyCommands).2
      (p.outputSectionAddresses.getD
        (get2D p.inputToOutputSection patch.elfID patch.headerID) 0)
    let gotByteOffset := sizeof_Elf64_Addr * (numReservedGotEntries + patchID)
    writeAt view gotByteOffset (writeLE gotEntry 8)

/-- The bytes written to `stringTableMem`, of which there are `stringTableSize`, and the
records written to `symbolTableMem`, which take `symbolTableSize` bytes. -/
structure SynthTables where
  stringTableMem : List Nat
  symbolTableMem : List Elf64_Sym
  deriving DecidableEq, Repr

/-- The lambda `insertSymbolString`. -/
def insertSymbolString (t : SynthTables) (symName : Name) : SynthTables :=
  { t with stringTableMem := t.stringTableMem ++ symName ++ [0] }

/-- The lambda `insertSymbol`. -/
def insertSymbolRecord (t : SynthTables) (sym : Elf64_Sym) : SynthTables :=
  { t with symbolTableMem := t.symbolTableMem ++ [sym] }

/-- The lambda `pushSymbol`. -/
def pushSymbol (p : SynthIn) (t : SynthTables) (sym : Elf64_Sym) (symName : Name)
    (elfID : Nat) : SynthTables :=
  let sym1 : Elf64_Sym := { sym with st_name := t.stringTableMem.length % 2 ^ 32 }
  let t1 := insertSymbolString t symName
  if sym1.st_shndx = SHN_ABS then insertSymbolRecord t1 sym1
  else
    let outSectionID := get2D p.inputToOutputSection elfID sym1.st_shndx
    if p.flags.getD outSectionID 0 &&& SHF_ALLOC = 0 then t1
    else
      let inputAddress := p.outputSectionAddresses.getD outSectionID 0
      let value := (inputToOutputSectionOffset elfID sym1.st_shndx sym1.st_value
        p.inputSectionCopyCommands).2
      insertSymbolRecord t1
        { sym1 with
          st_value := add64 value inputAddress,
          st_shndx := (outSectionID + 1) % 2 ^ 16 }

/-- The inner lambda of the loop of `synthesizeSyntheticSections` over the section
headers: the local symbols of a symbol table of the input `inputIndex`. -/
def pushLocalSymbols (p : SynthIn) (e : ElfInput) (inputIndex : Nat) (t : SynthTables)
    (header : Elf64_Shdr) (_headerIndex : Nat) : SynthTables :=
  if header.sh_type ≠ SHT_SYMTAB then t
  else
    let symStrTabHdr := e.headers.getD header.sh_link default
    (List.range' 1 (header.sh_info - 1)).foldl
      (fun t i =>
        let sym := readSym e.mem (header.sh_offset + sizeof_Elf64_Sym * i)
        pushSymbol p t sym (cstrAt e.mem (symStrTabHdr.sh_offset + sym.st_name)) inputIndex)
      t

/-- The body of the loop of `synthesizeSyntheticSections` over the symbol table. -/
def pushGlobalSymbol (p : SynthIn) (t : SynthTables) (kv : Name × GlobalSymbolTableEntry) :
    SynthTables :=
  match kv.2.firstLoad.symbol with
  | none => t
  | some sym => pushSymbol p t sym kv.1 kv.2.firstLoad.elfID

/-- The body of the loop of `synthesizeSyntheticSections` over `names`. -/
def pushSectionName (shstrTabOffset : Nat) (st : List Nat × SynthTables) (name : Name)
    (_id : Nat) : List Nat × SynthTables :=
  (st.1 ++ [(st.2.stringTableMem.length - shstrTabOffset) % 2 ^ 32], insertSymbolString st.2 name)

/-- The outputs of `synthesizeSyntheticSections`, with the returned status, the bytes
and the records that it has written from the start of the two memory regions on, and
whether all of them lie within the memory that the caller has allocated.  The function
writes with `std::memcpy` and `std::memset` and does not test the sizes: when
`withinMemory` is false it has written behind the end of a region, and its behaviour is
undefined. -/
structure SynthOutput where
  status : StatusCode
  materializedViews : List (Option (List Nat))
  outputSectionSizes : List Nat
  numLocalSymbols : Nat
  sh_names : List Nat
  stringTableMem : List Nat
  symbolTableMem : List Elf64_Sym
  withinMemory : Bool
  deriving DecidableEq, Repr

/-- The function `synthesizeSyntheticSections`; `inputs` are the parallel spans
`elfAddresses` and `sectionHeaders`, and `visitSymbols` gives the order in which the loop
over the unordered map `symbolTable` visits its entries.  Every write to the two memory
regions is behind the one before it, so all of them lie within the allocated memory
exactly when the bytes written in the end do. -/
def synthesizeSyntheticSections (p : SynthIn) (inputs : List ElfInput)
    (visitSymbols : SymbolTable → SymbolTable)
    (materializedViews : List (Option (List Nat))) (outputSectionSizes : List Nat) :
    SynthOutput :=
  let gotView := forEachIndexed p.gotEntryPatches (patchGotEntry p)
    ((materializedViews.getD p.gotID none).getD [])
  let views1 := materializedViews.set p.gotID (some gotView)
  let t0 : SynthTables := { stringTableMem := [0], symbolTableMem := [default] }
  let t1 := forEachIndexed inputs
    (fun t e inputIndex => forEachIndexed e.headers (pushLocalSymbols p e inputIndex) t) t0
  let numLocalSymbols := t1.symbolTableMem.length % 2 ^ 32
  let t2 := (visitSymbols p.symbolTable).foldl (pushGlobalSymbol p) t1
  let sizes1 := (outputSectionSizes.set p.symTabID
    (sizeof_Elf64_Sym * t2.symbolTableMem.length)).set p.strTabID t2.stringTableMem.length
  let shstrTabOffset := t2.stringTableMem.length
  let t3 : SynthTables := { t2 with stringTableMem := t2.stringTableMem ++ [0] }
  let r := forEachIndexed p.names (pushSectionName shstrTabOffset) ([], t3)
  { status := StatusCode.ok
    materializedViews :=
      ((views1.set p.strTabID (some t2.stringTableMem)).set p.symTabID
        (some (t2.symbolTableMem.flatMap encodeSym))).set p.shstrTabID
          (some (r.2.stringTableMem.drop shstrTabOffset))
    outputSectionSizes := sizes1.set p.shstrTabID (r.2.stringTableMem.length - shstrTabOffset)
    numLocalSymbols := numLocalSymbols
    sh_names := r.1
    stringTableMem := r.2.stringTableMem
    symbolTableMem := r.2.symbolTableMem
    withinMemory :=
      decide (r.2.stringTableMem.length ≤ p.enoughStringTableMemory ∧
        sizeof_Elf64_Sym * r.2.symbolTableMem.length ≤ p.enoughSymbolTableMemory) }

/-- A relocatable object with a section of three distinct 8-byte elements with the flags
`SHF_ALLOC | SHF_MERGE` (section 1), a symbol table with the local symbol `a` at the
offset 16 of that section, the start of its third element (section 2), the string table
`"\0a\0b\0"` (section 3), and a `SHT_RELA` section for section 1 with the relocation of
type `R_X86_64_64` against `a` at the offset 16 (section 4): the third element is the
address of `a`. -/
def objMergedPointers : ElfInput :=
  { mem := encodeSym default ++ encodeSym (mkSym 1 STB_LOCAL 1 16) ++ strtabAB ++
      encodeRela { r_offset := 16, r_info := 1 * 2 ^ 32 + R_X86_64_64, r_addend := 0 } ++
      [1, 0, 0, 0, 0, 0, 0, 0, 2, 0, 0, 0, 0, 0, 0, 0, 0, 0, 0, 0, 0, 0, 0, 0]
    headers := [
      default,
      { sh_name := 0, sh_type := SHT_PROGBITS, sh_flags := SHF_ALLOC + SHF_MERGE, sh_addr := 0,
        sh_offset := 77, sh_size := 24, sh_link := 0, sh_info := 0, sh_addralign := 8,
        sh_entsize := 8 },
      { sh_name := 0, sh_type := SHT_SYMTAB, sh_flags := 0, sh_addr := 0, sh_offset := 0,
        sh_size := 48, sh_link := 3, sh_info := 2, sh_addralign := 8,
        sh_entsize := sizeof_Elf64_Sym },
      { sh_name := 0, sh_type := SHT_STRTAB, sh_flags := 0, sh_addr := 0, sh_offset := 48,
        sh_size := 5, sh_link := 0, sh_info := 0, sh_addralign := 1, sh_entsize := 0 },
      { sh_name := 0, sh_type := SHT_RELA, sh_flags := 0, sh_addr := 0, sh_offset := 53,
        sh_size := 24, sh_link := 2, sh_info := 1, sh_addralign := 8,
        sh_entsize := sizeof_Elf64_Rela }] }

/-- The result of `mergeAndSortInputSections` in the link of `objMergedPointers`, whose
section 1 is the output section 0. -/
def mergedPointersSections : Option MergeSortState :=
  mergeAndSortInputSections [objMergedPointers] [0] [SHF_ALLOC + SHF_MERGE] sortSectionRefs
    (fun n => List.replicate n 0) id [[⟨0, 1⟩]]

/-- The copy commands of the link of `objMergedPointers`. -/
def mergedPointersCommands : List (List SectionMemCopies) :=
  match mergedPointersSections with
  | some st => st.inputSectionCopyCommands
  | none => []

/-- The inputs of `preProcessesRelocations` in the link of `objMergedPointers`. -/
def linkMergedPointers : PreProcessIn :=
  { symbolTable := (insertSymbolsIntoSymbolTable [objMergedPointers] [0] 0 []).symbolTable
    inputSectionCopyCommands := mergedPointersCommands
    inputToOutputSection := [[notAnOutputSection, 0, notAnOutputSection, notAnOutputSection,
      notAnOutputSection]]
    numberOfOutputSections := 5
    gotSectionIndex := 1 }

/-- The layout of the link of `objMergedPointers`: the merged section is the output
section 0 of 24 bytes, the sections 1 to 4 are `.got`, `.symtab`, `.strTab` and
`.shstrtab`. -/
def layoutMergedPointers : LayoutOutput :=
  constructLoadedSectionLayout
    (sortOutputSections [SHT_PROGBITS, SHT_PROGBITS, SHT_SYMTAB, SHT_STRTAB, SHT_STRTAB]
      [SHF_ALLOC + SHF_MERGE, SHF_ALLOC + SHF_WRITE, 0, 0, 0] sortSections)
    [24, 24, 0, 0, 0] [8, 8, 8, 1, 1]
    [SHT_PROGBITS, SHT_PROGBITS, SHT_SYMTAB, SHT_STRTAB, SHT_STRTAB]

/-- The inputs of `synthesizeSyntheticSections` in the link of `objMergedPointers`, with
64 bytes of memory for the string tables and 48 bytes for the two records of the symbol
table. -/
def synthMergedPointers : SynthIn :=
  { gotID := 1
    symTabID := 2
    strTabID := 3
    shstrTabID := 4
    gotEntryPatches := []
    outputSectionAddresses := layoutMergedPointers.outputSectionAddresses
    inputToOutputSection := [[notAnOutputSection, 0, notAnOutputSection, notAnOutputSection,
      notAnOutputSection]]
    inputSectionCopyCommands := mergedPointersCommands
    flags := [SHF_ALLOC + SHF_MERGE, SHF_ALLOC + SHF_WRITE, 0, 0, 0]
    names := [bytesOf ".rodata", bytesOf ".got", bytesOf ".symtab", bytesOf ".strTab",
      bytesOf ".shstrtab"]
    symbolTable := (insertSymbolsIntoSymbolTable [objMergedPointers] [0] 0 []).symbolTable
    enoughStringTableMemory := 64
    enoughSymbolTableMemory := 48 }

/-- The symbol table that `synthesizeSyntheticSections` writes in the link of
`objMergedPointers`. -/
def symtabMergedPointers : List Elf64_Sym :=
  (synthesizeSyntheticSections synthMergedPointers [objMergedPointers] id
    [none, some (List.replicate 24 0), none, none, none] [24, 24, 0, 0, 0]).symbolTableMem

/-! ## `mapInputSectionsToOutputSections` -/

/-- What the language and the library leave open in `mapInputSectionsToOutputSections`:
the two uses of `std::sort`, the content of freshly allocated memory, and the orders in
which the unordered maps of `mergeSections` and of the symbol table are visited. -/
structure LibraryChoices where
  sortRefs : (SectionRef → SectionRef → Bool) → List SectionRef → List SectionRef
  sortSections : (Nat → Nat → Bool) → List Nat → List Nat
  allocate : Nat → List Nat
  visitOrder : List (List Nat × Nat) → List (List Nat × Nat)
  visitSymbols : SymbolTable → SymbolTable

/-- The vectors that the lambda `allocateSyntheticSection` extends. -/
structure OutputSections where
  names : List Name
  outputToInputSections : List (List SectionRef)
  outputSectionTypes : List Nat
  flags : List Nat
  alignments : List Nat
  outputSectionSizes : List Nat
  materializedViews : List (Option (List Nat))
  deriving DecidableEq, Repr

/-- The lambda `allocateSyntheticSection`: the extended vectors and the returned id. -/
def allocateSyntheticSection (s : OutputSections) (name : Name) (type flag alignment : Nat) :
    OutputSections × Nat :=
  ({ names := s.names ++ [name]
     outputToInputSections := s.outputToInputSections ++ [[]]
     outputSectionTypes := s.outputSectionTypes ++ [type]
     flags := s.flags ++ [flag]
     alignments := s.alignments ++ [alignment]
     outputSectionSizes := s.outputSectionSizes ++ [0]
     materializedViews := s.materializedViews ++ [none] },
   s.outputToInputSections.length % 2 ^ 16)

/-- The variables of the loop of `mapInputSectionsToOutputSections` that gives the
sections that are not loaded a place in the file. -/
structure UnloadedCursor where
  offsetOfUnloaded : Nat
  outputSectionAddresses : List Nat
  outputSectionFileOffsets : List Nat
  deriving DecidableEq, Repr

/-- The body of the loop over `segmentedSections[meta::SegmentLocation::notLoaded]`. -/
def placeUnloaded (alignments outputSectionSizes : List Nat) (c : UnloadedCursor)
    (sectionID : Nat) : UnloadedCursor :=
  let offsetOfUnloaded := alignup c.offsetOfUnloaded (alignments.getD sectionID 0)
  { offsetOfUnloaded := add64 offsetOfUnloaded (outputSectionSizes.getD sectionID 0)
    outputSectionAddresses := c.outputSectionAddresses.set sectionID 0
    outputSectionFileOffsets := c.outputSectionFileOffsets.set sectionID offsetOfUnloaded }

/-- The outputs of `mapInputSectionsToOutputSections` when it returns `ok`, with the
names of the output sections and the value `offsetOfUnloaded` after the last section. -/
structure MapOutput where
  names : List Name
  sectionDataEnd : Nat
  outputSectionHeaders : List Elf64_Shdr
  elfHeader : Elf64_Ehdr
  outputToInputSections : List (List SectionRef)
  inputToOutputSection : List (List Nat)
  outputSectionTypes : List Nat
  outputSectionSizes : List Nat
  inputSectionCopyCommands : List (List SectionMemCopies)
  materializedViews : List (Option (List Nat))
  programHeaders : List Elf64_Phdr
  outputSectionAddresses : List Nat
  outputSectionFileOffsets : List Nat
  gotAddress : Nat
  processedRelas : List (List ProcessedRela)
  symbolTableMem : List Elf64_Sym
  segmentedSections : List (List Nat)
  deriving DecidableEq, Repr

/-- The result of `mapInputSectionsToOutputSections`: it returns a status other than `ok`,
after which its caller uses none of its outputs; or it returns no status, as a loop of
`mergeSections` does not end or has undefined behaviour; or `synthesizeSyntheticSections`
has written behind the end of the memory allocated for the string tables or the symbol
table, after which the behaviour is undefined (`synth` is what it has written); or it
returns `ok` with its outputs. -/
inductive MapResult where
  | failed (status : StatusCode)
  | diverges
  | undefined (synth : SynthOutput)
  | done (out : MapOutput)
  deriving DecidableEq, Repr

/-- The variable `syntheticSectionStringMemorySize` of
`mapInputSectionsToOutputSections`: four, and the sizes of the names of the four
synthetic sections. -/
def syntheticSectionStringMemorySize (names : List Name)
    (gotID symTabID strTabID shstrTabID : Nat) : Nat :=
  add64 (add64 4 (add64 (names.getD gotID []).length (names.getD strTabID []).length))
    (add64 (names.getD shstrTabID []).length (names.getD symTabID []).length)

/-- The function `mapInputSectionsToOutputSections`, from the allocation of
`enoughStringTableMemory` and `enoughSymbolTableMemory` and the call of
`synthesizeSyntheticSections` on. -/
def mapSynthesizeAndBuild (lib : LibraryChoices) (inputs : List ElfInput)
    (symbolTable : SymbolTable) (entrySymbolInfo : GlobalSymbolTableEntry) (init : InitOutput)
    (ms : MergeSortState) (s : OutputSections) (gotID symTabID strTabID shstrTabID : Nat)
    (segmentedSections : List (List Nat)) (pre : PreProcessState) (layout : LayoutOutput) :
    MapResult :=
  let synth := synthesizeSyntheticSections
    { gotID := gotID
      symTabID := symTabID
      strTabID := strTabID
      shstrTabID := shstrTabID
      gotEntryPatches := pre.gotEntryPatches
      outputSectionAddresses := layout.outputSectionAddresses
      inputToOutputSection := init.inputToOutputSection
      inputSectionCopyCommands := ms.inputSectionCopyCommands
      flags := s.flags
      names := s.names
      symbolTable := symbolTable
      enoughStringTableMemory := add64 init.totalStringTableMemorySize
        (syntheticSectionStringMemorySize s.names gotID symTabID strTabID shstrTabID)
      enoughSymbolTableMemory :=
        ((init.totalNumberOfLocalSymbols + symbolTable.length) * sizeof_Elf64_Sym) % 2 ^ 64 }
    inputs lib.visitSymbols s.materializedViews s.outputSectionSizes
  if synth.withinMemory = false then MapResult.undefined synth
  else if synth.status ≠ StatusCode.ok then MapResult.failed synth.status
  else
    let lastLoaded := layout.programHeaders.getD (layout.programHeaders.length - 2) default
    let unloaded := (segmentedSections.getD SegmentLocation.notLoaded []).foldl
      (placeUnloaded s.alignments synth.outputSectionSizes)
      { offsetOfUnloaded := add64 lastLoaded.p_offset lastLoaded.p_filesz
        outputSectionAddresses := layout.outputSectionAddresses
        outputSectionFileOffsets := layout.outputSectionFileOffsets }
    match buildElfAndSectionHeaders
      { names := s.names
        sh_names := synth.sh_names
        types := s.outputSectionTypes
        flags := s.flags
        alignments := s.alignments
        outputSectionAddresses := unloaded.outputSectionAddresses
        outputSectionFileOffsets := unloaded.outputSectionFileOffsets
        outputSectionSizes := synth.outputSectionSizes
        sectionDataEnd := unloaded.offsetOfUnloaded
        symTabID := symTabID
        strTabID := strTabID
        shstrTabID := shstrTabID
        numLocalSymbols := synth.numLocalSymbols
        inputSectionCopyCommands := ms.inputSectionCopyCommands
        inputToOutputSection := init.inputToOutputSection
        entrySymbolInfo := entrySymbolInfo
        numProgramHeaders := layout.programHeaders.length % 2 ^ 16 } with
    | none => MapResult.diverges
    | some build =>
      if build.status ≠ StatusCode.ok then MapResult.failed build.status
      else MapResult.done
        { names := s.names
          sectionDataEnd := unloaded.offsetOfUnloaded
          outputSectionHeaders := build.outputSectionHeaders
          elfHeader := build.elfHeader
          outputToInputSections := s.outputToInputSections
          inputToOutputSection := init.inputToOutputSection
          outputSectionTypes := s.outputSectionTypes
          outputSectionSizes := synth.outputSectionSizes
          inputSectionCopyCommands := ms.inputSectionCopyCommands
          materializedViews := synth.materializedViews
          programHeaders := layout.programHeaders
          outputSectionAddresses := unloaded.outputSectionAddresses
          outputSectionFileOffsets := unloaded.outputSectionFileOffsets
          gotAddress := layout.outputSectionAddresses.getD gotID 0
          processedRelas := pre.processedRelas
          symbolTableMem := synth.symbolTableMem
          segmentedSections := segmentedSections }

/-- The size that `mapInputSectionsToOutputSections` gives the section `.got`:
`(meta::numReservedGotEntries + gotEntryPatches.size()) * sizeof(Elf64_Addr)`. -/
def gotSectionSize (gotEntryPatches : List GOTEntryPatchupInfo) : Nat :=
  add64 0 ((numReservedGotEntries + gotEntryPatches.length) * sizeof_Elf64_Addr)

/-- The function `mapInputSectionsToOutputSections`, from the four calls of
`allocateSyntheticSection` on. -/
def mapSyntheticAndLayout (lib : LibraryChoices) (inputs : List ElfInput)
    (symbolTable : SymbolTable) (entrySymbolInfo : GlobalSymbolTableEntry) (init : InitOutput)
    (ms : MergeSortState) : MapResult :=
  let s0 : OutputSections :=
    { names := init.names
      outputToInputSections := ms.outputToInputSections
      outputSectionTypes := init.types
      flags := init.flags
      alignments := init.alignments
      outputSectionSizes := ms.outputSectionSizes
      materializedViews := ms.materializedViews }
  let got := allocateSyntheticSection s0 (bytesOf ".got") SHT_PROGBITS (SHF_ALLOC ||| SHF_WRITE)
    sizeof_Elf64_Addr
  let symTab := allocateSyntheticSection got.1 (bytesOf ".symtab") SHT_SYMTAB 0 8
  let strTab := allocateSyntheticSection symTab.1 (bytesOf ".strTab") SHT_STRTAB 0 1
  let shstrTab := allocateSyntheticSection strTab.1 (bytesOf ".shstrtab") SHT_STRTAB 0 1
  let s := shstrTab.1
  let segmentedSections := sortOutputSections s.outputSectionTypes s.flags lib.sortSections
  let pre := preProcessesRelocations inputs
    { symbolTable := symbolTable
      inputSectionCopyCommands := ms.inputSectionCopyCommands
      inputToOutputSection := init.inputToOutputSection
      numberOfOutputSections := s.outputToInputSections.length
      gotSectionIndex := got.2 }
  if pre.status ≠ StatusCode.ok then MapResult.failed pre.status
  else
    let gotSize := gotSectionSize pre.gotEntryPatches
    let s1 := { s with
      outputSectionSizes := s.outputSectionSizes.set got.2 gotSize,
      materializedViews := s.materializedViews.set got.2 (some (lib.allocate gotSize)) }
    let layout := constructLoadedSectionLayout segmentedSections s1.outputSectionSizes
      s1.alignments s1.outputSectionTypes
    if layout.status ≠ StatusCode.ok then MapResult.failed layout.status
    else mapSynthesizeAndBuild lib inputs symbolTable entrySymbolInfo init ms s1 got.2 symTab.2
      strTab.2 shstrTab.2 segmentedSections pre layout

/-- The function `mapInputSectionsToOutputSections`; `inputs` are the parallel spans
`elfAddresses` and `sectionHeaders`. -/
def mapInputSectionsToOutputSections (lib : LibraryChoices) (inputs : List ElfInput)
    (sortKeys : List Nat) (sectionStringTables : List Memory) (symbolTable : SymbolTable)
    (entrySymbolInfo : GlobalSymbolTableEntry) : MapResult :=
  let init := initOutputSections (inputs.map ElfInput.headers) sectionStringTables
  if init.status ≠ StatusCode.ok then MapResult.failed init.status
  else
    match mergeAndSortInputSections inputs sortKeys init.flags lib.sortRefs lib.allocate
        lib.visitOrder init.outputToInputSections with
    | none => MapResult.diverges
    | some ms =>
      if ms.status ≠ StatusCode.ok then MapResult.failed ms.status
      else mapSyntheticAndLayout lib inputs symbolTable entrySymbolInfo init ms

/-- The size that `writeLinkingResultsToFile` gives the output file. -/
def outputFileSize (elfHeader : Elf64_Ehdr) (outputSectionHeaders : List Elf64_Shdr) : Nat :=
  add64 elfHeader.e_shoff ((outputSectionHeaders.length * sizeof_Elf64_Shdr) % 2 ^ 64)

/-- The choices of a library whose sorts are insertion sorts, whose fresh memory is zero
and which visits its unordered maps in the order of insertion. -/
def simpleLibrary : LibraryChoices :=
  { sortRefs := sortSectionRefs
    sortSections := sortSections
    allocate := fun n => List.replicate n 0
    visitOrder := id
    visitSymbols := id }

/-- A relocatable object with a `.text` of twelve bytes that defines the global symbol `a`
at its offset 4 (section 1), a symbol table and its string table (sections 2 and 3), a
`.data` of eight bytes (section 4), a `.bss` of two pages (section 5) and the string
table of the section names, of 18 bytes from the offset 53 of the file on (section 6). -/
def objTextDataBss : ElfInput :=
  { mem := encodeSym default ++ encodeSym (mkSym 1 STB_GLOBAL 1 4) ++ strtabAB ++
      [0] ++ bytesOf ".text" ++ [0] ++ bytesOf ".bss" ++ [0] ++ bytesOf ".data" ++ [0] ++
      [1, 2, 3, 4, 5, 6, 7, 8, 9, 10, 11, 12]
    headers := [
      default,
      { sh_name := 1, sh_type := SHT_PROGBITS, sh_flags := SHF_ALLOC + SHF_EXECINSTR, sh_addr := 0,
        sh_offset := 71, sh_size := 12, sh_link := 0, sh_info := 0, sh_addralign := 16,
        sh_entsize := 0 },
      { sh_name := 0, sh_type := SHT_SYMTAB, sh_flags := 0, sh_addr := 0, sh_offset := 0,
        sh_size := 48, sh_link := 3, sh_info := 1, sh_addralign := 8,
        sh_entsize := sizeof_Elf64_Sym },
      { sh_name := 0, sh_type := SHT_STRTAB, sh_flags := 0, sh_addr := 0, sh_offset := 48,
        sh_size := 5, sh_link := 0, sh_info := 0, sh_addralign := 1, sh_entsize := 0 },
      { sh_name := 12, sh_type := SHT_PROGBITS, sh_flags := SHF_ALLOC + SHF_WRITE, sh_addr := 0,
        sh_offset := 71, sh_size := 8, sh_link := 0, sh_info := 0, sh_addralign := 8,
        sh_entsize := 0 },
      { sh_name := 7, sh_type := SHT_NOBITS, sh_flags := SHF_ALLOC + SHF_WRITE, sh_addr := 0,
        sh_offset := 83, sh_size := 0x2000, sh_link := 0, sh_info := 0, sh_addralign := 8,
        sh_entsize := 0 },
      { sh_name := 0, sh_type := SHT_STRTAB, sh_flags := 0, sh_addr := 0, sh_offset := 53,
        sh_size := 18, sh_link := 0, sh_info := 0, sh_addralign := 1, sh_entsize := 0 }] }

/-- The link of the single object `objTextDataBss` with the entry symbol `a`. -/
def linkTextDataBss : MapResult :=
  mapInputSectionsToOutputSections simpleLibrary [objTextDataBss] [0]
    [objTextDataBss.mem.drop 53]
    (insertSymbolsIntoSymbolTable [objTextDataBss] [0] 0 []).symbolTable
    (SymbolTable.get (insertSymbolsIntoSymbolTable [objTextDataBss] [0] 0 []).symbolTable
      (bytesOf "a"))

/-- The outputs of a link that returned `ok`. -/
def MapResult.output? : MapResult → Option MapOutput
  | MapResult.done out => some out
  | _ => none

/-- What `synthesizeSyntheticSections` has written in a link in which it has written
behind the end of the allocated memory. -/
def MapResult.written? : MapResult → Option SynthOutput
  | MapResult.undefined synth => some synth
  | _ => none

/-! ## `initRelaElf` and `parseElfFiles` -/

/-- The record `Elf64_Ehdr` stored at the start of `mem` (the layout of `elf.h`). -/
def readEhdr (mem : Memory) : Elf64_Ehdr :=
  { e_ident := (List.range 16).map (readByte mem)
    e_type := readLE mem 16 2
    e_machine := readLE mem 18 2
    e_version := readLE mem 20 4
    e_entry := readLE mem 24 8
    e_phoff := readLE mem 32 8
    e_shoff := readLE mem 40 8
    e_flags := readLE mem 48 4
    e_ehsize := readLE mem 52 2
    e_phentsize := readLE mem 54 2
    e_phnum := readLE mem 56 2
    e_shentsize := readLE mem 58 2
    e_shnum := readLE mem 60 2
    e_shstrndx := readLE mem 62 2 }

/-- The record `Elf64_Shdr` stored at offset `off` (the layout of `elf.h`). -/
def readShdr (mem : Memory) (off : Nat) : Elf64_Shdr :=
  { sh_name := readLE mem off 4
    sh_type := readLE mem (off + 4) 4
    sh_flags := readLE mem (off + 8) 8
    sh_addr := readLE mem (off + 16) 8
    sh_offset := readLE mem (off + 24) 8
    sh_size := readLE mem (off + 32) 8
    sh_link := readLE mem (off + 40) 4
    sh_info := readLE mem (off + 44) 4
    sh_addralign := readLE mem (off + 48) 8
    sh_entsize := readLE mem (off + 56) 8 }

/-- The function `view_as_span<Elf64_Shdr>(ptr, numElements)`. -/
def view_as_span_Shdr (mem : Memory) (off numElements : Nat) : List Elf64_Shdr :=
  (List.range numElements).map (fun i => readShdr mem (off + sizeof_Elf64_Shdr * i))

/-- The loop of `initRelaElf` over the section headers: the status of the first section
that is rejected, `ok` when there is none.  The sum `sh_offset + sh_size` is one of
`Elf64_Off` and `Elf64_Xword`, taken modulo `2 ^ 64`. -/
def validateSections (memSize : Nat) : List Elf64_Shdr → StatusCode
  | [] => StatusCode.ok
  | secHdr :: rest =>
    if secHdr.sh_type = SHT_NOBITS then validateSections memSize rest
    else if secHdr.sh_type = SHT_GROUP then StatusCode.not_ok
    else if memSize < add64 secHdr.sh_offset secHdr.sh_size then StatusCode.bad_input_file
    else validateSections memSize rest

/-- The outputs of `initRelaElf`, with its status. -/
structure InitRelaElfOut where
  status : StatusCode
  sectionHeaders : List Elf64_Shdr
  strTable : Option Memory
  deriving DecidableEq, Repr

/-- The function `initRelaElf`; `mem` is the memory at `address`.  The product
`static_cast<size_t>(e_shnum) * e_shentsize` is below `2 ^ 32`; the sum with `e_shoff` is
taken modulo `2 ^ 64`. -/
def initRelaElf (mem : Memory) (memSize : Nat) : InitRelaElfOut :=
  let header := readEhdr mem
  if header.e_type ≠ ET_REL then ⟨StatusCode.not_ok, [], none⟩
  else if header.e_machine ≠ EM_X86_64 then ⟨StatusCode.not_ok, [], none⟩
  else if header.e_shentsize ≠ sizeof_Elf64_Shdr then ⟨StatusCode.not_ok, [], none⟩
  else if memSize < add64 header.e_shoff (header.e_shnum * header.e_shentsize) then
    ⟨StatusCode.bad_input_file, [], none⟩
  else if header.e_shnum = 0 ∨ header.e_shnum ≥ SHN_LORESERVE then
    ⟨StatusCode.bad_input_file, [], none⟩
  else if header.e_shstrndx = SHN_XINDEX then ⟨StatusCode.bad_input_file, [], none⟩
  else
    let secHeaders := view_as_span_Shdr mem header.e_shoff header.e_shnum
    let status := validateSections memSize secHeaders
    if status ≠ StatusCode.ok then ⟨status, secHeaders, none⟩
    else
      let strTableHdr := readShdr mem (header.e_shoff + sizeof_Elf64_Shdr * header.e_shstrndx)
      ⟨StatusCode.ok, secHeaders, some (mem.drop strTableHdr.sh_offset)⟩

/-- The variables that the tasks of `parseElfFiles` write: the local `status` and the four
output vectors; an entry that no task has written is `none`, zero or empty. -/
structure ParseElfState where
  status : StatusCode
  elfAddresses : List (Option Memory)
  precedences : List SortKey
  sectionHeaders : List (List Elf64_Shdr)
  sectionStringTables : List (Option Memory)
  deriving DecidableEq, Repr

/-- The body of the loop of `parseElfFiles` for the file `fileIndex`, the input `elfID`. -/
def parseElfFile (addresses : List Memory) (memSizes : List Nat) (st : ParseElfState)
    (fileIndex elfID : Nat) : ParseElfState :=
  let address := addresses.getD fileIndex []
  let memSize := memSizes.getD fileIndex 0
  let init := initRelaElf address memSize
  if init.status ≠ StatusCode.ok then { st with status := init.status }
  else
    { st with
      precedences := st.precedences.set elfID (makeSortKey fileIndex 0)
      elfAddresses := st.elfAddresses.set elfID (some address)
      sectionHeaders := st.sectionHeaders.set elfID init.sectionHeaders
      sectionStringTables := st.sectionStringTables.set elfID init.strTable }

/-- The function `parseElfFiles`: the status it returns and the variables its tasks have
written.  The tasks of `parallel_for_each_indexed` write different entries of the vectors,
so their order shows only in the local `status`; they are run here in the order of the
indices. -/
def parseElfFiles (addresses : List Memory) (memSizes : List Nat) (elfFileIndices : List Nat) :
    StatusCode × ParseElfState :=
  let n := elfFileIndices.length
  let st := forEachIndexed elfFileIndices (parseElfFile addresses memSizes)
    { status := StatusCode.ok
      elfAddresses := List.replicate n none
      precedences := List.replicate n 0
      sectionHeaders := List.replicate n []
      sectionStringTables := List.replicate n none }
  (StatusCode.ok, st)

/-- The 64 bytes of a file header. -/
def encodeEhdr (h : Elf64_Ehdr) : List Nat :=
  (List.range 16).map (fun i => h.e_ident.getD i 0 % 256) ++ writeLE h.e_type 2 ++
    writeLE h.e_machine 2 ++ writeLE h.e_version 4 ++ writeLE h.e_entry 8 ++
    writeLE h.e_phoff 8 ++ writeLE h.e_shoff 8 ++ writeLE h.e_flags 4 ++
    writeLE h.e_ehsize 2 ++ writeLE h.e_phentsize 2 ++ writeLE h.e_phnum 2 ++
    writeLE h.e_shentsize 2 ++ writeLE h.e_shnum 2 ++ writeLE h.e_shstrndx 2

/-- The 64 bytes of a section header. -/
def encodeShdr (s : Elf64_Shdr) : List Nat :=
  writeLE s.sh_name 4 ++ writeLE s.sh_type 4 ++ writeLE s.sh_flags 8 ++ writeLE s.sh_addr 8 ++
    writeLE s.sh_offset 8 ++ writeLE s.sh_size 8 ++ writeLE s.sh_link 4 ++ writeLE s.sh_info 4 ++
    writeLE s.sh_addralign 8 ++ writeLE s.sh_entsize 8

/-- The file header of an object of type `e_type` whose `e_shnum` section headers follow
the file header. -/
def fileHeader (e_type e_shnum : Nat) : Elf64_Ehdr :=
  { e_ident := [0x7f, 69, 76, 70, ELFCLASS64, ELFDATA2LSB, EV_CURRENT, 0, 0, 0, 0, 0, 0, 0, 0, 0]
    e_type := e_type
    e_machine := EM_X86_64
    e_version := EV_CURRENT
    e_entry := 0
    e_phoff := 0
    e_shoff := 64
    e_flags := 0
    e_ehsize := 64
    e_phentsize := 0
    e_phnum := 0
    e_shentsize := 64
    e_shnum := e_shnum
    e_shstrndx := 0 }

/-- A file of 128 bytes that is an executable, not a relocatable object: its `e_type` is
`ET_EXEC`; it has the one section header of index zero. -/
def fileExecutable : Memory :=
  encodeEhdr (fileHeader ET_EXEC 1) ++ encodeShdr default

/-- The section header of a `SHT_PROGBITS` section of 16 bytes at the file offset
`2 ^ 64 - 8`. -/
def sectionBeyondFile : Elf64_Shdr :=
  { sh_name := 0, sh_type := SHT_PROGBITS, sh_flags := SHF_ALLOC, sh_addr := 0,
    sh_offset := 2 ^ 64 - 8, sh_size := 16, sh_link := 0, sh_info := 0, sh_addralign := 1,
    sh_entsize := 0 }

/-- A relocatable file of 192 bytes: the file header, the section header of index zero
and the section header `sectionBeyondFile`. -/
def fileSectionBeyond : Memory :=
  encodeEhdr (fileHeader ET_REL 2) ++ encodeShdr default ++ encodeShdr sectionBeyondFile

/-- What C19 asks of a file for `initRelaElf` to return `ok`, with the sums taken as
natural numbers. -/
def acceptedAsStated (mem : Memory) (memSize : Nat) : Prop :=
  (readEhdr mem).e_type = ET_REL ∧ (readEhdr mem).e_machine = EM_X86_64 ∧
  (readEhdr mem).e_shentsize = sizeof_Elf64_Shdr ∧
  1 ≤ (readEhdr mem).e_shnum ∧ (readEhdr mem).e_shnum < SHN_LORESERVE ∧
  (readEhdr mem).e_shstrndx ≠ SHN_XINDEX ∧
  (readEhdr mem).e_shoff + (readEhdr mem).e_shnum * (readEhdr mem).e_shentsize ≤ memSize ∧
  ∀ s ∈ view_as_span_Shdr mem (readEhdr mem).e_shoff (readEhdr mem).e_shnum,
    s.sh_type ≠ SHT_GROUP ∧ (s.sh_type ≠ SHT_NOBITS → s.sh_offset + s.sh_size ≤ memSize)

/-- What `initRelaElf` tests: the same with the two sums taken modulo `2 ^ 64`. -/
def acceptedByCode (mem : Memory) (memSize : Nat) : Prop :=
  (readEhdr mem).e_type = ET_REL ∧ (readEhdr mem).e_machine = EM_X86_64 ∧
  (readEhdr mem).e_shentsize = sizeof_Elf64_Shdr ∧
  1 ≤ (readEhdr mem).e_shnum ∧ (readEhdr mem).e_shnum < SHN_LORESERVE ∧
  (readEhdr mem).e_shstrndx ≠ SHN_XINDEX ∧
  add64 (readEhdr mem).e_shoff ((readEhdr mem).e_shnum * (readEhdr mem).e_shentsize) ≤ memSize ∧
  ∀ s ∈ view_as_span_Shdr mem (readEhdr mem).e_shoff (readEhdr mem).e_shnum,
    s.sh_type ≠ SHT_NOBITS → s.sh_type ≠ SHT_GROUP ∧ add64 s.sh_offset s.sh_size ≤ memSize

/-! ## `argumentsToLinkerParameters.cpp` -/

/-- The record `LinkerOptions` of `cppld.hpp`. -/
structure LinkerOptions where
  outputFileName : Name
  entrySymbolName : Name
  createEhFrameHeader : Bool
  deriving DecidableEq, Repr

/-- The enumeration `Option::Type`. -/
inductive OptionType where
  | ignore
  | setOutputFileName
  | setEntrySymbolName
  | searchForLibrary
  | addLibrarySearchPath
  | disableSharedLinking
  | enableSharedLinking
  | pushBState
  | popBState
  | enableEhFrameHdr
  | disableEhFrameHdr
  | buildID
  | keyword
  | unrecognized
  deriving DecidableEq, Repr

/-- The record `Option` of `argumentsToLinkerParameters.cpp`. -/
structure ArgOption where
  type : OptionType
  hasArg : Bool
  deriving DecidableEq, Repr

def noArg : Bool := false
def hasArg : Bool := true

/-- The map `shortOptions`, keyed by the code of the letter. -/
def shortOptions : List (Nat × ArgOption) :=
  [ ('o'.toNat, ⟨OptionType.setOutputFileName, hasArg⟩),
    ('e'.toNat, ⟨OptionType.setEntrySymbolName, hasArg⟩),
    ('l'.toNat, ⟨OptionType.searchForLibrary, hasArg⟩),
    ('L'.toNat, ⟨OptionType.addLibrarySearchPath, hasArg⟩),
    ('z'.toNat, ⟨OptionType.keyword, hasArg⟩),
    ('m'.toNat, ⟨OptionType.ignore, noArg⟩) ]

/-- The map `longOptionStrings`. -/
def longOptionStrings : List (Name × ArgOption) :=
  [ (bytesOf "output", ⟨OptionType.setOutputFileName, hasArg⟩),
    (bytesOf "entry", ⟨OptionType.setEntrySymbolName, hasArg⟩),
    (bytesOf "library", ⟨OptionType.searchForLibrary, hasArg⟩),
    (bytesOf "library-path", ⟨OptionType.addLibrarySearchPath, hasArg⟩),
    (bytesOf "Bstatic", ⟨OptionType.disableSharedLinking, noArg⟩),
    (bytesOf "non_shared", ⟨OptionType.disableSharedLinking, noArg⟩),
    (bytesOf "dn", ⟨OptionType.disableSharedLinking, noArg⟩),
    (bytesOf "static", ⟨OptionType.disableSharedLinking, noArg⟩),
    (bytesOf "Bdynamic", ⟨OptionType.enableSharedLinking, noArg⟩),
    (bytesOf "dy", ⟨OptionType.enableSharedLinking, noArg⟩),
    (bytesOf "call_shared", ⟨OptionType.enableSharedLinking, noArg⟩),
    (bytesOf "push_state", ⟨OptionType.pushBState, noArg⟩),
    (bytesOf "pop_state", ⟨OptionType.popBState, noArg⟩),
    (bytesOf "eh-frame-hdr", ⟨OptionType.enableEhFrameHdr, noArg⟩),
    (bytesOf "no-eh-frame-hdr", ⟨OptionType.disableEhFrameHdr, noArg⟩),
    (bytesOf "build-id", ⟨OptionType.buildID, hasArg⟩),
    (bytesOf "start-group", ⟨OptionType.ignore, noArg⟩),
    (bytesOf "end-group", ⟨OptionType.ignore, noArg⟩),
    (bytesOf "plugin", ⟨OptionType.ignore, hasArg⟩),
    (bytesOf "plugin-opt", ⟨OptionType.ignore, hasArg⟩),
    (bytesOf "add-needed", ⟨OptionType.ignore, noArg⟩),
    (bytesOf "no-add-needed", ⟨OptionType.ignore, noArg⟩),
    (bytesOf "as-needed", ⟨OptionType.ignore, noArg⟩),
    (bytesOf "no-as-needed", ⟨OptionType.ignore, noArg⟩),
    (bytesOf "dynamic-linker", ⟨OptionType.ignore, hasArg⟩),
    (bytesOf "no-dynamic-linker", ⟨OptionType.ignore, noArg⟩),
    (bytesOf "nostdlib", ⟨OptionType.ignore, noArg⟩),
    (bytesOf "hash-style", ⟨OptionType.ignore, hasArg⟩) ]

/-- The call `map.find(key)` on one of the two maps of options. -/
def findOption {κ : Type} [DecidableEq κ] : List (κ × ArgOption) → κ → Option ArgOption
  | [], _ => none
  | (k, o) :: rest, key => if k = key then some o else findOption rest key

/-- The call `s.find(c)` of a `string_view`: the index of the first `c`. -/
def findByte (c : Nat) : Name → Option Nat
  | [] => none
  | b :: bs => if b = c then some 0 else (findByte c bs).map (fun i => i + 1)

/-- The lambda `parseLongOption` of `splitArgIntoOptionAndParam`: the option, its parameter
and the number of arguments that the parameter takes. -/
def parseLongOption (argv : List Name) (argIndex : Nat) (longOption : Name) :
    ArgOption × Name × Nat :=
  let unrecognized : ArgOption := ⟨OptionType.unrecognized, false⟩
  match findByte '='.toNat longOption with
  | none =>
    let param := if argIndex + 1 < argv.length then argv.getD (argIndex + 1) [] else []
    ((findOption longOptionStrings longOption).getD unrecognized, param, 1)
  | some separator =>
    ((findOption longOptionStrings (longOption.take separator)).getD unrecognized,
      longOption.drop (separator + 1), 0)

/-- The function `splitArgIntoOptionAndParam`, called with an argument of two bytes or
more; `none` when it reads `argv[argIndex + 1]` past the end of the arguments. -/
def splitArgIntoOptionAndParam (arg : Name) (argv : List Name) (argIndex : Nat) :
    Option (ArgOption × Name × Nat) :=
  if arg.getD 1 0 = '-'.toNat then some (parseLongOption argv argIndex (arg.drop 2))
  else
    match findOption shortOptions (arg.getD 1 0) with
    | none => some (parseLongOption argv argIndex (arg.drop 1))
    | some option =>
      if arg.length > 2 then some (option, arg.drop 2, 0)
      else
        match argv[argIndex + 1]? with
        | none => none
        | some param => some (option, param, 1)

/-- The enumeration `BState`. -/
inductive BState where
  | bDynamic
  | bStatic
  deriving DecidableEq, Repr

/-- The variables of the loop of `argumentsToLinkerParameters` over the arguments. -/
structure ArgState where
  linkerOptions : LinkerOptions
  inputFilePaths : List Name
  currentBState : BState
  bStateStack : List BState
  librariesToFind : List (Nat × BState)
  librarySearchPaths : List Name
  deriving DecidableEq, Repr

/-- The `switch` of `argumentsToLinkerParameters` on the type of the option: the status
with which the function returns, or the variables after the `break`. -/
def applyOption (option : ArgOption) (arg param : Name) (st : ArgState) :
    Except StatusCode ArgState :=
  match option.type with
  | OptionType.setOutputFileName =>
    Except.ok { st with linkerOptions := { st.linkerOptions with outputFileName := param } }
  | OptionType.setEntrySymbolName =>
    Except.ok { st with linkerOptions := { st.linkerOptions with entrySymbolName := param } }
  | OptionType.searchForLibrary =>
    Except.ok { st with
      librariesToFind := st.librariesToFind ++ [(st.inputFilePaths.length, st.currentBState)]
      inputFilePaths := st.inputFilePaths ++ [param] }
  | OptionType.addLibrarySearchPath =>
    Except.ok { st with librarySearchPaths := st.librarySearchPaths ++ [param] }
  | OptionType.disableSharedLinking => Except.ok { st with currentBState := BState.bStatic }
  | OptionType.enableSharedLinking => Except.ok { st with currentBState := BState.bDynamic }
  | OptionType.pushBState =>
    Except.ok { st with bStateStack := st.bStateStack ++ [st.currentBState] }
  | OptionType.popBState =>
    if st.bStateStack.isEmpty then Except.error StatusCode.not_ok
    else Except.ok { st with bStateStack := st.bStateStack.dropLast }
  | OptionType.enableEhFrameHdr =>
    Except.ok { st with linkerOptions := { st.linkerOptions with createEhFrameHeader := true } }
  | OptionType.disableEhFrameHdr =>
    Except.ok { st with linkerOptions := { st.linkerOptions with createEhFrameHeader := false } }
  | OptionType.buildID =>
    let hasOption := (findByte '='.toNat arg).isSome
    if hasOption ∧ param ≠ bytesOf "none" then Except.error StatusCode.not_ok
    else Except.ok st
  | OptionType.keyword =>
    if param ≠ bytesOf "now" ∧ param ≠ bytesOf "noexecstack" ∧ param ≠ bytesOf "relro" then
      Except.error StatusCode.not_ok
    else Except.ok st
  | OptionType.unrecognized => Except.error StatusCode.not_ok
  | OptionType.ignore => Except.ok st

/-- The loop `for (size_t i = 0; i < argv.size(); ++i)` of `argumentsToLinkerParameters`,
from the index `i` on, for at most `fuel` arguments: `none` when the fuel runs out or the
loop reads past the end of the arguments, else whether the function returns in the loop
(`Except.error` with its status) or goes on to the search of the libraries. -/
def argumentLoop (argv : List Name) : Nat → Nat → ArgState →
    Option (Except (StatusCode × ArgState) ArgState)
  | 0, i, st => if i < argv.length then none else some (Except.ok st)
  | fuel + 1, i, st =>
    if i < argv.length then
      let arg := argv.getD i []
      if arg.length < 2 ∨ arg.head? ≠ some '-'.toNat then
        argumentLoop argv fuel (i + 1) { st with inputFilePaths := st.inputFilePaths ++ [arg] }
      else if arg = bytesOf "--" then some (Except.ok st)
      else
        match splitArgIntoOptionAndParam arg argv i with
        | none => none
        | some (option, param, numSkippedParameters) =>
          let j := if option.hasArg then i + numSkippedParameters else i
          match applyOption option arg param st with
          | Except.error status => some (Except.error (status, st))
          | Except.ok st1 => argumentLoop argv fuel (j + 1) st1
    else some (Except.ok st)

/-- What `argumentsToLinkerParameters` asks of the file system: whether the file
`path / libName` exists, and the string of that path. -/
structure FileSystem where
  pathExists : Name → Name → Bool
  pathString : Name → Name → Name

/-- The lambda `addLibraryToInput`: whether the library was found, and the input paths. -/
def addLibraryToInput (fs : FileSystem) (librarySearchPaths : List Name)
    (inputFilePaths : List Name) (filenameIndex : Nat) (filename ending : Name) :
    Bool × List Name :=
  let libName := bytesOf "lib" ++ filename ++ ending
  match librarySearchPaths.find? (fun pathName => fs.pathExists pathName libName) with
  | none => (false, inputFilePaths)
  | some path => (true, inputFilePaths.set filenameIndex (fs.pathString path libName ++ [0]))

/-- The loop of `argumentsToLinkerParameters` over `librariesToFind`. -/
def findLibraries (fs : FileSystem) (librarySearchPaths : List Name) :
    List (Nat × BState) → List Name → StatusCode × List Name
  | [], inputFilePaths => (StatusCode.ok, inputFilePaths)
  | (filenameIndex, bstate) :: rest, inputFilePaths =>
    let shared := addLibraryToInput fs librarySearchPaths inputFilePaths filenameIndex
      (inputFilePaths.getD filenameIndex []) (bytesOf ".so")
    if bstate = BState.bDynamic ∧ shared.1 = true then (StatusCode.not_ok, shared.2)
    else
      let archive := addLibraryToInput fs librarySearchPaths inputFilePaths filenameIndex
        (inputFilePaths.getD filenameIndex []) (bytesOf ".a")
      if archive.1 = false then (StatusCode.not_ok, archive.2)
      else findLibraries fs librarySearchPaths rest archive.2

/-- The function `argumentsToLinkerParameters`: its status, the options and the paths of
the input files; `none` when it reads past the end of the arguments. -/
def argumentsToLinkerParameters (fs : FileSystem) (argv : List Name) :
    Option (StatusCode × LinkerOptions × List Name) :=
  let st : ArgState :=
    { linkerOptions :=
        { outputFileName := bytesOf "a.out", entrySymbolName := bytesOf "_start",
          createEhFrameHeader := false }
      inputFilePaths := []
      currentBState := BState.bDynamic
      bStateStack := []
      librariesToFind := []
      librarySearchPaths := [] }
  match argumentLoop argv argv.length 0 st with
  | none => none
  | some (Except.error (status, st1)) => some (status, st1.linkerOptions, st1.inputFilePaths)
  | some (Except.ok st1) =>
    let found := findLibraries fs st1.librarySearchPaths st1.librariesToFind st1.inputFilePaths
    some (found.1, st1.linkerOptions, found.2)

/-! ## `linkSourcesToExecutableElfFile.cpp` -/

/-- The outputs of `parseInputAndCreateSymbolTable`. -/
structure ParsedInput where
  inputs : List ElfInput
  sortKeys : List SortKey
  sectionStringTables : List Memory
  symbolTable : SymbolTable

/-- The two stages of `linkSourcesToExecutableElfFile` that read the inputs and write the
output file. -/
structure LinkStages where
  parseInputAndCreateSymbolTable : List Memory → List Nat → StatusCode × ParsedInput
  writeLinkingResultsToFile : Name → List ElfInput → MapOutput → StatusCode

/-- A call of a stage by `linkSourcesToExecutableElfFile`. -/
inductive LinkEvent where
  | parsedInput
  | mappedSections
  | wroteFile (outputFileName : Name)
  deriving DecidableEq, Repr

/-- The function `linkSourcesToExecutableElfFile`: the status it returns and the stages
it has called, in order; `none` when `mapInputSectionsToOutputSections` returns no
status or has undefined behaviour. -/
def linkSourcesToExecutableElfFile (stages : LinkStages) (lib : LibraryChoices)
    (sourceAddresses : List Memory) (sourceMemorySizes : List Nat) (options : LinkerOptions) :
    Option (StatusCode × List LinkEvent) :=
  if sourceAddresses.length ≥ 2 ^ 32 - 1 then some (StatusCode.not_ok, [])
  else if sourceAddresses.isEmpty then some (StatusCode.not_ok, [])
  else if sourceAddresses.length ≠ sourceMemorySizes.length then some (StatusCode.not_ok, [])
  else if options.createEhFrameHeader then some (StatusCode.not_ok, [])
  else
    let parsed := stages.parseInputAndCreateSymbolTable sourceAddresses sourceMemorySizes
    if parsed.1 ≠ StatusCode.ok then some (parsed.1, [LinkEvent.parsedInput])
    else
      let entrySymbolInfo := parsed.2.symbolTable.get options.entrySymbolName
      if entrySymbolInfo.firstLoad.symbol = none then
        some (StatusCode.not_ok, [LinkEvent.parsedInput])
      else
        match mapInputSectionsToOutputSections lib parsed.2.inputs parsed.2.sortKeys
            parsed.2.sectionStringTables parsed.2.symbolTable entrySymbolInfo with
        | MapResult.diverges => none
        | MapResult.undefined _ => none
        | MapResult.failed status =>
          some (status, [LinkEvent.parsedInput, LinkEvent.mappedSections])
        | MapResult.done out =>
          some (stages.writeLinkingResultsToFile options.outputFileName parsed.2.inputs out,
            [LinkEvent.parsedInput, LinkEvent.mappedSections,
              LinkEvent.wroteFile options.outputFileName])

/-- A file system without libraries. -/
def noLibraries : FileSystem :=
  { pathExists := fun _ _ => false
    pathString := fun path libName => path ++ bytesOf "/" ++ libName }

/-- Stages that accept the object `objTextDataBss`, whatever the files are. -/
def simpleStages : LinkStages :=
  { parseInputAndCreateSymbolTable := fun _ _ =>
      (StatusCode.ok,
       { inputs := [objTextDataBss], sortKeys := [0],
         sectionStringTables := [objTextDataBss.mem.drop 53],
         symbolTable := (insertSymbolsIntoSymbolTable [objTextDataBss] [0] 0 []).symbolTable })
    writeLinkingResultsToFile := fun _ _ _ => StatusCode.ok }

/-! ## A link whose entry symbol is in a merged section -/

/-- A relocatable object with the section `.rodata` of three distinct 8-byte elements with
the flags `SHF_ALLOC | SHF_MERGE` (section 1), a symbol table with the global symbol `a` at
the offset 16 of that section, the start of its third element (section 2), and the string
table `"\0a\0b\0"` (section 3), and the string table of the section names, of nine
bytes from the offset 53 of the file on (section 4); the elements start at the offset
62. -/
def objMergedEntry : ElfInput :=
  { mem := encodeSym default ++ encodeSym (mkSym 1 STB_GLOBAL 1 16) ++ strtabAB ++
      [0] ++ bytesOf ".rodata" ++ [0] ++
      [1, 0, 0, 0, 0, 0, 0, 0, 2, 0, 0, 0, 0, 0, 0, 0, 3, 0, 0, 0, 0, 0, 0, 0]
    headers := [
      default,
      { sh_name := 1, sh_type := SHT_PROGBITS, sh_flags := SHF_ALLOC + SHF_MERGE, sh_addr := 0,
        sh_offset := 62, sh_size := 24, sh_link := 0, sh_info := 0, sh_addralign := 8,
        sh_entsize := 8 },
      { sh_name := 0, sh_type := SHT_SYMTAB, sh_flags := 0, sh_addr := 0, sh_offset := 0,
        sh_size := 48, sh_link := 3, sh_info := 1, sh_addralign := 8,
        sh_entsize := sizeof_Elf64_Sym },
      { sh_name := 0, sh_type := SHT_STRTAB, sh_flags := 0, sh_addr := 0, sh_offset := 48,
        sh_size := 5, sh_link := 0, sh_info := 0, sh_addralign := 1, sh_entsize := 0 },
      { sh_name := 0, sh_type := SHT_STRTAB, sh_flags := 0, sh_addr := 0, sh_offset := 53,
        sh_size := 9, sh_link := 0, sh_info := 0, sh_addralign := 1, sh_entsize := 0 }] }

/-- The link of the single object `objMergedEntry` with the entry symbol `a`. -/
def linkMergedEntry : MapResult :=
  mapInputSectionsToOutputSections simpleLibrary [objMergedEntry] [0]
    [objMergedEntry.mem.drop 53]
    (insertSymbolsIntoSymbolTable [objMergedEntry] [0] 0 []).symbolTable
    (SymbolTable.get (insertSymbolsIntoSymbolTable [objMergedEntry] [0] 0 []).symbolTable
      (bytesOf "a"))

/-! ### Notions used to state the properties of the emitted symbol table -/

/-- The record `g` is one that `pushSymbol` writes for the symbol `sym`: the type and
binding, the visibility and the size are those of `sym`. -/
def writtenFrom (sym g : Elf64_Sym) : Prop :=
  g.st_info = sym.st_info ∧ g.st_other = sym.st_other ∧ g.st_size = sym.st_size

/-- The record `g` is written for a symbol of index 1 to `sh_info - 1` of a symbol table
of one of the inputs. -/
def fromLocalSymbols (inputs : List ElfInput) (g : Elf64_Sym) : Prop :=
  ∃ (inputIndex : Nat) (e : ElfInput) (header : Elf64_Shdr) (i : Nat),
    inputs[inputIndex]? = some e ∧ header ∈ e.headers ∧
    header.sh_type = SHT_SYMTAB ∧ 1 ≤ i ∧ i < header.sh_info ∧
    writtenFrom (readSym e.mem (header.sh_offset + sizeof_Elf64_Sym * i)) g

/-- The record `g` is written for the `firstLoad` of an entry of the symbol table. -/
def fromGlobalSymbols (symbolTable : SymbolTable) (g : Elf64_Sym) : Prop :=
  ∃ (name : Name) (entry : GlobalSymbolTableEntry) (sym : Elf64_Sym),
    (name, entry) ∈ symbolTable ∧ entry.firstLoad.symbol = some sym ∧
    writtenFrom sym g

/-- The symbol records of `t1` are those of `t` followed by records with the property
`P`. -/
def SymbolsExtend (P : Elf64_Sym → Prop) (t t1 : SynthTables) : Prop :=
  ∃ l, t1.symbolTableMem = t.symbolTableMem ++ l ∧ ∀ g ∈ l, P g

/-! ### The words of the specification about `concatenateSections` -/

/-- The least multiple of `k` that is not below `a` is `d`. -/
def leastMultipleFrom (k a d : Nat) : Prop :=
  k ∣ d ∧ a ≤ d ∧ ∀ m, k ∣ m → a ≤ m → d ≤ m

/-- The offsets `dst` place the input sections `refs` one after the other from `prevEnd`
on: each offset is the least multiple of `max(sh_addralign, 1)` that is not below the end
of the previous input, and `total` is the end of the last input. -/
def placedAfter (sectionHeaders : List (List Elf64_Shdr)) :
    Nat → List SectionRef → List Nat → Nat → Prop
  | prevEnd, [], [], total => total = prevEnd
  | prevEnd, r :: refs, d :: dst, total =>
    leastMultipleFrom
        (max (get2D sectionHeaders r.elfIndex r.headerIndex : Elf64_Shdr).sh_addralign 1)
        prevEnd d ∧
      placedAfter sectionHeaders
        (d + (get2D sectionHeaders r.elfIndex r.headerIndex : Elf64_Shdr).sh_size) refs dst total
  | _, [], _ :: _, _ => False
  | _, _ :: _, [], _ => False

/-- A bound on the size of the concatenation of the input sections `refs`: the size of
every section and what its alignment can add. -/
def concatenationBound (sectionHeaders : List (List Elf64_Shdr)) (refs : List SectionRef) :
    Nat :=
  (refs.map (fun r =>
    max (get2D sectionHeaders r.elfIndex r.headerIndex : Elf64_Shdr).sh_addralign 1 +
      (get2D sectionHeaders r.elfIndex r.headerIndex : Elf64_Shdr).sh_size)).sum

/-! ### The words of the specification about `inputToOutputSectionOffset` -/

/-- The running sum `start_k` of the sizes of the copy commands before the `k`-th. -/
def partStart (copyCmds : List PartCopy) (k : Nat) : Nat :=
  ((copyCmds.take k).map PartCopy.size).sum

/-! ### The words of the specification about the input sections of one output section -/

/-- The header of the input section that a `SectionRef` names. -/
def headerOf (sectionHeaders : List (List Elf64_Shdr)) (r : SectionRef) : Elf64_Shdr :=
  get2D sectionHeaders r.elfIndex r.headerIndex

/-- Two flag words differ in a bit other than `SHF_MERGE` and `SHF_STRINGS`. -/
def differOutsideMergeBits (a b : Nat) : Prop :=
  ∃ i : Nat, 2 ^ i ≠ SHF_MERGE ∧ 2 ^ i ≠ SHF_STRINGS ∧ a.testBit i ≠ b.testBit i

/-- The section `h` does not fit the first input section of its group: its type differs,
or its flags differ in a bit other than `SHF_MERGE` and `SHF_STRINGS`. -/
def incompatibleWith (first h : Elf64_Shdr) : Prop :=
  h.sh_type ≠ first.sh_type ∨ differOutsideMergeBits h.sh_flags first.sh_flags

/-- The maximum `sh_addralign` of the input sections of a group. -/
def maxAlignment (sectionHeaders : List (List Elf64_Shdr)) (group : List SectionRef) : Nat :=
  (group.map (fun r => (headerOf sectionHeaders r).sh_addralign)).foldl max 0

/-- The arrays `flags`, `types` and `alignments` of `after` have the lengths they have in
`before` and the same entries for every output section that satisfies `untouched`. -/
def sameAttributes (untouched : Nat → Prop) (before after : InitAttributes) : Prop :=
  after.flags.length = before.flags.length ∧
  after.types.length = before.types.length ∧
  after.alignments.length = before.alignments.length ∧
  ∀ j, untouched j →
    after.flags.getD j 0 = before.flags.getD j 0 ∧
    after.types.getD j 0 = before.types.getD j 0 ∧
    after.alignments.getD j 0 = before.alignments.getD j 0

/-- The section `h` has the type of `first` and, outside `SHF_MERGE` and `SHF_STRINGS`,
the flags of `first`, as the lambda `makeFlagsCompatible` compares them. -/
def fitsFirst (first h : Elf64_Shdr) : Prop :=
  h.sh_flags &&& (2 ^ 64 - 1 - (SHF_MERGE ||| SHF_STRINGS)) =
    first.sh_flags &&& (2 ^ 64 - 1 - (SHF_MERGE ||| SHF_STRINGS)) ∧
  h.sh_type = first.sh_type

/-- The section headers of two objects that each have one section named `a`: the first
with flag `SHF_ALLOC` and alignment 1, the second with the flags `SHF_ALLOC` and
`SHF_MERGE` and alignment 8. -/
def mergeFlagHeaders : List (List Elf64_Shdr) :=
  [ manySectionHeaders 1,
    [ default,
      { progbitsHeader 0 with sh_flags := SHF_ALLOC ||| SHF_MERGE, sh_addralign := 8 } ] ]

/-! ### The calls of `sectionMap[name].push_back(ref)` in the first loop -/

/-- The pairs of a name and a `SectionRef` that the first loop of `initOutputSections`
pushes for the headers of input `inputIndex` from header index `j` on, in order. -/
def pushesOf (stringTable : Memory) (inputIndex : Nat) :
    Nat → List Elf64_Shdr → List (Name × SectionRef)
  | _, [] => []
  | j, h :: hs =>
    (if sectionTypeReachesOutput h.sh_type then
      [(toOutputSectionName (cstrAt stringTable h.sh_name), (⟨inputIndex, j⟩ : SectionRef))]
    else []) ++ pushesOf stringTable inputIndex (j + 1) hs

/-- The pairs that the first loop pushes for the inputs from index `i` on, in order. -/
def pushesFrom (sectionStringTables : List Memory) :
    Nat → List (List Elf64_Shdr) → List (Name × SectionRef)
  | _, [] => []
  | i, hs :: rest =>
    pushesOf (sectionStringTables.getD i []) i 0 hs ++ pushesFrom sectionStringTables (i + 1) rest

/-- The value of `sectionMap[name]`, empty for a name that is not a key. -/
def SectionMap.refsOf : SectionMap → Name → List SectionRef
  | [], _ => []
  | (k, refs) :: rest, n => if k = n then refs else SectionMap.refsOf rest n

/-- The statements `inputToOutputSection[secRef.elfIndex][secRef.headerIndex] = outSecID`
for the input sections of one output section. -/
def linkBack (inputToOutputSection : List (List Nat)) (outSecID : Nat)
    (refs : List SectionRef) : List (List Nat) :=
  refs.foldl (fun v r => set2D v r.elfIndex r.headerIndex outSecID) inputToOutputSection

/-- The same statements for the output sections from `i` on. -/
def linkBackFrom (inputToOutputSection : List (List Nat)) :
    Nat → List (List SectionRef) → List (List Nat)
  | _, [] => inputToOutputSection
  | i, g :: rest => linkBackFrom (linkBack inputToOutputSection i g) (i + 1) rest

/-! ### The words of the specification about the global offset table -/

/-- The loop body of `processRelas` takes the relocation as one against a global or weak
symbol, its third case, and the type of the relocation needs a GOT entry: the symbol of the
relocation has an `st_shndx` other than `SHN_XINDEX` and `SHN_ABS` and a binding other than
`STB_LOCAL`. -/
def isGotRelocation (p : ProcessRelasIn) (rela : Elf64_Rela) : Bool :=
  (linkedSymbol p rela).st_shndx != SHN_XINDEX && (linkedSymbol p rela).st_shndx != SHN_ABS &&
    ELF64_ST_BIND (linkedSymbol p rela).st_info != STB_LOCAL &&
    needsGOTEntry (ELF64_R_TYPE rela.r_info)

/-- One call of `processRelas` in a run of `preProcessesRelocations`: the output section
whose relocations it extends, its fixed inputs and its relocations. -/
structure RelaCall where
  outSectionID : Nat
  params : ProcessRelasIn
  relas : List Elf64_Rela

/-- The call of `processRelas` that the inner lambda of `preProcessesRelocations` makes for
a section header, if it makes one. -/
def relaCallOf (q : PreProcessIn) (e : ElfInput) (elfID : Nat) (header : Elf64_Shdr) :
    Option RelaCall :=
  if header.sh_type = SHT_RELA ∧ header.sh_entsize = sizeof_Elf64_Rela ∧
      get2D q.inputToOutputSection elfID header.sh_info ≠ notAnOutputSection then
    some ⟨get2D q.inputToOutputSection elfID header.sh_info, processRelasInOf q e elfID header,
      relasOf e header⟩
  else none

/-- The calls of `processRelas` for the inputs from index `i` on, in order. -/
def relaCallsFrom (q : PreProcessIn) : Nat → List ElfInput → List RelaCall
  | _, [] => []
  | i, e :: rest => e.headers.filterMap (relaCallOf q e i) ++ relaCallsFrom q (i + 1) rest

/-- The names of the symbols of the relocations of one call that are against a global or
weak symbol and of a type that needs a GOT entry, in order. -/
def gotNamesOf (c : RelaCall) : List Name :=
  (c.relas.filter (isGotRelocation c.params)).map (relaSymName c.params)

/-- The distinct names among `names`, in the order of their first occurrence. -/
def firstOccurrences (names : List Name) : List Name := names.foldl addKey []

/-- The distinct names of the symbols that occur, in one run of `preProcessesRelocations`,
in a relocation against a global or weak symbol of a type that needs a GOT entry, in the
order of their first occurrence. -/
def gotSymbolNames (inputs : List ElfInput) (q : PreProcessIn) : List Name :=
  firstOccurrences ((relaCallsFrom q 0 inputs).flatMap gotNamesOf)

/-- The relocations that one run processes for the output section `o`, each with the fixed
inputs of its call of `processRelas`, in order. -/
def relasInto (calls : List RelaCall) (o : Nat) : List (ProcessRelasIn × Elf64_Rela) :=
  (calls.filter (fun c => c.outSectionID = o)).flatMap
    (fun c => c.relas.map (fun rela => (c.params, rela)))

/-- The patch record of the GOT entry of a name: the place of its definition, or that of
an undefined weak symbol. -/
def patchOf (symbolTable : SymbolTable) (name : Name) : GOTEntryPatchupInfo :=
  match SymbolTable.find symbolTable name with
  | some entry =>
    match entry.firstLoad.symbol with
    | some symbol => ⟨entry.firstLoad.elfID, symbol.st_shndx, symbol.st_value⟩
    | none => ⟨0, SHN_UNDEF, 0⟩
  | none => ⟨0, SHN_UNDEF, 0⟩

/-- The map from names to GOT indices and the patch records fit together: the `k`-th name
has the index `numReservedGotEntries + k`, and the `k`-th patch record is that of the
`k`-th name. -/
def GotTable (symbolTable : SymbolTable) (map : List (Name × Nat))
    (patches : List GOTEntryPatchupInfo) : Prop :=
  map.map Prod.snd = List.range' numReservedGotEntries map.length ∧
  patches = (map.map Prod.fst).map (patchOf symbolTable)

/-- The record of a relocation refers to the GOT entry of `name`: its section is the
section `got` and its value is eight times the GOT index of the name, which is
`3 + j` for the `j`-th of the names `keys`. -/
def GotRecord (got : Nat) (keys : List Name) (name : Name) (rec : ProcessedRela) : Prop :=
  ∃ j : Nat, keys[j]? = some name ∧ rec.symbolSectionID = got ∧ rec.symbolValue = 8 * (3 + j)

/-- What one pass of the loop body of `processRelas` does when no error is raised in it or
before it: the GOT map gains the name of a relocation that needs a GOT entry and stays as
it is otherwise, and one record is appended. -/
def GotStepSpec (symbolTable : SymbolTable) (got : Nat) (needs : Bool) (name : Name)
    (st : RelaState) : LoopStep RelaState → Prop
  | LoopStep.continue st' =>
    st'.status = StatusCode.ok →
      st.status = StatusCode.ok ∧
      GotTable symbolTable st'.symbolNamesThatNeedGOTEntries st'.gotEntryPatches ∧
      st'.symbolNamesThatNeedGOTEntries.map Prod.fst =
        (if needs then addKey (st.symbolNamesThatNeedGOTEntries.map Prod.fst) name
         else st.symbolNamesThatNeedGOTEntries.map Prod.fst) ∧
      ∃ rec, st'.processResults = st.processResults ++ [rec] ∧
        (needs = true →
          GotRecord got (st'.symbolNamesThatNeedGOTEntries.map Prod.fst) name rec)
  | LoopStep.return code _ => code ≠ StatusCode.ok

/-- The records of the relocations of the calls `calls` are in `processedRelas`, one for
each relocation, in order, and those of the relocations that need a GOT entry refer to the
GOT entry of their name. -/
def GotRecords (got : Nat) (keys : List Name) (calls : List RelaCall)
    (processedRelas : List (List ProcessedRela)) : Prop :=
  ∀ o, o < processedRelas.length →
    (processedRelas.getD o []).length = (relasInto calls o).length ∧
    ∀ (k : Nat) (p : ProcessRelasIn) (rela : Elf64_Rela),
      (relasInto calls o)[k]? = some (p, rela) → isGotRelocation p rela = true →
      ∃ rec, (processedRelas.getD o [])[k]? = some rec ∧
        GotRecord got keys (relaSymName p rela) rec

/-- The state of a run of `preProcessesRelocations` after the calls `calls`, when no error
has been raised. -/
def GotRun (q : PreProcessIn) (calls : List RelaCall) (st : PreProcessState) : Prop :=
  st.status = StatusCode.ok →
    GotTable q.symbolTable st.symbolNamesThatNeedGOTEntries st.gotEntryPatches ∧
    st.symbolNamesThatNeedGOTEntries.map Prod.fst =
      firstOccurrences (calls.flatMap gotNamesOf) ∧
    st.processedRelas.length = q.numberOfOutputSections ∧
    GotRecords q.gotSectionIndex (st.symbolNamesThatNeedGOTEntries.map Prod.fst) calls
      st.processedRelas

/-- A relocation of type `R_X86_64_GOTPCREL` against the symbol at index 1, at offset 2 of
`.text`, with addend 0. -/
def relaGotpcrel : Elf64_Rela :=
  { r_offset := 2, r_info := 1 * 2 ^ 32 + R_X86_64_GOTPCREL, r_addend := 0 }

/-- An object whose `.text` defines the global symbol `a` at its offset 4 and refers to it
through the global offset table. -/
def objGotA : ElfInput := objectWithRelocation (mkSym 1 STB_GLOBAL 1 4) relaGotpcrel

/-! ## `parseArchiveMembers` (`parseInputAndCreateSymbolTable.cpp`) -/

/-- The constant `SARMAG` of `ar.h`: the length of the magic string of an archive. -/
def SARMAG : Nat := 8

/-- The size of the record `ar_hdr` of `ar.h`. -/
def sizeof_ar_hdr : Nat := 60

/-- The size of the local record `ArchiveWord`. -/
def sizeof_ArchiveWord : Nat := 4

/-- The enumeration `ArchiveMemberState`. -/
inductive ArchiveMemberState where
  | lazy
  | loaded
  deriving DecidableEq, Repr

/-- The conversion of the `ArchiveWord` at offset `off` to `uint32_t`: big-endian. -/
def readArchiveWord (mem : Memory) (off : Nat) : Nat :=
  (readByte mem off <<< 24) ||| (readByte mem (off + 1) <<< 16) |||
    (readByte mem (off + 2) <<< 8) ||| (readByte mem (off + 3) <<< 0)

/-- The function `view_as_span<ArchiveWord>(ptr, numElements)`, each word converted. -/
def view_as_span_ArchiveWord (mem : Memory) (off numElements : Nat) : List Nat :=
  (List.range numElements).map (fun i => readArchiveWord mem (off + sizeof_ArchiveWord * i))

/-- The `n` bytes of memory from offset `off` on. -/
def bytesAt (mem : Memory) (off n : Nat) : List Nat :=
  (List.range n).map (fun i => readByte mem (off + i))

/-- The call `std::from_chars(first, last, value)` of the standard library for a `size_t`
in base 10, on the characters `chars`: the value of the longest prefix of decimal digits;
nothing when there is no digit (`errc::invalid_argument`) or when the value is not that of
a `size_t` (`errc::result_out_of_range`). -/
def fromChars (chars : List Nat) : Option Nat :=
  let digits := chars.takeWhile (fun c => decide (48 ≤ c ∧ c ≤ 57))
  if digits = [] then none
  else
    let value := digits.foldl (fun v c => 10 * v + (c - 48)) 0
    if value < 2 ^ 64 then some value else none

/-- The statement `archiveSymbolTable[name].push_back(id)`. -/
def ArchiveSymbolTable.push : ArchiveSymbolTable → Name → Nat → ArchiveSymbolTable
  | [], n, id => [(n, [id])]
  | (k, ids) :: rest, n, id =>
    if k = n then (k, ids ++ [id]) :: rest else (k, ids) :: ArchiveSymbolTable.push rest n id

/-- The outputs of `parseArchiveMembers`. -/
structure ArchiveOut where
  archiveMemberSortKeys : List Nat
  archiveMemberStates : List ArchiveMemberState
  archiveSymbolTable : ArchiveSymbolTable
  deriving DecidableEq, Repr

/-- The variables of the loop of `parseArchiveMembers` over `memberOffsets`. -/
structure ArchiveCursor where
  currMemberOffset : Nat
  symStrTabPtrOffset : Nat
  out : ArchiveOut

/-- The value `archiveMemberStates.size() - 1`, a `size_t`. -/
def lastStateIndex (archiveMemberStates : List ArchiveMemberState) : Nat :=
  if archiveMemberStates.length = 0 then 2 ^ 64 - 1 else archiveMemberStates.length - 1

/-- The loop of `parseArchiveMembers` over `memberOffsets` for the archive `fileIndex`; the
string table `symStrTabPtr` starts at offset `symStrTab` of the file. The status is that of
a `return` in the loop, and nothing when the loop ends. -/
def archiveIndexLoop (fileIndex : Nat) (mem : Memory) (symStrTab symStrTabSize : Nat) :
    List Nat → ArchiveCursor → Option StatusCode × ArchiveOut
  | [], c => (none, c.out)
  | memberOffset :: rest, c =>
    let out1 : ArchiveOut :=
      if c.currMemberOffset ≠ memberOffset then
        { c.out with
          archiveMemberSortKeys :=
            c.out.archiveMemberSortKeys ++ [makeSortKey fileIndex memberOffset]
          archiveMemberStates := c.out.archiveMemberStates ++ [ArchiveMemberState.lazy] }
      else c.out
    let currentSymbolName := cstrAt mem (symStrTab + c.symStrTabPtrOffset)
    let out2 : ArchiveOut :=
      { out1 with
        archiveSymbolTable :=
          ArchiveSymbolTable.push out1.archiveSymbolTable currentSymbolName
            (lastStateIndex out1.archiveMemberStates) }
    let symStrTabPtrOffset := c.symStrTabPtrOffset + (currentSymbolName.length + 1)
    if symStrTabPtrOffset > symStrTabSize then (some StatusCode.bad_input_file, out2)
    else
      archiveIndexLoop fileIndex mem symStrTab symStrTabSize rest
        ⟨memberOffset, symStrTabPtrOffset, out2⟩

/-- The body of the loop of `parseArchiveMembers` over `archiveFileIndices`, for the archive
`fileIndex` with the bytes `mem` and the size `memSize`. -/
def parseArchive (fileIndex : Nat) (mem : Memory) (memSize : Nat) (out : ArchiveOut) :
    Option StatusCode × ArchiveOut :=
  if memSize < SARMAG + sizeof_ar_hdr then (some StatusCode.not_ok, out)
  else if bytesAt mem SARMAG 16 ≠ bytesOf "/               " then
    (some StatusCode.bad_input_file, out)
  else
    match fromChars (bytesAt mem (SARMAG + 48) 10) with
    | none => (some StatusCode.bad_input_file, out)
    | some symTableSize =>
      if memSize < SARMAG + sizeof_ar_hdr + symTableSize then
        (some StatusCode.bad_input_file, out)
      else
        let symTableFileOffset := SARMAG + sizeof_ar_hdr
        let totalNumberOfSymbols := readArchiveWord mem symTableFileOffset
        if totalNumberOfSymbols = 0 then (some StatusCode.bad_input_file, out)
        else if symTableSize <
            totalNumberOfSymbols * sizeof_ArchiveWord + sizeof_ArchiveWord then
          (some StatusCode.bad_input_file, out)
        else
          let memberOffsets := view_as_span_ArchiveWord mem
            (symTableFileOffset + sizeof_ArchiveWord) totalNumberOfSymbols
          let symStrTabSize :=
            symTableSize - sizeof_ArchiveWord * ((totalNumberOfSymbols + 1) % 2 ^ 32)
          let symStrTab :=
            symTableFileOffset + sizeof_ArchiveWord + sizeof_ArchiveWord * totalNumberOfSymbols
          let currMemberOffset := (memberOffsets.headD 0 + 2 ^ 32 - 1) % 2 ^ 32
          archiveIndexLoop fileIndex mem symStrTab symStrTabSize memberOffsets
            ⟨currMemberOffset, 0, out⟩

/-- The function `parseArchiveMembers`: the returned status and the outputs, which start
as `out`. -/
def parseArchiveMembers (addresses : List Memory) (memSizes : List Nat) :
    List Nat → ArchiveOut → StatusCode × ArchiveOut
  | [], out => (StatusCode.ok, out)
  | fileIndex :: rest, out =>
    match parseArchive fileIndex (addresses.getD fileIndex []) (memSizes.getD fileIndex 0)
        out with
    | (some code, out1) => (code, out1)
    | (none, out1) => parseArchiveMembers addresses memSizes rest out1

/-! ### The words of the specification about the index of an archive -/

/-- The count `N` at the start of the index of an archive. -/
def indexCount (mem : Memory) : Nat := readArchiveWord mem (SARMAG + sizeof_ar_hdr)

/-- The `N` member offsets of the index. -/
def indexOffsets (mem : Memory) : List Nat :=
  view_as_span_ArchiveWord mem (SARMAG + sizeof_ar_hdr + sizeof_ArchiveWord) (indexCount mem)

/-- The `n` null-terminated names that are stored one after the other from offset `off`. -/
def namesFrom (mem : Memory) : Nat → Nat → List Name
  | _, 0 => []
  | off, n + 1 => cstrAt mem off :: namesFrom mem (off + ((cstrAt mem off).length + 1)) n

/-- The `N` names of the index. -/
def indexNames (mem : Memory) : List Name :=
  namesFrom mem (SARMAG + sizeof_ar_hdr + sizeof_ArchiveWord + sizeof_ArchiveWord * indexCount mem)
    (indexCount mem)

/-- The number of bytes of names with their terminators. -/
def namesSize (names : List Name) : Nat := (names.map (fun n => n.length + 1)).sum

/-- The file is an archive whose first member is a global symbol index that holds a count
`N ≥ 1`, `N` member offsets and `N` null-terminated names inside the member, whose size is
the decimal number of the header of the member. -/
def wellFormedIndex (mem : Memory) (memSize : Nat) : Prop :=
  SARMAG + sizeof_ar_hdr ≤ memSize ∧
  bytesAt mem SARMAG 16 = bytesOf "/               " ∧
  ∃ symTableSize, fromChars (bytesAt mem (SARMAG + 48) 10) = some symTableSize ∧
    SARMAG + sizeof_ar_hdr + symTableSize ≤ memSize ∧
    1 ≤ indexCount mem ∧
    sizeof_ArchiveWord + sizeof_ArchiveWord * indexCount mem + namesSize (indexNames mem) ≤
      symTableSize

/-- The offsets of `offsets` that differ from the offset before them, where `previous` is
before the first. -/
def runsAfter : Nat → List Nat → List Nat
  | _, [] => []
  | previous, o :: rest =>
    if previous ≠ o then o :: runsAfter o rest else runsAfter o rest

/-- The member offsets with each run of equal consecutive offsets coalesced to one. -/
def coalesceRuns : List Nat → List Nat
  | [] => []
  | o :: rest => o :: runsAfter o rest

/-- For each offset of `offsets`, the number of its run, where `previous` is the offset
before the first and `run` the number of its run. -/
def runIndicesAfter : Nat → Nat → List Nat → List Nat
  | _, _, [] => []
  | run, previous, o :: rest =>
    (if previous ≠ o then run + 1 else run) ::
      runIndicesAfter (if previous ≠ o then run + 1 else run) o rest

/-- For each member offset, the number of its run of equal consecutive offsets, from 0. -/
def runIndices : List Nat → List Nat
  | [] => []
  | o :: rest => 0 :: runIndicesAfter 0 o rest

/-- Equal member offsets are consecutive: an offset does not occur again after a different
offset has followed it. -/
def equalsAdjacent : List Nat → Bool
  | [] => true
  | a :: rest => (rest.head? == some a || !rest.contains a) && equalsAdjacent rest

/-- The archive symbol table after the names `names` of an archive are added, the `i`-th
for the entry `base + runs[i]`. -/
def addIndexNames (base : Nat) (names : List Name) (runs : List Nat)
    (archiveSymbolTable : ArchiveSymbolTable) : ArchiveSymbolTable :=
  (names.zip runs).foldl (fun t p => ArchiveSymbolTable.push t p.1 (base + p.2))
    archiveSymbolTable

/-- The bytes of an archive whose index holds the member offsets `o1`, `o2` and `o3`,
each below 256, for the names `x`, `y` and `z`. -/
def archiveOfThree (o1 o2 o3 : Nat) : Memory :=
  bytesOf "!<arch>" ++ [10] ++ bytesOf "/               " ++ List.replicate 32 32 ++
    bytesOf "22        " ++ [96, 10] ++
    [0, 0, 0, 3] ++ [0, 0, 0, o1] ++ [0, 0, 0, o2] ++ [0, 0, 0, o3] ++
    [120, 0, 121, 0, 122, 0]

/-- The outputs after the index of the archive `fileIndex` with the bytes `mem` is added
to the outputs `before`: one entry for each run of equal consecutive member offsets, with
the sort key of the archive and the offset and the state `lazy`, and for the `i`-th name
the index of the entry of the `i`-th offset. -/
def addArchiveEntries (fileIndex : Nat) (mem : Memory) (before : ArchiveOut) : ArchiveOut :=
  { archiveMemberSortKeys :=
      before.archiveMemberSortKeys ++
        (coalesceRuns (indexOffsets mem)).map (makeSortKey fileIndex)
    archiveMemberStates :=
      before.archiveMemberStates ++
        List.replicate (coalesceRuns (indexOffsets mem)).length ArchiveMemberState.lazy
    archiveSymbolTable :=
      addIndexNames before.archiveMemberStates.length (indexNames mem)
        (runIndices (indexOffsets mem)) before.archiveSymbolTable }

/-! ## Inputs for the claims about the section-name table and absolute symbols -/

/-- A relocatable file of 192 bytes: the file header, whose `e_shnum` is 2 and whose
`e_shstrndx` is 5, the section header of index zero and the header of a `SHT_PROGBITS`
section of no bytes. -/
def fileNameTableBeyond : Memory :=
  encodeEhdr { fileHeader ET_REL 2 with e_shstrndx := 5 } ++ encodeShdr default ++
    encodeShdr (progbitsHeader 0)

/-- The relocation `movabsq $a + 5, %rax`: of type `R_X86_64_64` against the symbol at
index 1, at the offset 2 of `.text`, with the addend 5. -/
def relaMovabsPlus5 : Elf64_Rela :=
  { r_offset := 2, r_info := 1 * 2 ^ 32 + R_X86_64_64, r_addend := 5 }

/-- An object whose `.text` refers to its global symbol `a`, which is absolute
(`st_shndx = SHN_ABS`) with the value `0x1234`, with the addend 5 at the offset 2. -/
def objRefAbsoluteA : ElfInput :=
  objectWithRelocation (mkSym 1 STB_GLOBAL SHN_ABS 0x1234) relaMovabsPlus5

/-- The record that C33 describes for the relocation of `objRefAbsoluteA`: the addend
and the place of the relocation, with the value of the absolute symbol. -/
def statedAbsoluteRela : ProcessedRela :=
  { addend := 5, outputSectionOffset := 2, symbolValue := 0x1234, type := R_X86_64_64,
    symbolSectionID := 0, note := Note.absoluteValue }

/-- An object of three section headers that defines the global symbol `a` as an absolute
symbol with the value `0x1234`. -/
def objDefAbsoluteA : ElfInput :=
  objectWithSymbols [default, mkSym 1 STB_GLOBAL SHN_ABS 0x1234] strtabAB

/-- The inputs of `preProcessesRelocations` for the link of `objRefGlobalA`, whose `.text`
is the output section 0, with `objDefAbsoluteA`; the rows of `inputToOutputSection` have
the five and the three entries of the section headers of the two inputs. -/
def linkAbsoluteDefinition : PreProcessIn :=
  { symbolTable :=
      (insertSymbolsIntoSymbolTable [objRefGlobalA, objDefAbsoluteA] [0, 2 ^ 32] 0 []).symbolTable
    inputSectionCopyCommands :=
      [[SectionMemCopies.monostate, SectionMemCopies.part ⟨10, 0⟩, SectionMemCopies.monostate,
        SectionMemCopies.monostate, SectionMemCopies.monostate],
       [SectionMemCopies.monostate, SectionMemCopies.monostate, SectionMemCopies.monostate]]
    inputToOutputSection :=
      [[notAnOutputSection, 0, notAnOutputSection, notAnOutputSection, notAnOutputSection],
       [notAnOutputSection, notAnOutputSection, notAnOutputSection]]
    numberOfOutputSections := 2
    gotSectionIndex := 1 }

/-- The inputs of the call of `processRelas` for the relocation section of
`objRefGlobalA` in the link `linkAbsoluteDefinition`. -/
def relasInAbsoluteDefinition : ProcessRelasIn :=
  processRelasInOf linkAbsoluteDefinition objRefGlobalA 0 (objRefGlobalA.headers.getD 4 default)

/-! ### The words of the specification about the elements of a merged section -/

/-- The size `sh_size` of the input section `secRef`. -/
def shSizeOf (inputs : List ElfInput) (secRef : SectionRef) : Nat :=
  ((inputs.getD secRef.elfIndex ⟨[], [], 0⟩).headers.getD secRef.headerIndex default).sh_size

/-- The bytes of the input section `secRef`, from `stringsStart` to `stringsEnd`. -/
def bytesOfSection (inputs : List ElfInput) (secRef : SectionRef) : List Nat :=
  sectionBytes (inputs.getD secRef.elfIndex ⟨[], [], 0⟩).mem
    ((inputs.getD secRef.elfIndex ⟨[], [], 0⟩).headers.getD secRef.headerIndex default).sh_offset
    (shSizeOf inputs secRef)

/-- The pointer `stringsStart` of the input section `secRef`, the base address of its
input plus `sh_offset`, as a natural number. -/
def stringsStartOf (inputs : List ElfInput) (secRef : SectionRef) : Nat :=
  (inputs.getD secRef.elfIndex ⟨[], [], 0⟩).address +
    ((inputs.getD secRef.elfIndex ⟨[], [], 0⟩).headers.getD secRef.headerIndex default).sh_offset

/-! ### The flags of an output section -/

/-- The value of `flags[outSecID]` after the calls of `makeFlagsCompatible` for the input
sections `others` that follow the first one, whose flags are `first`. -/
def flagsAfter (first : Nat) (others : List Nat) : Nat :=
  others.foldl (fun f other => (makeFlagsCompatible f other).2) first

/-- The value of `flags[outSecID]` after the inner loop over the input sections of a
group: the flags of the first input section, then `makeFlagsCompatible` for the others. -/
def flagsOfGroup (sectionHeaders : List (List Elf64_Shdr)) : List SectionRef → Nat
  | [] => 0
  | first :: rest =>
    flagsAfter (headerOf sectionHeaders first).sh_flags
      (rest.map (fun r => (headerOf sectionHeaders r).sh_flags))

/-- The section headers of three objects that each have one section named `a`, with the
flags `SHF_ALLOC | SHF_MERGE`, `SHF_ALLOC` and `SHF_ALLOC | SHF_MERGE`. -/
def mergeFlagMixedHeaders : List (List Elf64_Shdr) :=
  [ [ default, { progbitsHeader 0 with sh_flags := SHF_ALLOC ||| SHF_MERGE } ],
    manySectionHeaders 1,
    [ default, { progbitsHeader 0 with sh_flags := SHF_ALLOC ||| SHF_MERGE } ] ]

/-- The section headers of two objects that each have one section named `a` with the
flags `SHF_ALLOC | SHF_MERGE`. -/
def mergeFlagEqualHeaders : List (List Elf64_Shdr) :=
  [ [ default, { progbitsHeader 0 with sh_flags := SHF_ALLOC ||| SHF_MERGE } ],
    [ default, { progbitsHeader 0 with sh_flags := SHF_ALLOC ||| SHF_MERGE } ] ]

/-! ### The memory reserved for the string tables -/

/-- The number of bytes of `enoughStringTableMemory`, the memory that
`mapInputSectionsToOutputSections` allocates for the two string tables. -/
def enoughStringTableMemorySize (init : InitOutput) : Nat :=
  add64 init.totalStringTableMemorySize
    (syntheticSectionStringMemorySize
      (init.names ++ [bytesOf ".got", bytesOf ".symtab", bytesOf ".strTab", bytesOf ".shstrtab"])
      init.names.length (init.names.length + 1) (init.names.length + 2)
      (init.names.length + 3))

/-- The names of the sections of `objRepeatedLocals`: `.text`, `.symtab`, `.strtab` and
`.shstrtab`, 33 bytes. -/
def repeatedLocalsSectionNames : List Nat :=
  [0] ++ bytesOf ".text" ++ [0] ++ bytesOf ".symtab" ++ [0] ++ bytesOf ".strtab" ++ [0] ++
    bytesOf ".shstrtab" ++ [0]

/-- A relocatable object with a `.text` of twelve bytes (section 1), a symbol table of
the null symbol, twenty local absolute symbols that all have the name `a` at the offset 1
of the string table, and the global symbol `b` at the start of `.text` (section 2), the
string table `"\0a\0b\0"` of five bytes (section 3), and the string table of the section
names, of 33 bytes (section 4). -/
def objRepeatedLocals : ElfInput :=
  { mem := encodeSym default ++
      (List.replicate 20 (mkSym 1 STB_LOCAL SHN_ABS 7)).flatMap encodeSym ++
      encodeSym (mkSym 3 STB_GLOBAL 1 0) ++ strtabAB ++ repeatedLocalsSectionNames ++
      [1, 2, 3, 4, 5, 6, 7, 8, 9, 10, 11, 12]
    headers := [
      default,
      { sh_name := 1, sh_type := SHT_PROGBITS, sh_flags := SHF_ALLOC + SHF_EXECINSTR, sh_addr := 0,
        sh_offset := 566, sh_size := 12, sh_link := 0, sh_info := 0, sh_addralign := 16,
        sh_entsize := 0 },
      { sh_name := 7, sh_type := SHT_SYMTAB, sh_flags := 0, sh_addr := 0, sh_offset := 0,
        sh_size := 528, sh_link := 3, sh_info := 21, sh_addralign := 8,
        sh_entsize := sizeof_Elf64_Sym },
      { sh_name := 15, sh_type := SHT_STRTAB, sh_flags := 0, sh_addr := 0, sh_offset := 528,
        sh_size := 5, sh_link := 0, sh_info := 0, sh_addralign := 1, sh_entsize := 0 },
      { sh_name := 23, sh_type := SHT_STRTAB, sh_flags := 0, sh_addr := 0, sh_offset := 533,
        sh_size := 33, sh_link := 0, sh_info := 0, sh_addralign := 1, sh_entsize := 0 }] }

/-- The link of the single object `objRepeatedLocals` with the entry symbol `b`. -/
def linkRepeatedLocals : MapResult :=
  mapInputSectionsToOutputSections simpleLibrary [objRepeatedLocals] [0]
    [objRepeatedLocals.mem.drop 533]
    (insertSymbolsIntoSymbolTable [objRepeatedLocals] [0] 0 []).symbolTable
    (SymbolTable.get (insertSymbolsIntoSymbolTable [objRepeatedLocals] [0] 0 []).symbolTable
      (bytesOf "b"))

/-! ### The bytes that `synthesizeSyntheticSections` writes -/

/-- The bytes that a list of names takes in a string table: those of each name and of its
terminator. -/
def nameBytes (names : List Name) : Nat := (names.map (fun n => n.length + 1)).sum

/-- The names of the entries of a symbol table that have a `firstLoad`. -/
def loadedNames (symbolTable : SymbolTable) : List Name :=
  (symbolTable.filter (fun kv => kv.2.firstLoad.symbol.isSome)).map Prod.fst

/-! ### An object with many sections -/

/-- The name of the section `i` of the object with many sections: three bytes other than
zero, the digits of `i` to the base 255, each plus one. -/
def shortSectionName (i : Nat) : Name := [1 + i % 255, 1 + i / 255 % 255, 1 + i / 65025 % 255]

/-- The section name string table of the object with `n` sections: the empty name, and
the names of the sections with their terminators, so that the name of the section `i` is
at the offset `4 * i + 1`; `4 * n + 1` bytes. -/
def shortSectionNames (n : Nat) : Memory :=
  0 :: (List.range n).flatMap (fun i => shortSectionName i ++ [0])

/-- The null header and `n` section headers of type `SHT_PROGBITS` with the names of
`shortSectionNames`. -/
def shortSectionHeaders (n : Nat) : List Elf64_Shdr :=
  default :: (List.range n).map (fun i => progbitsHeader (4 * i + 1))

/-- A relocatable object with `n` sections of type `SHT_PROGBITS` with pairwise distinct
names of three bytes (sections 1 to `n`), a symbol table that defines the global symbol
`a` at the start of section 1 (section `n + 1`), its string table `"\0a\0b\0"` (section
`n + 2`), and the string table of the section names, `shortSectionNames n`, from the
offset 53 of the file on (section `n + 3`). -/
def objManySections (n : Nat) : ElfInput :=
  { mem := encodeSym default ++ encodeSym (mkSym 1 STB_GLOBAL 1 0) ++ strtabAB ++
      shortSectionNames n
    headers := shortSectionHeaders n ++ [
      { sh_name := 0, sh_type := SHT_SYMTAB, sh_flags := 0, sh_addr := 0, sh_offset := 0,
        sh_size := 48, sh_link := n + 2, sh_info := 1, sh_addralign := 8,
        sh_entsize := sizeof_Elf64_Sym },
      { sh_name := 0, sh_type := SHT_STRTAB, sh_flags := 0, sh_addr := 0, sh_offset := 48,
        sh_size := 5, sh_link := 0, sh_info := 0, sh_addralign := 1, sh_entsize := 0 },
      { sh_name := 0, sh_type := SHT_STRTAB, sh_flags := 0, sh_addr := 0, sh_offset := 53,
        sh_size := 4 * n + 1, sh_link := 0, sh_info := 0, sh_addralign := 1,
        sh_entsize := 0 }] }

/-! ## The extraction of archive members (`parseInputAndCreateSymbolTable.cpp`) -/

/-- The constant `elfIdent`: the first seven bytes of a file that `classifyInput` and
`extractArchiveMembers` take for an ELF file. -/
def elfIdent : List Nat := [0x7f, 69, 76, 70, ELFCLASS64, ELFDATA2LSB, EV_CURRENT]

/-- The vectors that `extractArchiveMembers` writes: the states of the archive members
and the four parallel vectors of the ELF inputs, of which `elfAddresses` and
`sectionHeaders` are kept together as `elfInputs`. -/
structure ExtractState where
  memberStates : List ArchiveMemberState
  elfSortKeys : List Nat
  elfInputs : List ElfInput
  sectionStringTables : List (Option Memory)
  deriving DecidableEq, Repr

/-- The memory at `elfAddress` in `extractArchiveMembers`: the archive from the start of
the member on when that start is aligned for an `Elf64_Ehdr`, and else the copy of
`elfFileSize` bytes that `std::memcpy` makes in the allocated memory. -/
def memberElfMemory (sourceMem : Memory) (fileStartOffset elfFileSize : Nat) : Memory :=
  if fileStartOffset % 8 = 0 then sourceMem.drop fileStartOffset
  else bytesAt sourceMem fileStartOffset elfFileSize

/-- The body of the loop of `extractArchiveMembers` for a member that is in the state
`lazy`, after the statement `memberStates[memberID] = ArchiveMemberState::loaded`, which
has given the state `st`. -/
def extractLazyMember (addresses : List Memory) (memSizes archiveMemberSortKeys : List Nat)
    (st : ExtractState) (memberID : Nat) : LoopStep ExtractState :=
  let key := archiveMemberSortKeys.getD memberID 0
  let sourceFileIndex := (split key).1
  let offset := (split key).2
  let sourceMem := addresses.getD sourceFileIndex []
  let memSize := memSizes.getD sourceFileIndex 0
  if memSize < offset + sizeof_ar_hdr then LoopStep.return StatusCode.bad_input_file st
  else
    match fromChars (bytesAt sourceMem (offset + 48) 10) with
    | none => LoopStep.return StatusCode.not_ok st
    | some elfFileSize =>
      let fileStartOffset0 := offset + sizeof_ar_hdr
      let fileStartOffset := fileStartOffset0 + fileStartOffset0 % 2
      let elfMem := memberElfMemory sourceMem fileStartOffset elfFileSize
      if bytesAt elfMem 0 elfIdent.length ≠ elfIdent then LoopStep.return StatusCode.not_ok st
      else
        let init := initRelaElf elfMem elfFileSize
        if init.status ≠ StatusCode.ok then LoopStep.return init.status st
        else
          LoopStep.continue
            { st with
              elfSortKeys := st.elfSortKeys ++ [key]
              elfInputs := st.elfInputs ++ [{ mem := elfMem, headers := init.sectionHeaders }]
              sectionStringTables := st.sectionStringTables ++ [init.strTable] }

/-- The function `extractArchiveMembers`, on the member ids that are still to visit: the
returned status and the vectors.  The result is `none` when a member id is not an index of
`memberStates`, for which the subscript has no defined behaviour. -/
def extractArchiveMembers (addresses : List Memory) (memSizes archiveMemberSortKeys : List Nat) :
    List Nat → ExtractState → Option (StatusCode × ExtractState)
  | [], st => some (StatusCode.ok, st)
  | memberID :: rest, st =>
    if st.memberStates.length ≤ memberID then none
    else if st.memberStates.getD memberID ArchiveMemberState.lazy = ArchiveMemberState.loaded then
      extractArchiveMembers addresses memSizes archiveMemberSortKeys rest st
    else
      match extractLazyMember addresses memSizes archiveMemberSortKeys
          { st with memberStates := st.memberStates.set memberID ArchiveMemberState.loaded }
          memberID with
      | LoopStep.return code st1 => some (code, st1)
      | LoopStep.continue st1 =>
        extractArchiveMembers addresses memSizes archiveMemberSortKeys rest st1

/-- The variables of the loop of `parseInputAndCreateSymbolTable` that extracts archive
members. -/
structure ExtractionLoopState where
  symbolTable : SymbolTable
  searchedSymbolNames : List Name
  extract : ExtractState
  deriving DecidableEq, Repr

/-- How the loop of `parseInputAndCreateSymbolTable` ends: the function returns a status;
or `symbolTable.at` throws; or a subscript of `archiveMembersStates` is out of range. -/
inductive ExtractionEnd where
  | returns (status : StatusCode)
  | throws
  | undefined
  deriving DecidableEq, Repr

/-- The outcome of one round of the loop of `parseInputAndCreateSymbolTable`: the loop
goes on to the next round, or it ends. -/
inductive ExtractionRound where
  | next (s : ExtractionLoopState)
  | ends (e : ExtractionEnd) (s : ExtractionLoopState)
  deriving DecidableEq, Repr

/-- One round of the loop of `parseInputAndCreateSymbolTable`. -/
def extractionRound (addresses : List Memory) (memSizes archiveMemberSortKeys : List Nat)
    (archiveSymbolTable : ArchiveSymbolTable) (s : ExtractionLoopState) : ExtractionRound :=
  match determineArchiveMembersToExtract s.symbolTable archiveSymbolTable s.extract.elfSortKeys
      archiveMemberSortKeys s.searchedSymbolNames with
  | none => ExtractionRound.ends ExtractionEnd.throws s
  | some (status, archiveMemberIDsToExtract) =>
    if status ≠ StatusCode.ok then ExtractionRound.ends (ExtractionEnd.returns status) s
    else
      let elfInsertStartID := s.extract.elfInputs.length
      match extractArchiveMembers addresses memSizes archiveMemberSortKeys
          archiveMemberIDsToExtract s.extract with
      | none => ExtractionRound.ends ExtractionEnd.undefined s
      | some (status1, ext) =>
        let s1 := { s with extract := ext }
        if status1 ≠ StatusCode.ok then ExtractionRound.ends (ExtractionEnd.returns status1) s1
        else if elfInsertStartID = ext.elfInputs.length then
          ExtractionRound.ends (ExtractionEnd.returns status1) s1
        else
          let ins := insertSymbolsIntoSymbolTable (ext.elfInputs.drop elfInsertStartID)
            ext.elfSortKeys elfInsertStartID s.symbolTable
          let s2 : ExtractionLoopState :=
            { symbolTable := ins.symbolTable
              searchedSymbolNames := ins.searchedSymbolNames
              extract := ext }
          if ins.status ≠ StatusCode.ok then
            ExtractionRound.ends (ExtractionEnd.returns ins.status) s2
          else ExtractionRound.next s2

/-- The loop of `parseInputAndCreateSymbolTable` that extracts archive members, run for at
most `fuel` rounds: how it ends, the variables at the end and the number of rounds; `none`
when the loop has not ended after `fuel` rounds. -/
def extractionLoop (addresses : List Memory) (memSizes archiveMemberSortKeys : List Nat)
    (archiveSymbolTable : ArchiveSymbolTable) :
    Nat → ExtractionLoopState → Option (ExtractionEnd × ExtractionLoopState × Nat)
  | 0, _ => none
  | fuel + 1, s =>
    match extractionRound addresses memSizes archiveMemberSortKeys archiveSymbolTable s with
    | ExtractionRound.ends e s1 => some (e, s1, 1)
    | ExtractionRound.next s1 =>
      match extractionLoop addresses memSizes archiveMemberSortKeys archiveSymbolTable fuel s1 with
      | none => none
      | some (e, s2, rounds) => some (e, s2, rounds + 1)

/-! ### The words of the specification about the extraction of archive members -/

/-- The number of archive members in the state `lazy`. -/
def lazyCount (memberStates : List ArchiveMemberState) : Nat :=
  memberStates.count ArchiveMemberState.lazy

/-- No member goes back from `loaded` to `lazy`: the vectors have the same length and a
member that is loaded before is loaded after. -/
def statesAdvance (before after : List ArchiveMemberState) : Prop :=
  after.length = before.length ∧
  ∀ i, before.getD i ArchiveMemberState.lazy = ArchiveMemberState.loaded →
    after.getD i ArchiveMemberState.lazy = ArchiveMemberState.loaded

/-- The ELF inputs of `after` are those of `before` followed by one input for each of the
members `appended`, which are pairwise distinct, lazy in `before` and loaded in
`after`. -/
def appendsMembers (archiveMemberSortKeys : List Nat) (before after : ExtractState)
    (appended : List Nat) : Prop :=
  appended.Nodup ∧
  (∀ id ∈ appended, id < before.memberStates.length ∧
    before.memberStates.getD id ArchiveMemberState.lazy = ArchiveMemberState.lazy ∧
    after.memberStates.getD id ArchiveMemberState.lazy = ArchiveMemberState.loaded) ∧
  after.elfSortKeys = before.elfSortKeys ++ appended.map (fun id => archiveMemberSortKeys.getD id 0) ∧
  after.elfInputs.length = before.elfInputs.length + appended.length ∧
  (∃ added, after.elfInputs = before.elfInputs ++ added) ∧
  after.sectionStringTables.length = before.sectionStringTables.length + appended.length

/-- An archive of 196 bytes with one member at the offset 8, behind the magic bytes: the
member header of 60 bytes, whose size field reads `128`, and a relocatable ELF file of 128
bytes with the section header of index zero only. -/
def archiveWithElfMember : Memory :=
  bytesOf "!<arch>\n" ++ List.replicate 48 32 ++ bytesOf "128       " ++ [96, 10] ++
    encodeEhdr (fileHeader ET_REL 1) ++ encodeShdr default

/-- The variables of the loop of `parseInputAndCreateSymbolTable` after the object `a.o`
(file 0), which refers to `exit`, is inserted, with the one member of the archive `b.a`
(file 1) in the state `lazy`. -/
def extractionStart : ExtractionLoopState :=
  { symbolTable := (insertSymbolsIntoSymbolTable [objA] [makeSortKey 0 0] 0 []).symbolTable
    searchedSymbolNames :=
      (insertSymbolsIntoSymbolTable [objA] [makeSortKey 0 0] 0 []).searchedSymbolNames
    extract :=
      { memberStates := [ArchiveMemberState.lazy]
        elfSortKeys := [makeSortKey 0 0]
        elfInputs := [objA]
        sectionStringTables := [none] } }

/-! ## Inputs for the symbol table and the archive schedule -/

/-- An object that defines `b` as a global symbol. -/
def objGlobalB : ElfInput := objectWithSymbols [default, mkSym 3 STB_GLOBAL 1 66] strtabAB

/-- The string table `"\0a\0b\0c\0d\0"`: the names `a`, `b`, `c` and `d` are at the offsets
1, 3, 5 and 7. -/
def strtabABCD : List Nat := [0, 97, 0, 98, 0, 99, 0, 100, 0]

/-- An object that refers to `a` and defines `c`. -/
def objRefADefC : ElfInput :=
  objectWithSymbols [default, mkSym 1 STB_GLOBAL SHN_UNDEF 0, mkSym 5 STB_GLOBAL 1 0] strtabABCD

/-- An object that refers to `b`, `c`, `a` and `d`, in this order. -/
def objRefBCAD : ElfInput :=
  objectWithSymbols [default, mkSym 3 STB_GLOBAL SHN_UNDEF 0, mkSym 5 STB_GLOBAL SHN_UNDEF 0,
    mkSym 1 STB_GLOBAL SHN_UNDEF 0, mkSym 7 STB_GLOBAL SHN_UNDEF 0] strtabABCD

/-- The symbol table and the searched names after `objRefADefC` (file 1) and `objRefBCAD`
(file 5) are inserted: the searched names are `a`, `b`, `c`, `a`, `d`; the name `c` has a
`firstLoad`, the others have none. -/
def scheduleTestState : InsertState :=
  insertSymbolsIntoSymbolTable [objRefADefC, objRefBCAD] [makeSortKey 1 0, makeSortKey 5 0] 0 []

/-- The index of archives with three members, of the files 0, 2 and 3: all three define
`a`, the first two define `b`, the last defines `c`, and none defines `d`. -/
def scheduleTestArchive : ArchiveSymbolTable :=
  [(bytesOf "a", [0, 1, 2]), (bytesOf "b", [0, 1]), (bytesOf "c", [2])]

/-- The sort keys of the three archive members. -/
def scheduleTestMemberKeys : List Nat := [makeSortKey 0 100, makeSortKey 2 100, makeSortKey 3 100]

/-- An object that refers to `c` and to `a`, in this order. -/
def objRefCA : ElfInput :=
  objectWithSymbols [default, mkSym 5 STB_GLOBAL SHN_UNDEF 0, mkSym 1 STB_GLOBAL SHN_UNDEF 0]
    strtabABCD

/-- An object that defines `c`. -/
def objDefC : ElfInput := objectWithSymbols [default, mkSym 5 STB_GLOBAL 1 0] strtabABCD

/-- The symbol table and the searched names after `objRefCA` (file 0) and `objDefC`
(file 9) are inserted: the searched names are `c` and `a`. -/
def conflictTestState : InsertState :=
  insertSymbolsIntoSymbolTable [objRefCA, objDefC] [makeSortKey 0 0, makeSortKey 9 0] 0 []

/-- The index of an archive, file 5, whose only member defines `c` and `a`. -/
def conflictTestArchive : ArchiveSymbolTable := [(bytesOf "c", [0]), (bytesOf "a", [0])]

/-! ## Inputs for the element loop and the symbol table of the output -/

/-- The object `objectWithData` with a section of eight bytes and the entry size
`2^64 - 4`, mapped at the address `0x7f0000000000`. -/
def objWrappingEntsize : ElfInput :=
  { objectWithData [1, 2, 3, 4, 5, 6, 7, 8] (2 ^ 64 - 4) with address := 0x7f0000000000 }

/-- A relocatable object with a `.text` of twelve bytes (section 1), a symbol table of
the null symbol, the local symbol `a` at the offset 2 of `.text`, the local absolute
symbol `b` and the global symbol `c` at the start of `.text` (section 2, with
`sh_info = 3`), the string table `"\0a\0b\0c\0d\0"` of nine bytes (section 3), and the
string table of the section names, of 33 bytes (section 4). -/
def objTwoLocals : ElfInput :=
  { mem := encodeSym default ++ encodeSym (mkSym 1 STB_LOCAL 1 2) ++
      encodeSym (mkSym 3 STB_LOCAL SHN_ABS 7) ++ encodeSym (mkSym 5 STB_GLOBAL 1 0) ++
      strtabABCD ++ repeatedLocalsSectionNames ++ [1, 2, 3, 4, 5, 6, 7, 8, 9, 10, 11, 12]
    headers := [
      default,
      { sh_name := 1, sh_type := SHT_PROGBITS, sh_flags := SHF_ALLOC + SHF_EXECINSTR, sh_addr := 0,
        sh_offset := 138, sh_size := 12, sh_link := 0, sh_info := 0, sh_addralign := 16,
        sh_entsize := 0 },
      { sh_name := 7, sh_type := SHT_SYMTAB, sh_flags := 0, sh_addr := 0, sh_offset := 0,
        sh_size := 96, sh_link := 3, sh_info := 3, sh_addralign := 8,
        sh_entsize := sizeof_Elf64_Sym },
      { sh_name := 15, sh_type := SHT_STRTAB, sh_flags := 0, sh_addr := 0, sh_offset := 96,
        sh_size := 9, sh_link := 0, sh_info := 0, sh_addralign := 1, sh_entsize := 0 },
      { sh_name := 23, sh_type := SHT_STRTAB, sh_flags := 0, sh_addr := 0, sh_offset := 105,
        sh_size := 33, sh_link := 0, sh_info := 0, sh_addralign := 1, sh_entsize := 0 }] }

/-- The link of the single object `objTwoLocals` with the entry symbol `c`. -/
def linkTwoLocals : MapResult :=
  mapInputSectionsToOutputSections simpleLibrary [objTwoLocals] [0]
    [objTwoLocals.mem.drop 105]
    (insertSymbolsIntoSymbolTable [objTwoLocals] [0] 0 []).symbolTable
    (SymbolTable.get (insertSymbolsIntoSymbolTable [objTwoLocals] [0] 0 []).symbolTable
      (bytesOf "c"))

/-! # Theorems -/

/-! ## The symbol table as a map -/

theorem SymbolTable.find_modify (t : SymbolTable) (n m : Name)
    (f : GlobalSymbolTableEntry → GlobalSymbolTableEntry) :
    SymbolTable.find (SymbolTable.modify t n f) m =
      if m = n then some (f (SymbolTable.get t n)) else SymbolTable.find t m := by
  induction t with
  | nil =>
    by_cases h : m = n
    · subst h; simp [SymbolTable.modify, SymbolTable.find, SymbolTable.get]
    · have h' : ¬ n = m := fun e => h e.symm
      simp [SymbolTable.modify, SymbolTable.find, h, h']
  | cons p rest ih =>
    obtain ⟨k, e⟩ := p
    by_cases hk : k = n
    · subst hk
      by_cases h : m = k
      · subst h; simp [SymbolTable.modify, SymbolTable.find, SymbolTable.get]
      · have h' : ¬ k = m := fun e => h e.symm
        simp [SymbolTable.modify, SymbolTable.find, h, h']
    · by_cases h : m = n
      · subst h
        simp [SymbolTable.modify, SymbolTable.find, SymbolTable.get, hk, ih]
      · by_cases hkm : k = m
        · subst hkm; simp [SymbolTable.modify, SymbolTable.find, hk, h]
        · simp [SymbolTable.modify, SymbolTable.find, hk, h, hkm, ih]

theorem SymbolTable.get_modify (t : SymbolTable) (n m : Name)
    (f : GlobalSymbolTableEntry → GlobalSymbolTableEntry) :
    SymbolTable.get (SymbolTable.modify t n f) m =
      if m = n then f (SymbolTable.get t n) else SymbolTable.get t m := by
  unfold SymbolTable.get
  rw [SymbolTable.find_modify]
  by_cases h : m = n <;> simp [h, SymbolTable.get]

/-! ## The rule `replaceIfAppropriate` -/

theorem replaceIfAppropriate_none (keys : List Nat) (entry : SymbolRef) (sym : Elf64_Sym)
    (id : Nat) (h : entry.symbol = none) :
    replaceIfAppropriate keys entry sym id = ⟨some sym, id⟩ := by
  simp [replaceIfAppropriate, h]

theorem replaceIfAppropriate_some (keys : List Nat) (entry : SymbolRef) (s sym : Elf64_Sym)
    (id : Nat) (h : entry.symbol = some s) :
    replaceIfAppropriate keys entry sym id =
      if isWeak s = true ∧ isWeak sym = false then ⟨some sym, id⟩
      else if isWeak s = isWeak sym ∧ keys.getD id 0 < keys.getD entry.elfID 0 then ⟨some sym, id⟩
      else entry := by
  cases hs : isWeak s <;> cases hy : isWeak sym <;> simp [replaceIfAppropriate, h, hs, hy]

/-! ## Projection of a run onto one name -/

theorem loadOf_insertNamedSymbol (keys : List Nat) (st : InsertState)
    (o : Name × Elf64_Sym × Nat) (n : Name) :
    loadOf (insertNamedSymbol keys st o) n =
      if isDefinitionOf n o = true then loadStep keys (loadOf st n) (o.2.1, o.2.2)
      else loadOf st n := by
  obtain ⟨name, sym, id⟩ := o
  unfold insertNamedSymbol isDefinitionOf loadOf loadStep
  by_cases hu : sym.st_shndx = SHN_UNDEF
  · by_cases hn : n = name
    · subst hn; simp [hu, SymbolTable.get_modify]
    · have hn' : ¬ name = n := fun e => hn e.symm
      simp [hu, SymbolTable.get_modify, hn, hn']
  · by_cases hn : n = name
    · subst hn
      simp only [hu, if_false]
      cases hs : (SymbolTable.get st.symbolTable n).firstLoad.symbol with
      | none => simp [SymbolTable.get_modify, hs, hu]
      | some es =>
        by_cases hg : (isGlobal sym && isGlobal es) = true
        · simp [SymbolTable.get_modify, hs, hu, hg]
        · simp [SymbolTable.get_modify, hs, hu, hg]
    · have hn' : ¬ name = n := fun e => hn e.symm
      simp only [hu, if_false]
      cases hs : (SymbolTable.get st.symbolTable name).firstLoad.symbol with
      | none => simp [SymbolTable.get_modify, hn, hn']
      | some es =>
        by_cases hg : (isGlobal sym && isGlobal es) = true
        · simp [SymbolTable.get_modify, hn, hn', hg]
        · simp [SymbolTable.get_modify, hn, hn', hg]

theorem loadOf_foldl_insertNamedSymbol (keys : List Nat) (n : Name)
    (os : List (Name × Elf64_Sym × Nat)) (st : InsertState) :
    loadOf (os.foldl (insertNamedSymbol keys) st) n =
      (definitionsAmong n os).foldl (loadStep keys) (loadOf st n) := by
  induction os generalizing st with
  | nil => simp [definitionsAmong]
  | cons o os ih =>
    rw [List.foldl_cons, ih, loadOf_insertNamedSymbol]
    by_cases h : isDefinitionOf n o = true
    · simp [definitionsAmong, h]
    · simp [definitionsAmong, h]

/-! ## The invariant of `firstLoad` -/

theorem isGlobal_eq_false_of_isWeak (s : Elf64_Sym) (h : isWeak s = true) : isGlobal s = false := by
  unfold isWeak at h
  unfold isGlobal
  simp only [beq_iff_eq] at h
  simp [h, STB_WEAK, STB_GLOBAL]

theorem two_le_length_filter_append {α : Type} (p : α → Bool) (l : List α) (x d : α)
    (hx : x ∈ l) (hpx : p x = true) (hpd : p d = true) :
    2 ≤ ((l ++ [d]).filter p).length := by
  have h1 : 0 < (l.filter p).length := List.length_pos_of_mem (List.mem_filter.mpr ⟨hx, hpx⟩)
  simp [List.filter_append, hpd]
  omega

theorem EntryInv_step (keys : List Nat) (D : List (Elf64_Sym × Nat)) (entry : SymbolRef)
    (d : Elf64_Sym × Nat) (hinv : EntryInv keys D entry)
    (hone : ((D ++ [d]).filter (fun x => !isWeak x.1)).length ≤ 1) :
    EntryInv keys (D ++ [d]) (loadStep keys entry d) := by
  obtain ⟨sym, id⟩ := d
  cases hs : entry.symbol with
  | none =>
    have hD : D = [] := by simpa [EntryInv, hs] using hinv
    subst hD
    simp [loadStep, hs, replaceIfAppropriate_none, EntryInv, keyOf]
  | some s =>
    obtain ⟨hmem, huniq, hmin, hhead⟩ : (s, entry.elfID) ∈ D ∧
        (∀ d ∈ D, isWeak d.1 = false → d = (s, entry.elfID)) ∧
        (isWeak s = true → ∀ d ∈ D, keys.getD entry.elfID 0 ≤ keyOf keys d) ∧
        (isWeak s = true →
          (D.filter (fun d => keyOf keys d = keys.getD entry.elfID 0)).head? =
            some (s, entry.elfID)) := by
      simpa [EntryInv, hs] using hinv
    cases hwd : isWeak sym with
    | false =>
      cases hws : isWeak s with
      | false =>
        exfalso
        have := two_le_length_filter_append (fun x : Elf64_Sym × Nat => !isWeak x.1) D
          (s, entry.elfID) (sym, id) hmem (by simp [hws]) (by simp [hwd])
        omega
      | true =>
        have hg : isGlobal s = false := isGlobal_eq_false_of_isWeak s hws
        have hstep : loadStep keys entry (sym, id) = ⟨some sym, id⟩ := by
          simp [loadStep, hs, hg, replaceIfAppropriate_some keys entry s sym id hs, hws, hwd]
        rw [hstep]
        simp only [EntryInv, hwd]
        refine ⟨by simp, ?_, by simp, by simp⟩
        intro x hx hxw
        rcases List.mem_append.mp hx with hx | hx
        · have := huniq x hx hxw
          rw [this] at hxw
          simp [hws] at hxw
        · simpa using hx
    | true =>
      have hg : isGlobal sym = false := isGlobal_eq_false_of_isWeak sym hwd
      cases hws : isWeak s with
      | false =>
        have hstep : loadStep keys entry (sym, id) = entry := by
          simp [loadStep, hs, hg, replaceIfAppropriate_some keys entry s sym id hs, hws, hwd]
        rw [hstep]
        simp only [EntryInv, hs, hws]
        refine ⟨List.mem_append_left _ hmem, ?_, by simp, by simp⟩
        intro x hx hxw
        rcases List.mem_append.mp hx with hx | hx
        · exact huniq x hx hxw
        · have hx' : x = (sym, id) := by simpa using hx
          rw [hx'] at hxw
          simp [hwd] at hxw
      | true =>
        have hmin' := hmin hws
        have hhead' := hhead hws
        by_cases hlt : keys.getD id 0 < keys.getD entry.elfID 0
        · have hstep : loadStep keys entry (sym, id) = ⟨some sym, id⟩ := by
            simp [-List.getD_eq_getElem?_getD, loadStep, hs, hg, replaceIfAppropriate_some keys entry s sym id hs, hws, hwd, hlt]
          rw [hstep]
          simp only [EntryInv]
          refine ⟨by simp, ?_, ?_, ?_⟩
          · intro x hx hxw
            rcases List.mem_append.mp hx with hx | hx
            · have := huniq x hx hxw
              rw [this] at hxw
              simp [hws] at hxw
            · simpa using hx
          · intro _ x hx
            rcases List.mem_append.mp hx with hx | hx
            · have := hmin' x hx
              omega
            · have hx' : x = (sym, id) := by simpa using hx
              rw [hx']
              simp [keyOf]
          · intro _
            have hnil : D.filter (fun d => keyOf keys d = keys.getD id 0) = [] := by
              rw [List.filter_eq_nil_iff]
              intro x hx
              have := hmin' x hx
              simp only [decide_eq_true_eq]
              omega
            dsimp only
            rw [List.filter_append, hnil]
            simp [keyOf]
        · have hstep : loadStep keys entry (sym, id) = entry := by
            simp [-List.getD_eq_getElem?_getD, loadStep, hs, hg, replaceIfAppropriate_some keys entry s sym id hs, hws, hwd, hlt]
          rw [hstep]
          simp only [EntryInv, hs]
          refine ⟨List.mem_append_left _ hmem, ?_, ?_, ?_⟩
          · intro x hx hxw
            rcases List.mem_append.mp hx with hx | hx
            · exact huniq x hx hxw
            · have hx' : x = (sym, id) := by simpa using hx
              rw [hx'] at hxw
              simp [hwd] at hxw
          · intro _ x hx
            rcases List.mem_append.mp hx with hx | hx
            · exact hmin' x hx
            · have hx' : x = (sym, id) := by simpa using hx
              rw [hx']
              simp only [keyOf]
              omega
          · intro _
            rw [List.filter_append, List.head?_append, hhead']
            rfl

theorem EntryInv_foldl (keys : List Nat) (S P : List (Elf64_Sym × Nat)) (entry : SymbolRef)
    (hinv : EntryInv keys P entry)
    (hone : ((P ++ S).filter (fun x => !isWeak x.1)).length ≤ 1) :
    EntryInv keys (P ++ S) (S.foldl (loadStep keys) entry) := by
  induction S generalizing P entry with
  | nil => simpa using hinv
  | cons d S ih =>
    have hPS : P ++ d :: S = (P ++ [d]) ++ S := by simp
    rw [hPS] at hone ⊢
    rw [List.foldl_cons]
    apply ih
    · apply EntryInv_step keys P entry d hinv
      have : ((P ++ [d]).filter (fun x => !isWeak x.1)).length ≤
          (((P ++ [d]) ++ S).filter (fun x => !isWeak x.1)).length := by
        rw [List.filter_append (P ++ [d]) S, List.length_append]
        omega
      omega
    · exact hone

/-! ## The two passes of `insertSymbolsIntoSymbolTable` -/

theorem collectSymtabs_wellFormed (mem : Memory) (secHeaders : List Elf64_Shdr)
    (elfID startID : Nat) (hs : List Elf64_Shdr) (status : StatusCode) (views : List SymtabView)
    (hwf : ∀ h ∈ hs, h.sh_type = SHT_SYMTAB → h.sh_entsize = sizeof_Elf64_Sym) :
    collectSymtabs mem secHeaders elfID startID hs (status, views) =
      (status, views ++ (hs.filter (fun h => h.sh_type = SHT_SYMTAB)).map (fun secHdr =>
        { syms := view_as_span_Sym mem secHdr.sh_offset (secHdr.sh_size / secHdr.sh_entsize)
          strings := mem.drop (secHeaders.getD secHdr.sh_link default).sh_offset
          elfID := elfID + startID })) := by
  induction hs generalizing views with
  | nil => simp [collectSymtabs]
  | cons h hs ih =>
    have hwf' : ∀ x ∈ hs, x.sh_type = SHT_SYMTAB → x.sh_entsize = sizeof_Elf64_Sym :=
      fun x hx => hwf x (List.mem_cons_of_mem _ hx)
    by_cases ht : h.sh_type = SHT_SYMTAB
    · have he : h.sh_entsize = sizeof_Elf64_Sym := hwf h (List.mem_cons_self _ _) ht
      simp only [collectSymtabs, ht, he, ne_eq, not_true_eq_false, if_false]
      rw [ih _ hwf']
      simp [List.filter_cons, ht, he]
    · simp only [collectSymtabs, ht, ne_eq, not_false_eq_true, if_true]
      rw [ih _ hwf']
      simp [List.filter_cons, ht]

theorem collectAll_wellFormed (startID : Nat) (inputs : List ElfInput) (i : Nat)
    (status : StatusCode) (views : List SymtabView)
    (hwf : ∀ e ∈ inputs, symtabsWellFormed e) :
    forEachIndexedFrom
        (fun acc e elfID => collectSymtabs e.mem e.headers elfID startID e.headers acc)
        i inputs (status, views) =
      (status, views ++ viewsFrom startID i inputs) := by
  induction inputs generalizing i views with
  | nil => simp [forEachIndexedFrom, viewsFrom]
  | cons e es ih =>
    have hwf' : ∀ x ∈ es, symtabsWellFormed x := fun x hx => hwf x (List.mem_cons_of_mem _ hx)
    simp only [forEachIndexedFrom]
    rw [collectSymtabs_wellFormed _ _ _ _ _ _ _ (hwf e (List.mem_cons_self _ _)), ih _ _ hwf']
    simp [viewsFrom, symtabViewsOf]

theorem forEachIndexedFrom_insertSymbol (keys : List Nat) (strings : Memory) (id : Nat)
    (syms : List Elf64_Sym) (i : Nat) (st : InsertState) :
    forEachIndexedFrom (insertSymbol keys strings id) i syms st =
      ((symbolsFrom strings i syms).map (fun p => (p.1, p.2, id))).foldl
        (insertNamedSymbol keys) st := by
  induction syms generalizing i st with
  | nil => simp [forEachIndexedFrom, symbolsFrom]
  | cons s ss ih =>
    simp only [forEachIndexedFrom, symbolsFrom, insertSymbol]
    rw [ih]
    by_cases h0 : i = STN_UNDEF
    · simp [h0]
    · by_cases hl : isLocal s = true
      · simp [h0, hl]
      · simp [h0, hl]

theorem insertSymtab_eq (keys : List Nat) (st : InsertState) (v : SymtabView) :
    insertSymtab keys st v = (insertedOfView v).foldl (insertNamedSymbol keys) st := by
  unfold insertSymtab forEachIndexed insertedOfView
  exact forEachIndexedFrom_insertSymbol keys v.strings v.elfID v.syms 0 st

theorem foldl_insertSymtab_eq (keys : List Nat) (views : List SymtabView) (st : InsertState) :
    views.foldl (insertSymtab keys) st =
      (views.flatMap insertedOfView).foldl (insertNamedSymbol keys) st := by
  induction views generalizing st with
  | nil => simp
  | cons v vs ih =>
    rw [List.foldl_cons, ih, insertSymtab_eq, List.flatMap_cons, List.foldl_append]

theorem insertSymbolsIntoSymbolTable_eq (inputs : List ElfInput) (keys : List Nat)
    (startID : Nat) (t : SymbolTable) (hwf : ∀ e ∈ inputs, symtabsWellFormed e) :
    insertSymbolsIntoSymbolTable inputs keys startID t =
      (insertedSymbols inputs startID).foldl (insertNamedSymbol keys) ⟨StatusCode.ok, t, []⟩ := by
  unfold insertSymbolsIntoSymbolTable collectAllSymtabs forEachIndexed insertedSymbols
  rw [collectAll_wellFormed startID inputs 0 StatusCode.ok [] hwf]
  simp [foldl_insertSymtab_eq]

/-! ## The definitions of a name in a collection of inputs -/

theorem flatMap_insertedOfView_symtabViewsOf (e : ElfInput) (id : Nat) :
    (symtabViewsOf e id).flatMap insertedOfView =
      (globalSymbolsOf e).map (fun p => (p.1, p.2, id)) := by
  unfold globalSymbolsOf symtabViewsOf
  generalize e.headers.filter (fun h => h.sh_type = SHT_SYMTAB) = l
  induction l with
  | nil => simp
  | cons h l ih =>
    simp only [List.map_cons, List.flatMap_cons, List.map_append]
    rw [ih]
    simp [insertedOfView]

theorem definitionsAmong_append (n : Name) (a b : List (Name × Elf64_Sym × Nat)) :
    definitionsAmong n (a ++ b) = definitionsAmong n a ++ definitionsAmong n b := by
  simp [definitionsAmong, List.filter_append]

theorem definitionsAmong_globalSymbolsOf (e : ElfInput) (n : Name) (id : Nat) :
    definitionsAmong n ((globalSymbolsOf e).map (fun p => (p.1, p.2, id))) =
      (definitionsOf e n).map (fun s => (s, id)) := by
  unfold definitionsAmong definitionsOf
  generalize globalSymbolsOf e = l
  induction l with
  | nil => simp
  | cons p l ih =>
    obtain ⟨m, s⟩ := p
    by_cases h : m = n ∧ s.st_shndx ≠ SHN_UNDEF
    · obtain ⟨hm, h2⟩ := h
      subst hm
      have h1 : isDefinitionOf m (m, s, id) = true := by
        simp [isDefinitionOf, h2]
      simpa [List.filter_cons, h1, h2] using ih
    · have h1 : isDefinitionOf n (m, s, id) = false := by
        rw [← Bool.not_eq_true]
        simp only [isDefinitionOf, Bool.and_eq_true, decide_eq_true_eq]
        exact h
      have h3 : (decide (m = n) && !decide (s.st_shndx = SHN_UNDEF)) = false := by
        rw [← Bool.not_eq_true]
        simpa using h
      simpa [List.filter_cons, h1, h3] using ih

theorem definitionsAmong_viewsFrom (n : Name) (rest pre : List (Nat × ElfInput)) :
    (definitionsAmong n
        ((viewsFrom 0 pre.length (rest.map Prod.snd)).flatMap insertedOfView)).map
        (fun d => (((pre ++ rest).map Prod.fst).getD d.2 0, d.1)) =
      allDefinitions rest n := by
  induction rest generalizing pre with
  | nil => simp [viewsFrom, definitionsAmong, allDefinitions]
  | cons p rest ih =>
    have hlen : (pre ++ [p]).length = pre.length + 1 := by simp
    have happ : pre ++ p :: rest = (pre ++ [p]) ++ rest := by simp
    have ih' := ih (pre ++ [p])
    rw [hlen, ← happ] at ih'
    have hkey : ((pre ++ p :: rest).map Prod.fst).getD pre.length 0 = p.1 := by
      rw [List.map_append, List.getD_append_right _ _ _ _ (by simp)]
      simp
    generalize (pre ++ p :: rest).map Prod.fst = keys at ih' hkey ⊢
    simp only [List.map_cons, viewsFrom, List.flatMap_append, definitionsAmong_append,
      List.map_append, Nat.add_zero]
    rw [ih', flatMap_insertedOfView_symtabViewsOf, definitionsAmong_globalSymbolsOf]
    simp only [allDefinitions, List.flatMap_cons, List.map_map]
    congr 1
    apply List.map_congr_left
    intro s _
    simp only [Function.comp]
    rw [hkey]

theorem definitionsAmong_insertedSymbols (n : Name) (ins : List (Nat × ElfInput)) :
    (definitionsAmong n (insertedSymbols (ins.map Prod.snd) 0)).map
        (fun d => ((ins.map Prod.fst).getD d.2 0, d.1)) =
      allDefinitions ins n := by
  have h := definitionsAmong_viewsFrom n ins []
  simpa [insertedSymbols] using h

/-! ## The specification of `firstLoad` and its independence of the input order -/

theorem firstLoadOf_eq_observeRef (st : InsertState) (keys : List Nat) (n : Name) :
    firstLoadOf st keys n = observeRef keys (loadOf st n) := rfl

theorem FirstLoadSpec_of_EntryInv (keys : List Nat) (D : List (Elf64_Sym × Nat))
    (entry : SymbolRef) (h : EntryInv keys D entry) :
    FirstLoadSpec (D.map (fun d => (keys.getD d.2 0, d.1))) (observeRef keys entry) := by
  obtain ⟨sym, eid⟩ := entry
  cases sym with
  | none =>
    have hD : D = [] := by simpa [EntryInv] using h
    subst hD
    simp [observeRef, FirstLoadSpec]
  | some s =>
    obtain ⟨hmem, huniq, hmin, hhead⟩ : (s, eid) ∈ D ∧
        (∀ d ∈ D, isWeak d.1 = false → d = (s, eid)) ∧
        (isWeak s = true → ∀ d ∈ D, keys.getD eid 0 ≤ keyOf keys d) ∧
        (isWeak s = true →
          (D.filter (fun d => keyOf keys d = keys.getD eid 0)).head? = some (s, eid)) := by
      simpa [EntryInv] using h
    simp only [observeRef, FirstLoadSpec]
    refine ⟨?_, ?_, ?_, ?_⟩
    · exact List.mem_map.mpr ⟨(s, eid), hmem, rfl⟩
    · intro x hx hw
      obtain ⟨d, hd, rfl⟩ := List.mem_map.mp hx
      rw [huniq d hd hw]
    · intro hw x hx
      obtain ⟨d, hd, rfl⟩ := List.mem_map.mp hx
      exact hmin hw d hd
    · intro hw
      have hf : (List.map (fun d : Elf64_Sym × Nat => (keys.getD d.2 0, d.1)) D).filter
            (fun x => decide (x.1 = keys.getD eid 0)) =
          (D.filter (fun d => decide (keyOf keys d = keys.getD eid 0))).map
            (fun d => (keys.getD d.2 0, d.1)) := by
        rw [List.filter_map]
        rfl
      rw [hf, List.head?_map, hhead hw]
      rfl

theorem FirstLoadSpec_unique (A A' : List (Nat × Elf64_Sym)) (r r' : Option (Nat × Elf64_Sym))
    (h : FirstLoadSpec A r) (h' : FirstLoadSpec A' r') (hperm : A.Perm A')
    (hfilter : ∀ k : Nat, A.filter (fun x => x.1 = k) = A'.filter (fun x => x.1 = k)) :
    r = r' := by
  cases r with
  | none =>
    have hA : A = [] := h
    subst hA
    have hA' : A' = [] := List.Perm.eq_nil hperm.symm
    subst hA'
    cases r' with
    | none => rfl
    | some d' => exact absurd h'.1 (List.not_mem_nil _)
  | some d =>
    obtain ⟨hmem, huniq, hmin, hhead⟩ := h
    cases r' with
    | none =>
      have hA' : A' = [] := h'
      subst hA'
      have hA : A = [] := List.Perm.eq_nil hperm
      subst hA
      exact absurd hmem (List.not_mem_nil _)
    | some d' =>
      obtain ⟨hmem', huniq', hmin', hhead'⟩ := h'
      have hd_in : d ∈ A' := hperm.mem_iff.mp hmem
      have hd'_in : d' ∈ A := hperm.mem_iff.mpr hmem'
      cases hw : isWeak d.2 with
      | false => rw [huniq' d hd_in hw]
      | true =>
        cases hw' : isWeak d'.2 with
        | false =>
          have := huniq d' hd'_in hw'
          rw [this] at hw'
          rw [hw] at hw'
          exact absurd hw' (by simp)
        | true =>
          have h1 := hmin hw d' hd'_in
          have h2 := hmin' hw' d hd_in
          have hk : d.1 = d'.1 := Nat.le_antisymm h1 h2
          have e1 := hhead hw
          have e2 := hhead' hw'
          rw [hfilter d.1, hk, e2] at e1
          exact e1.symm

theorem filter_flatMap_key {β : Type} (f : Nat × β → List (Nat × Elf64_Sym))
    (hf : ∀ p, ∀ x ∈ f p, x.1 = p.1) (k : Nat) (l : List (Nat × β)) :
    (l.flatMap f).filter (fun x => x.1 = k) = (l.filter (fun p => p.1 = k)).flatMap f := by
  induction l with
  | nil => simp
  | cons p l ih =>
    rw [List.flatMap_cons, List.filter_append, ih]
    by_cases hp : p.1 = k
    · have h1 : (f p).filter (fun x => decide (x.1 = k)) = f p := by
        rw [List.filter_eq_self]
        intro x hx
        simp [hf p x hx, hp]
      simp [List.filter_cons, hp, h1]
    · have h1 : (f p).filter (fun x => decide (x.1 = k)) = [] := by
        rw [List.filter_eq_nil_iff]
        intro x hx
        simp [hf p x hx, hp]
      simp [List.filter_cons, hp, h1]

theorem length_filter_key_le_one {β : Type} (k : Nat) (l : List (Nat × β))
    (hnd : (l.map Prod.fst).Nodup) : (l.filter (fun p => p.1 = k)).length ≤ 1 := by
  induction l with
  | nil => simp
  | cons p l ih =>
    rw [List.map_cons, List.nodup_cons] at hnd
    by_cases hp : p.1 = k
    · have hnil : l.filter (fun p => decide (p.1 = k)) = [] := by
        rw [List.filter_eq_nil_iff]
        intro x hx hxk
        apply hnd.1
        rw [hp]
        exact List.mem_map.mpr ⟨x, hx, by simpa using hxk⟩
      simp [List.filter_cons, hp, hnil]
    · simpa [List.filter_cons, hp] using ih hnd.2

theorem eq_of_perm_of_length_le_one {α : Type} (a b : List α) (hperm : a.Perm b)
    (hlen : a.length ≤ 1) : a = b := by
  match a, hlen with
  | [], _ => exact (List.Perm.eq_nil hperm.symm).symm
  | [x], _ => exact (List.perm_singleton.mp hperm.symm).symm

theorem filter_key_allDefinitions_perm (ins ins' : List (Nat × ElfInput)) (n : Name)
    (hperm : ins.Perm ins') (hkeys : (ins.map Prod.fst).Nodup) (k : Nat) :
    (allDefinitions ins n).filter (fun x => x.1 = k) =
      (allDefinitions ins' n).filter (fun x => x.1 = k) := by
  have hf : ∀ p : Nat × ElfInput,
      ∀ x ∈ (definitionsOf p.2 n).map (fun s => (p.1, s)), x.1 = p.1 := by
    intro p x hx
    obtain ⟨s, _, rfl⟩ := List.mem_map.mp hx
    rfl
  unfold allDefinitions
  rw [filter_flatMap_key _ hf k ins, filter_flatMap_key _ hf k ins']
  have := eq_of_perm_of_length_le_one _ _ (hperm.filter (fun p => decide (p.1 = k)))
    (length_filter_key_le_one k ins hkeys)
  rw [this]

/-! ## The status of a run -/

theorem status_insertNamedSymbol (keys : List Nat) (st : InsertState)
    (o : Name × Elf64_Sym × Nat) :
    (insertNamedSymbol keys st o).status =
      if redefinitionAt st o = true then StatusCode.symbol_redefined else st.status := by
  obtain ⟨name, sym, id⟩ := o
  unfold insertNamedSymbol redefinitionAt loadOf
  by_cases hu : sym.st_shndx = SHN_UNDEF
  · simp [hu]
  · simp only [hu, if_false]
    cases hs : (SymbolTable.get st.symbolTable name).firstLoad.symbol with
    | none => simp [hu]
    | some es =>
      by_cases hg : (isGlobal sym && isGlobal es) = true
      · simp [hu, hg]
      · simp [hu, hg]

theorem status_foldl_of_redefined (keys : List Nat) (os : List (Name × Elf64_Sym × Nat))
    (st : InsertState) (h : st.status = StatusCode.symbol_redefined) :
    (os.foldl (insertNamedSymbol keys) st).status = StatusCode.symbol_redefined := by
  induction os generalizing st with
  | nil => simpa using h
  | cons o os ih =>
    rw [List.foldl_cons]
    apply ih
    rw [status_insertNamedSymbol]
    split_ifs
    · rfl
    · exact h

theorem status_foldl_of_no_redefinition (keys : List Nat) (os : List (Name × Elf64_Sym × Nat))
    (st : InsertState)
    (h : ∀ P o S, os = P ++ o :: S →
      redefinitionAt (P.foldl (insertNamedSymbol keys) st) o = false) :
    (os.foldl (insertNamedSymbol keys) st).status = st.status := by
  induction os generalizing st with
  | nil => rfl
  | cons o os ih =>
    rw [List.foldl_cons, ih]
    · rw [status_insertNamedSymbol]
      have := h [] o os rfl
      simp only [List.foldl_nil] at this
      simp [this]
    · intro P o' S hos
      have := h (o :: P) o' S (by rw [hos]; rfl)
      simpa using this

theorem status_foldl_of_redefinition (keys : List Nat) (os : List (Name × Elf64_Sym × Nat))
    (st : InsertState) (P S : List (Name × Elf64_Sym × Nat)) (o : Name × Elf64_Sym × Nat)
    (hos : os = P ++ o :: S)
    (h : redefinitionAt (P.foldl (insertNamedSymbol keys) st) o = true) :
    (os.foldl (insertNamedSymbol keys) st).status = StatusCode.symbol_redefined := by
  subst hos
  rw [List.foldl_append, List.foldl_cons]
  apply status_foldl_of_redefined
  rw [status_insertNamedSymbol]
  simp [h]

theorem isWeak_eq_false_of_isGlobal (s : Elf64_Sym) (h : isGlobal s = true) : isWeak s = false := by
  unfold isGlobal at h
  unfold isWeak
  simp only [beq_iff_eq] at h
  simp [h, STB_WEAK, STB_GLOBAL]

theorem length_nonWeak_definitionsAmong (ins : List (Nat × ElfInput)) (n : Name) :
    ((definitionsAmong n (insertedSymbols (ins.map Prod.snd) 0)).filter
        (fun x => !isWeak x.1)).length = (nonWeakDefinitions ins n).length := by
  unfold nonWeakDefinitions
  rw [← definitionsAmong_insertedSymbols, List.filter_map, List.length_map]
  rfl

theorem EntryInv_default (keys : List Nat) : EntryInv keys [] default := by
  simp [EntryInv, default]

theorem loadOf_initial (n : Name) :
    loadOf ⟨StatusCode.ok, [], []⟩ n = default := rfl

theorem no_redefinition_of_atMostOne (keys : List Nat) (os : List (Name × Elf64_Sym × Nat))
    (hone : ∀ m, ((definitionsAmong m os).filter (fun x => !isWeak x.1)).length ≤ 1)
    (P S : List (Name × Elf64_Sym × Nat)) (o : Name × Elf64_Sym × Nat) (hos : os = P ++ o :: S) :
    redefinitionAt (P.foldl (insertNamedSymbol keys) ⟨StatusCode.ok, [], []⟩) o = false := by
  rw [← Bool.not_eq_true]
  intro hred
  unfold redefinitionAt at hred
  rw [Bool.and_eq_true, decide_eq_true_eq] at hred
  obtain ⟨hdef, hmatch⟩ := hred
  have hload := loadOf_foldl_insertNamedSymbol keys o.1 P ⟨StatusCode.ok, [], []⟩
  rw [loadOf_initial] at hload
  have hcount := hone o.1
  have hsplit : definitionsAmong o.1 os =
      (definitionsAmong o.1 P ++ [(o.2.1, o.2.2)]) ++ definitionsAmong o.1 S := by
    have ho : isDefinitionOf o.1 o = true := by simp [isDefinitionOf, hdef]
    subst hos
    simp [definitionsAmong, List.filter_append, List.filter_cons, ho]
  have hprefix : ((definitionsAmong o.1 P ++ [(o.2.1, o.2.2)]).filter
      (fun x => !isWeak x.1)).length ≤ 1 := by
    rw [hsplit, List.filter_append, List.length_append] at hcount
    omega
  have hPcount : (([] ++ definitionsAmong o.1 P).filter
      (fun x : Elf64_Sym × Nat => !isWeak x.1)).length ≤ 1 := by
    rw [List.filter_append, List.length_append] at hprefix
    simp only [List.nil_append]
    omega
  have hinv := EntryInv_foldl keys (definitionsAmong o.1 P) [] default (EntryInv_default keys) hPcount
  rw [List.nil_append, ← hload] at hinv
  cases hs : (loadOf (P.foldl (insertNamedSymbol keys) ⟨StatusCode.ok, [], []⟩) o.1).symbol with
  | none => simp [hs] at hmatch
  | some es =>
    rw [hs] at hmatch
    simp only [Bool.and_eq_true] at hmatch
    have hmem : (es, (loadOf (P.foldl (insertNamedSymbol keys) ⟨StatusCode.ok, [], []⟩) o.1).elfID) ∈
        definitionsAmong o.1 P := by
      have := hinv
      simp only [EntryInv, hs] at this
      exact this.1
    have := two_le_length_filter_append (fun x : Elf64_Sym × Nat => !isWeak x.1)
      (definitionsAmong o.1 P) _ (o.2.1, o.2.2) hmem
      (by simp [isWeak_eq_false_of_isGlobal es hmatch.2])
      (by simp [isWeak_eq_false_of_isGlobal o.2.1 hmatch.1])
    omega

theorem insertAll_status_ok (ins : List (Nat × ElfInput))
    (hwf : ∀ p ∈ ins, symtabsWellFormed p.2)
    (hone : ∀ m, (nonWeakDefinitions ins m).length ≤ 1) :
    (insertAll ins).status = StatusCode.ok := by
  have hwf' : ∀ e ∈ ins.map Prod.snd, symtabsWellFormed e := by
    intro e he
    obtain ⟨p, hp, rfl⟩ := List.mem_map.mp he
    exact hwf p hp
  unfold insertAll
  rw [insertSymbolsIntoSymbolTable_eq _ _ _ _ hwf', status_foldl_of_no_redefinition]
  intro P o S hos
  apply no_redefinition_of_atMostOne _ _ _ P S o hos
  intro m
  rw [length_nonWeak_definitionsAmong]
  exact hone m

theorem insertAll_firstLoadSpec (ins : List (Nat × ElfInput)) (n : Name)
    (hwf : ∀ p ∈ ins, symtabsWellFormed p.2)
    (hone : (nonWeakDefinitions ins n).length ≤ 1) :
    FirstLoadSpec (allDefinitions ins n) (firstLoadOf (insertAll ins) (ins.map Prod.fst) n) := by
  have hwf' : ∀ e ∈ ins.map Prod.snd, symtabsWellFormed e := by
    intro e he
    obtain ⟨p, hp, rfl⟩ := List.mem_map.mp he
    exact hwf p hp
  rw [firstLoadOf_eq_observeRef, ← definitionsAmong_insertedSymbols]
  apply FirstLoadSpec_of_EntryInv
  unfold insertAll
  rw [insertSymbolsIntoSymbolTable_eq _ _ _ _ hwf', loadOf_foldl_insertNamedSymbol, loadOf_initial]
  have := EntryInv_foldl (ins.map Prod.fst)
    (definitionsAmong n (insertedSymbols (ins.map Prod.snd) 0)) [] default
    (EntryInv_default _) (by
      rw [List.nil_append, length_nonWeak_definitionsAmong]
      exact hone)
  simpa using this

/-! ## Claim C1 -/

theorem length_nonWeakDefinitions_le (ins : List (Nat × ElfInput)) (m : Name) :
    (nonWeakDefinitions ins m).length ≤
      (ins.flatMap (fun p => (globalSymbolsOf p.2).filter
        (fun q => q.2.st_shndx ≠ SHN_UNDEF ∧ isWeak q.2 = false))).length := by
  unfold nonWeakDefinitions allDefinitions
  induction ins with
  | nil => simp
  | cons p ins ih =>
    rw [List.flatMap_cons, List.flatMap_cons, List.filter_append, List.length_append,
      List.length_append]
    apply Nat.add_le_add _ ih
    unfold definitionsOf
    generalize globalSymbolsOf p.2 = gs
    induction gs with
    | nil => simp
    | cons q gs ihg =>
      by_cases h1 : q.1 = m ∧ q.2.st_shndx ≠ SHN_UNDEF
      · by_cases h2 : isWeak q.2 = true
        · simpa [List.filter_cons, h1, h2] using ihg
        · have h2' : isWeak q.2 = false := by simpa using h2
          simpa [List.filter_cons, h1, h2'] using ihg
      · have hd : decide (q.1 = m ∧ q.2.st_shndx ≠ SHN_UNDEF) = false := by simpa using h1
        rw [List.filter_cons, hd]
        simp only [Bool.false_eq_true, if_false]
        refine le_trans ihg ?_
        rw [List.filter_cons]
        split_ifs
        · simp
        · exact le_refl _


/-- C1 as amended.  For a collection of inputs with pairwise distinct sort keys, whose
symbol tables have the standard entry size, and a name `n` with at most one non-weak
definition in it: `insertSymbolsIntoSymbolTable` returns `ok` in every insertion order when
every name has at most one non-weak definition; whatever the status, `firstLoad` of `n`,
as a symbol with the sort key of its input, is the same in every insertion order; it is
the non-weak definition if there is one, and otherwise a weak definition from the input
with the smallest sort key among those that define `n`. -/
theorem insertSymbols_firstLoad_order_independent
    (ins ins' : List (Nat × ElfInput)) (n : Name)
    (hperm : ins.Perm ins')
    (hkeys : (ins.map Prod.fst).Nodup)
    (hwf : ∀ p ∈ ins, symtabsWellFormed p.2)
    (hone : (nonWeakDefinitions ins n).length ≤ 1) :
    ((∀ m, (nonWeakDefinitions ins m).length ≤ 1) →
        (insertAll ins).status = StatusCode.ok ∧ (insertAll ins').status = StatusCode.ok) ∧
    firstLoadOf (insertAll ins') (ins'.map Prod.fst) n =
      firstLoadOf (insertAll ins) (ins.map Prod.fst) n ∧
    (∀ d, nonWeakDefinitions ins n = [d] →
        firstLoadOf (insertAll ins) (ins.map Prod.fst) n = some d) ∧
    (nonWeakDefinitions ins n = [] → allDefinitions ins n ≠ [] →
        ∃ d, firstLoadOf (insertAll ins) (ins.map Prod.fst) n = some d ∧
          d ∈ allDefinitions ins n ∧ isWeak d.2 = true ∧
          ∀ x ∈ allDefinitions ins n, d.1 ≤ x.1) ∧
    (allDefinitions ins n = [] → firstLoadOf (insertAll ins) (ins.map Prod.fst) n = none) := by
  have hwf' : ∀ p ∈ ins', symtabsWellFormed p.2 := fun p hp => hwf p (hperm.mem_iff.mpr hp)
  have hall : (allDefinitions ins n).Perm (allDefinitions ins' n) :=
    List.Perm.flatMap_right _ hperm
  have hnw : ∀ m, (nonWeakDefinitions ins' m).length = (nonWeakDefinitions ins m).length := by
    intro m
    exact ((List.Perm.flatMap_right _ hperm).filter _).length_eq.symm
  have hspec := insertAll_firstLoadSpec ins n hwf hone
  have hspec' := insertAll_firstLoadSpec ins' n hwf' (by rw [hnw]; exact hone)
  refine ⟨?_, ?_, ?_, ?_, ?_⟩
  · intro hevery
    exact ⟨insertAll_status_ok ins hwf hevery,
      insertAll_status_ok ins' hwf' (fun m => by rw [hnw]; exact hevery m)⟩
  · exact (FirstLoadSpec_unique _ _ _ _ hspec hspec' hall
      (filter_key_allDefinitions_perm ins ins' n hperm hkeys)).symm
  · intro d hd
    have hdmem : d ∈ nonWeakDefinitions ins n := by rw [hd]; simp
    obtain ⟨hdA, hdw⟩ := List.mem_filter.mp hdmem
    cases hr : firstLoadOf (insertAll ins) (ins.map Prod.fst) n with
    | none =>
      rw [hr] at hspec
      have hnil : allDefinitions ins n = [] := hspec
      rw [hnil] at hdA
      exact absurd hdA (List.not_mem_nil _)
    | some d0 =>
      rw [hr] at hspec
      rw [hspec.2.1 d hdA (by simpa using hdw)]
  · intro hnone hne
    cases hr : firstLoadOf (insertAll ins) (ins.map Prod.fst) n with
    | none =>
      rw [hr] at hspec
      exact absurd hspec hne
    | some d0 =>
      rw [hr] at hspec
      have hweak : isWeak d0.2 = true := by
        by_contra hcon
        have : d0 ∈ nonWeakDefinitions ins n :=
          List.mem_filter.mpr ⟨hspec.1, by simpa using hcon⟩
        rw [hnone] at this
        exact absurd this (List.not_mem_nil _)
      exact ⟨d0, rfl, hspec.1, hweak, hspec.2.2.1 hweak⟩
  · intro hnil
    cases hr : firstLoadOf (insertAll ins) (ins.map Prod.fst) n with
    | none => rfl
    | some d0 =>
      rw [hr] at hspec
      have := hspec.1
      rw [hnil] at this
      exact absurd this (List.not_mem_nil _)

/-- Two weak definitions of `a` and a global one, inserted in two orders: the run returns
`ok` and `firstLoad` is the global definition both times. -/
theorem insertSymbols_firstLoad_order_independent_witness :
    ((insertAll [(5, objWeakA), (3, objGlobalA), (1, objWeakARefB)]).status = StatusCode.ok ∧
      (insertAll [(3, objGlobalA), (5, objWeakA), (1, objWeakARefB)]).status = StatusCode.ok) ∧
    firstLoadOf (insertAll [(3, objGlobalA), (5, objWeakA), (1, objWeakARefB)]) [3, 5, 1] [97] =
      firstLoadOf (insertAll [(5, objWeakA), (3, objGlobalA), (1, objWeakARefB)]) [5, 3, 1] [97] ∧
    firstLoadOf (insertAll [(5, objWeakA), (3, objGlobalA), (1, objWeakARefB)]) [5, 3, 1] [97] =
      some (3, mkSym 1 STB_GLOBAL 1 22) := by
  have h := insertSymbols_firstLoad_order_independent
    [(5, objWeakA), (3, objGlobalA), (1, objWeakARefB)]
    [(3, objGlobalA), (5, objWeakA), (1, objWeakARefB)] [97]
    (List.Perm.swap _ _ _) (by decide) (by decide) (by decide)
  refine ⟨h.1 ?_, h.2.1, h.2.2.1 _ (by decide)⟩
  intro m
  exact le_trans (length_nonWeakDefinitions_le _ m) (by decide)

/-- C1 fails on the code.  The inputs have pairwise distinct sort keys and hold one
definition of the name `b`, a global one; the two global definitions of the name `a`
make the run return `symbol_redefined`.  The `firstLoad` of `b` is its definition. -/
theorem insertSymbols_redefined_for_another_name :
    ([3, 5, 7] : List Nat).Nodup ∧
    (∀ p ∈ [(3, objGlobalA), (5, objGlobalA2), (7, objGlobalB)], symtabsWellFormed p.2) ∧
    nonWeakDefinitions [(3, objGlobalA), (5, objGlobalA2), (7, objGlobalB)] (bytesOf "b") =
      [(7, mkSym 3 STB_GLOBAL 1 66)] ∧
    (insertAll [(3, objGlobalA), (5, objGlobalA2), (7, objGlobalB)]).status =
      StatusCode.symbol_redefined ∧
    firstLoadOf (insertAll [(3, objGlobalA), (5, objGlobalA2), (7, objGlobalB)]) [3, 5, 7]
      (bytesOf "b") = some (7, mkSym 3 STB_GLOBAL 1 66) := by
  decide

/-! ## Claim C2 -/

theorem loadStep_cases (keys : List Nat) (entry : SymbolRef) (d : Elf64_Sym × Nat) :
    loadStep keys entry d = entry ∨ loadStep keys entry d = ⟨some d.1, d.2⟩ := by
  unfold loadStep
  cases hs : entry.symbol with
  | none => right; simp [replaceIfAppropriate_none keys entry d.1 d.2 hs]
  | some es =>
    simp only
    split_ifs
    · left; rfl
    · rw [replaceIfAppropriate_some keys entry es d.1 d.2 hs]
      split_ifs
      · right; rfl
      · right; rfl
      · left; rfl

theorem loadStep_keeps_global (keys : List Nat) (entry : SymbolRef) (d : Elf64_Sym × Nat)
    (es : Elf64_Sym) (hs : entry.symbol = some es) (hg : isGlobal es = true)
    (hd : isGlobalOrWeak d.1 = true) : loadStep keys entry d = entry := by
  unfold loadStep
  rw [hs]
  simp only
  have hwe : isWeak es = false := isWeak_eq_false_of_isGlobal es hg
  cases hgd : isGlobal d.1 with
  | true => simp [hg]
  | false =>
    have hwd : isWeak d.1 = true := by simpa [isGlobalOrWeak, hgd] using hd
    rw [replaceIfAppropriate_some keys entry es d.1 d.2 hs]
    simp [hwe, hwd]

theorem loadStep_of_global (keys : List Nat) (entry : SymbolRef) (d : Elf64_Sym × Nat)
    (hgd : isGlobal d.1 = true)
    (he : ∀ es, entry.symbol = some es → isWeak es = true) :
    loadStep keys entry d = ⟨some d.1, d.2⟩ := by
  unfold loadStep
  have hwd : isWeak d.1 = false := isWeak_eq_false_of_isGlobal d.1 hgd
  cases hs : entry.symbol with
  | none => simp [replaceIfAppropriate_none keys entry d.1 d.2 hs]
  | some es =>
    have hwe := he es hs
    have hge := isGlobal_eq_false_of_isWeak es hwe
    simp only [hge, Bool.and_false, Bool.false_eq_true, if_false]
    rw [replaceIfAppropriate_some keys entry es d.1 d.2 hs]
    simp [hwe, hwd]

theorem GlobalInv_step (keys : List Nat) (P : List (Name × Elf64_Sym × Nat)) (st : InsertState)
    (o : Name × Elf64_Sym × Nat) (hinv : GlobalInv P st) (ho : isGlobalOrWeak o.2.1 = true) :
    GlobalInv (P ++ [o]) (insertNamedSymbol keys st o) := by
  intro hok n
  rw [status_insertNamedSymbol] at hok
  have hred : redefinitionAt st o = false := by
    cases h : redefinitionAt st o with
    | false => rfl
    | true => simp [h] at hok
  have hst : st.status = StatusCode.ok := by simpa [hred] using hok
  obtain ⟨hcount, hgw, hglob⟩ := hinv hst n
  rw [loadOf_insertNamedSymbol, definitionsAmong_append]
  cases hdef : isDefinitionOf n o with
  | false =>
    have hnil : definitionsAmong n [o] = [] := by simp [definitionsAmong, hdef]
    simp only [hnil, List.append_nil, Bool.false_eq_true, if_false]
    exact ⟨hcount, hgw, hglob⟩
  | true =>
    have hone : definitionsAmong n [o] = [(o.2.1, o.2.2)] := by simp [definitionsAmong, hdef]
    have hname : o.1 = n := by
      simp only [isDefinitionOf, Bool.and_eq_true, decide_eq_true_eq] at hdef
      exact hdef.1
    have hshndx : o.2.1.st_shndx ≠ SHN_UNDEF := by
      simp only [isDefinitionOf, Bool.and_eq_true, decide_eq_true_eq] at hdef
      exact hdef.2
    simp only [hone, if_true, List.filter_append]
    cases hw : isWeak o.2.1 with
    | true =>
      have hf : List.filter (fun x : Elf64_Sym × Nat => !isWeak x.1) [(o.2.1, o.2.2)] = [] := by
        simp [hw]
      rw [hf, List.append_nil]
      refine ⟨hcount, ?_, ?_⟩
      · intro es hes
        rcases loadStep_cases keys (loadOf st n) (o.2.1, o.2.2) with h | h
        · rw [h] at hes; exact hgw es hes
        · rw [h] at hes
          simp only [Option.some.injEq] at hes
          rw [← hes]; exact ho
      · intro h1
        obtain ⟨es, hes, hg⟩ := hglob h1
        rw [loadStep_keeps_global keys (loadOf st n) (o.2.1, o.2.2) es hes hg ho]
        exact ⟨es, hes, hg⟩
    | false =>
      have hgo : isGlobal o.2.1 = true := by simpa [isGlobalOrWeak, hw] using ho
      have hf : List.filter (fun x : Elf64_Sym × Nat => !isWeak x.1) [(o.2.1, o.2.2)] =
          [(o.2.1, o.2.2)] := by simp [hw]
      have hweak : ∀ es, (loadOf st n).symbol = some es → isWeak es = true := by
        intro es hes
        cases hge : isGlobal es with
        | true =>
          exfalso
          have : redefinitionAt st o = true := by
            simp [redefinitionAt, hshndx, hname, hes, hgo, hge]
          rw [this] at hred
          exact absurd hred (by simp)
        | false => simpa [isGlobalOrWeak, hge] using hgw es hes
      have hzero : ((definitionsAmong n P).filter (fun x => !isWeak x.1)).length = 0 := by
        by_contra hne
        have h1 : ((definitionsAmong n P).filter (fun x => !isWeak x.1)).length = 1 := by omega
        obtain ⟨es, hes, hg⟩ := hglob h1
        have := hweak es hes
        rw [isWeak_eq_false_of_isGlobal es hg] at this
        exact absurd this (by simp)
      rw [hf, List.length_append, hzero, loadStep_of_global keys (loadOf st n) (o.2.1, o.2.2) hgo hweak]
      refine ⟨by simp, ?_, ?_⟩
      · intro es hes
        simp only [Option.some.injEq] at hes
        rw [← hes]; exact ho
      · intro _
        exact ⟨o.2.1, rfl, hgo⟩

theorem GlobalInv_foldl (keys : List Nat) (S P : List (Name × Elf64_Sym × Nat)) (st : InsertState)
    (hinv : GlobalInv P st) (hS : ∀ o ∈ S, isGlobalOrWeak o.2.1 = true) :
    GlobalInv (P ++ S) (S.foldl (insertNamedSymbol keys) st) := by
  induction S generalizing P st with
  | nil => simpa using hinv
  | cons o S ih =>
    have hPS : P ++ o :: S = (P ++ [o]) ++ S := by simp
    rw [hPS, List.foldl_cons]
    apply ih
    · exact GlobalInv_step keys P st o hinv (hS o (List.mem_cons_self _ _))
    · exact fun x hx => hS x (List.mem_cons_of_mem _ hx)

theorem definitionsAmong_viewsFrom_fst (n : Name) (startID : Nat) (inputs : List ElfInput)
    (i : Nat) :
    (definitionsAmong n ((viewsFrom startID i inputs).flatMap insertedOfView)).map Prod.fst =
      inputs.flatMap (fun e => definitionsOf e n) := by
  induction inputs generalizing i with
  | nil => simp [viewsFrom, definitionsAmong]
  | cons e es ih =>
    simp only [viewsFrom, List.flatMap_append, definitionsAmong_append, List.map_append,
      List.flatMap_cons]
    rw [ih, flatMap_insertedOfView_symtabViewsOf, definitionsAmong_globalSymbolsOf,
      List.map_map]
    congr 1
    exact List.map_id _

theorem mem_insertedSymbols_globalOrWeak (startID : Nat) (inputs : List ElfInput) (i : Nat)
    (h : ∀ e ∈ inputs, ∀ q ∈ globalSymbolsOf e, isGlobalOrWeak q.2 = true) :
    ∀ o ∈ (viewsFrom startID i inputs).flatMap insertedOfView, isGlobalOrWeak o.2.1 = true := by
  induction inputs generalizing i with
  | nil => simp [viewsFrom]
  | cons e es ih =>
    intro o ho
    simp only [viewsFrom, List.flatMap_append, List.mem_append] at ho
    rcases ho with ho | ho
    · rw [flatMap_insertedOfView_symtabViewsOf] at ho
      obtain ⟨q, hq, rfl⟩ := List.mem_map.mp ho
      exact h e (List.mem_cons_self _ _) q hq
    · exact ih (i + 1) (fun e' he' => h e' (List.mem_cons_of_mem _ he')) o ho

/-- The redefinition test for symbols of the bindings `STB_GLOBAL` and `STB_WEAK`.  Part one: when the second pass of `insertSymbolsIntoSymbolTable` meets a
`STB_GLOBAL` definition `o` of a name whose `firstLoad` holds, at that moment, a
`STB_GLOBAL` symbol, the function returns `symbol_redefined`.  Part two: when all non-local
symbols of the inputs (and the symbols already in the table) have the binding `STB_GLOBAL`
or `STB_WEAK` and the function returns `ok`, no name has two non-weak definitions among
the inserted inputs. -/
theorem insertSymbols_redefinition (inputs : List ElfInput) (keys : List Nat) (startID : Nat)
    (t : SymbolTable) (hwf : ∀ e ∈ inputs, symtabsWellFormed e) :
    (∀ P o S, insertedSymbols inputs startID = P ++ o :: S →
      o.2.1.st_shndx ≠ SHN_UNDEF → isGlobal o.2.1 = true →
      (∃ es, (loadOf (P.foldl (insertNamedSymbol keys) ⟨StatusCode.ok, t, []⟩) o.1).symbol = some es ∧
        isGlobal es = true) →
      (insertSymbolsIntoSymbolTable inputs keys startID t).status = StatusCode.symbol_redefined) ∧
    ((∀ e ∈ inputs, ∀ q ∈ globalSymbolsOf e, isGlobalOrWeak q.2 = true) →
      (∀ n es, (SymbolTable.get t n).firstLoad.symbol = some es → isGlobalOrWeak es = true) →
      (insertSymbolsIntoSymbolTable inputs keys startID t).status = StatusCode.ok →
      ∀ n, (inputs.flatMap (fun e => (definitionsOf e n).filter (fun s => !isWeak s))).length ≤ 1) := by
  rw [insertSymbolsIntoSymbolTable_eq inputs keys startID t hwf]
  constructor
  · intro P o S hos hdef hgo ⟨es, hes, hge⟩
    apply status_foldl_of_redefinition keys _ _ P S o hos
    simp [redefinitionAt, hdef, hes, hgo, hge]
  · intro hgw ht hok n
    have hinit : GlobalInv [] ⟨StatusCode.ok, t, []⟩ := by
      intro _ m
      refine ⟨by simp [definitionsAmong], ?_, by simp [definitionsAmong]⟩
      intro es hes
      exact ht m es hes
    have hfin := GlobalInv_foldl keys (insertedSymbols inputs startID) [] _ hinit
      (mem_insertedSymbols_globalOrWeak startID inputs 0 hgw)
    have hcount := (hfin hok n).1
    rw [List.nil_append] at hcount
    have hmap : (inputs.flatMap (fun e => (definitionsOf e n).filter (fun s => !isWeak s))) =
        ((definitionsAmong n (insertedSymbols inputs startID)).filter
          (fun x => !isWeak x.1)).map Prod.fst := by
      rw [← List.filter_flatMap, ← definitionsAmong_viewsFrom_fst n startID inputs 0,
        List.filter_map]
      rfl
    rw [hmap, List.length_map]
    exact hcount

/-- Two objects that define `a`, one weak and one global: the run returns `ok`, and `a`
has one non-weak definition. -/
theorem insertSymbols_redefinition_witness :
    ([objWeakA, objGlobalA].flatMap
      (fun e => (definitionsOf e [97]).filter (fun s => !isWeak s))).length ≤ 1 :=
  (insertSymbols_redefinition [objWeakA, objGlobalA] [5, 3] 0 [] (by decide)).2
    (by decide) (by intro n es h; simp [SymbolTable.get, SymbolTable.find, default] at h)
    (by decide) [97]

/-- C2 fails on the code: with a `STB_GLOBAL` definition of `a` (sort key 2), a
`STB_GNU_UNIQUE` one (sort key 1) and a second `STB_GLOBAL` one (sort key 3), the run
returns `ok` although `a` has three non-weak definitions, two of them `STB_GLOBAL`. -/
theorem insertSymbols_ok_with_two_global_definitions :
    (insertAll [(2, objGlobalA), (1, objUniqueA), (3, objGlobalA2)]).status = StatusCode.ok ∧
    (nonWeakDefinitions [(2, objGlobalA), (1, objUniqueA), (3, objGlobalA2)] [97]).length = 3 ∧
    ((allDefinitions [(2, objGlobalA), (1, objUniqueA), (3, objGlobalA2)] [97]).filter
      (fun d => isGlobal d.2)).length = 2 := by
  decide

/-! ## Claims C5 and C6: `determineArchiveMembersToExtract` -/

theorem find?_congr_of_mem {α : Type} (p q : α → Bool) (l : List α)
    (h : ∀ x ∈ l, p x = q x) : l.find? p = l.find? q := by
  induction l with
  | nil => rfl
  | cons a l ih =>
    have ha := h a (List.mem_cons_self _ _)
    have hl := ih (fun x hx => h x (List.mem_cons_of_mem _ hx))
    simp only [List.find?_cons, ha, hl]

theorem SymbolTable.get_of_find (t : SymbolTable) (n : Name) (e : GlobalSymbolTableEntry)
    (h : SymbolTable.find t n = some e) : SymbolTable.get t n = e := by
  simp [SymbolTable.get, h]

theorem determineLoop_eq (symbolTable : SymbolTable) (archiveSymbolTable : ArchiveSymbolTable)
    (elfSortKeys archiveMemberSortKeys : List Nat) (names : List Name) (ids : List Nat)
    (hnames : ∀ n ∈ names, SymbolTable.find symbolTable n ≠ none)
    (hids : ∀ n ∈ names, ∀ m ∈ membersOf archiveSymbolTable n, m < 2 ^ 32) :
    determineLoop symbolTable archiveSymbolTable elfSortKeys archiveMemberSortKeys names ids =
      some
        (if names.any (archiveConflict symbolTable archiveSymbolTable elfSortKeys
            archiveMemberSortKeys) = true
          then StatusCode.symbol_redefined else StatusCode.ok,
        ids ++ (names.takeWhile (fun n => !archiveConflict symbolTable archiveSymbolTable
            elfSortKeys archiveMemberSortKeys n)).flatMap
          (scheduledFor symbolTable archiveSymbolTable elfSortKeys archiveMemberSortKeys)) := by
  induction names generalizing ids with
  | nil => simp [determineLoop]
  | cons symName rest ih =>
    have hrest := fun ids' => ih ids' (fun n hn => hnames n (List.mem_cons_of_mem _ hn))
      (fun n hn => hids n (List.mem_cons_of_mem _ hn))
    have hfind := hnames symName (List.mem_cons_self _ _)
    have hm := hids symName (List.mem_cons_self _ _)
    cases hf : SymbolTable.find symbolTable symName with
    | none => exact absurd hf hfind
    | some elfRef =>
      have hget := SymbolTable.get_of_find _ _ _ hf
      simp only [determineLoop, hf]
      cases ha : ArchiveSymbolTable.find archiveSymbolTable symName with
      | none =>
        have hmem : membersOf archiveSymbolTable symName = [] := by simp [membersOf, ha]
        have hc : archiveConflict symbolTable archiveSymbolTable elfSortKeys
            archiveMemberSortKeys symName = false := by simp [archiveConflict, hmem]
        have hs : scheduledFor symbolTable archiveSymbolTable elfSortKeys
            archiveMemberSortKeys symName = [] := by simp [scheduledFor, hmem]
        simp only [hrest, List.any_cons, hc, Bool.false_or, List.takeWhile_cons, Bool.not_false,
          if_true, List.flatMap_cons, hs, List.nil_append]
      | some archMemIDs =>
        have hmem : membersOf archiveSymbolTable symName = archMemIDs := by simp [membersOf, ha]
        simp only
        by_cases he : archMemIDs.isEmpty = true
        · have hc : archiveConflict symbolTable archiveSymbolTable elfSortKeys
              archiveMemberSortKeys symName = false := by simp [archiveConflict, hmem, he]
          have hs : scheduledFor symbolTable archiveSymbolTable elfSortKeys
              archiveMemberSortKeys symName = [] := by simp [scheduledFor, hmem, he]
          simp only [he, if_true, hrest, List.any_cons, hc, Bool.false_or, List.takeWhile_cons,
            Bool.not_false, List.flatMap_cons, hs, List.nil_append]
        · have hsel : loadFromSearch archiveMemberSortKeys archMemIDs
              (elfSortKeys.getD elfRef.firstSearch.elfID 0) =
              selectedMember symbolTable archiveSymbolTable elfSortKeys archiveMemberSortKeys
                symName := by
            unfold loadFromSearch selectedMember
            simp only [hmem, hget]
            rw [find?_congr_of_mem _
              (fun m => decide (elfSortKeys.getD elfRef.firstSearch.elfID 0 <
                archiveMemberSortKeys.getD m 0)) archMemIDs]
            intro x hx
            rw [hmem] at hm
            rw [Nat.mod_eq_of_lt (hm x hx)]
          simp only [he, Bool.false_eq_true, if_false, hsel]
          cases hl : elfRef.firstLoad.symbol with
          | none =>
            have hc : archiveConflict symbolTable archiveSymbolTable elfSortKeys
                archiveMemberSortKeys symName = false := by simp [archiveConflict, hget, hl]
            have hs : scheduledFor symbolTable archiveSymbolTable elfSortKeys
                archiveMemberSortKeys symName =
                [selectedMember symbolTable archiveSymbolTable elfSortKeys archiveMemberSortKeys
                  symName] := by simp [scheduledFor, hmem, he, hget, hl]
            simp only [hrest, List.any_cons, hc, Bool.false_or, List.takeWhile_cons,
              Bool.not_false, if_true, List.flatMap_cons, hs, List.append_assoc]
          | some es =>
            have hs : scheduledFor symbolTable archiveSymbolTable elfSortKeys
                archiveMemberSortKeys symName = [] := by simp [scheduledFor, hget, hl]
            by_cases hcond : elfSortKeys.getD elfRef.firstSearch.elfID 0 <
                  archiveMemberSortKeys.getD (selectedMember symbolTable archiveSymbolTable
                    elfSortKeys archiveMemberSortKeys symName) 0 ∧
                archiveMemberSortKeys.getD (selectedMember symbolTable archiveSymbolTable
                    elfSortKeys archiveMemberSortKeys symName) 0 <
                  elfSortKeys.getD elfRef.firstLoad.elfID 0
            · have hc : archiveConflict symbolTable archiveSymbolTable elfSortKeys
                  archiveMemberSortKeys symName = true := by
                simp [-List.getD_eq_getElem?_getD, archiveConflict, hget, hl, hmem, he, hcond.1,
                  hcond.2]
              simp only [hcond, and_self, if_true, List.any_cons, hc, Bool.true_or,
                List.takeWhile_cons, Bool.not_true, Bool.false_eq_true, if_false,
                List.flatMap_nil, List.append_nil]
            · have hc : archiveConflict symbolTable archiveSymbolTable elfSortKeys
                  archiveMemberSortKeys symName = false := by
                rw [← Bool.not_eq_true]
                intro hcon
                apply hcond
                simp only [archiveConflict, hget, Bool.and_eq_true, decide_eq_true_eq] at hcon
                exact ⟨hcon.1.2, hcon.2⟩
              simp only [hcond, if_false, hrest, List.any_cons, hc, Bool.false_or,
                List.takeWhile_cons, Bool.not_false, if_true, List.flatMap_cons, hs,
                List.nil_append]

theorem searched_in_table_step (keys : List Nat) (st : InsertState) (o : Name × Elf64_Sym × Nat)
    (h : ∀ n ∈ st.searchedSymbolNames, SymbolTable.find st.symbolTable n ≠ none) :
    ∀ n ∈ (insertNamedSymbol keys st o).searchedSymbolNames,
      SymbolTable.find (insertNamedSymbol keys st o).symbolTable n ≠ none := by
  obtain ⟨name, sym, id⟩ := o
  have hkeep : ∀ (f : GlobalSymbolTableEntry → GlobalSymbolTableEntry) (n : Name),
      SymbolTable.find st.symbolTable n ≠ none →
      SymbolTable.find (SymbolTable.modify st.symbolTable name f) n ≠ none := by
    intro f n hn
    rw [SymbolTable.find_modify]
    split_ifs
    · simp
    · exact hn
  unfold insertNamedSymbol
  by_cases hu : sym.st_shndx = SHN_UNDEF
  · simp only [hu, if_true]
    intro n hn
    rcases List.mem_append.mp hn with hn | hn
    · exact hkeep _ n (h n hn)
    · have : n = name := by simpa using hn
      subst this
      rw [SymbolTable.find_modify]
      simp
  · simp only [hu, if_false]
    cases hs : (SymbolTable.get st.symbolTable name).firstLoad.symbol with
    | none => exact fun n hn => hkeep _ n (h n hn)
    | some es =>
      simp only
      split_ifs
      · exact fun n hn => hkeep _ n (h n hn)
      · exact fun n hn => hkeep _ n (h n hn)

theorem searched_in_table_foldl (keys : List Nat) (os : List (Name × Elf64_Sym × Nat))
    (st : InsertState)
    (h : ∀ n ∈ st.searchedSymbolNames, SymbolTable.find st.symbolTable n ≠ none) :
    ∀ n ∈ (os.foldl (insertNamedSymbol keys) st).searchedSymbolNames,
      SymbolTable.find (os.foldl (insertNamedSymbol keys) st).symbolTable n ≠ none := by
  induction os generalizing st with
  | nil => exact h
  | cons o os ih => exact ih _ (searched_in_table_step keys st o h)

/-- Every name that `insertSymbolsIntoSymbolTable` reports as searched has an entry in the
symbol table it returns, so `symbolTable.at` does not throw on it. -/
theorem insertSymbols_searched_in_table (inputs : List ElfInput) (keys : List Nat)
    (startID : Nat) (t : SymbolTable) :
    ∀ n ∈ (insertSymbolsIntoSymbolTable inputs keys startID t).searchedSymbolNames,
      SymbolTable.find (insertSymbolsIntoSymbolTable inputs keys startID t).symbolTable n ≠
        none := by
  unfold insertSymbolsIntoSymbolTable
  dsimp only
  split_ifs
  · simp
  · rw [foldl_insertSymtab_eq]
    apply searched_in_table_foldl
    simp

/-- C5. For searched names that are in the symbol table (as the names returned by
`insertSymbolsIntoSymbolTable` are) and member ids below `2^32`,
`determineArchiveMembersToExtract` returns, its status is `symbol_redefined` if and only if
some searched name has a `firstLoad`, has an archive member, and the sort key of the member
selected for it lies strictly between those of the inputs of `firstSearch` and `firstLoad`,
and it is `ok` otherwise.  In the archive test, the order `a.o b.a c.o` gives
`symbol_redefined` and the order `a.o c.o b.a` gives `ok`. -/
theorem determineArchiveMembers_redefined_iff :
    (∀ (symbolTable : SymbolTable) (archiveSymbolTable : ArchiveSymbolTable)
      (elfSortKeys archiveMemberSortKeys : List Nat) (searchedSymbolNames : List Name),
      (∀ n ∈ searchedSymbolNames, SymbolTable.find symbolTable n ≠ none) →
      (∀ n ∈ searchedSymbolNames, ∀ m ∈ membersOf archiveSymbolTable n, m < 2 ^ 32) →
      ∃ status ids,
        determineArchiveMembersToExtract symbolTable archiveSymbolTable elfSortKeys
          archiveMemberSortKeys searchedSymbolNames = some (status, ids) ∧
        (status = StatusCode.symbol_redefined ↔
          ∃ n ∈ searchedSymbolNames, archiveConflict symbolTable archiveSymbolTable elfSortKeys
            archiveMemberSortKeys n = true) ∧
        (status = StatusCode.ok ↔
          ¬ ∃ n ∈ searchedSymbolNames, archiveConflict symbolTable archiveSymbolTable elfSortKeys
            archiveMemberSortKeys n = true)) ∧
    archiveTest 1 2 = some (StatusCode.symbol_redefined, []) ∧
    archiveTest 2 1 = some (StatusCode.ok, []) := by
  refine ⟨?_, by decide, by decide⟩
  intro symbolTable archiveSymbolTable elfSortKeys archiveMemberSortKeys names hnames hids
  refine ⟨_, _, determineLoop_eq symbolTable archiveSymbolTable elfSortKeys
    archiveMemberSortKeys names [] hnames hids, ?_, ?_⟩
  · by_cases h : names.any (archiveConflict symbolTable archiveSymbolTable elfSortKeys
        archiveMemberSortKeys) = true
    · simp only [h, if_true, true_iff]
      simpa using h
    · simp only [h, if_false]
      constructor
      · intro hc; exact absurd hc (by decide)
      · intro hex; exact absurd (by simpa using hex) h
  · by_cases h : names.any (archiveConflict symbolTable archiveSymbolTable elfSortKeys
        archiveMemberSortKeys) = true
    · simp only [h, if_true]
      constructor
      · intro hc; exact absurd hc (by decide)
      · intro hex; exact absurd (by simpa using h) hex
    · simp only [h, Bool.false_eq_true, if_false, true_iff]
      intro hex
      exact h (by simpa using hex)

/-- The archive test in the order `a.o b.a c.o`: the call returns, and with
`symbol_redefined`, as `exit` is in conflict. -/
theorem determineArchiveMembers_redefined_iff_witness :
    ∃ status ids, archiveTest 1 2 = some (status, ids) ∧
      (status = StatusCode.symbol_redefined ↔
        ∃ n ∈ (archiveTestState 2).searchedSymbolNames,
          archiveConflict (archiveTestState 2).symbolTable archiveB
            [makeSortKey 0 0, makeSortKey 2 0] [makeSortKey 1 82] n = true) ∧
      (status = StatusCode.ok ↔
        ¬ ∃ n ∈ (archiveTestState 2).searchedSymbolNames,
          archiveConflict (archiveTestState 2).symbolTable archiveB
            [makeSortKey 0 0, makeSortKey 2 0] [makeSortKey 1 82] n = true) :=
  determineArchiveMembers_redefined_iff.1 (archiveTestState 2).symbolTable archiveB
    [makeSortKey 0 0, makeSortKey 2 0] [makeSortKey 1 82]
    (archiveTestState 2).searchedSymbolNames
    (insertSymbols_searched_in_table _ _ _ _) (by decide)

/-- C6 as amended.  For searched names that are in the symbol table and member ids below
`2^32`, `determineArchiveMembersToExtract` returns; its status is `ok` exactly when no
searched name is in conflict with an archive member, and then the members it has scheduled
are, for each occurrence of a name in `searchedSymbolNames` in turn, one member if the name
has no `firstLoad` and has an archive member, and no member otherwise; when the status is
not `ok` this holds of the occurrences before the first name in conflict, and nothing is
scheduled from that name on.  The one member is the first of the name's members whose sort
key is strictly greater than the sort key of the input of `firstSearch`, and the first
member of the list when there is none. -/
theorem determineArchiveMembers_schedule (symbolTable : SymbolTable)
    (archiveSymbolTable : ArchiveSymbolTable) (elfSortKeys archiveMemberSortKeys : List Nat)
    (searchedSymbolNames : List Name)
    (hnames : ∀ n ∈ searchedSymbolNames, SymbolTable.find symbolTable n ≠ none)
    (hids : ∀ n ∈ searchedSymbolNames, ∀ m ∈ membersOf archiveSymbolTable n, m < 2 ^ 32) :
    (∃ status ids,
      determineArchiveMembersToExtract symbolTable archiveSymbolTable elfSortKeys
        archiveMemberSortKeys searchedSymbolNames = some (status, ids) ∧
      (status = StatusCode.ok ↔
        ∀ n ∈ searchedSymbolNames, archiveConflict symbolTable archiveSymbolTable elfSortKeys
          archiveMemberSortKeys n = false) ∧
      (status = StatusCode.ok →
        ids = searchedSymbolNames.flatMap
          (scheduledFor symbolTable archiveSymbolTable elfSortKeys archiveMemberSortKeys)) ∧
      ids = (searchedSymbolNames.takeWhile (fun n => !archiveConflict symbolTable
          archiveSymbolTable elfSortKeys archiveMemberSortKeys n)).flatMap
        (scheduledFor symbolTable archiveSymbolTable elfSortKeys archiveMemberSortKeys)) ∧
    (∀ n m ms, (SymbolTable.get symbolTable n).firstLoad.symbol = none →
      membersOf archiveSymbolTable n = m :: ms →
      scheduledFor symbolTable archiveSymbolTable elfSortKeys archiveMemberSortKeys n =
        [((m :: ms).find? (fun x =>
          decide (elfSortKeys.getD (SymbolTable.get symbolTable n).firstSearch.elfID 0 <
            archiveMemberSortKeys.getD x 0))).getD m]) ∧
    (∀ n, ((SymbolTable.get symbolTable n).firstLoad.symbol ≠ none ∨
        membersOf archiveSymbolTable n = []) →
      scheduledFor symbolTable archiveSymbolTable elfSortKeys archiveMemberSortKeys n = []) := by
  have hany : searchedSymbolNames.any (archiveConflict symbolTable archiveSymbolTable
        elfSortKeys archiveMemberSortKeys) = true ↔
      ¬ ∀ n ∈ searchedSymbolNames, archiveConflict symbolTable archiveSymbolTable elfSortKeys
          archiveMemberSortKeys n = false := by
    rw [List.any_eq_true]
    constructor
    · rintro ⟨n, hn, hc⟩ hall
      rw [hall n hn] at hc
      exact absurd hc (by decide)
    · intro hnot
      by_contra hex
      apply hnot
      intro n hn
      rw [← Bool.not_eq_true]
      intro hc
      exact hex ⟨n, hn, hc⟩
  have htake : (∀ n ∈ searchedSymbolNames, archiveConflict symbolTable archiveSymbolTable
        elfSortKeys archiveMemberSortKeys n = false) →
      searchedSymbolNames.takeWhile (fun n => !archiveConflict symbolTable
        archiveSymbolTable elfSortKeys archiveMemberSortKeys n) = searchedSymbolNames := by
    intro hall
    rw [List.takeWhile_eq_self_iff]
    intro n hn
    simp [hall n hn]
  refine ⟨⟨_, _, determineLoop_eq symbolTable archiveSymbolTable elfSortKeys
    archiveMemberSortKeys searchedSymbolNames [] hnames hids, ?_, ?_, ?_⟩, ?_, ?_⟩
  · by_cases h : searchedSymbolNames.any (archiveConflict symbolTable archiveSymbolTable
        elfSortKeys archiveMemberSortKeys) = true
    · rw [if_pos h]
      constructor
      · intro hc; exact absurd hc (by decide)
      · intro hall; exact absurd hall (hany.mp h)
    · rw [if_neg h]
      refine ⟨fun _ => ?_, fun _ => rfl⟩
      by_contra hnot
      exact h (hany.mpr hnot)
  · intro hok
    by_cases h : searchedSymbolNames.any (archiveConflict symbolTable archiveSymbolTable
        elfSortKeys archiveMemberSortKeys) = true
    · rw [if_pos h] at hok
      exact absurd hok (by decide)
    · have hall : ∀ n ∈ searchedSymbolNames, archiveConflict symbolTable archiveSymbolTable
          elfSortKeys archiveMemberSortKeys n = false := by
        by_contra hnot
        exact h (hany.mpr hnot)
      rw [htake hall, List.nil_append]
  · rw [List.nil_append]
  · intro n m ms hl hm
    unfold scheduledFor
    rw [if_pos ⟨by simp [hl], by simp [hm]⟩]
    unfold selectedMember
    simp only [hm]
    cases (m :: ms).find? (fun x =>
      decide (elfSortKeys.getD (SymbolTable.get symbolTable n).firstSearch.elfID 0 <
        archiveMemberSortKeys.getD x 0)) <;> rfl
  · intro n h
    unfold scheduledFor
    rw [if_neg]
    rintro ⟨h1, h2⟩
    rcases h with h | h
    · cases hs : (SymbolTable.get symbolTable n).firstLoad.symbol with
      | none => exact h hs
      | some es => rw [hs] at h1; simp at h1
    · rw [h] at h2; simp at h2

/-- Two objects and three archive members: the searched names are `a`, `b`, `c`, `a`, `d`.
The call returns `ok`; for `a`, searched from file 1, it schedules the member of file 2
(id 1), twice; for `b`, searched from file 5, behind every member, the first member
(id 0); for `c`, which has a `firstLoad`, and `d`, which no member defines, nothing. -/
theorem determineArchiveMembers_schedule_witness :
    scheduleTestState.searchedSymbolNames =
      [bytesOf "a", bytesOf "b", bytesOf "c", bytesOf "a", bytesOf "d"] ∧
    determineArchiveMembersToExtract scheduleTestState.symbolTable scheduleTestArchive
      [makeSortKey 1 0, makeSortKey 5 0] scheduleTestMemberKeys
      scheduleTestState.searchedSymbolNames = some (StatusCode.ok, [1, 0, 1]) := by
  obtain ⟨status, ids, hdet, hiff, hok, -⟩ := (determineArchiveMembers_schedule
    scheduleTestState.symbolTable scheduleTestArchive [makeSortKey 1 0, makeSortKey 5 0]
    scheduleTestMemberKeys scheduleTestState.searchedSymbolNames
    (insertSymbols_searched_in_table _ _ _ _) (by decide)).1
  have hs : status = StatusCode.ok := hiff.mpr (by decide)
  refine ⟨by decide, ?_⟩
  rw [hdet, hs, hok hs]
  decide

/-- C6 fails on the code when a name is in conflict.  The searched names are `c` and `a`;
`c` is searched from file 0 and defined in file 9, and the archive member that defines it
is of file 5, so the call returns `symbol_redefined` at `c`.  The name `a` has no
`firstLoad`, has an archive member and occurs once among the searched names, and no
member is scheduled for it. -/
theorem determineArchiveMembers_schedule_stops_at_conflict :
    conflictTestState.searchedSymbolNames = [bytesOf "c", bytesOf "a"] ∧
    (SymbolTable.get conflictTestState.symbolTable (bytesOf "a")).firstLoad.symbol = none ∧
    membersOf conflictTestArchive (bytesOf "a") = [0] ∧
    determineArchiveMembersToExtract conflictTestState.symbolTable conflictTestArchive
      [makeSortKey 0 0, makeSortKey 9 0] [makeSortKey 5 100]
      conflictTestState.searchedSymbolNames = some (StatusCode.symbol_redefined, []) := by
  decide

/-! ## Claims C3 and C4: relocation preprocessing -/

theorem addGOTEntry_status (g : Nat) (st : RelaState) (r : ProcessedRela) (n : Name)
    (i : GOTEntryPatchupInfo) :
    (addGOTEntry g st r n i).1.status = st.status ∧
      (addGOTEntry g st r n i).1.reported = st.reported := by
  unfold addGOTEntry
  cases gotIndexOf st.symbolNamesThatNeedGOTEntries n <;> simp

theorem processLocalRela_spec (p : ProcessRelasIn) (st : RelaState) (rela : Elf64_Rela)
    (sym : Elf64_Sym) : RelaStepSpec st (processLocalRela p st rela sym) := by
  unfold processLocalRela
  simp only []
  split_ifs <;> simp_all [RelaStepSpec]

theorem processDefinedRela_spec (p : ProcessRelasIn) (st : RelaState) (sym : Elf64_Sym)
    (resRela : ProcessedRela) (symName : Name) (id : Nat) (symbol : Elf64_Sym) :
    RelaStepSpec st (processDefinedRela p st sym resRela symName id symbol) := by
  unfold processDefinedRela
  simp only []
  by_cases h1 : symbol.st_shndx = SHN_XINDEX
  · rw [if_pos h1]
    simp [RelaStepSpec]
    tauto
  · rw [if_neg h1]
    by_cases h2 : symbol.st_shndx ≠ SHN_ABS ∧
        (inputToOutputSectionOffset id symbol.st_shndx symbol.st_value
          p.inputSectionCopyCommands).1 ≠ StatusCode.ok
    · rw [if_pos h2]
      simp [RelaStepSpec, h2.2]
      tauto
    · rw [if_neg h2]
      split_ifs <;> simp [RelaStepSpec, addGOTEntry_status]

theorem processGlobalRela_spec (p : ProcessRelasIn) (st : RelaState) (rela : Elf64_Rela)
    (sym : Elf64_Sym) : RelaStepSpec st (processGlobalRela p st rela sym) := by
  unfold processGlobalRela
  simp only []
  by_cases h1 : (inputToOutputSectionOffset p.elfID p.headerID rela.r_offset
      p.inputSectionCopyCommands).1 ≠ StatusCode.ok
  · rw [if_pos h1]
    simp [RelaStepSpec, h1]
    tauto
  · rw [if_neg h1]
    cases SymbolTable.find p.symbolTable (cstrAt p.mem (p.symStringsOffset + sym.st_name)) with
    | none =>
      simp [RelaStepSpec]
      tauto
    | some entry =>
      simp only []
      cases entry.firstLoad.symbol with
      | none =>
        simp only []
        split_ifs <;> simp [RelaStepSpec, addGOTEntry_status]
        tauto
      | some symbol => exact processDefinedRela_spec _ _ _ _ _ _ _

theorem processRela_spec (p : ProcessRelasIn) (st : RelaState) (rela : Elf64_Rela) :
    RelaStepSpec st (processRela p st rela) := by
  unfold processRela
  simp only []
  split_ifs
  · simp [RelaStepSpec]
    tauto
  · simp [RelaStepSpec]
  · exact processLocalRela_spec _ _ _ _
  · exact processGlobalRela_spec _ _ _ _

theorem processRela_undefined (p : ProcessRelasIn) (st : RelaState) (rela : Elf64_Rela)
    (habs : (linkedSymbol p rela).st_shndx ≠ SHN_ABS)
    (hlocal : ELF64_ST_BIND (linkedSymbol p rela).st_info ≠ STB_LOCAL)
    (hweak : ELF64_ST_BIND (linkedSymbol p rela).st_info ≠ STB_WEAK)
    (hname : hasNoFirstLoad p.symbolTable (relaSymName p rela)) :
    ∀ st', processRela p st rela = LoopStep.continue st' → st'.status ≠ StatusCode.ok := by
  intro st' hstep
  unfold processRela at hstep
  simp only [] at hstep
  by_cases hx : (linkedSymbol p rela).st_shndx = SHN_XINDEX
  · rw [if_pos hx] at hstep
    simp only [LoopStep.continue.injEq] at hstep
    rw [← hstep]
    simp
  · rw [if_neg hx, if_neg habs, if_neg hlocal] at hstep
    unfold processGlobalRela at hstep
    simp only [] at hstep
    by_cases h1 : (inputToOutputSectionOffset p.elfID p.headerID rela.r_offset
        p.inputSectionCopyCommands).1 ≠ StatusCode.ok
    · rw [if_pos h1] at hstep
      exact absurd hstep (by simp)
    · rw [if_neg h1] at hstep
      cases hf : SymbolTable.find p.symbolTable (relaSymName p rela) with
      | none =>
        unfold relaSymName at hf
        rw [hf] at hstep
        exact absurd hstep (by simp)
      | some entry =>
        have hl := hname entry hf
        unfold relaSymName at hf
        rw [hf] at hstep
        simp only [hl] at hstep
        have hw : (ELF64_ST_BIND (linkedSymbol p rela).st_info == STB_WEAK) = false := by
          simpa using hweak
        simp only [hw, Bool.not_false, if_true, LoopStep.continue.injEq] at hstep
        rw [← hstep]
        simp

theorem processRelasLoop_spec (p : ProcessRelasIn) (relas : List Elf64_Rela) (st : RelaState) :
    (∀ c ∈ st.reported, c ∈ (processRelasLoop p relas st).2.reported) ∧
    (match (processRelasLoop p relas st).1 with
     | some code => code ≠ StatusCode.ok ∧ code ∈ (processRelasLoop p relas st).2.reported
     | none => (processRelasLoop p relas st).2.status = st.status ∨
        ((processRelasLoop p relas st).2.status ≠ StatusCode.ok ∧
          (processRelasLoop p relas st).2.status ∈ (processRelasLoop p relas st).2.reported)) := by
  induction relas generalizing st with
  | nil => simp [processRelasLoop]
  | cons rela rest ih =>
    have hstep := processRela_spec p st rela
    unfold processRelasLoop
    cases hs : processRela p st rela with
    | «continue» st1 =>
      rw [hs] at hstep
      simp only [RelaStepSpec] at hstep
      simp only []
      obtain ⟨ih1, ih2⟩ := ih st1
      refine ⟨fun c hc => ih1 c (hstep.1 c hc), ?_⟩
      cases hr : (processRelasLoop p rest st1).1 with
      | some code =>
        rw [hr] at ih2
        exact ih2
      | none =>
        rw [hr] at ih2
        simp only []
        rcases ih2 with h | h
        · rcases hstep.2 with h' | h'
          · left; rw [h, h']
          · right
            rw [h]
            exact ⟨h'.1, ih1 _ h'.2⟩
        · right; exact h
    | «return» code st1 =>
      rw [hs] at hstep
      simp only [RelaStepSpec] at hstep
      exact ⟨hstep.1, hstep.2⟩

theorem processRelasLoop_not_ok (p : ProcessRelasIn) (relas : List Elf64_Rela) (st : RelaState)
    (h : st.status ≠ StatusCode.ok) :
    (processRelasLoop p relas st).1.getD (processRelasLoop p relas st).2.status ≠
      StatusCode.ok := by
  have hspec := (processRelasLoop_spec p relas st).2
  cases hr : (processRelasLoop p relas st).1 with
  | some code =>
    rw [hr] at hspec
    exact hspec.1
  | none =>
    rw [hr] at hspec
    simp only [Option.getD_none]
    rcases hspec with h' | h'
    · rw [h']; exact h
    · exact h'.1

theorem processRelasLoop_undefined (p : ProcessRelasIn) (relas : List Elf64_Rela)
    (st : RelaState) (rela : Elf64_Rela) (hmem : rela ∈ relas)
    (habs : (linkedSymbol p rela).st_shndx ≠ SHN_ABS)
    (hlocal : ELF64_ST_BIND (linkedSymbol p rela).st_info ≠ STB_LOCAL)
    (hweak : ELF64_ST_BIND (linkedSymbol p rela).st_info ≠ STB_WEAK)
    (hname : hasNoFirstLoad p.symbolTable (relaSymName p rela)) :
    (processRelasLoop p relas st).1.getD (processRelasLoop p relas st).2.status ≠
      StatusCode.ok := by
  induction relas generalizing st with
  | nil => exact absurd hmem (List.not_mem_nil _)
  | cons r rest ih =>
    unfold processRelasLoop
    cases hs : processRela p st r with
    | «continue» st1 =>
      simp only []
      rcases List.mem_cons.mp hmem with heq | hrest
      · subst heq
        exact processRelasLoop_not_ok p rest st1
          (processRela_undefined p st rela habs hlocal hweak hname st1 hs)
      · exact ih st1 hrest
    | «return» code st1 =>
      have hstep := processRela_spec p st r
      rw [hs] at hstep
      simp only [Option.getD_some]
      exact hstep.2.1

theorem processRelas_spec (p : ProcessRelasIn) (relas : List Elf64_Rela) (st : RelaState) :
    (∀ c ∈ st.reported, c ∈ (processRelas p relas st).2.reported) ∧
    ((processRelas p relas st).1 = StatusCode.ok ∨
      ((processRelas p relas st).1 ≠ StatusCode.ok ∧
        (processRelas p relas st).1 ∈ (processRelas p relas st).2.reported)) := by
  have hspec := processRelasLoop_spec p relas { st with status := StatusCode.ok }
  unfold processRelas
  simp only []
  refine ⟨hspec.1, ?_⟩
  cases hr : (processRelasLoop p relas { st with status := StatusCode.ok }).1 with
  | some code =>
    rw [hr] at hspec
    right
    exact hspec.2
  | none =>
    rw [hr] at hspec
    simp only [Option.getD_none]
    rcases hspec.2 with h | h
    · left; exact h
    · right; exact h

theorem PreStepSpec_refl (st : PreProcessState) : PreStepSpec st st :=
  ⟨fun _ h => h, Or.inl rfl⟩

theorem PreStepSpec_trans (a b c : PreProcessState) (hab : PreStepSpec a b)
    (hbc : PreStepSpec b c) : PreStepSpec a c := by
  refine ⟨fun x hx => hbc.1 x (hab.1 x hx), ?_⟩
  rcases hbc.2 with h | h
  · rcases hab.2 with h' | h'
    · left; rw [h, h']
    · right; rw [h]; exact ⟨h'.1, hbc.1 _ h'.2⟩
  · right; exact h

theorem PreStepSpec_not_ok (a b : PreProcessState) (hab : PreStepSpec a b)
    (h : a.status ≠ StatusCode.ok) : b.status ≠ StatusCode.ok := by
  rcases hab.2 with h' | h'
  · rw [h']; exact h
  · exact h'.1

theorem preProcessHeader_spec (q : PreProcessIn) (e : ElfInput) (elfID : Nat)
    (st : PreProcessState) (header : Elf64_Shdr) (i : Nat) :
    PreStepSpec st (preProcessHeader q e elfID st header i) := by
  unfold preProcessHeader
  by_cases h1 : header.sh_type ≠ SHT_RELA
  · rw [if_pos h1]; exact PreStepSpec_refl st
  · rw [if_neg h1]
    by_cases h2 : header.sh_entsize ≠ sizeof_Elf64_Rela
    · rw [if_pos h2]
      refine ⟨fun c hc => by simp [hc], Or.inr ⟨by simp, by simp⟩⟩
    · rw [if_neg h2]
      simp only []
      by_cases h3 : get2D q.inputToOutputSection elfID header.sh_info = notAnOutputSection
      · rw [if_pos h3]; exact PreStepSpec_refl st
      · rw [if_neg h3]
        have hspec := processRelas_spec (processRelasInOf q e elfID header) (relasOf e header)
          { status := StatusCode.ok
            processResults := st.processedRelas.getD
              (get2D q.inputToOutputSection elfID header.sh_info) []
            symbolNamesThatNeedGOTEntries := st.symbolNamesThatNeedGOTEntries
            gotEntryPatches := st.gotEntryPatches
            reported := st.reported }
        split_ifs with h4
        · exact ⟨hspec.1, Or.inr ⟨h4, by
            rcases hspec.2 with h | h
            · exact absurd h h4
            · exact h.2⟩⟩
        · exact ⟨hspec.1, Or.inl rfl⟩

theorem preProcessHeader_undefined (q : PreProcessIn) (e : ElfInput) (elfID : Nat)
    (st : PreProcessState) (header : Elf64_Shdr) (i : Nat)
    (htype : header.sh_type = SHT_RELA)
    (hout : get2D q.inputToOutputSection elfID header.sh_info ≠ notAnOutputSection)
    (rela : Elf64_Rela) (hrela : rela ∈ relasOf e header)
    (habs : (linkedSymbol (processRelasInOf q e elfID header) rela).st_shndx ≠ SHN_ABS)
    (hlocal : ELF64_ST_BIND (linkedSymbol (processRelasInOf q e elfID header) rela).st_info ≠
      STB_LOCAL)
    (hweak : ELF64_ST_BIND (linkedSymbol (processRelasInOf q e elfID header) rela).st_info ≠
      STB_WEAK)
    (hname : hasNoFirstLoad q.symbolTable
      (relaSymName (processRelasInOf q e elfID header) rela)) :
    (preProcessHeader q e elfID st header i).status ≠ StatusCode.ok := by
  unfold preProcessHeader
  rw [if_neg (by simpa using htype)]
  by_cases h2 : header.sh_entsize ≠ sizeof_Elf64_Rela
  · rw [if_pos h2]; simp
  · rw [if_neg h2]
    simp only []
    rw [if_neg hout]
    have hbad := processRelasLoop_undefined (processRelasInOf q e elfID header)
      (relasOf e header)
      { status := StatusCode.ok
        processResults := st.processedRelas.getD
          (get2D q.inputToOutputSection elfID header.sh_info) []
        symbolNamesThatNeedGOTEntries := st.symbolNamesThatNeedGOTEntries
        gotEntryPatches := st.gotEntryPatches
        reported := st.reported } rela hrela habs hlocal hweak hname
    have hbad' : (processRelas (processRelasInOf q e elfID header) (relasOf e header)
        { status := StatusCode.ok
          processResults := st.processedRelas.getD
            (get2D q.inputToOutputSection elfID header.sh_info) []
          symbolNamesThatNeedGOTEntries := st.symbolNamesThatNeedGOTEntries
          gotEntryPatches := st.gotEntryPatches
          reported := st.reported }).1 ≠ StatusCode.ok := hbad
    rw [if_pos hbad']
    exact hbad'

theorem forEachIndexedFrom_rel {α σ : Type} (f : σ → α → Nat → σ) (R : σ → σ → Prop)
    (hrefl : ∀ s, R s s) (htrans : ∀ a b c, R a b → R b c → R a c)
    (hstep : ∀ s x i, R s (f s x i)) (xs : List α) (i : Nat) (s : σ) :
    R s (forEachIndexedFrom f i xs s) := by
  induction xs generalizing i s with
  | nil => exact hrefl s
  | cons x xs ih => exact htrans _ _ _ (hstep s x i) (ih (i + 1) (f s x i))

theorem forEachIndexedFrom_established {α σ : Type} (f : σ → α → Nat → σ) (Q : σ → Prop)
    (hpres : ∀ s x i, Q s → Q (f s x i)) (xs : List α) (i k : Nat) (x : α)
    (hx : xs[k]? = some x) (hest : ∀ s, Q (f s x (i + k))) (s : σ) :
    Q (forEachIndexedFrom f i xs s) := by
  have hkeep : ∀ (ys : List α) (j : Nat) (t : σ), Q t → Q (forEachIndexedFrom f j ys t) := by
    intro ys
    induction ys with
    | nil => intro j t ht; exact ht
    | cons y ys ih => intro j t ht; exact ih (j + 1) _ (hpres t y j ht)
  induction xs generalizing i k s with
  | nil => simp at hx
  | cons y ys ih =>
    cases k with
    | zero =>
      simp only [List.getElem?_cons_zero, Option.some.injEq] at hx
      subst hx
      exact hkeep ys (i + 1) _ (by simpa using hest s)
    | succ k =>
      simp only [List.getElem?_cons_succ] at hx
      apply ih (i + 1) k hx
      intro s'
      have := hest s'
      rwa [show i + (k + 1) = i + 1 + k by omega] at this

theorem preProcessInput_spec (q : PreProcessIn) (st : PreProcessState) (e : ElfInput)
    (elfID : Nat) : PreStepSpec st (preProcessInput q st e elfID) :=
  forEachIndexedFrom_rel (preProcessHeader q e elfID) PreStepSpec PreStepSpec_refl
    PreStepSpec_trans (fun s x i => preProcessHeader_spec q e elfID s x i) e.headers 0 st

theorem preProcessesRelocations_status_reported (inputs : List ElfInput) (q : PreProcessIn) :
    (preProcessesRelocations inputs q).status = StatusCode.ok ∨
      (preProcessesRelocations inputs q).status ∈ (preProcessesRelocations inputs q).reported := by
  have h := forEachIndexedFrom_rel (preProcessInput q) PreStepSpec PreStepSpec_refl
    PreStepSpec_trans (fun s x i => preProcessInput_spec q s x i) inputs 0
    { status := StatusCode.ok
      processedRelas := List.replicate q.numberOfOutputSections []
      symbolNamesThatNeedGOTEntries := []
      gotEntryPatches := []
      reported := [] }
  rcases h.2 with h' | h'
  · left; exact h'
  · right; exact h'.2

/-- C3. If a `SHT_RELA` section of an input applies to a section that is mapped to an
output section, and one of its relocations refers to a symbol whose `st_shndx` is not
`SHN_ABS`, whose binding is neither `STB_LOCAL` nor `STB_WEAK`, and whose name has no
`firstLoad` in the symbol table, then `preProcessesRelocations` returns a status other than
`ok`; the status is one that has been reported, so it is `symbol_undefined` when no other
error is reported. -/
theorem preProcessesRelocations_undefined_global (inputs : List ElfInput) (q : PreProcessIn)
    (elfID : Nat) (e : ElfInput) (he : inputs[elfID]? = some e)
    (header : Elf64_Shdr) (hheader : header ∈ e.headers)
    (htype : header.sh_type = SHT_RELA)
    (hout : get2D q.inputToOutputSection elfID header.sh_info ≠ notAnOutputSection)
    (rela : Elf64_Rela) (hrela : rela ∈ relasOf e header)
    (habs : (linkedSymbol (processRelasInOf q e elfID header) rela).st_shndx ≠ SHN_ABS)
    (hlocal : ELF64_ST_BIND (linkedSymbol (processRelasInOf q e elfID header) rela).st_info ≠
      STB_LOCAL)
    (hweak : ELF64_ST_BIND (linkedSymbol (processRelasInOf q e elfID header) rela).st_info ≠
      STB_WEAK)
    (hname : hasNoFirstLoad q.symbolTable
      (relaSymName (processRelasInOf q e elfID header) rela)) :
    (preProcessesRelocations inputs q).status ≠ StatusCode.ok ∧
    (preProcessesRelocations inputs q).status ∈ (preProcessesRelocations inputs q).reported ∧
    ((∀ c ∈ (preProcessesRelocations inputs q).reported, c = StatusCode.symbol_undefined) →
      (preProcessesRelocations inputs q).status = StatusCode.symbol_undefined) := by
  have hnot : (preProcessesRelocations inputs q).status ≠ StatusCode.ok := by
    unfold preProcessesRelocations forEachIndexed
    apply forEachIndexedFrom_established (preProcessInput q) (fun s => s.status ≠ StatusCode.ok)
      (fun s x i hs => PreStepSpec_not_ok _ _ (preProcessInput_spec q s x i) hs)
      inputs 0 elfID e he
    intro s
    rw [Nat.zero_add]
    obtain ⟨k, hk⟩ := List.getElem?_of_mem hheader
    unfold preProcessInput forEachIndexed
    apply forEachIndexedFrom_established (preProcessHeader q e elfID)
      (fun s => s.status ≠ StatusCode.ok)
      (fun s x i hs => PreStepSpec_not_ok _ _ (preProcessHeader_spec q e elfID s x i) hs)
      e.headers 0 k header hk
    intro s'
    exact preProcessHeader_undefined q e elfID s' header _ htype hout rela hrela habs hlocal
      hweak hname
  have hrep : (preProcessesRelocations inputs q).status ∈
      (preProcessesRelocations inputs q).reported := by
    rcases preProcessesRelocations_status_reported inputs q with h | h
    · exact absurd h hnot
    · exact h
  exact ⟨hnot, hrep, fun hall => hall _ hrep⟩

/-- The link of the test with an undefined global symbol: the only relocation refers to
`a`, which is global and has no definition, and the status is `symbol_undefined`. -/
theorem preProcessesRelocations_undefined_global_witness :
    (preProcessesRelocations [objRefGlobalA] (singleObjectLink objRefGlobalA)).status ≠
      StatusCode.ok ∧
    (preProcessesRelocations [objRefGlobalA] (singleObjectLink objRefGlobalA)).status =
      StatusCode.symbol_undefined := by
  have h := preProcessesRelocations_undefined_global [objRefGlobalA]
    (singleObjectLink objRefGlobalA) 0 objRefGlobalA rfl
    (objRefGlobalA.headers.getD 4 default) (by decide) (by decide) (by decide)
    relaMovabs (by decide) (by decide) (by decide) (by decide)
    (by intro entry hfind
        have : entry = ⟨⟨some (mkSym 1 STB_GLOBAL SHN_UNDEF 0), 0⟩, ⟨none, 0⟩⟩ := by
          have h2 : SymbolTable.find (singleObjectLink objRefGlobalA).symbolTable
              (relaSymName (processRelasInOf (singleObjectLink objRefGlobalA) objRefGlobalA 0
                (objRefGlobalA.headers.getD 4 default)) relaMovabs) =
              some ⟨⟨some (mkSym 1 STB_GLOBAL SHN_UNDEF 0), 0⟩, ⟨none, 0⟩⟩ := by decide
          rw [h2] at hfind
          exact (Option.some.inj hfind).symm
        rw [this])
  exact ⟨h.1, h.2.2 (by decide)⟩

theorem toUInt64_lt (i : Int) : toUInt64 i < 2 ^ 64 := by
  unfold toUInt64
  have h1 : 0 ≤ i % 2 ^ 64 := Int.emod_nonneg _ (by norm_num)
  have h2 : i % 2 ^ 64 < 2 ^ 64 := Int.emod_lt_of_pos _ (by norm_num)
  omega

/-- C4. For a relocation whose symbol is `STB_WEAK` and a reference (its `st_shndx` is
neither `SHN_XINDEX` nor `SHN_ABS`), whose name has an entry with an empty `firstLoad`,
whose type needs no GOT entry and whose place `r_offset` maps to the offset `off` of the
output section: the loop body of `processRelas` changes neither the status nor the reports
and appends the record with the addend, `off`, `symbolValue = 0`, `symbolSectionID = 0` and
`note = undefinedWeak`; for the type `R_X86_64_64`, `prepareRelaWrite` then returns `ok`
with the 8-byte value of the addend, computed with `S = 0`, which is 0 for the addend 0. -/
theorem processRela_undefinedWeak (p : ProcessRelasIn) (st : RelaState) (rela : Elf64_Rela)
    (hbind : ELF64_ST_BIND (linkedSymbol p rela).st_info = STB_WEAK)
    (hxindex : (linkedSymbol p rela).st_shndx ≠ SHN_XINDEX)
    (habs : (linkedSymbol p rela).st_shndx ≠ SHN_ABS)
    (entry : GlobalSymbolTableEntry)
    (hfind : SymbolTable.find p.symbolTable (relaSymName p rela) = some entry)
    (hload : entry.firstLoad.symbol = none)
    (hgot : needsGOTEntry (ELF64_R_TYPE rela.r_info) = false)
    (off : Nat)
    (hoff : inputToOutputSectionOffset p.elfID p.headerID rela.r_offset
      p.inputSectionCopyCommands = (StatusCode.ok, off)) :
    processRela p st rela = LoopStep.continue
      { st with processResults := st.processResults ++ [
          { addend := rela.r_addend, outputSectionOffset := off, symbolValue := 0,
            type := ELF64_R_TYPE rela.r_info, symbolSectionID := 0,
            note := Note.undefinedWeak }] } ∧
    (∀ (gotAddress : Nat) (outputSectionAddresses : List Nat) (outputAddress : Nat)
        (fileOffset : Int), ELF64_R_TYPE rela.r_info = R_X86_64_64 →
      prepareRelaWrite
          { addend := rela.r_addend, outputSectionOffset := off, symbolValue := 0,
            type := ELF64_R_TYPE rela.r_info, symbolSectionID := 0, note := Note.undefinedWeak }
          gotAddress outputSectionAddresses outputAddress fileOffset =
        (StatusCode.ok, toUInt64 rela.r_addend, 8,
          toInt64 (toUInt64 (fileOffset + toInt64 off)))) ∧
    (rela.r_addend = 0 → toUInt64 rela.r_addend = 0) := by
  refine ⟨?_, ?_, ?_⟩
  · have hlocal : ¬ ELF64_ST_BIND (linkedSymbol p rela).st_info = STB_LOCAL := by
      rw [hbind]; decide
    unfold processRela
    simp only []
    rw [if_neg hxindex, if_neg habs, if_neg hlocal]
    unfold processGlobalRela
    unfold relaSymName at hfind
    simp only [hoff, hfind, hload, hbind, ne_eq, not_true_eq_false, if_false, beq_self_eq_true,
      Bool.not_true, Bool.false_eq_true, hgot]
  · intro gotAddress addrs outputAddress fileOffset htype
    unfold prepareRelaWrite
    simp only [htype]
    have hlt := toUInt64_lt rela.r_addend
    simp [relaSwitch, relaS, R_X86_64_64, R_X86_64_NONE, add64]
    norm_num at hlt
    exact hlt
  · intro h
    rw [h]
    rfl

/-- The link of the test with an undefined weak symbol: the relocation against `a` gets
the note `undefinedWeak` at offset 2 of `.text`, and the value written is 0. -/
theorem processRela_undefinedWeak_witness :
    processRela (processRelasInOf (singleObjectLink objRefWeakA) objRefWeakA 0
        (objRefWeakA.headers.getD 4 default)) ⟨StatusCode.ok, [], [], [], []⟩ relaMovabs =
      LoopStep.continue ⟨StatusCode.ok,
        [{ addend := 0, outputSectionOffset := 2, symbolValue := 0, type := R_X86_64_64,
           symbolSectionID := 0, note := Note.undefinedWeak }], [], [], []⟩ :=
  (processRela_undefinedWeak
    (processRelasInOf (singleObjectLink objRefWeakA) objRefWeakA 0
      (objRefWeakA.headers.getD 4 default)) ⟨StatusCode.ok, [], [], [], []⟩ relaMovabs
    (by decide) (by decide) (by decide)
    ⟨⟨some (mkSym 1 STB_WEAK SHN_UNDEF 0), 0⟩, ⟨none, 0⟩⟩ (by decide) rfl (by decide) 2
    (by decide)).1

/-! ## Claim C7: `prepareRelaWrite` -/

theorem add64_eq_mod64 (a b : Nat) : add64 a b = mod64 (a + b) := by
  unfold add64 mod64
  omega

theorem sub64_eq_mod64 (a b : Nat) : sub64 a b = mod64 (a - b) := by
  unfold sub64 mod64
  omega

theorem mod64_add_mod64 (i : Int) (b : Nat) : mod64 ((mod64 i : Nat) + b) = mod64 (i + b) := by
  unfold mod64
  omega

theorem mod64_sub_mod64 (i : Int) (b : Nat) : mod64 ((mod64 i : Nat) - b) = mod64 (i - b) := by
  unfold mod64
  omega

theorem tableRow_none_of_large (t : Nat) (h : 42 < t) : tableRow t = none := by
  unfold tableRow
  rw [Option.map_eq_none', List.find?_eq_none]
  intro row hrow
  simp only [relocationTable, List.mem_cons, List.mem_singleton, List.not_mem_nil, or_false] at hrow
  simp only [beq_iff_eq]
  rcases hrow with h' | h' | h' | h' | h' | h' | h' | h' | h' | h' | h' | h' | h' | h' | h' | h'
    | h' | h' | h' | h' | h' | h' | h' | h' <;>
  · rw [h']
    simp only [R_X86_64_NONE, R_X86_64_64, R_X86_64_PC32, R_X86_64_GOT32, R_X86_64_PLT32,
      R_X86_64_GLOB_DAT, R_X86_64_JUMP_SLOT, R_X86_64_GOTPCREL, R_X86_64_32, R_X86_64_32S,
      R_X86_64_16, R_X86_64_PC16, R_X86_64_8, R_X86_64_PC8, R_X86_64_PC64, R_X86_64_GOTOFF64,
      R_X86_64_GOTPC32, R_X86_64_GOT64, R_X86_64_GOTPCREL64, R_X86_64_GOTPC64, R_X86_64_SIZE32,
      R_X86_64_SIZE64, R_X86_64_GOTPCRELX, R_X86_64_REX_GOTPCRELX]
    omega

theorem relaSwitch_none_of_large (t S A P G GOT Z : Nat) (h : 42 < t) :
    relaSwitch t S A P G GOT Z = none := by
  unfold relaSwitch
  rw [if_neg (show ¬ t = R_X86_64_NONE by unfold R_X86_64_NONE; omega)]
  rw [if_neg (show ¬ t = R_X86_64_64 by unfold R_X86_64_64; omega)]
  rw [if_neg (show ¬ (t = R_X86_64_PLT32 ∨ t = R_X86_64_PC32) by
    unfold R_X86_64_PLT32 R_X86_64_PC32; omega)]
  rw [if_neg (show ¬ t = R_X86_64_GOT32 by unfold R_X86_64_GOT32; omega)]
  rw [if_neg (show ¬ (t = R_X86_64_GLOB_DAT ∨ t = R_X86_64_JUMP_SLOT) by
    unfold R_X86_64_GLOB_DAT R_X86_64_JUMP_SLOT; omega)]
  rw [if_neg (show ¬ t = R_X86_64_GOTPCREL by unfold R_X86_64_GOTPCREL; omega)]
  rw [if_neg (show ¬ t = R_X86_64_32 by unfold R_X86_64_32; omega)]
  rw [if_neg (show ¬ t = R_X86_64_32S by unfold R_X86_64_32S; omega)]
  rw [if_neg (show ¬ t = R_X86_64_16 by unfold R_X86_64_16; omega)]
  rw [if_neg (show ¬ t = R_X86_64_PC16 by unfold R_X86_64_PC16; omega)]
  rw [if_neg (show ¬ t = R_X86_64_8 by unfold R_X86_64_8; omega)]
  rw [if_neg (show ¬ t = R_X86_64_PC8 by unfold R_X86_64_PC8; omega)]
  rw [if_neg (show ¬ t = R_X86_64_PC64 by unfold R_X86_64_PC64; omega)]
  rw [if_neg (show ¬ t = R_X86_64_GOTOFF64 by unfold R_X86_64_GOTOFF64; omega)]
  rw [if_neg (show ¬ t = R_X86_64_GOTPC32 by unfold R_X86_64_GOTPC32; omega)]
  rw [if_neg (show ¬ t = R_X86_64_GOT64 by unfold R_X86_64_GOT64; omega)]
  rw [if_neg (show ¬ t = R_X86_64_GOTPCREL64 by unfold R_X86_64_GOTPCREL64; omega)]
  rw [if_neg (show ¬ t = R_X86_64_GOTPC64 by unfold R_X86_64_GOTPC64; omega)]
  rw [if_neg (show ¬ t = R_X86_64_SIZE32 by unfold R_X86_64_SIZE32; omega)]
  rw [if_neg (show ¬ t = R_X86_64_SIZE64 by unfold R_X86_64_SIZE64; omega)]
  rw [if_neg (show ¬ (t = R_X86_64_GOTPCRELX ∨ t = R_X86_64_REX_GOTPCRELX) by
    unfold R_X86_64_GOTPCRELX R_X86_64_REX_GOTPCRELX; omega)]

theorem relaSwitch_eq_table (t S A P G GOT Z : Nat) (hS : S < 2 ^ 64) :
    relaSwitch t S A P G GOT Z =
      (tableRow t).map (fun row => (evalFormula row.1 S A P G GOT Z, row.2)) := by
  by_cases h : 42 < t
  · rw [tableRow_none_of_large t h, relaSwitch_none_of_large t S A P G GOT Z h]
    rfl
  · have ht : t ≤ 42 := by omega
    interval_cases t <;>
      simp [relaSwitch, tableRow, relocationTable, evalFormula, R_X86_64_NONE, R_X86_64_64,
        R_X86_64_PC32, R_X86_64_GOT32, R_X86_64_PLT32, R_X86_64_GLOB_DAT, R_X86_64_JUMP_SLOT,
        R_X86_64_GOTPCREL, R_X86_64_32, R_X86_64_32S, R_X86_64_16, R_X86_64_PC16, R_X86_64_8,
        R_X86_64_PC8, R_X86_64_PC64, R_X86_64_GOTOFF64, R_X86_64_GOTPC32, R_X86_64_GOT64,
        R_X86_64_GOTPCREL64, R_X86_64_GOTPC64, R_X86_64_SIZE32, R_X86_64_SIZE64,
        R_X86_64_GOTPCRELX, R_X86_64_REX_GOTPCRELX] <;>
      (try simp only [add64, sub64, mod64]) <;> omega

theorem evalFormula_congr (f : RelaFormula) (S S' A P P' G GOT Z : Nat)
    (hS : S % 2 ^ 64 = S' % 2 ^ 64) (hP : P % 2 ^ 64 = P' % 2 ^ 64) :
    evalFormula f S A P G GOT Z = evalFormula f S' A P' G GOT Z := by
  cases f <;> simp only [evalFormula, mod64] <;> omega

theorem relaS_lt (rela : ProcessedRela) (outputSectionAddresses : List Nat)
    (h : rela.symbolValue < 2 ^ 64) : relaS rela outputSectionAddresses < 2 ^ 64 := by
  unfold relaS add64
  simp only []
  split_ifs <;> omega

theorem relaS_mod (rela : ProcessedRela) (outputSectionAddresses : List Nat) :
    relaS rela outputSectionAddresses % 2 ^ 64 =
      symbolAddress rela outputSectionAddresses % 2 ^ 64 := by
  unfold relaS symbolAddress add64
  cases rela.note <;> simp

theorem filePos_in_range (fileOffset : Int) (off : Nat) (h0 : 0 ≤ fileOffset)
    (h1 : fileOffset + off < 2 ^ 63) :
    toInt64 (toUInt64 (fileOffset + toInt64 off)) = fileOffset + off := by
  unfold toInt64 toUInt64
  have hoff : (off : Int) < 2 ^ 63 := by omega
  split_ifs <;> omega

/-- C7. For a processed relocation (whose `symbolValue` is a 64-bit value),
`prepareRelaWrite` returns `ok` with the value and the size of the row of the table of the
specification for each type of the table, the value being computed modulo `2^64` from
`S` (zero for the note `undefinedWeak`, the symbol value for `absoluteValue`, else the
address of the output section of the symbol plus the symbol value), the addend `A`,
`P = outputAddress + outputSectionOffset`, `G = symbolValue` and `GOT = gotAddress`; for
every type that is not in the table it returns `not_ok`.  The file position is
`fileOffset + outputSectionOffset` as an `off_t`, which is the sum itself when it is below
`2^63` and `fileOffset` is not negative. -/
theorem prepareRelaWrite_table (rela : ProcessedRela) (gotAddress : Nat)
    (outputSectionAddresses : List Nat) (outputAddress : Nat) (fileOffset : Int)
    (hvalue : rela.symbolValue < 2 ^ 64) :
    (match tableRow rela.type with
     | some (formula, size) =>
       prepareRelaWrite rela gotAddress outputSectionAddresses outputAddress fileOffset =
         (StatusCode.ok,
          evalFormula formula (symbolAddress rela outputSectionAddresses) (toUInt64 rela.addend)
            (outputAddress + rela.outputSectionOffset) rela.symbolValue gotAddress
            rela.symbolValue,
          size,
          toInt64 (toUInt64 (fileOffset + toInt64 rela.outputSectionOffset)))
     | none =>
       (prepareRelaWrite rela gotAddress outputSectionAddresses outputAddress fileOffset).1 =
         StatusCode.not_ok) ∧
    (0 ≤ fileOffset → fileOffset + rela.outputSectionOffset < 2 ^ 63 →
      (prepareRelaWrite rela gotAddress outputSectionAddresses outputAddress fileOffset).2.2.2 =
        fileOffset + rela.outputSectionOffset) := by
  have hsw := relaSwitch_eq_table rela.type (relaS rela outputSectionAddresses)
    (toUInt64 rela.addend) (add64 outputAddress rela.outputSectionOffset) rela.symbolValue
    gotAddress rela.symbolValue (relaS_lt rela outputSectionAddresses hvalue)
  have hcongr := fun f => evalFormula_congr f (relaS rela outputSectionAddresses)
    (symbolAddress rela outputSectionAddresses) (toUInt64 rela.addend)
    (add64 outputAddress rela.outputSectionOffset) (outputAddress + rela.outputSectionOffset)
    rela.symbolValue gotAddress rela.symbolValue (relaS_mod rela outputSectionAddresses)
    (by unfold add64; omega)
  constructor
  · unfold prepareRelaWrite
    simp only []
    rw [hsw]
    cases hrow : tableRow rela.type with
    | none => rfl
    | some row =>
      obtain ⟨formula, size⟩ := row
      simp only [Option.map_some']
      rw [hcongr formula]
  · intro h0 h1
    have hpos : (prepareRelaWrite rela gotAddress outputSectionAddresses outputAddress
        fileOffset).2.2.2 = toInt64 (toUInt64 (fileOffset + toInt64 rela.outputSectionOffset)) := by
      unfold prepareRelaWrite
      simp only []
      cases relaSwitch rela.type (relaS rela outputSectionAddresses) (toUInt64 rela.addend)
        (add64 outputAddress rela.outputSectionOffset) rela.symbolValue gotAddress
        rela.symbolValue with
      | none => rfl
      | some v => rfl
    rw [hpos]
    exact filePos_in_range fileOffset rela.outputSectionOffset h0 h1

/-- The relocation of `call exit` in the first test: type `R_X86_64_PLT32` at offset 1 of
`.text` (output section 0 at `0x401000`), against `exit` at offset 5 of the same section,
with addend `-4`; the value is `S + A - P = 0` in 4 bytes, written at file offset
`0x1001`. -/
theorem prepareRelaWrite_table_witness :
    prepareRelaWrite ⟨-4, 1, 5, R_X86_64_PLT32, 0, Note.none⟩ 0x402000 [0x401000] 0x401000
        0x1000 = (StatusCode.ok, 0, 4, 0x1001) := by
  have h := (prepareRelaWrite_table ⟨-4, 1, 5, R_X86_64_PLT32, 0, Note.none⟩ 0x402000 [0x401000]
    0x401000 0x1000 (by decide)).1
  have hrow : tableRow R_X86_64_PLT32 = some (RelaFormula.S_A_P, 4) := by decide
  simp only [hrow] at h
  rw [h]
  decide

/-! ## Claim C8: canonical section names -/

theorem find?_prefix_longest (table : List Name) (name e0 : Name)
    (hT : table.Pairwise (fun a b => ¬ (a <+: b ∧ a.length < b.length)))
    (hfind : table.find? (fun truncate => truncate.isPrefixOf name) = some e0) :
    e0 ∈ table ∧ e0 <+: name ∧ ∀ e ∈ table, e <+: name → e.length ≤ e0.length := by
  induction table with
  | nil => simp at hfind
  | cons a rest ih =>
    rw [List.pairwise_cons] at hT
    rw [List.find?_cons] at hfind
    cases ha : a.isPrefixOf name with
    | true =>
      rw [ha] at hfind
      simp only [Option.some.injEq] at hfind
      subst hfind
      have hpre : a <+: name := List.isPrefixOf_iff_prefix.mp ha
      refine ⟨List.mem_cons_self _ _, hpre, ?_⟩
      intro e he hepre
      rcases List.mem_cons.mp he with rfl | he
      · exact le_refl _
      · by_contra hlt
        have hlen : a.length ≤ e.length := by omega
        have hae : a <+: e := List.prefix_of_prefix_length_le hpre hepre hlen
        exact hT.1 e he ⟨hae, by omega⟩
    | false =>
      rw [ha] at hfind
      obtain ⟨h1, h2, h3⟩ := ih hT.2 hfind
      refine ⟨List.mem_cons_of_mem _ h1, h2, ?_⟩
      intro e he hepre
      rcases List.mem_cons.mp he with rfl | he
      · have : e.isPrefixOf name = true := List.isPrefixOf_iff_prefix.mpr hepre
        rw [this] at ha
        exact absurd ha (by simp)
      · exact h3 e he hepre

theorem namesToTruncate_ordered :
    namesToTruncate.Pairwise (fun a b => ¬ (a <+: b ∧ a.length < b.length)) := by
  decide

theorem toOutputSectionName_of_entry : ∀ e ∈ namesToTruncate, toOutputSectionName e = e := by
  decide

/-- C8. For every section name: if some entry of the table of thirteen names is a prefix
of the name, `toOutputSectionName` returns the longest such entry; otherwise it returns the
name itself; it maps `.text.xxx` and `.text` to `.text` and `.data.rel.ro.x` to
`.data.rel.ro`; and it leaves its own results unchanged. -/
theorem toOutputSectionName_longest_entry (fullName : Name) :
    ((∃ e ∈ namesToTruncate, e <+: fullName) →
      toOutputSectionName fullName ∈ namesToTruncate ∧
      toOutputSectionName fullName <+: fullName ∧
      ∀ e ∈ namesToTruncate, e <+: fullName →
        e.length ≤ (toOutputSectionName fullName).length) ∧
    ((∀ e ∈ namesToTruncate, ¬ e <+: fullName) → toOutputSectionName fullName = fullName) ∧
    toOutputSectionName (bytesOf ".text.xxx") = bytesOf ".text" ∧
    toOutputSectionName (bytesOf ".text") = bytesOf ".text" ∧
    toOutputSectionName (bytesOf ".data.rel.ro.x") = bytesOf ".data.rel.ro" ∧
    toOutputSectionName (toOutputSectionName fullName) = toOutputSectionName fullName := by
  have hcases : (∀ e0, namesToTruncate.find? (fun truncate => truncate.isPrefixOf fullName) =
      some e0 → toOutputSectionName fullName = e0) := by
    intro e0 h
    have hpre := (find?_prefix_longest _ _ _ namesToTruncate_ordered h).2.1
    unfold toOutputSectionName
    rw [h]
    exact List.prefix_iff_eq_take.mp hpre |>.symm
  refine ⟨?_, ?_, by decide, by decide, by decide, ?_⟩
  · rintro ⟨e, he, hepre⟩
    cases hfind : namesToTruncate.find? (fun truncate => truncate.isPrefixOf fullName) with
    | none =>
      rw [List.find?_eq_none] at hfind
      exact absurd (List.isPrefixOf_iff_prefix.mpr hepre) (hfind e he)
    | some e0 =>
      rw [hcases e0 hfind]
      exact find?_prefix_longest _ _ _ namesToTruncate_ordered hfind
  · intro hno
    have hfind : namesToTruncate.find? (fun truncate => truncate.isPrefixOf fullName) = none := by
      rw [List.find?_eq_none]
      intro e he hpre
      exact hno e he (List.isPrefixOf_iff_prefix.mp hpre)
    unfold toOutputSectionName
    rw [hfind]
  · cases hfind : namesToTruncate.find? (fun truncate => truncate.isPrefixOf fullName) with
    | none =>
      have : toOutputSectionName fullName = fullName := by
        unfold toOutputSectionName
        rw [hfind]
      rw [this, this]
    | some e0 =>
      rw [hcases e0 hfind]
      exact toOutputSectionName_of_entry e0
        (find?_prefix_longest _ _ _ namesToTruncate_ordered hfind).1

/-- The canonical name of a section at the start of the table and of one below it. -/
theorem toOutputSectionName_longest_entry_witness :
    toOutputSectionName (bytesOf ".data.rel.ro.x") ∈ namesToTruncate ∧
    toOutputSectionName (bytesOf ".data.rel.ro.x") <+: bytesOf ".data.rel.ro.x" ∧
    ∀ e ∈ namesToTruncate, e <+: bytesOf ".data.rel.ro.x" →
      e.length ≤ (toOutputSectionName (bytesOf ".data.rel.ro.x")).length :=
  (toOutputSectionName_longest_entry (bytesOf ".data.rel.ro.x")).1
    ⟨bytesOf ".data", by decide, by decide⟩

/-! ## Claim C9: the number of output sections -/

theorem SectionMap.keys_push (m : SectionMap) (n : Name) (r : SectionRef) :
    (SectionMap.push m n r).map Prod.fst = addKey (m.map Prod.fst) n := by
  induction m with
  | nil => simp [SectionMap.push, addKey]
  | cons p rest ih =>
    obtain ⟨k, refs⟩ := p
    by_cases hk : k = n
    · subst hk
      simp [SectionMap.push, addKey]
    · have hk' : ¬ n = k := fun h => hk h.symm
      simp only [SectionMap.push, hk, if_false, List.map_cons, ih]
      unfold addKey
      by_cases hmem : n ∈ rest.map Prod.fst
      · simp [hmem]
      · simp [hmem, hk']

theorem addKey_foldl_nodup (L K : List Name) (hK : K.Nodup) : (L.foldl addKey K).Nodup := by
  induction L generalizing K with
  | nil => exact hK
  | cons n L ih =>
    apply ih
    unfold addKey
    split_ifs with h
    · exact hK
    · exact List.Nodup.append hK (List.nodup_singleton n) (by simpa using h)

theorem addKey_foldl_mem (L K : List Name) (n : Name) :
    n ∈ L.foldl addKey K ↔ n ∈ K ∨ n ∈ L := by
  induction L generalizing K with
  | nil => simp
  | cons a L ih =>
    rw [List.foldl_cons, ih]
    unfold addKey
    split_ifs with h
    · constructor
      · rintro (h1 | h1)
        · exact Or.inl h1
        · exact Or.inr (List.mem_cons_of_mem _ h1)
      · rintro (h1 | h1)
        · exact Or.inl h1
        · rcases List.mem_cons.mp h1 with rfl | h2
          · exact Or.inl h
          · exact Or.inr h2
    · simp only [List.mem_append, List.mem_singleton, List.mem_cons]
      tauto

theorem addKey_foldl_length (L : List Name) : (L.foldl addKey []).length = L.dedup.length := by
  have h1 : (L.foldl addKey []).toFinset = L.toFinset := by
    ext n
    simp [addKey_foldl_mem]
  rw [← List.toFinset_card_of_nodup (addKey_foldl_nodup L [] List.nodup_nil), h1,
    List.card_toFinset]

theorem scanHeader_keys (stringTable : Memory) (inputIndex : Nat) (st : InitScan)
    (header : Elf64_Shdr) (headerIndex : Nat) :
    (scanHeader stringTable inputIndex st header headerIndex).sectionMap.map Prod.fst =
      if sectionTypeReachesOutput header.sh_type = true then
        addKey (st.sectionMap.map Prod.fst)
          (toOutputSectionName (cstrAt stringTable header.sh_name))
      else st.sectionMap.map Prod.fst := by
  unfold scanHeader
  simp only []
  cases hr : sectionTypeReachesOutput header.sh_type with
  | false =>
    simp only [Bool.not_false, if_true, Bool.false_eq_true, if_false]
    split_ifs <;> rfl
  | true =>
    simp only [Bool.not_true, Bool.false_eq_true, if_false, if_true, SectionMap.keys_push]
    split_ifs <;> rfl

theorem scanHeaders_keys (stringTable : Memory) (inputIndex : Nat) (headers : List Elf64_Shdr)
    (i : Nat) (st : InitScan) :
    (forEachIndexedFrom (scanHeader stringTable inputIndex) i headers st).sectionMap.map
        Prod.fst =
      (canonicalNamesOf stringTable headers).foldl addKey (st.sectionMap.map Prod.fst) := by
  induction headers generalizing i st with
  | nil => simp [forEachIndexedFrom, canonicalNamesOf]
  | cons h hs ih =>
    simp only [forEachIndexedFrom]
    rw [ih, scanHeader_keys]
    unfold canonicalNamesOf
    cases hr : sectionTypeReachesOutput h.sh_type with
    | false => simp [List.filter_cons, hr]
    | true => simp [List.filter_cons, hr]

theorem scanInputs_keys (sectionStringTables : List Memory)
    (sectionHeaders : List (List Elf64_Shdr)) (i : Nat) (st : InitScan) :
    (forEachIndexedFrom (scanInput sectionStringTables) i sectionHeaders st).sectionMap.map
        Prod.fst =
      (canonicalNamesFrom sectionStringTables i sectionHeaders).foldl addKey
        (st.sectionMap.map Prod.fst) := by
  induction sectionHeaders generalizing i st with
  | nil => simp [forEachIndexedFrom, canonicalNamesFrom]
  | cons headers rest ih =>
    simp only [forEachIndexedFrom, canonicalNamesFrom, List.foldl_append]
    rw [ih]
    congr 1
    unfold scanInput forEachIndexed
    rw [scanHeaders_keys]

theorem scanSections_length (sectionHeaders : List (List Elf64_Shdr))
    (sectionStringTables : List Memory) :
    (scanSections sectionHeaders sectionStringTables).sectionMap.length =
      distinctOutputNames sectionHeaders sectionStringTables := by
  have h := scanInputs_keys sectionStringTables sectionHeaders 0
    { inputToOutputSection := List.replicate sectionHeaders.length []
      totalNumberOfLocalSymbols := 0
      totalStringTableMemorySize := 0
      sectionMap := [] }
  have hlen := congrArg List.length h
  rw [List.length_map] at hlen
  unfold scanSections forEachIndexed distinctOutputNames
  rw [hlen]
  exact addKey_foldl_length _

theorem forEachIndexedFrom_invariant {α σ : Type} (f : σ → α → Nat → σ) (Q : σ → Prop)
    (hpres : ∀ s x i, Q s → Q (f s x i)) (xs : List α) (i : Nat) (s : σ) (hs : Q s) :
    Q (forEachIndexedFrom f i xs s) := by
  induction xs generalizing i s with
  | nil => exact hs
  | cons x xs ih => exact ih (i + 1) _ (hpres s x i hs)

theorem attributeOfSection_reported (sectionHeaders : List (List Elf64_Shdr)) (outSecID : Nat)
    (st : InitAttributes) (secRef : SectionRef) (sectionIndex : Nat)
    (h : ∀ x ∈ st.reported, ∃ o, x = InitReport.incompatibleSections o) :
    ∀ x ∈ (attributeOfSection sectionHeaders outSecID st secRef sectionIndex).reported,
      ∃ o, x = InitReport.incompatibleSections o := by
  unfold attributeOfSection
  simp only []
  split_ifs <;> simp only [List.mem_append, List.mem_singleton] <;> intro x hx
  all_goals first
    | exact h x hx
    | (rcases hx with hx | hx
       · exact h x hx
       · exact ⟨outSecID, hx⟩)

theorem initOutputSections_of_limit_le (sectionHeaders : List (List Elf64_Shdr))
    (sectionStringTables : List Memory)
    (h : SHN_LORESERVE - 4 ≤ distinctOutputNames sectionHeaders sectionStringTables) :
    (initOutputSections sectionHeaders sectionStringTables).status = StatusCode.not_ok ∧
    (initOutputSections sectionHeaders sectionStringTables).reported =
      [InitReport.tooManyOutputSections
        (distinctOutputNames sectionHeaders sectionStringTables)] := by
  have hlen := scanSections_length sectionHeaders sectionStringTables
  unfold initOutputSections
  simp only []
  rw [if_pos (by rw [hlen]; exact h), hlen]
  exact ⟨rfl, rfl⟩

theorem initOutputSections_of_lt_limit (sectionHeaders : List (List Elf64_Shdr))
    (sectionStringTables : List Memory)
    (h : distinctOutputNames sectionHeaders sectionStringTables < SHN_LORESERVE - 4) :
    (∀ c, InitReport.tooManyOutputSections c ∉
      (initOutputSections sectionHeaders sectionStringTables).reported) ∧
    (initOutputSections sectionHeaders sectionStringTables).names.length =
      distinctOutputNames sectionHeaders sectionStringTables := by
  have hlen := scanSections_length sectionHeaders sectionStringTables
  unfold initOutputSections
  simp only []
  rw [if_neg (by rw [hlen]; omega)]
  refine ⟨?_, by simp [hlen]⟩
  intro c hc
  have hinv : ∀ x ∈ (forEachIndexed
      ((scanSections sectionHeaders sectionStringTables).sectionMap.map Prod.snd)
      (fun st inputSections outSecID =>
        forEachIndexed inputSections (attributeOfSection sectionHeaders outSecID) st)
      { status := StatusCode.ok
        reported := []
        alignments := List.replicate
          ((scanSections sectionHeaders sectionStringTables).sectionMap.map Prod.fst).length 0
        types := List.replicate
          ((scanSections sectionHeaders sectionStringTables).sectionMap.map Prod.fst).length 0
        flags := List.replicate
          ((scanSections sectionHeaders sectionStringTables).sectionMap.map Prod.fst).length 0
        inputToOutputSection :=
          (scanSections sectionHeaders sectionStringTables).inputToOutputSection }).reported,
      ∃ o, x = InitReport.incompatibleSections o := by
    unfold forEachIndexed
    apply forEachIndexedFrom_invariant _
      (fun s : InitAttributes => ∀ x ∈ s.reported, ∃ o, x = InitReport.incompatibleSections o)
    · intro s inputSections outSecID hs
      apply forEachIndexedFrom_invariant _
        (fun s : InitAttributes =>
          ∀ x ∈ s.reported, ∃ o, x = InitReport.incompatibleSections o)
      · intro s' secRef sectionIndex hs'
        exact attributeOfSection_reported sectionHeaders outSecID s' secRef sectionIndex hs'
      · exact hs
    · simp
  obtain ⟨o, ho⟩ := hinv _ hc
  exact absurd ho (by simp)

/-- C9 (amended). `initOutputSections` reports "too many output sections", and returns
`not_ok`, exactly when the number of distinct canonical output-section names over all
inputs is at least `SHN_LORESERVE - 4 = 65276`; with a smaller number the count check
passes and the output sections are these names. -/
theorem initOutputSections_too_many (sectionHeaders : List (List Elf64_Shdr))
    (sectionStringTables : List Memory) :
    (SHN_LORESERVE - 4 ≤ distinctOutputNames sectionHeaders sectionStringTables →
      (initOutputSections sectionHeaders sectionStringTables).status = StatusCode.not_ok ∧
      (initOutputSections sectionHeaders sectionStringTables).reported =
        [InitReport.tooManyOutputSections
          (distinctOutputNames sectionHeaders sectionStringTables)]) ∧
    (distinctOutputNames sectionHeaders sectionStringTables < SHN_LORESERVE - 4 →
      (∀ c, InitReport.tooManyOutputSections c ∉
        (initOutputSections sectionHeaders sectionStringTables).reported) ∧
      (initOutputSections sectionHeaders sectionStringTables).names.length =
        distinctOutputNames sectionHeaders sectionStringTables) ∧
    SHN_LORESERVE - 4 = 65276 :=
  ⟨initOutputSections_of_limit_le sectionHeaders sectionStringTables,
   initOutputSections_of_lt_limit sectionHeaders sectionStringTables, by decide⟩

/-- Three sections with distinct names: the count check passes. -/
theorem initOutputSections_too_many_witness :
    (∀ c, InitReport.tooManyOutputSections c ∉
      (initOutputSections [manySectionHeaders 3] [manySectionNames 3]).reported) ∧
    (initOutputSections [manySectionHeaders 3] [manySectionNames 3]).names.length =
      distinctOutputNames [manySectionHeaders 3] [manySectionNames 3] :=
  (initOutputSections_too_many [manySectionHeaders 3] [manySectionNames 3]).2.1 (by decide)

theorem cstrOf_replicate (k : Nat) : cstrOf (List.replicate k 97 ++ [0]) = List.replicate k 97 := by
  induction k with
  | zero => simp [cstrOf]
  | succ k ih => simp [List.replicate_succ, cstrOf, ih]

theorem cstrAt_manySectionNames (n i : Nat) (h : i ≤ n) :
    cstrAt (manySectionNames n) i = List.replicate (n - i) 97 := by
  unfold cstrAt manySectionNames
  rw [List.drop_append_of_le_length (by simpa using h), List.drop_replicate]
  exact cstrOf_replicate _

theorem namesToTruncate_head : ∀ e ∈ namesToTruncate, e.head? = some 46 := by decide

theorem toOutputSectionName_replicate (k : Nat) :
    toOutputSectionName (List.replicate k 97) = List.replicate k 97 := by
  have hfind : namesToTruncate.find? (fun truncate => truncate.isPrefixOf (List.replicate k 97)) =
      none := by
    rw [List.find?_eq_none]
    intro e he
    have hhead := namesToTruncate_head e he
    cases e with
    | nil => simp at hhead
    | cons a e =>
      simp only [List.head?_cons, Option.some.injEq] at hhead
      subst hhead
      cases k with
      | zero => simp [List.isPrefixOf]
      | succ k => simp [List.replicate_succ, List.isPrefixOf]
  unfold toOutputSectionName
  rw [hfind]

theorem canonicalNamesOf_many (n : Nat) :
    canonicalNamesOf (manySectionNames n) (manySectionHeaders n) =
      (List.range n).map (fun i => List.replicate (n - i) 97) := by
  unfold canonicalNamesOf manySectionHeaders
  have h0 : sectionTypeReachesOutput (default : Elf64_Shdr).sh_type = false := by decide
  rw [List.filter_cons, h0]
  simp only [Bool.false_eq_true, if_false]
  have hall : ((List.range n).map progbitsHeader).filter
      (fun h => sectionTypeReachesOutput h.sh_type) = (List.range n).map progbitsHeader := by
    rw [List.filter_eq_self]
    intro h hh
    obtain ⟨i, _, rfl⟩ := List.mem_map.mp hh
    show sectionTypeReachesOutput SHT_PROGBITS = true
    decide
  rw [hall, List.map_map]
  apply List.map_congr_left
  intro i hi
  have hi' : i < n := List.mem_range.mp hi
  simp only [Function.comp, progbitsHeader]
  rw [cstrAt_manySectionNames n i (by omega), toOutputSectionName_replicate]

theorem distinctOutputNames_many (n : Nat) :
    distinctOutputNames [manySectionHeaders n] [manySectionNames n] = n := by
  unfold distinctOutputNames
  simp only [canonicalNamesFrom, List.append_nil]
  have hget : [manySectionNames n].getD 0 [] = manySectionNames n := rfl
  rw [hget, canonicalNamesOf_many]
  have hnodup : ((List.range n).map (fun i => List.replicate (n - i) 97)).Nodup := by
    apply List.Nodup.map_on _ (List.nodup_range n)
    intro x hx y hy hxy
    have hx' := List.mem_range.mp hx
    have hy' := List.mem_range.mp hy
    have := congrArg List.length hxy
    simp only [List.length_replicate] at this
    omega
  rw [hnodup.dedup, List.length_map, List.length_range]

/-- C9 as stated fails: an object with `SHN_LORESERVE - 4 = 65276` sections of pairwise
distinct names has 65276 distinct canonical names, which does not exceed
`SHN_LORESERVE - 4`, and `initOutputSections` reports "too many output sections" and
returns `not_ok`. -/
theorem initOutputSections_rejects_limit :
    distinctOutputNames [manySectionHeaders 65276] [manySectionNames 65276] = 65276 ∧
    ¬ (65276 > SHN_LORESERVE - 4) ∧
    (initOutputSections [manySectionHeaders 65276] [manySectionNames 65276]).status =
      StatusCode.not_ok ∧
    (initOutputSections [manySectionHeaders 65276] [manySectionNames 65276]).reported =
      [InitReport.tooManyOutputSections 65276] := by
  have hcount := distinctOutputNames_many 65276
  have h := initOutputSections_of_limit_le [manySectionHeaders 65276]
    [manySectionNames 65276] (by rw [hcount]; decide)
  rw [hcount] at h
  exact ⟨hcount, by decide, h.1, h.2⟩
/-! ## Claim C10: merged sections -/

theorem tiled_append (K : List (List Nat)) (e : List Nat) (off : Nat) :
    tiled (K ++ [e]) off = tiled K off ++ [(e, off + totalLength K)] := by
  induction K generalizing off with
  | nil => simp [tiled, totalLength]
  | cons d ds ih =>
    show (d, off) :: tiled (ds ++ [e]) (off + d.length) = _
    rw [ih]
    simp [tiled, totalLength, Nat.add_assoc]

theorem elementOffset_tiled_none (K : List (List Nat)) (e : List Nat) (off : Nat) :
    elementOffset (tiled K off) e = none ↔ e ∉ K := by
  induction K generalizing off with
  | nil => simp [tiled, elementOffset]
  | cons d ds ih =>
    simp only [tiled, elementOffset, List.mem_cons]
    by_cases h : d = e
    · simp [h]
    · have h' : ¬ e = d := fun x => h x.symm
      simp [h, h', ih]

theorem elementOffset_tiled (K : List (List Nat)) (e : List Nat) (off : Nat) (h : e ∈ K) :
    elementOffset (tiled K off) e = some (off + dstOffsetOf K e) := by
  induction K generalizing off with
  | nil => simp at h
  | cons d ds ih =>
    simp only [tiled, elementOffset]
    by_cases hd : d = e
    · simp [hd, dstOffsetOf, totalLength]
    · have hmem : e ∈ ds := by
        rcases List.mem_cons.mp h with h1 | h1
        · exact absurd h1.symm hd
        · exact h1
      rw [if_neg hd, ih _ hmem]
      simp [dstOffsetOf, totalLength, List.takeWhile_cons, hd, Nat.add_assoc]

theorem totalLength_append (K L : List (List Nat)) :
    totalLength (K ++ L) = totalLength K + totalLength L := by
  simp [totalLength]

theorem tryEmplace_tiled (K : List (List Nat)) (e : List Nat) :
    tryEmplace (totalLength K, tiled K 0) e = (totalLength (addKey K e), tiled (addKey K e) 0) := by
  unfold tryEmplace addKey
  by_cases h : e ∈ K
  · rw [if_pos h]
    have := elementOffset_tiled K e 0 h
    simp only [this]
  · rw [if_neg h]
    have := (elementOffset_tiled_none K e 0).2 h
    simp only [this, tiled_append, totalLength_append]
    simp [totalLength]

theorem foldl_tryEmplace_tiled (L K : List (List Nat)) :
    L.foldl tryEmplace (totalLength K, tiled K 0) =
      (totalLength (L.foldl addKey K), tiled (L.foldl addKey K) 0) := by
  induction L generalizing K with
  | nil => rfl
  | cons e L ih => rw [List.foldl_cons, tryEmplace_tiled, ih, List.foldl_cons]

theorem nextElement_length (useFixedLength : Bool) (entsize : Nat) (bytes e rest : List Nat)
    (hprogress : useFixedLength = false ∨ 0 < entsize)
    (h : nextElement useFixedLength entsize bytes = some (e, rest)) :
    0 < e.length ∧ e.length + rest.length = bytes.length := by
  unfold nextElement nextEndDistance at h
  simp only [] at h
  split_ifs at h with h1 h2
  all_goals
    simp only [Option.some.injEq, Prod.mk.injEq] at h
    obtain ⟨rfl, rfl⟩ := h
    simp only [List.length_take, List.length_drop]
    rcases hprogress with hp | hp
    · simp_all
      try omega
    · simp_all
      try omega

theorem splitLoop_ne_diverges (useFixedLength : Bool) (entsize : Nat)
    (hprogress : useFixedLength = false ∨ 0 < entsize) (fuel stringsStart : Nat)
    (bytes : List Nat) (hfuel : bytes.length ≤ fuel) :
    splitLoop useFixedLength entsize fuel stringsStart bytes ≠ SplitResult.diverges := by
  induction fuel generalizing stringsStart bytes with
  | zero =>
    cases bytes with
    | nil => simp [splitLoop]
    | cons b bs => simp at hfuel
  | succ fuel ih =>
    cases bytes with
    | nil => simp [splitLoop]
    | cons b bs =>
      unfold splitLoop
      split_ifs with hwrap
      · simp
      · cases hnext : nextElement useFixedLength entsize (b :: bs) with
        | none => simp
        | some p =>
          obtain ⟨e, rest⟩ := p
          have hlen := nextElement_length _ _ _ _ _ hprogress hnext
          have hrest : rest.length ≤ fuel := by
            simp only [List.length_cons] at hlen hfuel
            omega
          have := ih (stringsStart + e.length) rest hrest
          simp only []
          cases hrec : splitLoop useFixedLength entsize fuel (stringsStart + e.length) rest with
          | elements es => simp
          | outOfBounds => simp
          | undefined => simp
          | diverges => exact absurd hrec this

theorem splitLoop_fuel (useFixedLength : Bool) (entsize : Nat)
    (hprogress : useFixedLength = false ∨ 0 < entsize) (fuel fuel2 stringsStart : Nat)
    (bytes : List Nat) (hfuel : bytes.length ≤ fuel) (hfuel2 : bytes.length ≤ fuel2) :
    splitLoop useFixedLength entsize fuel stringsStart bytes =
      splitLoop useFixedLength entsize fuel2 stringsStart bytes := by
  induction fuel generalizing fuel2 stringsStart bytes with
  | zero =>
    cases bytes with
    | nil => cases fuel2 <;> simp [splitLoop]
    | cons b bs => simp at hfuel
  | succ fuel ih =>
    cases bytes with
    | nil => cases fuel2 <;> simp [splitLoop]
    | cons b bs =>
      cases fuel2 with
      | zero => simp at hfuel2
      | succ fuel2 =>
        unfold splitLoop
        split_ifs with hwrap
        · rfl
        · cases hnext : nextElement useFixedLength entsize (b :: bs) with
          | none => rfl
          | some p =>
            obtain ⟨e, rest⟩ := p
            have hlen := nextElement_length _ _ _ _ _ hprogress hnext
            simp only [List.length_cons] at hlen hfuel hfuel2
            simp only []
            rw [ih fuel2 (stringsStart + e.length) rest (by omega) (by omega)]

/-- With fixed-length elements of size zero the element loop never ends on a section that
has bytes: no amount of fuel is enough. -/
theorem splitLoop_diverges (fuel stringsStart : Nat) (hs : stringsStart < 2 ^ 64) (b : Nat)
    (bs : List Nat) :
    splitLoop true 0 fuel stringsStart (b :: bs) = SplitResult.diverges := by
  induction fuel with
  | zero => rfl
  | succ fuel ih =>
    unfold splitLoop
    rw [if_neg (by simp [nextEndDistance]; omega)]
    simp [nextElement, nextEndDistance, ih]

/-- The element loop ends with undefined behaviour only when a pointer sum leaves the
address space: not when the bytes, and one element more, lie below `2^64`. -/
theorem splitLoop_ne_undefined (useFixedLength : Bool) (entsize : Nat) (fuel stringsStart : Nat)
    (bytes : List Nat)
    (hfit : stringsStart + bytes.length + nextEndDistance useFixedLength entsize [] ≤ 2 ^ 64)
    (hfix : useFixedLength = false → stringsStart + bytes.length + 1 < 2 ^ 64) :
    splitLoop useFixedLength entsize fuel stringsStart bytes ≠ SplitResult.undefined := by
  induction fuel generalizing stringsStart bytes with
  | zero =>
    cases bytes with
    | nil => simp [splitLoop]
    | cons b bs => simp [splitLoop]
  | succ fuel ih =>
    cases bytes with
    | nil => simp [splitLoop]
    | cons b bs =>
      unfold splitLoop
      have hnowrap : ¬ 2 ^ 64 ≤ stringsStart + nextEndDistance useFixedLength entsize (b :: bs) := by
        cases hu : useFixedLength with
        | true =>
          subst hu
          simp only [nextEndDistance, if_true] at hfit ⊢
          simp only [List.length_cons] at hfit
          omega
        | false =>
          have h2 := hfix hu
          subst hu
          have : nextEndDistance false entsize (b :: bs) ≤ (b :: bs).length + 1 := by
            unfold nextEndDistance
            simp only [Bool.false_eq_true, if_false]
            have := (List.takeWhile_sublist (fun x => decide (x ≠ 0)) (l := b :: bs)).length_le
            omega
          omega
      rw [if_neg hnowrap]
      cases hnext : nextElement useFixedLength entsize (b :: bs) with
      | none => simp
      | some p =>
        obtain ⟨e, rest⟩ := p
        have hlen : e.length + rest.length = (b :: bs).length := by
          unfold nextElement at hnext
          simp only [] at hnext
          split_ifs at hnext with h1
          simp only [Option.some.injEq, Prod.mk.injEq] at hnext
          obtain ⟨rfl, rfl⟩ := hnext
          simp only [List.length_take, List.length_drop]
          omega
        have := ih (stringsStart + e.length) rest (by omega) (fun hu => by
          have := hfix hu
          omega)
        simp only []
        cases hrec : splitLoop useFixedLength entsize fuel (stringsStart + e.length) rest with
        | elements es => simp
        | outOfBounds => simp
        | diverges => simp
        | undefined => exact absurd hrec this

theorem mergeScan_done (inputs : List ElfInput) (mergeType : MergeType)
    (refs : List SectionRef) (st st' : MergeState)
    (h : mergeScan inputs mergeType refs st = MergeScan.done st') :
    st'.inputSectionCopyCommands = resizedCommands inputs refs st.inputSectionCopyCommands ∧
    st'.sectionElements = st.sectionElements ++ refs.map (sectionElementsOf inputs mergeType) ∧
    (st'.outSectionSize, st'.elementToOutSectionOffset) =
      (mergedElements inputs mergeType refs).foldl tryEmplace
        (st.outSectionSize, st.elementToOutSectionOffset) := by
  induction refs generalizing st with
  | nil =>
    simp only [mergeScan, MergeScan.done.injEq] at h
    subst h
    simp [resizedCommands, mergedElements]
  | cons r rest ih =>
    unfold mergeScan at h
    simp only [] at h
    cases hsplit : splitSection inputs mergeType r with
    | diverges =>
      rw [hsplit] at h
      simp at h
    | undefined =>
      rw [hsplit] at h
      simp at h
    | outOfBounds =>
      rw [hsplit] at h
      simp at h
    | elements es =>
      rw [hsplit] at h
      simp only [] at h
      obtain ⟨h1, h2, h3⟩ := ih _ h
      refine ⟨?_, ?_, ?_⟩
      · rw [h1]
        simp [resizedCommands, headerCount]
      · rw [h2]
        simp [sectionElementsOf, hsplit]
      · rw [h3]
        simp [mergedElements, sectionElementsOf, hsplit, List.foldl_append]

theorem splitSection_ne_diverges (inputs : List ElfInput) (mergeType : MergeType)
    (r : SectionRef) (h : mergeType = MergeType.fixedLength → 0 < entsizeOf inputs r) :
    splitSection inputs mergeType r ≠ SplitResult.diverges := by
  unfold splitSection splitElements
  simp only []
  split_ifs
  · simp
  · apply splitLoop_ne_diverges _ _ _ _ _ _ (le_refl _)
    by_cases hm : mergeType = MergeType.fixedLength
    · exact Or.inr (h hm)
    · exact Or.inl (by simp [hm])

theorem mergeScan_ne_diverges (inputs : List ElfInput) (mergeType : MergeType)
    (refs : List SectionRef) (st : MergeState)
    (h : ∀ r ∈ refs, mergeType = MergeType.fixedLength → 0 < entsizeOf inputs r) :
    mergeScan inputs mergeType refs st ≠ MergeScan.diverges := by
  induction refs generalizing st with
  | nil => simp [mergeScan]
  | cons r rest ih =>
    unfold mergeScan
    simp only []
    have hr := splitSection_ne_diverges inputs mergeType r (h r (List.mem_cons_self _ _))
    cases hsplit : splitSection inputs mergeType r with
    | diverges => exact absurd hsplit hr
    | undefined => simp
    | outOfBounds => simp
    | elements es =>
      simp only []
      exact ih _ (fun r' hr' => h r' (List.mem_cons_of_mem _ hr'))

/-- The first loop of `mergeSections` ends with `done` exactly when the element loop
splits every section into elements. -/
theorem mergeScan_done_iff (inputs : List ElfInput) (mergeType : MergeType)
    (refs : List SectionRef) (st : MergeState) :
    (∃ st', mergeScan inputs mergeType refs st = MergeScan.done st') ↔
      ∀ r ∈ refs, ∃ es, splitSection inputs mergeType r = SplitResult.elements es := by
  induction refs generalizing st with
  | nil => simp [mergeScan]
  | cons r rest ih =>
    unfold mergeScan
    simp only []
    cases hsplit : splitSection inputs mergeType r with
    | diverges =>
      simp only [List.mem_cons, forall_eq_or_imp, hsplit]
      simp
    | undefined =>
      simp only [List.mem_cons, forall_eq_or_imp, hsplit]
      simp
    | outOfBounds =>
      simp only [List.mem_cons, forall_eq_or_imp, hsplit]
      simp
    | elements es =>
      simp only [List.mem_cons, forall_eq_or_imp, hsplit]
      rw [ih]
      simp

theorem resizeTo_length {α : Type} (n : Nat) (x : α) (l : List α) :
    (resizeTo n x l).length = n := by
  simp only [resizeTo, List.length_append, List.length_take, List.length_replicate]
  omega

theorem resizedCommands_length (inputs : List ElfInput) (refs : List SectionRef)
    (cmds : List (List SectionMemCopies)) :
    (resizedCommands inputs refs cmds).length = cmds.length := by
  induction refs generalizing cmds with
  | nil => rfl
  | cons r rest ih => simp [resizedCommands, ih]

theorem getD_set_self {α : Type} (l : List α) (i : Nat) (x d : α) (h : i < l.length) :
    (l.set i x).getD i d = x := by
  simp [List.getD, h]

theorem getD_set_ne {α : Type} (l : List α) (i j : Nat) (x d : α) (h : i ≠ j) :
    (l.set i x).getD j d = l.getD j d := by
  simp [List.getD, List.getElem?_set_ne h]

theorem resizedCommands_width (inputs : List ElfInput) (refs : List SectionRef)
    (cmds : List (List SectionMemCopies)) (i : Nat) (hi : i < cmds.length) :
    ((resizedCommands inputs refs cmds).getD i []).length =
      if i ∈ refs.map SectionRef.elfIndex then headerCount inputs i
      else (cmds.getD i []).length := by
  induction refs generalizing cmds with
  | nil => simp [resizedCommands]
  | cons r rest ih =>
    simp only [resizedCommands, List.map_cons, List.mem_cons]
    rw [ih _ (by simpa using hi)]
    by_cases hrest : i ∈ rest.map SectionRef.elfIndex
    · simp [hrest]
    · rw [if_neg hrest]
      by_cases hr : i = r.elfIndex
      · subst hr
        rw [getD_set_self _ _ _ _ hi, resizeTo_length]
        simp
      · have hr' : r.elfIndex ≠ i := fun x => hr x.symm
        rw [getD_set_ne _ _ _ _ _ hr']
        simp [hr, hrest]

theorem set2D_length {α : Type} (v : List (List α)) (i j : Nat) (x : α) :
    (set2D v i j x).length = v.length := by
  simp [set2D]

theorem set2D_width {α : Type} (v : List (List α)) (i j k : Nat) (x : α) :
    ((set2D v i j x).getD k []).length = (v.getD k []).length := by
  unfold set2D
  by_cases hk : i = k
  · subst hk
    by_cases hi : i < v.length
    · rw [getD_set_self _ _ _ _ hi]
      simp
    · rw [List.set_eq_of_length_le (by omega)]
  · rw [getD_set_ne _ _ _ _ _ hk]

theorem get2D_set2D_self {α : Type} [Inhabited α] (v : List (List α)) (i j : Nat) (x : α)
    (hi : i < v.length) (hj : j < (v.getD i []).length) :
    get2D (set2D v i j x) i j = x := by
  unfold get2D set2D
  rw [getD_set_self _ _ _ _ hi, getD_set_self _ _ _ _ hj]

theorem get2D_set2D_ne {α : Type} [Inhabited α] (v : List (List α)) (i j i2 j2 : Nat) (x : α)
    (h : ¬ (i = i2 ∧ j = j2)) :
    get2D (set2D v i j x) i2 j2 = get2D v i2 j2 := by
  unfold get2D set2D
  by_cases hi : i = i2
  · subst hi
    have hj : j ≠ j2 := fun hj => h ⟨rfl, hj⟩
    by_cases hlt : i < v.length
    · rw [getD_set_self _ _ _ _ hlt, getD_set_ne _ _ _ _ _ hj]
    · rw [List.set_eq_of_length_le (by omega)]
  · rw [getD_set_ne _ _ _ _ _ hi]

theorem writePartCopies_other (m : List (List Nat × Nat)) (refs : List SectionRef)
    (els : List (List (List Nat))) (cmds : List (List SectionMemCopies)) (i j : Nat)
    (h : ∀ r ∈ refs, ¬ (r.elfIndex = i ∧ r.headerIndex = j)) :
    get2D (writePartCopies m refs els cmds) i j = get2D cmds i j := by
  induction refs generalizing els cmds with
  | nil => simp [writePartCopies]
  | cons r rest ih =>
    cases els with
    | nil => simp [writePartCopies]
    | cons e els =>
      simp only [writePartCopies]
      rw [ih _ _ (fun r' hr' => h r' (List.mem_cons_of_mem _ hr'))]
      exact get2D_set2D_ne _ _ _ _ _ _ (h r (List.mem_cons_self _ _))

theorem writePartCopies_get (m : List (List Nat × Nat)) (refs : List SectionRef)
    (f : SectionRef → List (List Nat)) (cmds : List (List SectionMemCopies)) (r : SectionRef)
    (hr : r ∈ refs) (hnodup : refs.Nodup)
    (hin : ∀ r ∈ refs, r.elfIndex < cmds.length ∧
      r.headerIndex < (cmds.getD r.elfIndex []).length) :
    get2D (writePartCopies m refs (refs.map f) cmds) r.elfIndex r.headerIndex =
      SectionMemCopies.parts (partCopiesOf m (f r)) := by
  induction refs generalizing cmds with
  | nil => simp at hr
  | cons a rest ih =>
    simp only [List.map_cons, writePartCopies]
    have hnd := List.nodup_cons.mp hnodup
    rcases List.mem_cons.mp hr with rfl | hrest
    · rw [writePartCopies_other]
      · exact get2D_set2D_self _ _ _ _ (hin r (List.mem_cons_self _ _)).1
          (hin r (List.mem_cons_self _ _)).2
      · intro r' hr' heq
        have : r' = r := by
          cases r'
          cases r
          simp only [SectionRef.mk.injEq]
          exact heq
        exact hnd.1 (this ▸ hr')
    · apply ih _ hrest hnd.2
      intro r' hr'
      have := hin r' (List.mem_cons_of_mem _ hr')
      rw [set2D_length, set2D_width]
      exact this

theorem writeAt_length (v : List Nat) (off : Nat) (b : List Nat)
    (h : off + b.length ≤ v.length) : (writeAt v off b).length = v.length := by
  simp only [writeAt, List.length_append, List.length_take, List.length_drop]
  omega

theorem getElem?_writeAt_inside (v : List Nat) (off : Nat) (b : List Nat) (j : Nat)
    (h : off + b.length ≤ v.length) (hj : j < b.length) :
    (writeAt v off b)[off + j]? = b[j]? := by
  unfold writeAt
  have hlen : (v.take off).length = off := by simp; omega
  rw [List.append_assoc, List.getElem?_append_right (by omega), hlen,
    List.getElem?_append_left (by omega)]
  congr 1
  omega

theorem getElem?_writeAt_outside (v : List Nat) (off : Nat) (b : List Nat) (i : Nat)
    (h : off + b.length ≤ v.length) (hi : i < off ∨ off + b.length ≤ i) :
    (writeAt v off b)[i]? = v[i]? := by
  unfold writeAt
  have hlen : (v.take off).length = off := by simp; omega
  rcases hi with hi | hi
  · rw [List.append_assoc, List.getElem?_append_left (by omega)]
    rw [List.getElem?_take, if_pos hi]
  · rw [List.getElem?_append_right (by simp; omega)]
    simp only [List.length_append, hlen, List.getElem?_drop]
    congr 1
    omega

theorem foldl_writeAt_length (entries : List (List Nat × Nat)) (v : List Nat) (n : Nat)
    (hv : v.length = n) (hin : ∀ p ∈ entries, p.2 + p.1.length ≤ n) :
    (entries.foldl (fun view p => writeAt view p.2 p.1) v).length = n := by
  induction entries generalizing v with
  | nil => exact hv
  | cons q rest ih =>
    rw [List.foldl_cons]
    apply ih
    · rw [writeAt_length _ _ _ (by rw [hv]; exact hin q (List.mem_cons_self _ _)), hv]
    · exact fun p hp => hin p (List.mem_cons_of_mem _ hp)

theorem foldl_writeAt_outside (entries : List (List Nat × Nat)) (v : List Nat) (n i : Nat)
    (hv : v.length = n) (hin : ∀ p ∈ entries, p.2 + p.1.length ≤ n)
    (hout : ∀ p ∈ entries, i < p.2 ∨ p.2 + p.1.length ≤ i) :
    (entries.foldl (fun view p => writeAt view p.2 p.1) v)[i]? = v[i]? := by
  induction entries generalizing v with
  | nil => rfl
  | cons q rest ih =>
    have hq := hin q (List.mem_cons_self _ _)
    rw [List.foldl_cons, ih]
    · exact getElem?_writeAt_outside _ _ _ _ (by rw [hv]; exact hq)
        (hout q (List.mem_cons_self _ _))
    · rw [writeAt_length _ _ _ (by rw [hv]; exact hq), hv]
    · exact fun p hp => hin p (List.mem_cons_of_mem _ hp)
    · exact fun p hp => hout p (List.mem_cons_of_mem _ hp)

theorem foldl_writeAt_inside (entries : List (List Nat × Nat)) (v : List Nat) (n : Nat)
    (hv : v.length = n) (hin : ∀ p ∈ entries, p.2 + p.1.length ≤ n)
    (hdis : entries.Pairwise disjointWrites) (p : List Nat × Nat) (hp : p ∈ entries) (j : Nat)
    (hj : j < p.1.length) :
    (entries.foldl (fun view p => writeAt view p.2 p.1) v)[p.2 + j]? = p.1[j]? := by
  induction entries generalizing v with
  | nil => simp at hp
  | cons q rest ih =>
    have hq := hin q (List.mem_cons_self _ _)
    have hpw := List.pairwise_cons.mp hdis
    have hlen : (writeAt v q.2 q.1).length = n := by
      rw [writeAt_length _ _ _ (by rw [hv]; exact hq), hv]
    rw [List.foldl_cons]
    rcases List.mem_cons.mp hp with rfl | hrest
    · rw [foldl_writeAt_outside rest _ n _ hlen (fun r hr => hin r (List.mem_cons_of_mem _ hr))]
      · exact getElem?_writeAt_inside _ _ _ _ (by rw [hv]; exact hq) hj
      · intro r hr
        rcases hpw.1 r hr with h1 | h1
        · left
          omega
        · right
          omega
    · exact ih _ hlen (fun r hr => hin r (List.mem_cons_of_mem _ hr)) hpw.2 hrest

theorem tiled_range (D : List (List Nat)) (off : Nat) :
    ∀ p ∈ tiled D off, off ≤ p.2 ∧ p.2 + p.1.length ≤ off + totalLength D := by
  induction D generalizing off with
  | nil => simp [tiled]
  | cons d ds ih =>
    intro p hp
    simp only [tiled, List.mem_cons] at hp
    have htl : totalLength (d :: ds) = d.length + totalLength ds := by simp [totalLength]
    rcases hp with rfl | hp
    · simp only [htl]
      omega
    · have := ih _ p hp
      rw [htl]
      omega

theorem tiled_pairwise (D : List (List Nat)) (off : Nat) :
    (tiled D off).Pairwise disjointWrites := by
  induction D generalizing off with
  | nil => simp [tiled]
  | cons d ds ih =>
    simp only [tiled, List.pairwise_cons]
    refine ⟨fun p hp => Or.inl ?_, ih _⟩
    exact (tiled_range ds _ p hp).1

theorem tiled_flatten (D : List (List Nat)) (off : Nat) :
    ∀ p ∈ tiled D off, ∀ j, j < p.1.length → D.flatten[p.2 - off + j]? = p.1[j]? := by
  induction D generalizing off with
  | nil => simp [tiled]
  | cons d ds ih =>
    intro p hp j hj
    simp only [tiled, List.mem_cons] at hp
    rw [List.flatten_cons]
    rcases hp with rfl | hp
    · simp only [Nat.sub_self, Nat.zero_add]
      exact List.getElem?_append_left hj
    · have hr := (tiled_range ds _ p hp).1
      rw [List.getElem?_append_right (by omega), ← ih _ p hp j hj]
      congr 1
      omega

theorem tiled_cover (D : List (List Nat)) (off i : Nat) (h1 : off ≤ i)
    (h2 : i < off + totalLength D) :
    ∃ p ∈ tiled D off, p.2 ≤ i ∧ i < p.2 + p.1.length := by
  induction D generalizing off with
  | nil => simp [totalLength] at h2; omega
  | cons d ds ih =>
    have htl : totalLength (d :: ds) = d.length + totalLength ds := by simp [totalLength]
    by_cases hi : i < off + d.length
    · exact ⟨(d, off), by simp [tiled], h1, hi⟩
    · obtain ⟨p, hp, h3⟩ := ih (off + d.length) (by omega) (by rw [htl] at h2; omega)
      exact ⟨p, by simp [tiled, hp], h3⟩

theorem disjointWrites_symm (p q : List Nat × Nat) (h : disjointWrites p q) :
    disjointWrites q p := Or.symm h

/-- The writes of the elements give the concatenation of the distinct elements, in
whatever order they are done and whatever the buffer held before. -/
theorem materialized_eq_flatten (D : List (List Nat)) (order : List (List Nat × Nat))
    (buf : List Nat) (hperm : order.Perm (tiled D 0)) (hbuf : buf.length = totalLength D) :
    order.foldl (fun view p => writeAt view p.2 p.1) buf = D.flatten := by
  have hin : ∀ p ∈ order, p.2 + p.1.length ≤ totalLength D := by
    intro p hp
    have := (tiled_range D 0 p (hperm.mem_iff.1 hp)).2
    omega
  have hdis : order.Pairwise disjointWrites :=
    (List.Perm.pairwise_iff (fun {a b} h => disjointWrites_symm a b h) hperm).2
      (tiled_pairwise D 0)
  have hlen := foldl_writeAt_length order buf _ hbuf hin
  have hflat : D.flatten.length = totalLength D := by simp [totalLength, List.length_flatten]
  apply List.ext_getElem?
  intro i
  by_cases hi : i < totalLength D
  · obtain ⟨p, hp, h3, h4⟩ := tiled_cover D 0 i (Nat.zero_le _) (by omega)
    obtain ⟨j, rfl⟩ : ∃ j, i = p.2 + j := ⟨i - p.2, by omega⟩
    rw [foldl_writeAt_inside order buf _ hbuf hin hdis p (hperm.mem_iff.2 hp) j (by omega),
      ← tiled_flatten D 0 p hp j (by omega)]
    simp
  · rw [List.getElem?_eq_none (by omega), List.getElem?_eq_none (by omega)]

theorem flatten_at_dstOffset (D : List (List Nat)) (e : List Nat) (he : e ∈ D) :
    (D.flatten.drop (dstOffsetOf D e)).take e.length = e := by
  induction D with
  | nil => simp at he
  | cons d ds ih =>
    rw [List.flatten_cons]
    by_cases hd : d = e
    · subst hd
      simp [dstOffsetOf, totalLength]
    · have hmem : e ∈ ds := by
        rcases List.mem_cons.mp he with h1 | h1
        · exact absurd h1.symm hd
        · exact h1
      have hoff : dstOffsetOf (d :: ds) e = d.length + dstOffsetOf ds e := by
        simp [dstOffsetOf, totalLength, List.takeWhile_cons, hd]
      rw [hoff, List.drop_append]
      exact ih hmem

theorem dstOffsetOf_getElem (D : List (List Nat)) (hD : D.Nodup) (k : Nat) (hk : k < D.length) :
    dstOffsetOf D D[k] = totalLength (D.take k) := by
  induction D generalizing k with
  | nil => simp at hk
  | cons d ds ih =>
    have hnd := List.nodup_cons.mp hD
    cases k with
    | zero => simp [dstOffsetOf, totalLength]
    | succ k =>
      have hk' : k < ds.length := by simpa using hk
      have hne : d ≠ ds[k] := fun h => hnd.1 (h ▸ List.getElem_mem _)
      have := ih hnd.2 k hk'
      simp only [List.getElem_cons_succ, List.take_succ_cons]
      simp only [dstOffsetOf, totalLength, List.map_cons, List.sum_cons] at this ⊢
      rw [List.takeWhile_cons, if_pos (by simpa using hne), List.map_cons, List.sum_cons, this]

theorem totalLength_take_le (D : List (List Nat)) (j k : Nat) (hj : j < k) (hk : k ≤ D.length) :
    totalLength (D.take j) + (D.getD j []).length ≤ totalLength (D.take k) := by
  induction D generalizing j k with
  | nil => simp at hk; omega
  | cons d ds ih =>
    cases k with
    | zero => omega
    | succ k =>
      cases j with
      | zero => simp [totalLength]
      | succ j =>
        have := ih j k (by omega) (by simpa using hk)
        simp only [List.take_succ_cons, totalLength, List.map_cons, List.sum_cons,
          List.getD_cons_succ] at this ⊢
        omega

theorem partCopiesOf_tiled (D : List (List Nat)) (es : List (List Nat))
    (h : ∀ e ∈ es, e ∈ D) :
    partCopiesOf (tiled D 0) es =
      es.map (fun e => { size := e.length, dstOffset := dstOffsetOf D e }) := by
  unfold partCopiesOf
  apply List.map_congr_left
  intro e he
  rw [elementOffset_tiled D e 0 (h e he)]
  simp

theorem mem_mergedElements (inputs : List ElfInput) (mergeType : MergeType)
    (refs : List SectionRef) (r : SectionRef) (hr : r ∈ refs) (e : List Nat)
    (he : e ∈ sectionElementsOf inputs mergeType r) :
    e ∈ mergedElements inputs mergeType refs := by
  unfold mergedElements
  exact List.mem_flatMap.mpr ⟨r, hr, he⟩

/-- C10. `mergeSections` returns `ok` exactly when its element loop splits every input
section into elements.  When it returns `ok`, every element of every input section gets the copy
command with its length and the offset `dstOffsetOf`, which depends on the bytes of the
element only, so that byte-identical elements share it; the distinct elements, in the
order of their first occurrence, have no duplicates, each starts where the one before it
ends, the first at zero, so that their ranges are pairwise disjoint; the size of the
output section is the sum of their lengths; and the materialized view is their
concatenation, which holds the bytes of each at its offset. -/
theorem mergeSections_deduplicates (inputs : List ElfInput) (sectionRefs : List SectionRef)
    (outSectionID : Nat) (mergeType : MergeType) (allocate : Nat → List Nat)
    (visitOrder : List (List Nat × Nat) → List (List Nat × Nat))
    (outputSectionSizes : List Nat) (inputSectionCopyCommands : List (List SectionMemCopies))
    (hrefs : sectionRefs.Nodup)
    (hrange : ∀ r ∈ sectionRefs, r.elfIndex < inputSectionCopyCommands.length ∧
      r.headerIndex < headerCount inputs r.elfIndex)
    (hid : outSectionID < outputSectionSizes.length)
    (halloc : ∀ n, (allocate n).length = n)
    (hvisit : ∀ m, (visitOrder m).Perm m) :
    ((∃ out, mergeSections inputs sectionRefs outSectionID mergeType allocate visitOrder
        outputSectionSizes inputSectionCopyCommands = some out ∧ out.status = StatusCode.ok) ↔
      ∀ r ∈ sectionRefs, ∃ es, splitSection inputs mergeType r = SplitResult.elements es) ∧
    ∀ out, mergeSections inputs sectionRefs outSectionID mergeType allocate visitOrder
        outputSectionSizes inputSectionCopyCommands = some out →
      out.status = StatusCode.ok →
      (∀ r ∈ sectionRefs, get2D out.inputSectionCopyCommands r.elfIndex r.headerIndex =
        SectionMemCopies.parts ((sectionElementsOf inputs mergeType r).map (fun e =>
          { size := e.length
            dstOffset :=
              dstOffsetOf (distinctElements (mergedElements inputs mergeType sectionRefs)) e }))) ∧
      (distinctElements (mergedElements inputs mergeType sectionRefs)).Nodup ∧
      (∀ e, e ∈ distinctElements (mergedElements inputs mergeType sectionRefs) ↔
        e ∈ mergedElements inputs mergeType sectionRefs) ∧
      (∀ k (hk : k < (distinctElements (mergedElements inputs mergeType sectionRefs)).length),
        dstOffsetOf (distinctElements (mergedElements inputs mergeType sectionRefs))
            (distinctElements (mergedElements inputs mergeType sectionRefs))[k] =
          totalLength ((distinctElements (mergedElements inputs mergeType sectionRefs)).take k)) ∧
      (∀ j k (hj : j < (distinctElements (mergedElements inputs mergeType sectionRefs)).length)
          (hk : k < (distinctElements (mergedElements inputs mergeType sectionRefs)).length),
        j < k →
        dstOffsetOf (distinctElements (mergedElements inputs mergeType sectionRefs))
            (distinctElements (mergedElements inputs mergeType sectionRefs))[j] +
          ((distinctElements (mergedElements inputs mergeType sectionRefs))[j]).length ≤
        dstOffsetOf (distinctElements (mergedElements inputs mergeType sectionRefs))
            (distinctElements (mergedElements inputs mergeType sectionRefs))[k]) ∧
      out.outputSectionSizes.getD outSectionID 0 =
        totalLength (distinctElements (mergedElements inputs mergeType sectionRefs)) ∧
      out.materializedView =
        some (distinctElements (mergedElements inputs mergeType sectionRefs)).flatten ∧
      (∀ e ∈ distinctElements (mergedElements inputs mergeType sectionRefs),
        ∀ view, out.materializedView = some view →
          (view.drop (dstOffsetOf
            (distinctElements (mergedElements inputs mergeType sectionRefs)) e)).take e.length
            = e) := by
  refine ⟨?_, ?_⟩
  · rw [← mergeScan_done_iff inputs mergeType sectionRefs ⟨inputSectionCopyCommands, 0, [], []⟩]
    unfold mergeSections
    cases hscan : mergeScan inputs mergeType sectionRefs ⟨inputSectionCopyCommands, 0, [], []⟩ with
    | diverges => simp
    | undefined => simp
    | failed st =>
      simp only [Option.some.injEq, reduceCtorEq, exists_false, iff_false, not_exists]
      rintro out ⟨rfl, hok⟩
      exact nomatch hok
    | done st =>
      simp only [Option.some.injEq, MergeScan.done.injEq, exists_eq', iff_true]
      exact ⟨_, rfl, rfl⟩
  · intro out hout hok
    unfold mergeSections at hout
    cases hscan : mergeScan inputs mergeType sectionRefs ⟨inputSectionCopyCommands, 0, [], []⟩ with
    | diverges =>
      rw [hscan] at hout
      simp at hout
    | undefined =>
      rw [hscan] at hout
      simp at hout
    | failed st =>
      rw [hscan] at hout
      simp only [Option.some.injEq] at hout
      subst hout
      simp at hok
    | done st =>
      rw [hscan] at hout
      simp only [Option.some.injEq] at hout
      subst hout
      obtain ⟨h1, h2, h3⟩ := mergeScan_done _ _ _ _ _ hscan
      simp only [List.nil_append] at h1 h2 h3
      have h4 := foldl_tryEmplace_tiled (mergedElements inputs mergeType sectionRefs) []
      have h5 : (st.outSectionSize, st.elementToOutSectionOffset) =
          (totalLength (distinctElements (mergedElements inputs mergeType sectionRefs)),
            tiled (distinctElements (mergedElements inputs mergeType sectionRefs)) 0) := by
        rw [h3]
        exact h4
      obtain ⟨hsz, hmap⟩ := Prod.mk.inj h5
      have hnodup : (distinctElements (mergedElements inputs mergeType sectionRefs)).Nodup :=
        addKey_foldl_nodup _ [] List.nodup_nil
      have hmem : ∀ e, e ∈ distinctElements (mergedElements inputs mergeType sectionRefs) ↔
          e ∈ mergedElements inputs mergeType sectionRefs := by
        intro e
        unfold distinctElements
        rw [addKey_foldl_mem]
        simp
      have hview : (visitOrder st.elementToOutSectionOffset).foldl
          (fun view p => writeAt view p.2 p.1) (allocate st.outSectionSize) =
          (distinctElements (mergedElements inputs mergeType sectionRefs)).flatten := by
        apply materialized_eq_flatten
        · rw [← hmap]
          exact hvisit _
        · rw [halloc, hsz]
      refine ⟨?_, hnodup, hmem, ?_, ?_, ?_, ?_, ?_⟩
      · intro r hr
        show get2D (writePartCopies st.elementToOutSectionOffset sectionRefs st.sectionElements
          st.inputSectionCopyCommands) r.elfIndex r.headerIndex = _
        rw [h2, writePartCopies_get _ _ _ _ r hr hrefs, hmap, partCopiesOf_tiled]
        · intro e he
          exact (hmem e).2 (mem_mergedElements _ _ _ r hr e he)
        · intro r' hr'
          have hr1 := hrange r' hr'
          rw [h1, resizedCommands_length, resizedCommands_width _ _ _ _ hr1.1,
            if_pos (List.mem_map.mpr ⟨r', hr', rfl⟩)]
          exact hr1
      · intro k hk
        exact dstOffsetOf_getElem _ hnodup k hk
      · intro j k hj hk hjk
        rw [dstOffsetOf_getElem _ hnodup j hj, dstOffsetOf_getElem _ hnodup k hk]
        have := totalLength_take_le
          (distinctElements (mergedElements inputs mergeType sectionRefs)) j k hjk (le_of_lt hk)
        rw [List.getD_eq_getElem _ _ hj] at this
        exact this
      · show (outputSectionSizes.set outSectionID st.outSectionSize).getD outSectionID 0 = _
        rw [getD_set_self _ _ _ _ hid, hsz]
      · show some _ = some _
        rw [hview]
      · intro e he view hv
        have hv' : some ((visitOrder st.elementToOutSectionOffset).foldl
          (fun view p => writeAt view p.2 p.1) (allocate st.outSectionSize)) = some view := hv
        rw [hview] at hv'
        cases hv'
        exact flatten_at_dstOffset _ e he

/-- The test `FixedSize_Merge`: the section of eight words is split into its words, the
merge returns `ok`, and the words `BBBB` and `CCCC`, which the section holds twice, are
once in the merged section of 24 bytes, at the offsets 4 and 8, whatever the visiting
order.  Two sections of strings, `"ab" "c"` in one input and `"c" "ab" "d"` in another:
the merge returns `ok`, and the merged section of seven bytes holds `"ab"`, `"c"` and
`"d"` once each, at the offsets 0, 3 and 5. -/
theorem mergeSections_deduplicates_witness :
    (∃ out, mergeSections [objectWithData fixedSizeData 4] [⟨0, 1⟩] 0 MergeType.fixedLength
        (fun n => List.replicate n 0) List.reverse [0] [[]] = some out ∧
      out.status = StatusCode.ok ∧
      get2D out.inputSectionCopyCommands 0 1 = SectionMemCopies.parts
        [⟨4, 0⟩, ⟨4, 4⟩, ⟨4, 8⟩, ⟨4, 12⟩, ⟨4, 4⟩, ⟨4, 16⟩, ⟨4, 8⟩, ⟨4, 20⟩] ∧
      out.outputSectionSizes.getD 0 0 = 24 ∧
      out.materializedView = some
        [65, 65, 65, 65, 66, 66, 66, 66, 67, 67, 67, 67, 68, 68, 68, 0,
         69, 69, 69, 69, 70, 70, 70, 0]) ∧
    ∃ out, mergeSections
        [objectWithData [97, 98, 0, 99, 0] 1, objectWithData [99, 0, 97, 98, 0, 100, 0] 1]
        [⟨0, 1⟩, ⟨1, 1⟩] 0 MergeType.variableLength (fun n => List.replicate n 0)
        List.reverse [0] [[], []] = some out ∧
      out.status = StatusCode.ok ∧
      get2D out.inputSectionCopyCommands 0 1 = SectionMemCopies.parts [⟨3, 0⟩, ⟨2, 3⟩] ∧
      get2D out.inputSectionCopyCommands 1 1 =
        SectionMemCopies.parts [⟨2, 3⟩, ⟨3, 0⟩, ⟨2, 5⟩] ∧
      out.outputSectionSizes.getD 0 0 = 7 ∧
      out.materializedView = some [97, 98, 0, 99, 0, 100, 0] := by
  constructor
  · have h := mergeSections_deduplicates [objectWithData fixedSizeData 4] [⟨0, 1⟩] 0
      MergeType.fixedLength (fun n => List.replicate n 0) List.reverse [0] [[]]
      (by decide) (by decide) (by decide) (fun n => List.length_replicate n 0)
      (fun m => List.reverse_perm m)
    have hd : distinctElements (mergedElements [objectWithData fixedSizeData 4]
        MergeType.fixedLength [⟨0, 1⟩]) =
        [[65, 65, 65, 65], [66, 66, 66, 66], [67, 67, 67, 67], [68, 68, 68, 0],
         [69, 69, 69, 69], [70, 70, 70, 0]] := by decide
    obtain ⟨out, hout, hok⟩ := h.1.mpr (by
      intro r hr
      simp only [List.mem_singleton] at hr
      subst hr
      exact ⟨[[65, 65, 65, 65], [66, 66, 66, 66], [67, 67, 67, 67], [68, 68, 68, 0],
        [66, 66, 66, 66], [69, 69, 69, 69], [67, 67, 67, 67], [70, 70, 70, 0]], by decide⟩)
    obtain ⟨hcmd, -, -, -, -, hsize, hview, -⟩ := h.2 out hout hok
    rw [hd] at hsize hview
    refine ⟨out, hout, hok, ?_, hsize, hview⟩
    have hc := hcmd ⟨0, 1⟩ (by simp)
    rw [hd] at hc
    rw [hc]
    decide
  · have h := mergeSections_deduplicates
      [objectWithData [97, 98, 0, 99, 0] 1, objectWithData [99, 0, 97, 98, 0, 100, 0] 1]
      [⟨0, 1⟩, ⟨1, 1⟩] 0 MergeType.variableLength (fun n => List.replicate n 0)
      List.reverse [0] [[], []]
      (by decide) (by decide) (by decide) (fun n => List.length_replicate n 0)
      (fun m => List.reverse_perm m)
    have hd : distinctElements (mergedElements
        [objectWithData [97, 98, 0, 99, 0] 1, objectWithData [99, 0, 97, 98, 0, 100, 0] 1]
        MergeType.variableLength [⟨0, 1⟩, ⟨1, 1⟩]) = [[97, 98, 0], [99, 0], [100, 0]] := by
      decide
    obtain ⟨out, hout, hok⟩ := h.1.mpr (by
      intro r hr
      simp only [List.mem_cons, List.mem_singleton, List.not_mem_nil, or_false] at hr
      rcases hr with rfl | rfl
      · exact ⟨[[97, 98, 0], [99, 0]], by decide⟩
      · exact ⟨[[99, 0], [97, 98, 0], [100, 0]], by decide⟩)
    obtain ⟨hcmd, -, -, -, -, hsize, hview, -⟩ := h.2 out hout hok
    rw [hd] at hsize hview
    refine ⟨out, hout, hok, ?_, ?_, hsize, hview⟩
    · have hc := hcmd ⟨0, 1⟩ (by simp)
      rw [hd] at hc
      rw [hc]
      decide
    · have hc := hcmd ⟨1, 1⟩ (by simp)
      rw [hd] at hc
      rw [hc]
      decide

/-! ## Claims C11 to C13: the layout of the loaded sections -/

theorem alignup_bounds (a al : Nat) (h : a + max al 1 ≤ 2 ^ 64) :
    a ≤ alignup a al ∧ alignup a al < a + max al 1 := by
  unfold alignup add64
  simp only []
  have hpos : 0 < max al 1 := by omega
  have hm := Nat.mod_lt a hpos
  generalize a % max al 1 = m at hm ⊢
  generalize max al 1 = k at *
  split_ifs with h0
  · rw [Nat.mod_eq_of_lt (by omega)]
    omega
  · omega

theorem alignup_pageSize (a : Nat) (h : a + pageSize ≤ 2 ^ 64) :
    a ≤ alignup a pageSize ∧ alignup a pageSize < a + pageSize ∧
      pageSize ∣ alignup a pageSize := by
  unfold alignup add64 pageSize at *
  simp only []
  have hmax : max 4096 1 = 4096 := by decide
  rw [hmax]
  split_ifs with h0
  · rw [Nat.mod_eq_of_lt (by omega)]
    omega
  · omega

theorem placeSection_cursor (sizes aligns types : List Nat) (c : SectionCursor) (id B : Nat)
    (hB : B < 2 ^ 64)
    (hf : c.filePos + (max (aligns.getD id 0) 1 + sizes.getD id 0) ≤ B)
    (ha : c.addressPos + (max (aligns.getD id 0) 1 + sizes.getD id 0) ≤ B) :
    c.filePos ≤ (placeSection sizes aligns types c id).filePos ∧
    (placeSection sizes aligns types c id).filePos ≤
      c.filePos + (max (aligns.getD id 0) 1 + sizes.getD id 0) ∧
    c.addressPos ≤ (placeSection sizes aligns types c id).addressPos ∧
    (placeSection sizes aligns types c id).addressPos ≤
      c.addressPos + (max (aligns.getD id 0) 1 + sizes.getD id 0) := by
  have h1 := alignup_bounds c.filePos (aligns.getD id 0) (by omega)
  have h2 := alignup_bounds c.addressPos (aligns.getD id 0) (by omega)
  unfold placeSection
  simp only []
  split_ifs with hn
  · simp only []
    omega
  · simp only [add64]
    rw [Nat.mod_eq_of_lt (by omega), Nat.mod_eq_of_lt (by omega)]
    omega

theorem foldl_placeSection_cursor (sizes aligns types : List Nat) (sections : List Nat)
    (c : SectionCursor) (B : Nat) (hB : B < 2 ^ 64)
    (hf : c.filePos + sectionsBound sizes aligns sections ≤ B)
    (ha : c.addressPos + sectionsBound sizes aligns sections ≤ B) :
    c.filePos ≤ (sections.foldl (placeSection sizes aligns types) c).filePos ∧
    (sections.foldl (placeSection sizes aligns types) c).filePos ≤
      c.filePos + sectionsBound sizes aligns sections ∧
    c.addressPos ≤ (sections.foldl (placeSection sizes aligns types) c).addressPos ∧
    (sections.foldl (placeSection sizes aligns types) c).addressPos ≤
      c.addressPos + sectionsBound sizes aligns sections := by
  induction sections generalizing c with
  | nil => simp [sectionsBound]
  | cons id rest ih =>
    have hb : sectionsBound sizes aligns (id :: rest) =
        (max (aligns.getD id 0) 1 + sizes.getD id 0) + sectionsBound sizes aligns rest := by
      simp [sectionsBound]
    rw [hb] at hf ha ⊢
    have h1 := placeSection_cursor sizes aligns types c id B hB (by omega) (by omega)
    have h2 := ih (placeSection sizes aligns types c id) (by omega) (by omega)
    rw [List.foldl_cons]
    omega

theorem sub64_of_le (a b : Nat) (hab : b ≤ a) (ha : a < 2 ^ 64) : sub64 a b = a - b := by
  unfold sub64
  rw [Nat.mod_eq_of_lt (by omega : b < 2 ^ 64)]
  omega

theorem add64_of_lt (a b : Nat) (h : a + b < 2 ^ 64) : add64 a b = a + b := by
  unfold add64
  exact Nat.mod_eq_of_lt h

theorem layoutLoadedSegment_spec (sizes aligns types : List Nat) (fh : Nat) (st : LayoutState)
    (sections : List Nat) (B : Nat) (hB : B < 2 ^ 64)
    (hf : st.fileStartPos + (pageSize + sectionsBound sizes aligns sections) ≤ B)
    (ha : st.segmentStartAddress + (pageSize + sectionsBound sizes aligns sections) ≤ B)
    (hfirst : st.ptHdrIndex = 0 →
      st.fileStartPos = fh ∧ st.segmentStartAddress = fh + virtualAddressStart) :
    (segmentProgramHeader fh st (placeSections sizes aligns types st sections)).p_vaddr +
        (segmentProgramHeader fh st (placeSections sizes aligns types st sections)).p_memsz ≤
      (layoutLoadedSegment sizes aligns types fh st sections).segmentStartAddress ∧
    (segmentProgramHeader fh st (placeSections sizes aligns types st sections)).p_offset +
        (segmentProgramHeader fh st (placeSections sizes aligns types st sections)).p_filesz ≤
      (layoutLoadedSegment sizes aligns types fh st sections).fileStartPos ∧
    (0 < st.ptHdrIndex →
      (segmentProgramHeader fh st (placeSections sizes aligns types st sections)).p_vaddr =
        st.segmentStartAddress ∧
      (segmentProgramHeader fh st (placeSections sizes aligns types st sections)).p_offset =
        st.fileStartPos) ∧
    (st.ptHdrIndex = 0 →
      (segmentProgramHeader fh st (placeSections sizes aligns types st sections)).p_vaddr =
        virtualAddressStart ∧
      (segmentProgramHeader fh st (placeSections sizes aligns types st sections)).p_paddr =
        virtualAddressStart ∧
      (segmentProgramHeader fh st (placeSections sizes aligns types st sections)).p_offset =
        0) ∧
    pageSize ∣ (layoutLoadedSegment sizes aligns types fh st sections).fileStartPos ∧
    pageSize ∣ (layoutLoadedSegment sizes aligns types fh st sections).segmentStartAddress ∧
    (layoutLoadedSegment sizes aligns types fh st sections).fileStartPos ≤
      st.fileStartPos + (pageSize + sectionsBound sizes aligns sections) ∧
    (layoutLoadedSegment sizes aligns types fh st sections).segmentStartAddress ≤
      st.segmentStartAddress + (pageSize + sectionsBound sizes aligns sections) := by
  have hcur := foldl_placeSection_cursor sizes aligns types sections
    { filePos := st.fileStartPos
      addressPos := st.segmentStartAddress
      outputSectionAddresses := st.outputSectionAddresses
      outputSectionFileOffsets := st.outputSectionFileOffsets } B hB
    (by simp only []; omega) (by simp only []; omega)
  simp only [] at hcur
  have hcur' : st.fileStartPos ≤ (placeSections sizes aligns types st sections).filePos ∧
      (placeSections sizes aligns types st sections).filePos ≤
        st.fileStartPos + sectionsBound sizes aligns sections ∧
      st.segmentStartAddress ≤ (placeSections sizes aligns types st sections).addressPos ∧
      (placeSections sizes aligns types st sections).addressPos ≤
        st.segmentStartAddress + sectionsBound sizes aligns sections := hcur
  simp only [layoutLoadedSegment]
  generalize placeSections sizes aligns types st sections = cur at hcur' ⊢
  obtain ⟨c1, c2, c3, c4⟩ := hcur'
  have hs1 : sub64 cur.filePos st.fileStartPos = cur.filePos - st.fileStartPos :=
    sub64_of_le _ _ c1 (by omega)
  have hs2 : sub64 cur.addressPos st.segmentStartAddress =
      cur.addressPos - st.segmentStartAddress := sub64_of_le _ _ c3 (by omega)
  have ha1 : add64 st.fileStartPos (cur.filePos - st.fileStartPos) = cur.filePos := by
    rw [add64_of_lt _ _ (by omega)]
    omega
  have ha2 : add64 st.segmentStartAddress (cur.addressPos - st.segmentStartAddress) =
      cur.addressPos := by
    rw [add64_of_lt _ _ (by omega)]
    omega
  have hp1 := alignup_pageSize cur.filePos (by omega)
  have hp2 := alignup_pageSize cur.addressPos (by omega)
  rw [hs1, hs2, ha1, ha2]
  unfold segmentProgramHeader
  simp only [hs1, hs2]
  by_cases hk : st.ptHdrIndex = 0
  · obtain ⟨hf1, hf2⟩ := hfirst hk
    rw [if_pos hk]
    simp only []
    have e1 : sub64 st.segmentStartAddress fh = virtualAddressStart := by
      rw [sub64_of_le _ _ (by omega) (by omega)]
      omega
    have e2 : sub64 st.fileStartPos fh = 0 := by
      rw [sub64_of_le _ _ (by omega) (by omega)]
      omega
    have e3 : add64 (cur.filePos - st.fileStartPos) fh = cur.filePos := by
      rw [add64_of_lt _ _ (by omega)]
      omega
    have e4 : add64 (cur.addressPos - st.segmentStartAddress) fh =
        cur.addressPos - virtualAddressStart := by
      rw [add64_of_lt _ _ (by omega)]
      omega
    rw [e1, e2, e3, e4]
    refine ⟨by omega, by omega, fun h => absurd hk (by omega), fun _ => by simp,
      hp1.2.2, hp2.2.2, by omega, by omega⟩
  · rw [if_neg hk]
    simp only []
    refine ⟨by omega, by omega, fun _ => by simp, fun h => absurd h hk,
      hp1.2.2, hp2.2.2, by omega, by omega⟩

theorem segmentsBound_cons (sizes aligns : List Nat) (b : List Nat) (bs : List (List Nat)) :
    segmentsBound sizes aligns (b :: bs) =
      (pageSize + sectionsBound sizes aligns b) + segmentsBound sizes aligns bs := by
  simp [segmentsBound]

theorem layoutBuckets_headers (sizes aligns types : List Nat) (fh : Nat)
    (buckets : List (List Nat)) (st : LayoutState) (D R : List Elf64_Phdr) (B : Nat)
    (hB : B < 2 ^ 64) (hst : st.programHeaders = D ++ R) (hk : st.ptHdrIndex = D.length)
    (hlen : buckets.length ≤ R.length)
    (hf : st.fileStartPos + segmentsBound sizes aligns buckets ≤ B)
    (ha : st.segmentStartAddress + segmentsBound sizes aligns buckets ≤ B)
    (hfirst : st.ptHdrIndex = 0 →
      st.fileStartPos = fh ∧ st.segmentStartAddress = fh + virtualAddressStart)
    (hpage : 0 < st.ptHdrIndex →
      pageSize ∣ st.fileStartPos ∧ pageSize ∣ st.segmentStartAddress) :
    ∃ N, (buckets.foldl (layoutLoadedSegment sizes aligns types fh) st).programHeaders =
        D ++ N ++ R.drop buckets.length ∧
      N.length = buckets.length ∧
      (∀ h ∈ N, pageSize ∣ h.p_vaddr ∧ pageSize ∣ h.p_offset) ∧
      N.Chain' segmentBefore ∧
      (∀ h, N.head? = some h →
        (0 < st.ptHdrIndex → h.p_vaddr = st.segmentStartAddress ∧ h.p_offset = st.fileStartPos) ∧
        (st.ptHdrIndex = 0 →
          h.p_vaddr = virtualAddressStart ∧ h.p_paddr = virtualAddressStart ∧ h.p_offset = 0)) := by
  induction buckets generalizing st D R with
  | nil => exact ⟨[], by simp [hst], rfl, by simp, by simp, by simp⟩
  | cons b bs ih =>
    cases R with
    | nil => simp at hlen
    | cons r R2 =>
      rw [segmentsBound_cons] at hf ha
      have hspec := layoutLoadedSegment_spec sizes aligns types fh st b B hB (by omega)
        (by omega) hfirst
      obtain ⟨s1, s2, s3, s4, s5, s6, s7, s8⟩ := hspec
      have hidx : (layoutLoadedSegment sizes aligns types fh st b).ptHdrIndex =
          st.ptHdrIndex + 1 := rfl
      have hprog : (layoutLoadedSegment sizes aligns types fh st b).programHeaders =
          (D ++ [segmentProgramHeader fh st (placeSections sizes aligns types st b)]) ++ R2 := by
        show st.programHeaders.set st.ptHdrIndex _ = _
        rw [hst, hk]
        simp
      obtain ⟨N2, n1, n2, n3, n4, n5⟩ := ih (layoutLoadedSegment sizes aligns types fh st b)
        (D ++ [segmentProgramHeader fh st (placeSections sizes aligns types st b)]) R2 hprog
        (by rw [hidx, hk]; simp) (by simpa using hlen) (by omega) (by omega)
        (fun h0 => by rw [hidx] at h0; omega) (fun _ => ⟨s5, s6⟩)
      refine ⟨segmentProgramHeader fh st (placeSections sizes aligns types st b) :: N2,
        ?_, ?_, ?_, ?_, ?_⟩
      · rw [List.foldl_cons, n1]
        simp
      · simp [n2]
      · intro h hh
        rcases List.mem_cons.mp hh with rfl | hh
        · by_cases hz : st.ptHdrIndex = 0
          · obtain ⟨e1, -, e3⟩ := s4 hz
            rw [e1, e3]
            exact ⟨by decide, by simp⟩
          · obtain ⟨e1, e2⟩ := s3 (by omega)
            obtain ⟨p1, p2⟩ := hpage (by omega)
            rw [e1, e2]
            exact ⟨p2, p1⟩
        · exact n3 h hh
      · rw [List.chain'_cons']
        refine ⟨?_, n4⟩
        intro y hy
        obtain ⟨e1, e2⟩ := (n5 y hy).1 (by rw [hidx]; omega)
        exact ⟨by rw [e1]; exact s1, by rw [e2]; exact s2⟩
      · intro h hh
        simp only [List.head?_cons, Option.some.injEq] at hh
        subst hh
        exact ⟨s3, s4⟩

theorem forEachIndexedFrom_emplace (segs : List (List Nat)) (i : Nat) (acc : List Elf64_Phdr) :
    forEachIndexedFrom emplaceSegmentHeader i segs acc =
      acc ++ (loadedBuckets i segs).map (fun p =>
        newProgramHeader (segmentTypes.getD p.1 0) (segmentFlags.getD p.1 0)) := by
  induction segs generalizing i acc with
  | nil => simp [forEachIndexedFrom, loadedBuckets]
  | cons s rest ih =>
    rw [forEachIndexedFrom, ih, loadedBuckets, emplaceSegmentHeader]
    by_cases hs : segmentSkipped s i = true
    · simp [hs]
    · simp [hs]

theorem forEachIndexedFrom_layout (sizes aligns types : List Nat) (fh : Nat)
    (segs : List (List Nat)) (i : Nat) (st : LayoutState) :
    forEachIndexedFrom (layoutSegment sizes aligns types fh) i segs st =
      ((loadedBuckets i segs).map Prod.snd).foldl
        (layoutLoadedSegment sizes aligns types fh) st := by
  induction segs generalizing i st with
  | nil => simp [forEachIndexedFrom, loadedBuckets]
  | cons s rest ih =>
    rw [forEachIndexedFrom, ih, loadedBuckets, layoutSegment]
    by_cases hs : segmentSkipped s i = true
    · simp [hs]
    · simp [hs]

theorem loadedBuckets_length_le (segs : List (List Nat)) (i : Nat) :
    (loadedBuckets i segs).length ≤ segs.length := by
  induction segs generalizing i with
  | nil => simp [loadedBuckets]
  | cons s rest ih =>
    rw [loadedBuckets]
    have := ih (i + 1)
    split_ifs <;> simp <;> omega

theorem segmentsBound_loadedBuckets_le (sizes aligns : List Nat) (segs : List (List Nat))
    (i : Nat) :
    segmentsBound sizes aligns ((loadedBuckets i segs).map Prod.snd) ≤
      segmentsBound sizes aligns segs := by
  induction segs generalizing i with
  | nil => simp [loadedBuckets]
  | cons s rest ih =>
    rw [loadedBuckets, segmentsBound_cons]
    have := ih (i + 1)
    split_ifs
    · omega
    · rw [List.map_cons, segmentsBound_cons]
      simp only []
      omega

theorem chain'_getElem? {α : Type} (R : α → α → Prop) (l : List α) (hc : l.Chain' R) (i : Nat)
    (a b : α) (ha : l[i]? = some a) (hb : l[i + 1]? = some b) : R a b := by
  induction l generalizing i with
  | nil => simp at ha
  | cons x t ih =>
    rw [List.chain'_cons'] at hc
    cases i with
    | zero =>
      simp only [List.getElem?_cons_zero, Option.some.injEq] at ha
      subst ha
      simp only [zero_add, List.getElem?_cons_succ] at hb
      apply hc.1
      cases t with
      | nil => simp at hb
      | cons y t2 =>
        simp only [List.getElem?_cons_zero, Option.some.injEq] at hb
        simp [hb]
    | succ i =>
      simp only [List.getElem?_cons_succ] at ha hb
      exact ih hc.2 i ha hb

/-- The program header `PT_GNU_STACK` that `constructLoadedSectionLayout` appends. -/
theorem constructLoadedSectionLayout_eq (segs : List (List Nat))
    (sizes aligns types : List Nat) :
    (constructLoadedSectionLayout segs sizes aligns types).programHeaders =
      (((loadedBuckets 0 segs).map Prod.snd).foldl
        (layoutLoadedSegment sizes aligns types
          (sizeof_Elf64_Ehdr + sizeof_Elf64_Phdr * ((loadedBuckets 0 segs).length + 1)))
        { programHeaders := (loadedBuckets 0 segs).map (fun p =>
            newProgramHeader (segmentTypes.getD p.1 0) (segmentFlags.getD p.1 0)) ++
            [{ newProgramHeader PT_GNU_STACK (segmentFlags.getD SegmentLocation.readWrite 0) with
               p_align := 0x10 }]
          outputSectionAddresses := List.replicate sizes.length notAnOutputSection
          outputSectionFileOffsets := List.replicate sizes.length notAnOutputSection
          fileStartPos :=
            sizeof_Elf64_Ehdr + sizeof_Elf64_Phdr * ((loadedBuckets 0 segs).length + 1)
          segmentStartAddress := add64
            (sizeof_Elf64_Ehdr + sizeof_Elf64_Phdr * ((loadedBuckets 0 segs).length + 1))
            virtualAddressStart
          ptHdrIndex := 0 }).programHeaders := by
  unfold constructLoadedSectionLayout forEachIndexed
  simp only [forEachIndexedFrom_emplace, forEachIndexedFrom_layout, List.nil_append,
    List.length_append, List.length_map, List.length_singleton]

theorem constructLoadedSectionLayout_headers (segs : List (List Nat))
    (sizes aligns types : List Nat) (hfit : layoutBound segs sizes aligns < 2 ^ 64) :
    ∃ N, (constructLoadedSectionLayout segs sizes aligns types).programHeaders =
        N ++ [{ newProgramHeader PT_GNU_STACK (segmentFlags.getD SegmentLocation.readWrite 0) with
                p_align := 0x10 }] ∧
      N.length = (loadedBuckets 0 segs).length ∧
      (∀ h ∈ N, pageSize ∣ h.p_vaddr ∧ pageSize ∣ h.p_offset) ∧
      N.Chain' segmentBefore ∧
      (∀ h, N.head? = some h →
        h.p_vaddr = virtualAddressStart ∧ h.p_paddr = virtualAddressStart ∧ h.p_offset = 0) := by
  rw [constructLoadedSectionLayout_eq]
  have hlen := loadedBuckets_length_le segs 0
  have hbound := segmentsBound_loadedBuckets_le sizes aligns segs 0
  have hB : virtualAddressStart + sizeof_Elf64_Ehdr +
      sizeof_Elf64_Phdr * (segs.length + 1) + segmentsBound sizes aligns segs < 2 ^ 64 := hfit
  have hsz : sizeof_Elf64_Phdr * ((loadedBuckets 0 segs).length + 1) ≤
      sizeof_Elf64_Phdr * (segs.length + 1) := Nat.mul_le_mul_left _ (by omega)
  have hadd : add64
      (sizeof_Elf64_Ehdr + sizeof_Elf64_Phdr * ((loadedBuckets 0 segs).length + 1))
      virtualAddressStart =
      sizeof_Elf64_Ehdr + sizeof_Elf64_Phdr * ((loadedBuckets 0 segs).length + 1) +
        virtualAddressStart := add64_of_lt _ _ (by omega)
  obtain ⟨N, n1, n2, n3, n4, n5⟩ := layoutBuckets_headers sizes aligns types
    (sizeof_Elf64_Ehdr + sizeof_Elf64_Phdr * ((loadedBuckets 0 segs).length + 1))
    ((loadedBuckets 0 segs).map Prod.snd)
    { programHeaders := (loadedBuckets 0 segs).map (fun p =>
        newProgramHeader (segmentTypes.getD p.1 0) (segmentFlags.getD p.1 0)) ++
        [{ newProgramHeader PT_GNU_STACK (segmentFlags.getD SegmentLocation.readWrite 0) with
           p_align := 0x10 }]
      outputSectionAddresses := List.replicate sizes.length notAnOutputSection
      outputSectionFileOffsets := List.replicate sizes.length notAnOutputSection
      fileStartPos :=
        sizeof_Elf64_Ehdr + sizeof_Elf64_Phdr * ((loadedBuckets 0 segs).length + 1)
      segmentStartAddress := add64
        (sizeof_Elf64_Ehdr + sizeof_Elf64_Phdr * ((loadedBuckets 0 segs).length + 1))
        virtualAddressStart
      ptHdrIndex := 0 }
    [] ((loadedBuckets 0 segs).map (fun p =>
        newProgramHeader (segmentTypes.getD p.1 0) (segmentFlags.getD p.1 0)) ++
        [{ newProgramHeader PT_GNU_STACK (segmentFlags.getD SegmentLocation.readWrite 0) with
           p_align := 0x10 }]) (layoutBound segs sizes aligns) hfit rfl rfl (by simp)
    (by simp only []; unfold layoutBound; omega)
    (by simp only [hadd]; unfold layoutBound; omega)
    (fun _ => ⟨rfl, hadd⟩) (fun h => absurd h (by simp))
  refine ⟨N, ?_, by simpa using n2, n3, n4, fun h hh => (n5 h hh).2 rfl⟩
  rw [n1, List.nil_append, List.drop_left' (by simp)]

/-- C12. When no address of the layout reaches `2^64`, the program headers that
`constructLoadedSectionLayout` returns are the headers of the loaded segments followed by
the `PT_GNU_STACK` header, and for the headers of the loaded segments, in their order:
every `p_vaddr` and every `p_offset` is a multiple of the page size `0x1000`; the first
has `p_offset = 0` and `p_vaddr = p_paddr = 0x400000`; and of two consecutive headers the
first ends before the second starts, in memory (`p_vaddr + p_memsz`) and in the file
(`p_offset + p_filesz`). -/
theorem constructLoadedSectionLayout_segments_ordered (segmentedSections : List (List Nat))
    (outputSectionSizes outputSectionAlignments outputSectionTypes : List Nat)
    (hfit : layoutBound segmentedSections outputSectionSizes outputSectionAlignments < 2 ^ 64) :
    (constructLoadedSectionLayout segmentedSections outputSectionSizes outputSectionAlignments
      outputSectionTypes).programHeaders.getLast? =
        some { newProgramHeader PT_GNU_STACK (PF_R ||| PF_W) with p_align := 0x10 } ∧
    (constructLoadedSectionLayout segmentedSections outputSectionSizes outputSectionAlignments
      outputSectionTypes).programHeaders.dropLast.length =
        (loadedBuckets 0 segmentedSections).length ∧
    (∀ h ∈ (constructLoadedSectionLayout segmentedSections outputSectionSizes
        outputSectionAlignments outputSectionTypes).programHeaders.dropLast,
      0x1000 ∣ h.p_vaddr ∧ 0x1000 ∣ h.p_offset) ∧
    (∀ h, (constructLoadedSectionLayout segmentedSections outputSectionSizes
        outputSectionAlignments outputSectionTypes).programHeaders.dropLast[0]? = some h →
      h.p_offset = 0 ∧ h.p_vaddr = 0x400000 ∧ h.p_paddr = 0x400000) ∧
    (∀ i h h2,
      (constructLoadedSectionLayout segmentedSections outputSectionSizes
        outputSectionAlignments outputSectionTypes).programHeaders.dropLast[i]? = some h →
      (constructLoadedSectionLayout segmentedSections outputSectionSizes
        outputSectionAlignments outputSectionTypes).programHeaders.dropLast[i + 1]? = some h2 →
      h.p_vaddr + h.p_memsz ≤ h2.p_vaddr ∧ h.p_offset + h.p_filesz ≤ h2.p_offset) := by
  obtain ⟨N, n1, n2, n3, n4, n5⟩ := constructLoadedSectionLayout_headers segmentedSections
    outputSectionSizes outputSectionAlignments outputSectionTypes hfit
  rw [n1, List.dropLast_concat]
  refine ⟨by rw [List.getLast?_concat]; rfl, n2, n3, ?_, ?_⟩
  · intro h hh
    have hh' : N.head? = some h := by
      cases N with
      | nil => simp at hh
      | cons x t => simpa using hh
    obtain ⟨e1, e2, e3⟩ := n5 h hh'
    exact ⟨e3, e1, e2⟩
  · intro i h h2 hi hi2
    exact chain'_getElem? segmentBefore N n4 i h h2 hi hi2

/-- A layout with a read-only, a writable and an executable segment: the three headers
start at multiples of the page size, the first at `0x400000`, one after the other. -/
theorem constructLoadedSectionLayout_segments_ordered_witness :
    layoutBound [[0], [1, 2, 3], [4], [], [], [5]] [100, 8, 16, 32, 50, 7] [16, 8, 8, 8, 16, 1]
      < 2 ^ 64 ∧
    (constructLoadedSectionLayout [[0], [1, 2, 3], [4], [], [], [5]] [100, 8, 16, 32, 50, 7]
      [16, 8, 8, 8, 16, 1] [1, 1, 8, 8, 1, 2]).programHeaders.dropLast.length = 3 ∧
    ∀ h ∈ (constructLoadedSectionLayout [[0], [1, 2, 3], [4], [], [], [5]]
        [100, 8, 16, 32, 50, 7] [16, 8, 8, 8, 16, 1] [1, 1, 8, 8, 1, 2]).programHeaders.dropLast,
      0x1000 ∣ h.p_vaddr ∧ 0x1000 ∣ h.p_offset :=
  ⟨by decide, by decide,
   (constructLoadedSectionLayout_segments_ordered [[0], [1, 2, 3], [4], [], [], [5]]
      [100, 8, 16, 32, 50, 7] [16, 8, 8, 8, 16, 1] [1, 1, 8, 8, 1, 2] (by decide)).2.2.1⟩

theorem map_set_of_eq {α β : Type} (f : α → β) (l : List α) (k : Nat) (h : α)
    (hf : ∀ x, l[k]? = some x → f h = f x) : (l.set k h).map f = l.map f := by
  induction l generalizing k with
  | nil => simp
  | cons a t ih =>
    cases k with
    | zero =>
      simp only [List.set_cons_zero, List.map_cons]
      rw [hf a (by simp)]
    | succ k =>
      simp only [List.set_cons_succ, List.map_cons]
      rw [ih k (fun x hx => hf x (by simpa using hx))]

theorem segmentProgramHeader_type (fh : Nat) (st : LayoutState) (cur : SectionCursor) :
    (segmentProgramHeader fh st cur).p_type =
        (st.programHeaders.getD st.ptHdrIndex default).p_type ∧
      (segmentProgramHeader fh st cur).p_flags =
        (st.programHeaders.getD st.ptHdrIndex default).p_flags := by
  unfold segmentProgramHeader
  simp only []
  split_ifs <;> exact ⟨rfl, rfl⟩

theorem layoutBuckets_types (sizes aligns types : List Nat) (fh : Nat)
    (buckets : List (List Nat)) (st : LayoutState) :
    ((buckets.foldl (layoutLoadedSegment sizes aligns types fh) st).programHeaders.map
        (fun h => (h.p_type, h.p_flags)) =
      st.programHeaders.map (fun h => (h.p_type, h.p_flags))) ∧
    (buckets.foldl (layoutLoadedSegment sizes aligns types fh) st).programHeaders.length =
      st.programHeaders.length ∧
    ∀ j, st.ptHdrIndex + buckets.length ≤ j →
      (buckets.foldl (layoutLoadedSegment sizes aligns types fh) st).programHeaders[j]? =
        st.programHeaders[j]? := by
  induction buckets generalizing st with
  | nil => simp
  | cons b bs ih =>
    obtain ⟨i1, i2, i3⟩ := ih (layoutLoadedSegment sizes aligns types fh st b)
    have hprog : (layoutLoadedSegment sizes aligns types fh st b).programHeaders =
        st.programHeaders.set st.ptHdrIndex
          (segmentProgramHeader fh st (placeSections sizes aligns types st b)) := rfl
    have hidx : (layoutLoadedSegment sizes aligns types fh st b).ptHdrIndex =
        st.ptHdrIndex + 1 := rfl
    rw [List.foldl_cons]
    refine ⟨?_, ?_, ?_⟩
    · rw [i1, hprog]
      apply map_set_of_eq
      intro x hx
      have ht := segmentProgramHeader_type fh st (placeSections sizes aligns types st b)
      have hd : st.programHeaders.getD st.ptHdrIndex default = x := by
        simp [List.getD, hx]
      rw [hd] at ht
      simp only [ht]
    · rw [i2, hprog]
      simp
    · intro j hj
      rw [i3 j (by rw [hidx]; simp only [List.length_cons] at hj; omega), hprog]
      simp only [List.length_cons] at hj
      exact List.getElem?_set_ne (by omega)

theorem loadedBuckets_cons_loaded {β : Type} (g : Nat × List Nat → β) (i : Nat) (s : List Nat)
    (rest : List (List Nat)) (hi : i ≠ SegmentLocation.notLoaded) :
    (loadedBuckets i (s :: rest)).map g =
      (if s = [] then [] else [g (i, s)]) ++ (loadedBuckets (i + 1) rest).map g := by
  rw [loadedBuckets]
  cases s with
  | nil => simp [segmentSkipped]
  | cons a t => simp [segmentSkipped, hi]

theorem constructLoadedSectionLayout_types (segs : List (List Nat))
    (sizes aligns types : List Nat) :
    (constructLoadedSectionLayout segs sizes aligns types).programHeaders.map
        (fun h => (h.p_type, h.p_flags)) =
      (loadedBuckets 0 segs).map
        (fun p => (segmentTypes.getD p.1 0, segmentFlags.getD p.1 0)) ++
        [(PT_GNU_STACK, PF_R ||| PF_W)] ∧
    ∀ h, (constructLoadedSectionLayout segs sizes aligns types).programHeaders.getLast? = some h →
      h.p_type = PT_GNU_STACK ∧ h.p_flags = PF_R ||| PF_W ∧ h.p_align = 16 := by
  rw [constructLoadedSectionLayout_eq]
  obtain ⟨t1, t2, t3⟩ := layoutBuckets_types sizes aligns types
    (sizeof_Elf64_Ehdr + sizeof_Elf64_Phdr * ((loadedBuckets 0 segs).length + 1))
    ((loadedBuckets 0 segs).map Prod.snd)
    { programHeaders := (loadedBuckets 0 segs).map (fun p =>
        newProgramHeader (segmentTypes.getD p.1 0) (segmentFlags.getD p.1 0)) ++
        [{ newProgramHeader PT_GNU_STACK (segmentFlags.getD SegmentLocation.readWrite 0) with
           p_align := 0x10 }]
      outputSectionAddresses := List.replicate sizes.length notAnOutputSection
      outputSectionFileOffsets := List.replicate sizes.length notAnOutputSection
      fileStartPos :=
        sizeof_Elf64_Ehdr + sizeof_Elf64_Phdr * ((loadedBuckets 0 segs).length + 1)
      segmentStartAddress := add64
        (sizeof_Elf64_Ehdr + sizeof_Elf64_Phdr * ((loadedBuckets 0 segs).length + 1))
        virtualAddressStart
      ptHdrIndex := 0 }
  refine ⟨?_, ?_⟩
  · rw [t1]
    simp only [List.map_append, List.map_map, List.map_cons, List.map_nil]
    rfl
  · intro h hh
    rw [List.getLast?_eq_getElem?, t2, t3 _ (by simp)] at hh
    simp only [List.length_append, List.length_map, List.length_singleton,
      Nat.add_sub_cancel] at hh
    rw [List.getElem?_append_right (by simp)] at hh
    simp only [List.length_map, Nat.sub_self, List.getElem?_cons_zero,
      Option.some.injEq] at hh
    subst hh
    exact ⟨rfl, rfl, rfl⟩

theorem forEachIndexedFrom_push_length (flags : List Nat) (i : Nat) (seg : List (List Nat)) :
    (forEachIndexedFrom pushToSegment i flags seg).length = seg.length := by
  induction flags generalizing i seg with
  | nil => rfl
  | cons flag rest ih =>
    rw [forEachIndexedFrom, ih]
    simp [pushToSegment]

theorem forEachIndexedFrom_push_empty (flags : List Nat) (i : Nat) (seg : List (List Nat))
    (j : Nat) (hj : j < seg.length) :
    (forEachIndexedFrom pushToSegment i flags seg).getD j [] = [] ↔
      seg.getD j [] = [] ∧ ∀ flag ∈ flags, flagsToSegmentIndex flag ≠ j := by
  induction flags generalizing i seg with
  | nil => simp [forEachIndexedFrom]
  | cons flag rest ih =>
    rw [forEachIndexedFrom, ih _ _ (by simpa [pushToSegment] using hj)]
    unfold pushToSegment
    by_cases hk : flagsToSegmentIndex flag = j
    · rw [hk, getD_set_self _ _ _ _ hj]
      simp [hk]
    · rw [getD_set_ne _ _ _ _ _ hk]
      simp only [List.mem_cons, forall_eq_or_imp]
      tauto

theorem flagsToSegmentIndex_tls (flag : Nat) :
    flagsToSegmentIndex flag = SegmentLocation.tlsTemplate ↔
      flag &&& SHF_ALLOC ≠ 0 ∧ flag &&& SHF_TLS ≠ 0 := by
  unfold flagsToSegmentIndex
  split_ifs <;>
    simp_all [SegmentLocation.tlsTemplate, SegmentLocation.notLoaded,
      SegmentLocation.readWriteExecute, SegmentLocation.readWrite,
      SegmentLocation.readExecute, SegmentLocation.readOnly]

theorem sortOutputSections_length (types flags : List Nat)
    (sort : (Nat → Nat → Bool) → List Nat → List Nat) :
    (sortOutputSections types flags sort).length = numProgramSegments := by
  unfold sortOutputSections forEachIndexed
  rw [List.length_mapIdx, forEachIndexedFrom_push_length]
  simp

theorem sortOutputSections_tls_empty (types flags : List Nat)
    (sort : (Nat → Nat → Bool) → List Nat → List Nat)
    (hsort : ∀ c l, (sort c l).Perm l) :
    (sortOutputSections types flags sort).getD SegmentLocation.tlsTemplate [] = [] ↔
      ¬ ∃ flag ∈ flags, flag &&& SHF_ALLOC ≠ 0 ∧ flag &&& SHF_TLS ≠ 0 := by
  have hlen := forEachIndexedFrom_push_length flags 0 (List.replicate numProgramSegments [])
  have hlt : SegmentLocation.tlsTemplate <
      (forEachIndexedFrom pushToSegment 0 flags (List.replicate numProgramSegments [])).length := by
    rw [hlen]
    decide
  have hget : (sortOutputSections types flags sort).getD SegmentLocation.tlsTemplate [] =
      sort (nobitsLast types)
        ((forEachIndexedFrom pushToSegment 0 flags
          (List.replicate numProgramSegments [])).getD SegmentLocation.tlsTemplate []) := by
    unfold sortOutputSections forEachIndexed
    rw [List.getD_eq_getElem?_getD, List.getElem?_mapIdx, List.getD_eq_getElem?_getD,
      List.getElem?_eq_getElem hlt]
    simp [SegmentLocation.tlsTemplate, SegmentLocation.notLoaded]
  rw [hget]
  have hperm := hsort (nobitsLast types)
    ((forEachIndexedFrom pushToSegment 0 flags
      (List.replicate numProgramSegments [])).getD SegmentLocation.tlsTemplate [])
  rw [← List.length_eq_zero, hperm.length_eq, List.length_eq_zero,
    forEachIndexedFrom_push_empty flags 0 _ _ (by decide)]
  constructor
  · rintro ⟨-, h⟩ ⟨flag, hf, hp⟩
    exact h flag hf ((flagsToSegmentIndex_tls flag).2 hp)
  · intro h
    refine ⟨by decide, fun flag hf hk => h ⟨flag, hf, (flagsToSegmentIndex_tls flag).1 hk⟩⟩

theorem loadedBuckets_six {β : Type} (g : Nat × List Nat → β)
    (readOnly readWrite readExecute readWriteExecute tlsTemplate notLoaded : List Nat) :
    (loadedBuckets 0
        [readOnly, readWrite, readExecute, readWriteExecute, tlsTemplate, notLoaded]).map g =
      (if readOnly = [] then [] else [g (0, readOnly)]) ++
      ((if readWrite = [] then [] else [g (1, readWrite)]) ++
      ((if readExecute = [] then [] else [g (2, readExecute)]) ++
      ((if readWriteExecute = [] then [] else [g (3, readWriteExecute)]) ++
      (if tlsTemplate = [] then [] else [g (4, tlsTemplate)])))) := by
  rw [loadedBuckets_cons_loaded g 0 _ _ (by decide), loadedBuckets_cons_loaded g _ _ _ (by decide),
    loadedBuckets_cons_loaded g _ _ _ (by decide), loadedBuckets_cons_loaded g _ _ _ (by decide),
    loadedBuckets_cons_loaded g _ _ _ (by decide)]
  simp [loadedBuckets, segmentSkipped, SegmentLocation.notLoaded]

theorem exists_six {α : Type} (l : List α) (h : l.length = 6) :
    ∃ a b c d e f, l = [a, b, c, d, e, f] := by
  match l, h with
  | [a, b, c, d, e, f], _ => exact ⟨a, b, c, d, e, f, rfl⟩

theorem constructLoadedSectionLayout_six
    (readOnly readWrite readExecute readWriteExecute tlsTemplate notLoaded : List Nat)
    (sizes aligns types : List Nat) :
    (constructLoadedSectionLayout
        [readOnly, readWrite, readExecute, readWriteExecute, tlsTemplate, notLoaded]
        sizes aligns types).programHeaders.map (fun h => (h.p_type, h.p_flags)) =
      (if readOnly = [] then [] else [(PT_LOAD, PF_R)]) ++
      ((if readWrite = [] then [] else [(PT_LOAD, PF_R ||| PF_W)]) ++
      ((if readExecute = [] then [] else [(PT_LOAD, PF_R ||| PF_X)]) ++
      ((if readWriteExecute = [] then [] else [(PT_LOAD, PF_R ||| PF_W ||| PF_X)]) ++
      ((if tlsTemplate = [] then [] else [(PT_TLS, PF_R)]) ++
      [(PT_GNU_STACK, PF_R ||| PF_W)])))) := by
  rw [(constructLoadedSectionLayout_types _ sizes aligns types).1, loadedBuckets_six]
  simp only [List.append_assoc]
  rfl

theorem count_tls_six (a b c d e : List Nat) :
    (((if a = [] then [] else [(PT_LOAD, PF_R)]) ++
      ((if b = [] then [] else [(PT_LOAD, PF_R ||| PF_W)]) ++
      ((if c = [] then [] else [(PT_LOAD, PF_R ||| PF_X)]) ++
      ((if d = [] then [] else [(PT_LOAD, PF_R ||| PF_W ||| PF_X)]) ++
      ((if e = [] then [] else [(PT_TLS, PF_R)]) ++
      [(PT_GNU_STACK, PF_R ||| PF_W)]))))).filter (fun p => p.1 == PT_TLS)).length =
      if e = [] then 0 else 1 := by
  split_ifs <;> decide

theorem constructLoadedSectionLayout_tls_count (types flags sizes aligns : List Nat)
    (sort : (Nat → Nat → Bool) → List Nat → List Nat) :
    ((constructLoadedSectionLayout (sortOutputSections types flags sort) sizes aligns
        types).programHeaders.filter (fun h => h.p_type == PT_TLS)).length =
      if (sortOutputSections types flags sort).getD SegmentLocation.tlsTemplate [] = [] then 0
      else 1 := by
  obtain ⟨a, b, c, d, e, f, hl⟩ := exists_six _ (sortOutputSections_length types flags sort)
  rw [hl]
  have hmap := constructLoadedSectionLayout_six a b c d e f sizes aligns types
  have hlen : ((constructLoadedSectionLayout [a, b, c, d, e, f] sizes aligns
      types).programHeaders.filter (fun h => h.p_type == PT_TLS)).length =
      (((constructLoadedSectionLayout [a, b, c, d, e, f] sizes aligns
        types).programHeaders.map (fun h => (h.p_type, h.p_flags))).filter
          (fun p => p.1 == PT_TLS)).length := by
    rw [List.filter_map, List.length_map]
    rfl
  rw [hlen, hmap, count_tls_six]
  rfl

/-- C11 fails on the code: the section loop of `constructLoadedSectionLayout` leaves the
address cursor of a `SHT_NOBITS` section where the alignment put it, as it does the file
cursor.  In the layout of `.text`, `.data` and a `.bss` of two pages, `.bss` is placed at
`0x4000f0`, the writable segment ends at `p_vaddr + p_memsz = 0x4000f0`, before the end
`0x4020f0` of `.bss`, and `.text`, the section placed after `.bss`, starts at `0x401000`,
inside `.bss`. -/
theorem constructLoadedSectionLayout_nobits_not_covered :
    (∀ (sizes aligns types : List Nat) (st : SectionCursor) (id : Nat),
      types.getD id 0 = SHT_NOBITS →
      (placeSection sizes aligns types st id).addressPos =
        alignup st.addressPos (aligns.getD id 0)) ∧
    layoutWithBss.outputSectionAddresses = [0x401000, 0x4000e8, 0x4000f0] ∧
    layoutWithBss.programHeaders[0]? = some
      { p_type := PT_LOAD, p_flags := PF_R ||| PF_W, p_offset := 0, p_vaddr := 0x400000,
        p_paddr := 0x400000, p_filesz := 0xf0, p_memsz := 0xf0, p_align := 0x1000 } ∧
    ¬ (layoutWithBss.outputSectionAddresses.getD 2 0 + 0x2000 ≤
        (layoutWithBss.programHeaders.getD 0 default).p_vaddr +
          (layoutWithBss.programHeaders.getD 0 default).p_memsz) ∧
    layoutWithBss.outputSectionAddresses.getD 2 0 ≤
      layoutWithBss.outputSectionAddresses.getD 0 0 ∧
    layoutWithBss.outputSectionAddresses.getD 0 0 <
      layoutWithBss.outputSectionAddresses.getD 2 0 + 0x2000 := by
  refine ⟨?_, by decide, by decide, by decide, by decide, by decide⟩
  intro sizes aligns types st id h
  unfold placeSection
  simp only [h, if_true]

/-- C13. `constructLoadedSectionLayout` emits one program header for each of the segments
`readOnly`, `readWrite`, `readExecute`, `readWriteExecute` and `tlsTemplate` that has a
section, in this order, of type `PT_LOAD` with the flags `R`, `R|W`, `R|X`, `R|W|X` and,
for `tlsTemplate`, of type `PT_TLS`; none for the segment `notLoaded`; and as the last
header one `PT_GNU_STACK` with the flags `R|W` and `p_align = 16`.  On the segments that
`sortOutputSections` makes of the output sections there is at most one `PT_TLS` header,
and there is one exactly when some output section has both `SHF_ALLOC` and `SHF_TLS`. -/
theorem constructLoadedSectionLayout_program_headers
    (readOnly readWrite readExecute readWriteExecute tlsTemplate notLoaded : List Nat)
    (outputSectionSizes outputSectionAlignments outputSectionTypes flags : List Nat)
    (sort : (Nat → Nat → Bool) → List Nat → List Nat)
    (hsort : ∀ less sections, (sort less sections).Perm sections) :
    (constructLoadedSectionLayout
        [readOnly, readWrite, readExecute, readWriteExecute, tlsTemplate, notLoaded]
        outputSectionSizes outputSectionAlignments
        outputSectionTypes).programHeaders.map (fun h => (h.p_type, h.p_flags)) =
      (if readOnly = [] then [] else [(PT_LOAD, PF_R)]) ++
      ((if readWrite = [] then [] else [(PT_LOAD, PF_R ||| PF_W)]) ++
      ((if readExecute = [] then [] else [(PT_LOAD, PF_R ||| PF_X)]) ++
      ((if readWriteExecute = [] then [] else [(PT_LOAD, PF_R ||| PF_W ||| PF_X)]) ++
      ((if tlsTemplate = [] then [] else [(PT_TLS, PF_R)]) ++
      [(PT_GNU_STACK, PF_R ||| PF_W)])))) ∧
    (∀ h, (constructLoadedSectionLayout
        [readOnly, readWrite, readExecute, readWriteExecute, tlsTemplate, notLoaded]
        outputSectionSizes outputSectionAlignments
        outputSectionTypes).programHeaders.getLast? = some h →
      h.p_type = PT_GNU_STACK ∧ h.p_flags = PF_R ||| PF_W ∧ h.p_align = 16) ∧
    ((constructLoadedSectionLayout (sortOutputSections outputSectionTypes flags sort)
        outputSectionSizes outputSectionAlignments
        outputSectionTypes).programHeaders.filter (fun h => h.p_type == PT_TLS)).length ≤ 1 ∧
    (((constructLoadedSectionLayout (sortOutputSections outputSectionTypes flags sort)
        outputSectionSizes outputSectionAlignments
        outputSectionTypes).programHeaders.filter (fun h => h.p_type == PT_TLS)).length = 1 ↔
      ∃ flag ∈ flags, flag &&& SHF_ALLOC ≠ 0 ∧ flag &&& SHF_TLS ≠ 0) := by
  have hcount := constructLoadedSectionLayout_tls_count outputSectionTypes flags
    outputSectionSizes outputSectionAlignments sort
  have hempty := sortOutputSections_tls_empty outputSectionTypes flags sort hsort
  refine ⟨constructLoadedSectionLayout_six _ _ _ _ _ _ _ _ _,
    (constructLoadedSectionLayout_types _ _ _ _).2, ?_, ?_⟩
  · rw [hcount]
    split_ifs <;> omega
  · rw [hcount]
    by_cases he : (sortOutputSections outputSectionTypes flags sort).getD
        SegmentLocation.tlsTemplate [] = []
    · rw [if_pos he]
      have := hempty.1 he
      constructor
      · intro h
        omega
      · intro h
        exact absurd h this
    · rw [if_neg he]
      have : ∃ flag ∈ flags, flag &&& SHF_ALLOC ≠ 0 ∧ flag &&& SHF_TLS ≠ 0 := by
        by_contra hn
        exact he (hempty.2 hn)
      exact ⟨fun _ => this, fun _ => rfl⟩

/-- The test `TLS_SegmentGetsGenerated`: with `.text` and a `.tdata` of the flags `awT`
there is one `PT_TLS` header. -/
theorem constructLoadedSectionLayout_program_headers_witness :
    (∀ less sections, (sortSections less sections).Perm sections) ∧
    ((constructLoadedSectionLayout
        (sortOutputSections [SHT_PROGBITS, SHT_PROGBITS]
          [SHF_ALLOC + SHF_EXECINSTR, SHF_ALLOC + SHF_WRITE + SHF_TLS] sortSections)
        [7, 7] [1, 1] [SHT_PROGBITS, SHT_PROGBITS]).programHeaders.filter
          (fun h => h.p_type == PT_TLS)).length = 1 :=
  ⟨fun less sections => List.perm_insertionSort _ sections,
   (constructLoadedSectionLayout_program_headers [] [] [] [] [] [] [7, 7] [1, 1]
      [SHT_PROGBITS, SHT_PROGBITS] [SHF_ALLOC + SHF_EXECINSTR, SHF_ALLOC + SHF_WRITE + SHF_TLS]
      sortSections (fun less sections => List.perm_insertionSort _ sections)).2.2.2.2
      ⟨SHF_ALLOC + SHF_WRITE + SHF_TLS, by decide, by decide, by decide⟩⟩

/-! ## Claim C14: the entry point -/

/-- The entry point.  When the entry symbol has a `firstLoad` and
`inputToOutputSectionOffset` maps its `st_value`, in the input section `st_shndx` of the
input that defines it, to the offset `m`, `buildElfAndSectionHeaders` returns `ok` with
`e_entry` the 64-bit sum of the address
of the output section of that input section and `m`, which is the sum itself when it is
below `2^64`; for a concatenated section, whose copy command is a single `PartCopy`, `m` is
`st_value + dstOffset`. -/
theorem buildElfAndSectionHeaders_entry (p : BuildElfIn) (entrySym : Elf64_Sym) (m : Nat)
    (hsym : p.entrySymbolInfo.firstLoad.symbol = some entrySym)
    (hm : inputToOutputSectionOffset p.entrySymbolInfo.firstLoad.elfID entrySym.st_shndx
      entrySym.st_value p.inputSectionCopyCommands = (StatusCode.ok, m)) :
    ∃ out, buildElfAndSectionHeaders p = some out ∧ out.status = StatusCode.ok ∧
      out.elfHeader.e_entry =
        (p.outputSectionAddresses.getD
          (get2D p.inputToOutputSection p.entrySymbolInfo.firstLoad.elfID entrySym.st_shndx) 0
          + m) % 2 ^ 64 ∧
      (p.outputSectionAddresses.getD
          (get2D p.inputToOutputSection p.entrySymbolInfo.firstLoad.elfID entrySym.st_shndx) 0
          + m < 2 ^ 64 →
        out.elfHeader.e_entry =
          p.outputSectionAddresses.getD
            (get2D p.inputToOutputSection p.entrySymbolInfo.firstLoad.elfID entrySym.st_shndx) 0
            + m) ∧
      (∀ cmd, get2D p.inputSectionCopyCommands p.entrySymbolInfo.firstLoad.elfID
          entrySym.st_shndx = SectionMemCopies.part cmd →
        m = (entrySym.st_value + cmd.dstOffset) % 2 ^ 64 ∧
        (entrySym.st_value + cmd.dstOffset < 2 ^ 64 → m = cmd.dstOffset + entrySym.st_value)) := by
  unfold buildElfAndSectionHeaders
  simp only [hsym, hm]
  refine ⟨_, rfl, rfl, rfl, ?_, ?_⟩
  · intro h
    show add64 _ _ = _
    exact add64_of_lt _ _ h
  · intro cmd hcmd
    unfold inputToOutputSectionOffset at hm
    rw [hcmd] at hm
    simp only [Prod.mk.injEq, true_and] at hm
    refine ⟨hm.symm, fun h => ?_⟩
    rw [← hm, Nat.mod_eq_of_lt h]
    omega

/-- An entry symbol at offset 4 of a section copied to the start of `.text`, which is at
`0x401000`: the entry point is `0x401004`. -/
theorem buildElfAndSectionHeaders_entry_witness :
    inputToOutputSectionOffset buildElfExample.entrySymbolInfo.firstLoad.elfID 1 4
      buildElfExample.inputSectionCopyCommands = (StatusCode.ok, 4) ∧
    ∃ out, buildElfAndSectionHeaders buildElfExample = some out ∧
      out.elfHeader.e_entry = 0x401004 := by
  obtain ⟨out, h1, -, h2, -⟩ := buildElfAndSectionHeaders_entry buildElfExample
    (mkSym 1 STB_GLOBAL 1 4) 4 rfl (by decide)
  exact ⟨by decide, out, h1, h2⟩

/-- C14 fails on the code.  In the link of `objMergedEntry` the entry symbol `a` is at the
offset 16 of its section, the start of the third of three distinct 8-byte elements.  The
link returns `ok`; the section is the output section 0, of 24 bytes at `0x4000e8`; its
copy commands put the three elements at the offsets 0, 8 and 16, and the third element,
`3, 0, 0, 0, 0, 0, 0, 0`, is at the offset 16 of the bytes of the output section, the
address `0x4000f8`.  The entry point `e_entry` is `0x4000e8 + 16 + 16 = 0x400108`, beyond
the end `0x400100` of the section: `inputToOutputSectionOffset` adds the offset of the
part to the offset in the input section without taking off the start of the part. -/
theorem buildElfAndSectionHeaders_entry_beyond_section :
    linkMergedEntry.output?.map (fun out =>
        (out.elfHeader.e_entry, out.outputSectionAddresses.getD 0 0,
          out.outputSectionSizes.getD 0 0, get2D out.inputToOutputSection 0 1)) =
      some (0x400108, 0x4000e8, 24, 0) ∧
    linkMergedEntry.output?.map (fun out => get2D out.inputSectionCopyCommands 0 1) =
      some (SectionMemCopies.parts [⟨8, 0⟩, ⟨8, 8⟩, ⟨8, 16⟩]) ∧
    linkMergedEntry.output?.map (fun out => out.materializedViews.getD 0 none) =
      some (some [1, 0, 0, 0, 0, 0, 0, 0, 2, 0, 0, 0, 0, 0, 0, 0, 3, 0, 0, 0, 0, 0, 0, 0]) ∧
    (SymbolTable.get (insertSymbolsIntoSymbolTable [objMergedEntry] [0] 0 []).symbolTable
        (bytesOf "a")).firstLoad =
      { symbol := some (mkSym 1 STB_GLOBAL 1 16), elfID := 0 } ∧
    inputToOutputSectionOffset 0 1 16
        [[SectionMemCopies.monostate, SectionMemCopies.parts [⟨8, 0⟩, ⟨8, 8⟩, ⟨8, 16⟩]]] =
      (StatusCode.ok, 32) ∧
    ¬ (0x400108 ≤ 0x4000e8 + 24) := by
  refine ⟨?_, ?_, ?_, ?_, ?_, by decide⟩ <;> set_option maxRecDepth 100000 in decide

/-! ## Claim C15: the size of the output file -/

theorem initOutputSections_names_lt (sectionHeaders : List (List Elf64_Shdr))
    (sectionStringTables : List Memory)
    (h : (initOutputSections sectionHeaders sectionStringTables).status = StatusCode.ok) :
    (initOutputSections sectionHeaders sectionStringTables).names.length <
      SHN_LORESERVE - 4 := by
  unfold initOutputSections at h ⊢
  simp only [] at h ⊢
  by_cases hc : (scanSections sectionHeaders sectionStringTables).sectionMap.length ≥
      SHN_LORESERVE - 4
  · rw [if_pos hc] at h
    simp at h
  · rw [if_neg hc]
    simp only [List.length_map]
    omega

theorem forEachIndexedFrom_append_length {α β : Type} (g : Nat → β) (xs : List α) (i : Nat)
    (acc : List β) :
    (forEachIndexedFrom (fun (hs : List β) (_ : α) id => hs ++ [g id]) i xs acc).length =
      acc.length + xs.length := by
  induction xs generalizing i acc with
  | nil => simp [forEachIndexedFrom]
  | cons x xs ih =>
    rw [forEachIndexedFrom, ih]
    simp
    omega

theorem buildElfAndSectionHeaders_headers_length (p : BuildElfIn) (out : BuildElfOut)
    (h : buildElfAndSectionHeaders p = some out) :
    out.outputSectionHeaders.length = p.names.length + 1 ∧
    out.elfHeader.e_shnum = (p.names.length + 1) % 2 ^ 16 ∧
    out.elfHeader.e_shoff = alignup p.sectionDataEnd alignof_Elf64_Shdr := by
  unfold buildElfAndSectionHeaders at h
  simp only [forEachIndexed] at h
  split at h
  · simp at h
  · simp only [Option.some.injEq] at h
    subst h
    simp only [List.length_set]
    rw [forEachIndexedFrom_append_length (outputSectionHeader p)]
    simp
    omega

theorem alignup_eight (a : Nat) (h : a + 8 ≤ 2 ^ 64) :
    a ≤ alignup a alignof_Elf64_Shdr ∧ 8 ∣ alignup a alignof_Elf64_Shdr := by
  unfold alignup add64 alignof_Elf64_Shdr
  simp only []
  have hmax : max 8 1 = 8 := by decide
  rw [hmax]
  split_ifs with h0
  · rw [Nat.mod_eq_of_lt (by omega)]
    omega
  · omega

theorem foldl_placeUnloaded_length (alignments sizes : List Nat) (sections : List Nat)
    (c : UnloadedCursor) :
    ((sections.foldl (placeUnloaded alignments sizes) c).outputSectionFileOffsets.length =
      c.outputSectionFileOffsets.length) ∧
    (sections.foldl (placeUnloaded alignments sizes) c).outputSectionAddresses.length =
      c.outputSectionAddresses.length := by
  induction sections generalizing c with
  | nil => exact ⟨rfl, rfl⟩
  | cons s rest ih =>
    rw [List.foldl_cons]
    obtain ⟨h1, h2⟩ := ih (placeUnloaded alignments sizes c s)
    rw [h1, h2]
    simp [placeUnloaded]

theorem foldl_placeUnloaded_last (alignments sizes : List Nat) (sections : List Nat)
    (c : UnloadedCursor) (l : Nat) (hl : sections.getLast? = some l)
    (hrange : l < c.outputSectionFileOffsets.length) :
    (sections.foldl (placeUnloaded alignments sizes) c).offsetOfUnloaded =
      add64 ((sections.foldl (placeUnloaded alignments sizes) c).outputSectionFileOffsets.getD l 0)
        (sizes.getD l 0) := by
  induction sections generalizing c with
  | nil => simp at hl
  | cons s rest ih =>
    rw [List.foldl_cons]
    cases rest with
    | nil =>
      simp only [List.getLast?_singleton, Option.some.injEq] at hl
      subst hl
      simp only [List.foldl_nil, placeUnloaded]
      rw [getD_set_self _ _ _ _ hrange]
    | cons r rest2 =>
      apply ih
      · rw [List.getLast?_cons_cons] at hl
        exact hl
      · simpa [placeUnloaded] using hrange

theorem forEachIndexedFrom_push_mem (flags : List Nat) (i : Nat) (seg : List (List Nat))
    (j x : Nat) (hx : x ∈ (forEachIndexedFrom pushToSegment i flags seg).getD j []) :
    x ∈ seg.getD j [] ∨ x < i + flags.length := by
  induction flags generalizing i seg with
  | nil => exact Or.inl hx
  | cons flag rest ih =>
    rw [forEachIndexedFrom] at hx
    rcases ih _ _ hx with h | h
    · unfold pushToSegment at h
      by_cases hk : flagsToSegmentIndex flag = j
      · by_cases hj : j < seg.length
        · rw [hk, getD_set_self _ _ _ _ hj] at h
          rcases List.mem_append.mp h with h1 | h1
          · exact Or.inl h1
          · right
            simp only [List.mem_singleton] at h1
            have := Nat.mod_le i (2 ^ 16)
            simp only [List.length_cons]
            omega
        · rw [List.set_eq_of_length_le (by omega)] at h
          exact Or.inl h
      · rw [getD_set_ne _ _ _ _ _ hk] at h
        exact Or.inl h
    · right
      simp only [List.length_cons]
      omega

theorem sortOutputSections_notLoaded_lt (types flags : List Nat)
    (sort : (Nat → Nat → Bool) → List Nat → List Nat) (x : Nat)
    (hx : x ∈ (sortOutputSections types flags sort).getD SegmentLocation.notLoaded []) :
    x < flags.length := by
  have hlen := forEachIndexedFrom_push_length flags 0 (List.replicate numProgramSegments [])
  have hlt : SegmentLocation.notLoaded <
      (forEachIndexedFrom pushToSegment 0 flags (List.replicate numProgramSegments [])).length := by
    rw [hlen]
    decide
  have hget : (sortOutputSections types flags sort).getD SegmentLocation.notLoaded [] =
      (forEachIndexedFrom pushToSegment 0 flags
        (List.replicate numProgramSegments [])).getD SegmentLocation.notLoaded [] := by
    unfold sortOutputSections forEachIndexed
    rw [List.getD_eq_getElem?_getD, List.getElem?_mapIdx, List.getD_eq_getElem?_getD,
      List.getElem?_eq_getElem hlt]
    simp
  rw [hget] at hx
  rcases forEachIndexedFrom_push_mem flags 0 _ _ x hx with h | h
  · have : (List.replicate numProgramSegments ([] : List Nat)).getD
        SegmentLocation.notLoaded [] = [] := by decide
    rw [this] at h
    simp at h
  · omega

theorem mergeSections_sizes_length (inputs : List ElfInput) (sectionRefs : List SectionRef)
    (outSectionID : Nat) (mergeType : MergeType) (allocate : Nat → List Nat)
    (visitOrder : List (List Nat × Nat) → List (List Nat × Nat)) (sizes : List Nat)
    (cmds : List (List SectionMemCopies)) (r : MergeOutput)
    (h : mergeSections inputs sectionRefs outSectionID mergeType allocate visitOrder sizes cmds =
      some r) : r.outputSectionSizes.length = sizes.length := by
  unfold mergeSections at h
  split at h
  · simp at h
  · simp at h
  · simp only [Option.some.injEq] at h
    subst h
    rfl
  · simp only [Option.some.injEq] at h
    subst h
    simp

theorem mergeAndSortSection_sizes_length (inputs : List ElfInput)
    (sortKeys outSectionFlags : List Nat)
    (sortRefs : (SectionRef → SectionRef → Bool) → List SectionRef → List SectionRef)
    (allocate : Nat → List Nat) (visitOrder : List (List Nat × Nat) → List (List Nat × Nat))
    (n : Nat) (state : Option MergeSortState) (sectionRefs : List SectionRef)
    (outSectionID : Nat) (hs : ∀ st, state = some st → st.outputSectionSizes.length = n) :
    ∀ st, mergeAndSortSection inputs sortKeys outSectionFlags sortRefs allocate visitOrder state
        sectionRefs outSectionID = some st → st.outputSectionSizes.length = n := by
  intro st' h
  unfold mergeAndSortSection at h
  cases state with
  | none => simp at h
  | some st =>
    have hn := hs st rfl
    simp only [] at h
    by_cases hm : outSectionFlags.getD outSectionID 0 &&& SHF_MERGE = 0
    · rw [if_pos hm] at h
      simp only [Option.some.injEq] at h
      subst h
      simp [concatenateSections, hn]
    · rw [if_neg hm] at h
      generalize (if outSectionFlags.getD outSectionID 0 &&& SHF_STRINGS ≠ 0 then
        MergeType.variableLength else MergeType.fixedLength) = mt at h
      split at h
      · simp at h
      · rename_i r hr
        simp only [Option.some.injEq] at h
        subst h
        have := mergeSections_sizes_length _ _ _ _ _ _ _ _ _ hr
        simpa [hn] using this

theorem mergeAndSortInputSections_sizes_length (inputs : List ElfInput)
    (sortKeys outSectionFlags : List Nat)
    (sortRefs : (SectionRef → SectionRef → Bool) → List SectionRef → List SectionRef)
    (allocate : Nat → List Nat) (visitOrder : List (List Nat × Nat) → List (List Nat × Nat))
    (outputToInputSections : List (List SectionRef)) (ms : MergeSortState)
    (h : mergeAndSortInputSections inputs sortKeys outSectionFlags sortRefs allocate visitOrder
      outputToInputSections = some ms) :
    ms.outputSectionSizes.length = outSectionFlags.length := by
  unfold mergeAndSortInputSections forEachIndexed at h
  exact forEachIndexedFrom_invariant _
    (fun state => ∀ st, state = some st → st.outputSectionSizes.length = outSectionFlags.length)
    (fun s x i hs => mergeAndSortSection_sizes_length inputs sortKeys outSectionFlags sortRefs
      allocate visitOrder _ s x i hs)
    outputToInputSections 0 _ (by
      intro st hst
      simp only [Option.some.injEq] at hst
      subst hst
      simp) ms h

theorem foldl_placeSection_length (sizes aligns types : List Nat) (sections : List Nat)
    (c : SectionCursor) :
    (sections.foldl (placeSection sizes aligns types) c).outputSectionFileOffsets.length =
      c.outputSectionFileOffsets.length := by
  induction sections generalizing c with
  | nil => rfl
  | cons s rest ih =>
    rw [List.foldl_cons, ih]
    unfold placeSection
    simp only []
    split_ifs <;> simp

theorem constructLoadedSectionLayout_offsets_length (segs : List (List Nat))
    (sizes aligns types : List Nat) :
    (constructLoadedSectionLayout segs sizes aligns types).outputSectionFileOffsets.length =
      sizes.length := by
  unfold constructLoadedSectionLayout forEachIndexed
  simp only []
  apply forEachIndexedFrom_invariant _
    (fun st : LayoutState => st.outputSectionFileOffsets.length = sizes.length)
  · intro s x i hs
    unfold layoutSegment
    split_ifs
    · exact hs
    · show (placeSections sizes aligns types s x).outputSectionFileOffsets.length = _
      unfold placeSections
      rw [foldl_placeSection_length]
      exact hs
  · simp

theorem mapSynthesizeAndBuild_done (lib : LibraryChoices) (inputs : List ElfInput)
    (symbolTable : SymbolTable) (entrySymbolInfo : GlobalSymbolTableEntry) (init : InitOutput)
    (ms : MergeSortState) (s : OutputSections) (gotID symTabID strTabID shstrTabID : Nat)
    (segmentedSections : List (List Nat)) (pre : PreProcessState) (layout : LayoutOutput)
    (out : MapOutput)
    (h : mapSynthesizeAndBuild lib inputs symbolTable entrySymbolInfo init ms s gotID symTabID
      strTabID shstrTabID segmentedSections pre layout = MapResult.done out) :
    out.names = s.names ∧
    out.segmentedSections = segmentedSections ∧
    out.outputSectionHeaders.length = s.names.length + 1 ∧
    out.elfHeader.e_shnum = (s.names.length + 1) % 2 ^ 16 ∧
    out.elfHeader.e_shoff = alignup out.sectionDataEnd alignof_Elf64_Shdr ∧
    out.outputSectionFileOffsets.length = layout.outputSectionFileOffsets.length ∧
    ∀ l, (segmentedSections.getD SegmentLocation.notLoaded []).getLast? = some l →
      l < layout.outputSectionFileOffsets.length →
      out.sectionDataEnd =
        add64 (out.outputSectionFileOffsets.getD l 0) (out.outputSectionSizes.getD l 0) := by
  unfold mapSynthesizeAndBuild at h
  simp only [] at h
  split_ifs at h with h1
  split at h
  · simp at h
  · rename_i build hbuild
    split_ifs at h with h2
    simp only [MapResult.done.injEq] at h
    subst h
    obtain ⟨b1, b2, b3⟩ := buildElfAndSectionHeaders_headers_length _ _ hbuild
    refine ⟨rfl, rfl, b1, b2, b3, ?_, ?_⟩
    · exact (foldl_placeUnloaded_length _ _ _ _).1
    · intro l hl hrange
      exact foldl_placeUnloaded_last _ _ _ _ l hl hrange

theorem mapSyntheticAndLayout_done (lib : LibraryChoices) (inputs : List ElfInput)
    (symbolTable : SymbolTable) (entrySymbolInfo : GlobalSymbolTableEntry) (init : InitOutput)
    (ms : MergeSortState) (out : MapOutput)
    (hsizes : ms.outputSectionSizes.length = init.flags.length)
    (h : mapSyntheticAndLayout lib inputs symbolTable entrySymbolInfo init ms =
      MapResult.done out) :
    out.names = init.names ++
      [bytesOf ".got", bytesOf ".symtab", bytesOf ".strTab", bytesOf ".shstrtab"] ∧
    out.outputSectionHeaders.length = init.names.length + 5 ∧
    out.elfHeader.e_shnum = (init.names.length + 5) % 2 ^ 16 ∧
    out.elfHeader.e_shoff = alignup out.sectionDataEnd alignof_Elf64_Shdr ∧
    ∀ l, (out.segmentedSections.getD SegmentLocation.notLoaded []).getLast? = some l →
      out.sectionDataEnd =
        add64 (out.outputSectionFileOffsets.getD l 0) (out.outputSectionSizes.getD l 0) := by
  unfold mapSyntheticAndLayout at h
  simp only [] at h
  split_ifs at h with hpre hlay
  obtain ⟨d1, d2, d3, d4, d5, -, d7⟩ := mapSynthesizeAndBuild_done _ _ _ _ _ _ _ _ _ _ _ _ _ _ _ h
  refine ⟨?_, ?_, ?_, d5, ?_⟩
  · rw [d1]
    simp [allocateSyntheticSection]
  · rw [d3]
    simp [allocateSyntheticSection]
  · rw [d4]
    simp [allocateSyntheticSection]
  · intro l hl
    rw [d2] at hl
    apply d7 l hl
    have hmem := List.mem_of_getLast?_eq_some hl
    have hlt := sortOutputSections_notLoaded_lt _ _ _ l hmem
    rw [constructLoadedSectionLayout_offsets_length]
    simp only [allocateSyntheticSection, List.length_append, List.length_singleton,
      List.length_set] at hlt ⊢
    omega

/-- C15. When `mapInputSectionsToOutputSections` returns `ok`: the output sections are
those of `initOutputSections` and the four synthetic ones; there is one section header
for each of them and the null header; `e_shnum` is that number, not truncated, so that the
size the writer gives the file, `e_shoff + outputSectionHeaders.size() * sizeof(Elf64_Shdr)`,
is `e_shoff + e_shnum * sizeof(Elf64_Shdr)`; and when the end of the last section that is
not loaded, its file offset plus its size, does not come within 8 of `2^64`, `e_shoff` is
a multiple of 8 and not smaller than that end. -/
theorem mapInputSectionsToOutputSections_file_size (lib : LibraryChoices)
    (inputs : List ElfInput) (sortKeys : List Nat) (sectionStringTables : List Memory)
    (symbolTable : SymbolTable) (entrySymbolInfo : GlobalSymbolTableEntry) (out : MapOutput)
    (h : mapInputSectionsToOutputSections lib inputs sortKeys sectionStringTables symbolTable
      entrySymbolInfo = MapResult.done out) :
    out.names = (initOutputSections (inputs.map ElfInput.headers) sectionStringTables).names ++
      [bytesOf ".got", bytesOf ".symtab", bytesOf ".strTab", bytesOf ".shstrtab"] ∧
    out.outputSectionHeaders.length = out.names.length + 1 ∧
    out.elfHeader.e_shnum = out.outputSectionHeaders.length ∧
    outputFileSize out.elfHeader out.outputSectionHeaders =
      add64 out.elfHeader.e_shoff (out.elfHeader.e_shnum * sizeof_Elf64_Shdr) ∧
    (out.elfHeader.e_shoff + out.elfHeader.e_shnum * sizeof_Elf64_Shdr < 2 ^ 64 →
      outputFileSize out.elfHeader out.outputSectionHeaders =
        out.elfHeader.e_shoff + out.elfHeader.e_shnum * sizeof_Elf64_Shdr) ∧
    ∀ l, (out.segmentedSections.getD SegmentLocation.notLoaded []).getLast? = some l →
      out.outputSectionFileOffsets.getD l 0 + out.outputSectionSizes.getD l 0 + 8 ≤ 2 ^ 64 →
      8 ∣ out.elfHeader.e_shoff ∧
      out.outputSectionFileOffsets.getD l 0 + out.outputSectionSizes.getD l 0 ≤
        out.elfHeader.e_shoff := by
  unfold mapInputSectionsToOutputSections at h
  simp only [] at h
  split_ifs at h with hinit
  have hok : (initOutputSections (inputs.map ElfInput.headers) sectionStringTables).status =
      StatusCode.ok := by
    by_contra hn
    exact hinit hn
  have hnames : (initOutputSections (inputs.map ElfInput.headers)
      sectionStringTables).names.length < 65276 := initOutputSections_names_lt _ _ hok
  split at h
  · simp at h
  · rename_i ms hms
    split_ifs at h with hmsok
    have hsizes := mergeAndSortInputSections_sizes_length _ _ _ _ _ _ _ _ hms
    obtain ⟨d1, d3, d4, d5, d7⟩ := mapSyntheticAndLayout_done _ _ _ _ _ _ _ hsizes h
    have hshnum : out.elfHeader.e_shnum = out.outputSectionHeaders.length := by
      rw [d4, d3, Nat.mod_eq_of_lt (by omega)]
    have hsize : outputFileSize out.elfHeader out.outputSectionHeaders =
        add64 out.elfHeader.e_shoff (out.elfHeader.e_shnum * sizeof_Elf64_Shdr) := by
      unfold outputFileSize
      rw [hshnum, Nat.mod_eq_of_lt]
      rw [d3]
      unfold sizeof_Elf64_Shdr
      omega
    refine ⟨d1, ?_, hshnum, hsize, ?_, ?_⟩
    · rw [d3, d1]
      simp
    · intro hlt
      rw [hsize]
      exact add64_of_lt _ _ hlt
    · intro l hl hfit
      have hend := d7 l hl
      rw [add64_of_lt _ _ (by omega)] at hend
      rw [d5, hend]
      have := alignup_eight (out.outputSectionFileOffsets.getD l 0 +
        out.outputSectionSizes.getD l 0) hfit
      exact ⟨this.2, this.1⟩

theorem MapResult.eq_done_of_output? (r : MapResult) (out : MapOutput)
    (h : r.output? = some out) : r = MapResult.done out := by
  cases r with
  | done o =>
    simp only [MapResult.output?, Option.some.injEq] at h
    rw [h]
  | failed s => simp [MapResult.output?] at h
  | diverges => simp [MapResult.output?] at h
  | undefined s => simp [MapResult.output?] at h

/-- The link of an object with `.text`, `.data` and `.bss`: there are eight section
headers, `e_shnum` is 8, and the file has `e_shoff + 8 * 64` bytes. -/
theorem mapInputSectionsToOutputSections_file_size_witness :
    ∃ out, linkTextDataBss = MapResult.done out ∧ out.elfHeader.e_shnum = 8 ∧
      out.outputSectionHeaders.length = 8 ∧
      outputFileSize out.elfHeader out.outputSectionHeaders =
        add64 out.elfHeader.e_shoff (out.elfHeader.e_shnum * sizeof_Elf64_Shdr) := by
  have hsome : (linkTextDataBss.output?.map (fun out => out.outputSectionHeaders.length)) =
      some 8 := by decide
  cases hout : linkTextDataBss.output? with
  | none => simp [hout] at hsome
  | some out =>
    simp only [hout, Option.map_some', Option.some.injEq] at hsome
    have hdone := MapResult.eq_done_of_output? _ _ hout
    have h := mapInputSectionsToOutputSections_file_size simpleLibrary [objTextDataBss] [0]
      [objTextDataBss.mem.drop 53]
      (insertSymbolsIntoSymbolTable [objTextDataBss] [0] 0 []).symbolTable
      (SymbolTable.get (insertSymbolsIntoSymbolTable [objTextDataBss] [0] 0 []).symbolTable
        (bytesOf "a")) out hdone
    exact ⟨out, hdone, by rw [h.2.2.1, hsome], hsome, h.2.2.2.1⟩

/-! ## Claims C16 and C17: offsets in the output sections -/

/-- C16 fails on the code.  In the link of `objMergedPointers`, a section of three
distinct 8-byte elements with a relocation of type `R_X86_64_64` in the third element,
`mergeAndSortInputSections` gives the output section the size 24 and the three parts the
offsets 0, 8 and 16; `preProcessesRelocations` returns `ok` and records the relocation at
the offset `16 + 16 = 32`, and `prepareRelaWrite` gives it 8 bytes: it ends at 40, past
the 24 bytes of the section.  In the link of `objRelocationOutside`, whose relocation is
at the offset 1000 of a `.text` of ten bytes, the run returns `ok` too and the relocation
is recorded at the offset 1000. -/
theorem preProcessesRelocations_offset_outside :
    mergedPointersSections.map (fun st => (st.status, st.outputSectionSizes)) =
      some (StatusCode.ok, [24]) ∧
    mergedPointersCommands =
      [[SectionMemCopies.monostate,
        SectionMemCopies.parts [⟨8, 0⟩, ⟨8, 8⟩, ⟨8, 16⟩],
        SectionMemCopies.monostate, SectionMemCopies.monostate, SectionMemCopies.monostate]] ∧
    (preProcessesRelocations [objMergedPointers] linkMergedPointers).status = StatusCode.ok ∧
    (preProcessesRelocations [objMergedPointers] linkMergedPointers).processedRelas.getD 0 [] =
      [{ addend := 0, outputSectionOffset := 32, symbolValue := 32, type := R_X86_64_64,
         symbolSectionID := 0, note := Note.none }] ∧
    (∀ r ∈ (preProcessesRelocations [objMergedPointers]
        linkMergedPointers).processedRelas.getD 0 [],
      (prepareRelaWrite r 0x401000 layoutMergedPointers.outputSectionAddresses 0x4000e8
        0xe8).2.2.1 = 8 ∧
      ¬ (r.outputSectionOffset + 8 ≤ 24)) ∧
    (mergeAndSortInputSections [objRelocationOutside] [0] [SHF_ALLOC + SHF_EXECINSTR]
        sortSectionRefs (fun n => List.replicate n 0) id [[⟨0, 1⟩]]).map
      (fun st => (st.status, st.outputSectionSizes)) = some (StatusCode.ok, [10]) ∧
    (preProcessesRelocations [objRelocationOutside] linkRelocationOutside).status =
      StatusCode.ok ∧
    (preProcessesRelocations [objRelocationOutside]
        linkRelocationOutside).processedRelas.getD 0 [] =
      [{ addend := 0, outputSectionOffset := 1000, symbolValue := 0, type := R_X86_64_64,
         symbolSectionID := 0, note := Note.none }] := by
  refine ⟨by decide, by decide, by decide, by decide, by decide, by decide, by decide,
    by decide⟩

/-- C17 fails on the code.  In the link of `objMergedPointers` the local symbol `a` is at
the offset 16 of its section, the start of the third of three distinct 8-byte elements,
which `mergeSections` copies to the offset 16 of the output section 0, of 24 bytes at the
address `0x4000e8`.  `synthesizeSyntheticSections` writes the symbol with `st_shndx = 1`
and `st_value = 0x4000e8 + 16 + 16 = 0x400108`, beyond the end `0x400100` of the section:
`inputToOutputSectionOffset` adds the offset of the part to the offset in the input
section without taking off the start of the part. -/
theorem synthesizeSyntheticSections_value_outside :
    layoutMergedPointers.outputSectionAddresses.getD 0 0 = 0x4000e8 ∧
    inputToOutputSectionOffset 0 1 16 mergedPointersCommands = (StatusCode.ok, 32) ∧
    symtabMergedPointers =
      [default,
       { st_name := 1, st_info := 0, st_other := 0, st_shndx := 1, st_value := 0x400108,
         st_size := 0 }] ∧
    ∃ sym ∈ symtabMergedPointers, sym.st_shndx ≠ SHN_ABS ∧ sym.st_shndx = 0 + 1 ∧
      ¬ (sym.st_value ≤ layoutMergedPointers.outputSectionAddresses.getD 0 0 + 24) := by
  refine ⟨by decide, by decide, by decide, ?_⟩
  refine ⟨⟨1, 0, 0, 1, 0x400108, 0⟩, by decide, by decide, by decide, by decide⟩

/-! ## Claims C18 and C19: the validation of the inputs -/

/-- The loop over the section headers returns `ok` when it rejects no section. -/
theorem validateSections_ok (memSize : Nat) (l : List Elf64_Shdr) :
    validateSections memSize l = StatusCode.ok ↔
      ∀ s ∈ l, s.sh_type ≠ SHT_NOBITS →
        s.sh_type ≠ SHT_GROUP ∧ add64 s.sh_offset s.sh_size ≤ memSize := by
  induction l with
  | nil => simp [validateSections]
  | cons s rest ih =>
    simp only [validateSections, List.mem_cons, forall_eq_or_imp]
    by_cases h1 : s.sh_type = SHT_NOBITS
    · rw [if_pos h1, ih]
      exact ⟨fun h => ⟨fun hn => absurd h1 hn, h⟩, fun h => h.2⟩
    · rw [if_neg h1]
      by_cases h2 : s.sh_type = SHT_GROUP
      · rw [if_pos h2]
        exact ⟨(fun h => nomatch h), fun h => absurd h2 (h.1 h1).1⟩
      · rw [if_neg h2]
        by_cases h3 : memSize < add64 s.sh_offset s.sh_size
        · rw [if_pos h3]
          exact ⟨(fun h => nomatch h), fun h => absurd (h.1 h1).2 (by omega)⟩
        · rw [if_neg h3, ih]
          exact ⟨fun h => ⟨fun _ => ⟨h2, by omega⟩, h⟩, fun h => h.2⟩

/-- The function `initRelaElf` returns `ok` for the files that pass its tests, the sums
of which are taken modulo `2 ^ 64`. -/
theorem initRelaElf_ok_iff (mem : Memory) (memSize : Nat) :
    (initRelaElf mem memSize).status = StatusCode.ok ↔ acceptedByCode mem memSize := by
  unfold initRelaElf acceptedByCode
  simp only []
  by_cases h1 : (readEhdr mem).e_type = ET_REL
  swap
  · rw [if_pos h1]
    exact ⟨(fun h => nomatch h), fun h => absurd h.1 h1⟩
  rw [if_neg (not_not.mpr h1)]
  by_cases h2 : (readEhdr mem).e_machine = EM_X86_64
  swap
  · rw [if_pos h2]
    exact ⟨(fun h => nomatch h), fun h => absurd h.2.1 h2⟩
  rw [if_neg (not_not.mpr h2)]
  by_cases h3 : (readEhdr mem).e_shentsize = sizeof_Elf64_Shdr
  swap
  · rw [if_pos h3]
    exact ⟨(fun h => nomatch h), fun h => absurd h.2.2.1 h3⟩
  rw [if_neg (not_not.mpr h3)]
  by_cases h4 : memSize < add64 (readEhdr mem).e_shoff
      ((readEhdr mem).e_shnum * (readEhdr mem).e_shentsize)
  · rw [if_pos h4]
    exact ⟨(fun h => nomatch h), fun h => absurd h.2.2.2.2.2.2.1 (by omega)⟩
  rw [if_neg h4]
  by_cases h5 : (readEhdr mem).e_shnum = 0 ∨ (readEhdr mem).e_shnum ≥ SHN_LORESERVE
  · rw [if_pos h5]
    refine ⟨(fun h => nomatch h), fun h => ?_⟩
    have a := h.2.2.2.1
    have b := h.2.2.2.2.1
    rcases h5 with h5 | h5 <;> omega
  rw [if_neg h5]
  by_cases h6 : (readEhdr mem).e_shstrndx = SHN_XINDEX
  · rw [if_pos h6]
    exact ⟨(fun h => nomatch h), fun h => absurd h6 h.2.2.2.2.2.1⟩
  rw [if_neg h6]
  have h5a : 1 ≤ (readEhdr mem).e_shnum ∧ (readEhdr mem).e_shnum < SHN_LORESERVE := by
    constructor <;> by_contra hc <;> exact h5 (by omega)
  by_cases h7 : validateSections memSize
      (view_as_span_Shdr mem (readEhdr mem).e_shoff (readEhdr mem).e_shnum) = StatusCode.ok
  · rw [if_neg (not_not.mpr h7)]
    exact ⟨fun _ => ⟨h1, h2, h3, h5a.1, h5a.2, h6, by omega,
      (validateSections_ok _ _).mp h7⟩, fun _ => rfl⟩
  · rw [if_pos h7]
    exact ⟨fun h => absurd h h7, fun h => absurd ((validateSections_ok _ _).mpr h.2.2.2.2.2.2.2) h7⟩

/-- The modular sum is not above the sum. -/
theorem add64_le (a b : Nat) : add64 a b ≤ a + b := by
  unfold add64
  exact Nat.mod_le _ _

/-- A file that C19 describes as accepted passes the tests of `initRelaElf`. -/
theorem acceptedByCode_of_stated (mem : Memory) (memSize : Nat)
    (h : acceptedAsStated mem memSize) : acceptedByCode mem memSize := by
  obtain ⟨h1, h2, h3, h4, h5, h6, h7, h8⟩ := h
  refine ⟨h1, h2, h3, h4, h5, h6, le_trans (add64_le _ _) h7, fun s hs hn => ?_⟩
  exact ⟨(h8 s hs).1, le_trans (add64_le _ _) ((h8 s hs).2 hn)⟩

/-- C18 fails on the code.  `parseElfFiles` returns `ok` for all inputs: the status of
`initRelaElf` is stored in the local `status`, and the function ends in
`return StatusCode::ok`.  For the one file `fileExecutable`, whose `e_type` is `ET_EXEC`,
`initRelaElf` returns `not_ok`, the local `status` holds `not_ok`, no entry of the output
vectors is written, and `parseElfFiles` returns `ok`. -/
theorem parseElfFiles_returns_ok :
    (∀ addresses memSizes elfFileIndices,
      (parseElfFiles addresses memSizes elfFileIndices).1 = StatusCode.ok) ∧
    fileExecutable.length = 128 ∧
    (readEhdr fileExecutable).e_type = ET_EXEC ∧
    (initRelaElf fileExecutable 128).status = StatusCode.not_ok ∧
    parseElfFiles [fileExecutable] [128] [0] =
      (StatusCode.ok,
       { status := StatusCode.not_ok, elfAddresses := [none], precedences := [0],
         sectionHeaders := [[]], sectionStringTables := [none] }) := by
  refine ⟨fun _ _ _ => rfl, ?_, ?_, ?_, ?_⟩ <;>
    set_option maxRecDepth 100000 in decide

/-- C19 fails on the code.  `initRelaElf` returns `ok` for the files that pass its tests
with the sums taken modulo `2 ^ 64`, among them all the files that C19 describes.  The
file `fileSectionBeyond` of 192 bytes is relocatable, for `EM_X86_64`, with two section
headers of 64 bytes at the offset 64; its section 1 is of type `SHT_PROGBITS` with
`sh_offset = 2 ^ 64 - 8` and `sh_size = 16`, so `sh_offset + sh_size` is `2 ^ 64 + 8`, far
beyond the file, and 8 modulo `2 ^ 64`: `initRelaElf` returns `ok`. -/
theorem initRelaElf_accepts_section_beyond_file :
    (∀ mem memSize, (initRelaElf mem memSize).status = StatusCode.ok ↔
      acceptedByCode mem memSize) ∧
    (∀ mem memSize, acceptedAsStated mem memSize →
      (initRelaElf mem memSize).status = StatusCode.ok) ∧
    fileSectionBeyond.length = 192 ∧
    view_as_span_Shdr fileSectionBeyond (readEhdr fileSectionBeyond).e_shoff
      (readEhdr fileSectionBeyond).e_shnum = [default, sectionBeyondFile] ∧
    sectionBeyondFile.sh_offset + sectionBeyondFile.sh_size = 2 ^ 64 + 8 ∧
    add64 sectionBeyondFile.sh_offset sectionBeyondFile.sh_size = 8 ∧
    (initRelaElf fileSectionBeyond 192).status = StatusCode.ok ∧
    ¬ acceptedAsStated fileSectionBeyond 192 := by
  have hv : view_as_span_Shdr fileSectionBeyond (readEhdr fileSectionBeyond).e_shoff
      (readEhdr fileSectionBeyond).e_shnum = [default, sectionBeyondFile] := by
    set_option maxRecDepth 100000 in decide
  refine ⟨initRelaElf_ok_iff, fun mem memSize h =>
    (initRelaElf_ok_iff mem memSize).mpr (acceptedByCode_of_stated mem memSize h),
    ?_, hv, by decide, by decide, ?_, fun h => ?_⟩
  · set_option maxRecDepth 100000 in decide
  · set_option maxRecDepth 100000 in decide
  · have h8 := (h.2.2.2.2.2.2.2 sectionBeyondFile (by rw [hv]; simp)).2 (by decide)
    revert h8
    decide

/-! ## Claim C20: `--eh-frame-hdr` -/

/-- An argument that the loop of `argumentsToLinkerParameters` takes as an input file. -/
theorem argumentLoop_file (argv : List Name) (fuel i : Nat) (st : ArgState)
    (hi : i < argv.length)
    (hfile : (argv.getD i []).length < 2 ∨ (argv.getD i []).head? ≠ some '-'.toNat) :
    argumentLoop argv (fuel + 1) i st =
      argumentLoop argv fuel (i + 1)
        { st with inputFilePaths := st.inputFilePaths ++ [argv.getD i []] } := by
  rw [argumentLoop, if_pos hi]
  simp only []
  rw [if_pos hfile]

/-- The split of the argument `--eh-frame-hdr`. -/
theorem splitArgIntoOptionAndParam_eh_frame_hdr (argv : List Name) (i : Nat) :
    ∃ param, splitArgIntoOptionAndParam (bytesOf "--eh-frame-hdr") argv i =
      some (⟨OptionType.enableEhFrameHdr, false⟩, param, 1) :=
  ⟨if i + 1 < argv.length then argv.getD (i + 1) [] else [], rfl⟩

/-- The loop of `argumentsToLinkerParameters` at the argument `--eh-frame-hdr`: it sets
`createEhFrameHeader` and goes on with the next argument. -/
theorem argumentLoop_eh_frame_hdr (argv : List Name) (fuel i : Nat) (st : ArgState)
    (hi : i < argv.length) (harg : argv.getD i [] = bytesOf "--eh-frame-hdr") :
    argumentLoop argv (fuel + 1) i st =
      argumentLoop argv fuel (i + 1)
        { st with linkerOptions := { st.linkerOptions with createEhFrameHeader := true } } := by
  obtain ⟨param, hsplit⟩ := splitArgIntoOptionAndParam_eh_frame_hdr argv i
  rw [argumentLoop, if_pos hi]
  simp only []
  rw [harg, if_neg (by decide), if_neg (by decide), hsplit]
  rfl

/-- The loop of `argumentsToLinkerParameters` over arguments that are input files. -/
theorem argumentLoop_files (files : List Name) :
    ∀ (pre rest : List Name) (fuel : Nat) (st : ArgState),
      (∀ f ∈ files, f.length < 2 ∨ f.head? ≠ some '-'.toNat) →
      argumentLoop (pre ++ files ++ rest) (files.length + fuel) pre.length st =
        argumentLoop (pre ++ files ++ rest) fuel (pre.length + files.length)
          { st with inputFilePaths := st.inputFilePaths ++ files } := by
  induction files with
  | nil => intro pre rest fuel st _; simp
  | cons f files ih =>
    intro pre rest fuel st hfiles
    have hget : (pre ++ f :: files ++ rest).getD pre.length [] = f := by
      rw [List.append_assoc, List.getD_eq_getElem?_getD,
        List.getElem?_append_right (Nat.le_refl _)]
      simp
    have hfuel : (f :: files).length + fuel = (files.length + fuel) + 1 := by
      simp only [List.length_cons]; omega
    rw [hfuel, argumentLoop_file _ _ _ _ (by simp) (by rw [hget]; exact hfiles f (by simp)), hget]
    have happ : pre ++ f :: files ++ rest = (pre ++ [f]) ++ files ++ rest := by simp
    have h := ih (pre ++ [f]) rest fuel
      { st with inputFilePaths := st.inputFilePaths ++ [f] }
      (fun g hg => hfiles g (List.mem_cons_of_mem _ hg))
    rw [happ]
    simp only [List.length_append, List.length_singleton] at h
    rw [h]
    simp [Nat.add_assoc, Nat.add_comm 1]

/-- C20: `linkSourcesToExecutableElfFile` returns `not_ok`, and has called no stage (it
has parsed no input and written no file), whenever `options.createEhFrameHeader` is set,
for all inputs.  `argumentsToLinkerParameters` sets `createEhFrameHeader` at each argument
`--eh-frame-hdr` that its loop reaches, and for the arguments of input files followed by
`--eh-frame-hdr` it returns `ok` with the default options and `createEhFrameHeader`
set. -/
theorem linkSourcesToExecutableElfFile_rejects_eh_frame_hdr :
    (∀ (stages : LinkStages) (lib : LibraryChoices) (sourceAddresses : List Memory)
        (sourceMemorySizes : List Nat) (options : LinkerOptions),
      options.createEhFrameHeader = true →
      linkSourcesToExecutableElfFile stages lib sourceAddresses sourceMemorySizes options =
        some (StatusCode.not_ok, [])) ∧
    (∀ (argv : List Name) (fuel i : Nat) (st : ArgState),
      i < argv.length → argv.getD i [] = bytesOf "--eh-frame-hdr" →
      argumentLoop argv (fuel + 1) i st =
        argumentLoop argv fuel (i + 1)
          { st with
            linkerOptions := { st.linkerOptions with createEhFrameHeader := true } }) ∧
    (∀ (fs : FileSystem) (files : List Name),
      (∀ f ∈ files, f.length < 2 ∨ f.head? ≠ some '-'.toNat) →
      argumentsToLinkerParameters fs (files ++ [bytesOf "--eh-frame-hdr"]) =
        some (StatusCode.ok,
          { outputFileName := bytesOf "a.out", entrySymbolName := bytesOf "_start",
            createEhFrameHeader := true },
          files)) := by
  refine ⟨?_, argumentLoop_eh_frame_hdr, ?_⟩
  · intro stages lib sourceAddresses sourceMemorySizes options h
    unfold linkSourcesToExecutableElfFile
    split_ifs <;> rfl
  · intro fs files hfiles
    unfold argumentsToLinkerParameters
    have h := argumentLoop_files files [] [bytesOf "--eh-frame-hdr"] 1
    simp only [List.nil_append, List.length_nil, Nat.zero_add] at h
    simp only [List.length_append, List.length_singleton]
    rw [h _ hfiles, argumentLoop_eh_frame_hdr _ _ _ _ (by simp) (by simp)]
    simp [argumentLoop, findLibraries]

/-- C20 on the arguments `a.o b.o --eh-frame-hdr` of the test `Reject_EH_Frame_Hdr`: the
parser sets the flag, and the link with the flag set calls no stage, where the same link
without the flag parses the input and writes `a.out`. -/
theorem linkSourcesToExecutableElfFile_rejects_eh_frame_hdr_witness :
    argumentsToLinkerParameters noLibraries
        ([bytesOf "a.o", bytesOf "b.o"] ++ [bytesOf "--eh-frame-hdr"]) =
      some (StatusCode.ok,
        { outputFileName := bytesOf "a.out", entrySymbolName := bytesOf "_start",
          createEhFrameHeader := true },
        [bytesOf "a.o", bytesOf "b.o"]) ∧
    linkSourcesToExecutableElfFile simpleStages simpleLibrary [fileExecutable, fileExecutable]
        [128, 128]
        { outputFileName := bytesOf "a.out", entrySymbolName := bytesOf "a",
          createEhFrameHeader := true } =
      some (StatusCode.not_ok, []) ∧
    linkSourcesToExecutableElfFile simpleStages simpleLibrary [fileExecutable, fileExecutable]
        [128, 128]
        { outputFileName := bytesOf "a.out", entrySymbolName := bytesOf "a",
          createEhFrameHeader := false } =
      some (StatusCode.ok, [LinkEvent.parsedInput, LinkEvent.mappedSections,
        LinkEvent.wroteFile (bytesOf "a.out")]) :=
  ⟨linkSourcesToExecutableElfFile_rejects_eh_frame_hdr.2.2 noLibraries
      [bytesOf "a.o", bytesOf "b.o"] (by decide),
    linkSourcesToExecutableElfFile_rejects_eh_frame_hdr.1 simpleStages simpleLibrary _ _ _ rfl,
    by set_option maxRecDepth 100000 in decide⟩

/-! ## Claim C21: the names of the synthetic sections -/

/-- The output sections of a link that returns `ok` are those of `initOutputSections` and
the four synthetic ones. -/
theorem mapInputSectionsToOutputSections_names (lib : LibraryChoices)
    (inputs : List ElfInput) (sortKeys : List Nat) (sectionStringTables : List Memory)
    (symbolTable : SymbolTable) (entrySymbolInfo : GlobalSymbolTableEntry) (out : MapOutput)
    (h : mapInputSectionsToOutputSections lib inputs sortKeys sectionStringTables symbolTable
      entrySymbolInfo = MapResult.done out) :
    out.names = (initOutputSections (inputs.map ElfInput.headers) sectionStringTables).names ++
      [bytesOf ".got", bytesOf ".symtab", bytesOf ".strTab", bytesOf ".shstrtab"] := by
  unfold mapInputSectionsToOutputSections at h
  simp only [] at h
  split_ifs at h with hinit
  split at h
  · simp at h
  · rename_i ms hms
    split_ifs at h with hmsok
    have hsizes := mergeAndSortInputSections_sizes_length _ _ _ _ _ _ _ _ hms
    exact (mapSyntheticAndLayout_done _ _ _ _ _ _ _ hsizes h).1

/-- C21 fails on the code.  In every link that returns `ok` the four synthetic output
sections are named `.got`, `.symtab`, `.strTab` and `.shstrtab`: the name of the symbol
string table is `.strTab`, with a capital `T`, which is not the byte string `.strtab`.  In
the link of `objTextDataBss` the section-header string table holds the names `.text`,
`.data`, `.bss`, `.got`, `.symtab`, `.strTab` and `.shstrtab`, and the header of the symbol
string table, of index 6 and type `SHT_STRTAB`, has the `sh_name` 31, the offset of
`.strTab`. -/
theorem mapInputSectionsToOutputSections_strTab_name :
    (∀ (lib : LibraryChoices) (inputs : List ElfInput) (sortKeys : List Nat)
        (sectionStringTables : List Memory) (symbolTable : SymbolTable)
        (entrySymbolInfo : GlobalSymbolTableEntry) (out : MapOutput),
      mapInputSectionsToOutputSections lib inputs sortKeys sectionStringTables symbolTable
        entrySymbolInfo = MapResult.done out →
      out.names =
        (initOutputSections (inputs.map ElfInput.headers) sectionStringTables).names ++
          [bytesOf ".got", bytesOf ".symtab", bytesOf ".strTab", bytesOf ".shstrtab"]) ∧
    bytesOf ".strTab" ≠ bytesOf ".strtab" ∧
    linkTextDataBss.output?.map (fun out => out.names) =
      some [bytesOf ".text", bytesOf ".data", bytesOf ".bss", bytesOf ".got", bytesOf ".symtab",
        bytesOf ".strTab", bytesOf ".shstrtab"] ∧
    linkTextDataBss.output?.map (fun out => out.materializedViews.getD 6 none) =
      some (some ([0] ++ bytesOf ".text" ++ [0] ++ bytesOf ".data" ++ [0] ++ bytesOf ".bss" ++
        [0] ++ bytesOf ".got" ++ [0] ++ bytesOf ".symtab" ++ [0] ++ bytesOf ".strTab" ++ [0] ++
        bytesOf ".shstrtab" ++ [0])) ∧
    linkTextDataBss.output?.map (fun out =>
        ((out.outputSectionHeaders.getD 6 default).sh_type,
          (out.outputSectionHeaders.getD 6 default).sh_name,
          cstrAt ((out.materializedViews.getD 6 none).getD [])
            (out.outputSectionHeaders.getD 6 default).sh_name)) =
      some (SHT_STRTAB, 31, bytesOf ".strTab") := by
  refine ⟨mapInputSectionsToOutputSections_names, by decide, ?_, ?_, ?_⟩ <;>
    set_option maxRecDepth 100000 in decide

/-! ## Claim C22: the header of `.symtab` -/

theorem forEachIndexedFrom_indexed {α σ : Type} (f : σ → α → Nat → σ) (R : σ → σ → Prop)
    (hrefl : ∀ s, R s s) (htrans : ∀ a b c, R a b → R b c → R a c) (xs : List α) (i : Nat)
    (s : σ) (hstep : ∀ s k x, xs[k]? = some x → R s (f s x (i + k))) :
    R s (forEachIndexedFrom f i xs s) := by
  induction xs generalizing i s with
  | nil => exact hrefl s
  | cons x xs ih =>
    refine htrans _ _ _ (hstep s 0 x (by simp)) ?_
    apply ih (i + 1)
    intro s k y hy
    have := hstep s (k + 1) y (by simpa using hy)
    rwa [show i + (k + 1) = i + 1 + k by omega] at this

theorem SymbolsExtend.refl (P : Elf64_Sym → Prop) (t : SynthTables) : SymbolsExtend P t t :=
  ⟨[], by simp, by simp⟩

theorem SymbolsExtend.trans (P : Elf64_Sym → Prop) (a b c : SynthTables)
    (h1 : SymbolsExtend P a b) (h2 : SymbolsExtend P b c) : SymbolsExtend P a c := by
  obtain ⟨l1, e1, p1⟩ := h1
  obtain ⟨l2, e2, p2⟩ := h2
  refine ⟨l1 ++ l2, by rw [e2, e1, List.append_assoc], ?_⟩
  intro g hg
  rcases List.mem_append.mp hg with h | h
  · exact p1 g h
  · exact p2 g h

theorem pushSymbol_extends (p : SynthIn) (t : SynthTables) (sym : Elf64_Sym) (symName : Name)
    (elfID : Nat) : SymbolsExtend (writtenFrom sym) t (pushSymbol p t sym symName elfID) := by
  unfold pushSymbol insertSymbolRecord insertSymbolString
  simp only []
  split_ifs
  · exact ⟨[_], rfl, by simp [writtenFrom]⟩
  · exact ⟨[], by simp, by simp⟩
  · exact ⟨[_], rfl, by simp [writtenFrom]⟩

theorem SymbolsExtend.mono (P Q : Elf64_Sym → Prop) (t t1 : SynthTables)
    (hPQ : ∀ g, P g → Q g) (h : SymbolsExtend P t t1) : SymbolsExtend Q t t1 := by
  obtain ⟨l, e, p⟩ := h
  exact ⟨l, e, fun g hg => hPQ g (p g hg)⟩

theorem foldl_extends {α : Type} (P : Elf64_Sym → Prop) (f : SynthTables → α → SynthTables)
    (xs : List α) (t : SynthTables) (hstep : ∀ t x, x ∈ xs → SymbolsExtend P t (f t x)) :
    SymbolsExtend P t (xs.foldl f t) := by
  induction xs generalizing t with
  | nil => exact SymbolsExtend.refl P t
  | cons x xs ih =>
    rw [List.foldl_cons]
    exact SymbolsExtend.trans P _ _ _ (hstep t x (by simp))
      (ih _ (fun t y hy => hstep t y (List.mem_cons_of_mem _ hy)))

theorem pushLocalSymbols_extends (p : SynthIn) (inputs : List ElfInput) (e : ElfInput)
    (inputIndex : Nat) (he : inputs[inputIndex]? = some e) (t : SynthTables)
    (header : Elf64_Shdr) (hh : header ∈ e.headers) (headerIndex : Nat) :
    SymbolsExtend (fromLocalSymbols inputs) t
      (pushLocalSymbols p e inputIndex t header headerIndex) := by
  unfold pushLocalSymbols
  split_ifs with hty
  · exact SymbolsExtend.refl _ t
  · simp only []
    apply foldl_extends
    intro t i hi
    rw [List.mem_range'_1] at hi
    refine SymbolsExtend.mono _ _ _ _ ?_ (pushSymbol_extends p t _ _ inputIndex)
    intro g hg
    exact ⟨inputIndex, e, header, i, he, hh, not_not.mp hty, hi.1, by omega, hg⟩

theorem pushGlobalSymbol_extends (p : SynthIn) (table : SymbolTable) (t : SynthTables)
    (kv : Name × GlobalSymbolTableEntry) (hkv : kv ∈ table) :
    SymbolsExtend (fromGlobalSymbols table) t (pushGlobalSymbol p t kv) := by
  unfold pushGlobalSymbol
  split
  · exact SymbolsExtend.refl _ t
  · rename_i sym hsym
    refine SymbolsExtend.mono _ _ _ _ ?_ (pushSymbol_extends p t sym kv.1 kv.2.firstLoad.elfID)
    intro g hg
    exact ⟨kv.1, kv.2, sym, hkv, hsym, hg⟩

theorem pushSectionName_symbols (shstrTabOffset : Nat) (names : List Name) (i : Nat)
    (st : List Nat × SynthTables) :
    (forEachIndexedFrom (pushSectionName shstrTabOffset) i names st).2.symbolTableMem =
      st.2.symbolTableMem := by
  induction names generalizing i st with
  | nil => rfl
  | cons n rest ih =>
    rw [forEachIndexedFrom, ih]
    rfl

/-- The symbol records that `synthesizeSyntheticSections` writes: the null symbol, then
`numLocalSymbols - 1` records of local symbols of the inputs, then records of entries of
the symbol table. -/
theorem synthesizeSyntheticSections_symbols (p : SynthIn) (inputs : List ElfInput)
    (visitSymbols : SymbolTable → SymbolTable)
    (hvisit : ∀ kv ∈ visitSymbols p.symbolTable, kv ∈ p.symbolTable)
    (views : List (Option (List Nat))) (sizes : List Nat) :
    ∃ locals globals,
      (synthesizeSyntheticSections p inputs visitSymbols views sizes).symbolTableMem =
        default :: (locals ++ globals) ∧
      (synthesizeSyntheticSections p inputs visitSymbols views sizes).numLocalSymbols =
        (1 + locals.length) % 2 ^ 32 ∧
      (∀ g ∈ locals, fromLocalSymbols inputs g) ∧
      (∀ g ∈ globals, fromGlobalSymbols p.symbolTable g) := by
  have h1 : SymbolsExtend (fromLocalSymbols inputs)
      { stringTableMem := [0], symbolTableMem := [default] }
      (forEachIndexed inputs (fun t e inputIndex =>
        forEachIndexed e.headers (pushLocalSymbols p e inputIndex) t)
        { stringTableMem := [0], symbolTableMem := [default] }) := by
    unfold forEachIndexed
    apply forEachIndexedFrom_indexed _ _ (SymbolsExtend.refl _) (SymbolsExtend.trans _)
    intro t k e he
    apply forEachIndexedFrom_indexed _ _ (SymbolsExtend.refl _) (SymbolsExtend.trans _)
    intro t j header hj
    exact pushLocalSymbols_extends p inputs e (0 + k) (by simpa using he) t header
      (List.getElem?_mem hj) _
  obtain ⟨locals, e1, p1⟩ := h1
  have h2 := foldl_extends (fromGlobalSymbols p.symbolTable) (pushGlobalSymbol p)
    (visitSymbols p.symbolTable)
    (forEachIndexed inputs (fun t e inputIndex =>
        forEachIndexed e.headers (pushLocalSymbols p e inputIndex) t)
        { stringTableMem := [0], symbolTableMem := [default] })
    (fun t kv hkv => pushGlobalSymbol_extends p p.symbolTable t kv (hvisit kv hkv))
  obtain ⟨globals, e2, p2⟩ := h2
  refine ⟨locals, globals, ?_, ?_, p1, p2⟩
  · unfold synthesizeSyntheticSections
    simp only []
    unfold forEachIndexed
    rw [pushSectionName_symbols]
    simp only []
    unfold forEachIndexed at e1 e2
    rw [e2, e1]
    rfl
  · unfold synthesizeSyntheticSections
    simp only []
    unfold forEachIndexed at e1 ⊢
    rw [e1]
    simp only [List.singleton_append, List.length_cons]
    congr 1
    omega

theorem forEachIndexedFrom_append_eq {α β : Type} (g : Nat → β) (xs : List α) (i : Nat)
    (acc : List β) :
    forEachIndexedFrom (fun (hs : List β) (_ : α) id => hs ++ [g id]) i xs acc =
      acc ++ (List.range' i xs.length).map g := by
  induction xs generalizing i acc with
  | nil => simp [forEachIndexedFrom]
  | cons x xs ih =>
    rw [forEachIndexedFrom, ih]
    simp [List.range'_succ]

/-- The three assignments of `buildElfAndSectionHeaders` to the header of `.symtab`. -/
theorem buildElfAndSectionHeaders_symtab (p : BuildElfIn) (out : BuildElfOut)
    (h : buildElfAndSectionHeaders p = some out) (hid : p.symTabID < p.names.length) :
    (out.outputSectionHeaders.getD (p.symTabID + 1) default).sh_link =
      (p.strTabID + 1) % 2 ^ 32 ∧
    (out.outputSectionHeaders.getD (p.symTabID + 1) default).sh_info =
      p.numLocalSymbols % 2 ^ 32 ∧
    (out.outputSectionHeaders.getD (p.symTabID + 1) default).sh_entsize = sizeof_Elf64_Sym := by
  unfold buildElfAndSectionHeaders at h
  simp only [forEachIndexed] at h
  split at h
  · simp at h
  · simp only [Option.some.injEq] at h
    subst h
    simp only []
    rw [getD_set_self _ _ _ _ (by
      rw [forEachIndexedFrom_append_length (outputSectionHeader p)]
      simp only [List.length_singleton]
      omega)]
    exact ⟨rfl, rfl, rfl⟩

theorem mergeAndSortSection_refs_length (inputs : List ElfInput)
    (sortKeys outSectionFlags : List Nat)
    (sortRefs : (SectionRef → SectionRef → Bool) → List SectionRef → List SectionRef)
    (allocate : Nat → List Nat) (visitOrder : List (List Nat × Nat) → List (List Nat × Nat))
    (n : Nat) (state : Option MergeSortState) (sectionRefs : List SectionRef)
    (outSectionID : Nat) (hs : ∀ st, state = some st → st.outputToInputSections.length = n) :
    ∀ st, mergeAndSortSection inputs sortKeys outSectionFlags sortRefs allocate visitOrder state
        sectionRefs outSectionID = some st → st.outputToInputSections.length = n := by
  intro st' h
  unfold mergeAndSortSection at h
  cases state with
  | none => simp at h
  | some st =>
    have hn := hs st rfl
    simp only [] at h
    by_cases hm : outSectionFlags.getD outSectionID 0 &&& SHF_MERGE = 0
    · rw [if_pos hm] at h
      simp only [Option.some.injEq] at h
      subst h
      simp [hn]
    · rw [if_neg hm] at h
      generalize (if outSectionFlags.getD outSectionID 0 &&& SHF_STRINGS ≠ 0 then
        MergeType.variableLength else MergeType.fixedLength) = mt at h
      split at h
      · simp at h
      · simp only [Option.some.injEq] at h
        subst h
        simp [hn]

theorem mergeAndSortInputSections_refs_length (inputs : List ElfInput)
    (sortKeys outSectionFlags : List Nat)
    (sortRefs : (SectionRef → SectionRef → Bool) → List SectionRef → List SectionRef)
    (allocate : Nat → List Nat) (visitOrder : List (List Nat × Nat) → List (List Nat × Nat))
    (outputToInputSections : List (List SectionRef)) (ms : MergeSortState)
    (h : mergeAndSortInputSections inputs sortKeys outSectionFlags sortRefs allocate visitOrder
      outputToInputSections = some ms) :
    ms.outputToInputSections.length = outputToInputSections.length := by
  unfold mergeAndSortInputSections forEachIndexed at h
  exact forEachIndexedFrom_invariant _
    (fun state => ∀ st, state = some st →
      st.outputToInputSections.length = outputToInputSections.length)
    (fun s x i hs => mergeAndSortSection_refs_length inputs sortKeys outSectionFlags sortRefs
      allocate visitOrder _ s x i hs)
    outputToInputSections 0 _ (by
      intro st hst
      simp only [Option.some.injEq] at hst
      subst hst
      rfl) ms h

theorem initOutputSections_refs_length (sectionHeaders : List (List Elf64_Shdr))
    (sectionStringTables : List Memory) :
    (initOutputSections sectionHeaders sectionStringTables).outputToInputSections.length =
      (initOutputSections sectionHeaders sectionStringTables).names.length := by
  unfold initOutputSections
  simp only []
  split_ifs <;> simp

theorem mapSynthesizeAndBuild_symtab (lib : LibraryChoices) (inputs : List ElfInput)
    (symbolTable : SymbolTable) (entrySymbolInfo : GlobalSymbolTableEntry) (init : InitOutput)
    (ms : MergeSortState) (s : OutputSections) (gotID symTabID strTabID shstrTabID : Nat)
    (segmentedSections : List (List Nat)) (pre : PreProcessState) (layout : LayoutOutput)
    (out : MapOutput)
    (h : mapSynthesizeAndBuild lib inputs symbolTable entrySymbolInfo init ms s gotID symTabID
      strTabID shstrTabID segmentedSections pre layout = MapResult.done out)
    (hid : symTabID < s.names.length)
    (hvisit : ∀ kv ∈ lib.visitSymbols symbolTable, kv ∈ symbolTable) :
    (out.outputSectionHeaders.getD (symTabID + 1) default).sh_link = (strTabID + 1) % 2 ^ 32 ∧
    (out.outputSectionHeaders.getD (symTabID + 1) default).sh_entsize = sizeof_Elf64_Sym ∧
    ∃ locals globals, out.symbolTableMem = default :: (locals ++ globals) ∧
      (out.outputSectionHeaders.getD (symTabID + 1) default).sh_info =
        (1 + locals.length) % 2 ^ 32 ∧
      (∀ g ∈ locals, fromLocalSymbols inputs g) ∧
      (∀ g ∈ globals, fromGlobalSymbols symbolTable g) := by
  unfold mapSynthesizeAndBuild at h
  simp only [] at h
  split_ifs at h with h1
  split at h
  · simp at h
  · rename_i build hbuild
    split_ifs at h with h2
    simp only [MapResult.done.injEq] at h
    subst h
    obtain ⟨b1, b2, b3⟩ := buildElfAndSectionHeaders_symtab _ _ hbuild hid
    obtain ⟨locals, globals, e1, e2, p1, p2⟩ := synthesizeSyntheticSections_symbols
      { gotID := gotID
        symTabID := symTabID
        strTabID := strTabID
        shstrTabID := shstrTabID
        gotEntryPatches := pre.gotEntryPatches
        outputSectionAddresses := layout.outputSectionAddresses
        inputToOutputSection := init.inputToOutputSection
        inputSectionCopyCommands := ms.inputSectionCopyCommands
        flags := s.flags
        names := s.names
        symbolTable := symbolTable
        enoughStringTableMemory := add64 init.totalStringTableMemorySize
          (syntheticSectionStringMemorySize s.names gotID symTabID strTabID shstrTabID)
        enoughSymbolTableMemory :=
          ((init.totalNumberOfLocalSymbols + symbolTable.length) * sizeof_Elf64_Sym) % 2 ^ 64 }
      inputs lib.visitSymbols hvisit s.materializedViews s.outputSectionSizes
    refine ⟨b1, b3, locals, globals, e1, ?_, p1, p2⟩
    rw [b2]
    simp only []
    rw [e2, Nat.mod_mod]

/-- C22. In a link that returns `ok`, with `n` output sections from `initOutputSections`,
the output sections `n + 1` and `n + 2` are `.symtab` and the symbol string table, and the
header of `.symtab`, of index `n + 2`, has `sh_link = n + 3`, the header index of the
symbol string table, and `sh_entsize = sizeof(Elf64_Sym) = 24`.  The symbol table that is
written is the null symbol, then records written for local symbols of the inputs, then
records written for entries of the global symbol table; `sh_info` is one more than the
number of the records of local symbols, as an `Elf64_Word`, so that every record at an
index from `sh_info` on is one of a global symbol. -/
theorem mapInputSectionsToOutputSections_symtab_header (lib : LibraryChoices)
    (inputs : List ElfInput) (sortKeys : List Nat) (sectionStringTables : List Memory)
    (symbolTable : SymbolTable) (entrySymbolInfo : GlobalSymbolTableEntry) (out : MapOutput)
    (h : mapInputSectionsToOutputSections lib inputs sortKeys sectionStringTables symbolTable
      entrySymbolInfo = MapResult.done out)
    (hvisit : (lib.visitSymbols symbolTable).Perm symbolTable) :
    out.names.getD
        ((initOutputSections (inputs.map ElfInput.headers) sectionStringTables).names.length + 1)
        [] = bytesOf ".symtab" ∧
    out.names.getD
        ((initOutputSections (inputs.map ElfInput.headers) sectionStringTables).names.length + 2)
        [] = bytesOf ".strTab" ∧
    (out.outputSectionHeaders.getD
        ((initOutputSections (inputs.map ElfInput.headers) sectionStringTables).names.length + 2)
        default).sh_link =
      (initOutputSections (inputs.map ElfInput.headers) sectionStringTables).names.length + 3 ∧
    (out.outputSectionHeaders.getD
        ((initOutputSections (inputs.map ElfInput.headers) sectionStringTables).names.length + 2)
        default).sh_entsize = sizeof_Elf64_Sym ∧
    sizeof_Elf64_Sym = 24 ∧
    ∃ locals globals, out.symbolTableMem = default :: (locals ++ globals) ∧
      (out.outputSectionHeaders.getD
        ((initOutputSections (inputs.map ElfInput.headers)
          sectionStringTables).names.length + 2) default).sh_info =
        (1 + locals.length) % 2 ^ 32 ∧
      (∀ g ∈ locals, fromLocalSymbols inputs g) ∧
      (∀ g ∈ globals, fromGlobalSymbols symbolTable g) ∧
      (1 + locals.length < 2 ^ 32 →
        (out.outputSectionHeaders.getD
          ((initOutputSections (inputs.map ElfInput.headers)
            sectionStringTables).names.length + 2) default).sh_info = 1 + locals.length ∧
        ∀ i g, 1 + locals.length ≤ i → out.symbolTableMem[i]? = some g →
          fromGlobalSymbols symbolTable g) := by
  have hnames := mapInputSectionsToOutputSections_names lib inputs sortKeys sectionStringTables
    symbolTable entrySymbolInfo out h
  unfold mapInputSectionsToOutputSections at h
  simp only [] at h
  split_ifs at h with hinit
  have hok : (initOutputSections (inputs.map ElfInput.headers) sectionStringTables).status =
      StatusCode.ok := by
    by_contra hn
    exact hinit hn
  have hlt : (initOutputSections (inputs.map ElfInput.headers)
      sectionStringTables).names.length < 65276 := initOutputSections_names_lt _ _ hok
  generalize hinitdef : initOutputSections (inputs.map ElfInput.headers) sectionStringTables =
    init at h hnames hlt ⊢
  have hrefs0 : init.outputToInputSections.length = init.names.length := by
    rw [← hinitdef]
    exact initOutputSections_refs_length _ _
  split at h
  · simp at h
  · rename_i ms hms
    split_ifs at h with hmsok
    have hrefs := mergeAndSortInputSections_refs_length _ _ _ _ _ _ _ _ hms
    rw [hrefs0] at hrefs
    unfold mapSyntheticAndLayout at h
    simp only [] at h
    split_ifs at h with hpre hlay
    have hsym : (ms.outputToInputSections.length + 1) % 2 ^ 16 = init.names.length + 1 := by
      rw [hrefs, Nat.mod_eq_of_lt (by omega)]
    have hstr : (ms.outputToInputSections.length + 2) % 2 ^ 16 = init.names.length + 2 := by
      rw [hrefs, Nat.mod_eq_of_lt (by omega)]
    obtain ⟨b1, b2, locals, globals, e1, e2, p1, p2⟩ :=
      mapSynthesizeAndBuild_symtab _ _ _ _ _ _ _ _ _ _ _ _ _ _ _ h
        (by simp [allocateSyntheticSection, hrefs]; omega)
        (fun kv hkv => hvisit.subset hkv)
    simp only [allocateSyntheticSection, List.length_append, List.length_singleton] at b1 b2 e2
    rw [hsym] at b1 b2 e2
    rw [hstr, Nat.mod_eq_of_lt (by omega)] at b1
    refine ⟨?_, ?_, b1, b2, rfl, locals, globals, e1, e2, p1, p2, ?_⟩
    · rw [hnames, List.getD_eq_getElem?_getD, List.getElem?_append_right (by omega)]
      simp
    · rw [hnames, List.getD_eq_getElem?_getD, List.getElem?_append_right (by omega)]
      simp
    · intro hfit
      refine ⟨by rw [e2, Nat.mod_eq_of_lt hfit], ?_⟩
      intro i g hi hg
      rw [e1] at hg
      apply p2
      have hi1 : 1 ≤ i := by omega
      obtain ⟨j, rfl⟩ : ∃ j, i = j + 1 := ⟨i - 1, by omega⟩
      rw [List.getElem?_cons_succ, List.getElem?_append_right (by omega)] at hg
      exact List.getElem?_mem hg

/-- C22 on the link of `objTwoLocals`, which has the local symbols `a` and `b` and the
global symbol `c`: the link returns `ok`, the header of `.symtab` has index 3,
`sh_link = 4`, `sh_entsize = 24` and `sh_info = 3`, and the symbol table is the null
symbol, two records written for the local symbols and one record, at the index 3, written
for `c`. -/
theorem mapInputSectionsToOutputSections_symtab_header_witness :
    ∃ out, linkTwoLocals = MapResult.done out ∧
      out.names.getD 2 [] = bytesOf ".symtab" ∧
      (out.outputSectionHeaders.getD 3 default).sh_link = 4 ∧
      (out.outputSectionHeaders.getD 3 default).sh_entsize = 24 ∧
      (out.outputSectionHeaders.getD 3 default).sh_info = 3 ∧
      out.symbolTableMem.map (fun s => (s.st_name, ELF64_ST_BIND s.st_info, s.st_shndx)) =
        [(0, 0, 0), (1, STB_LOCAL, 1), (3, STB_LOCAL, SHN_ABS), (5, STB_GLOBAL, 1)] ∧
      ∃ locals globals, out.symbolTableMem = default :: (locals ++ globals) ∧
        locals.length = 2 ∧ globals.length = 1 ∧
        (∀ g ∈ locals, fromLocalSymbols [objTwoLocals] g) ∧
        (∀ g ∈ globals, fromGlobalSymbols
          (insertSymbolsIntoSymbolTable [objTwoLocals] [0] 0 []).symbolTable g) := by
  have hsome : (linkTwoLocals.output?.map (fun out =>
      ((out.outputSectionHeaders.getD 3 default).sh_info,
        out.symbolTableMem.map (fun s => (s.st_name, ELF64_ST_BIND s.st_info, s.st_shndx))))) =
      some (3, [(0, 0, 0), (1, STB_LOCAL, 1), (3, STB_LOCAL, SHN_ABS), (5, STB_GLOBAL, 1)]) := by
    set_option maxRecDepth 100000 in decide
  have hinit : (initOutputSections ([objTwoLocals].map ElfInput.headers)
      [objTwoLocals.mem.drop 105]).names.length = 1 := by
    set_option maxRecDepth 100000 in decide
  cases hout : linkTwoLocals.output? with
  | none => simp [hout] at hsome
  | some out =>
    simp only [hout, Option.map_some', Option.some.injEq, Prod.mk.injEq] at hsome
    have hdone := MapResult.eq_done_of_output? _ _ hout
    have h := mapInputSectionsToOutputSections_symtab_header simpleLibrary [objTwoLocals] [0]
      [objTwoLocals.mem.drop 105]
      (insertSymbolsIntoSymbolTable [objTwoLocals] [0] 0 []).symbolTable
      (SymbolTable.get (insertSymbolsIntoSymbolTable [objTwoLocals] [0] 0 []).symbolTable
        (bytesOf "c")) out hdone (List.Perm.refl _)
    rw [hinit] at h
    obtain ⟨n1, -, l1, e1, -, locals, globals, m1, i1, p1, p2, -⟩ := h
    have hlen := congrArg List.length hsome.2
    rw [List.length_map, m1] at hlen
    simp only [List.length_cons, List.length_append, List.length_nil] at hlen
    rw [hsome.1, Nat.mod_eq_of_lt (by omega)] at i1
    exact ⟨out, hdone, n1, l1, by rw [e1]; rfl, hsome.1, hsome.2, locals, globals, m1,
      by omega, by omega, p1, p2⟩

/-! ## Claim C23: `concatenateSections` -/

theorem alignup_least (a al : Nat) (h : a + max al 1 ≤ 2 ^ 64) :
    leastMultipleFrom (max al 1) a (alignup a al) := by
  unfold leastMultipleFrom alignup add64
  simp only []
  have hpos : 0 < max al 1 := by omega
  generalize max al 1 = k at *
  have hm := Nat.mod_lt a hpos
  have hdm := Nat.div_add_mod a k
  split_ifs with h0
  · rw [Nat.mod_eq_of_lt (by omega)]
    have heq : a + (k - a % k) = k * (a / k + 1) := by
      rw [Nat.mul_add, Nat.mul_one]
      omega
    refine ⟨?_, by omega, ?_⟩
    · rw [heq]
      exact Dvd.intro _ rfl
    · intro m hkm ham
      obtain ⟨q, rfl⟩ := hkm
      rw [heq]
      apply Nat.mul_le_mul_left
      by_contra hq
      have hq' : q ≤ a / k := by omega
      have := Nat.mul_le_mul_left k hq'
      omega
  · have h0' : a % k = 0 := not_not.mp h0
    exact ⟨Nat.dvd_of_mod_eq_zero h0', le_refl _, fun m _ ham => ham⟩

theorem getD_resizeTo {α : Type} (n : Nat) (x d : α) (l : List α) (j : Nat) (hj : j < n) :
    (resizeTo n x l).getD j d = if j < l.length then l.getD j d else x := by
  unfold resizeTo
  rw [List.getD_eq_getElem?_getD, List.getD_eq_getElem?_getD]
  by_cases hl : j < l.length
  · rw [if_pos hl, List.getElem?_append_left (by simp; omega), List.getElem?_take]
    simp [hj]
  · rw [if_neg hl, List.getElem?_append_right (by simp; omega)]
    simp only [List.length_take]
    rw [List.getElem?_replicate]
    have : j - min n l.length < n - l.length := by omega
    simp [this]

theorem get2D_concatenateSection_self (sectionHeaders : List (List Elf64_Shdr))
    (st : ConcatState) (r : SectionRef) (he : r.elfIndex < st.inputSectionCopyCommands.length)
    (hh : r.headerIndex < (sectionHeaders.getD r.elfIndex []).length) :
    get2D (concatenateSection sectionHeaders st r).inputSectionCopyCommands r.elfIndex
        r.headerIndex =
      SectionMemCopies.part
        { size := (get2D sectionHeaders r.elfIndex r.headerIndex : Elf64_Shdr).sh_size,
          dstOffset := alignup st.outSectionSize
            (get2D sectionHeaders r.elfIndex r.headerIndex : Elf64_Shdr).sh_addralign } := by
  unfold concatenateSection get2D
  simp only []
  rw [getD_set_self _ _ _ _ he,
    getD_set_self _ _ _ _ (by rw [resizeTo_length]; exact hh)]

theorem get2D_concatenateSection_ne (sectionHeaders : List (List Elf64_Shdr))
    (st : ConcatState) (r : SectionRef) (e h : Nat) (hne : ¬ (r.elfIndex = e ∧ r.headerIndex = h))
    (hh : h < (sectionHeaders.getD e []).length) :
    get2D (concatenateSection sectionHeaders st r).inputSectionCopyCommands e h =
      get2D st.inputSectionCopyCommands e h := by
  unfold concatenateSection get2D
  simp only []
  by_cases hi : r.elfIndex = e
  · subst hi
    have hj : r.headerIndex ≠ h := fun hj => hne ⟨rfl, hj⟩
    by_cases hlt : r.elfIndex < st.inputSectionCopyCommands.length
    · rw [getD_set_self _ _ _ _ hlt, getD_set_ne _ _ _ _ _ hj, getD_resizeTo _ _ _ _ _ hh]
      split_ifs with hl
      · rfl
      · rw [List.getD_eq_default _ _ (by omega)]
        rfl
    · rw [List.set_eq_of_length_le (by omega)]
  · rw [getD_set_ne _ _ _ _ _ hi]

theorem concatenateSection_length (sectionHeaders : List (List Elf64_Shdr))
    (st : ConcatState) (r : SectionRef) :
    (concatenateSection sectionHeaders st r).inputSectionCopyCommands.length =
      st.inputSectionCopyCommands.length := by
  simp [concatenateSection]

/-- The loop of `concatenateSections` from a state on. -/
theorem foldl_concatenateSection (sectionHeaders : List (List Elf64_Shdr))
    (refs : List SectionRef) :
    ∀ (st : ConcatState), refs.Nodup →
      (∀ r ∈ refs, r.elfIndex < st.inputSectionCopyCommands.length ∧
        r.headerIndex < (sectionHeaders.getD r.elfIndex []).length) →
      st.outSectionSize + concatenationBound sectionHeaders refs < 2 ^ 64 →
      ∃ dst : List Nat,
        placedAfter sectionHeaders st.outSectionSize refs dst
          (refs.foldl (concatenateSection sectionHeaders) st).outSectionSize ∧
        (∀ i r, refs[i]? = some r →
          get2D (refs.foldl (concatenateSection sectionHeaders) st).inputSectionCopyCommands
              r.elfIndex r.headerIndex =
            SectionMemCopies.part
              { size := (get2D sectionHeaders r.elfIndex r.headerIndex : Elf64_Shdr).sh_size,
                dstOffset := dst.getD i 0 }) ∧
        (∀ e h, (⟨e, h⟩ : SectionRef) ∉ refs → h < (sectionHeaders.getD e []).length →
          get2D (refs.foldl (concatenateSection sectionHeaders) st).inputSectionCopyCommands e h =
            get2D st.inputSectionCopyCommands e h) := by
  induction refs with
  | nil =>
    intro st _ _ _
    exact ⟨[], rfl, by simp, fun _ _ _ _ => rfl⟩
  | cons r rest ih =>
    intro st hnodup hvalid hfit
    rw [List.nodup_cons] at hnodup
    have hr := hvalid r (by simp)
    have hbound : concatenationBound sectionHeaders (r :: rest) =
        max (get2D sectionHeaders r.elfIndex r.headerIndex : Elf64_Shdr).sh_addralign 1 +
          (get2D sectionHeaders r.elfIndex r.headerIndex : Elf64_Shdr).sh_size +
          concatenationBound sectionHeaders rest := by
      simp [concatenationBound]
    rw [hbound] at hfit
    have hal := alignup_bounds st.outSectionSize
      (get2D sectionHeaders r.elfIndex r.headerIndex : Elf64_Shdr).sh_addralign (by omega)
    have hleast := alignup_least st.outSectionSize
      (get2D sectionHeaders r.elfIndex r.headerIndex : Elf64_Shdr).sh_addralign (by omega)
    have hsize : (concatenateSection sectionHeaders st r).outSectionSize =
        alignup st.outSectionSize
            (get2D sectionHeaders r.elfIndex r.headerIndex : Elf64_Shdr).sh_addralign +
          (get2D sectionHeaders r.elfIndex r.headerIndex : Elf64_Shdr).sh_size := by
      unfold concatenateSection
      simp only []
      exact add64_of_lt _ _ (by omega)
    obtain ⟨dst, h1, h2, h3⟩ := ih (concatenateSection sectionHeaders st r) hnodup.2
      (fun q hq => by
        rw [concatenateSection_length]
        exact hvalid q (List.mem_cons_of_mem _ hq))
      (by rw [hsize]; omega)
    rw [hsize] at h1
    refine ⟨alignup st.outSectionSize
      (get2D sectionHeaders r.elfIndex r.headerIndex : Elf64_Shdr).sh_addralign :: dst,
      ⟨hleast, h1⟩, ?_, ?_⟩
    · intro i q hq
      cases i with
      | zero =>
        simp only [List.getElem?_cons_zero, Option.some.injEq] at hq
        subst hq
        rw [List.foldl_cons, h3 r.elfIndex r.headerIndex hnodup.1 hr.2,
          get2D_concatenateSection_self _ _ _ hr.1 hr.2]
        rfl
      | succ j =>
        rw [List.getElem?_cons_succ] at hq
        rw [List.foldl_cons, h2 j q hq]
        rfl
    · intro e h hnot hh
      rw [List.mem_cons, not_or] at hnot
      rw [List.foldl_cons, h3 e h hnot.2 hh, get2D_concatenateSection_ne _ _ _ _ _ ?_ hh]
      rintro ⟨rfl, rfl⟩
      exact hnot.1 rfl

theorem placedAfter_length (sectionHeaders : List (List Elf64_Shdr)) (refs : List SectionRef) :
    ∀ (prevEnd : Nat) (dst : List Nat) (total : Nat),
      placedAfter sectionHeaders prevEnd refs dst total → dst.length = refs.length ∧
        prevEnd ≤ total := by
  induction refs with
  | nil =>
    intro prevEnd dst total h
    cases dst with
    | nil => exact ⟨rfl, by unfold placedAfter at h; omega⟩
    | cons d ds => exact absurd h (by simp [placedAfter])
  | cons r rest ih =>
    intro prevEnd dst total h
    cases dst with
    | nil => exact absurd h (by simp [placedAfter])
    | cons d ds =>
      obtain ⟨h1, h2⟩ := h
      have := ih _ _ _ h2
      have := h1.2.1
      exact ⟨by simp [*], by omega⟩

/-- What follows for offsets placed one after the other: consecutive inputs do not
overlap, and the total is the end of the last input. -/
theorem placedAfter_consecutive (sectionHeaders : List (List Elf64_Shdr))
    (refs : List SectionRef) :
    ∀ (prevEnd : Nat) (dst : List Nat) (total : Nat),
      placedAfter sectionHeaders prevEnd refs dst total →
      (∀ i r d d1, refs[i]? = some r → dst[i]? = some d → dst[i + 1]? = some d1 →
        d ≤ d1 ∧
          d + (get2D sectionHeaders r.elfIndex r.headerIndex : Elf64_Shdr).sh_size ≤ d1) ∧
      (∀ r d, refs.getLast? = some r → dst.getLast? = some d →
        total = d + (get2D sectionHeaders r.elfIndex r.headerIndex : Elf64_Shdr).sh_size) := by
  induction refs with
  | nil =>
    intro prevEnd dst total _
    exact ⟨by simp, by simp⟩
  | cons r rest ih =>
    intro prevEnd dst total h
    cases dst with
    | nil => exact absurd h (by simp [placedAfter])
    | cons d ds =>
      obtain ⟨h1, h2⟩ := h
      obtain ⟨ih1, ih2⟩ := ih _ _ _ h2
      constructor
      · intro i q a a1 hq ha ha1
        cases i with
        | zero =>
          simp only [List.getElem?_cons_zero, Option.some.injEq] at hq ha
          subst hq ha
          rw [List.getElem?_cons_succ] at ha1
          cases rest with
          | nil =>
            have := (placedAfter_length _ _ _ _ _ h2).1
            cases ds with
            | nil => simp at ha1
            | cons _ _ => simp at this
          | cons q2 rest2 =>
            cases ds with
            | nil => simp at ha1
            | cons d2 ds2 =>
              simp only [List.getElem?_cons_zero, Option.some.injEq] at ha1
              subst ha1
              have := h2.1.2.1
              omega
        | succ j =>
          rw [List.getElem?_cons_succ] at hq ha ha1
          exact ih1 j q a a1 hq ha ha1
      · intro q a hq ha
        cases rest with
        | nil =>
          have := (placedAfter_length _ _ _ _ _ h2).1
          cases ds with
          | nil =>
            simp only [List.getLast?_singleton, Option.some.injEq] at hq ha
            subst hq ha
            unfold placedAfter at h2
            exact h2
          | cons _ _ => simp at this
        | cons q2 rest2 =>
          cases ds with
          | nil => exact absurd h2 (by simp [placedAfter])
          | cons d2 ds2 =>
            rw [List.getLast?_cons_cons] at hq ha
            exact ih2 q a hq ha

/-- C23. `concatenateSections`, for input sections `sectionRefs` that are distinct and
inside the vectors, whose sizes and alignments add up to less than `2^64`: there are
offsets `dst`, one for each input section in the order of `sectionRefs`, such that the copy
command of the `i`-th input section is the single `PartCopy` of its `sh_size` bytes to
`dst[i]`; each offset is the least multiple of `max(sh_addralign, 1)` that is not below
the end of the previous input, 0 for the first; so the offsets do not decrease,
`dst[i] + sh_size` is at most `dst[i + 1]`, and the size of the output section is the
offset plus the size of the last input, and 0 when there is no input. -/
theorem concatenateSections_layout (sectionHeaders : List (List Elf64_Shdr))
    (sectionRefs : List SectionRef) (outSectionID : Nat) (outputSectionSizes : List Nat)
    (inputSectionCopyCommands : List (List SectionMemCopies))
    (hnodup : sectionRefs.Nodup)
    (hvalid : ∀ r ∈ sectionRefs, r.elfIndex < inputSectionCopyCommands.length ∧
      r.headerIndex < (sectionHeaders.getD r.elfIndex []).length)
    (hid : outSectionID < outputSectionSizes.length)
    (hfit : concatenationBound sectionHeaders sectionRefs < 2 ^ 64) :
    (concatenateSections sectionHeaders sectionRefs outSectionID outputSectionSizes
      inputSectionCopyCommands).status = StatusCode.ok ∧
    ∃ dst : List Nat, dst.length = sectionRefs.length ∧
      (∀ i r, sectionRefs[i]? = some r →
        get2D (concatenateSections sectionHeaders sectionRefs outSectionID outputSectionSizes
            inputSectionCopyCommands).inputSectionCopyCommands r.elfIndex r.headerIndex =
          SectionMemCopies.part
            { size := (get2D sectionHeaders r.elfIndex r.headerIndex : Elf64_Shdr).sh_size,
              dstOffset := dst.getD i 0 }) ∧
      placedAfter sectionHeaders 0 sectionRefs dst
        ((concatenateSections sectionHeaders sectionRefs outSectionID outputSectionSizes
          inputSectionCopyCommands).outputSectionSizes.getD outSectionID 0) ∧
      (∀ i r d d1, sectionRefs[i]? = some r → dst[i]? = some d → dst[i + 1]? = some d1 →
        d ≤ d1 ∧
          d + (get2D sectionHeaders r.elfIndex r.headerIndex : Elf64_Shdr).sh_size ≤ d1) ∧
      (∀ r d, sectionRefs.getLast? = some r → dst.getLast? = some d →
        (concatenateSections sectionHeaders sectionRefs outSectionID outputSectionSizes
          inputSectionCopyCommands).outputSectionSizes.getD outSectionID 0 =
          d + (get2D sectionHeaders r.elfIndex r.headerIndex : Elf64_Shdr).sh_size) ∧
      (sectionRefs = [] →
        (concatenateSections sectionHeaders sectionRefs outSectionID outputSectionSizes
          inputSectionCopyCommands).outputSectionSizes.getD outSectionID 0 = 0) := by
  obtain ⟨dst, h1, h2, -⟩ := foldl_concatenateSection sectionHeaders sectionRefs
    ⟨0, inputSectionCopyCommands⟩ hnodup hvalid (by simpa using hfit)
  have hsize : (concatenateSections sectionHeaders sectionRefs outSectionID outputSectionSizes
      inputSectionCopyCommands).outputSectionSizes.getD outSectionID 0 =
      (sectionRefs.foldl (concatenateSection sectionHeaders)
        ⟨0, inputSectionCopyCommands⟩).outSectionSize := by
    unfold concatenateSections
    simp only []
    exact getD_set_self _ _ _ _ hid
  rw [hsize]
  obtain ⟨c1, c2⟩ := placedAfter_consecutive _ _ _ _ _ h1
  refine ⟨rfl, dst, (placedAfter_length _ _ _ _ _ h1).1, h2, h1, c1, c2, ?_⟩
  intro hnil
  subst hnil
  rfl

/-- C23 on the sections `.text` (12 bytes, alignment 16) and `.data` (8 bytes, alignment
8) of `objTextDataBss`: the offsets are 0 and 16 and the size is 24. -/
theorem concatenateSections_layout_witness :
    ∃ dst : List Nat, dst.length = 2 ∧
      placedAfter [objTextDataBss.headers] 0 [⟨0, 1⟩, ⟨0, 4⟩] dst 24 ∧
      get2D (concatenateSections [objTextDataBss.headers] [⟨0, 1⟩, ⟨0, 4⟩] 0 [0]
          [[]]).inputSectionCopyCommands 0 4 =
        SectionMemCopies.part { size := 8, dstOffset := dst.getD 1 0 } ∧
      get2D (concatenateSections [objTextDataBss.headers] [⟨0, 1⟩, ⟨0, 4⟩] 0 [0]
          [[]]).inputSectionCopyCommands 0 4 =
        SectionMemCopies.part { size := 8, dstOffset := 16 } := by
  obtain ⟨-, dst, h1, h2, h3, -⟩ := concatenateSections_layout [objTextDataBss.headers]
    [⟨0, 1⟩, ⟨0, 4⟩] 0 [0] [[]] (by decide) (by decide) (by decide) (by decide)
  have hsize : (concatenateSections [objTextDataBss.headers] [⟨0, 1⟩, ⟨0, 4⟩] 0 [0]
      [[]]).outputSectionSizes.getD 0 0 = 24 := by decide
  rw [hsize] at h3
  exact ⟨dst, h1, h3, h2 1 ⟨0, 4⟩ rfl, by decide⟩

/-! ## Claim C27: `sortOutputSections` -/

theorem flagsToSegmentIndex_lt (flag : Nat) : flagsToSegmentIndex flag < numProgramSegments := by
  unfold flagsToSegmentIndex
  split_ifs <;> decide

/-- The buckets after the first loop of `sortOutputSections`, from the index `i` on. -/
theorem forEachIndexedFrom_push_eq (flags : List Nat) (i : Nat) (seg : List (List Nat))
    (j : Nat) (hj : j < seg.length) :
    (forEachIndexedFrom pushToSegment i flags seg).getD j [] =
      seg.getD j [] ++ ((flags.enumFrom i).filter
        (fun p => decide (flagsToSegmentIndex p.2 = j))).map (fun p => p.1 % 2 ^ 16) := by
  induction flags generalizing i seg with
  | nil => simp [forEachIndexedFrom]
  | cons flag rest ih =>
    rw [forEachIndexedFrom, ih _ _ (by simpa [pushToSegment] using hj)]
    unfold pushToSegment
    by_cases hk : flagsToSegmentIndex flag = j
    · rw [hk, getD_set_self _ _ _ _ hj]
      simp [List.enumFrom_cons, List.filter_cons, hk]
    · rw [getD_set_ne _ _ _ _ _ hk]
      simp [List.enumFrom_cons, List.filter_cons, hk]

theorem mem_enum_filter_map (flags : List Nat) (hlen : flags.length ≤ 2 ^ 16) (j id : Nat) :
    id ∈ ((flags.enumFrom 0).filter
        (fun p => decide (flagsToSegmentIndex p.2 = j))).map (fun p => p.1 % 2 ^ 16) ↔
      id < flags.length ∧ flagsToSegmentIndex (flags.getD id 0) = j := by
  simp only [List.mem_map, List.mem_filter, decide_eq_true_eq, Prod.exists]
  constructor
  · rintro ⟨k, flag, ⟨hmem, hf⟩, rfl⟩
    rw [List.mk_mem_enumFrom_iff_le_and_getElem?_sub] at hmem
    simp only [Nat.zero_le, Nat.sub_zero, true_and] at hmem
    have hk : k < flags.length := by
      by_contra hc
      rw [List.getElem?_eq_none (by omega)] at hmem
      exact absurd hmem (by simp)
    rw [Nat.mod_eq_of_lt (by omega)]
    refine ⟨hk, ?_⟩
    rw [List.getD_eq_getElem?_getD, hmem]
    exact hf
  · rintro ⟨hid, hf⟩
    refine ⟨id, flags.getD id 0, ⟨?_, hf⟩, Nat.mod_eq_of_lt (by omega)⟩
    rw [List.mk_mem_enumFrom_iff_le_and_getElem?_sub]
    simp [List.getD_eq_getElem?_getD, List.getElem?_eq_getElem hid]

theorem nodup_enum_filter_map (flags : List Nat) (hlen : flags.length ≤ 2 ^ 16) (j : Nat) :
    (((flags.enumFrom 0).filter
        (fun p => decide (flagsToSegmentIndex p.2 = j))).map (fun p => p.1 % 2 ^ 16)).Nodup := by
  have hinj : ∀ p ∈ (flags.enumFrom 0).filter (fun p => decide (flagsToSegmentIndex p.2 = j)),
      p.1 % 2 ^ 16 = p.1 := by
    intro p hp
    have hp1 := (List.mem_filter.mp hp).1
    obtain ⟨k, flag⟩ := p
    rw [List.mk_mem_enumFrom_iff_le_and_getElem?_sub] at hp1
    have hk : k < flags.length := by
      by_contra hc
      have := hp1.2
      rw [List.getElem?_eq_none (by omega)] at this
      exact absurd this (by simp)
    exact Nat.mod_eq_of_lt (by simp only []; omega)
  rw [List.map_congr_left hinj]
  have h1 : ((flags.enumFrom 0).map Prod.fst).Nodup := by
    rw [List.enumFrom_map_fst]
    exact List.nodup_range' _ _
  exact (List.Nodup.sublist (List.Sublist.map _ (List.filter_sublist _)) h1)

/-- The bucket `j` of `sortOutputSections` is a permutation of the bucket after the first
loop. -/
theorem sortOutputSections_bucket_perm (types flags : List Nat)
    (sort : (Nat → Nat → Bool) → List Nat → List Nat)
    (hperm : ∀ less l, (sort less l).Perm l) (j : Nat) (hj : j < numProgramSegments) :
    ((sortOutputSections types flags sort).getD j []).Perm
      (((flags.enumFrom 0).filter
        (fun p => decide (flagsToSegmentIndex p.2 = j))).map (fun p => p.1 % 2 ^ 16)) ∧
    (j ≠ SegmentLocation.notLoaded →
      (sortOutputSections types flags sort).getD j [] =
        sort (nobitsLast types) (((flags.enumFrom 0).filter
          (fun p => decide (flagsToSegmentIndex p.2 = j))).map (fun p => p.1 % 2 ^ 16))) := by
  have hlen := forEachIndexedFrom_push_length flags 0 (List.replicate numProgramSegments [])
  have hlt : j <
      (forEachIndexedFrom pushToSegment 0 flags (List.replicate numProgramSegments [])).length := by
    rw [hlen]
    simpa using hj
  have hbucket := forEachIndexedFrom_push_eq flags 0 (List.replicate numProgramSegments []) j
    (by simpa using hj)
  have hempty : (List.replicate numProgramSegments ([] : List Nat)).getD j [] = [] := by
    rw [List.getD_eq_getElem?_getD, List.getElem?_replicate]
    split_ifs
    rfl
  rw [hempty, List.nil_append] at hbucket
  have hget : (sortOutputSections types flags sort).getD j [] =
      if j = SegmentLocation.notLoaded then
        (forEachIndexedFrom pushToSegment 0 flags (List.replicate numProgramSegments [])).getD j []
      else sort (nobitsLast types)
        ((forEachIndexedFrom pushToSegment 0 flags
          (List.replicate numProgramSegments [])).getD j []) := by
    unfold sortOutputSections forEachIndexed
    rw [List.getD_eq_getElem?_getD, List.getElem?_mapIdx, List.getD_eq_getElem?_getD,
      List.getElem?_eq_getElem hlt]
    simp only [Option.map_some', Option.getD_some]
  rw [hget, hbucket]
  constructor
  · split_ifs
    · exact List.Perm.refl _
    · exact hperm _ _
  · intro hne
    rw [if_neg hne]

/-- C27. `sortOutputSections`, for at most `2^16` output sections and a `std::sort` that
permutes its input and leaves it sorted by the comparison: there are six buckets; the id
of every output section is in the bucket that `flagsToSegmentIndex` gives for its flags,
once, and in no other; `flagsToSegmentIndex` is the first rule that matches of: no
`SHF_ALLOC`, `notLoaded`; `SHF_TLS`, `tlsTemplate`; `SHF_WRITE` and `SHF_EXECINSTR`,
`readWriteExecute`; `SHF_WRITE`, `readWrite`; `SHF_EXECINSTR`, `readExecute`; otherwise
`readOnly`; and in every bucket but `notLoaded` no section of type `SHT_NOBITS` comes
before a section of another type. -/
theorem sortOutputSections_buckets (types flags : List Nat)
    (sort : (Nat → Nat → Bool) → List Nat → List Nat)
    (hlen : flags.length ≤ 2 ^ 16)
    (hperm : ∀ less l, (sort less l).Perm l)
    (hsorted : ∀ l, (sort (nobitsLast types) l).Pairwise
      (fun a b => nobitsLast types b a = false)) :
    (sortOutputSections types flags sort).length = 6 ∧
    (∀ j id, id ∈ (sortOutputSections types flags sort).getD j [] ↔
      id < flags.length ∧ flagsToSegmentIndex (flags.getD id 0) = j) ∧
    (∀ j, ((sortOutputSections types flags sort).getD j []).Nodup) ∧
    (∀ flag,
      (flag &&& SHF_ALLOC = 0 → flagsToSegmentIndex flag = SegmentLocation.notLoaded) ∧
      (flag &&& SHF_ALLOC ≠ 0 → flag &&& SHF_TLS ≠ 0 →
        flagsToSegmentIndex flag = SegmentLocation.tlsTemplate) ∧
      (flag &&& SHF_ALLOC ≠ 0 → flag &&& SHF_TLS = 0 → flag &&& SHF_WRITE ≠ 0 →
        flag &&& SHF_EXECINSTR ≠ 0 →
        flagsToSegmentIndex flag = SegmentLocation.readWriteExecute) ∧
      (flag &&& SHF_ALLOC ≠ 0 → flag &&& SHF_TLS = 0 → flag &&& SHF_WRITE ≠ 0 →
        flag &&& SHF_EXECINSTR = 0 → flagsToSegmentIndex flag = SegmentLocation.readWrite) ∧
      (flag &&& SHF_ALLOC ≠ 0 → flag &&& SHF_TLS = 0 → flag &&& SHF_WRITE = 0 →
        flag &&& SHF_EXECINSTR ≠ 0 → flagsToSegmentIndex flag = SegmentLocation.readExecute) ∧
      (flag &&& SHF_ALLOC ≠ 0 → flag &&& SHF_TLS = 0 → flag &&& SHF_WRITE = 0 →
        flag &&& SHF_EXECINSTR = 0 → flagsToSegmentIndex flag = SegmentLocation.readOnly)) ∧
    (∀ j, j ≠ SegmentLocation.notLoaded →
      ((sortOutputSections types flags sort).getD j []).Pairwise
        (fun a b => ¬ (types.getD a 0 = SHT_NOBITS ∧ types.getD b 0 ≠ SHT_NOBITS))) := by
  have hsix : (sortOutputSections types flags sort).length = 6 :=
    sortOutputSections_length types flags sort
  have hout : ∀ j, ¬ j < numProgramSegments →
      (sortOutputSections types flags sort).getD j [] = [] := by
    intro j hj
    rw [List.getD_eq_default]
    rw [hsix]
    unfold numProgramSegments at hj
    omega
  refine ⟨hsix, ?_, ?_, ?_, ?_⟩
  · intro j id
    by_cases hj : j < numProgramSegments
    · rw [(sortOutputSections_bucket_perm types flags sort hperm j hj).1.mem_iff]
      exact mem_enum_filter_map flags hlen j id
    · rw [hout j hj]
      simp only [List.not_mem_nil, false_iff, not_and]
      intro _ hf
      exact hj (hf ▸ flagsToSegmentIndex_lt _)
  · intro j
    by_cases hj : j < numProgramSegments
    · rw [(sortOutputSections_bucket_perm types flags sort hperm j hj).1.nodup_iff]
      exact nodup_enum_filter_map flags hlen j
    · rw [hout j hj]
      exact List.nodup_nil
  · intro flag
    unfold flagsToSegmentIndex
    refine ⟨?_, ?_, ?_, ?_, ?_, ?_⟩ <;> intros <;> simp_all
  · intro j hne
    by_cases hj : j < numProgramSegments
    · rw [(sortOutputSections_bucket_perm types flags sort hperm j hj).2 hne]
      refine List.Pairwise.imp ?_ (hsorted _)
      intro a b hab
      unfold nobitsLast at hab
      rintro ⟨ha, hb⟩
      have hb1 : (types.getD b 0 == SHT_NOBITS) = false := by simpa using hb
      have ha1 : (types.getD a 0 == SHT_NOBITS) = true := by simpa using ha
      rw [hb1, ha1] at hab
      exact absurd hab (by decide)
    · rw [hout j hj]
      exact List.Pairwise.nil

/-- The sort `sortSections` leaves its input sorted by the comparison of
`sortOutputSections`. -/
theorem sortSections_sorted (types : List Nat) (l : List Nat) :
    (sortSections (nobitsLast types) l).Pairwise (fun a b => nobitsLast types b a = false) := by
  unfold sortSections
  haveI : IsTotal Nat (fun a b => nobitsLast types b a = false) := ⟨by
    intro a b
    unfold nobitsLast
    cases (types.getD a 0 == SHT_NOBITS) <;> cases (types.getD b 0 == SHT_NOBITS) <;> simp⟩
  haveI : IsTrans Nat (fun a b => nobitsLast types b a = false) := ⟨by
    intro a b c
    unfold nobitsLast
    cases (types.getD a 0 == SHT_NOBITS) <;> cases (types.getD b 0 == SHT_NOBITS) <;>
      cases (types.getD c 0 == SHT_NOBITS) <;> simp⟩
  exact List.sorted_insertionSort _ l

/-- C27 on the output sections `.bss`, `.text`, `.data` and `.symtab`: `.data` comes
before `.bss` in `readWrite`, `.text` is in `readExecute` and `.symtab` in `notLoaded`. -/
theorem sortOutputSections_buckets_witness :
    sortOutputSections [SHT_NOBITS, SHT_PROGBITS, SHT_PROGBITS, SHT_SYMTAB]
        [SHF_ALLOC + SHF_WRITE, SHF_ALLOC + SHF_EXECINSTR, SHF_ALLOC + SHF_WRITE, 0]
        sortSections = [[], [2, 0], [1], [], [], [3]] ∧
    (∀ j id, id ∈ (sortOutputSections [SHT_NOBITS, SHT_PROGBITS, SHT_PROGBITS, SHT_SYMTAB]
        [SHF_ALLOC + SHF_WRITE, SHF_ALLOC + SHF_EXECINSTR, SHF_ALLOC + SHF_WRITE, 0]
        sortSections).getD j [] ↔
      id < 4 ∧ flagsToSegmentIndex
        ([SHF_ALLOC + SHF_WRITE, SHF_ALLOC + SHF_EXECINSTR, SHF_ALLOC + SHF_WRITE, 0].getD
          id 0) = j) :=
  ⟨by decide,
    (sortOutputSections_buckets [SHT_NOBITS, SHT_PROGBITS, SHT_PROGBITS, SHT_SYMTAB]
      [SHF_ALLOC + SHF_WRITE, SHF_ALLOC + SHF_EXECINSTR, SHF_ALLOC + SHF_WRITE, 0]
      sortSections (by decide) (fun less l => List.perm_insertionSort _ l)
      (sortSections_sorted _)).2.1⟩

/-! ## Claim C28: `inputToOutputSectionOffset` -/

theorem partStart_zero (cs : List PartCopy) : partStart cs 0 = 0 := by
  simp [partStart]

theorem partStart_succ (c : PartCopy) (cs : List PartCopy) (k : Nat) :
    partStart (c :: cs) (k + 1) = c.size + partStart cs k := by
  simp [partStart]

theorem partStart_length (cs : List PartCopy) :
    partStart cs cs.length = (cs.map PartCopy.size).sum := by
  simp [partStart]

/-- The loop of `inputToOutputSectionOffset` finds the part that holds the offset. -/
theorem searchPartCopies_some (x : Nat) (cs : List PartCopy) :
    ∀ (start k : Nat) (c : PartCopy), cs[k]? = some c →
      start + partStart cs k ≤ x → x < start + partStart cs k + c.size →
      searchPartCopies x cs start = some ((x + c.dstOffset) % 2 ^ 64) := by
  induction cs with
  | nil => intro start k c hc; simp at hc
  | cons c0 rest ih =>
    intro start k c hc h1 h2
    cases k with
    | zero =>
      simp only [List.getElem?_cons_zero, Option.some.injEq] at hc
      subst hc
      rw [partStart_zero] at h1 h2
      rw [searchPartCopies, if_pos ⟨by omega, by omega⟩]
    | succ j =>
      rw [List.getElem?_cons_succ] at hc
      rw [partStart_succ] at h1 h2
      rw [searchPartCopies, if_neg (by omega)]
      exact ih (start + c0.size) j c hc (by omega) (by omega)

/-- The loop of `inputToOutputSectionOffset` finds no part for an offset that is not below
the total of the sizes. -/
theorem searchPartCopies_none (x : Nat) (cs : List PartCopy) :
    ∀ (start : Nat), start + (cs.map PartCopy.size).sum ≤ x →
      searchPartCopies x cs start = none := by
  induction cs with
  | nil => intro start _; rfl
  | cons c0 rest ih =>
    intro start h
    simp only [List.map_cons, List.sum_cons] at h
    rw [searchPartCopies, if_neg (by omega)]
    exact ih (start + c0.size) (by omega)

/-- An offset below the total of the sizes is in one part. -/
theorem exists_part_of_lt (x : Nat) (cs : List PartCopy) :
    x < (cs.map PartCopy.size).sum →
      ∃ k c, cs[k]? = some c ∧ partStart cs k ≤ x ∧ x < partStart cs k + c.size := by
  induction cs generalizing x with
  | nil => intro h; simp at h
  | cons c0 rest ih =>
    intro h
    simp only [List.map_cons, List.sum_cons] at h
    by_cases h0 : x < c0.size
    · exact ⟨0, c0, by simp, by rw [partStart_zero]; omega, by rw [partStart_zero]; omega⟩
    · obtain ⟨k, c, hk, h1, h2⟩ := ih (x - c0.size) (by omega)
      exact ⟨k + 1, c, by simpa using hk, by rw [partStart_succ]; omega,
        by rw [partStart_succ]; omega⟩

/-- The parts are disjoint: an offset is in at most one of them. -/
theorem part_unique (x : Nat) (cs : List PartCopy) :
    ∀ (k k1 : Nat) (c c1 : PartCopy), cs[k]? = some c → cs[k1]? = some c1 →
      partStart cs k ≤ x → x < partStart cs k + c.size →
      partStart cs k1 ≤ x → x < partStart cs k1 + c1.size → k = k1 := by
  induction cs generalizing x with
  | nil => intro k k1 c c1 hc; simp at hc
  | cons c0 rest ih =>
    intro k k1 c c1 hc hc1 h1 h2 h3 h4
    cases k with
    | zero =>
      cases k1 with
      | zero => rfl
      | succ j1 =>
        simp only [List.getElem?_cons_zero, Option.some.injEq] at hc
        subst hc
        rw [partStart_zero] at h1 h2
        rw [partStart_succ] at h3
        omega
    | succ j =>
      cases k1 with
      | zero =>
        simp only [List.getElem?_cons_zero, Option.some.injEq] at hc1
        subst hc1
        rw [partStart_zero] at h3 h4
        rw [partStart_succ] at h1
        omega
      | succ j1 =>
        rw [List.getElem?_cons_succ] at hc hc1
        rw [partStart_succ] at h1 h2 h3 h4
        have := ih (x - c0.size) j j1 c c1 hc hc1 (by omega) (by omega) (by omega) (by omega)
        omega

/-- C28. `inputToOutputSectionOffset` for the offset `x` in the input section
`(elf, hdr)`.  With the single `PartCopy` `cmd` it returns `ok` and `x + cmd.dstOffset`
(as a `size_t`).  With a vector of `PartCopy`s, whose sizes have the running sums
`partStart` and a total below `2^64`: when the `k`-th part holds `x`, that is `start_k ≤ x < start_k + size_k`, it
returns `ok` and `x + dstOffset_k`, and no other part holds `x`; an `x` below the total
of the sizes is in some part; for an `x` that is not below the total it returns
`bad_input_file`.  With no copy command it returns `not_ok`. -/
theorem inputToOutputSectionOffset_cases (elf hdr x : Nat)
    (inputSectionCopyCommands : List (List SectionMemCopies)) :
    (∀ cmd, get2D inputSectionCopyCommands elf hdr = SectionMemCopies.part cmd →
      inputToOutputSectionOffset elf hdr x inputSectionCopyCommands =
        (StatusCode.ok, (x + cmd.dstOffset) % 2 ^ 64) ∧
      (x + cmd.dstOffset < 2 ^ 64 →
        inputToOutputSectionOffset elf hdr x inputSectionCopyCommands =
          (StatusCode.ok, x + cmd.dstOffset))) ∧
    (∀ cmds, get2D inputSectionCopyCommands elf hdr = SectionMemCopies.parts cmds →
      (cmds.map PartCopy.size).sum < 2 ^ 64 →
      (∀ k c, cmds[k]? = some c → partStart cmds k ≤ x → x < partStart cmds k + c.size →
        inputToOutputSectionOffset elf hdr x inputSectionCopyCommands =
          (StatusCode.ok, (x + c.dstOffset) % 2 ^ 64) ∧
        (x + c.dstOffset < 2 ^ 64 →
          inputToOutputSectionOffset elf hdr x inputSectionCopyCommands =
            (StatusCode.ok, x + c.dstOffset)) ∧
        ∀ k1 c1, cmds[k1]? = some c1 → partStart cmds k1 ≤ x →
          x < partStart cmds k1 + c1.size → k1 = k) ∧
      (x < (cmds.map PartCopy.size).sum →
        ∃ k c, cmds[k]? = some c ∧ partStart cmds k ≤ x ∧ x < partStart cmds k + c.size) ∧
      ((cmds.map PartCopy.size).sum ≤ x →
        (inputToOutputSectionOffset elf hdr x inputSectionCopyCommands).1 =
          StatusCode.bad_input_file)) ∧
    (get2D inputSectionCopyCommands elf hdr = SectionMemCopies.monostate →
      (inputToOutputSectionOffset elf hdr x inputSectionCopyCommands).1 = StatusCode.not_ok ∧
      (inputToOutputSectionOffset elf hdr x inputSectionCopyCommands).1 ≠ StatusCode.ok) := by
  refine ⟨?_, ?_, ?_⟩
  · intro cmd hcmd
    unfold inputToOutputSectionOffset
    rw [hcmd]
    exact ⟨rfl, fun hlt => by simp only []; rw [Nat.mod_eq_of_lt hlt]⟩
  · intro cmds hcmds _
    refine ⟨?_, exists_part_of_lt x cmds, ?_⟩
    · intro k c hc h1 h2
      have hs := searchPartCopies_some x cmds 0 k c hc (by omega) (by omega)
      have hres : inputToOutputSectionOffset elf hdr x inputSectionCopyCommands =
          (StatusCode.ok, (x + c.dstOffset) % 2 ^ 64) := by
        unfold inputToOutputSectionOffset
        rw [hcmds]
        simp only []
        rw [hs]
      refine ⟨hres, fun hlt => by rw [hres, Nat.mod_eq_of_lt hlt], ?_⟩
      intro k1 c1 hc1 h3 h4
      exact part_unique x cmds k1 k c1 c hc1 hc h3 h4 h1 h2
    · intro hx
      unfold inputToOutputSectionOffset
      rw [hcmds]
      simp only []
      rw [searchPartCopies_none x cmds 0 (by omega)]
  · intro hmono
    unfold inputToOutputSectionOffset
    rw [hmono]
    exact ⟨rfl, fun h => nomatch h⟩

/-- C28 on the offset 16 of a section with three parts of 8 bytes copied to the offsets
0, 8 and 16: the third part holds the offset, and the function returns `ok` and
`16 + 16 = 32`. -/
theorem inputToOutputSectionOffset_cases_witness :
    inputToOutputSectionOffset 0 1 16
        [[SectionMemCopies.monostate, SectionMemCopies.parts [⟨8, 0⟩, ⟨8, 8⟩, ⟨8, 16⟩]]] =
      (StatusCode.ok, 32) ∧
    (inputToOutputSectionOffset 0 1 24
        [[SectionMemCopies.monostate, SectionMemCopies.parts [⟨8, 0⟩, ⟨8, 8⟩, ⟨8, 16⟩]]]).1 =
      StatusCode.bad_input_file ∧
    (inputToOutputSectionOffset 0 0 24
        [[SectionMemCopies.monostate, SectionMemCopies.parts [⟨8, 0⟩, ⟨8, 8⟩, ⟨8, 16⟩]]]).1 =
      StatusCode.not_ok :=
  ⟨(((inputToOutputSectionOffset_cases 0 1 16
      [[SectionMemCopies.monostate, SectionMemCopies.parts [⟨8, 0⟩, ⟨8, 8⟩, ⟨8, 16⟩]]]).2.1
      [⟨8, 0⟩, ⟨8, 8⟩, ⟨8, 16⟩] rfl (by decide)).1 2 ⟨8, 16⟩ rfl (by decide)
      (by decide)).2.1 (by decide),
    ((inputToOutputSectionOffset_cases 0 1 24
      [[SectionMemCopies.monostate, SectionMemCopies.parts [⟨8, 0⟩, ⟨8, 8⟩, ⟨8, 16⟩]]]).2.1
      [⟨8, 0⟩, ⟨8, 8⟩, ⟨8, 16⟩] rfl (by decide)).2.2 (by decide),
    ((inputToOutputSectionOffset_cases 0 0 24
      [[SectionMemCopies.monostate, SectionMemCopies.parts [⟨8, 0⟩, ⟨8, 8⟩, ⟨8, 16⟩]]]).2.2
      rfl).1⟩

/-! ## Claim C24: the order of the input sections -/

theorem mergeAndSortSection_refs (inputs : List ElfInput) (sortKeys outSectionFlags : List Nat)
    (sortRefs : (SectionRef → SectionRef → Bool) → List SectionRef → List SectionRef)
    (allocate : Nat → List Nat) (visitOrder : List (List Nat × Nat) → List (List Nat × Nat))
    (state : Option MergeSortState) (sectionRefs : List SectionRef) (outSectionID : Nat)
    (st1 : MergeSortState)
    (h : mergeAndSortSection inputs sortKeys outSectionFlags sortRefs allocate visitOrder state
      sectionRefs outSectionID = some st1) :
    ∃ st, state = some st ∧ st1.outputToInputSections =
      st.outputToInputSections.set outSectionID
        (sortRefs (sectionRefBefore sortKeys) sectionRefs) := by
  unfold mergeAndSortSection at h
  cases state with
  | none => simp at h
  | some st =>
    refine ⟨st, rfl, ?_⟩
    simp only [] at h
    by_cases hm : outSectionFlags.getD outSectionID 0 &&& SHF_MERGE = 0
    · rw [if_pos hm] at h
      simp only [Option.some.injEq] at h
      subst h
      rfl
    · rw [if_neg hm] at h
      generalize (if outSectionFlags.getD outSectionID 0 &&& SHF_STRINGS ≠ 0 then
        MergeType.variableLength else MergeType.fixedLength) = mt at h
      split at h
      · simp at h
      · simp only [Option.some.injEq] at h
        subst h
        rfl

theorem forEachIndexedFrom_mergeAndSort_refs (inputs : List ElfInput)
    (sortKeys outSectionFlags : List Nat)
    (sortRefs : (SectionRef → SectionRef → Bool) → List SectionRef → List SectionRef)
    (allocate : Nat → List Nat) (visitOrder : List (List Nat × Nat) → List (List Nat × Nat))
    (xs : List (List SectionRef)) :
    ∀ (pre post : List (List SectionRef)) (st ms : MergeSortState),
      st.outputToInputSections = pre ++ xs ++ post →
      forEachIndexedFrom
        (mergeAndSortSection inputs sortKeys outSectionFlags sortRefs allocate visitOrder)
        pre.length xs (some st) = some ms →
      ms.outputToInputSections =
        pre ++ xs.map (sortRefs (sectionRefBefore sortKeys)) ++ post := by
  induction xs with
  | nil =>
    intro pre post st ms hst h
    simp only [forEachIndexedFrom, Option.some.injEq] at h
    subst h
    simpa using hst
  | cons x rest ih =>
    intro pre post st ms hst h
    rw [forEachIndexedFrom] at h
    cases hstep : mergeAndSortSection inputs sortKeys outSectionFlags sortRefs allocate
        visitOrder (some st) x pre.length with
    | none =>
      rw [hstep] at h
      have hnone : ∀ (ys : List (List SectionRef)) (i : Nat), forEachIndexedFrom
          (mergeAndSortSection inputs sortKeys outSectionFlags sortRefs allocate visitOrder)
          i ys none = none := by
        intro ys
        induction ys with
        | nil => intro i; rfl
        | cons y ys ihy =>
          intro i
          rw [forEachIndexedFrom]
          have hy : mergeAndSortSection inputs sortKeys outSectionFlags sortRefs allocate
              visitOrder none y i = none := rfl
          rw [hy]
          exact ihy (i + 1)
      rw [hnone] at h
      exact absurd h (by simp)
    | some st1 =>
      rw [hstep] at h
      obtain ⟨st0, hst0, hrefs⟩ := mergeAndSortSection_refs _ _ _ _ _ _ _ _ _ _ hstep
      simp only [Option.some.injEq] at hst0
      subst hst0
      have hst1 : st1.outputToInputSections =
          (pre ++ [sortRefs (sectionRefBefore sortKeys) x]) ++ rest ++ post := by
        rw [hrefs, hst]
        simp [List.set_append]
      have := ih (pre ++ [sortRefs (sectionRefBefore sortKeys) x]) post st1 ms hst1
        (by simpa using h)
      simpa using this

/-- The function `mergeAndSortInputSections` sorts the input list of every output
section. -/
theorem mergeAndSortInputSections_refs (inputs : List ElfInput)
    (sortKeys outSectionFlags : List Nat)
    (sortRefs : (SectionRef → SectionRef → Bool) → List SectionRef → List SectionRef)
    (allocate : Nat → List Nat) (visitOrder : List (List Nat × Nat) → List (List Nat × Nat))
    (outputToInputSections : List (List SectionRef)) (ms : MergeSortState)
    (h : mergeAndSortInputSections inputs sortKeys outSectionFlags sortRefs allocate visitOrder
      outputToInputSections = some ms) :
    ms.outputToInputSections =
      outputToInputSections.map (sortRefs (sectionRefBefore sortKeys)) := by
  unfold mergeAndSortInputSections forEachIndexed at h
  have := forEachIndexedFrom_mergeAndSort_refs inputs sortKeys outSectionFlags sortRefs allocate
    visitOrder outputToInputSections [] [] _ ms (by simp) h
  simpa using this

/-- The comparison of `mergeAndSortInputSections` is the strict lexicographic order of
the sort key of the input and the index of the section header. -/
theorem sectionRefBefore_iff (sortKeys : List Nat) (a b : SectionRef) :
    sectionRefBefore sortKeys a b = true ↔
      sortKeys.getD a.elfIndex 0 < sortKeys.getD b.elfIndex 0 ∨
        (sortKeys.getD a.elfIndex 0 = sortKeys.getD b.elfIndex 0 ∧
          a.headerIndex < b.headerIndex) := by
  unfold sectionRefBefore
  simp only []
  split_ifs with h
  · simp only [decide_eq_true_eq]
    constructor
    · intro hlt; exact Or.inl hlt
    · rintro (hlt | ⟨heq, -⟩)
      · exact hlt
      · exact absurd heq h
  · simp only [decide_eq_true_eq]
    have heq : sortKeys.getD a.elfIndex 0 = sortKeys.getD b.elfIndex 0 := not_not.mp h
    constructor
    · intro hlt; exact Or.inr ⟨heq, hlt⟩
    · rintro (hlt | ⟨-, hlt⟩)
      · omega
      · exact hlt

/-- The sort key orders the inputs by file index, then by sub-index. -/
theorem makeSortKey_lt_iff (fileIndex subIndex fileIndex1 subIndex1 : Nat)
    (h1 : fileIndex < 2 ^ 32) (h2 : subIndex < 2 ^ 32) (h3 : fileIndex1 < 2 ^ 32)
    (h4 : subIndex1 < 2 ^ 32) :
    makeSortKey fileIndex subIndex = fileIndex * 2 ^ 32 + subIndex ∧
    (makeSortKey fileIndex subIndex < makeSortKey fileIndex1 subIndex1 ↔
      fileIndex < fileIndex1 ∨ (fileIndex = fileIndex1 ∧ subIndex < subIndex1)) := by
  have e1 : makeSortKey fileIndex subIndex = fileIndex * 2 ^ 32 + subIndex := by
    unfold makeSortKey
    exact Nat.mod_eq_of_lt (by omega)
  have e2 : makeSortKey fileIndex1 subIndex1 = fileIndex1 * 2 ^ 32 + subIndex1 := by
    unfold makeSortKey
    exact Nat.mod_eq_of_lt (by omega)
  rw [e1, e2]
  exact ⟨rfl, by omega⟩

theorem sortSectionRefs_sorted (sortKeys : List Nat) (l : List SectionRef) :
    (sortSectionRefs (sectionRefBefore sortKeys) l).Pairwise
      (fun a b => sectionRefBefore sortKeys b a = false) := by
  unfold sortSectionRefs
  have hf : ∀ a b : SectionRef, sectionRefBefore sortKeys b a = false ↔
      ¬ (sortKeys.getD b.elfIndex 0 < sortKeys.getD a.elfIndex 0 ∨
        (sortKeys.getD b.elfIndex 0 = sortKeys.getD a.elfIndex 0 ∧
          b.headerIndex < a.headerIndex)) := by
    intro a b
    rw [← sectionRefBefore_iff]
    simp
  haveI : IsTotal SectionRef (fun a b => sectionRefBefore sortKeys b a = false) := ⟨by
    intro a b
    rw [hf, hf]
    omega⟩
  haveI : IsTrans SectionRef (fun a b => sectionRefBefore sortKeys b a = false) := ⟨by
    intro a b c
    rw [hf, hf, hf]
    omega⟩
  exact List.sorted_insertionSort _ l

/-- C24, amended.  When `mergeAndSortInputSections` returns, with a `std::sort` that
permutes its input and leaves it sorted by the comparison, the input list of every output
section is a permutation of the list it had before and is sorted in ascending
lexicographic order of the sort key of the input and the index of the section header: no
element is before an earlier one; the order is strictly ascending when the list has no
section twice and no two of its sections agree in both the sort key of the input and the
index of the header.  The sort key of the file index `f` and the sub-index `s`, both below
`2^32`, is `f * 2^32 + s`, and is ordered as the pairs `(f, s)`. -/
theorem mergeAndSortInputSections_sorted (inputs : List ElfInput)
    (sortKeys outSectionFlags : List Nat)
    (sortRefs : (SectionRef → SectionRef → Bool) → List SectionRef → List SectionRef)
    (allocate : Nat → List Nat) (visitOrder : List (List Nat × Nat) → List (List Nat × Nat))
    (outputToInputSections : List (List SectionRef)) (ms : MergeSortState)
    (h : mergeAndSortInputSections inputs sortKeys outSectionFlags sortRefs allocate visitOrder
      outputToInputSections = some ms)
    (hperm : ∀ less l, (sortRefs less l).Perm l)
    (hsorted : ∀ l, (sortRefs (sectionRefBefore sortKeys) l).Pairwise
      (fun a b => sectionRefBefore sortKeys b a = false)) :
    ms.outputToInputSections.length = outputToInputSections.length ∧
    (∀ (o : Nat) (l l1 : List SectionRef), outputToInputSections[o]? = some l →
      ms.outputToInputSections[o]? = some l1 →
      l1.Perm l ∧
      l1.Pairwise (fun a b => ¬ (sortKeys.getD b.elfIndex 0 < sortKeys.getD a.elfIndex 0 ∨
        (sortKeys.getD b.elfIndex 0 = sortKeys.getD a.elfIndex 0 ∧
          b.headerIndex < a.headerIndex))) ∧
      (l.Nodup →
        (∀ a ∈ l, ∀ b ∈ l, a ≠ b →
          ¬ (sortKeys.getD a.elfIndex 0 = sortKeys.getD b.elfIndex 0 ∧
            a.headerIndex = b.headerIndex)) →
        l1.Pairwise (fun a b => sortKeys.getD a.elfIndex 0 < sortKeys.getD b.elfIndex 0 ∨
          (sortKeys.getD a.elfIndex 0 = sortKeys.getD b.elfIndex 0 ∧
            a.headerIndex < b.headerIndex)))) ∧
    (∀ fileIndex subIndex fileIndex1 subIndex1 : Nat, fileIndex < 2 ^ 32 → subIndex < 2 ^ 32 →
      fileIndex1 < 2 ^ 32 → subIndex1 < 2 ^ 32 →
      makeSortKey fileIndex subIndex = fileIndex * 2 ^ 32 + subIndex ∧
      (makeSortKey fileIndex subIndex < makeSortKey fileIndex1 subIndex1 ↔
        fileIndex < fileIndex1 ∨ (fileIndex = fileIndex1 ∧ subIndex < subIndex1))) := by
  have hrefs := mergeAndSortInputSections_refs _ _ _ _ _ _ _ _ h
  refine ⟨by rw [hrefs, List.length_map], ?_, makeSortKey_lt_iff⟩
  intro o l l1 hl hl1
  rw [hrefs, List.getElem?_map, hl] at hl1
  simp only [Option.map_some', Option.some.injEq] at hl1
  subst hl1
  have hs : (sortRefs (sectionRefBefore sortKeys) l).Pairwise
      (fun a b => ¬ (sortKeys.getD b.elfIndex 0 < sortKeys.getD a.elfIndex 0 ∨
        (sortKeys.getD b.elfIndex 0 = sortKeys.getD a.elfIndex 0 ∧
          b.headerIndex < a.headerIndex))) := by
    refine List.Pairwise.imp ?_ (hsorted l)
    intro a b hab hlt
    rw [← sectionRefBefore_iff] at hlt
    rw [hlt] at hab
    exact absurd hab (by decide)
  refine ⟨hperm _ l, hs, ?_⟩
  intro hnodup hdistinct
  have hnodup1 : (sortRefs (sectionRefBefore sortKeys) l).Nodup :=
    (hperm _ l).nodup_iff.mpr hnodup
  have hboth := List.Pairwise.and hs hnodup1
  refine List.Pairwise.imp_of_mem ?_ hboth
  intro a b ha hb hab
  have ha1 : a ∈ l := (hperm _ l).mem_iff.mp ha
  have hb1 : b ∈ l := (hperm _ l).mem_iff.mp hb
  have hd := hdistinct a ha1 b hb1 hab.2
  have hle := hab.1
  omega

/-- C24, amended, on two objects with the sort keys of the file indices 0 and 1, with a
section of the header index 1 in each and one of the header index 4 in the first: the
list is sorted to the sections 1 and 4 of the first object and the section 1 of the
second. -/
theorem mergeAndSortInputSections_sorted_witness :
    (mergeAndSortInputSections [objTextDataBss, objTextDataBss]
        [makeSortKey 0 0, makeSortKey 1 0] [SHF_ALLOC] sortSectionRefs
        (fun n => List.replicate n 0) id [[⟨1, 1⟩, ⟨0, 4⟩, ⟨0, 1⟩]]).map
      (fun ms => ms.outputToInputSections) = some [[⟨0, 1⟩, ⟨0, 4⟩, ⟨1, 1⟩]] ∧
    ∀ ms, mergeAndSortInputSections [objTextDataBss, objTextDataBss]
        [makeSortKey 0 0, makeSortKey 1 0] [SHF_ALLOC] sortSectionRefs
        (fun n => List.replicate n 0) id [[⟨1, 1⟩, ⟨0, 4⟩, ⟨0, 1⟩]] = some ms →
      ms.outputToInputSections.length = 1 := by
  refine ⟨by decide, fun ms hms => ?_⟩
  exact (mergeAndSortInputSections_sorted [objTextDataBss, objTextDataBss]
    [makeSortKey 0 0, makeSortKey 1 0] [SHF_ALLOC] sortSectionRefs
    (fun n => List.replicate n 0) id [[⟨1, 1⟩, ⟨0, 4⟩, ⟨0, 1⟩]] ms hms
    (fun less l => List.perm_insertionSort _ l) (sortSectionRefs_sorted _)).1

/-- C24 fails on the code: two inputs with the same sort key, each with a section of the
header index 1 in the same output section.  The comparison puts neither section before
the other, so the list that `mergeAndSortInputSections` leaves is not in strictly
ascending order of sort key and header index. -/
theorem mergeAndSortInputSections_not_strict :
    (mergeAndSortInputSections [objTextDataBss, objTextDataBss] [0, 0] [SHF_ALLOC]
        sortSectionRefs (fun n => List.replicate n 0) id [[⟨0, 1⟩, ⟨1, 1⟩]]).map
      (fun ms => (ms.status, ms.outputToInputSections)) =
      some (StatusCode.ok, [[⟨0, 1⟩, ⟨1, 1⟩]]) ∧
    sectionRefBefore [0, 0] ⟨0, 1⟩ ⟨1, 1⟩ = false ∧
    sectionRefBefore [0, 0] ⟨1, 1⟩ ⟨0, 1⟩ = false ∧
    ¬ ([0, 0].getD 0 0 < [0, 0].getD 1 0 ∨ ([0, 0].getD 0 0 = [0, 0].getD 1 0 ∧ 1 < 1)) := by
  refine ⟨by decide, by decide, by decide, by decide⟩

/-! ## Compatibility of the input sections of one output section -/

theorem clearMergeFlagsMask_testBit (i : Nat) :
    (2 ^ 64 - 1 - (SHF_MERGE ||| SHF_STRINGS)).testBit i =
      (decide (i < 64) && !decide (i = 4) && !decide (i = 5)) := by
  by_cases hi : i < 64
  · interval_cases i <;> decide
  · have h1 : (2 ^ 64 - 1 - (SHF_MERGE ||| SHF_STRINGS)) < 2 ^ i :=
      lt_of_lt_of_le (by decide : (2 ^ 64 - 1 - (SHF_MERGE ||| SHF_STRINGS)) < 2 ^ 64)
        (Nat.pow_le_pow_right (by decide) (by omega))
    rw [Nat.testBit_lt_two_pow h1]
    simp [hi]

theorem two_pow_ne_merge (i : Nat) : 2 ^ i ≠ SHF_MERGE ↔ i ≠ 4 := by
  have h : SHF_MERGE = 2 ^ 4 := by decide
  rw [h]
  constructor
  · intro h1 h2; exact h1 (by rw [h2])
  · intro h1 h2; exact h1 (Nat.pow_right_injective (le_refl 2) h2)

theorem two_pow_ne_strings (i : Nat) : 2 ^ i ≠ SHF_STRINGS ↔ i ≠ 5 := by
  have h : SHF_STRINGS = 2 ^ 5 := by decide
  rw [h]
  constructor
  · intro h1 h2; exact h1 (by rw [h2])
  · intro h1 h2; exact h1 (Nat.pow_right_injective (le_refl 2) h2)

theorem cleaned_eq_iff (a b : Nat) (ha : a < 2 ^ 64) (hb : b < 2 ^ 64) :
    a &&& (2 ^ 64 - 1 - (SHF_MERGE ||| SHF_STRINGS)) =
        b &&& (2 ^ 64 - 1 - (SHF_MERGE ||| SHF_STRINGS)) ↔
      ¬ differOutsideMergeBits a b := by
  constructor
  · rintro heq ⟨i, h4, h5, hne⟩
    rw [two_pow_ne_merge] at h4
    rw [two_pow_ne_strings] at h5
    by_cases hi : i < 64
    · have h := congrArg (fun x => Nat.testBit x i) heq
      simp only [Nat.testBit_and, clearMergeFlagsMask_testBit] at h
      simp [hi, h4, h5] at h
      exact hne h
    · have h1 : a.testBit i = false :=
        Nat.testBit_lt_two_pow (lt_of_lt_of_le ha (Nat.pow_le_pow_right (by decide) (by omega)))
      have h2 : b.testBit i = false :=
        Nat.testBit_lt_two_pow (lt_of_lt_of_le hb (Nat.pow_le_pow_right (by decide) (by omega)))
      exact hne (by rw [h1, h2])
  · intro hno
    apply Nat.eq_of_testBit_eq
    intro i
    simp only [Nat.testBit_and, clearMergeFlagsMask_testBit]
    by_cases hm : (decide (i < 64) && !decide (i = 4) && !decide (i = 5)) = true
    · rw [hm]
      simp only [Bool.and_true]
      by_contra hne
      apply hno
      simp only [Bool.and_eq_true, decide_eq_true_eq, Bool.not_eq_true', decide_eq_false_iff_not]
        at hm
      exact ⟨i, (two_pow_ne_merge i).mpr hm.1.2, (two_pow_ne_strings i).mpr hm.2, hne⟩
    · have hm' : (decide (i < 64) && !decide (i = 4) && !decide (i = 5)) = false := by
        simpa using hm
      rw [hm']
      simp

theorem makeFlagsCompatible_fst (f other : Nat) :
    (makeFlagsCompatible f other).1 = true ↔
      other &&& (2 ^ 64 - 1 - (SHF_MERGE ||| SHF_STRINGS)) =
        f &&& (2 ^ 64 - 1 - (SHF_MERGE ||| SHF_STRINGS)) := by
  unfold makeFlagsCompatible
  simp only []
  split_ifs with h1 h2
  · simp [h1]
  · exact ⟨fun _ => h2, fun _ => rfl⟩
  · exact ⟨(fun h => nomatch h), fun h => absurd h h2⟩

theorem makeFlagsCompatible_snd (f other : Nat) :
    (makeFlagsCompatible f other).2 &&& (2 ^ 64 - 1 - (SHF_MERGE ||| SHF_STRINGS)) =
      f &&& (2 ^ 64 - 1 - (SHF_MERGE ||| SHF_STRINGS)) := by
  unfold makeFlagsCompatible
  simp only []
  split_ifs with h1 h2
  · rfl
  · simp only [Nat.and_assoc, Nat.and_self]
  · rfl

theorem headerOf_flags_lt (sectionHeaders : List (List Elf64_Shdr))
    (hflags : ∀ hs ∈ sectionHeaders, ∀ h ∈ hs, h.sh_flags < 2 ^ 64) (r : SectionRef) :
    (headerOf sectionHeaders r).sh_flags < 2 ^ 64 := by
  unfold headerOf get2D
  rw [List.getD_eq_getElem?_getD, List.getD_eq_getElem?_getD]
  cases h1 : sectionHeaders[r.elfIndex]? with
  | none =>
    simp only [Option.getD_none, List.getElem?_nil]
    decide
  | some hs =>
    simp only [Option.getD_some]
    cases h2 : hs[r.headerIndex]? with
    | none =>
      simp only [Option.getD_none]
      decide
    | some h =>
      simp only [Option.getD_some]
      exact hflags hs (List.getElem?_mem h1) h (List.getElem?_mem h2)

/-- What one call of the inner lambda of the second loop of `initOutputSections` leaves
alone: the lengths of the arrays and their entries for the other output sections. -/
theorem attributeOfSection_frame (sectionHeaders : List (List Elf64_Shdr)) (o : Nat)
    (st : InitAttributes) (r : SectionRef) (k : Nat) :
    (attributeOfSection sectionHeaders o st r k).flags.length = st.flags.length ∧
    (attributeOfSection sectionHeaders o st r k).types.length = st.types.length ∧
    (attributeOfSection sectionHeaders o st r k).alignments.length = st.alignments.length ∧
    ∀ j, j ≠ o →
      (attributeOfSection sectionHeaders o st r k).flags.getD j 0 = st.flags.getD j 0 ∧
      (attributeOfSection sectionHeaders o st r k).types.getD j 0 = st.types.getD j 0 ∧
      (attributeOfSection sectionHeaders o st r k).alignments.getD j 0 =
        st.alignments.getD j 0 := by
  unfold attributeOfSection
  simp only []
  refine ⟨?_, ?_, ?_, ?_⟩
  · split_ifs <;> simp only [List.length_set]
  · split_ifs <;> simp only [List.length_set]
  · split_ifs <;> simp only [List.length_set]
  · intro j hj
    have hj' : o ≠ j := fun h => hj h.symm
    split_ifs <;> simp only [getD_set_ne _ _ _ _ _ hj', and_self]

theorem attributeOfSection_first (sectionHeaders : List (List Elf64_Shdr)) (o : Nat)
    (st : InitAttributes) (r : SectionRef)
    (hf : o < st.flags.length) (ht : o < st.types.length) (ha : o < st.alignments.length) :
    (attributeOfSection sectionHeaders o st r 0).flags.getD o 0 =
      (headerOf sectionHeaders r).sh_flags ∧
    (attributeOfSection sectionHeaders o st r 0).types.getD o 0 =
      (headerOf sectionHeaders r).sh_type ∧
    (attributeOfSection sectionHeaders o st r 0).alignments.getD o 0 =
      (headerOf sectionHeaders r).sh_addralign ∧
    (attributeOfSection sectionHeaders o st r 0).status = st.status := by
  unfold attributeOfSection headerOf
  simp only [if_true]
  have h1 : ∀ (l : List Nat) (x : Nat), o < l.length → (l.set o x).getD o 0 = x :=
    fun l x h => getD_set_self l o x 0 h
  have hc : ∀ x : Nat, makeFlagsCompatible x x = (true, x) := by
    intro x
    unfold makeFlagsCompatible
    simp
  simp only [h1 _ _ hf, h1 _ _ ht, hc, List.set_set, Bool.not_true, Bool.false_eq_true,
    ne_eq, not_true_eq_false, or_self, if_false, h1 _ _ ha, max_self, true_and]

theorem attributeOfSection_next (sectionHeaders : List (List Elf64_Shdr)) (o : Nat)
    (st : InitAttributes) (r : SectionRef) (k : Nat) (hk : k ≠ 0)
    (hf : o < st.flags.length) (ha : o < st.alignments.length) :
    (attributeOfSection sectionHeaders o st r k).flags.getD o 0 &&&
        (2 ^ 64 - 1 - (SHF_MERGE ||| SHF_STRINGS)) =
      st.flags.getD o 0 &&& (2 ^ 64 - 1 - (SHF_MERGE ||| SHF_STRINGS)) ∧
    (attributeOfSection sectionHeaders o st r k).types.getD o 0 = st.types.getD o 0 ∧
    (attributeOfSection sectionHeaders o st r k).alignments.getD o 0 =
      max (st.alignments.getD o 0) (headerOf sectionHeaders r).sh_addralign ∧
    (attributeOfSection sectionHeaders o st r k).status =
      (if (headerOf sectionHeaders r).sh_flags &&& (2 ^ 64 - 1 - (SHF_MERGE ||| SHF_STRINGS)) =
            st.flags.getD o 0 &&& (2 ^ 64 - 1 - (SHF_MERGE ||| SHF_STRINGS)) ∧
          st.types.getD o 0 = (headerOf sectionHeaders r).sh_type
        then st.status else StatusCode.not_ok) := by
  unfold attributeOfSection headerOf
  simp only [if_neg hk]
  have h1 : ∀ (l : List Nat) (x : Nat), o < l.length → (l.set o x).getD o 0 = x :=
    fun l x h => getD_set_self l o x 0 h
  generalize get2D sectionHeaders r.elfIndex r.headerIndex = h
  have hfst := makeFlagsCompatible_fst (st.flags.getD o 0) h.sh_flags
  have hsnd := makeFlagsCompatible_snd (st.flags.getD o 0) h.sh_flags
  generalize makeFlagsCompatible (st.flags.getD o 0) h.sh_flags = c at hfst hsnd
  refine ⟨?_, ?_, ?_, ?_⟩
  · split_ifs <;> simp only [h1 _ _ hf] <;> exact hsnd
  · split_ifs <;> rfl
  · split_ifs <;> simp only [h1 _ _ ha]
  · by_cases hc : c.1 = true
    · have hc' := hfst.mp hc
      by_cases hty : st.types.getD o 0 = h.sh_type
      · rw [if_neg (by rw [hc]; exact fun hh => hh.elim (fun h0 => nomatch h0) (fun h0 => h0 hty)),
          if_pos ⟨hc', hty⟩]
      · rw [if_pos (Or.inr hty), if_neg (fun hh => hty hh.2)]
    · have hc' : ¬ _ := fun hh => hc (hfst.mpr hh)
      rw [if_pos (Or.inl (by simpa using hc)), if_neg (fun hh => hc' hh.1)]

theorem sameAttributes_refl (P : Nat → Prop) (st : InitAttributes) : sameAttributes P st st :=
  ⟨rfl, rfl, rfl, fun _ _ => ⟨rfl, rfl, rfl⟩⟩

theorem sameAttributes_trans (P : Nat → Prop) (a b c : InitAttributes)
    (h1 : sameAttributes P a b) (h2 : sameAttributes P b c) : sameAttributes P a c := by
  obtain ⟨a1, a2, a3, a4⟩ := h1
  obtain ⟨b1, b2, b3, b4⟩ := h2
  refine ⟨b1.trans a1, b2.trans a2, b3.trans a3, fun j hj => ?_⟩
  obtain ⟨c1, c2, c3⟩ := a4 j hj
  obtain ⟨d1, d2, d3⟩ := b4 j hj
  exact ⟨d1.trans c1, d2.trans c2, d3.trans c3⟩

theorem sameAttributes_mono (P Q : Nat → Prop) (a b : InitAttributes)
    (h : sameAttributes P a b) (hQ : ∀ j, Q j → P j) : sameAttributes Q a b :=
  ⟨h.1, h.2.1, h.2.2.1, fun j hj => h.2.2.2 j (hQ j hj)⟩

theorem attributeOfSection_same (sectionHeaders : List (List Elf64_Shdr)) (o : Nat)
    (st : InitAttributes) (r : SectionRef) (k : Nat) :
    sameAttributes (fun j => j ≠ o) st (attributeOfSection sectionHeaders o st r k) :=
  attributeOfSection_frame sectionHeaders o st r k

/-- The input sections of a group after the first one. -/
theorem attributeOfSections_rest (sectionHeaders : List (List Elf64_Shdr)) (o : Nat)
    (first : Elf64_Shdr) (rs : List SectionRef) (i : Nat) (hi : i ≠ 0) (st : InitAttributes)
    (hf : o < st.flags.length) (ha : o < st.alignments.length)
    (hflags : st.flags.getD o 0 &&& (2 ^ 64 - 1 - (SHF_MERGE ||| SHF_STRINGS)) =
      first.sh_flags &&& (2 ^ 64 - 1 - (SHF_MERGE ||| SHF_STRINGS)))
    (htype : st.types.getD o 0 = first.sh_type) :
    sameAttributes (fun j => j ≠ o) st
      (forEachIndexedFrom (attributeOfSection sectionHeaders o) i rs st) ∧
    (forEachIndexedFrom (attributeOfSection sectionHeaders o) i rs st).types.getD o 0 =
      first.sh_type ∧
    (forEachIndexedFrom (attributeOfSection sectionHeaders o) i rs st).alignments.getD o 0 =
      (rs.map (fun r => (headerOf sectionHeaders r).sh_addralign)).foldl max
        (st.alignments.getD o 0) ∧
    ((forEachIndexedFrom (attributeOfSection sectionHeaders o) i rs st).status = StatusCode.ok ↔
      st.status = StatusCode.ok ∧ ∀ r ∈ rs, fitsFirst first (headerOf sectionHeaders r)) := by
  induction rs generalizing i st with
  | nil =>
    simp only [forEachIndexedFrom, List.map_nil, List.foldl_nil, List.not_mem_nil, false_implies,
      implies_true, and_true]
    exact ⟨sameAttributes_refl _ _, htype⟩
  | cons r rs ih =>
    have hsame := attributeOfSection_same sectionHeaders o st r i
    obtain ⟨n1, n2, n3, n4⟩ := attributeOfSection_next sectionHeaders o st r i hi hf ha
    obtain ⟨i1, i2, i3, i4⟩ := ih (i + 1) (Nat.succ_ne_zero i)
      (attributeOfSection sectionHeaders o st r i)
      (by rw [hsame.1]; exact hf) (by rw [hsame.2.2.1]; exact ha)
      (by rw [n1]; exact hflags) (by rw [n2]; exact htype)
    simp only [forEachIndexedFrom, List.map_cons, List.foldl_cons, List.mem_cons, forall_eq_or_imp]
    refine ⟨sameAttributes_trans _ _ _ _ hsame i1, i2, ?_, ?_⟩
    · rw [i3, n3]
    · rw [i4, n4, hflags, htype]
      unfold fitsFirst
      constructor
      · rintro ⟨h1, h2⟩
        split_ifs at h1 with hc
        · exact ⟨h1, ⟨hc.1, hc.2.symm⟩, h2⟩
      · rintro ⟨h1, ⟨h2, h3⟩, h4⟩
        rw [if_pos ⟨h2, h3.symm⟩]
        exact ⟨h1, h4⟩

/-- One pass of the inner loop of the second loop of `initOutputSections`. -/
theorem attributeOfSections_group (sectionHeaders : List (List Elf64_Shdr)) (o : Nat)
    (group : List SectionRef) (st : InitAttributes)
    (hf : o < st.flags.length) (ht : o < st.types.length) (ha : o < st.alignments.length) :
    sameAttributes (fun j => j ≠ o) st
      (forEachIndexed group (attributeOfSection sectionHeaders o) st) ∧
    (∀ first, group.head? = some first →
      (forEachIndexed group (attributeOfSection sectionHeaders o) st).types.getD o 0 =
        (headerOf sectionHeaders first).sh_type ∧
      (forEachIndexed group (attributeOfSection sectionHeaders o) st).alignments.getD o 0 =
        maxAlignment sectionHeaders group) ∧
    ((forEachIndexed group (attributeOfSection sectionHeaders o) st).status = StatusCode.ok ↔
      st.status = StatusCode.ok ∧
      ∀ first, group.head? = some first →
        ∀ r ∈ group, fitsFirst (headerOf sectionHeaders first) (headerOf sectionHeaders r)) := by
  cases group with
  | nil =>
    simp only [forEachIndexed, forEachIndexedFrom, List.head?_nil, false_implies, implies_true,
      and_true, reduceCtorEq]
    exact sameAttributes_refl _ _
  | cons r0 rs =>
    have hsame := attributeOfSection_same sectionHeaders o st r0 0
    obtain ⟨f1, f2, f3, f4⟩ := attributeOfSection_first sectionHeaders o st r0 hf ht ha
    obtain ⟨i1, i2, i3, i4⟩ := attributeOfSections_rest sectionHeaders o
      (headerOf sectionHeaders r0) rs (0 + 1) (Nat.succ_ne_zero 0)
      (attributeOfSection sectionHeaders o st r0 0)
      (by rw [hsame.1]; exact hf) (by rw [hsame.2.2.1]; exact ha)
      (by rw [f1]) f2
    simp only [forEachIndexed, forEachIndexedFrom, List.head?_cons, Option.some.injEq,
      forall_eq', List.mem_cons, forall_eq_or_imp]
    refine ⟨sameAttributes_trans _ _ _ _ hsame i1, ⟨i2, ?_⟩, ?_⟩
    · rw [i3, f3]
      unfold maxAlignment
      simp only [List.map_cons, List.foldl_cons, Nat.zero_max]
    · rw [i4, f4]
      constructor
      · rintro ⟨h1, h2⟩
        exact ⟨h1, ⟨rfl, rfl⟩, h2⟩
      · rintro ⟨h1, _, h2⟩
        exact ⟨h1, h2⟩

/-- The second loop of `initOutputSections`, over the groups from output section `i` on. -/
theorem attributeOfGroups (sectionHeaders : List (List Elf64_Shdr))
    (G : List (List SectionRef)) (i : Nat) (st : InitAttributes)
    (hf : i + G.length ≤ st.flags.length) (ht : i + G.length ≤ st.types.length)
    (ha : i + G.length ≤ st.alignments.length) :
    sameAttributes (fun j => j < i) st
      (forEachIndexedFrom (fun st inputSections outSecID =>
        forEachIndexed inputSections (attributeOfSection sectionHeaders outSecID) st) i G st) ∧
    (∀ (k : Nat) (group : List SectionRef) (first : SectionRef), G[k]? = some group →
      group.head? = some first →
      (forEachIndexedFrom (fun st inputSections outSecID =>
        forEachIndexed inputSections (attributeOfSection sectionHeaders outSecID) st)
          i G st).types.getD (i + k) 0 = (headerOf sectionHeaders first).sh_type ∧
      (forEachIndexedFrom (fun st inputSections outSecID =>
        forEachIndexed inputSections (attributeOfSection sectionHeaders outSecID) st)
          i G st).alignments.getD (i + k) 0 = maxAlignment sectionHeaders group) ∧
    ((forEachIndexedFrom (fun st inputSections outSecID =>
        forEachIndexed inputSections (attributeOfSection sectionHeaders outSecID) st)
          i G st).status = StatusCode.ok ↔
      st.status = StatusCode.ok ∧
      ∀ group ∈ G, ∀ first, group.head? = some first →
        ∀ r ∈ group, fitsFirst (headerOf sectionHeaders first) (headerOf sectionHeaders r)) := by
  induction G generalizing i st with
  | nil =>
    simp only [forEachIndexedFrom, List.not_mem_nil, false_implies, implies_true, and_true,
      List.getElem?_nil, reduceCtorEq]
    exact sameAttributes_refl _ _
  | cons g G ih =>
    simp only [List.length_cons] at hf ht ha
    obtain ⟨g1, g2, g3⟩ := attributeOfSections_group sectionHeaders i g st (by omega) (by omega)
      (by omega)
    obtain ⟨i1, i2, i3⟩ := ih (i + 1)
      (forEachIndexed g (attributeOfSection sectionHeaders i) st)
      (by rw [g1.1]; omega) (by rw [g1.2.1]; omega) (by rw [g1.2.2.1]; omega)
    simp only [forEachIndexedFrom, List.mem_cons, forall_eq_or_imp]
    refine ⟨?_, ?_, ?_⟩
    · exact sameAttributes_trans _ _ _ _
        (sameAttributes_mono _ _ _ _ g1 (fun j (hj : j < i) => Nat.ne_of_lt hj))
        (sameAttributes_mono _ _ _ _ i1 (fun j (hj : j < i) => Nat.lt_succ_of_lt hj))
    · intro k group first hk hfirst
      cases k with
      | zero =>
        simp only [List.getElem?_cons_zero, Option.some.injEq] at hk
        subst hk
        obtain ⟨_, s2, s3⟩ := i1.2.2.2 i (Nat.lt_succ_self i)
        have hg := g2 first hfirst
        exact ⟨s2.trans hg.1, s3.trans hg.2⟩
      | succ k =>
        simp only [List.getElem?_cons_succ] at hk
        have := i2 k group first hk hfirst
        rw [show i + (k + 1) = i + 1 + k by omega]
        exact this
    · rw [i3, g3]
      exact and_assoc

theorem not_fitsFirst_iff (first h : Elf64_Shdr) (h1 : first.sh_flags < 2 ^ 64)
    (h2 : h.sh_flags < 2 ^ 64) : ¬ fitsFirst first h ↔ incompatibleWith first h := by
  unfold fitsFirst incompatibleWith
  rw [cleaned_eq_iff _ _ h2 h1]
  constructor
  · intro hn
    by_cases ht : h.sh_type = first.sh_type
    · right
      by_contra hd
      exact hn ⟨hd, ht⟩
    · exact Or.inl ht
  · rintro (ht | hd) ⟨h3, h4⟩
    · exact ht h4
    · exact h3 hd

theorem getElem?_of_lt_length (l : List Nat) (o : Nat) (h : o < l.length) :
    l[o]? = some (l.getD o 0) := by
  rw [List.getD_eq_getElem?_getD, List.getElem?_eq_getElem h, Option.getD_some]

/-- C26: when the number of distinct output section names is below the limit,
`initOutputSections` returns a status other than `ok` exactly when some group holds an
input section whose `sh_type` differs from that of the first input section of the group,
or whose `sh_flags` differ from those of the first in a bit other than `SHF_MERGE` and
`SHF_STRINGS`; the type of every output section is the type of its first input section,
and its alignment is the maximum `sh_addralign` of its input sections (on success as on
failure). -/
theorem initOutputSections_status_iff (sectionHeaders : List (List Elf64_Shdr))
    (sectionStringTables : List Memory)
    (hlimit : distinctOutputNames sectionHeaders sectionStringTables < SHN_LORESERVE - 4)
    (hflags : ∀ hs ∈ sectionHeaders, ∀ h ∈ hs, h.sh_flags < 2 ^ 64) :
    ((initOutputSections sectionHeaders sectionStringTables).status ≠ StatusCode.ok ↔
      ∃ (o : Nat) (group : List SectionRef) (first r : SectionRef),
        (initOutputSections sectionHeaders sectionStringTables).outputToInputSections[o]? =
          some group ∧
        group.head? = some first ∧ r ∈ group ∧
        incompatibleWith (headerOf sectionHeaders first) (headerOf sectionHeaders r)) ∧
    (∀ (o : Nat) (group : List SectionRef) (first : SectionRef),
      (initOutputSections sectionHeaders sectionStringTables).outputToInputSections[o]? =
        some group →
      group.head? = some first →
      (initOutputSections sectionHeaders sectionStringTables).types[o]? =
        some (headerOf sectionHeaders first).sh_type ∧
      (initOutputSections sectionHeaders sectionStringTables).alignments[o]? =
        some (maxAlignment sectionHeaders group)) := by
  have hlen := scanSections_length sectionHeaders sectionStringTables
  unfold initOutputSections
  simp only []
  rw [if_neg (by rw [hlen]; omega)]
  simp only []
  unfold forEachIndexed
  generalize (scanSections sectionHeaders sectionStringTables).sectionMap = m
  generalize (scanSections sectionHeaders sectionStringTables).inputToOutputSection = io
  obtain ⟨a1, a2, a3⟩ := attributeOfGroups sectionHeaders (m.map Prod.snd) 0
    { status := StatusCode.ok
      reported := []
      alignments := List.replicate (m.map Prod.fst).length 0
      types := List.replicate (m.map Prod.fst).length 0
      flags := List.replicate (m.map Prod.fst).length 0
      inputToOutputSection := io }
    (by simp) (by simp) (by simp)
  unfold forEachIndexed at a1 a2 a3
  refine ⟨?_, ?_⟩
  · rw [Ne, a3]
    simp only [true_and]
    constructor
    · intro hn
      by_contra hex
      apply hn
      intro group hgroup first hfirst r hr
      by_contra hfit
      obtain ⟨o, ho, hget⟩ := List.mem_iff_getElem.mp hgroup
      exact hex ⟨o, group, first, r, by rw [List.getElem?_eq_getElem ho, hget], hfirst, hr,
        (not_fitsFirst_iff _ _ (headerOf_flags_lt sectionHeaders hflags first)
          (headerOf_flags_lt sectionHeaders hflags r)).mp hfit⟩
    · rintro ⟨o, group, first, r, ho, hfirst, hr, hbad⟩ hall
      exact (not_fitsFirst_iff _ _ (headerOf_flags_lt sectionHeaders hflags first)
          (headerOf_flags_lt sectionHeaders hflags r)).mpr hbad
        (hall group (List.getElem?_mem ho) first hfirst r hr)
  · intro o group first ho hfirst
    have hlt : o < (m.map Prod.snd).length := by
      by_contra hn
      rw [List.getElem?_eq_none (by omega)] at ho
      exact nomatch ho
    obtain ⟨b1, b2⟩ := a2 o group first ho hfirst
    rw [Nat.zero_add] at b1 b2
    have hlt' : o < m.length := by simpa using hlt
    constructor
    · rw [getElem?_of_lt_length _ o (by rw [a1.2.1]; simpa using hlt'), b1]
    · rw [getElem?_of_lt_length _ o (by rw [a1.2.2.1]; simpa using hlt'), b2]

/-- C26 on two objects that each have one section named `a`, the second with `SHF_MERGE`
and the alignment 8: the status is `ok`, the type is `SHT_PROGBITS` and the alignment 8. -/
theorem initOutputSections_status_iff_witness :
    distinctOutputNames mergeFlagHeaders [manySectionNames 1, manySectionNames 1] <
      SHN_LORESERVE - 4 ∧
    (∀ hs ∈ mergeFlagHeaders, ∀ h ∈ hs, h.sh_flags < 2 ^ 64) ∧
    (initOutputSections mergeFlagHeaders
      [manySectionNames 1, manySectionNames 1]).outputToInputSections = [[⟨0, 1⟩, ⟨1, 1⟩]] ∧
    (initOutputSections mergeFlagHeaders
      [manySectionNames 1, manySectionNames 1]).status = StatusCode.ok ∧
    (initOutputSections mergeFlagHeaders
      [manySectionNames 1, manySectionNames 1]).types[0]? = some SHT_PROGBITS ∧
    (initOutputSections mergeFlagHeaders
      [manySectionNames 1, manySectionNames 1]).alignments[0]? = some 8 := by
  have h1 : distinctOutputNames mergeFlagHeaders [manySectionNames 1, manySectionNames 1] <
      SHN_LORESERVE - 4 := by decide
  have h2 : ∀ hs ∈ mergeFlagHeaders, ∀ h ∈ hs, h.sh_flags < 2 ^ 64 := by decide
  have h := (initOutputSections_status_iff mergeFlagHeaders
    [manySectionNames 1, manySectionNames 1] h1 h2).2 0 [⟨0, 1⟩, ⟨1, 1⟩] ⟨0, 1⟩ (by decide)
    (by decide)
  exact ⟨h1, h2, by decide, by decide, h.1, h.2⟩

/-! ## The placement of the input sections by `initOutputSections` -/

theorem scanHeader_sectionMap (stringTable : Memory) (inputIndex : Nat) (st : InitScan)
    (header : Elf64_Shdr) (headerIndex : Nat) :
    (scanHeader stringTable inputIndex st header headerIndex).sectionMap =
      (if sectionTypeReachesOutput header.sh_type = true then
        SectionMap.push st.sectionMap (toOutputSectionName (cstrAt stringTable header.sh_name))
          ⟨inputIndex, headerIndex⟩
      else st.sectionMap) ∧
    (scanHeader stringTable inputIndex st header headerIndex).inputToOutputSection =
      st.inputToOutputSection := by
  unfold scanHeader
  simp only []
  cases hr : sectionTypeReachesOutput header.sh_type with
  | false =>
    simp only [Bool.not_false, if_true, Bool.false_eq_true, if_false]
    split_ifs <;> exact ⟨rfl, rfl⟩
  | true =>
    simp only [Bool.not_true, Bool.false_eq_true, if_false, if_true]
    split_ifs <;> exact ⟨rfl, rfl⟩

theorem scanHeaders_sectionMap (stringTable : Memory) (inputIndex : Nat)
    (headers : List Elf64_Shdr) (j : Nat) (st : InitScan) :
    (forEachIndexedFrom (scanHeader stringTable inputIndex) j headers st).sectionMap =
      (pushesOf stringTable inputIndex j headers).foldl (fun m p => SectionMap.push m p.1 p.2)
        st.sectionMap ∧
    (forEachIndexedFrom (scanHeader stringTable inputIndex) j headers st).inputToOutputSection =
      st.inputToOutputSection := by
  induction headers generalizing j st with
  | nil => exact ⟨rfl, rfl⟩
  | cons h hs ih =>
    obtain ⟨i1, i2⟩ := ih (j + 1) (scanHeader stringTable inputIndex st h j)
    obtain ⟨s1, s2⟩ := scanHeader_sectionMap stringTable inputIndex st h j
    simp only [forEachIndexedFrom, pushesOf, List.foldl_append]
    rw [i1, i2, s1, s2]
    refine ⟨?_, rfl⟩
    cases hr : sectionTypeReachesOutput h.sh_type with
    | false => simp
    | true => simp

theorem scanInput_sectionMap (sectionStringTables : List Memory) (st : InitScan)
    (headers : List Elf64_Shdr) (i : Nat) :
    (scanInput sectionStringTables st headers i).sectionMap =
      (pushesOf (sectionStringTables.getD i []) i 0 headers).foldl
        (fun m p => SectionMap.push m p.1 p.2) st.sectionMap ∧
    (scanInput sectionStringTables st headers i).inputToOutputSection =
      st.inputToOutputSection.set i (List.replicate headers.length notAnOutputSection) := by
  unfold scanInput forEachIndexed
  obtain ⟨h1, h2⟩ := scanHeaders_sectionMap (sectionStringTables.getD i []) i headers 0
    { st with
      inputToOutputSection :=
        st.inputToOutputSection.set i (List.replicate headers.length notAnOutputSection) }
  exact ⟨h1, h2⟩

theorem scanInputs_sectionMap (sectionStringTables : List Memory)
    (sectionHeaders : List (List Elf64_Shdr)) (i : Nat) (st : InitScan)
    (hlen : i + sectionHeaders.length ≤ st.inputToOutputSection.length) :
    (forEachIndexedFrom (scanInput sectionStringTables) i sectionHeaders st).sectionMap =
      (pushesFrom sectionStringTables i sectionHeaders).foldl
        (fun m p => SectionMap.push m p.1 p.2) st.sectionMap ∧
    (forEachIndexedFrom (scanInput sectionStringTables) i sectionHeaders
      st).inputToOutputSection.length = st.inputToOutputSection.length ∧
    (∀ (k : Nat) (hs : List Elf64_Shdr), sectionHeaders[k]? = some hs →
      (forEachIndexedFrom (scanInput sectionStringTables) i sectionHeaders
        st).inputToOutputSection.getD (i + k) [] =
          List.replicate hs.length notAnOutputSection) ∧
    (∀ j, j < i →
      (forEachIndexedFrom (scanInput sectionStringTables) i sectionHeaders
        st).inputToOutputSection.getD j [] = st.inputToOutputSection.getD j []) := by
  induction sectionHeaders generalizing i st with
  | nil =>
    simp only [forEachIndexedFrom, pushesFrom, List.foldl_nil, List.getElem?_nil, reduceCtorEq,
      false_implies, implies_true, and_self]
  | cons headers rest ih =>
    simp only [List.length_cons] at hlen
    obtain ⟨s1, s2⟩ := scanInput_sectionMap sectionStringTables st headers i
    obtain ⟨i1, i2, i3, i4⟩ := ih (i + 1) (scanInput sectionStringTables st headers i)
      (by rw [s2, List.length_set]; omega)
    simp only [forEachIndexedFrom, pushesFrom, List.foldl_append]
    refine ⟨by rw [i1, s1], by rw [i2, s2, List.length_set], ?_, ?_⟩
    · intro k hs hk
      cases k with
      | zero =>
        simp only [List.getElem?_cons_zero, Option.some.injEq] at hk
        subst hk
        have := i4 i (Nat.lt_succ_self i)
        rw [s2, getD_set_self _ _ _ _ (by omega)] at this
        exact this
      | succ k =>
        simp only [List.getElem?_cons_succ] at hk
        have := i3 k hs hk
        rw [show i + (k + 1) = i + 1 + k by omega]
        exact this
    · intro j hj
      rw [i4 j (by omega), s2, getD_set_ne _ _ _ _ _ (by omega)]

theorem scanSections_sectionMap (sectionHeaders : List (List Elf64_Shdr))
    (sectionStringTables : List Memory) :
    (scanSections sectionHeaders sectionStringTables).sectionMap =
      (pushesFrom sectionStringTables 0 sectionHeaders).foldl
        (fun m p => SectionMap.push m p.1 p.2) [] ∧
    (scanSections sectionHeaders sectionStringTables).inputToOutputSection.length =
      sectionHeaders.length ∧
    (∀ (k : Nat) (hs : List Elf64_Shdr), sectionHeaders[k]? = some hs →
      (scanSections sectionHeaders sectionStringTables).inputToOutputSection.getD k [] =
        List.replicate hs.length notAnOutputSection) := by
  unfold scanSections forEachIndexed
  obtain ⟨h1, h2, h3, _⟩ := scanInputs_sectionMap sectionStringTables sectionHeaders 0
    { inputToOutputSection := List.replicate sectionHeaders.length []
      totalNumberOfLocalSymbols := 0
      totalStringTableMemorySize := 0
      sectionMap := [] } (by simp)
  refine ⟨h1, by rw [h2]; simp, ?_⟩
  intro k hs hk
  have := h3 k hs hk
  rw [Nat.zero_add] at this
  exact this

theorem SectionMap.refsOf_push (m : SectionMap) (n : Name) (r : SectionRef) (k : Name) :
    SectionMap.refsOf (SectionMap.push m n r) k =
      if n = k then SectionMap.refsOf m k ++ [r] else SectionMap.refsOf m k := by
  induction m with
  | nil =>
    simp only [SectionMap.push, SectionMap.refsOf, List.nil_append]
  | cons p rest ih =>
    obtain ⟨k1, refs⟩ := p
    simp only [SectionMap.push]
    by_cases h1 : k1 = n
    · subst h1
      simp only [if_true, SectionMap.refsOf]
      split_ifs <;> rfl
    · simp only [if_neg h1, SectionMap.refsOf, ih]
      by_cases h2 : k1 = k
      · have h3 : ¬ n = k := fun h => h1 (h2.trans h.symm)
        simp only [if_pos h2, if_neg h3]
      · simp only [if_neg h2]

theorem SectionMap.refsOf_foldl (L : List (Name × SectionRef)) (m : SectionMap) (k : Name) :
    SectionMap.refsOf (L.foldl (fun m p => SectionMap.push m p.1 p.2) m) k =
      SectionMap.refsOf m k ++ (L.filter (fun p => decide (p.1 = k))).map Prod.snd := by
  induction L generalizing m with
  | nil => simp
  | cons p L ih =>
    simp only [List.foldl_cons, ih, SectionMap.refsOf_push, List.filter_cons]
    by_cases h : p.1 = k
    · simp [h]
    · simp [h]

theorem SectionMap.keys_foldl (L : List (Name × SectionRef)) (m : SectionMap) :
    (L.foldl (fun m p => SectionMap.push m p.1 p.2) m).map Prod.fst =
      (L.map Prod.fst).foldl addKey (m.map Prod.fst) := by
  induction L generalizing m with
  | nil => rfl
  | cons p L ih => simp only [List.foldl_cons, List.map_cons, ih, SectionMap.keys_push]

theorem SectionMap.refsOf_of_getElem? (m : SectionMap) (hnodup : (m.map Prod.fst).Nodup)
    (o : Nat) (k : Name) (refs : List SectionRef) (h : m[o]? = some (k, refs)) :
    SectionMap.refsOf m k = refs := by
  induction m generalizing o with
  | nil => simp at h
  | cons p rest ih =>
    obtain ⟨k1, refs1⟩ := p
    simp only [List.map_cons, List.nodup_cons] at hnodup
    cases o with
    | zero =>
      simp only [List.getElem?_cons_zero, Option.some.injEq, Prod.mk.injEq] at h
      simp only [SectionMap.refsOf, if_pos h.1, h.2]
    | succ o =>
      simp only [List.getElem?_cons_succ] at h
      have hmem : k ∈ rest.map Prod.fst :=
        List.mem_map.mpr ⟨(k, refs), List.getElem?_mem h, rfl⟩
      have hne : ¬ k1 = k := fun hk => hnodup.1 (hk ▸ hmem)
      simp only [SectionMap.refsOf, if_neg hne]
      exact ih hnodup.2 o h

theorem mem_pushesOf (stringTable : Memory) (inputIndex : Nat) (headers : List Elf64_Shdr)
    (j : Nat) (k : Name) (r : SectionRef) :
    (k, r) ∈ pushesOf stringTable inputIndex j headers ↔
      r.elfIndex = inputIndex ∧ j ≤ r.headerIndex ∧
      ∃ h, headers[r.headerIndex - j]? = some h ∧ sectionTypeReachesOutput h.sh_type = true ∧
        k = toOutputSectionName (cstrAt stringTable h.sh_name) := by
  induction headers generalizing j with
  | nil => simp [pushesOf]
  | cons h hs ih =>
    simp only [pushesOf, List.mem_append, ih]
    constructor
    · rintro (h1 | ⟨h1, h2, h3, h4, h5, h6⟩)
      · split_ifs at h1 with hr
        · simp only [List.mem_singleton, Prod.mk.injEq] at h1
          obtain ⟨hk, hr1⟩ := h1
          subst hr1
          exact ⟨rfl, Nat.le_refl _, h, by simp, hr, hk⟩
        · simp at h1
      · refine ⟨h1, by omega, h3, ?_, h5, h6⟩
        rw [show r.headerIndex - j = (r.headerIndex - (j + 1)) + 1 by omega]
        simpa using h4
    · rintro ⟨h1, h2, h3, h4, h5, h6⟩
      by_cases hj : r.headerIndex = j
      · left
        rw [hj, Nat.sub_self] at h4
        simp only [List.getElem?_cons_zero, Option.some.injEq] at h4
        subst h4
        rw [if_pos h5]
        simp only [List.mem_singleton, Prod.mk.injEq]
        refine ⟨h6, ?_⟩
        cases r
        simp only [SectionRef.mk.injEq]
        exact ⟨h1, hj⟩
      · right
        refine ⟨h1, by omega, h3, ?_, h5, h6⟩
        rw [show r.headerIndex - j = (r.headerIndex - (j + 1)) + 1 by omega] at h4
        simpa using h4

theorem mem_pushesFrom (sectionStringTables : List Memory)
    (sectionHeaders : List (List Elf64_Shdr)) (i : Nat) (k : Name) (r : SectionRef) :
    (k, r) ∈ pushesFrom sectionStringTables i sectionHeaders ↔
      i ≤ r.elfIndex ∧
      ∃ hs h, sectionHeaders[r.elfIndex - i]? = some hs ∧ hs[r.headerIndex]? = some h ∧
        sectionTypeReachesOutput h.sh_type = true ∧
        k = toOutputSectionName (cstrAt (sectionStringTables.getD r.elfIndex []) h.sh_name) := by
  induction sectionHeaders generalizing i with
  | nil => simp [pushesFrom]
  | cons headers rest ih =>
    simp only [pushesFrom, List.mem_append, ih, mem_pushesOf]
    constructor
    · rintro (⟨h1, _, h, h3, h4, h5⟩ | ⟨h1, hs, h, h2, h3, h4, h5⟩)
      · refine ⟨by omega, headers, h, ?_, by simpa using h3, h4, by rw [h1]; exact h5⟩
        rw [h1, Nat.sub_self]
        simp
      · refine ⟨by omega, hs, h, ?_, h3, h4, h5⟩
        rw [show r.elfIndex - i = (r.elfIndex - (i + 1)) + 1 by omega]
        simpa using h2
    · rintro ⟨h1, hs, h, h2, h3, h4, h5⟩
      by_cases hi : r.elfIndex = i
      · left
        rw [hi, Nat.sub_self] at h2
        simp only [List.getElem?_cons_zero, Option.some.injEq] at h2
        subst h2
        exact ⟨hi, Nat.zero_le _, h, by simpa using h3, h4, by rw [← hi]; exact h5⟩
      · right
        refine ⟨by omega, hs, h, ?_, h3, h4, h5⟩
        rw [show r.elfIndex - i = (r.elfIndex - (i + 1)) + 1 by omega] at h2
        simpa using h2

theorem pushesOf_nodup (stringTable : Memory) (inputIndex : Nat) (headers : List Elf64_Shdr)
    (j : Nat) :
    ((pushesOf stringTable inputIndex j headers).map Prod.snd).Nodup ∧
    ∀ r ∈ (pushesOf stringTable inputIndex j headers).map Prod.snd,
      r.elfIndex = inputIndex ∧ j ≤ r.headerIndex := by
  induction headers generalizing j with
  | nil => simp [pushesOf]
  | cons h hs ih =>
    obtain ⟨i1, i2⟩ := ih (j + 1)
    simp only [pushesOf, List.map_append]
    constructor
    · refine List.Nodup.append ?_ i1 ?_
      · split_ifs <;> simp
      · intro r hr1 hr2
        have := (i2 r hr2).2
        split_ifs at hr1
        · simp only [List.map_cons, List.map_nil, List.mem_singleton] at hr1
          rw [hr1] at this
          simp only at this
          omega
        · simp at hr1
    · intro r hr
      rcases List.mem_append.mp hr with hr | hr
      · split_ifs at hr
        · simp only [List.map_cons, List.map_nil, List.mem_singleton] at hr
          rw [hr]
          exact ⟨rfl, Nat.le_refl _⟩
        · simp at hr
      · exact ⟨(i2 r hr).1, by have := (i2 r hr).2; omega⟩

theorem pushesFrom_nodup (sectionStringTables : List Memory)
    (sectionHeaders : List (List Elf64_Shdr)) (i : Nat) :
    ((pushesFrom sectionStringTables i sectionHeaders).map Prod.snd).Nodup ∧
    ∀ r ∈ (pushesFrom sectionStringTables i sectionHeaders).map Prod.snd, i ≤ r.elfIndex := by
  induction sectionHeaders generalizing i with
  | nil => simp [pushesFrom]
  | cons headers rest ih =>
    obtain ⟨i1, i2⟩ := ih (i + 1)
    obtain ⟨p1, p2⟩ := pushesOf_nodup (sectionStringTables.getD i []) i headers 0
    simp only [pushesFrom, List.map_append]
    constructor
    · refine List.Nodup.append p1 i1 ?_
      intro r hr1 hr2
      have h1 := (p2 r hr1).1
      have h2 := i2 r hr2
      omega
    · intro r hr
      rcases List.mem_append.mp hr with hr | hr
      · exact Nat.le_of_eq (p2 r hr).1.symm
      · have := i2 r hr
        omega

theorem attributeOfSection_linkBack (sectionHeaders : List (List Elf64_Shdr)) (o : Nat)
    (st : InitAttributes) (r : SectionRef) (k : Nat) :
    (attributeOfSection sectionHeaders o st r k).inputToOutputSection =
      set2D st.inputToOutputSection r.elfIndex r.headerIndex o := by
  unfold attributeOfSection
  simp only []
  split_ifs <;> rfl

theorem attributeOfSections_linkBack (sectionHeaders : List (List Elf64_Shdr)) (o : Nat)
    (refs : List SectionRef) (i : Nat) (st : InitAttributes) :
    (forEachIndexedFrom (attributeOfSection sectionHeaders o) i refs st).inputToOutputSection =
      linkBack st.inputToOutputSection o refs := by
  induction refs generalizing i st with
  | nil => rfl
  | cons r rs ih =>
    simp only [forEachIndexedFrom, linkBack, List.foldl_cons]
    rw [ih, attributeOfSection_linkBack]
    rfl

theorem attributeOfGroups_linkBack (sectionHeaders : List (List Elf64_Shdr))
    (G : List (List SectionRef)) (i : Nat) (st : InitAttributes) :
    (forEachIndexedFrom (fun st inputSections outSecID =>
      forEachIndexed inputSections (attributeOfSection sectionHeaders outSecID) st)
        i G st).inputToOutputSection = linkBackFrom st.inputToOutputSection i G := by
  induction G generalizing i st with
  | nil => rfl
  | cons g G ih =>
    simp only [forEachIndexedFrom, linkBackFrom]
    rw [ih]
    unfold forEachIndexed
    rw [attributeOfSections_linkBack]

theorem linkBack_shape (v : List (List Nat)) (o : Nat) (refs : List SectionRef) :
    (linkBack v o refs).length = v.length ∧
    ∀ e, ((linkBack v o refs).getD e []).length = (v.getD e []).length := by
  induction refs generalizing v with
  | nil => exact ⟨rfl, fun _ => rfl⟩
  | cons r rs ih =>
    obtain ⟨i1, i2⟩ := ih (set2D v r.elfIndex r.headerIndex o)
    simp only [linkBack, List.foldl_cons] at i1 i2 ⊢
    refine ⟨by rw [i1, set2D_length], fun e => ?_⟩
    rw [i2 e, set2D_width]

theorem linkBackFrom_shape (v : List (List Nat)) (i : Nat) (G : List (List SectionRef)) :
    (linkBackFrom v i G).length = v.length ∧
    ∀ e, ((linkBackFrom v i G).getD e []).length = (v.getD e []).length := by
  induction G generalizing v i with
  | nil => exact ⟨rfl, fun _ => rfl⟩
  | cons g G ih =>
    obtain ⟨i1, i2⟩ := ih (linkBack v i g) (i + 1)
    obtain ⟨s1, s2⟩ := linkBack_shape v i g
    simp only [linkBackFrom]
    exact ⟨by rw [i1, s1], fun e => by rw [i2 e, s2 e]⟩

theorem get2D_linkBack (v : List (List Nat)) (o : Nat) (refs : List SectionRef) (e h : Nat)
    (he : e < v.length) (hh : h < (v.getD e []).length) :
    get2D (linkBack v o refs) e h = if (⟨e, h⟩ : SectionRef) ∈ refs then o else get2D v e h := by
  induction refs generalizing v with
  | nil => simp [linkBack]
  | cons r rs ih =>
    have := ih (set2D v r.elfIndex r.headerIndex o) (by rw [set2D_length]; exact he)
      (by rw [set2D_width]; exact hh)
    simp only [linkBack, List.foldl_cons] at this ⊢
    rw [this]
    by_cases hrs : (⟨e, h⟩ : SectionRef) ∈ rs
    · simp [hrs]
    · rw [if_neg hrs]
      by_cases hr : (⟨e, h⟩ : SectionRef) = r
      · rw [if_pos (List.mem_cons.mpr (Or.inl hr)), ← hr]
        exact get2D_set2D_self v e h o he hh
      · rw [if_neg (fun hm => (List.mem_cons.mp hm).elim hr hrs)]
        apply get2D_set2D_ne
        rintro ⟨h1, h2⟩
        apply hr
        cases r
        simp only [SectionRef.mk.injEq]
        exact ⟨h1.symm, h2.symm⟩

theorem get2D_linkBackFrom_absent (v : List (List Nat)) (i : Nat) (G : List (List SectionRef))
    (e h : Nat) (he : e < v.length) (hh : h < (v.getD e []).length)
    (habsent : ∀ g ∈ G, (⟨e, h⟩ : SectionRef) ∉ g) :
    get2D (linkBackFrom v i G) e h = get2D v e h := by
  induction G generalizing v i with
  | nil => rfl
  | cons g G ih =>
    obtain ⟨s1, s2⟩ := linkBack_shape v i g
    simp only [linkBackFrom]
    rw [ih (linkBack v i g) (i + 1) (by rw [s1]; exact he) (by rw [s2]; exact hh)
      (fun g1 hg1 => habsent g1 (List.mem_cons_of_mem _ hg1)),
      get2D_linkBack v i g e h he hh, if_neg (habsent g (List.mem_cons_self _ _))]

theorem get2D_linkBackFrom_present (v : List (List Nat)) (i : Nat) (G : List (List SectionRef))
    (e h : Nat) (he : e < v.length) (hh : h < (v.getD e []).length) (k : Nat)
    (g : List SectionRef) (hk : G[k]? = some g) (hmem : (⟨e, h⟩ : SectionRef) ∈ g)
    (hunique : ∀ (k1 : Nat) (g1 : List SectionRef), G[k1]? = some g1 →
      (⟨e, h⟩ : SectionRef) ∈ g1 → k1 = k) :
    get2D (linkBackFrom v i G) e h = i + k := by
  induction G generalizing v i k with
  | nil => simp at hk
  | cons g0 G ih =>
    obtain ⟨s1, s2⟩ := linkBack_shape v i g0
    simp only [linkBackFrom]
    cases k with
    | zero =>
      simp only [List.getElem?_cons_zero, Option.some.injEq] at hk
      subst hk
      rw [get2D_linkBackFrom_absent _ _ _ e h (by rw [s1]; exact he) (by rw [s2]; exact hh),
        get2D_linkBack v i g0 e h he hh, if_pos hmem]
      · rfl
      · intro g1 hg1 hin
        obtain ⟨k1, hk1, hget⟩ := List.mem_iff_getElem.mp hg1
        have := hunique (k1 + 1) g1 (by simp [List.getElem?_eq_getElem hk1, hget]) hin
        omega
    | succ k =>
      simp only [List.getElem?_cons_succ] at hk
      rw [ih (linkBack v i g0) (i + 1) (by rw [s1]; exact he) (by rw [s2]; exact hh) k hk]
      · omega
      · intro k1 g1 hk1 hin
        have := hunique (k1 + 1) g1 (by simpa using hk1) hin
        omega

theorem getElem?_of_get2D (v : List (List Nat)) (e h : Nat) (he : e < v.length)
    (hh : h < (v.getD e []).length) :
    ∃ row, v[e]? = some row ∧ row[h]? = some (get2D v e h) := by
  unfold get2D
  have hrow : v.getD e [] = v[e] := by
    rw [List.getD_eq_getElem?_getD, List.getElem?_eq_getElem he, Option.getD_some]
  rw [hrow] at hh ⊢
  refine ⟨v[e], List.getElem?_eq_getElem he, ?_⟩
  rw [List.getD_eq_getElem?_getD, List.getElem?_eq_getElem hh, Option.getD_some]

theorem sectionTypeReachesOutput_iff (type : Nat) :
    sectionTypeReachesOutput type = true ↔
      type ∉ [SHT_NULL, SHT_STRTAB, SHT_SYMTAB, SHT_GROUP, SHT_REL, SHT_RELA] := by
  unfold sectionTypeReachesOutput
  simp

theorem initOutputSections_within_limit (sectionHeaders : List (List Elf64_Shdr))
    (sectionStringTables : List Memory)
    (hok : (initOutputSections sectionHeaders sectionStringTables).status = StatusCode.ok) :
    ¬ (scanSections sectionHeaders sectionStringTables).sectionMap.length ≥ SHN_LORESERVE - 4 := by
  intro hge
  unfold initOutputSections at hok
  simp only [] at hok
  rw [if_pos hge] at hok
  exact nomatch hok

theorem initOutputSections_fields (sectionHeaders : List (List Elf64_Shdr))
    (sectionStringTables : List Memory)
    (hlimit : ¬ (scanSections sectionHeaders sectionStringTables).sectionMap.length ≥
      SHN_LORESERVE - 4) :
    (initOutputSections sectionHeaders sectionStringTables).names =
      (scanSections sectionHeaders sectionStringTables).sectionMap.map Prod.fst ∧
    (initOutputSections sectionHeaders sectionStringTables).outputToInputSections =
      (scanSections sectionHeaders sectionStringTables).sectionMap.map Prod.snd ∧
    (initOutputSections sectionHeaders sectionStringTables).inputToOutputSection =
      linkBackFrom (scanSections sectionHeaders sectionStringTables).inputToOutputSection 0
        ((scanSections sectionHeaders sectionStringTables).sectionMap.map Prod.snd) := by
  unfold initOutputSections
  simp only []
  rw [if_neg hlimit]
  simp only [true_and]
  exact attributeOfGroups_linkBack sectionHeaders _ 0 _

/-- The groups of the section map that the first loop builds: the keys are distinct, and
the group of a key holds the sections pushed under that key, each once. -/
theorem scanSections_groups (sectionHeaders : List (List Elf64_Shdr))
    (sectionStringTables : List Memory) :
    ((scanSections sectionHeaders sectionStringTables).sectionMap.map Prod.fst).Nodup ∧
    (∀ (k : Name) (r : SectionRef),
      (k, r) ∈ pushesFrom sectionStringTables 0 sectionHeaders →
      k ∈ (scanSections sectionHeaders sectionStringTables).sectionMap.map Prod.fst) ∧
    (∀ (o : Nat) (k : Name) (refs : List SectionRef),
      (scanSections sectionHeaders sectionStringTables).sectionMap[o]? = some (k, refs) →
      refs.Nodup ∧
      ∀ r, r ∈ refs ↔ (k, r) ∈ pushesFrom sectionStringTables 0 sectionHeaders) := by
  obtain ⟨hm, _, _⟩ := scanSections_sectionMap sectionHeaders sectionStringTables
  have hkeys := SectionMap.keys_foldl (pushesFrom sectionStringTables 0 sectionHeaders) []
  rw [← hm] at hkeys
  have hnodup : ((scanSections sectionHeaders sectionStringTables).sectionMap.map
      Prod.fst).Nodup := by
    rw [hkeys]
    exact addKey_foldl_nodup _ _ List.nodup_nil
  refine ⟨hnodup, ?_, ?_⟩
  · intro k r hmem
    rw [hkeys, addKey_foldl_mem]
    exact Or.inr (List.mem_map.mpr ⟨(k, r), hmem, rfl⟩)
  · intro o k refs ho
    have href := SectionMap.refsOf_of_getElem? _ hnodup o k refs ho
    rw [hm, SectionMap.refsOf_foldl] at href
    simp only [SectionMap.refsOf, List.nil_append] at href
    rw [← href]
    constructor
    · exact List.Nodup.sublist (List.Sublist.map _ (List.filter_sublist _))
        (pushesFrom_nodup sectionStringTables sectionHeaders 0).1
    · intro r
      simp only [List.mem_map, List.mem_filter, decide_eq_true_eq]
      constructor
      · rintro ⟨⟨k1, r1⟩, ⟨h1, h2⟩, h3⟩
        simp only at h2 h3
        rw [← h2, ← h3]
        exact h1
      · intro h
        exact ⟨(k, r), ⟨h, rfl⟩, rfl⟩

/-- C25: after `initOutputSections` returns `ok`, the output section names are pairwise
distinct and there is one list of input sections for each name. Every input section whose
type is none of NULL, STRTAB, SYMTAB, GROUP, REL and RELA occurs once in the list
`outputToInputSections[o]` of the output section `o` whose name is its canonical name and
in no other list, and `inputToOutputSection[elf][hdr]` is `o`. Every input section of one
of the six types occurs in no list, and `inputToOutputSection[elf][hdr]` is
`notAnOutputSection`, which is `0xFFFF`. -/
theorem initOutputSections_placement (sectionHeaders : List (List Elf64_Shdr))
    (sectionStringTables : List Memory)
    (hok : (initOutputSections sectionHeaders sectionStringTables).status = StatusCode.ok) :
    (initOutputSections sectionHeaders sectionStringTables).names.Nodup ∧
    (initOutputSections sectionHeaders sectionStringTables).outputToInputSections.length =
      (initOutputSections sectionHeaders sectionStringTables).names.length ∧
    notAnOutputSection = 0xFFFF ∧
    ∀ (elf hdr : Nat) (hs : List Elf64_Shdr) (h : Elf64_Shdr),
      sectionHeaders[elf]? = some hs → hs[hdr]? = some h →
      (h.sh_type ∉ [SHT_NULL, SHT_STRTAB, SHT_SYMTAB, SHT_GROUP, SHT_REL, SHT_RELA] →
        ∃ (o : Nat) (group : List SectionRef) (row : List Nat),
          (initOutputSections sectionHeaders sectionStringTables).names[o]? =
            some (toOutputSectionName (cstrAt (sectionStringTables.getD elf []) h.sh_name)) ∧
          (initOutputSections sectionHeaders sectionStringTables).outputToInputSections[o]? =
            some group ∧
          group.count ⟨elf, hdr⟩ = 1 ∧
          (∀ (o1 : Nat) (group1 : List SectionRef),
            (initOutputSections sectionHeaders sectionStringTables).outputToInputSections[o1]? =
              some group1 →
            (⟨elf, hdr⟩ : SectionRef) ∈ group1 → o1 = o) ∧
          (initOutputSections sectionHeaders sectionStringTables).inputToOutputSection[elf]? =
            some row ∧
          row[hdr]? = some o) ∧
      (h.sh_type ∈ [SHT_NULL, SHT_STRTAB, SHT_SYMTAB, SHT_GROUP, SHT_REL, SHT_RELA] →
        ∃ row : List Nat,
          (∀ (o1 : Nat) (group1 : List SectionRef),
            (initOutputSections sectionHeaders sectionStringTables).outputToInputSections[o1]? =
              some group1 →
            (⟨elf, hdr⟩ : SectionRef) ∉ group1) ∧
          (initOutputSections sectionHeaders sectionStringTables).inputToOutputSection[elf]? =
            some row ∧
          row[hdr]? = some notAnOutputSection) := by
  have hlimit := initOutputSections_within_limit sectionHeaders sectionStringTables hok
  obtain ⟨f1, f2, f3⟩ := initOutputSections_fields sectionHeaders sectionStringTables hlimit
  obtain ⟨g1, g2, g3⟩ := scanSections_groups sectionHeaders sectionStringTables
  obtain ⟨_, s2, s3⟩ := scanSections_sectionMap sectionHeaders sectionStringTables
  rw [f1, f2, f3]
  generalize (scanSections sectionHeaders sectionStringTables).sectionMap = m at *
  generalize (scanSections sectionHeaders sectionStringTables).inputToOutputSection = io at *
  refine ⟨g1, by simp, rfl, ?_⟩
  intro elf hdr hs h helf hhdr
  have he : elf < io.length := by
    rw [s2]
    by_contra hn
    rw [List.getElem?_eq_none (by omega)] at helf
    exact nomatch helf
  have hh : hdr < (io.getD elf []).length := by
    rw [s3 elf hs helf, List.length_replicate]
    by_contra hn
    rw [List.getElem?_eq_none (by omega)] at hhdr
    exact nomatch hhdr
  have hgroup : ∀ (o1 : Nat) (group1 : List SectionRef), (m.map Prod.snd)[o1]? = some group1 →
      ∃ k1, m[o1]? = some (k1, group1) := by
    intro o1 group1 ho1
    rw [List.getElem?_map] at ho1
    cases hm : m[o1]? with
    | none => rw [hm] at ho1; exact nomatch ho1
    | some p =>
      rw [hm] at ho1
      simp only [Option.map_some', Option.some.injEq] at ho1
      exact ⟨p.1, by rw [← ho1]⟩
  have hpushed : ∀ (k1 : Name), (k1, (⟨elf, hdr⟩ : SectionRef)) ∈
      pushesFrom sectionStringTables 0 sectionHeaders ↔
      sectionTypeReachesOutput h.sh_type = true ∧
      k1 = toOutputSectionName (cstrAt (sectionStringTables.getD elf []) h.sh_name) := by
    intro k1
    rw [mem_pushesFrom]
    simp only [Nat.zero_le, Nat.sub_zero, true_and, helf, Option.some.injEq]
    constructor
    · rintro ⟨hs1, h1, e1, e2, e3, e4⟩
      subst e1
      rw [hhdr] at e2
      simp only [Option.some.injEq] at e2
      subst e2
      exact ⟨e3, e4⟩
    · rintro ⟨e3, e4⟩
      exact ⟨hs, h, rfl, hhdr, e3, e4⟩
  obtain ⟨l1, l2⟩ := linkBackFrom_shape io 0 (m.map Prod.snd)
  obtain ⟨row, hrow1, hrow2⟩ := getElem?_of_get2D (linkBackFrom io 0 (m.map Prod.snd)) elf hdr
    (by rw [l1]; exact he) (by rw [l2]; exact hh)
  constructor
  · intro hreach
    have hr := (sectionTypeReachesOutput_iff h.sh_type).mpr hreach
    have hin := (hpushed _).mpr ⟨hr, rfl⟩
    have hkey := g2 _ _ hin
    obtain ⟨o, ho, hget⟩ := List.mem_iff_getElem.mp hkey
    have hname : (m.map Prod.fst)[o]? = some
        (toOutputSectionName (cstrAt (sectionStringTables.getD elf []) h.sh_name)) := by
      rw [List.getElem?_eq_getElem ho, hget]
    have ho' : o < m.length := by simpa using ho
    have hentry : m[o]? = some
        (toOutputSectionName (cstrAt (sectionStringTables.getD elf []) h.sh_name), m[o].2) := by
      rw [List.getElem?_eq_getElem ho']
      simp only [List.getElem_map] at hget
      rw [← hget]
    obtain ⟨n1, n2⟩ := g3 o _ _ hentry
    have hmem : (⟨elf, hdr⟩ : SectionRef) ∈ m[o].2 := (n2 _).mpr hin
    have hunique : ∀ (o1 : Nat) (group1 : List SectionRef),
        (m.map Prod.snd)[o1]? = some group1 → (⟨elf, hdr⟩ : SectionRef) ∈ group1 → o1 = o := by
      intro o1 group1 ho1 hmem1
      obtain ⟨k1, hk1⟩ := hgroup o1 group1 ho1
      have hk := ((hpushed k1).mp (((g3 o1 k1 group1 hk1).2 _).mp hmem1)).2
      have hname1 : (m.map Prod.fst)[o1]? = some
          (toOutputSectionName (cstrAt (sectionStringTables.getD elf []) h.sh_name)) := by
        rw [List.getElem?_map, hk1, ← hk]
        rfl
      have ho1lt : o1 < (m.map Prod.fst).length := by
        by_contra hn
        rw [List.getElem?_eq_none (by omega)] at hname1
        exact nomatch hname1
      rw [List.getElem?_eq_getElem ho1lt, Option.some.injEq] at hname1
      exact (List.Nodup.getElem_inj_iff g1).mp (hname1.trans hget.symm)
    refine ⟨o, m[o].2, row, hname, ?_, List.count_eq_one_of_mem n1 hmem, hunique, hrow1, ?_⟩
    · rw [List.getElem?_map, List.getElem?_eq_getElem ho']
      rfl
    · rw [hrow2, get2D_linkBackFrom_present io 0 (m.map Prod.snd) elf hdr he hh o m[o].2
        (by rw [List.getElem?_map, List.getElem?_eq_getElem ho']; rfl) hmem hunique, Nat.zero_add]
  · intro hskip
    have hr : ¬ sectionTypeReachesOutput h.sh_type = true :=
      fun hr => (sectionTypeReachesOutput_iff h.sh_type).mp hr hskip
    have habsent : ∀ (o1 : Nat) (group1 : List SectionRef),
        (m.map Prod.snd)[o1]? = some group1 → (⟨elf, hdr⟩ : SectionRef) ∉ group1 := by
      intro o1 group1 ho1 hmem1
      obtain ⟨k1, hk1⟩ := hgroup o1 group1 ho1
      exact hr ((hpushed k1).mp (((g3 o1 k1 group1 hk1).2 _).mp hmem1)).1
    refine ⟨row, habsent, hrow1, ?_⟩
    rw [hrow2, get2D_linkBackFrom_absent io 0 (m.map Prod.snd) elf hdr he hh]
    · unfold get2D
      rw [s3 elf hs helf, List.getD_eq_getElem?_getD, List.getElem?_replicate]
      rw [s3 elf hs helf, List.length_replicate] at hh
      simp [hh]
    · intro g hg
      obtain ⟨o1, ho1, hget1⟩ := List.mem_iff_getElem.mp hg
      exact habsent o1 g (by rw [List.getElem?_eq_getElem ho1, hget1])

/-- C25 on the same two objects: one output section `a` with the section 1 of each
object, and the null sections mapped to `notAnOutputSection`. -/
theorem initOutputSections_placement_witness :
    (initOutputSections mergeFlagHeaders
      [manySectionNames 1, manySectionNames 1]).status = StatusCode.ok ∧
    (initOutputSections mergeFlagHeaders
      [manySectionNames 1, manySectionNames 1]).names = [bytesOf "a"] ∧
    (initOutputSections mergeFlagHeaders
      [manySectionNames 1, manySectionNames 1]).names.Nodup ∧
    (initOutputSections mergeFlagHeaders
      [manySectionNames 1, manySectionNames 1]).outputToInputSections = [[⟨0, 1⟩, ⟨1, 1⟩]] ∧
    (initOutputSections mergeFlagHeaders
      [manySectionNames 1, manySectionNames 1]).inputToOutputSection =
        [[notAnOutputSection, 0], [notAnOutputSection, 0]] := by
  have hok : (initOutputSections mergeFlagHeaders
      [manySectionNames 1, manySectionNames 1]).status = StatusCode.ok := by decide
  exact ⟨hok, by decide,
    (initOutputSections_placement mergeFlagHeaders [manySectionNames 1, manySectionNames 1]
      hok).1, by decide, by decide⟩

/-! ## The global offset table in `preProcessesRelocations` -/

theorem gotIndexOf_eq_none_iff (m : List (Name × Nat)) (n : Name) :
    gotIndexOf m n = none ↔ n ∉ m.map Prod.fst := by
  induction m with
  | nil => simp [gotIndexOf]
  | cons p rest ih =>
    obtain ⟨k, i⟩ := p
    simp only [gotIndexOf, List.map_cons, List.mem_cons, not_or]
    by_cases h : k = n
    · simp [h]
    · rw [if_neg h, ih]
      exact ⟨fun h1 => ⟨fun h2 => h h2.symm, h1⟩, fun h1 => h1.2⟩

theorem gotIndexOf_eq_some (m : List (Name × Nat)) (n : Name) (i : Nat)
    (h : gotIndexOf m n = some i) : ∃ j : Nat, m[j]? = some (n, i) := by
  induction m with
  | nil => simp [gotIndexOf] at h
  | cons p rest ih =>
    obtain ⟨k, i1⟩ := p
    simp only [gotIndexOf] at h
    by_cases hk : k = n
    · rw [if_pos hk, Option.some.injEq] at h
      exact ⟨0, by simp [hk, h]⟩
    · rw [if_neg hk] at h
      obtain ⟨j, hj⟩ := ih h
      exact ⟨j + 1, by simpa using hj⟩

theorem GotRecord.append (got : Nat) (keys more : List Name) (name : Name)
    (rec : ProcessedRela) (h : GotRecord got keys name rec) :
    GotRecord got (keys ++ more) name rec := by
  obtain ⟨j, h1, h2, h3⟩ := h
  refine ⟨j, ?_, h2, h3⟩
  have hj : j < keys.length := by
    by_contra hn
    rw [List.getElem?_eq_none (by omega)] at h1
    exact nomatch h1
  rw [List.getElem?_append_left hj]
  exact h1

theorem addKey_extends (keys : List Name) (name : Name) : ∃ more, addKey keys name = keys ++ more := by
  unfold addKey
  split_ifs
  · exact ⟨[], by simp⟩
  · exact ⟨[name], rfl⟩

theorem addKey_foldl_extends (L keys : List Name) : ∃ more, L.foldl addKey keys = keys ++ more := by
  induction L generalizing keys with
  | nil => exact ⟨[], by simp⟩
  | cons n L ih =>
    obtain ⟨m1, h1⟩ := addKey_extends keys n
    obtain ⟨m2, h2⟩ := ih (addKey keys n)
    exact ⟨m1 ++ m2, by rw [List.foldl_cons, h2, h1, List.append_assoc]⟩

theorem addGOTEntry_got (symbolTable : SymbolTable) (got : Nat) (st : RelaState)
    (resRela : ProcessedRela) (name : Name)
    (htable : GotTable symbolTable st.symbolNamesThatNeedGOTEntries st.gotEntryPatches) :
    GotTable symbolTable
      (addGOTEntry got st resRela name (patchOf symbolTable name)).1.symbolNamesThatNeedGOTEntries
      (addGOTEntry got st resRela name (patchOf symbolTable name)).1.gotEntryPatches ∧
    (addGOTEntry got st resRela name
      (patchOf symbolTable name)).1.symbolNamesThatNeedGOTEntries.map Prod.fst =
        addKey (st.symbolNamesThatNeedGOTEntries.map Prod.fst) name ∧
    GotRecord got
      ((addGOTEntry got st resRela name
        (patchOf symbolTable name)).1.symbolNamesThatNeedGOTEntries.map Prod.fst) name
      (addGOTEntry got st resRela name (patchOf symbolTable name)).2 := by
  obtain ⟨t1, t2⟩ := htable
  unfold addGOTEntry
  simp only []
  cases hfind : gotIndexOf st.symbolNamesThatNeedGOTEntries name with
  | some index =>
    simp only []
    obtain ⟨j, hj⟩ := gotIndexOf_eq_some _ _ _ hfind
    have hmem : name ∈ st.symbolNamesThatNeedGOTEntries.map Prod.fst :=
      List.mem_map.mpr ⟨(name, index), List.getElem?_mem hj, rfl⟩
    have hjlt : j < st.symbolNamesThatNeedGOTEntries.length := by
      by_contra hn
      rw [List.getElem?_eq_none (by omega)] at hj
      exact nomatch hj
    have hidx : index = numReservedGotEntries + j := by
      have h1 : (st.symbolNamesThatNeedGOTEntries.map Prod.snd)[j]? = some index := by
        rw [List.getElem?_map, hj]
        rfl
      rw [t1, List.getElem?_range' _ _ hjlt] at h1
      simpa using h1.symm
    refine ⟨⟨t1, t2⟩, ?_, j, ?_, rfl, ?_⟩
    · unfold addKey
      rw [if_pos hmem]
    · rw [List.getElem?_map, hj]
      rfl
    · show index * sizeof_Elf64_Addr = 8 * (3 + j)
      rw [hidx]
      simp only [sizeof_Elf64_Addr, numReservedGotEntries]
      omega
  | none =>
    simp only []
    have hnot : name ∉ st.symbolNamesThatNeedGOTEntries.map Prod.fst :=
      (gotIndexOf_eq_none_iff _ _).mp hfind
    refine ⟨⟨?_, ?_⟩, ?_, st.symbolNamesThatNeedGOTEntries.length, ?_, rfl, ?_⟩
    · rw [List.map_append, t1, List.length_append, List.length_singleton, List.range'_concat]
      simp [Nat.add_comm]
    · rw [List.map_append, List.map_append, t2]
      rfl
    · unfold addKey
      rw [if_neg hnot, List.map_append]
      rfl
    · rw [List.map_append, List.getElem?_append_right (by simp)]
      simp
    · show (st.symbolNamesThatNeedGOTEntries.length + numReservedGotEntries) *
        sizeof_Elf64_Addr = 8 * (3 + st.symbolNamesThatNeedGOTEntries.length)
      simp only [sizeof_Elf64_Addr, numReservedGotEntries]
      omega

theorem GotStepSpec.push (symbolTable : SymbolTable) (got : Nat) (name : Name) (st : RelaState)
    (rec : ProcessedRela)
    (htable : GotTable symbolTable st.symbolNamesThatNeedGOTEntries st.gotEntryPatches) :
    GotStepSpec symbolTable got false name st
      (LoopStep.continue { st with processResults := st.processResults ++ [rec] }) := by
  intro hok
  exact ⟨hok, htable, rfl, rec, rfl, fun h => nomatch h⟩

theorem processLocalRela_got (symbolTable : SymbolTable) (got : Nat) (name : Name)
    (p : ProcessRelasIn) (st : RelaState) (rela : Elf64_Rela) (sym : Elf64_Sym)
    (htable : GotTable symbolTable st.symbolNamesThatNeedGOTEntries st.gotEntryPatches) :
    GotStepSpec symbolTable got false name st (processLocalRela p st rela sym) := by
  unfold processLocalRela
  simp only []
  split_ifs with h1 h2 h3
  · intro hok
    exact nomatch hok
  · exact h2
  · exact h3
  · exact GotStepSpec.push symbolTable got name st _ htable

theorem processDefinedRela_got (p : ProcessRelasIn) (st : RelaState) (sym : Elf64_Sym)
    (resRela : ProcessedRela) (symName : Name) (id : Nat) (symbol : Elf64_Sym)
    (htable : GotTable p.symbolTable st.symbolNamesThatNeedGOTEntries st.gotEntryPatches)
    (hpatch : patchOf p.symbolTable symName = ⟨id, symbol.st_shndx, symbol.st_value⟩) :
    GotStepSpec p.symbolTable p.gotSectionIndex (needsGOTEntry resRela.type) symName st
      (processDefinedRela p st sym resRela symName id symbol) := by
  unfold processDefinedRela
  simp only []
  by_cases h1 : symbol.st_shndx = SHN_XINDEX
  · rw [if_pos h1]
    intro hok
    exact nomatch hok
  · rw [if_neg h1]
    by_cases h2 : symbol.st_shndx ≠ SHN_ABS ∧
        (inputToOutputSectionOffset id symbol.st_shndx symbol.st_value
          p.inputSectionCopyCommands).1 ≠ StatusCode.ok
    · rw [if_pos h2]
      exact h2.2
    · rw [if_neg h2]
      have htype : (if symbol.st_shndx = SHN_ABS then
            ({ resRela with
                symbolSectionID := get2D p.inputToOutputSection id symbol.st_shndx,
                symbolValue := symbol.st_value, note := Note.absoluteValue } : ProcessedRela)
          else { resRela with
                symbolSectionID := get2D p.inputToOutputSection id symbol.st_shndx,
                symbolValue := (inputToOutputSectionOffset id symbol.st_shndx
                  symbol.st_value p.inputSectionCopyCommands).2 }).type = resRela.type := by
        split_ifs <;> rfl
      generalize (if symbol.st_shndx = SHN_ABS then
            ({ resRela with
                symbolSectionID := get2D p.inputToOutputSection id symbol.st_shndx,
                symbolValue := symbol.st_value, note := Note.absoluteValue } : ProcessedRela)
          else { resRela with
                symbolSectionID := get2D p.inputToOutputSection id symbol.st_shndx,
                symbolValue := (inputToOutputSectionOffset id symbol.st_shndx
                  symbol.st_value p.inputSectionCopyCommands).2 }) = r3 at htype ⊢
      rw [htype]
      cases hneeds : needsGOTEntry resRela.type with
      | true =>
        simp only [if_true]
        rw [← hpatch]
        obtain ⟨g1, g2, g3⟩ := addGOTEntry_got p.symbolTable p.gotSectionIndex st r3 symName
          htable
        intro hok
        refine ⟨?_, g1, g2, _, rfl, fun _ => g3⟩
        rw [← (addGOTEntry_status _ _ _ _ _).1]
        exact hok
      | false =>
        simp only [Bool.false_eq_true, if_false]
        split_ifs
        · exact GotStepSpec.push p.symbolTable p.gotSectionIndex symName st _ htable
        · exact GotStepSpec.push p.symbolTable p.gotSectionIndex symName st _ htable

theorem processGlobalRela_got (p : ProcessRelasIn) (st : RelaState) (rela : Elf64_Rela)
    (sym : Elf64_Sym)
    (htable : GotTable p.symbolTable st.symbolNamesThatNeedGOTEntries st.gotEntryPatches) :
    GotStepSpec p.symbolTable p.gotSectionIndex (needsGOTEntry (ELF64_R_TYPE rela.r_info))
      (cstrAt p.mem (p.symStringsOffset + sym.st_name)) st
      (processGlobalRela p st rela sym) := by
  unfold processGlobalRela
  simp only []
  by_cases h1 : (inputToOutputSectionOffset p.elfID p.headerID rela.r_offset
      p.inputSectionCopyCommands).1 ≠ StatusCode.ok
  · rw [if_pos h1]
    exact h1
  · rw [if_neg h1]
    cases hfind : SymbolTable.find p.symbolTable
        (cstrAt p.mem (p.symStringsOffset + sym.st_name)) with
    | none =>
      intro h
      exact nomatch h
    | some entry =>
      simp only []
      cases hload : entry.firstLoad.symbol with
      | none =>
        simp only []
        have hpatch : patchOf p.symbolTable (cstrAt p.mem (p.symStringsOffset + sym.st_name)) =
            ⟨0, SHN_UNDEF, 0⟩ := by
          unfold patchOf
          rw [hfind]
          simp only [hload]
        by_cases hweak : (!(ELF64_ST_BIND sym.st_info == STB_WEAK)) = true
        · rw [if_pos hweak]
          intro hok
          exact nomatch hok
        · rw [if_neg hweak]
          cases hneeds : needsGOTEntry (ELF64_R_TYPE rela.r_info) with
          | true =>
            simp only [if_true]
            rw [← hpatch]
            obtain ⟨g1, g2, g3⟩ := addGOTEntry_got p.symbolTable p.gotSectionIndex st
              { addend := rela.r_addend
                outputSectionOffset := (inputToOutputSectionOffset p.elfID p.headerID
                  rela.r_offset p.inputSectionCopyCommands).2
                symbolValue := 0
                type := ELF64_R_TYPE rela.r_info
                symbolSectionID := 0
                note := Note.undefinedWeak }
              (cstrAt p.mem (p.symStringsOffset + sym.st_name)) htable
            intro hok
            refine ⟨?_, g1, g2, _, rfl, fun _ => g3⟩
            rw [← (addGOTEntry_status _ _ _ _ _).1]
            exact hok
          | false =>
            simp only [Bool.false_eq_true, if_false]
            exact GotStepSpec.push p.symbolTable p.gotSectionIndex _ st _ htable
      | some symbol =>
        simp only []
        have hpatch : patchOf p.symbolTable (cstrAt p.mem (p.symStringsOffset + sym.st_name)) =
            ⟨entry.firstLoad.elfID, symbol.st_shndx, symbol.st_value⟩ := by
          unfold patchOf
          rw [hfind]
          simp only [hload]
        exact processDefinedRela_got p st sym _ _ entry.firstLoad.elfID symbol htable hpatch

theorem processRela_got (p : ProcessRelasIn) (st : RelaState) (rela : Elf64_Rela)
    (htable : GotTable p.symbolTable st.symbolNamesThatNeedGOTEntries st.gotEntryPatches) :
    GotStepSpec p.symbolTable p.gotSectionIndex (isGotRelocation p rela) (relaSymName p rela) st
      (processRela p st rela) := by
  unfold processRela
  simp only []
  by_cases hx : (linkedSymbol p rela).st_shndx = SHN_XINDEX
  · rw [if_pos hx]
    intro hok
    exact nomatch hok
  · rw [if_neg hx]
    by_cases habs : (linkedSymbol p rela).st_shndx = SHN_ABS
    · rw [if_pos habs]
      have hno : isGotRelocation p rela = false := by
        unfold isGotRelocation
        simp [habs]
      rw [hno]
      exact GotStepSpec.push p.symbolTable p.gotSectionIndex _ st _ htable
    · rw [if_neg habs]
      by_cases hlocal : ELF64_ST_BIND (linkedSymbol p rela).st_info = STB_LOCAL
      · rw [if_pos hlocal]
        have hno : isGotRelocation p rela = false := by
          unfold isGotRelocation
          simp [hlocal]
        rw [hno]
        exact processLocalRela_got p.symbolTable p.gotSectionIndex _ p st rela _ htable
      · rw [if_neg hlocal]
        have hyes : isGotRelocation p rela = needsGOTEntry (ELF64_R_TYPE rela.r_info) := by
          unfold isGotRelocation
          simp [hx, habs, hlocal]
        rw [hyes]
        exact processGlobalRela_got p st rela _ htable

theorem processRela_status_ok (p : ProcessRelasIn) (st st' : RelaState) (rela : Elf64_Rela)
    (hstep : processRela p st rela = LoopStep.continue st')
    (hok : st'.status = StatusCode.ok) : st.status = StatusCode.ok := by
  have h := processRela_spec p st rela
  rw [hstep] at h
  rcases h.2 with h1 | h1
  · rw [← h1]; exact hok
  · exact absurd hok h1.1

/-- The loop of `processRelas`: when it ends without an early return and with the status
`ok`, the GOT map has gained, in order, the names of the relocations that need a GOT entry,
and one record was appended for each relocation. -/
theorem processRelasLoop_got (p : ProcessRelasIn) (relas : List Elf64_Rela) (st : RelaState)
    (htable : st.status = StatusCode.ok →
      GotTable p.symbolTable st.symbolNamesThatNeedGOTEntries st.gotEntryPatches) :
    match (processRelasLoop p relas st).1 with
    | some code => code ≠ StatusCode.ok
    | none =>
      (processRelasLoop p relas st).2.status = StatusCode.ok →
        st.status = StatusCode.ok ∧
        GotTable p.symbolTable (processRelasLoop p relas st).2.symbolNamesThatNeedGOTEntries
          (processRelasLoop p relas st).2.gotEntryPatches ∧
        (processRelasLoop p relas st).2.symbolNamesThatNeedGOTEntries.map Prod.fst =
          ((relas.filter (isGotRelocation p)).map (relaSymName p)).foldl addKey
            (st.symbolNamesThatNeedGOTEntries.map Prod.fst) ∧
        ∃ recs, (processRelasLoop p relas st).2.processResults = st.processResults ++ recs ∧
          recs.length = relas.length ∧
          ∀ (k : Nat) (rela : Elf64_Rela), relas[k]? = some rela →
            isGotRelocation p rela = true →
            ∃ rec, recs[k]? = some rec ∧
              GotRecord p.gotSectionIndex
                ((processRelasLoop p relas st).2.symbolNamesThatNeedGOTEntries.map Prod.fst)
                (relaSymName p rela) rec := by
  induction relas generalizing st with
  | nil =>
    simp only [processRelasLoop]
    intro hok
    exact ⟨hok, htable hok, rfl, [], by simp, rfl, fun k rela hk => by simp at hk⟩
  | cons rela rest ih =>
    unfold processRelasLoop
    cases hs : processRela p st rela with
    | «return» code st1 =>
      have hspec := processRela_spec p st rela
      rw [hs] at hspec
      exact hspec.2.1
    | «continue» st1 =>
      simp only []
      have hstep : st1.status = StatusCode.ok → _ := fun hok1 => by
        have h := processRela_got p st rela (htable (processRela_status_ok p st st1 rela hs hok1))
        rw [hs] at h
        exact h hok1
      have ih1 := ih st1 (fun hok1 => (hstep hok1).2.1)
      cases hr : (processRelasLoop p rest st1).1 with
      | some code =>
        rw [hr] at ih1
        exact ih1
      | none =>
        rw [hr] at ih1
        simp only [] at ih1 ⊢
        intro hok
        obtain ⟨i1, i2, i3, recs, i4, i5, i6⟩ := ih1 hok
        obtain ⟨s1, _, s3, rec, s4, s5⟩ := hstep i1
        refine ⟨s1, i2, ?_, rec :: recs, ?_, by simp [i5], ?_⟩
        · rw [i3, s3, List.filter_cons]
          cases hg : isGotRelocation p rela <;> simp
        · rw [i4, s4, List.append_assoc]
          rfl
        · intro k r hk hg
          cases k with
          | zero =>
            simp only [List.getElem?_cons_zero, Option.some.injEq] at hk
            subst hk
            refine ⟨rec, by simp, ?_⟩
            obtain ⟨more, hmore⟩ := addKey_foldl_extends
              ((rest.filter (isGotRelocation p)).map (relaSymName p))
              (st1.symbolNamesThatNeedGOTEntries.map Prod.fst)
            rw [i3, hmore]
            exact GotRecord.append _ _ _ _ _ (s5 hg)
          | succ k =>
            simp only [List.getElem?_cons_succ] at hk ⊢
            exact i6 k r hk hg

theorem relasInto_append_single (calls : List RelaCall) (c : RelaCall) (o : Nat) :
    relasInto (calls ++ [c]) o =
      relasInto calls o ++
        (if c.outSectionID = o then c.relas.map (fun rela => (c.params, rela)) else []) := by
  unfold relasInto
  rw [List.filter_append, List.flatMap_append]
  congr 1
  by_cases h : c.outSectionID = o
  · simp [h, List.filter_cons]
  · simp [h, List.filter_cons]

theorem GotRecords.extend (got : Nat) (keys more : List Name) (calls : List RelaCall)
    (processedRelas : List (List ProcessedRela)) (c : RelaCall) (recs : List ProcessedRela)
    (hrec : GotRecords got keys calls processedRelas)
    (ho : c.outSectionID < processedRelas.length) (hlen : recs.length = c.relas.length)
    (hnew : ∀ (k : Nat) (rela : Elf64_Rela), c.relas[k]? = some rela →
      isGotRelocation c.params rela = true →
      ∃ rec, recs[k]? = some rec ∧
        GotRecord got (keys ++ more) (relaSymName c.params rela) rec) :
    GotRecords got (keys ++ more) (calls ++ [c])
      (processedRelas.set c.outSectionID (processedRelas.getD c.outSectionID [] ++ recs)) := by
  intro o holt
  rw [List.length_set] at holt
  obtain ⟨h1, h2⟩ := hrec o holt
  rw [relasInto_append_single]
  by_cases hoc : c.outSectionID = o
  · subst hoc
    rw [if_pos rfl, getD_set_self _ _ _ _ ho]
    refine ⟨by rw [List.length_append, List.length_append, List.length_map, h1, hlen], ?_⟩
    intro k p rela hk hg
    by_cases hklt : k < (relasInto calls c.outSectionID).length
    · rw [List.getElem?_append_left hklt] at hk
      obtain ⟨rec, r1, r2⟩ := h2 k p rela hk hg
      refine ⟨rec, ?_, GotRecord.append _ _ _ _ _ r2⟩
      rw [List.getElem?_append_left (by rw [h1]; exact hklt)]
      exact r1
    · rw [List.getElem?_append_right (by omega), List.getElem?_map] at hk
      cases hrela : c.relas[k - (relasInto calls c.outSectionID).length]? with
      | none => rw [hrela] at hk; exact nomatch hk
      | some rela1 =>
        rw [hrela] at hk
        simp only [Option.map_some', Option.some.injEq, Prod.mk.injEq] at hk
        obtain ⟨hp, hr⟩ := hk
        subst hp hr
        obtain ⟨rec, r1, r2⟩ := hnew _ _ hrela hg
        refine ⟨rec, ?_, r2⟩
        rw [List.getElem?_append_right (by rw [h1]; omega), h1]
        exact r1
  · rw [if_neg hoc, List.append_nil, getD_set_ne _ _ _ _ _ hoc]
    refine ⟨h1, ?_⟩
    intro k p rela hk hg
    obtain ⟨rec, r1, r2⟩ := h2 k p rela hk hg
    exact ⟨rec, r1, GotRecord.append _ _ _ _ _ r2⟩

theorem relaCallOf_eq_none (q : PreProcessIn) (e : ElfInput) (elfID : Nat) (header : Elf64_Shdr)
    (h : ¬ (header.sh_type = SHT_RELA ∧ header.sh_entsize = sizeof_Elf64_Rela ∧
      get2D q.inputToOutputSection elfID header.sh_info ≠ notAnOutputSection)) :
    relaCallOf q e elfID header = none := by
  unfold relaCallOf
  rw [if_neg h]

/-- One pass of the inner lambda of `preProcessesRelocations`. -/
theorem preProcessHeader_got (q : PreProcessIn) (e : ElfInput) (elfID : Nat)
    (st : PreProcessState) (header : Elf64_Shdr) (headerIndex : Nat) (calls : List RelaCall)
    (hrun : GotRun q calls st)
    (hvalid : ∀ c, relaCallOf q e elfID header = some c →
      c.outSectionID < q.numberOfOutputSections) :
    GotRun q (calls ++ (relaCallOf q e elfID header).toList)
      (preProcessHeader q e elfID st header headerIndex) := by
  unfold preProcessHeader
  by_cases h1 : header.sh_type ≠ SHT_RELA
  · rw [if_pos h1, relaCallOf_eq_none q e elfID header (fun h => h1 h.1)]
    simpa using hrun
  · rw [if_neg h1]
    by_cases h2 : header.sh_entsize ≠ sizeof_Elf64_Rela
    · rw [if_pos h2]
      intro hok
      exact nomatch hok
    · rw [if_neg h2]
      simp only []
      by_cases h3 : get2D q.inputToOutputSection elfID header.sh_info = notAnOutputSection
      · rw [if_pos h3, relaCallOf_eq_none q e elfID header (fun h => h.2.2 h3)]
        simpa using hrun
      · rw [if_neg h3]
        have hcall : relaCallOf q e elfID header =
            some ⟨get2D q.inputToOutputSection elfID header.sh_info,
              processRelasInOf q e elfID header, relasOf e header⟩ := by
          unfold relaCallOf
          rw [if_pos ⟨not_not.mp h1, not_not.mp h2, h3⟩]
        have hlt := hvalid _ hcall
        simp only [] at hlt
        rw [hcall, Option.toList_some]
        generalize get2D q.inputToOutputSection elfID header.sh_info = o at hlt ⊢
        intro hok
        have hloop := processRelasLoop_got (processRelasInOf q e elfID header)
          (relasOf e header)
          { status := StatusCode.ok
            processResults := st.processedRelas.getD o []
            symbolNamesThatNeedGOTEntries := st.symbolNamesThatNeedGOTEntries
            gotEntryPatches := st.gotEntryPatches
            reported := st.reported }
        unfold processRelas at hok ⊢
        simp only [] at hok ⊢
        generalize processRelasLoop (processRelasInOf q e elfID header) (relasOf e header)
          { status := StatusCode.ok
            processResults := st.processedRelas.getD o []
            symbolNamesThatNeedGOTEntries := st.symbolNamesThatNeedGOTEntries
            gotEntryPatches := st.gotEntryPatches
            reported := st.reported } = loop at hloop hok ⊢
        by_cases hr : loop.1.getD loop.2.status ≠ StatusCode.ok
        · rw [if_pos hr] at hok
          exact absurd hok hr
        · rw [if_neg hr] at hok ⊢
          simp only [] at hok ⊢
          obtain ⟨t1, t2, t3, t4⟩ := hrun hok
          have hloop1 := hloop (fun _ => t1)
          cases hcode : loop.1 with
          | some code =>
            rw [hcode] at hloop1 hr
            exact absurd (not_not.mp hr) hloop1
          | none =>
            rw [hcode] at hloop1 hr
            simp only [Option.getD_none, not_not] at hr
            obtain ⟨_, l2, l3, recs, l4, l5, l6⟩ := hloop1 hr
            simp only [] at l3 l4
            obtain ⟨more, hmore⟩ := addKey_foldl_extends
              (((relasOf e header).filter
                (isGotRelocation (processRelasInOf q e elfID header))).map
                  (relaSymName (processRelasInOf q e elfID header)))
              (st.symbolNamesThatNeedGOTEntries.map Prod.fst)
            refine ⟨l2, ?_, by rw [List.length_set]; exact t3, ?_⟩
            · rw [l3, t2]
              unfold firstOccurrences
              rw [List.flatMap_append, List.foldl_append]
              simp [gotNamesOf]
            · rw [l4, l3, hmore]
              have := GotRecords.extend q.gotSectionIndex
                (st.symbolNamesThatNeedGOTEntries.map Prod.fst) more calls st.processedRelas
                ⟨o, processRelasInOf q e elfID header, relasOf e header⟩ recs t4
                (by rw [t3]; exact hlt) l5
                (fun k rela hk hg => by
                  obtain ⟨rec, r1, r2⟩ := l6 k rela hk hg
                  rw [l3, hmore] at r2
                  exact ⟨rec, r1, r2⟩)
              exact this

theorem preProcessHeaders_got (q : PreProcessIn) (e : ElfInput) (elfID : Nat)
    (headers : List Elf64_Shdr) (i : Nat) (st : PreProcessState) (calls : List RelaCall)
    (hrun : GotRun q calls st)
    (hvalid : ∀ c ∈ headers.filterMap (relaCallOf q e elfID),
      c.outSectionID < q.numberOfOutputSections) :
    GotRun q (calls ++ headers.filterMap (relaCallOf q e elfID))
      (forEachIndexedFrom (preProcessHeader q e elfID) i headers st) := by
  induction headers generalizing i st calls with
  | nil => simpa [forEachIndexedFrom] using hrun
  | cons h hs ih =>
    have hstep := preProcessHeader_got q e elfID st h i calls hrun (fun c hc =>
      hvalid c (by
        rw [List.filterMap_cons, hc]
        exact List.mem_cons_self _ _))
    have hrest := ih (i + 1) (preProcessHeader q e elfID st h i)
      (calls ++ (relaCallOf q e elfID h).toList) hstep (fun c hc =>
        hvalid c (by
          rw [List.filterMap_cons]
          cases relaCallOf q e elfID h with
          | none => exact hc
          | some c1 => exact List.mem_cons_of_mem _ hc))
    simp only [forEachIndexedFrom]
    have hcalls : calls ++ (h :: hs).filterMap (relaCallOf q e elfID) =
        calls ++ (relaCallOf q e elfID h).toList ++ hs.filterMap (relaCallOf q e elfID) := by
      rw [List.filterMap_cons]
      cases relaCallOf q e elfID h <;> simp
    rw [hcalls]
    exact hrest

theorem preProcessInputs_got (q : PreProcessIn) (inputs : List ElfInput) (i : Nat)
    (st : PreProcessState) (calls : List RelaCall) (hrun : GotRun q calls st)
    (hvalid : ∀ c ∈ relaCallsFrom q i inputs, c.outSectionID < q.numberOfOutputSections) :
    GotRun q (calls ++ relaCallsFrom q i inputs)
      (forEachIndexedFrom (preProcessInput q) i inputs st) := by
  induction inputs generalizing i st calls with
  | nil => simpa [forEachIndexedFrom, relaCallsFrom] using hrun
  | cons e rest ih =>
    simp only [relaCallsFrom, List.mem_append] at hvalid
    have hstep := preProcessHeaders_got q e i e.headers 0 st calls hrun
      (fun c hc => hvalid c (Or.inl hc))
    have hrest := ih (i + 1) (preProcessInput q st e i)
      (calls ++ e.headers.filterMap (relaCallOf q e i)) hstep
      (fun c hc => hvalid c (Or.inr hc))
    simp only [forEachIndexedFrom, relaCallsFrom, ← List.append_assoc]
    exact hrest

theorem preProcessesRelocations_gotRun (inputs : List ElfInput) (q : PreProcessIn)
    (hvalid : ∀ c ∈ relaCallsFrom q 0 inputs, c.outSectionID < q.numberOfOutputSections) :
    GotRun q (relaCallsFrom q 0 inputs) (preProcessesRelocations inputs q) := by
  have h := preProcessInputs_got q inputs 0
    { status := StatusCode.ok
      processedRelas := List.replicate q.numberOfOutputSections []
      symbolNamesThatNeedGOTEntries := []
      gotEntryPatches := []
      reported := [] } [] (by
        intro _
        refine ⟨⟨rfl, rfl⟩, rfl, by simp, ?_⟩
        intro o ho
        simp only [List.length_replicate] at ho
        refine ⟨?_, fun k p rela hk => by simp [relasInto] at hk⟩
        rw [List.getD_eq_getElem?_getD, List.getElem?_replicate]
        simp [ho, relasInto]) hvalid
  simpa [preProcessesRelocations, forEachIndexed] using h

theorem firstOccurrences_nodup (names : List Name) : (firstOccurrences names).Nodup :=
  addKey_foldl_nodup names [] List.nodup_nil

theorem mem_firstOccurrences (names : List Name) (n : Name) :
    n ∈ firstOccurrences names ↔ n ∈ names := by
  unfold firstOccurrences
  rw [addKey_foldl_mem]
  simp

/-- The order of `firstOccurrences`: of two of its names, the earlier one occurs in the
list it is made from before the first occurrence of the later one. -/
theorem firstOccurrences_order (names : List Name) :
    (firstOccurrences names).Pairwise
      (fun a b => ∃ pre post, names = pre ++ b :: post ∧ b ∉ pre ∧ a ∈ pre) := by
  induction names using List.reverseRecOn with
  | nil => simp [firstOccurrences]
  | append_singleton P x ih =>
    unfold firstOccurrences at ih ⊢
    rw [List.foldl_append, List.foldl_cons, List.foldl_nil]
    have hmem : ∀ a, a ∈ P.foldl addKey [] ↔ a ∈ P := mem_firstOccurrences P
    have hold : (P.foldl addKey []).Pairwise
        (fun a b => ∃ pre post, P ++ [x] = pre ++ b :: post ∧ b ∉ pre ∧ a ∈ pre) := by
      refine List.Pairwise.imp ?_ ih
      rintro a b ⟨pre, post, h1, h2, h3⟩
      exact ⟨pre, post ++ [x], by rw [h1]; simp, h2, h3⟩
    unfold addKey
    split_ifs with hx
    · exact hold
    · rw [List.pairwise_append]
      refine ⟨hold, List.pairwise_singleton _ _, ?_⟩
      intro a ha b hb
      rw [List.mem_singleton] at hb
      subst hb
      exact ⟨P, [], rfl, fun h => hx ((hmem b).mpr h), (hmem a).mp ha⟩

/-- C29: in a run of `preProcessesRelocations` that returns `ok`, with every relocation
section mapped to an output section below `numberOfOutputSections`. Let `names` be the
distinct names of the symbols of the relocations against a global or weak symbol of a type
that needs a GOT entry, in the order of their first occurrence, and `n` their number. The
map of the GOT indices has exactly these names as keys, in this order, with the values
`3, 4, ..., 3 + n - 1`; the `k`-th GOT patch record is that of the `k`-th name, of index
`3 + k`; every relocation has one record, in order, in the vector of its output section,
and the record of each such relocation has `symbolSectionID = gotSectionIndex` and
`symbolValue = 8 * (3 + j)`, where its name is the `j`-th of `names`; and the size given to
`.got` is `8 * (3 + n)`. -/
theorem preProcessesRelocations_got_entries (inputs : List ElfInput) (q : PreProcessIn)
    (hok : (preProcessesRelocations inputs q).status = StatusCode.ok)
    (hvalid : ∀ c ∈ relaCallsFrom q 0 inputs, c.outSectionID < q.numberOfOutputSections) :
    (gotSymbolNames inputs q).Nodup ∧
    (∀ name, name ∈ gotSymbolNames inputs q ↔
      ∃ c ∈ relaCallsFrom q 0 inputs, ∃ rela ∈ c.relas,
        isGotRelocation c.params rela = true ∧ relaSymName c.params rela = name) ∧
    (gotSymbolNames inputs q).Pairwise (fun a b => ∃ pre post,
      (relaCallsFrom q 0 inputs).flatMap gotNamesOf = pre ++ b :: post ∧ b ∉ pre ∧ a ∈ pre) ∧
    (preProcessesRelocations inputs q).symbolNamesThatNeedGOTEntries.map Prod.fst =
      gotSymbolNames inputs q ∧
    (preProcessesRelocations inputs q).symbolNamesThatNeedGOTEntries.map Prod.snd =
      List.range' 3 (gotSymbolNames inputs q).length ∧
    (preProcessesRelocations inputs q).gotEntryPatches =
      (gotSymbolNames inputs q).map (patchOf q.symbolTable) ∧
    (∀ o, o < q.numberOfOutputSections →
      ((preProcessesRelocations inputs q).processedRelas.getD o []).length =
        (relasInto (relaCallsFrom q 0 inputs) o).length ∧
      ∀ (k : Nat) (p : ProcessRelasIn) (rela : Elf64_Rela),
        (relasInto (relaCallsFrom q 0 inputs) o)[k]? = some (p, rela) →
        isGotRelocation p rela = true →
        ∃ (rec : ProcessedRela) (j : Nat),
          ((preProcessesRelocations inputs q).processedRelas.getD o [])[k]? = some rec ∧
          (gotSymbolNames inputs q)[j]? = some (relaSymName p rela) ∧
          rec.symbolSectionID = q.gotSectionIndex ∧ rec.symbolValue = 8 * (3 + j)) ∧
    gotSectionSize (preProcessesRelocations inputs q).gotEntryPatches =
      (8 * (3 + (gotSymbolNames inputs q).length)) % 2 ^ 64 := by
  obtain ⟨⟨t1, t2⟩, hkeys, hlen, hrecs⟩ := preProcessesRelocations_gotRun inputs q hvalid hok
  have hkeys' : (preProcessesRelocations inputs q).symbolNamesThatNeedGOTEntries.map Prod.fst =
      gotSymbolNames inputs q := hkeys
  have hmaplen : (preProcessesRelocations inputs q).symbolNamesThatNeedGOTEntries.length =
      (gotSymbolNames inputs q).length := by
    rw [← hkeys', List.length_map]
  refine ⟨firstOccurrences_nodup _, ?_, firstOccurrences_order _, hkeys', ?_, ?_, ?_, ?_⟩
  · intro name
    unfold gotSymbolNames
    rw [mem_firstOccurrences, List.mem_flatMap]
    constructor
    · rintro ⟨c, hc, hn⟩
      unfold gotNamesOf at hn
      obtain ⟨rela, hr, hname⟩ := List.mem_map.mp hn
      rw [List.mem_filter] at hr
      exact ⟨c, hc, rela, hr.1, hr.2, hname⟩
    · rintro ⟨c, hc, rela, hr, hg, hname⟩
      refine ⟨c, hc, ?_⟩
      unfold gotNamesOf
      exact List.mem_map.mpr ⟨rela, List.mem_filter.mpr ⟨hr, hg⟩, hname⟩
  · rw [t1, hmaplen]
    rfl
  · rw [t2, hkeys']
  · intro o ho
    obtain ⟨r1, r2⟩ := hrecs o (by rw [hlen]; exact ho)
    refine ⟨r1, ?_⟩
    intro k p rela hk hg
    obtain ⟨rec, h1, j, h2, h3, h4⟩ := r2 k p rela hk hg
    rw [hkeys'] at h2
    exact ⟨rec, j, h1, h2, h3, h4⟩
  · unfold gotSectionSize add64
    rw [t2, List.length_map, List.length_map, hmaplen]
    simp only [numReservedGotEntries, sizeof_Elf64_Addr]
    congr 1
    omega

/-- C29 on an object with one relocation of type `R_X86_64_GOTPCREL` against its global
symbol `a`: the name gets the GOT index 3, the patch record is that of the definition of
`a`, the record of the relocation has the section 1 of `.got` and the value 24, and the
size of `.got` is 32. -/
theorem preProcessesRelocations_got_entries_witness :
    (preProcessesRelocations [objGotA] (singleObjectLink objGotA)).status = StatusCode.ok ∧
    gotSymbolNames [objGotA] (singleObjectLink objGotA) = [bytesOf "a"] ∧
    (preProcessesRelocations [objGotA]
      (singleObjectLink objGotA)).symbolNamesThatNeedGOTEntries = [(bytesOf "a", 3)] ∧
    (preProcessesRelocations [objGotA] (singleObjectLink objGotA)).gotEntryPatches =
      [⟨0, 1, 4⟩] ∧
    (preProcessesRelocations [objGotA] (singleObjectLink objGotA)).processedRelas =
      [[{ addend := 0, outputSectionOffset := 2, symbolValue := 24, type := R_X86_64_GOTPCREL,
          symbolSectionID := 1, note := Note.none }], []] ∧
    gotSectionSize (preProcessesRelocations [objGotA]
      (singleObjectLink objGotA)).gotEntryPatches = 32 := by
  have hok : (preProcessesRelocations [objGotA] (singleObjectLink objGotA)).status =
      StatusCode.ok := by decide
  have hnames : gotSymbolNames [objGotA] (singleObjectLink objGotA) = [bytesOf "a"] := by
    decide
  have h := preProcessesRelocations_got_entries [objGotA] (singleObjectLink objGotA) hok
    (by decide)
  refine ⟨hok, hnames, by decide, by decide, by decide, ?_⟩
  rw [h.2.2.2.2.2.2.2, hnames]
  rfl

/-! ## The index of an archive in `parseArchiveMembers` -/

theorem readByte_lt (mem : Memory) (i : Nat) : readByte mem i < 256 := by
  unfold readByte
  exact Nat.mod_lt _ (by decide)

theorem readArchiveWord_lt (mem : Memory) (off : Nat) : readArchiveWord mem off < 2 ^ 32 := by
  unfold readArchiveWord
  have h0 := readByte_lt mem off
  have h1 := readByte_lt mem (off + 1)
  have h2 := readByte_lt mem (off + 2)
  have h3 := readByte_lt mem (off + 3)
  simp only [Nat.shiftLeft_eq]
  refine Nat.or_lt_two_pow (Nat.or_lt_two_pow (Nat.or_lt_two_pow ?_ ?_) ?_) ?_ <;> omega

theorem archiveIndexLoop_entries (fileIndex : Nat) (mem : Memory) (symStrTab symStrTabSize : Nat)
    (offsets : List Nat) (c : ArchiveCursor) (base run : Nat)
    (hstates : c.out.archiveMemberStates.length = base + run + 1)
    (hfit : c.symStrTabPtrOffset +
      namesSize (namesFrom mem (symStrTab + c.symStrTabPtrOffset) offsets.length) ≤
        symStrTabSize) :
    archiveIndexLoop fileIndex mem symStrTab symStrTabSize offsets c =
      (none,
        { archiveMemberSortKeys :=
            c.out.archiveMemberSortKeys ++
              (runsAfter c.currMemberOffset offsets).map (makeSortKey fileIndex)
          archiveMemberStates :=
            c.out.archiveMemberStates ++
              List.replicate (runsAfter c.currMemberOffset offsets).length
                ArchiveMemberState.lazy
          archiveSymbolTable :=
            addIndexNames base (namesFrom mem (symStrTab + c.symStrTabPtrOffset) offsets.length)
              (runIndicesAfter run c.currMemberOffset offsets) c.out.archiveSymbolTable }) := by
  induction offsets generalizing c run with
  | nil =>
    simp [archiveIndexLoop, runsAfter, runIndicesAfter, namesFrom, addIndexNames]
  | cons o rest ih =>
    simp only [List.length_cons, namesFrom, namesSize, List.map_cons, List.sum_cons] at hfit
    have hfit' : ¬ c.symStrTabPtrOffset +
        ((cstrAt mem (symStrTab + c.symStrTabPtrOffset)).length + 1) > symStrTabSize := by
      omega
    unfold archiveIndexLoop
    simp only []
    rw [if_neg hfit']
    by_cases hnew : c.currMemberOffset ≠ o
    · simp only [if_pos hnew]
      have hlast : lastStateIndex (c.out.archiveMemberStates ++ [ArchiveMemberState.lazy]) =
          base + (run + 1) := by
        unfold lastStateIndex
        rw [if_neg (by simp), List.length_append, hstates]
        simp
        omega
      rw [ih ⟨o, c.symStrTabPtrOffset +
          ((cstrAt mem (symStrTab + c.symStrTabPtrOffset)).length + 1),
        { archiveMemberSortKeys := c.out.archiveMemberSortKeys ++ [makeSortKey fileIndex o]
          archiveMemberStates := c.out.archiveMemberStates ++ [ArchiveMemberState.lazy]
          archiveSymbolTable := ArchiveSymbolTable.push c.out.archiveSymbolTable
            (cstrAt mem (symStrTab + c.symStrTabPtrOffset))
            (lastStateIndex (c.out.archiveMemberStates ++ [ArchiveMemberState.lazy])) }⟩
        (run + 1) (by simp only [List.length_append, List.length_singleton, hstates]; omega) (by
          simp only [namesSize, ← Nat.add_assoc] at hfit ⊢
          omega)]
      simp only [runsAfter, runIndicesAfter, if_pos hnew, List.length_cons, namesFrom,
        addIndexNames, List.zip_cons_cons, List.foldl_cons, List.map_cons, List.append_assoc,
        List.singleton_append, List.replicate_succ, hlast, Nat.add_assoc]
    · simp only [if_neg hnew]
      have hlast : lastStateIndex c.out.archiveMemberStates = base + run := by
        unfold lastStateIndex
        rw [if_neg (by rw [hstates]; omega), hstates]
        omega
      rw [ih ⟨o, c.symStrTabPtrOffset +
          ((cstrAt mem (symStrTab + c.symStrTabPtrOffset)).length + 1),
        { archiveMemberSortKeys := c.out.archiveMemberSortKeys
          archiveMemberStates := c.out.archiveMemberStates
          archiveSymbolTable := ArchiveSymbolTable.push c.out.archiveSymbolTable
            (cstrAt mem (symStrTab + c.symStrTabPtrOffset))
            (lastStateIndex c.out.archiveMemberStates) }⟩
        run hstates (by
          simp only [namesSize, ← Nat.add_assoc] at hfit ⊢
          omega)]
      have hcur : o = c.currMemberOffset := (not_not.mp hnew).symm
      simp only [runsAfter, runIndicesAfter, if_neg hnew, List.length_cons, namesFrom,
        addIndexNames, List.zip_cons_cons, List.foldl_cons, hlast, Nat.add_assoc, hcur, ne_eq,
        not_true_eq_false, if_false]

theorem view_as_span_ArchiveWord_length (mem : Memory) (off n : Nat) :
    (view_as_span_ArchiveWord mem off n).length = n := by
  simp [view_as_span_ArchiveWord]

theorem view_as_span_ArchiveWord_lt (mem : Memory) (off n : Nat) :
    ∀ o ∈ view_as_span_ArchiveWord mem off n, o < 2 ^ 32 := by
  intro o ho
  unfold view_as_span_ArchiveWord at ho
  obtain ⟨i, _, hi⟩ := List.mem_map.mp ho
  rw [← hi]
  exact readArchiveWord_lt mem _

theorem namesFrom_length (mem : Memory) (off n : Nat) : (namesFrom mem off n).length = n := by
  induction n generalizing off with
  | zero => rfl
  | succ n ih => simp [namesFrom, ih]

/-- The body of the loop of `parseArchiveMembers` for an archive with a well-formed index:
it does not return, and it adds the entries of the index. -/
theorem parseArchive_entries (fileIndex : Nat) (mem : Memory) (memSize : Nat)
    (before : ArchiveOut) (hwf : wellFormedIndex mem memSize) :
    parseArchive fileIndex mem memSize before = (none, addArchiveEntries fileIndex mem before) := by
  obtain ⟨h1, h2, symTableSize, h3, h4, h5, h6⟩ := hwf
  have hN := readArchiveWord_lt mem (SARMAG + sizeof_ar_hdr)
  unfold indexNames indexCount at h6
  unfold indexCount at h5
  unfold parseArchive
  rw [if_neg (by omega), if_neg (by rw [h2]; exact fun h => h rfl), h3]
  simp only []
  rw [if_neg (by omega), if_neg (by omega), if_neg (by
    simp only [sizeof_ArchiveWord] at h6 ⊢
    omega)]
  unfold addArchiveEntries indexOffsets indexNames indexCount
  generalize readArchiveWord mem (SARMAG + sizeof_ar_hdr) = N at h5 h6 hN ⊢
  have hlen := view_as_span_ArchiveWord_length mem (SARMAG + sizeof_ar_hdr + sizeof_ArchiveWord) N
  have hlt := view_as_span_ArchiveWord_lt mem (SARMAG + sizeof_ar_hdr + sizeof_ArchiveWord) N
  have hsize : namesSize (namesFrom mem
      (SARMAG + sizeof_ar_hdr + sizeof_ArchiveWord + sizeof_ArchiveWord * N) N) ≤
      symTableSize - sizeof_ArchiveWord * ((N + 1) % 2 ^ 32) := by
    have hmod := Nat.mod_le (N + 1) (2 ^ 32)
    simp only [sizeof_ArchiveWord] at h6 hmod ⊢
    omega
  generalize symTableSize - sizeof_ArchiveWord * ((N + 1) % 2 ^ 32) = symStrTabSize at hsize
  generalize SARMAG + sizeof_ar_hdr + sizeof_ArchiveWord + sizeof_ArchiveWord * N =
    symStrTab at hsize ⊢
  generalize view_as_span_ArchiveWord mem (SARMAG + sizeof_ar_hdr + sizeof_ArchiveWord) N =
    offsets at hlen hlt ⊢
  cases offsets with
  | nil =>
    simp only [List.length_nil] at hlen
    omega
  | cons o rest =>
    have ho : o < 2 ^ 32 := hlt o (List.mem_cons_self _ _)
    have hnew : (o + 2 ^ 32 - 1) % 2 ^ 32 ≠ o := by omega
    simp only [List.length_cons] at hlen
    subst hlen
    simp only [List.headD_cons, namesFrom, namesSize, List.map_cons, List.sum_cons] at hsize ⊢
    unfold archiveIndexLoop
    simp only [if_pos hnew, Nat.zero_add, Nat.add_zero]
    rw [if_neg (by omega)]
    have hlast : lastStateIndex (before.archiveMemberStates ++ [ArchiveMemberState.lazy]) =
        before.archiveMemberStates.length + 0 := by
      unfold lastStateIndex
      rw [if_neg (by simp)]
      simp
    rw [archiveIndexLoop_entries fileIndex mem symStrTab symStrTabSize rest
      ⟨o, (cstrAt mem symStrTab).length + 1,
        { archiveMemberSortKeys := before.archiveMemberSortKeys ++ [makeSortKey fileIndex o]
          archiveMemberStates := before.archiveMemberStates ++ [ArchiveMemberState.lazy]
          archiveSymbolTable := ArchiveSymbolTable.push before.archiveSymbolTable
            (cstrAt mem symStrTab)
            (lastStateIndex (before.archiveMemberStates ++ [ArchiveMemberState.lazy])) }⟩
      before.archiveMemberStates.length 0 (by simp) (by
        simp only [namesSize]
        omega)]
    simp only [coalesceRuns, runIndices, addIndexNames, List.zip_cons_cons, List.foldl_cons,
      List.map_cons, List.append_assoc, List.singleton_append, List.length_cons,
      List.replicate_succ, hlast]

theorem mem_runsAfter (previous : Nat) (offsets : List Nat) (x : Nat)
    (h : x ∈ runsAfter previous offsets) : x ∈ offsets := by
  induction offsets generalizing previous with
  | nil => simp [runsAfter] at h
  | cons o rest ih =>
    simp only [runsAfter] at h
    split_ifs at h
    · rcases List.mem_cons.mp h with h1 | h1
      · rw [h1]; exact List.mem_cons_self _ _
      · exact List.mem_cons_of_mem _ (ih o h1)
    · exact List.mem_cons_of_mem _ (ih o h)

theorem mem_or_mem_runsAfter (previous : Nat) (offsets : List Nat) (x : Nat)
    (h : x ∈ offsets) : x = previous ∨ x ∈ runsAfter previous offsets := by
  induction offsets generalizing previous with
  | nil => simp at h
  | cons o rest ih =>
    simp only [runsAfter]
    rcases List.mem_cons.mp h with h1 | h1
    · by_cases hp : previous ≠ o
      · rw [if_pos hp, h1]
        exact Or.inr (List.mem_cons_self _ _)
      · rw [h1]
        exact Or.inl (not_not.mp hp).symm
    · rcases ih o h1 with h2 | h2
      · by_cases hp : previous ≠ o
        · rw [if_pos hp, h2]
          exact Or.inr (List.mem_cons_self _ _)
        · rw [h2]
          exact Or.inl (not_not.mp hp).symm
      · by_cases hp : previous ≠ o
        · rw [if_pos hp]
          exact Or.inr (List.mem_cons_of_mem _ h2)
        · rw [if_neg hp]
          exact Or.inr h2

theorem mem_coalesceRuns (offsets : List Nat) (x : Nat) :
    x ∈ coalesceRuns offsets ↔ x ∈ offsets := by
  cases offsets with
  | nil => simp [coalesceRuns]
  | cons o rest =>
    simp only [coalesceRuns, List.mem_cons]
    constructor
    · rintro (h | h)
      · exact Or.inl h
      · exact Or.inr (mem_runsAfter o rest x h)
    · rintro (h | h)
      · exact Or.inl h
      · exact mem_or_mem_runsAfter o rest x h

theorem runsAfter_nodup (previous : Nat) (offsets : List Nat)
    (h : equalsAdjacent (previous :: offsets) = true) :
    (runsAfter previous offsets).Nodup ∧ previous ∉ runsAfter previous offsets := by
  induction offsets generalizing previous with
  | nil => simp [runsAfter]
  | cons o rest ih =>
    rw [equalsAdjacent, Bool.and_eq_true, Bool.or_eq_true] at h
    obtain ⟨h1, h2⟩ := h
    obtain ⟨i1, i2⟩ := ih o h2
    simp only [runsAfter]
    by_cases hp : previous ≠ o
    · rw [if_pos hp]
      have hnot : previous ∉ o :: rest := by
        rcases h1 with h3 | h3
        · simp only [List.head?_cons, beq_iff_eq, Option.some.injEq] at h3
          exact absurd h3.symm hp
        · simpa using h3
      refine ⟨List.nodup_cons.mpr ⟨i2, i1⟩, ?_⟩
      intro hmem
      rcases List.mem_cons.mp hmem with h3 | h3
      · exact hp h3
      · exact hnot (List.mem_cons_of_mem _ (mem_runsAfter o rest previous h3))
    · rw [if_neg hp, not_not.mp hp]
      exact ⟨i1, i2⟩

theorem coalesceRuns_nodup (offsets : List Nat) (h : equalsAdjacent offsets = true) :
    (coalesceRuns offsets).Nodup := by
  cases offsets with
  | nil => simp [coalesceRuns]
  | cons o rest =>
    obtain ⟨h1, h2⟩ := runsAfter_nodup o rest h
    exact List.nodup_cons.mpr ⟨h2, h1⟩

theorem runIndicesAfter_entry (offsets : List Nat) (runs : List Nat) (run previous : Nat)
    (hlen : runs.length = run + 1) (hlast : runs[run]? = some previous) (i o : Nat)
    (hi : offsets[i]? = some o) :
    ∃ r, (runIndicesAfter run previous offsets)[i]? = some r ∧
      (runs ++ runsAfter previous offsets)[r]? = some o := by
  induction offsets generalizing runs run previous i with
  | nil => simp at hi
  | cons a rest ih =>
    simp only [runIndicesAfter, runsAfter]
    by_cases hp : previous ≠ a
    · simp only [if_pos hp]
      have hlen' : (runs ++ [a]).length = run + 1 + 1 := by simp [hlen]
      have hlast' : (runs ++ [a])[run + 1]? = some a := by
        rw [List.getElem?_append_right (by omega), hlen]
        simp
      cases i with
      | zero =>
        simp only [List.getElem?_cons_zero, Option.some.injEq] at hi
        subst hi
        refine ⟨run + 1, by simp, ?_⟩
        rw [List.getElem?_append_right (by omega), hlen]
        simp
      | succ i =>
        simp only [List.getElem?_cons_succ] at hi ⊢
        obtain ⟨r, r1, r2⟩ := ih (runs ++ [a]) (run + 1) a hlen' hlast' i hi
        refine ⟨r, r1, ?_⟩
        rw [List.append_assoc] at r2
        exact r2
    · simp only [if_neg hp]
      have hpa : previous = a := not_not.mp hp
      cases i with
      | zero =>
        simp only [List.getElem?_cons_zero, Option.some.injEq] at hi
        subst hi
        refine ⟨run, by simp, ?_⟩
        rw [List.getElem?_append_left (by omega), hlast, hpa]
      | succ i =>
        simp only [List.getElem?_cons_succ] at hi ⊢
        exact ih runs run a hlen (by rw [hlast, hpa]) i hi

theorem runIndices_entry (offsets : List Nat) (i o : Nat) (hi : offsets[i]? = some o) :
    ∃ r, (runIndices offsets)[i]? = some r ∧ (coalesceRuns offsets)[r]? = some o := by
  cases offsets with
  | nil => simp at hi
  | cons a rest =>
    simp only [runIndices, coalesceRuns]
    cases i with
    | zero =>
      simp only [List.getElem?_cons_zero, Option.some.injEq] at hi
      subst hi
      exact ⟨0, by simp, by simp⟩
    | succ i =>
      simp only [List.getElem?_cons_succ] at hi ⊢
      exact runIndicesAfter_entry rest [a] 0 a rfl (by simp) i o hi

theorem parseArchiveMembers_fold (addresses : List Memory) (memSizes : List Nat)
    (fileIndices : List Nat) (out : ArchiveOut)
    (hwf : ∀ f ∈ fileIndices, wellFormedIndex (addresses.getD f []) (memSizes.getD f 0)) :
    parseArchiveMembers addresses memSizes fileIndices out =
      (StatusCode.ok,
        fileIndices.foldl (fun o f => addArchiveEntries f (addresses.getD f []) o) out) := by
  induction fileIndices generalizing out with
  | nil => rfl
  | cons f rest ih =>
    unfold parseArchiveMembers
    rw [parseArchive_entries f _ _ out (hwf f (List.mem_cons_self _ _))]
    simp only [List.foldl_cons]
    exact ih _ (fun g hg => hwf g (List.mem_cons_of_mem _ hg))

/-- C30 as stated fails on the code: the index of this archive holds the count 3, the
member offsets 90, 120 and 90 and the names `x`, `y` and `z`; `parseArchiveMembers`
returns `ok` with three archive-member entries, two of them for the offset 90, where the
index has two distinct member offsets. -/
theorem parseArchiveMembers_repeated_offset :
    wellFormedIndex (archiveOfThree 90 120 90) 90 ∧
    indexCount (archiveOfThree 90 120 90) = 3 ∧
    indexOffsets (archiveOfThree 90 120 90) = [90, 120, 90] ∧
    indexNames (archiveOfThree 90 120 90) = [bytesOf "x", bytesOf "y", bytesOf "z"] ∧
    parseArchiveMembers [archiveOfThree 90 120 90] [90] [0] ⟨[], [], []⟩ =
      (StatusCode.ok,
        ⟨[makeSortKey 0 90, makeSortKey 0 120, makeSortKey 0 90],
          [ArchiveMemberState.lazy, ArchiveMemberState.lazy, ArchiveMemberState.lazy],
          [(bytesOf "x", [0]), (bytesOf "y", [1]), (bytesOf "z", [2])]⟩) ∧
    (indexOffsets (archiveOfThree 90 120 90)).dedup.length = 2 := by
  refine ⟨⟨by decide, by decide, 22, by decide, by decide, by decide, by decide⟩,
    by decide, by decide, by decide, by decide, by decide⟩

/-- C30, amended: for archives whose index holds a count `N ≥ 1`, `N` member offsets and
`N` null-terminated names inside the index member, `parseArchiveMembers` returns `ok`, and
for each archive in turn it adds one archive-member entry for each run of equal
consecutive member offsets, with the sort key `makeSortKey(fileIndex, memberOffset)`, which
is `fileIndex * 2^32 + memberOffset`, and the state `lazy`, and appends, for the `i`-th
name, the index of the entry of the run of the `i`-th offset, which has that offset, to
the list of the name in the archive symbol table. Every member offset has an entry, and
when equal member offsets are consecutive there is one entry for each distinct offset. -/
theorem parseArchiveMembers_entries (addresses : List Memory) (memSizes : List Nat)
    (fileIndices : List Nat) (out : ArchiveOut)
    (hwf : ∀ f ∈ fileIndices, wellFormedIndex (addresses.getD f []) (memSizes.getD f 0)) :
    parseArchiveMembers addresses memSizes fileIndices out =
      (StatusCode.ok,
        fileIndices.foldl (fun o f => addArchiveEntries f (addresses.getD f []) o) out) ∧
    ∀ f ∈ fileIndices,
      (indexOffsets (addresses.getD f [])).length = indexCount (addresses.getD f []) ∧
      (indexNames (addresses.getD f [])).length = indexCount (addresses.getD f []) ∧
      (∀ o, o ∈ coalesceRuns (indexOffsets (addresses.getD f [])) ↔
        o ∈ indexOffsets (addresses.getD f [])) ∧
      (∀ (i o : Nat), (indexOffsets (addresses.getD f []))[i]? = some o →
        ∃ r, (runIndices (indexOffsets (addresses.getD f [])))[i]? = some r ∧
          (coalesceRuns (indexOffsets (addresses.getD f [])))[r]? = some o) ∧
      (equalsAdjacent (indexOffsets (addresses.getD f [])) = true →
        (coalesceRuns (indexOffsets (addresses.getD f []))).Nodup) ∧
      (f < 2 ^ 32 → ∀ o ∈ indexOffsets (addresses.getD f []),
        makeSortKey f o = f * 2 ^ 32 + o) := by
  refine ⟨parseArchiveMembers_fold addresses memSizes fileIndices out hwf, ?_⟩
  intro f _
  refine ⟨view_as_span_ArchiveWord_length _ _ _, namesFrom_length _ _ _,
    mem_coalesceRuns _, runIndices_entry _, coalesceRuns_nodup _, ?_⟩
  intro hf o ho
  have hlt := view_as_span_ArchiveWord_lt _ _ _ o ho
  unfold makeSortKey
  omega

/-- C30, amended, on the archive of file index 1 whose index holds the member offsets 90,
90 and 120 for the names `x`, `y` and `z`: two entries, and the names `x` and `y` get the
first. -/
theorem parseArchiveMembers_entries_witness :
    wellFormedIndex (archiveOfThree 90 90 120) 90 ∧
    indexOffsets (archiveOfThree 90 90 120) = [90, 90, 120] ∧
    equalsAdjacent (indexOffsets (archiveOfThree 90 90 120)) = true ∧
    parseArchiveMembers [[], archiveOfThree 90 90 120] [0, 90] [1] ⟨[], [], []⟩ =
      (StatusCode.ok,
        ⟨[1 * 2 ^ 32 + 90, 1 * 2 ^ 32 + 120],
          [ArchiveMemberState.lazy, ArchiveMemberState.lazy],
          [(bytesOf "x", [0]), (bytesOf "y", [0]), (bytesOf "z", [1])]⟩) := by
  have hwf : wellFormedIndex (archiveOfThree 90 90 120) 90 :=
    ⟨by decide, by decide, 22, by decide, by decide, by decide, by decide⟩
  have h := (parseArchiveMembers_entries [[], archiveOfThree 90 90 120] [0, 90] [1] ⟨[], [], []⟩
    (by
      intro f hf
      rw [List.mem_singleton] at hf
      subst hf
      exact hwf)).1
  refine ⟨hwf, by decide, by decide, ?_⟩
  rw [h]
  decide

/-! ## Claim C32: the image of an offset of a merged section -/

/-- C32 fails on the code.  For an offset `x` in the `k`-th part of a merged section,
`inputToOutputSectionOffset` returns `x + dstOffset_k`, which differs from
`dstOffset_k + (x - start_k)` whenever the part does not start at zero.  In the link of
`objMergedPointers` the section 1 of 24 bytes is merged into three parts of 8 bytes
copied to the offsets 0, 8 and 16 of a view of 24 bytes.  The offset 8 starts the second
part: the input holds the byte 2 there and so does the view at the offset 8, but the
function returns `ok` and the offset 16, where the view holds 0.  For the offset 16 it
returns 32, past the end of the view. -/
theorem inputToOutputSectionOffset_merged_later_part :
    (∀ elf hdr x cmds k c (inputSectionCopyCommands : List (List SectionMemCopies)),
      get2D inputSectionCopyCommands elf hdr = SectionMemCopies.parts cmds →
      cmds[k]? = some c → partStart cmds k ≤ x → x < partStart cmds k + c.size →
      x + c.dstOffset < 2 ^ 64 → 0 < partStart cmds k →
      inputToOutputSectionOffset elf hdr x inputSectionCopyCommands =
        (StatusCode.ok, x + c.dstOffset) ∧
      x + c.dstOffset ≠ c.dstOffset + (x - partStart cmds k)) ∧
    get2D mergedPointersCommands 0 1 =
      SectionMemCopies.parts [⟨8, 0⟩, ⟨8, 8⟩, ⟨8, 16⟩] ∧
    (objMergedPointers.headers.getD 1 default).sh_size = 24 ∧
    mergedPointersSections.map (fun st => st.materializedViews) =
      some [some [1, 0, 0, 0, 0, 0, 0, 0, 2, 0, 0, 0, 0, 0, 0, 0, 0, 0, 0, 0, 0, 0, 0, 0]] ∧
    (objMergedPointers.mem.drop (objMergedPointers.headers.getD 1 default).sh_offset).take 24 =
      [1, 0, 0, 0, 0, 0, 0, 0, 2, 0, 0, 0, 0, 0, 0, 0, 0, 0, 0, 0, 0, 0, 0, 0] ∧
    partStart [⟨8, 0⟩, ⟨8, 8⟩, ⟨8, 16⟩] 1 = 8 ∧
    inputToOutputSectionOffset 0 1 8 mergedPointersCommands = (StatusCode.ok, 16) ∧
    inputToOutputSectionOffset 0 1 8 mergedPointersCommands ≠ (StatusCode.ok, 8 + (8 - 8)) ∧
    partStart [⟨8, 0⟩, ⟨8, 8⟩, ⟨8, 16⟩] 2 = 16 ∧
    inputToOutputSectionOffset 0 1 16 mergedPointersCommands = (StatusCode.ok, 32) ∧
    inputToOutputSectionOffset 0 1 16 mergedPointersCommands ≠
      (StatusCode.ok, 16 + (16 - 16)) := by
  refine ⟨?_, by decide, by decide, by decide, by decide, by decide, by decide, by decide,
    by decide, by decide, by decide⟩
  intro elf hdr x cmds k c inputSectionCopyCommands hcmds hc h1 h2 hlt hpos
  have hs := searchPartCopies_some x cmds 0 k c hc (by omega) (by omega)
  refine ⟨?_, by omega⟩
  unfold inputToOutputSectionOffset
  rw [hcmds]
  simp only []
  rw [hs, Nat.mod_eq_of_lt hlt]

/-! ## Claim C33: relocations against absolute symbols -/

/-- C33 fails on the code.  For every relocation whose symbol has `st_shndx = SHN_ABS`,
`processRelas` appends a record with the addend 0 and the offset 0 in the output section,
whatever `r_addend` and `r_offset` are; the type, the note `absoluteValue` and the value
`st_value` are as stated.  In the link of `objRefAbsoluteA`, whose relocation of type
`R_X86_64_64` has the addend 5 and is at the offset 2 of `.text`, which the copy command
maps to the offset 2, the run returns `ok` with the record of addend 0 and offset 0, so
`prepareRelaWrite` gives the value `0x1234` for the file position 0 of the section, where
the record that C33 states gives `0x1234 + 5` for the position 2. -/
theorem processRelas_absolute_symbol_record :
    (∀ p st rela, (linkedSymbol p rela).st_shndx = SHN_ABS →
      processRela p st rela = LoopStep.continue { st with
        processResults := st.processResults ++ [
          { addend := 0, outputSectionOffset := 0,
            symbolValue := (linkedSymbol p rela).st_value,
            type := ELF64_R_TYPE rela.r_info, symbolSectionID := 0,
            note := Note.absoluteValue }] }) ∧
    (preProcessesRelocations [objRefAbsoluteA] (singleObjectLink objRefAbsoluteA)).status =
      StatusCode.ok ∧
    (preProcessesRelocations [objRefAbsoluteA]
        (singleObjectLink objRefAbsoluteA)).processedRelas.getD 0 [] =
      [{ addend := 0, outputSectionOffset := 0, symbolValue := 0x1234, type := R_X86_64_64,
         symbolSectionID := 0, note := Note.absoluteValue }] ∧
    relaMovabsPlus5.r_addend = 5 ∧
    inputToOutputSectionOffset 0 1 relaMovabsPlus5.r_offset
        (singleObjectLink objRefAbsoluteA).inputSectionCopyCommands = (StatusCode.ok, 2) ∧
    (preProcessesRelocations [objRefAbsoluteA]
        (singleObjectLink objRefAbsoluteA)).processedRelas.getD 0 [] ≠ [statedAbsoluteRela] ∧
    prepareRelaWrite
        { addend := 0, outputSectionOffset := 0, symbolValue := 0x1234, type := R_X86_64_64,
          symbolSectionID := 0, note := Note.absoluteValue }
        0x402000 [0x401000, 0x402000] 0x401000 0x1000 = (StatusCode.ok, 0x1234, 8, 0x1000) ∧
    prepareRelaWrite statedAbsoluteRela 0x402000 [0x401000, 0x402000] 0x401000 0x1000 =
      (StatusCode.ok, 0x1239, 8, 0x1002) := by
  refine ⟨?_, by decide, by decide, by decide, by decide, by decide, by decide, by decide⟩
  intro p st rela habs
  have hx : (linkedSymbol p rela).st_shndx ≠ SHN_XINDEX := by
    rw [habs]
    decide
  unfold processRela
  simp only []
  rw [if_neg hx, if_pos habs]

/-! ## Claim C36: the elements of a section of a fixed-length merge -/

/-- The element loop with a positive fixed length: given as many iterations as there are
bytes, it ends with the pieces of `entsize` bytes when `entsize` divides the number of
bytes, and with an element out of bounds when it does not. -/
theorem splitLoop_fixedLength (entsize : Nat) (hpos : 0 < entsize) (fuel stringsStart : Nat)
    (bytes : List Nat) (hfuel : bytes.length ≤ fuel)
    (hfit : stringsStart + bytes.length + entsize ≤ 2 ^ 64) :
    (entsize ∣ bytes.length →
      ∃ es, splitLoop true entsize fuel stringsStart bytes = SplitResult.elements es ∧
        es.length = bytes.length / entsize ∧ (∀ e ∈ es, e.length = entsize) ∧
        es.flatten = bytes) ∧
    (¬ entsize ∣ bytes.length →
      splitLoop true entsize fuel stringsStart bytes = SplitResult.outOfBounds) := by
  induction fuel generalizing stringsStart bytes with
  | zero =>
    cases bytes with
    | nil => exact ⟨fun _ => ⟨[], rfl, by simp, by simp, rfl⟩, fun h => absurd (by simp) h⟩
    | cons b bs => simp at hfuel
  | succ fuel ih =>
    cases bytes with
    | nil => exact ⟨fun _ => ⟨[], rfl, by simp, by simp, rfl⟩, fun h => absurd (by simp) h⟩
    | cons b bs =>
      unfold splitLoop
      rw [if_neg (by
        simp only [nextEndDistance, if_true]
        simp only [List.length_cons] at hfit
        omega)]
      by_cases hgt : entsize > (b :: bs).length
      · have hnone : nextElement true entsize (b :: bs) = none := by
          unfold nextElement nextEndDistance
          simp only [if_true]
          rw [if_pos hgt]
        rw [hnone]
        refine ⟨fun hd => ?_, fun _ => rfl⟩
        have := Nat.le_of_dvd (by simp) hd
        omega
      · have hsome : nextElement true entsize (b :: bs) =
            some ((b :: bs).take entsize, (b :: bs).drop entsize) := by
          unfold nextElement nextEndDistance
          simp only [if_true]
          rw [if_neg hgt]
        rw [hsome]
        simp only []
        have hle : entsize ≤ (b :: bs).length := by omega
        have hlen : ((b :: bs).drop entsize).length = (b :: bs).length - entsize :=
          List.length_drop _ _
        have htake : ((b :: bs).take entsize).length = entsize := by
          rw [List.length_take]
          omega
        rw [htake]
        have hrec := ih (stringsStart + entsize) ((b :: bs).drop entsize) (by
          rw [hlen]
          simp only [List.length_cons] at hfuel ⊢
          omega) (by
          rw [hlen]
          omega)
        rw [hlen] at hrec
        have hdvd : entsize ∣ (b :: bs).length - entsize ↔ entsize ∣ (b :: bs).length :=
          ⟨fun h => by
            have := Nat.dvd_add h (Nat.dvd_refl entsize)
            rwa [Nat.sub_add_cancel hle] at this,
           fun h => Nat.dvd_sub' h (Nat.dvd_refl entsize)⟩
        refine ⟨fun hd => ?_, fun hd => ?_⟩
        · obtain ⟨es, h1, h2, h3, h4⟩ := hrec.1 (hdvd.mpr hd)
          rw [h1]
          refine ⟨(b :: bs).take entsize :: es, rfl, ?_, ?_, ?_⟩
          · rw [List.length_cons, h2]
            obtain ⟨k, hk⟩ := hd
            rw [hk]
            cases k with
            | zero => simp at hk
            | succ k =>
              rw [Nat.mul_succ, Nat.add_sub_cancel, Nat.mul_div_cancel_left _ hpos,
                Nat.mul_comm, ← Nat.succ_mul, Nat.mul_comm, Nat.mul_div_cancel_left _ hpos]
          · intro e he
            rcases List.mem_cons.mp he with rfl | he
            · rw [List.length_take]
              omega
            · exact h3 e he
          · rw [List.flatten_cons, h4, List.take_append_drop]
        · rw [hrec.2 (fun h => hd (hdvd.mp h))]

theorem sectionBytes_length (mem : Memory) (off size : Nat) :
    (sectionBytes mem off size).length = size := by
  simp [sectionBytes]

/-- The element loop of `mergeSections` for an input section of a fixed-length merge
whose bytes, and one element more, lie in the address space, on the `sh_size` bytes of
the section.  With `sh_entsize ≥ 1` the loop ends: every number of iterations from
`sh_size` on gives the result of the function, which is not a run without end; it is a
list of elements exactly when `sh_entsize` divides `sh_size`, and an element out of bounds
otherwise; the elements are `sh_size / sh_entsize` in number, each of `sh_entsize` bytes,
and together the bytes of the section.  With `sh_entsize = 0` and `sh_size > 0` an
iteration takes an empty element and leaves all the bytes, and no number of iterations
ends the loop; with `sh_size = 0` the loop ends at once whatever `sh_entsize` is. -/
theorem mergeSections_fixedLength_elements (inputs : List ElfInput) (secRef : SectionRef)
    (hfit : stringsStartOf inputs secRef + shSizeOf inputs secRef +
      max (entsizeOf inputs secRef) 1 ≤ 2 ^ 64) :
    (1 ≤ entsizeOf inputs secRef →
      (∀ fuel, shSizeOf inputs secRef ≤ fuel →
        splitLoop true (entsizeOf inputs secRef) fuel (stringsStartOf inputs secRef)
            (bytesOfSection inputs secRef) =
          splitSection inputs MergeType.fixedLength secRef) ∧
      splitSection inputs MergeType.fixedLength secRef ≠ SplitResult.diverges ∧
      ((∃ es, splitSection inputs MergeType.fixedLength secRef = SplitResult.elements es) ↔
        entsizeOf inputs secRef ∣ shSizeOf inputs secRef) ∧
      (¬ entsizeOf inputs secRef ∣ shSizeOf inputs secRef →
        splitSection inputs MergeType.fixedLength secRef = SplitResult.outOfBounds) ∧
      ∀ es, splitSection inputs MergeType.fixedLength secRef = SplitResult.elements es →
        es.length = shSizeOf inputs secRef / entsizeOf inputs secRef ∧
        (∀ e ∈ es, e.length = entsizeOf inputs secRef) ∧
        es.flatten = bytesOfSection inputs secRef) ∧
    (entsizeOf inputs secRef = 0 → 0 < shSizeOf inputs secRef →
      nextElement true (entsizeOf inputs secRef) (bytesOfSection inputs secRef) =
        some ([], bytesOfSection inputs secRef) ∧
      (∀ fuel, splitLoop true (entsizeOf inputs secRef) fuel (stringsStartOf inputs secRef)
        (bytesOfSection inputs secRef) = SplitResult.diverges) ∧
      splitSection inputs MergeType.fixedLength secRef = SplitResult.diverges) ∧
    (shSizeOf inputs secRef = 0 →
      splitSection inputs MergeType.fixedLength secRef = SplitResult.elements []) := by
  have hlen : (bytesOfSection inputs secRef).length = shSizeOf inputs secRef :=
    sectionBytes_length _ _ _
  have hsplit : splitSection inputs MergeType.fixedLength secRef =
      splitLoop true (entsizeOf inputs secRef) (shSizeOf inputs secRef)
        (stringsStartOf inputs secRef) (bytesOfSection inputs secRef) := by
    unfold splitSection splitElements
    simp only []
    rw [if_neg (by
      unfold stringsStartOf shSizeOf at hfit
      omega)]
    unfold bytesOfSection shSizeOf entsizeOf stringsStartOf
    simp only [sectionBytes_length, decide_True]
  refine ⟨fun hpos => ?_, fun hzero hsize => ?_, fun hsize => ?_⟩
  · have hfix := splitLoop_fixedLength (entsizeOf inputs secRef) (by omega)
      (shSizeOf inputs secRef) (stringsStartOf inputs secRef) (bytesOfSection inputs secRef)
      (by omega) (by rw [hlen]; omega)
    rw [hlen, ← hsplit] at hfix
    refine ⟨fun fuel hfuel => ?_, ?_, ⟨?_, ?_⟩, hfix.2, ?_⟩
    · rw [hsplit]
      exact splitLoop_fuel true _ (Or.inr (by omega)) _ _ _ _ (by omega) (by omega)
    · rw [hsplit]
      exact splitLoop_ne_diverges true _ (Or.inr (by omega)) _ _ _ (by omega)
    · rintro ⟨es, hes⟩
      by_contra hd
      rw [hfix.2 hd] at hes
      exact nomatch hes
    · intro hd
      obtain ⟨es, h1, -⟩ := hfix.1 hd
      exact ⟨es, h1⟩
    · intro es hes
      by_cases hd : entsizeOf inputs secRef ∣ shSizeOf inputs secRef
      · obtain ⟨es2, h1, h2, h3, h4⟩ := hfix.1 hd
        rw [hes] at h1
        cases h1
        exact ⟨h2, h3, h4⟩
      · rw [hfix.2 hd] at hes
        exact nomatch hes
  · have hne : ∃ b bs, bytesOfSection inputs secRef = b :: bs := by
      cases hb : bytesOfSection inputs secRef with
      | nil =>
        rw [hb] at hlen
        simp at hlen
        omega
      | cons b bs => exact ⟨b, bs, rfl⟩
    obtain ⟨b, bs, hb⟩ := hne
    have hs : stringsStartOf inputs secRef < 2 ^ 64 := by omega
    rw [hsplit, hzero, hb]
    refine ⟨?_, fun fuel => splitLoop_diverges fuel _ hs b bs, splitLoop_diverges _ _ hs b bs⟩
    simp [nextElement, nextEndDistance]
  · have hnil : bytesOfSection inputs secRef = [] := by
      apply List.eq_nil_of_length_eq_zero
      rw [hlen, hsize]
    rw [hsplit, hnil, hsize]
    rfl

/-- A section of eight bytes: with the entry size 4 it has two elements of four bytes,
with the entry size 3 the third element is out of bounds, and with the entry size 0 the
loop does not end. -/
theorem mergeSections_fixedLength_elements_witness :
    splitSection [objectWithData [1, 2, 3, 4, 5, 6, 7, 8] 4] MergeType.fixedLength ⟨0, 1⟩ =
      SplitResult.elements [[1, 2, 3, 4], [5, 6, 7, 8]] ∧
    (4 ∣ 8 ∧ 8 / 4 = 2) ∧
    splitSection [objectWithData [1, 2, 3, 4, 5, 6, 7, 8] 3] MergeType.fixedLength ⟨0, 1⟩ =
      SplitResult.outOfBounds ∧
    splitSection [objectWithData [1, 2, 3, 4, 5, 6, 7, 8] 0] MergeType.fixedLength ⟨0, 1⟩ =
      SplitResult.diverges ∧
    ∀ es, splitSection [objectWithData [1, 2, 3, 4, 5, 6, 7, 8] 4] MergeType.fixedLength
        ⟨0, 1⟩ = SplitResult.elements es →
      es.length = shSizeOf [objectWithData [1, 2, 3, 4, 5, 6, 7, 8] 4] ⟨0, 1⟩ /
          entsizeOf [objectWithData [1, 2, 3, 4, 5, 6, 7, 8] 4] ⟨0, 1⟩ ∧
        (∀ e ∈ es, e.length = entsizeOf [objectWithData [1, 2, 3, 4, 5, 6, 7, 8] 4] ⟨0, 1⟩) ∧
        es.flatten = bytesOfSection [objectWithData [1, 2, 3, 4, 5, 6, 7, 8] 4] ⟨0, 1⟩ :=
  ⟨by decide, by decide,
   (mergeSections_fixedLength_elements [objectWithData [1, 2, 3, 4, 5, 6, 7, 8] 3] ⟨0, 1⟩
      (by decide)).1 (by decide) |>.2.2.2.1 (by decide),
   ((mergeSections_fixedLength_elements [objectWithData [1, 2, 3, 4, 5, 6, 7, 8] 0] ⟨0, 1⟩
      (by decide)).2.1 (by decide) (by decide)).2.2,
   ((mergeSections_fixedLength_elements [objectWithData [1, 2, 3, 4, 5, 6, 7, 8] 4] ⟨0, 1⟩
      (by decide)).1 (by decide)).2.2.2.2⟩

/-- C36 fails on the code.  The section of `objWrappingEntsize` has eight bytes from the
address `0x7f0000000000` on and the entry size `2^64 - 4`, which is at least 1 and does
not divide 8.  In the first iteration of the element loop the pointer sum
`stringsStart + sh_entsize` wraps to `stringsStart - 4`, which is not behind
`stringsEnd`: the test for an element out of bounds does not fire, the function does
not return `not_ok`, and the element is a view of `2^64 - 4` bytes that `try_emplace`
reads, of which eight are bytes of the section.  The loop ends with undefined behaviour,
and `mergeSections` returns no status. -/
theorem mergeSections_fixedLength_entsize_wraps :
    stringsStartOf [objWrappingEntsize] ⟨0, 1⟩ = 0x7f0000000000 ∧
    shSizeOf [objWrappingEntsize] ⟨0, 1⟩ = 8 ∧
    entsizeOf [objWrappingEntsize] ⟨0, 1⟩ = 2 ^ 64 - 4 ∧
    1 ≤ entsizeOf [objWrappingEntsize] ⟨0, 1⟩ ∧
    ¬ entsizeOf [objWrappingEntsize] ⟨0, 1⟩ ∣ shSizeOf [objWrappingEntsize] ⟨0, 1⟩ ∧
    (stringsStartOf [objWrappingEntsize] ⟨0, 1⟩ + entsizeOf [objWrappingEntsize] ⟨0, 1⟩) %
      2 ^ 64 = stringsStartOf [objWrappingEntsize] ⟨0, 1⟩ - 4 ∧
    ¬ ((stringsStartOf [objWrappingEntsize] ⟨0, 1⟩ + entsizeOf [objWrappingEntsize] ⟨0, 1⟩) %
        2 ^ 64 >
      stringsStartOf [objWrappingEntsize] ⟨0, 1⟩ + shSizeOf [objWrappingEntsize] ⟨0, 1⟩) ∧
    splitSection [objWrappingEntsize] MergeType.fixedLength ⟨0, 1⟩ = SplitResult.undefined ∧
    splitSection [objWrappingEntsize] MergeType.fixedLength ⟨0, 1⟩ ≠ SplitResult.outOfBounds ∧
    mergeSections [objWrappingEntsize] [⟨0, 1⟩] 0 MergeType.fixedLength
      (fun n => List.replicate n 0) id [0] [[]] = none := by
  decide

/-! ## Claim C37: relocations against symbols with an absolute definition -/

/-- The record that `processRelas` completes for a symbol whose definition is absolute,
when the type of the relocation needs no entry of the global offset table and is not a
size: the section id is the entry of `inputToOutputSection` at the index `SHN_ABS` of the
row of the defining input. -/
theorem processDefinedRela_absolute (p : ProcessRelasIn) (st : RelaState) (sym : Elf64_Sym)
    (resRela : ProcessedRela) (symName : Name) (firstLoadElfID : Nat) (symbol : Elf64_Sym)
    (habs : symbol.st_shndx = SHN_ABS) (hgot : needsGOTEntry resRela.type = false)
    (hsize : ¬ (resRela.type = R_X86_64_SIZE32 ∨ resRela.type = R_X86_64_SIZE64)) :
    processDefinedRela p st sym resRela symName firstLoadElfID symbol =
      LoopStep.continue { st with processResults := st.processResults ++ [
        { resRela with
          symbolSectionID := get2D p.inputToOutputSection firstLoadElfID SHN_ABS
          symbolValue := symbol.st_value
          note := Note.absoluteValue }] } := by
  have hx : symbol.st_shndx ≠ SHN_XINDEX := by
    rw [habs]
    decide
  unfold processDefinedRela
  rw [if_neg hx]
  simp only [habs, if_true, ne_eq, not_true_eq_false, false_and, if_false]
  rw [if_neg (by simpa using hgot), if_neg hsize]

/-- C37 fails on the code in its first half.  For a relocation against a global or weak
symbol whose definition has `st_shndx = SHN_ABS`, `processRelas` sets the section id of
the record to `inputToOutputSection[firstLoad.elfID][SHN_ABS]` before it tests for
`SHN_ABS`: the record holds the entry of index `0xFFF1` of the row, with the note
`absoluteValue` and the `st_value` of the definition as stated.  In the link of
`objRefGlobalA` with `objDefAbsoluteA`, which defines `a` as absolute, the row of the
defining input has the three entries of its three section headers, so the index `0xFFF1`
is not below the section count; the run returns `ok` with the record of the value
`0x1234`. -/
theorem processRelas_absolute_definition_lookup :
    (∀ p st sym resRela symName firstLoadElfID symbol,
      symbol.st_shndx = SHN_ABS → needsGOTEntry resRela.type = false →
      ¬ (resRela.type = R_X86_64_SIZE32 ∨ resRela.type = R_X86_64_SIZE64) →
      processDefinedRela p st sym resRela symName firstLoadElfID symbol =
        LoopStep.continue { st with processResults := st.processResults ++ [
          { resRela with
            symbolSectionID := get2D p.inputToOutputSection firstLoadElfID SHN_ABS
            symbolValue := symbol.st_value
            note := Note.absoluteValue }] }) ∧
    SHN_ABS = 0xFFF1 ∧
    (SymbolTable.find linkAbsoluteDefinition.symbolTable [97]).map
        (fun entry => entry.firstLoad) =
      some ⟨some (mkSym 1 STB_GLOBAL SHN_ABS 0x1234), 1⟩ ∧
    objDefAbsoluteA.headers.length = 3 ∧
    (linkAbsoluteDefinition.inputToOutputSection.getD 1 []).length = 3 ∧
    ¬ SHN_ABS < objDefAbsoluteA.headers.length ∧
    linkedSymbol relasInAbsoluteDefinition relaMovabs = mkSym 1 STB_GLOBAL SHN_UNDEF 0 ∧
    processRela relasInAbsoluteDefinition ⟨StatusCode.ok, [], [], [], []⟩ relaMovabs =
      processDefinedRela relasInAbsoluteDefinition ⟨StatusCode.ok, [], [], [], []⟩
        (mkSym 1 STB_GLOBAL SHN_UNDEF 0)
        { addend := 0, outputSectionOffset := 2, symbolValue := 0, type := R_X86_64_64,
          symbolSectionID := 0, note := Note.none }
        [97] 1 (mkSym 1 STB_GLOBAL SHN_ABS 0x1234) ∧
    (preProcessesRelocations [objRefGlobalA, objDefAbsoluteA] linkAbsoluteDefinition).status =
      StatusCode.ok ∧
    (preProcessesRelocations [objRefGlobalA, objDefAbsoluteA]
        linkAbsoluteDefinition).processedRelas.getD 0 [] =
      [{ addend := 0, outputSectionOffset := 2, symbolValue := 0x1234, type := R_X86_64_64,
         symbolSectionID := get2D linkAbsoluteDefinition.inputToOutputSection 1 SHN_ABS,
         note := Note.absoluteValue }] := by
  refine ⟨processDefinedRela_absolute, by decide, by decide, by decide, by decide, by decide,
    by decide, ?_, by decide, by decide⟩
  set_option maxRecDepth 100000 in rfl

/-! ## Claim C39: the flags of an output section -/

theorem makeFlagsCompatible_snd_self (f : Nat) : (makeFlagsCompatible f f).2 = f := by
  unfold makeFlagsCompatible
  rw [if_pos rfl]

theorem makeFlagsCompatible_snd_fit (f other : Nat) (hne : other ≠ f)
    (hfit : other &&& (2 ^ 64 - 1 - (SHF_MERGE ||| SHF_STRINGS)) =
      f &&& (2 ^ 64 - 1 - (SHF_MERGE ||| SHF_STRINGS))) :
    (makeFlagsCompatible f other).2 = f &&& (2 ^ 64 - 1 - (SHF_MERGE ||| SHF_STRINGS)) := by
  unfold makeFlagsCompatible
  rw [if_neg (fun h => hne h.symm)]
  simp only []
  rw [if_pos hfit]

theorem makeFlagsCompatible_snd_cleaned (f other : Nat)
    (hc : f &&& (2 ^ 64 - 1 - (SHF_MERGE ||| SHF_STRINGS)) = f) :
    (makeFlagsCompatible f other).2 = f := by
  unfold makeFlagsCompatible
  simp only []
  split_ifs
  · rfl
  · exact hc
  · rfl

theorem cleaned_and_mask (f : Nat) :
    (f &&& (2 ^ 64 - 1 - (SHF_MERGE ||| SHF_STRINGS))) &&&
        (2 ^ 64 - 1 - (SHF_MERGE ||| SHF_STRINGS)) =
      f &&& (2 ^ 64 - 1 - (SHF_MERGE ||| SHF_STRINGS)) := by
  rw [Nat.and_assoc, Nat.and_self]

theorem cleaned_merge_bits (f : Nat) :
    (f &&& (2 ^ 64 - 1 - (SHF_MERGE ||| SHF_STRINGS))) &&& SHF_MERGE = 0 ∧
    (f &&& (2 ^ 64 - 1 - (SHF_MERGE ||| SHF_STRINGS))) &&& SHF_STRINGS = 0 := by
  have h1 : (2 ^ 64 - 1 - (SHF_MERGE ||| SHF_STRINGS)) &&& SHF_MERGE = 0 := by decide
  have h2 : (2 ^ 64 - 1 - (SHF_MERGE ||| SHF_STRINGS)) &&& SHF_STRINGS = 0 := by decide
  rw [Nat.and_assoc, Nat.and_assoc, h1, h2]
  exact ⟨Nat.and_zero f, Nat.and_zero f⟩

theorem flagsAfter_cleaned (f : Nat) (others : List Nat)
    (hc : f &&& (2 ^ 64 - 1 - (SHF_MERGE ||| SHF_STRINGS)) = f) : flagsAfter f others = f := by
  induction others with
  | nil => rfl
  | cons x xs ih =>
    unfold flagsAfter at ih ⊢
    rw [List.foldl_cons, makeFlagsCompatible_snd_cleaned f x hc]
    exact ih

theorem flagsAfter_all_equal (f : Nat) (others : List Nat) (h : ∀ x ∈ others, x = f) :
    flagsAfter f others = f := by
  induction others with
  | nil => rfl
  | cons x xs ih =>
    have hx : x = f := h x (List.mem_cons_self _ _)
    unfold flagsAfter at ih ⊢
    rw [List.foldl_cons, hx, makeFlagsCompatible_snd_self]
    exact ih (fun y hy => h y (List.mem_cons_of_mem _ hy))

theorem flagsAfter_differ (f : Nat) (others : List Nat)
    (hfit : ∀ x ∈ others, x &&& (2 ^ 64 - 1 - (SHF_MERGE ||| SHF_STRINGS)) =
      f &&& (2 ^ 64 - 1 - (SHF_MERGE ||| SHF_STRINGS)))
    (hne : ∃ x ∈ others, x ≠ f) :
    flagsAfter f others = f &&& (2 ^ 64 - 1 - (SHF_MERGE ||| SHF_STRINGS)) := by
  induction others with
  | nil =>
    obtain ⟨x, hx, _⟩ := hne
    simp at hx
  | cons x xs ih =>
    by_cases hx : x = f
    · have hrec := ih (fun y hy => hfit y (List.mem_cons_of_mem _ hy)) (by
        obtain ⟨y, hy, hyne⟩ := hne
        rcases List.mem_cons.mp hy with rfl | hy
        · exact absurd hx hyne
        · exact ⟨y, hy, hyne⟩)
      unfold flagsAfter at hrec ⊢
      rw [List.foldl_cons, hx, makeFlagsCompatible_snd_self]
      exact hrec
    · have hstep := makeFlagsCompatible_snd_fit f x hx (hfit x (List.mem_cons_self _ _))
      have hclean := flagsAfter_cleaned (f &&& (2 ^ 64 - 1 - (SHF_MERGE ||| SHF_STRINGS))) xs
        (cleaned_and_mask f)
      unfold flagsAfter at hclean ⊢
      rw [List.foldl_cons, hstep]
      exact hclean

theorem flagsAfter_merge (f : Nat) (others : List Nat)
    (hfit : ∀ x ∈ others, x &&& (2 ^ 64 - 1 - (SHF_MERGE ||| SHF_STRINGS)) =
      f &&& (2 ^ 64 - 1 - (SHF_MERGE ||| SHF_STRINGS)))
    (hm : flagsAfter f others &&& SHF_MERGE ≠ 0) :
    (∀ x ∈ others, x = f) ∧ flagsAfter f others = f := by
  have hall : ∀ x ∈ others, x = f := by
    by_contra hn
    have hne : ∃ x ∈ others, x ≠ f := by
      by_contra hno
      apply hn
      intro x hx
      by_contra hxf
      exact hno ⟨x, hx, hxf⟩
    rw [flagsAfter_differ f others hfit hne] at hm
    exact hm (cleaned_merge_bits f).1
  exact ⟨hall, flagsAfter_all_equal f others hall⟩

theorem attributeOfSection_flags (sectionHeaders : List (List Elf64_Shdr)) (o : Nat)
    (st : InitAttributes) (r : SectionRef) (k : Nat) (hf : o < st.flags.length) :
    (attributeOfSection sectionHeaders o st r k).flags.getD o 0 =
      (makeFlagsCompatible
        (if k = 0 then (headerOf sectionHeaders r).sh_flags else st.flags.getD o 0)
        (headerOf sectionHeaders r).sh_flags).2 := by
  unfold attributeOfSection headerOf
  have h1 : ∀ (l : List Nat) (x : Nat), o < l.length → (l.set o x).getD o 0 = x :=
    fun l x h => getD_set_self l o x 0 h
  generalize get2D sectionHeaders r.elfIndex r.headerIndex = h
  by_cases hk : k = 0
  · simp only [if_pos hk, h1 _ _ hf, List.set_set]
    split_ifs <;> simp only [h1 _ _ hf]
  · simp only [if_neg hk]
    split_ifs <;> simp only [h1 _ _ hf]

theorem attributeOfSections_rest_flags (sectionHeaders : List (List Elf64_Shdr)) (o : Nat)
    (rs : List SectionRef) (i : Nat) (hi : i ≠ 0) (st : InitAttributes)
    (hf : o < st.flags.length) :
    (forEachIndexedFrom (attributeOfSection sectionHeaders o) i rs st).flags.getD o 0 =
      flagsAfter (st.flags.getD o 0) (rs.map (fun r => (headerOf sectionHeaders r).sh_flags)) := by
  induction rs generalizing i st with
  | nil => rfl
  | cons r rs ih =>
    have hsame := attributeOfSection_same sectionHeaders o st r i
    have hstep := attributeOfSection_flags sectionHeaders o st r i hf
    rw [if_neg hi] at hstep
    rw [forEachIndexedFrom, ih (i + 1) (Nat.succ_ne_zero i) _ (by rw [hsame.1]; exact hf), hstep]
    rfl

theorem attributeOfSections_group_flags (sectionHeaders : List (List Elf64_Shdr)) (o : Nat)
    (first : SectionRef) (rest : List SectionRef) (st : InitAttributes)
    (hf : o < st.flags.length) :
    (forEachIndexed (first :: rest) (attributeOfSection sectionHeaders o) st).flags.getD o 0 =
      flagsOfGroup sectionHeaders (first :: rest) := by
  have hsame := attributeOfSection_same sectionHeaders o st first 0
  have hstep := attributeOfSection_flags sectionHeaders o st first 0 hf
  rw [if_pos rfl, makeFlagsCompatible_snd_self] at hstep
  unfold forEachIndexed
  rw [forEachIndexedFrom, attributeOfSections_rest_flags sectionHeaders o rest (0 + 1)
    (Nat.succ_ne_zero 0) _ (by rw [hsame.1]; exact hf), hstep]
  rfl

theorem attributeOfGroups_flags (sectionHeaders : List (List Elf64_Shdr))
    (G : List (List SectionRef)) (i : Nat) (st : InitAttributes)
    (hf : i + G.length ≤ st.flags.length) (ht : i + G.length ≤ st.types.length)
    (ha : i + G.length ≤ st.alignments.length) :
    ∀ (k : Nat) (group : List SectionRef) (first : SectionRef), G[k]? = some group →
      group.head? = some first →
      (forEachIndexedFrom (fun st inputSections outSecID =>
        forEachIndexed inputSections (attributeOfSection sectionHeaders outSecID) st)
          i G st).flags.getD (i + k) 0 = flagsOfGroup sectionHeaders group := by
  induction G generalizing i st with
  | nil =>
    intro k group first hk
    simp at hk
  | cons g G ih =>
    simp only [List.length_cons] at hf ht ha
    obtain ⟨g1, -, -⟩ := attributeOfSections_group sectionHeaders i g st (by omega) (by omega)
      (by omega)
    obtain ⟨i1, -, -⟩ := attributeOfGroups sectionHeaders G (i + 1)
      (forEachIndexed g (attributeOfSection sectionHeaders i) st)
      (by rw [g1.1]; omega) (by rw [g1.2.1]; omega) (by rw [g1.2.2.1]; omega)
    intro k group first hk hfirst
    rw [forEachIndexedFrom]
    cases k with
    | zero =>
      simp only [List.getElem?_cons_zero, Option.some.injEq] at hk
      subst hk
      obtain ⟨s1, -, -⟩ := i1.2.2.2 i (Nat.lt_succ_self i)
      refine Eq.trans s1 ?_
      cases g with
      | nil => simp at hfirst
      | cons r0 rs => exact attributeOfSections_group_flags sectionHeaders i r0 rs st (by omega)
    | succ k =>
      simp only [List.getElem?_cons_succ] at hk
      have := ih (i + 1) (forEachIndexed g (attributeOfSection sectionHeaders i) st)
        (by rw [g1.1]; omega) (by rw [g1.2.1]; omega) (by rw [g1.2.2.1]; omega) k group first hk
        hfirst
      rw [show i + (k + 1) = i + 1 + k by omega]
      exact this

/-- An output section whose flags have no `SHF_MERGE` is concatenated by
`mergeAndSortInputSections`. -/
theorem mergeAndSortSection_concatenates (inputs : List ElfInput)
    (sortKeys outSectionFlags : List Nat)
    (sortRefs : (SectionRef → SectionRef → Bool) → List SectionRef → List SectionRef)
    (allocate : Nat → List Nat) (visitOrder : List (List Nat × Nat) → List (List Nat × Nat))
    (st : MergeSortState) (sectionRefs : List SectionRef) (outSectionID : Nat)
    (h : outSectionFlags.getD outSectionID 0 &&& SHF_MERGE = 0) :
    mergeAndSortSection inputs sortKeys outSectionFlags sortRefs allocate visitOrder (some st)
        sectionRefs outSectionID =
      some { st with
        outputToInputSections := st.outputToInputSections.set outSectionID
          (sortRefs (sectionRefBefore sortKeys) sectionRefs)
        outputSectionSizes := (concatenateSections (inputs.map ElfInput.headers)
          (sortRefs (sectionRefBefore sortKeys) sectionRefs) (outSectionID % 2 ^ 16)
          st.outputSectionSizes st.inputSectionCopyCommands).outputSectionSizes
        inputSectionCopyCommands := (concatenateSections (inputs.map ElfInput.headers)
          (sortRefs (sectionRefBefore sortKeys) sectionRefs) (outSectionID % 2 ^ 16)
          st.outputSectionSizes st.inputSectionCopyCommands).inputSectionCopyCommands } := by
  unfold mergeAndSortSection
  simp only []
  rw [if_pos h]

theorem flagsOfGroup_cons (sectionHeaders : List (List Elf64_Shdr)) (first : SectionRef)
    (rest : List SectionRef) :
    flagsOfGroup sectionHeaders (first :: rest) =
      flagsAfter (headerOf sectionHeaders first).sh_flags
        (rest.map (fun r => (headerOf sectionHeaders r).sh_flags)) := rfl

/-- The flags of a group whose input sections differ, but in no bit other than
`SHF_MERGE` and `SHF_STRINGS`: the flags of any of them without the two bits. -/
theorem flagsOfGroup_differ (sectionHeaders : List (List Elf64_Shdr))
    (group : List SectionRef) (first : SectionRef) (hfirst : first ∈ group)
    (hfit : ∀ r ∈ group, ∀ r2 ∈ group,
      (headerOf sectionHeaders r).sh_flags &&& (2 ^ 64 - 1 - (SHF_MERGE ||| SHF_STRINGS)) =
        (headerOf sectionHeaders r2).sh_flags &&& (2 ^ 64 - 1 - (SHF_MERGE ||| SHF_STRINGS)))
    (hne : ∃ r ∈ group, ∃ r2 ∈ group,
      (headerOf sectionHeaders r).sh_flags ≠ (headerOf sectionHeaders r2).sh_flags) :
    flagsOfGroup sectionHeaders group =
      (headerOf sectionHeaders first).sh_flags &&&
        (2 ^ 64 - 1 - (SHF_MERGE ||| SHF_STRINGS)) := by
  cases group with
  | nil => simp at hfirst
  | cons r0 rs =>
    rw [flagsOfGroup_cons, flagsAfter_differ]
    · exact hfit r0 (List.mem_cons_self _ _) first hfirst
    · intro x hx
      obtain ⟨r, hr, rfl⟩ := List.mem_map.mp hx
      exact hfit r (List.mem_cons_of_mem _ hr) r0 (List.mem_cons_self _ _)
    · by_contra hall
      obtain ⟨r, hr, r2, hr2, hdiff⟩ := hne
      have heq : ∀ r ∈ r0 :: rs,
          (headerOf sectionHeaders r).sh_flags = (headerOf sectionHeaders r0).sh_flags := by
        intro r hr
        rcases List.mem_cons.mp hr with rfl | hr
        · rfl
        · by_contra hx
          exact hall ⟨_, List.mem_map.mpr ⟨r, hr, rfl⟩, hx⟩
      exact hdiff ((heq r hr).trans (heq r2 hr2).symm)

/-- C39. For an output section `o` of `initOutputSections` with its group of input
sections, and 64-bit flags: the flags of the output section are those of the first input
section after the calls of `makeFlagsCompatible` for the others.  When the function
returns `ok` and these flags contain `SHF_MERGE`, the `sh_flags` of every input section
of the group are equal to them.  When the input sections of the group have flags that
differ, but in no bit other than `SHF_MERGE` and `SHF_STRINGS`, the output flags are the
flags of the first input section with both bits cleared, they contain neither bit, every
reordering of the group gives the same flags, and `mergeAndSortInputSections`
concatenates an output section with these flags. -/
theorem initOutputSections_merge_flags (sectionHeaders : List (List Elf64_Shdr))
    (sectionStringTables : List Memory)
    (hflags : ∀ hs ∈ sectionHeaders, ∀ h ∈ hs, h.sh_flags < 2 ^ 64)
    (o : Nat) (group : List SectionRef) (first : SectionRef)
    (hgroup : (initOutputSections sectionHeaders sectionStringTables).outputToInputSections[o]? =
      some group)
    (hfirst : group.head? = some first) :
    ∃ F, (initOutputSections sectionHeaders sectionStringTables).flags[o]? = some F ∧
      F = flagsOfGroup sectionHeaders group ∧
      ((initOutputSections sectionHeaders sectionStringTables).status = StatusCode.ok →
        F &&& SHF_MERGE ≠ 0 → ∀ r ∈ group, (headerOf sectionHeaders r).sh_flags = F) ∧
      ((∀ r ∈ group, ¬ differOutsideMergeBits (headerOf sectionHeaders r).sh_flags
          (headerOf sectionHeaders first).sh_flags) →
        (∃ r ∈ group,
          (headerOf sectionHeaders r).sh_flags ≠ (headerOf sectionHeaders first).sh_flags) →
        F = (headerOf sectionHeaders first).sh_flags &&&
          (2 ^ 64 - 1 - (SHF_MERGE ||| SHF_STRINGS)) ∧
        F &&& SHF_MERGE = 0 ∧ F &&& SHF_STRINGS = 0 ∧
        (∀ reordered : List SectionRef, reordered.Perm group →
          flagsOfGroup sectionHeaders reordered = F) ∧
        ∀ (inputs : List ElfInput) (sortKeys outSectionFlags : List Nat)
          (sortRefs : (SectionRef → SectionRef → Bool) → List SectionRef → List SectionRef)
          (allocate : Nat → List Nat)
          (visitOrder : List (List Nat × Nat) → List (List Nat × Nat))
          (st : MergeSortState) (sectionRefs : List SectionRef),
          outSectionFlags.getD o 0 = F →
          mergeAndSortSection inputs sortKeys outSectionFlags sortRefs allocate visitOrder
              (some st) sectionRefs o =
            some { st with
              outputToInputSections := st.outputToInputSections.set o
                (sortRefs (sectionRefBefore sortKeys) sectionRefs)
              outputSectionSizes := (concatenateSections (inputs.map ElfInput.headers)
                (sortRefs (sectionRefBefore sortKeys) sectionRefs) (o % 2 ^ 16)
                st.outputSectionSizes st.inputSectionCopyCommands).outputSectionSizes
              inputSectionCopyCommands := (concatenateSections (inputs.map ElfInput.headers)
                (sortRefs (sectionRefBefore sortKeys) sectionRefs) (o % 2 ^ 16)
                st.outputSectionSizes st.inputSectionCopyCommands).inputSectionCopyCommands }) := by
  have hlimit : ¬ (scanSections sectionHeaders sectionStringTables).sectionMap.length ≥
      SHN_LORESERVE - 4 := by
    intro hge
    unfold initOutputSections at hgroup
    simp only [] at hgroup
    rw [if_pos hge] at hgroup
    simp at hgroup
  obtain ⟨r0, rs, rfl⟩ : ∃ r0 rs, group = r0 :: rs := by
    cases group with
    | nil => simp at hfirst
    | cons r0 rs => exact ⟨r0, rs, rfl⟩
  have hr0 : r0 = first := by simpa using hfirst
  subst hr0
  have hM : ∀ a b : SectionRef,
      ¬ differOutsideMergeBits (headerOf sectionHeaders a).sh_flags
          (headerOf sectionHeaders b).sh_flags →
      (headerOf sectionHeaders a).sh_flags &&& (2 ^ 64 - 1 - (SHF_MERGE ||| SHF_STRINGS)) =
        (headerOf sectionHeaders b).sh_flags &&& (2 ^ 64 - 1 - (SHF_MERGE ||| SHF_STRINGS)) :=
    fun a b h => (cleaned_eq_iff _ _ (headerOf_flags_lt sectionHeaders hflags a)
      (headerOf_flags_lt sectionHeaders hflags b)).mpr h
  -- the flags that the second loop leaves
  have hout : (initOutputSections sectionHeaders sectionStringTables).flags[o]? =
        some (flagsOfGroup sectionHeaders (r0 :: rs)) ∧
      ((initOutputSections sectionHeaders sectionStringTables).status = StatusCode.ok →
        ∀ r ∈ r0 :: rs, fitsFirst (headerOf sectionHeaders r0) (headerOf sectionHeaders r)) := by
    unfold initOutputSections at hgroup ⊢
    simp only [] at hgroup ⊢
    rw [if_neg hlimit] at hgroup ⊢
    simp only [] at hgroup ⊢
    unfold forEachIndexed
    generalize (scanSections sectionHeaders sectionStringTables).sectionMap = m at hgroup ⊢
    generalize (scanSections sectionHeaders sectionStringTables).inputToOutputSection = io
    have hinit : ∀ n : Nat, (0 + (m.map Prod.snd).length ≤
        (List.replicate (m.map Prod.fst).length n).length) := by
      intro n
      simp
    obtain ⟨a1, -, a3⟩ := attributeOfGroups sectionHeaders (m.map Prod.snd) 0
      { status := StatusCode.ok
        reported := []
        alignments := List.replicate (m.map Prod.fst).length 0
        types := List.replicate (m.map Prod.fst).length 0
        flags := List.replicate (m.map Prod.fst).length 0
        inputToOutputSection := io }
      (hinit 0) (hinit 0) (hinit 0)
    have a4 := attributeOfGroups_flags sectionHeaders (m.map Prod.snd) 0
      { status := StatusCode.ok
        reported := []
        alignments := List.replicate (m.map Prod.fst).length 0
        types := List.replicate (m.map Prod.fst).length 0
        flags := List.replicate (m.map Prod.fst).length 0
        inputToOutputSection := io }
      (hinit 0) (hinit 0) (hinit 0) o (r0 :: rs) r0 hgroup rfl
    unfold forEachIndexed at a1 a3 a4
    rw [Nat.zero_add] at a4
    have hlt : o < (m.map Prod.snd).length := by
      by_contra hn
      rw [List.getElem?_eq_none (by omega)] at hgroup
      exact nomatch hgroup
    have hlt2 : o < m.length := by simpa using hlt
    refine ⟨?_, fun hok => ?_⟩
    · rw [getElem?_of_lt_length _ o (by rw [a1.1]; simpa using hlt2), a4]
    · exact (a3.mp hok).2 (r0 :: rs) (List.getElem?_mem hgroup) r0 rfl
  refine ⟨flagsOfGroup sectionHeaders (r0 :: rs), hout.1, rfl, ?_, ?_⟩
  · intro hok hmerge
    have hfits := hout.2 hok
    rw [flagsOfGroup_cons] at hmerge ⊢
    obtain ⟨m1, m2⟩ := flagsAfter_merge _ _ (by
      intro x hx
      obtain ⟨r, hr, rfl⟩ := List.mem_map.mp hx
      exact (hfits r (List.mem_cons_of_mem _ hr)).1) hmerge
    rw [m2]
    intro r hr
    rcases List.mem_cons.mp hr with rfl | hr
    · rfl
    · exact m1 _ (List.mem_map.mpr ⟨r, hr, rfl⟩)
  · intro hsame hne
    have hfit : ∀ r ∈ r0 :: rs, ∀ r2 ∈ r0 :: rs,
        (headerOf sectionHeaders r).sh_flags &&& (2 ^ 64 - 1 - (SHF_MERGE ||| SHF_STRINGS)) =
          (headerOf sectionHeaders r2).sh_flags &&&
            (2 ^ 64 - 1 - (SHF_MERGE ||| SHF_STRINGS)) :=
      fun r hr r2 hr2 => (hM r r0 (hsame r hr)).trans (hM r2 r0 (hsame r2 hr2)).symm
    have hne2 : ∃ r ∈ r0 :: rs, ∃ r2 ∈ r0 :: rs,
        (headerOf sectionHeaders r).sh_flags ≠ (headerOf sectionHeaders r2).sh_flags := by
      obtain ⟨r, hr, hx⟩ := hne
      exact ⟨r, hr, r0, List.mem_cons_self _ _, hx⟩
    have hF := flagsOfGroup_differ sectionHeaders (r0 :: rs) r0 (List.mem_cons_self _ _) hfit hne2
    refine ⟨hF, ?_, ?_, ?_, ?_⟩
    · rw [hF]
      exact (cleaned_merge_bits _).1
    · rw [hF]
      exact (cleaned_merge_bits _).2
    · intro reordered hperm
      rw [hF]
      apply flagsOfGroup_differ sectionHeaders reordered r0
        (hperm.mem_iff.mpr (List.mem_cons_self _ _))
      · intro r hr r2 hr2
        exact hfit r (hperm.mem_iff.mp hr) r2 (hperm.mem_iff.mp hr2)
      · obtain ⟨r, hr, r2, hr2, hx⟩ := hne2
        exact ⟨r, hperm.mem_iff.mpr hr, r2, hperm.mem_iff.mpr hr2, hx⟩
    · intro inputs sortKeys outSectionFlags sortRefs allocate visitOrder st sectionRefs hflag
      apply mergeAndSortSection_concatenates
      rw [hflag, hF]
      exact (cleaned_merge_bits _).1

/-- C39 on three objects that each have one section named `a`, with the flags
`SHF_ALLOC | SHF_MERGE`, `SHF_ALLOC` and `SHF_ALLOC | SHF_MERGE`: the status is `ok` and
the output section has the flags `SHF_ALLOC`, without `SHF_MERGE`. -/
theorem initOutputSections_merge_flags_witness :
    (∀ hs ∈ mergeFlagMixedHeaders, ∀ h ∈ hs, h.sh_flags < 2 ^ 64) ∧
    (initOutputSections mergeFlagMixedHeaders
      [manySectionNames 1, manySectionNames 1, manySectionNames 1]).outputToInputSections[0]? =
        some [⟨0, 1⟩, ⟨1, 1⟩, ⟨2, 1⟩] ∧
    (initOutputSections mergeFlagMixedHeaders
      [manySectionNames 1, manySectionNames 1, manySectionNames 1]).status = StatusCode.ok ∧
    (initOutputSections mergeFlagMixedHeaders
      [manySectionNames 1, manySectionNames 1, manySectionNames 1]).flags[0]? =
        some SHF_ALLOC ∧
    ∃ F, (initOutputSections mergeFlagMixedHeaders
        [manySectionNames 1, manySectionNames 1, manySectionNames 1]).flags[0]? = some F ∧
      F = flagsOfGroup mergeFlagMixedHeaders [⟨0, 1⟩, ⟨1, 1⟩, ⟨2, 1⟩] ∧
      ((initOutputSections mergeFlagMixedHeaders
          [manySectionNames 1, manySectionNames 1, manySectionNames 1]).status =
            StatusCode.ok →
        F &&& SHF_MERGE ≠ 0 →
        ∀ r ∈ [(⟨0, 1⟩ : SectionRef), ⟨1, 1⟩, ⟨2, 1⟩],
          (headerOf mergeFlagMixedHeaders r).sh_flags = F) :=
  ⟨by decide, by decide, by decide, by decide,
   (initOutputSections_merge_flags mergeFlagMixedHeaders
      [manySectionNames 1, manySectionNames 1, manySectionNames 1] (by decide) 0
      [⟨0, 1⟩, ⟨1, 1⟩, ⟨2, 1⟩] ⟨0, 1⟩ (by decide) (by decide)).imp
    (fun _ h => ⟨h.1, h.2.1, h.2.2.1⟩)⟩

/-! ## Claim C40: the index of the section-name string table -/

/-- C40 fails on the code.  `initRelaElf` returns `ok` exactly for the files that pass
its tests, and of `e_shstrndx` they ask only that it is not `SHN_XINDEX`.  The file
`fileNameTableBeyond` of 192 bytes has two section headers of 64 bytes at the offset 64
and `e_shstrndx = 5`: `initRelaElf` returns `ok` with the two headers, and it takes the
header of the string table at the offset `64 + 64 * 5 = 384`, which is neither in the
table of the headers, that ends at 192, nor in the file. -/
theorem initRelaElf_accepts_shstrndx_beyond_table :
    (∀ mem memSize, (initRelaElf mem memSize).status = StatusCode.ok ↔
      acceptedByCode mem memSize) ∧
    fileNameTableBeyond.length = 192 ∧
    (initRelaElf fileNameTableBeyond 192).status = StatusCode.ok ∧
    (initRelaElf fileNameTableBeyond 192).sectionHeaders = [default, progbitsHeader 0] ∧
    (readEhdr fileNameTableBeyond).e_shnum = 2 ∧
    (readEhdr fileNameTableBeyond).e_shstrndx = 5 ∧
    ¬ (readEhdr fileNameTableBeyond).e_shstrndx < (readEhdr fileNameTableBeyond).e_shnum ∧
    (readEhdr fileNameTableBeyond).e_shoff +
      sizeof_Elf64_Shdr * (readEhdr fileNameTableBeyond).e_shstrndx = 384 ∧
    (readEhdr fileNameTableBeyond).e_shoff +
      sizeof_Elf64_Shdr * (readEhdr fileNameTableBeyond).e_shnum = 192 := by
  refine ⟨initRelaElf_ok_iff, ?_, ?_, ?_, ?_, ?_, ?_, ?_, ?_⟩ <;>
    set_option maxRecDepth 100000 in decide

/-! ## Claim C34: addresses and file offsets of the loaded sections -/

theorem alignup_shift (a al D : Nat) (hal : max al 1 ∣ D) (hfit : a + D + max al 1 ≤ 2 ^ 64) :
    alignup (a + D) al = alignup a al + D := by
  unfold alignup add64
  simp only []
  have hpos : 0 < max al 1 := by omega
  obtain ⟨c, hc⟩ := hal
  have hmod : (a + D) % max al 1 = a % max al 1 := by
    rw [hc, Nat.add_mul_mod_self_left]
  rw [hmod]
  have hm := Nat.mod_lt a hpos
  generalize a % max al 1 = m at hm ⊢
  generalize max al 1 = k at *
  split_ifs with h0
  · rw [Nat.mod_eq_of_lt (by omega), Nat.mod_eq_of_lt (by omega)]
    omega
  · rfl

theorem max_one_dvd_pageSize (a : Nat) (h : ∃ k, a = 2 ^ k ∧ a ≤ pageSize) :
    max a 1 ∣ pageSize := by
  obtain ⟨k, rfl, hk⟩ := h
  have h1 : 1 ≤ 2 ^ k := Nat.one_le_two_pow
  rw [Nat.max_eq_left h1]
  have hp : pageSize = 2 ^ 12 := by decide
  rw [hp] at hk ⊢
  have hk12 : k ≤ 12 := by
    by_contra hn
    have : 2 ^ 13 ≤ 2 ^ k := Nat.pow_le_pow_right (by decide) (by omega)
    have h13 : (2 : Nat) ^ 13 = 8192 := by decide
    have h12 : (2 : Nat) ^ 12 = 4096 := by decide
    omega
  exact Nat.pow_dvd_pow 2 hk12

theorem pageSize_dvd_virtualAddressStart : pageSize ∣ virtualAddressStart := by decide

theorem placeSection_offsets (sizes aligns types : List Nat) (c : SectionCursor) (id B n : Nat)
    (done : List Nat) (hB : B < 2 ^ 64)
    (ha : c.addressPos + (max (aligns.getD id 0) 1 + sizes.getD id 0) ≤ B)
    (halign : max (aligns.getD id 0) 1 ∣ pageSize)
    (hrel : c.addressPos = c.filePos + virtualAddressStart)
    (hlenA : c.outputSectionAddresses.length = n) (hlenO : c.outputSectionFileOffsets.length = n)
    (hdone : ∀ s ∈ done, s < n →
      c.outputSectionAddresses.getD s 0 = c.outputSectionFileOffsets.getD s 0 +
        virtualAddressStart) :
    (placeSection sizes aligns types c id).addressPos =
      (placeSection sizes aligns types c id).filePos + virtualAddressStart ∧
    (placeSection sizes aligns types c id).outputSectionAddresses.length = n ∧
    (placeSection sizes aligns types c id).outputSectionFileOffsets.length = n ∧
    ∀ s ∈ done ++ [id], s < n →
      (placeSection sizes aligns types c id).outputSectionAddresses.getD s 0 =
        (placeSection sizes aligns types c id).outputSectionFileOffsets.getD s 0 +
          virtualAddressStart := by
  have hdvd : max (aligns.getD id 0) 1 ∣ virtualAddressStart :=
    Nat.dvd_trans halign pageSize_dvd_virtualAddressStart
  have hshift := alignup_shift c.filePos (aligns.getD id 0) virtualAddressStart hdvd
    (by rw [← hrel]; omega)
  rw [← hrel] at hshift
  have hb := alignup_bounds c.addressPos (aligns.getD id 0) (by omega)
  have hval : ∀ s ∈ done ++ [id], s < n →
      (c.outputSectionAddresses.set id (alignup c.addressPos (aligns.getD id 0))).getD s 0 =
        (c.outputSectionFileOffsets.set id (alignup c.filePos (aligns.getD id 0))).getD s 0 +
          virtualAddressStart := by
    intro s hs hsn
    by_cases hid : id = s
    · subst hid
      rw [getD_set_self _ _ _ _ (by omega), getD_set_self _ _ _ _ (by omega), hshift]
    · rw [getD_set_ne _ _ _ _ _ hid, getD_set_ne _ _ _ _ _ hid]
      rcases List.mem_append.mp hs with hs | hs
      · exact hdone s hs hsn
      · simp only [List.mem_singleton] at hs
        exact absurd hs.symm hid
  unfold placeSection
  simp only []
  split_ifs with hn
  · exact ⟨hshift, by simp [hlenA], by simp [hlenO], hval⟩
  · refine ⟨?_, by simp [hlenA], by simp [hlenO], hval⟩
    simp only [add64]
    rw [Nat.mod_eq_of_lt (by omega), Nat.mod_eq_of_lt (by omega), hshift]
    omega

theorem foldl_placeSection_offsets (sizes aligns types : List Nat) (sections : List Nat)
    (c : SectionCursor) (B n : Nat) (done : List Nat) (hB : B < 2 ^ 64)
    (hf : c.filePos + sectionsBound sizes aligns sections ≤ B)
    (ha : c.addressPos + sectionsBound sizes aligns sections ≤ B)
    (halign : ∀ s ∈ sections, max (aligns.getD s 0) 1 ∣ pageSize)
    (hrel : c.addressPos = c.filePos + virtualAddressStart)
    (hlenA : c.outputSectionAddresses.length = n) (hlenO : c.outputSectionFileOffsets.length = n)
    (hdone : ∀ s ∈ done, s < n →
      c.outputSectionAddresses.getD s 0 = c.outputSectionFileOffsets.getD s 0 +
        virtualAddressStart) :
    (sections.foldl (placeSection sizes aligns types) c).addressPos =
      (sections.foldl (placeSection sizes aligns types) c).filePos + virtualAddressStart ∧
    (sections.foldl (placeSection sizes aligns types) c).outputSectionAddresses.length = n ∧
    (sections.foldl (placeSection sizes aligns types) c).outputSectionFileOffsets.length = n ∧
    ∀ s ∈ done ++ sections, s < n →
      (sections.foldl (placeSection sizes aligns types) c).outputSectionAddresses.getD s 0 =
        (sections.foldl (placeSection sizes aligns types) c).outputSectionFileOffsets.getD s 0 +
          virtualAddressStart := by
  induction sections generalizing c done with
  | nil => exact ⟨hrel, hlenA, hlenO, by simpa using hdone⟩
  | cons id rest ih =>
    have hb : sectionsBound sizes aligns (id :: rest) =
        (max (aligns.getD id 0) 1 + sizes.getD id 0) + sectionsBound sizes aligns rest := by
      simp [sectionsBound]
    rw [hb] at hf ha
    have h1 := placeSection_cursor sizes aligns types c id B hB (by omega) (by omega)
    obtain ⟨p1, p2, p3, p4⟩ := placeSection_offsets sizes aligns types c id B n done hB
      (by omega) (halign id (List.mem_cons_self _ _)) hrel hlenA hlenO hdone
    have h2 := ih (placeSection sizes aligns types c id) (done ++ [id]) (by omega) (by omega)
      (fun s hs => halign s (List.mem_cons_of_mem _ hs)) p1 p2 p3 p4
    rw [List.foldl_cons]
    simpa using h2

theorem layoutLoadedSegment_offsets (sizes aligns types : List Nat) (fh : Nat) (st : LayoutState)
    (sections : List Nat) (B n : Nat) (done : List Nat) (hB : B < 2 ^ 64)
    (hf : st.fileStartPos + (pageSize + sectionsBound sizes aligns sections) ≤ B)
    (ha : st.segmentStartAddress + (pageSize + sectionsBound sizes aligns sections) ≤ B)
    (hfirst : st.ptHdrIndex = 0 →
      st.fileStartPos = fh ∧ st.segmentStartAddress = fh + virtualAddressStart)
    (halign : ∀ s ∈ sections, max (aligns.getD s 0) 1 ∣ pageSize)
    (hrel : st.segmentStartAddress = st.fileStartPos + virtualAddressStart)
    (hlenA : st.outputSectionAddresses.length = n)
    (hlenO : st.outputSectionFileOffsets.length = n)
    (hdone : ∀ s ∈ done, s < n →
      st.outputSectionAddresses.getD s 0 = st.outputSectionFileOffsets.getD s 0 +
        virtualAddressStart) :
    (layoutLoadedSegment sizes aligns types fh st sections).segmentStartAddress =
      (layoutLoadedSegment sizes aligns types fh st sections).fileStartPos +
        virtualAddressStart ∧
    (layoutLoadedSegment sizes aligns types fh st sections).outputSectionAddresses.length = n ∧
    (layoutLoadedSegment sizes aligns types fh st sections).outputSectionFileOffsets.length = n ∧
    (∀ s ∈ done ++ sections, s < n →
      (layoutLoadedSegment sizes aligns types fh st sections).outputSectionAddresses.getD s 0 =
        (layoutLoadedSegment sizes aligns types fh st sections).outputSectionFileOffsets.getD s 0 +
          virtualAddressStart) ∧
    (segmentProgramHeader fh st (placeSections sizes aligns types st sections)).p_vaddr =
      (segmentProgramHeader fh st (placeSections sizes aligns types st sections)).p_offset +
        virtualAddressStart := by
  have hspec := layoutLoadedSegment_spec sizes aligns types fh st sections B hB hf ha hfirst
  obtain ⟨-, -, s3, s4, -, -, -, -⟩ := hspec
  have hcur := foldl_placeSection_cursor sizes aligns types sections
    { filePos := st.fileStartPos
      addressPos := st.segmentStartAddress
      outputSectionAddresses := st.outputSectionAddresses
      outputSectionFileOffsets := st.outputSectionFileOffsets } B hB
    (by simp only []; omega) (by simp only []; omega)
  have hoff := foldl_placeSection_offsets sizes aligns types sections
    { filePos := st.fileStartPos
      addressPos := st.segmentStartAddress
      outputSectionAddresses := st.outputSectionAddresses
      outputSectionFileOffsets := st.outputSectionFileOffsets } B n done hB
    (by simp only []; omega) (by simp only []; omega) halign hrel hlenA hlenO hdone
  simp only [] at hcur
  have hcur' : st.fileStartPos ≤ (placeSections sizes aligns types st sections).filePos ∧
      (placeSections sizes aligns types st sections).filePos ≤
        st.fileStartPos + sectionsBound sizes aligns sections ∧
      st.segmentStartAddress ≤ (placeSections sizes aligns types st sections).addressPos ∧
      (placeSections sizes aligns types st sections).addressPos ≤
        st.segmentStartAddress + sectionsBound sizes aligns sections := hcur
  have hoff' : (placeSections sizes aligns types st sections).addressPos =
        (placeSections sizes aligns types st sections).filePos + virtualAddressStart ∧
      (placeSections sizes aligns types st sections).outputSectionAddresses.length = n ∧
      (placeSections sizes aligns types st sections).outputSectionFileOffsets.length = n ∧
      ∀ s ∈ done ++ sections, s < n →
        (placeSections sizes aligns types st sections).outputSectionAddresses.getD s 0 =
          (placeSections sizes aligns types st sections).outputSectionFileOffsets.getD s 0 +
            virtualAddressStart := hoff
  refine ⟨?_, hoff'.2.1, hoff'.2.2.1, hoff'.2.2.2, ?_⟩
  · simp only [layoutLoadedSegment]
    generalize placeSections sizes aligns types st sections = cur at hcur' hoff' ⊢
    obtain ⟨c1, c2, c3, c4⟩ := hcur'
    have hs1 : sub64 cur.filePos st.fileStartPos = cur.filePos - st.fileStartPos :=
      sub64_of_le _ _ c1 (by omega)
    have hs2 : sub64 cur.addressPos st.segmentStartAddress =
        cur.addressPos - st.segmentStartAddress := sub64_of_le _ _ c3 (by omega)
    have ha1 : add64 st.fileStartPos (cur.filePos - st.fileStartPos) = cur.filePos := by
      rw [add64_of_lt _ _ (by omega)]
      omega
    have ha2 : add64 st.segmentStartAddress (cur.addressPos - st.segmentStartAddress) =
        cur.addressPos := by
      rw [add64_of_lt _ _ (by omega)]
      omega
    rw [hs1, hs2, ha1, ha2, hoff'.1]
    have hmax : max pageSize 1 = pageSize := by decide
    exact alignup_shift cur.filePos pageSize virtualAddressStart
      (by rw [hmax]; exact pageSize_dvd_virtualAddressStart)
      (by rw [hmax, ← hoff'.1]; omega)
  · by_cases hk : st.ptHdrIndex = 0
    · obtain ⟨e1, -, e3⟩ := s4 hk
      rw [e1, e3, Nat.zero_add]
    · obtain ⟨e1, e2⟩ := s3 (by omega)
      rw [e1, e2, hrel]

theorem layoutBuckets_offsets (sizes aligns types : List Nat) (fh : Nat)
    (buckets : List (List Nat)) (st : LayoutState) (D R : List Elf64_Phdr) (B n : Nat)
    (done : List Nat)
    (hB : B < 2 ^ 64) (hst : st.programHeaders = D ++ R) (hk : st.ptHdrIndex = D.length)
    (hlen : buckets.length ≤ R.length)
    (hf : st.fileStartPos + segmentsBound sizes aligns buckets ≤ B)
    (ha : st.segmentStartAddress + segmentsBound sizes aligns buckets ≤ B)
    (hfirst : st.ptHdrIndex = 0 →
      st.fileStartPos = fh ∧ st.segmentStartAddress = fh + virtualAddressStart)
    (halign : ∀ b ∈ buckets, ∀ s ∈ b, max (aligns.getD s 0) 1 ∣ pageSize)
    (hrel : st.segmentStartAddress = st.fileStartPos + virtualAddressStart)
    (hlenA : st.outputSectionAddresses.length = n)
    (hlenO : st.outputSectionFileOffsets.length = n)
    (hdone : ∀ s ∈ done, s < n →
      st.outputSectionAddresses.getD s 0 = st.outputSectionFileOffsets.getD s 0 +
        virtualAddressStart) :
    (∀ s ∈ done ++ buckets.flatten, s < n →
      (buckets.foldl (layoutLoadedSegment sizes aligns types fh) st).outputSectionAddresses.getD
          s 0 =
        (buckets.foldl (layoutLoadedSegment sizes aligns types fh)
          st).outputSectionFileOffsets.getD s 0 + virtualAddressStart) ∧
    ∃ N, (buckets.foldl (layoutLoadedSegment sizes aligns types fh) st).programHeaders =
        D ++ N ++ R.drop buckets.length ∧
      N.length = buckets.length ∧
      ∀ h ∈ N, h.p_vaddr = h.p_offset + virtualAddressStart := by
  induction buckets generalizing st D R done with
  | nil => exact ⟨by simpa using hdone, [], by simp [hst], rfl, by simp⟩
  | cons b bs ih =>
    cases R with
    | nil => simp at hlen
    | cons r R2 =>
      rw [segmentsBound_cons] at hf ha
      have hspec := layoutLoadedSegment_spec sizes aligns types fh st b B hB (by omega)
        (by omega) hfirst
      obtain ⟨-, -, -, -, -, -, s7, s8⟩ := hspec
      obtain ⟨o1, o2, o3, o4, o5⟩ := layoutLoadedSegment_offsets sizes aligns types fh st b B n
        done hB (by omega) (by omega) hfirst (halign b (List.mem_cons_self _ _)) hrel hlenA
        hlenO hdone
      have hidx : (layoutLoadedSegment sizes aligns types fh st b).ptHdrIndex =
          st.ptHdrIndex + 1 := rfl
      have hprog : (layoutLoadedSegment sizes aligns types fh st b).programHeaders =
          (D ++ [segmentProgramHeader fh st (placeSections sizes aligns types st b)]) ++ R2 := by
        show st.programHeaders.set st.ptHdrIndex _ = _
        rw [hst, hk]
        simp
      obtain ⟨n0, N2, n1, n2, n3⟩ := ih (layoutLoadedSegment sizes aligns types fh st b)
        (D ++ [segmentProgramHeader fh st (placeSections sizes aligns types st b)]) R2
        (done ++ b) hprog (by rw [hidx, hk]; simp) (by simpa using hlen) (by omega) (by omega)
        (fun h0 => by rw [hidx] at h0; omega)
        (fun b2 hb2 => halign b2 (List.mem_cons_of_mem _ hb2)) o1 o2 o3 o4
      refine ⟨?_, segmentProgramHeader fh st (placeSections sizes aligns types st b) :: N2,
        ?_, ?_, ?_⟩
      · rw [List.foldl_cons]
        intro s hs hsn
        apply n0 s _ hsn
        simpa [List.append_assoc] using hs
      · rw [List.foldl_cons, n1]
        simp
      · simp [n2]
      · intro h hh
        rcases List.mem_cons.mp hh with rfl | hh
        · exact o5
        · exact n3 h hh

theorem constructLoadedSectionLayout_fields (segs : List (List Nat))
    (sizes aligns types : List Nat) :
    (constructLoadedSectionLayout segs sizes aligns types).outputSectionAddresses =
      (((loadedBuckets 0 segs).map Prod.snd).foldl
        (layoutLoadedSegment sizes aligns types
          (sizeof_Elf64_Ehdr + sizeof_Elf64_Phdr * ((loadedBuckets 0 segs).length + 1)))
        { programHeaders := (loadedBuckets 0 segs).map (fun p =>
            newProgramHeader (segmentTypes.getD p.1 0) (segmentFlags.getD p.1 0)) ++
            [{ newProgramHeader PT_GNU_STACK (segmentFlags.getD SegmentLocation.readWrite 0) with
               p_align := 0x10 }]
          outputSectionAddresses := List.replicate sizes.length notAnOutputSection
          outputSectionFileOffsets := List.replicate sizes.length notAnOutputSection
          fileStartPos :=
            sizeof_Elf64_Ehdr + sizeof_Elf64_Phdr * ((loadedBuckets 0 segs).length + 1)
          segmentStartAddress := add64
            (sizeof_Elf64_Ehdr + sizeof_Elf64_Phdr * ((loadedBuckets 0 segs).length + 1))
            virtualAddressStart
          ptHdrIndex := 0 }).outputSectionAddresses ∧
    (constructLoadedSectionLayout segs sizes aligns types).outputSectionFileOffsets =
      (((loadedBuckets 0 segs).map Prod.snd).foldl
        (layoutLoadedSegment sizes aligns types
          (sizeof_Elf64_Ehdr + sizeof_Elf64_Phdr * ((loadedBuckets 0 segs).length + 1)))
        { programHeaders := (loadedBuckets 0 segs).map (fun p =>
            newProgramHeader (segmentTypes.getD p.1 0) (segmentFlags.getD p.1 0)) ++
            [{ newProgramHeader PT_GNU_STACK (segmentFlags.getD SegmentLocation.readWrite 0) with
               p_align := 0x10 }]
          outputSectionAddresses := List.replicate sizes.length notAnOutputSection
          outputSectionFileOffsets := List.replicate sizes.length notAnOutputSection
          fileStartPos :=
            sizeof_Elf64_Ehdr + sizeof_Elf64_Phdr * ((loadedBuckets 0 segs).length + 1)
          segmentStartAddress := add64
            (sizeof_Elf64_Ehdr + sizeof_Elf64_Phdr * ((loadedBuckets 0 segs).length + 1))
            virtualAddressStart
          ptHdrIndex := 0 }).outputSectionFileOffsets := by
  unfold constructLoadedSectionLayout forEachIndexed
  simp only [forEachIndexedFrom_emplace, forEachIndexedFrom_layout, List.nil_append,
    List.length_append, List.length_map, List.length_singleton, and_self]

/-- C34. In the layout of `constructLoadedSectionLayout`, when no address reaches `2^64`
and every alignment of an output section is a power of two not above the page size
`0x1000`: for the `k`-th loaded segment, its program header `h` (the `k`-th program
header) and every output section `s` of the segment, the address of the section is its
file offset plus `0x400000`, `p_vaddr` is `p_offset` plus `0x400000`, and so the address
minus `p_vaddr` is the file offset minus `p_offset`; the header of the first loaded
segment has `p_vaddr = 0x400000` and `p_offset = 0`. -/
theorem constructLoadedSectionLayout_congruent (segmentedSections : List (List Nat))
    (outputSectionSizes outputSectionAlignments outputSectionTypes : List Nat)
    (hfit : layoutBound segmentedSections outputSectionSizes outputSectionAlignments < 2 ^ 64)
    (halign : ∀ a ∈ outputSectionAlignments, ∃ k, a = 2 ^ k ∧ a ≤ 0x1000)
    (k : Nat) (segment : Nat × List Nat) (h : Elf64_Phdr) (s : Nat)
    (hsegment : (loadedBuckets 0 segmentedSections)[k]? = some segment)
    (hheader : (constructLoadedSectionLayout segmentedSections outputSectionSizes
      outputSectionAlignments outputSectionTypes).programHeaders[k]? = some h)
    (hs : s ∈ segment.2) (hsn : s < outputSectionSizes.length) :
    (constructLoadedSectionLayout segmentedSections outputSectionSizes outputSectionAlignments
        outputSectionTypes).outputSectionAddresses.getD s 0 =
      (constructLoadedSectionLayout segmentedSections outputSectionSizes outputSectionAlignments
        outputSectionTypes).outputSectionFileOffsets.getD s 0 + 0x400000 ∧
    h.p_vaddr = h.p_offset + 0x400000 ∧
    (((constructLoadedSectionLayout segmentedSections outputSectionSizes
        outputSectionAlignments outputSectionTypes).outputSectionAddresses.getD s 0 : Int) -
        (h.p_vaddr : Int) =
      ((constructLoadedSectionLayout segmentedSections outputSectionSizes
        outputSectionAlignments outputSectionTypes).outputSectionFileOffsets.getD s 0 : Int) -
        (h.p_offset : Int)) ∧
    (k = 0 → h.p_vaddr = 0x400000 ∧ h.p_offset = 0) := by
  have hlen := loadedBuckets_length_le segmentedSections 0
  have hbound := segmentsBound_loadedBuckets_le outputSectionSizes outputSectionAlignments
    segmentedSections 0
  have hB : virtualAddressStart + sizeof_Elf64_Ehdr +
      sizeof_Elf64_Phdr * (segmentedSections.length + 1) +
      segmentsBound outputSectionSizes outputSectionAlignments segmentedSections < 2 ^ 64 := hfit
  have hsz : sizeof_Elf64_Phdr * ((loadedBuckets 0 segmentedSections).length + 1) ≤
      sizeof_Elf64_Phdr * (segmentedSections.length + 1) := Nat.mul_le_mul_left _ (by omega)
  have hadd : add64
      (sizeof_Elf64_Ehdr + sizeof_Elf64_Phdr * ((loadedBuckets 0 segmentedSections).length + 1))
      virtualAddressStart =
      sizeof_Elf64_Ehdr + sizeof_Elf64_Phdr * ((loadedBuckets 0 segmentedSections).length + 1) +
        virtualAddressStart := add64_of_lt _ _ (by omega)
  have hdvd : ∀ s : Nat, max (outputSectionAlignments.getD s 0) 1 ∣ pageSize := by
    intro s
    by_cases hlt : s < outputSectionAlignments.length
    · apply max_one_dvd_pageSize
      have hmem : outputSectionAlignments.getD s 0 ∈ outputSectionAlignments := by
        rw [List.getD_eq_getElem _ _ hlt]
        exact List.getElem_mem hlt
      exact halign _ hmem
    · rw [List.getD_eq_default _ _ (by omega)]
      decide
  obtain ⟨hA, hO⟩ := constructLoadedSectionLayout_fields segmentedSections outputSectionSizes
    outputSectionAlignments outputSectionTypes
  have hP := constructLoadedSectionLayout_eq segmentedSections outputSectionSizes
    outputSectionAlignments outputSectionTypes
  obtain ⟨n0, N, n1, n2, n3⟩ := layoutBuckets_offsets outputSectionSizes outputSectionAlignments
    outputSectionTypes
    (sizeof_Elf64_Ehdr + sizeof_Elf64_Phdr * ((loadedBuckets 0 segmentedSections).length + 1))
    ((loadedBuckets 0 segmentedSections).map Prod.snd)
    { programHeaders := (loadedBuckets 0 segmentedSections).map (fun p =>
        newProgramHeader (segmentTypes.getD p.1 0) (segmentFlags.getD p.1 0)) ++
        [{ newProgramHeader PT_GNU_STACK (segmentFlags.getD SegmentLocation.readWrite 0) with
           p_align := 0x10 }]
      outputSectionAddresses := List.replicate outputSectionSizes.length notAnOutputSection
      outputSectionFileOffsets := List.replicate outputSectionSizes.length notAnOutputSection
      fileStartPos :=
        sizeof_Elf64_Ehdr + sizeof_Elf64_Phdr * ((loadedBuckets 0 segmentedSections).length + 1)
      segmentStartAddress := add64
        (sizeof_Elf64_Ehdr +
          sizeof_Elf64_Phdr * ((loadedBuckets 0 segmentedSections).length + 1))
        virtualAddressStart
      ptHdrIndex := 0 }
    [] ((loadedBuckets 0 segmentedSections).map (fun p =>
        newProgramHeader (segmentTypes.getD p.1 0) (segmentFlags.getD p.1 0)) ++
        [{ newProgramHeader PT_GNU_STACK (segmentFlags.getD SegmentLocation.readWrite 0) with
           p_align := 0x10 }])
    (layoutBound segmentedSections outputSectionSizes outputSectionAlignments)
    outputSectionSizes.length [] hfit rfl rfl (by simp)
    (by simp only []; unfold layoutBound; omega)
    (by simp only [hadd]; unfold layoutBound; omega)
    (fun _ => ⟨rfl, hadd⟩) (fun b _ s _ => hdvd s) hadd (by simp) (by simp)
    (fun s hs => absurd hs (List.not_mem_nil s))
  obtain ⟨M, m1, m2, -, -, m5⟩ := constructLoadedSectionLayout_headers segmentedSections
    outputSectionSizes outputSectionAlignments outputSectionTypes hfit
  have hk : k < (loadedBuckets 0 segmentedSections).length := by
    by_contra hn
    rw [List.getElem?_eq_none (by omega)] at hsegment
    exact nomatch hsegment
  have hsmem : s ∈ ((loadedBuckets 0 segmentedSections).map Prod.snd).flatten := by
    rw [List.mem_flatten]
    exact ⟨segment.2, List.mem_map.mpr ⟨segment, List.getElem?_mem hsegment, rfl⟩, hs⟩
  have haddr := n0 s (by simpa using hsmem) hsn
  rw [← hA, ← hO] at haddr
  rw [← hP, List.nil_append] at n1
  have hN : N[k]? = some h := by
    rw [n1, List.getElem?_append_left (by rw [n2]; simpa using hk)] at hheader
    exact hheader
  have hM : M[k]? = some h := by
    rw [m1, List.getElem?_append_left (by rw [m2]; exact hk)] at hheader
    exact hheader
  have hhdr := n3 h (List.getElem?_mem hN)
  have hv : virtualAddressStart = 0x400000 := rfl
  rw [hv] at haddr hhdr
  refine ⟨haddr, hhdr, ?_, ?_⟩
  · rw [haddr, hhdr]
    push_cast
    ring
  · intro hk0
    subst hk0
    have hhead : M.head? = some h := by
      cases M with
      | nil => simp at hM
      | cons x t => simpa using hM
    obtain ⟨e1, -, e3⟩ := m5 h hhead
    exact ⟨e1, e3⟩

/-- C34 on a layout with a read-only, a writable and an executable segment: the output
section 2 is in the second loaded segment, and its address minus the `p_vaddr` of that
segment is its file offset minus `p_offset`. -/
theorem constructLoadedSectionLayout_congruent_witness :
    layoutBound [[0], [1, 2, 3], [4], [], [], [5]] [100, 8, 16, 32, 50, 7] [16, 8, 8, 8, 16, 1]
      < 2 ^ 64 ∧
    (∀ a ∈ [16, 8, 8, 8, 16, 1], ∃ k, a = 2 ^ k ∧ a ≤ 0x1000) ∧
    (loadedBuckets 0 [[0], [1, 2, 3], [4], [], [], [5]])[1]? = some (1, [1, 2, 3]) ∧
    (constructLoadedSectionLayout [[0], [1, 2, 3], [4], [], [], [5]] [100, 8, 16, 32, 50, 7]
        [16, 8, 8, 8, 16, 1] [1, 1, 8, 8, 1, 2]).outputSectionAddresses.getD 2 0 =
      (constructLoadedSectionLayout [[0], [1, 2, 3], [4], [], [], [5]] [100, 8, 16, 32, 50, 7]
        [16, 8, 8, 8, 16, 1] [1, 1, 8, 8, 1, 2]).outputSectionFileOffsets.getD 2 0 + 0x400000 ∧
    ∀ h, (constructLoadedSectionLayout [[0], [1, 2, 3], [4], [], [], [5]]
        [100, 8, 16, 32, 50, 7] [16, 8, 8, 8, 16, 1] [1, 1, 8, 8, 1, 2]).programHeaders[1]? =
          some h →
      h.p_vaddr = h.p_offset + 0x400000 :=
  have halign : ∀ a ∈ [16, 8, 8, 8, 16, 1], ∃ k, a = 2 ^ k ∧ a ≤ 0x1000 := by
    intro a ha
    simp only [List.mem_cons, List.mem_singleton, List.not_mem_nil, or_false] at ha
    rcases ha with rfl | rfl | rfl | rfl | rfl | rfl
    · exact ⟨4, by decide⟩
    · exact ⟨3, by decide⟩
    · exact ⟨3, by decide⟩
    · exact ⟨3, by decide⟩
    · exact ⟨4, by decide⟩
    · exact ⟨0, by decide⟩
  ⟨by decide, halign, by decide,
   (constructLoadedSectionLayout_congruent [[0], [1, 2, 3], [4], [], [], [5]]
      [100, 8, 16, 32, 50, 7] [16, 8, 8, 8, 16, 1] [1, 1, 8, 8, 1, 2] (by decide) halign 1
      (1, [1, 2, 3])
      ((constructLoadedSectionLayout [[0], [1, 2, 3], [4], [], [], [5]] [100, 8, 16, 32, 50, 7]
        [16, 8, 8, 8, 16, 1] [1, 1, 8, 8, 1, 2]).programHeaders.getD 1 default)
      2 (by decide) (by decide) (by decide) (by decide)).1,
   fun h hh => (constructLoadedSectionLayout_congruent [[0], [1, 2, 3], [4], [], [], [5]]
      [100, 8, 16, 32, 50, 7] [16, 8, 8, 8, 16, 1] [1, 1, 8, 8, 1, 2] (by decide) halign 1
      (1, [1, 2, 3]) h 2 (by decide) hh (by decide) (by decide)).2.1⟩

/-! ## Claim C38: the memory of the string tables -/

/-- The lambda `pushSymbol` writes the name of every symbol it is called for, with its
terminator, to the string table, whether or not it writes the symbol. -/
theorem pushSymbol_stringTableMem (p : SynthIn) (t : SynthTables) (sym : Elf64_Sym)
    (symName : Name) (elfID : Nat) :
    (pushSymbol p t sym symName elfID).stringTableMem = t.stringTableMem ++ symName ++ [0] := by
  unfold pushSymbol
  simp only []
  split_ifs <;> rfl

/-- C38 fails on the code.  `pushSymbol` writes the name and a terminator for every
symbol, so two symbols whose names are the same bytes of an input string table take the
bytes twice.  The object `objRepeatedLocals` has a `.text`, twenty local absolute symbols
that all have the name `a` at the offset 1 of the string table, and the global symbol
`b`; its two `SHT_STRTAB` sections have 5 and 33 bytes, so the memory reserved for the
string tables has `38 + 4 + 4 + 7 + 7 + 9 = 69` bytes.  In its link
`synthesizeSyntheticSections` writes a symbol string table of 43 bytes and behind it, in
the same memory, a section-header string table of 38 bytes: 81 bytes are written to the
69 reserved, the last twelve behind the end of the allocation, so that the link has no
defined outputs.  The 22 records of the symbol table fit the memory reserved for
them. -/
theorem synthesizeSyntheticSections_exceeds_reserved :
    (∀ p t sym symName elfID,
      (pushSymbol p t sym symName elfID).stringTableMem.length =
        t.stringTableMem.length + (symName.length + 1)) ∧
    (objRepeatedLocals.headers.filter (fun h => h.sh_type = SHT_STRTAB)).map
        (fun h => h.sh_size) = [5, 33] ∧
    (initOutputSections [objRepeatedLocals.headers]
      [objRepeatedLocals.mem.drop 533]).status = StatusCode.ok ∧
    (initOutputSections [objRepeatedLocals.headers]
      [objRepeatedLocals.mem.drop 533]).names = [bytesOf ".text"] ∧
    (initOutputSections [objRepeatedLocals.headers]
      [objRepeatedLocals.mem.drop 533]).totalStringTableMemorySize = 38 ∧
    enoughStringTableMemorySize (initOutputSections [objRepeatedLocals.headers]
      [objRepeatedLocals.mem.drop 533]) = 69 ∧
    linkRepeatedLocals.output? = none ∧
    linkRepeatedLocals.written?.map (fun synth => synth.outputSectionSizes) =
      some [12, 24, 528, 43, 38] ∧
    linkRepeatedLocals.written?.map
        (fun synth => ((synth.materializedViews.getD 3 none).getD []).length) = some 43 ∧
    linkRepeatedLocals.written?.map
        (fun synth => ((synth.materializedViews.getD 4 none).getD []).length) = some 38 ∧
    linkRepeatedLocals.written?.map (fun synth => synth.stringTableMem.length) = some 81 ∧
    linkRepeatedLocals.written?.map (fun synth => synth.symbolTableMem.length) = some 22 ∧
    linkRepeatedLocals.written?.map (fun synth => synth.withinMemory) = some false ∧
    ¬ (43 + 38 ≤ enoughStringTableMemorySize (initOutputSections [objRepeatedLocals.headers]
      [objRepeatedLocals.mem.drop 533])) := by
  refine ⟨?_, by decide, ?_, ?_, ?_, ?_, ?_, ?_, ?_, ?_, ?_, ?_, ?_, ?_⟩
  · intro p t sym symName elfID
    rw [pushSymbol_stringTableMem]
    simp only [List.length_append, List.length_singleton]
    omega
  all_goals
    set_option maxRecDepth 1000000 in decide

/-! ## Claim C35: the number of section headers of the output -/

theorem forEachIndexedFrom_fixed {α σ : Type} (f : σ → α → Nat → σ) (xs : List α) (i : Nat)
    (s : σ) (h : ∀ x ∈ xs, ∀ j, f s x j = s) : forEachIndexedFrom f i xs s = s := by
  induction xs generalizing i with
  | nil => rfl
  | cons x xs ih =>
    rw [forEachIndexedFrom, h x (List.mem_cons_self _ _) i]
    exact ih (i + 1) (fun y hy => h y (List.mem_cons_of_mem _ hy))

theorem preProcessesRelocations_no_rela (inputs : List ElfInput) (q : PreProcessIn)
    (hrela : ∀ e ∈ inputs, ∀ h ∈ e.headers, h.sh_type ≠ SHT_RELA) :
    (preProcessesRelocations inputs q).status = StatusCode.ok := by
  unfold preProcessesRelocations forEachIndexed
  rw [forEachIndexedFrom_fixed]
  intro e he j
  unfold preProcessInput forEachIndexed
  apply forEachIndexedFrom_fixed
  intro h hh k
  unfold preProcessHeader
  rw [if_pos (hrela e he h hh)]

theorem get2D_mem_or_default {α : Type} [Inhabited α] (v : List (List α)) (i j : Nat) :
    (∃ row ∈ v, get2D v i j ∈ row) ∨ get2D v i j = default := by
  unfold get2D
  rw [List.getD_eq_getElem?_getD, List.getD_eq_getElem?_getD]
  cases h1 : v[i]? with
  | none =>
    right
    simp
  | some row =>
    simp only [Option.getD_some]
    cases h2 : row[j]? with
    | none =>
      right
      simp
    | some x =>
      left
      exact ⟨row, List.getElem?_mem h1, by simpa using List.getElem?_mem h2⟩

theorem getD_set_cases (P : Nat → Prop) (l : List Nat) (i : Nat) (x : Nat) (hx : P x)
    (hl : ∀ j, P (l.getD j 0)) : ∀ j, P ((l.set i x).getD j 0) := by
  intro j
  by_cases hij : i = j
  · by_cases hlt : i < l.length
    · subst hij
      rw [getD_set_self _ _ _ _ hlt]
      exact hx
    · rw [List.set_eq_of_length_le (by omega)]
      exact hl j
  · rw [getD_set_ne _ _ _ _ _ hij]
    exact hl j

theorem makeFlagsCompatible_no_merge (f other : Nat) (hf : f &&& SHF_MERGE = 0) :
    (makeFlagsCompatible f other).2 &&& SHF_MERGE = 0 := by
  unfold makeFlagsCompatible
  simp only []
  split_ifs
  · exact hf
  · exact (cleaned_merge_bits f).1
  · exact hf

theorem attributeOfSection_no_merge (sectionHeaders : List (List Elf64_Shdr))
    (hmerge : ∀ hs ∈ sectionHeaders, ∀ h ∈ hs, h.sh_flags &&& SHF_MERGE = 0)
    (o : Nat) (st : InitAttributes) (r : SectionRef) (k : Nat)
    (hst : ∀ j, st.flags.getD j 0 &&& SHF_MERGE = 0) :
    ∀ j, (attributeOfSection sectionHeaders o st r k).flags.getD j 0 &&& SHF_MERGE = 0 := by
  have hh : (get2D sectionHeaders r.elfIndex r.headerIndex : Elf64_Shdr).sh_flags &&&
      SHF_MERGE = 0 := by
    rcases get2D_mem_or_default sectionHeaders r.elfIndex r.headerIndex with ⟨row, h1, h2⟩ | h
    · exact hmerge row h1 _ h2
    · rw [h]
      decide
  unfold attributeOfSection
  generalize get2D sectionHeaders r.elfIndex r.headerIndex = h at hh
  simp only []
  have key : ∀ fl : List Nat, (∀ j, fl.getD j 0 &&& SHF_MERGE = 0) →
      ∀ j, ((fl.set o (makeFlagsCompatible (fl.getD o 0) h.sh_flags).2).getD j 0) &&&
        SHF_MERGE = 0 := by
    intro fl hfl
    exact getD_set_cases (fun x => x &&& SHF_MERGE = 0) fl o _
      (makeFlagsCompatible_no_merge _ _ (hfl o)) hfl
  split_ifs
  · exact key _ (getD_set_cases (fun x => x &&& SHF_MERGE = 0) st.flags o _ hh hst)
  · exact key _ (getD_set_cases (fun x => x &&& SHF_MERGE = 0) st.flags o _ hh hst)
  · exact key _ hst
  · exact key _ hst

/-- Inputs without a section with the flag `SHF_MERGE` give output sections without
it. -/
theorem initOutputSections_no_merge (sectionHeaders : List (List Elf64_Shdr))
    (sectionStringTables : List Memory)
    (hmerge : ∀ hs ∈ sectionHeaders, ∀ h ∈ hs, h.sh_flags &&& SHF_MERGE = 0) :
    ∀ j, (initOutputSections sectionHeaders sectionStringTables).flags.getD j 0 &&&
      SHF_MERGE = 0 := by
  unfold initOutputSections
  simp only []
  split_ifs
  · intro j
    simp
  · simp only []
    unfold forEachIndexed
    apply forEachIndexedFrom_invariant _
      (fun st : InitAttributes => ∀ j, st.flags.getD j 0 &&& SHF_MERGE = 0)
    · intro st group o hst
      apply forEachIndexedFrom_invariant _
        (fun st : InitAttributes => ∀ j, st.flags.getD j 0 &&& SHF_MERGE = 0)
      · intro st2 r k hst2
        exact attributeOfSection_no_merge sectionHeaders hmerge o st2 r k hst2
      · exact hst
    · intro j
      simp only []
      by_cases hj : j < ((scanSections sectionHeaders sectionStringTables).sectionMap.map
          Prod.fst).length
      · rw [List.getD_eq_getElem _ _ (by simpa using hj)]
        simp
      · rw [List.getD_eq_default _ _ (by simpa using hj)]
        simp

/-- Output sections without the flag `SHF_MERGE` pass `mergeAndSortInputSections`. -/
theorem mergeAndSortInputSections_no_merge (inputs : List ElfInput)
    (sortKeys outSectionFlags : List Nat)
    (sortRefs : (SectionRef → SectionRef → Bool) → List SectionRef → List SectionRef)
    (allocate : Nat → List Nat) (visitOrder : List (List Nat × Nat) → List (List Nat × Nat))
    (outputToInputSections : List (List SectionRef))
    (hflags : ∀ j, outSectionFlags.getD j 0 &&& SHF_MERGE = 0) :
    ∃ ms, mergeAndSortInputSections inputs sortKeys outSectionFlags sortRefs allocate visitOrder
        outputToInputSections = some ms ∧ ms.status = StatusCode.ok := by
  unfold mergeAndSortInputSections forEachIndexed
  have key : ∀ (groups : List (List SectionRef)) (i : Nat) (st : MergeSortState),
      ∃ ms, forEachIndexedFrom
          (mergeAndSortSection inputs sortKeys outSectionFlags sortRefs allocate visitOrder)
          i groups (some st) = some ms ∧ ms.status = st.status := by
    intro groups
    induction groups with
    | nil => exact fun i st => ⟨st, rfl, rfl⟩
    | cons g gs ih =>
      intro i st
      rw [forEachIndexedFrom, mergeAndSortSection_concatenates _ _ _ _ _ _ _ _ _ (hflags i)]
      obtain ⟨ms, h1, h2⟩ := ih (i + 1) _
      exact ⟨ms, h1, h2⟩
  obtain ⟨ms, h1, h2⟩ := key outputToInputSections 0 _
  exact ⟨ms, h1, h2⟩

theorem buildElfAndSectionHeaders_ne_none (p : BuildElfIn)
    (h : p.entrySymbolInfo.firstLoad.symbol ≠ none) : buildElfAndSectionHeaders p ≠ none := by
  unfold buildElfAndSectionHeaders
  simp only []
  cases hsym : p.entrySymbolInfo.firstLoad.symbol with
  | none => exact absurd hsym h
  | some sym => simp

theorem buildElfAndSectionHeaders_status (p : BuildElfIn) (b : BuildElfOut)
    (h : buildElfAndSectionHeaders p = some b) : b.status = StatusCode.ok := by
  unfold buildElfAndSectionHeaders at h
  simp only [] at h
  split at h
  · exact nomatch h
  · simp only [Option.some.injEq] at h
    subst h
    rfl

theorem nameBytes_append (a b : List Name) : nameBytes (a ++ b) = nameBytes a + nameBytes b := by
  simp [nameBytes]

theorem nameBytes_uniform (k : Nat) (names : List Name) (h : ∀ n ∈ names, n.length = k) :
    nameBytes names = (k + 1) * names.length := by
  induction names with
  | nil => simp [nameBytes]
  | cons n ns ih =>
    have hn := h n (List.mem_cons_self _ _)
    have := ih (fun m hm => h m (List.mem_cons_of_mem _ hm))
    simp only [nameBytes, List.map_cons, List.sum_cons, List.length_cons] at this ⊢
    rw [this, hn]
    ring

theorem pushSymbol_symbols_length (p : SynthIn) (t : SynthTables) (sym : Elf64_Sym)
    (symName : Name) (elfID : Nat) :
    (pushSymbol p t sym symName elfID).symbolTableMem.length ≤ t.symbolTableMem.length + 1 := by
  unfold pushSymbol
  simp only []
  split_ifs <;> simp [insertSymbolRecord, insertSymbolString]

theorem foldl_pushGlobalSymbol_lengths (p : SynthIn) (table : SymbolTable) (t : SynthTables) :
    (table.foldl (pushGlobalSymbol p) t).stringTableMem.length =
      t.stringTableMem.length + nameBytes (loadedNames table) ∧
    (table.foldl (pushGlobalSymbol p) t).symbolTableMem.length ≤
      t.symbolTableMem.length + (loadedNames table).length := by
  induction table generalizing t with
  | nil => simp [loadedNames, nameBytes]
  | cons kv rest ih =>
    rw [List.foldl_cons]
    obtain ⟨h1, h2⟩ := ih (pushGlobalSymbol p t kv)
    rw [h1]
    unfold pushGlobalSymbol at h1 h2 ⊢
    cases hs : kv.2.firstLoad.symbol with
    | none =>
      have hfilter : loadedNames (kv :: rest) = loadedNames rest := by
        simp [loadedNames, List.filter_cons, hs]
      rw [hs] at h2
      simp only [] at h2 ⊢
      rw [hfilter]
      exact ⟨rfl, h2⟩
    | some sym =>
      have hfilter : loadedNames (kv :: rest) = kv.1 :: loadedNames rest := by
        simp [loadedNames, List.filter_cons, hs]
      rw [hs] at h2
      simp only [] at h2 ⊢
      rw [hfilter, pushSymbol_stringTableMem]
      have := pushSymbol_symbols_length p t sym kv.1 kv.2.firstLoad.elfID
      refine ⟨?_, ?_⟩
      · simp only [nameBytes, List.map_cons, List.sum_cons, List.length_append,
          List.length_singleton]
        omega
      · simp only [List.length_cons]
        omega

theorem foldl_pushSectionName_lengths (off : Nat) (names : List Name) (i : Nat)
    (st : List Nat × SynthTables) :
    (forEachIndexedFrom (pushSectionName off) i names st).2.stringTableMem.length =
      st.2.stringTableMem.length + nameBytes names ∧
    (forEachIndexedFrom (pushSectionName off) i names st).2.symbolTableMem =
      st.2.symbolTableMem := by
  induction names generalizing i st with
  | nil => simp [forEachIndexedFrom, nameBytes]
  | cons n ns ih =>
    simp only [forEachIndexedFrom]
    obtain ⟨h1, h2⟩ := ih (i + 1) (pushSectionName off st n i)
    rw [h1, h2]
    simp only [pushSectionName, insertSymbolString, nameBytes, List.map_cons, List.sum_cons,
      List.length_append, List.length_singleton, and_true]
    omega

theorem pushLocalSymbols_none (p : SynthIn) (e : ElfInput) (inputIndex : Nat) (t : SynthTables)
    (header : Elf64_Shdr) (k : Nat)
    (h : header.sh_type = SHT_SYMTAB → header.sh_info ≤ 1) :
    pushLocalSymbols p e inputIndex t header k = t := by
  unfold pushLocalSymbols
  split_ifs with hs
  · rfl
  · have hinfo := h (by simpa using hs)
    have : header.sh_info - 1 = 0 := by omega
    simp [this]

/-- When no symbol table of the inputs has a local symbol, `synthesizeSyntheticSections`
writes two bytes, the names of the symbols of the table that have a `firstLoad`, and the
names of the sections to the string tables, and at most one record for each of these
symbols after the null symbol: within the allocated memory when it has that size. -/
theorem synthesizeSyntheticSections_withinMemory (p : SynthIn) (inputs : List ElfInput)
    (visitSymbols : SymbolTable → SymbolTable) (views : List (Option (List Nat)))
    (sizes : List Nat)
    (hlocal : ∀ e ∈ inputs, ∀ h ∈ e.headers, h.sh_type = SHT_SYMTAB → h.sh_info ≤ 1)
    (hstr : 2 + nameBytes (loadedNames (visitSymbols p.symbolTable)) + nameBytes p.names ≤
      p.enoughStringTableMemory)
    (hsym : sizeof_Elf64_Sym * (1 + (loadedNames (visitSymbols p.symbolTable)).length) ≤
      p.enoughSymbolTableMemory) :
    (synthesizeSyntheticSections p inputs visitSymbols views sizes).withinMemory = true := by
  have ht1 : forEachIndexed inputs
      (fun t e inputIndex => forEachIndexed e.headers (pushLocalSymbols p e inputIndex) t)
      ({ stringTableMem := [0], symbolTableMem := [default] } : SynthTables) =
      { stringTableMem := [0], symbolTableMem := [default] } := by
    unfold forEachIndexed
    apply forEachIndexedFrom_fixed
    intro e he j
    apply forEachIndexedFrom_fixed
    intro h hh k
    exact pushLocalSymbols_none p e j _ h k (hlocal e he h hh)
  unfold synthesizeSyntheticSections
  simp only [ht1, decide_eq_true_eq]
  obtain ⟨g1, g2⟩ := foldl_pushGlobalSymbol_lengths p (visitSymbols p.symbolTable) ⟨[0], [default]⟩
  generalize List.foldl (pushGlobalSymbol p) ⟨[0], [default]⟩ (visitSymbols p.symbolTable) = T2
    at g1 g2 ⊢
  obtain ⟨n1, n2⟩ := foldl_pushSectionName_lengths T2.stringTableMem.length p.names 0
    ([], ⟨T2.stringTableMem ++ [0], T2.symbolTableMem⟩)
  unfold forEachIndexed
  simp only [List.length_append, List.length_singleton] at g1 g2 n1 n2
  constructor
  · rw [n1]
    omega
  · rw [n2]
    have : sizeof_Elf64_Sym * T2.symbolTableMem.length ≤
        sizeof_Elf64_Sym * (1 + (loadedNames (visitSymbols p.symbolTable)).length) :=
      Nat.mul_le_mul_left _ (by omega)
    omega

theorem mapSynthesizeAndBuild_returns (lib : LibraryChoices) (inputs : List ElfInput)
    (symbolTable : SymbolTable) (entrySymbolInfo : GlobalSymbolTableEntry) (init : InitOutput)
    (ms : MergeSortState) (s : OutputSections) (gotID symTabID strTabID shstrTabID : Nat)
    (segmentedSections : List (List Nat)) (pre : PreProcessState) (layout : LayoutOutput)
    (hentry : entrySymbolInfo.firstLoad.symbol ≠ none)
    (hlocal : ∀ e ∈ inputs, ∀ h ∈ e.headers, h.sh_type = SHT_SYMTAB → h.sh_info ≤ 1)
    (hstr : 2 + nameBytes (loadedNames (lib.visitSymbols symbolTable)) + nameBytes s.names ≤
      add64 init.totalStringTableMemorySize
        (syntheticSectionStringMemorySize s.names gotID symTabID strTabID shstrTabID))
    (hsym : sizeof_Elf64_Sym * (1 + (loadedNames (lib.visitSymbols symbolTable)).length) ≤
      ((init.totalNumberOfLocalSymbols + symbolTable.length) * sizeof_Elf64_Sym) % 2 ^ 64) :
    ∃ out, mapSynthesizeAndBuild lib inputs symbolTable entrySymbolInfo init ms s gotID symTabID
      strTabID shstrTabID segmentedSections pre layout = MapResult.done out := by
  unfold mapSynthesizeAndBuild
  simp only []
  split_ifs with hw hst
  · rw [synthesizeSyntheticSections_withinMemory _ _ _ _ _ hlocal hstr hsym] at hw
    exact absurd hw (by decide)
  · exact absurd hst (by simp [synthesizeSyntheticSections])
  · split
    · rename_i heq
      exact absurd heq (buildElfAndSectionHeaders_ne_none _ hentry)
    · rename_i build heq
      rw [if_neg (by rw [buildElfAndSectionHeaders_status _ _ heq]; simp)]
      exact ⟨_, rfl⟩

theorem syntheticNames_bytes (names : List Name) (n : Nat) (hn : names.length = n)
    (hlt : n + 3 < 2 ^ 16) :
    nameBytes (names ++ [bytesOf ".got"] ++ [bytesOf ".symtab"] ++ [bytesOf ".strTab"] ++
      [bytesOf ".shstrtab"]) = nameBytes names + 31 ∧
    syntheticSectionStringMemorySize
      (names ++ [bytesOf ".got"] ++ [bytesOf ".symtab"] ++ [bytesOf ".strTab"] ++
        [bytesOf ".shstrtab"])
      (n % 2 ^ 16) ((n + 1) % 2 ^ 16) ((n + 1 + 1) % 2 ^ 16) ((n + 1 + 1 + 1) % 2 ^ 16) = 31 := by
  constructor
  · simp only [nameBytes_append]
    have : nameBytes [bytesOf ".got"] = 5 ∧ nameBytes [bytesOf ".symtab"] = 8 ∧
        nameBytes [bytesOf ".strTab"] = 8 ∧ nameBytes [bytesOf ".shstrtab"] = 10 := by decide
    omega
  · rw [Nat.mod_eq_of_lt (by omega), Nat.mod_eq_of_lt (by omega), Nat.mod_eq_of_lt (by omega),
      Nat.mod_eq_of_lt (by omega)]
    subst hn
    unfold syntheticSectionStringMemorySize
    have happ : names ++ [bytesOf ".got"] ++ [bytesOf ".symtab"] ++ [bytesOf ".strTab"] ++
        [bytesOf ".shstrtab"] =
        names ++ [bytesOf ".got", bytesOf ".symtab", bytesOf ".strTab", bytesOf ".shstrtab"] := by
      simp
    have key : ∀ k, (names ++
        [bytesOf ".got", bytesOf ".symtab", bytesOf ".strTab", bytesOf ".shstrtab"]).getD
          (names.length + k) [] =
        [bytesOf ".got", bytesOf ".symtab", bytesOf ".strTab", bytesOf ".shstrtab"].getD k [] := by
      intro k
      rw [List.getD_append_right _ _ _ _ (by omega), Nat.add_sub_cancel_left]
    have h0 := key 0
    have h1 := key 1
    have h2 := key 2
    have h3 := key 3
    rw [happ, show names.length + 1 + 1 + 1 = names.length + 3 from rfl,
      show names.length + 1 + 1 = names.length + 2 from rfl, h1, h2, h3]
    rw [Nat.add_zero] at h0
    rw [h0]
    decide

theorem mapSyntheticAndLayout_returns (lib : LibraryChoices) (inputs : List ElfInput)
    (symbolTable : SymbolTable) (entrySymbolInfo : GlobalSymbolTableEntry) (init : InitOutput)
    (ms : MergeSortState)
    (hrela : ∀ e ∈ inputs, ∀ h ∈ e.headers, h.sh_type ≠ SHT_RELA)
    (hentry : entrySymbolInfo.firstLoad.symbol ≠ none)
    (hlen : ms.outputToInputSections.length = init.names.length)
    (hlt : init.names.length + 3 < 2 ^ 16)
    (hlocal : ∀ e ∈ inputs, ∀ h ∈ e.headers, h.sh_type = SHT_SYMTAB → h.sh_info ≤ 1)
    (hstr : 2 + nameBytes (loadedNames (lib.visitSymbols symbolTable)) +
      (nameBytes init.names + 31) ≤ add64 init.totalStringTableMemorySize 31)
    (hsym : sizeof_Elf64_Sym * (1 + (loadedNames (lib.visitSymbols symbolTable)).length) ≤
      ((init.totalNumberOfLocalSymbols + symbolTable.length) * sizeof_Elf64_Sym) % 2 ^ 64) :
    ∃ out, mapSyntheticAndLayout lib inputs symbolTable entrySymbolInfo init ms =
      MapResult.done out := by
  unfold mapSyntheticAndLayout
  simp only []
  rw [if_neg (by rw [preProcessesRelocations_no_rela _ _ hrela]; simp),
    if_neg (by simp [constructLoadedSectionLayout])]
  apply mapSynthesizeAndBuild_returns _ _ _ _ _ _ _ _ _ _ _ _ _ _ hentry hlocal _ hsym
  obtain ⟨b1, b2⟩ := syntheticNames_bytes init.names init.names.length rfl hlt
  simp only [allocateSyntheticSection, List.length_append, List.length_singleton, hlen]
  rw [b1, b2]
  exact hstr

/-- A link returns `ok` when `initOutputSections` does, no input section has the type
`SHT_RELA` or the flag `SHF_MERGE`, no symbol table has a local symbol, the entry symbol
has a definition, and the names of the symbols and of the sections fit the memory that
is reserved for the string tables and the symbol table. -/
theorem mapInputSectionsToOutputSections_returns (lib : LibraryChoices)
    (inputs : List ElfInput) (sortKeys : List Nat) (sectionStringTables : List Memory)
    (symbolTable : SymbolTable) (entrySymbolInfo : GlobalSymbolTableEntry)
    (hinit : (initOutputSections (inputs.map ElfInput.headers) sectionStringTables).status =
      StatusCode.ok)
    (hmerge : ∀ e ∈ inputs, ∀ h ∈ e.headers, h.sh_flags &&& SHF_MERGE = 0)
    (hrela : ∀ e ∈ inputs, ∀ h ∈ e.headers, h.sh_type ≠ SHT_RELA)
    (hentry : entrySymbolInfo.firstLoad.symbol ≠ none)
    (hlocal : ∀ e ∈ inputs, ∀ h ∈ e.headers, h.sh_type = SHT_SYMTAB → h.sh_info ≤ 1)
    (hstr : 2 + nameBytes (loadedNames (lib.visitSymbols symbolTable)) +
        (nameBytes (initOutputSections (inputs.map ElfInput.headers) sectionStringTables).names +
          31) ≤
      add64 (initOutputSections (inputs.map ElfInput.headers)
        sectionStringTables).totalStringTableMemorySize 31)
    (hsym : sizeof_Elf64_Sym * (1 + (loadedNames (lib.visitSymbols symbolTable)).length) ≤
      (((initOutputSections (inputs.map ElfInput.headers)
        sectionStringTables).totalNumberOfLocalSymbols + symbolTable.length) *
          sizeof_Elf64_Sym) % 2 ^ 64) :
    ∃ out, mapInputSectionsToOutputSections lib inputs sortKeys sectionStringTables symbolTable
      entrySymbolInfo = MapResult.done out := by
  have hflags := initOutputSections_no_merge (inputs.map ElfInput.headers) sectionStringTables
    (by
      intro hs hhs h hh
      obtain ⟨e, he, rfl⟩ := List.mem_map.mp hhs
      exact hmerge e he h hh)
  obtain ⟨ms, hms, hmsok⟩ := mergeAndSortInputSections_no_merge inputs sortKeys
    (initOutputSections (inputs.map ElfInput.headers) sectionStringTables).flags lib.sortRefs
    lib.allocate lib.visitOrder
    (initOutputSections (inputs.map ElfInput.headers) sectionStringTables).outputToInputSections
    hflags
  have hlen := mergeAndSortInputSections_refs_length _ _ _ _ _ _ _ _ hms
  rw [initOutputSections_refs_length] at hlen
  have hlt := initOutputSections_names_lt _ _ hinit
  have hlim : SHN_LORESERVE = 65280 := by decide
  rw [hlim] at hlt
  unfold mapInputSectionsToOutputSections
  simp only []
  rw [if_neg (by rw [hinit]; simp), hms]
  simp only []
  rw [if_neg (by rw [hmsok]; simp)]
  exact mapSyntheticAndLayout_returns _ _ _ _ _ _ hrela hentry hlen (by omega) hlocal hstr hsym

theorem mapInputSectionsToOutputSections_shnum (lib : LibraryChoices)
    (inputs : List ElfInput) (sortKeys : List Nat) (sectionStringTables : List Memory)
    (symbolTable : SymbolTable) (entrySymbolInfo : GlobalSymbolTableEntry) (out : MapOutput)
    (h : mapInputSectionsToOutputSections lib inputs sortKeys sectionStringTables symbolTable
      entrySymbolInfo = MapResult.done out) :
    (initOutputSections (inputs.map ElfInput.headers) sectionStringTables).status =
      StatusCode.ok ∧
    (initOutputSections (inputs.map ElfInput.headers) sectionStringTables).names.length <
      SHN_LORESERVE - 4 ∧
    out.elfHeader.e_shnum =
      (initOutputSections (inputs.map ElfInput.headers) sectionStringTables).names.length + 5 := by
  unfold mapInputSectionsToOutputSections at h
  simp only [] at h
  split_ifs at h with hinit
  have hok : (initOutputSections (inputs.map ElfInput.headers) sectionStringTables).status =
      StatusCode.ok := by
    by_contra hn
    exact hinit hn
  have hnames := initOutputSections_names_lt _ _ hok
  have hlim : SHN_LORESERVE - 4 = 65276 := by decide
  split at h
  · simp at h
  · rename_i ms hms
    split_ifs at h with hmsok
    have hsizes := mergeAndSortInputSections_sizes_length _ _ _ _ _ _ _ _ hms
    obtain ⟨-, -, d4, -, -⟩ := mapSyntheticAndLayout_done _ _ _ _ _ _ _ hsizes h
    refine ⟨hok, hnames, ?_⟩
    rw [d4, Nat.mod_eq_of_lt (by omega)]

theorem headerOf_eq_of_getElem? (sectionHeaders : List (List Elf64_Shdr)) (r : SectionRef)
    (hs : List Elf64_Shdr) (h : Elf64_Shdr) (h1 : sectionHeaders[r.elfIndex]? = some hs)
    (h2 : hs[r.headerIndex]? = some h) : headerOf sectionHeaders r = h := by
  unfold headerOf get2D
  rw [List.getD_eq_getElem?_getD, List.getD_eq_getElem?_getD, h1]
  simp only [Option.getD_some]
  rw [h2]
  rfl

/-- When all the input sections that reach the output have one type and the same flags,
and the number of distinct names is below the limit, `initOutputSections` returns `ok`. -/

theorem initOutputSections_uniform_ok (sectionHeaders : List (List Elf64_Shdr))
    (sectionStringTables : List Memory) (T F : Nat)
    (hlimit : distinctOutputNames sectionHeaders sectionStringTables < SHN_LORESERVE - 4)
    (huni : ∀ hs ∈ sectionHeaders, ∀ h ∈ hs, sectionTypeReachesOutput h.sh_type = true →
      h.sh_type = T ∧ h.sh_flags = F) :
    (initOutputSections sectionHeaders sectionStringTables).status = StatusCode.ok := by
  have hlen := scanSections_length sectionHeaders sectionStringTables
  obtain ⟨-, -, hg⟩ := scanSections_groups sectionHeaders sectionStringTables
  have hhdr : ∀ group ∈ (scanSections sectionHeaders sectionStringTables).sectionMap.map
      Prod.snd, ∀ r ∈ group, (headerOf sectionHeaders r).sh_type = T ∧
        (headerOf sectionHeaders r).sh_flags = F := by
    intro group hgroup r hr
    obtain ⟨⟨k, refs⟩, hmem, hsnd⟩ := List.mem_map.mp hgroup
    simp only [] at hsnd
    subst hsnd
    obtain ⟨o, ho⟩ := List.getElem?_of_mem hmem
    have hpush := ((hg o k refs ho).2 r).mp hr
    obtain ⟨-, hs, h, h1, h2, h3, -⟩ := (mem_pushesFrom _ _ 0 k r).mp hpush
    rw [Nat.sub_zero] at h1
    rw [headerOf_eq_of_getElem? sectionHeaders r hs h h1 h2]
    exact huni hs (List.getElem?_mem h1) h (List.getElem?_mem h2) h3
  unfold initOutputSections
  simp only []
  rw [if_neg (by rw [hlen]; omega)]
  simp only []
  unfold forEachIndexed
  obtain ⟨-, -, a3⟩ := attributeOfGroups sectionHeaders
    ((scanSections sectionHeaders sectionStringTables).sectionMap.map Prod.snd) 0
    { status := StatusCode.ok
      reported := []
      alignments := List.replicate
        ((scanSections sectionHeaders sectionStringTables).sectionMap.map Prod.fst).length 0
      types := List.replicate
        ((scanSections sectionHeaders sectionStringTables).sectionMap.map Prod.fst).length 0
      flags := List.replicate
        ((scanSections sectionHeaders sectionStringTables).sectionMap.map Prod.fst).length 0
      inputToOutputSection :=
        (scanSections sectionHeaders sectionStringTables).inputToOutputSection }
    (by simp) (by simp) (by simp)
  unfold forEachIndexed at a3
  rw [a3]
  refine ⟨rfl, ?_⟩
  intro group hgroup first hfirst r hr
  have hf := hhdr group hgroup first (List.mem_of_mem_head? hfirst)
  have hr2 := hhdr group hgroup r hr
  unfold fitsFirst
  rw [hf.1, hf.2, hr2.1, hr2.2]
  exact ⟨rfl, rfl⟩

theorem canonicalNamesOf_append (stringTable : Memory) (a b : List Elf64_Shdr) :
    canonicalNamesOf stringTable (a ++ b) =
      canonicalNamesOf stringTable a ++ canonicalNamesOf stringTable b := by
  simp [canonicalNamesOf, List.filter_append]

theorem flatMap_drop_four (g : Nat → List Nat) (l : List Nat) (k : Nat)
    (h : ∀ i ∈ l, (g i).length = 4) : (l.flatMap g).drop (4 * k) = (l.drop k).flatMap g := by
  induction l generalizing k with
  | nil => simp
  | cons a l ih =>
    cases k with
    | zero => simp
    | succ k =>
      have ha := h a (List.mem_cons_self _ _)
      rw [List.flatMap_cons, List.drop_succ_cons, Nat.mul_succ, Nat.add_comm,
        ← List.drop_drop, List.drop_left' ha]
      exact ih k (fun i hi => h i (List.mem_cons_of_mem _ hi))

theorem cstrOf_shortSectionName (i : Nat) (rest : List Nat) :
    cstrOf (shortSectionName i ++ [0] ++ rest) = shortSectionName i := by
  have h1 : (1 + i % 255) % 256 = 1 + i % 255 := Nat.mod_eq_of_lt (by omega)
  have h2 : (1 + i / 255 % 255) % 256 = 1 + i / 255 % 255 := Nat.mod_eq_of_lt (by omega)
  have h3 : (1 + i / 65025 % 255) % 256 = 1 + i / 65025 % 255 := Nat.mod_eq_of_lt (by omega)
  simp only [shortSectionName, List.cons_append, List.nil_append, cstrOf, h1, h2, h3]
  rw [if_neg (by omega), if_neg (by omega), if_neg (by omega)]
  simp

theorem cstrAt_shortSectionNames (n i : Nat) (h : i < n) :
    cstrAt (shortSectionNames n) (4 * i + 1) = shortSectionName i := by
  unfold cstrAt shortSectionNames
  rw [List.drop_succ_cons, flatMap_drop_four _ _ _ (by
    intro j _
    simp [shortSectionName])]
  have hdrop : (List.range n).drop i = i :: (List.range n).drop (i + 1) := by
    rw [List.drop_eq_getElem_cons (by simpa using h)]
    simp
  rw [hdrop, List.flatMap_cons]
  exact cstrOf_shortSectionName i _

theorem namesToTruncate_length : ∀ e ∈ namesToTruncate, 4 ≤ e.length := by decide

theorem toOutputSectionName_shortSectionName (i : Nat) :
    toOutputSectionName (shortSectionName i) = shortSectionName i := by
  have hfind : namesToTruncate.find? (fun truncate => truncate.isPrefixOf (shortSectionName i)) =
      none := by
    rw [List.find?_eq_none]
    intro e he hpre
    have hlen := namesToTruncate_length e he
    have := (List.isPrefixOf_iff_prefix.mp hpre).length_le
    simp only [shortSectionName, List.length_cons, List.length_nil] at this
    omega
  unfold toOutputSectionName
  rw [hfind]

theorem shortSectionName_injective (i j : Nat) (hi : i < 16581375) (hj : j < 16581375)
    (h : shortSectionName i = shortSectionName j) : i = j := by
  simp only [shortSectionName, List.cons.injEq, and_true] at h
  obtain ⟨h1, h2, h3⟩ := h
  omega

theorem canonicalNamesOf_short (n : Nat) :
    canonicalNamesOf (shortSectionNames n) (shortSectionHeaders n) =
      (List.range n).map shortSectionName := by
  unfold canonicalNamesOf shortSectionHeaders
  have h0 : sectionTypeReachesOutput (default : Elf64_Shdr).sh_type = false := by decide
  rw [List.filter_cons, h0]
  simp only [Bool.false_eq_true, if_false]
  have hall : ((List.range n).map (fun i => progbitsHeader (4 * i + 1))).filter
      (fun h => sectionTypeReachesOutput h.sh_type) =
      (List.range n).map (fun i => progbitsHeader (4 * i + 1)) := by
    rw [List.filter_eq_self]
    intro h hh
    obtain ⟨i, _, rfl⟩ := List.mem_map.mp hh
    show sectionTypeReachesOutput SHT_PROGBITS = true
    decide
  rw [hall, List.map_map]
  apply List.map_congr_left
  intro i hi
  have hi' : i < n := List.mem_range.mp hi
  simp only [Function.comp, progbitsHeader]
  rw [cstrAt_shortSectionNames n i hi', toOutputSectionName_shortSectionName]

theorem canonicalNamesFrom_objManySections (n : Nat) :
    canonicalNamesFrom [shortSectionNames n] 0 [(objManySections n).headers] =
      (List.range n).map shortSectionName := by
  simp only [canonicalNamesFrom, List.append_nil]
  have hget : [shortSectionNames n].getD 0 [] = shortSectionNames n := rfl
  have hextra : ∀ a b c : Elf64_Shdr, a.sh_type = SHT_SYMTAB → b.sh_type = SHT_STRTAB →
      c.sh_type = SHT_STRTAB → canonicalNamesOf (shortSectionNames n) [a, b, c] = [] := by
    intro a b c ha hb hc
    have h1 : sectionTypeReachesOutput a.sh_type = false := by rw [ha]; decide
    have h2 : sectionTypeReachesOutput b.sh_type = false := by rw [hb]; decide
    have h3 : sectionTypeReachesOutput c.sh_type = false := by rw [hc]; decide
    simp [canonicalNamesOf, List.filter_cons, h1, h2, h3]
  unfold objManySections
  simp only []
  rw [hget, canonicalNamesOf_append, canonicalNamesOf_short, hextra _ _ _ rfl rfl rfl,
    List.append_nil]

theorem distinctOutputNames_objManySections (n : Nat) (hn : n ≤ 16581375) :
    distinctOutputNames [(objManySections n).headers] [shortSectionNames n] = n := by
  unfold distinctOutputNames
  rw [canonicalNamesFrom_objManySections]
  have hnodup : ((List.range n).map shortSectionName).Nodup := by
    apply List.Nodup.map_on _ (List.nodup_range n)
    intro x hx y hy hxy
    have hx' := List.mem_range.mp hx
    have hy' := List.mem_range.mp hy
    exact shortSectionName_injective x y (by omega) (by omega) hxy
  rw [hnodup.dedup, List.length_map, List.length_range]

theorem mem_objManySections_headers (n : Nat) (h : Elf64_Shdr)
    (hh : h ∈ (objManySections n).headers) :
    (h.sh_type = SHT_NULL ∧ h.sh_flags = 0) ∨ (h.sh_type = SHT_PROGBITS ∧ h.sh_flags = SHF_ALLOC) ∨
      (h.sh_type = SHT_SYMTAB ∧ h.sh_flags = 0 ∧ h.sh_info = 1) ∨
      (h.sh_type = SHT_STRTAB ∧ h.sh_flags = 0) := by
  unfold objManySections shortSectionHeaders at hh
  simp only [List.cons_append, List.mem_cons, List.mem_append, List.mem_map, List.mem_range,
    List.mem_singleton, List.not_mem_nil, or_false] at hh
  rcases hh with rfl | ⟨i, -, rfl⟩ | rfl | rfl | rfl
  · exact Or.inl ⟨rfl, rfl⟩
  · exact Or.inr (Or.inl ⟨rfl, rfl⟩)
  · exact Or.inr (Or.inr (Or.inl ⟨rfl, rfl, rfl⟩))
  · exact Or.inr (Or.inr (Or.inr ⟨rfl, rfl⟩))
  · exact Or.inr (Or.inr (Or.inr ⟨rfl, rfl⟩))

theorem scanHeader_totals (stringTable : Memory) (inputIndex : Nat) (st : InitScan)
    (header : Elf64_Shdr) (headerIndex : Nat) :
    (scanHeader stringTable inputIndex st header headerIndex).totalStringTableMemorySize =
      (if header.sh_type = SHT_STRTAB then add64 st.totalStringTableMemorySize header.sh_size
        else st.totalStringTableMemorySize) ∧
    (scanHeader stringTable inputIndex st header headerIndex).totalNumberOfLocalSymbols =
      (if header.sh_type = SHT_SYMTAB then add64 st.totalNumberOfLocalSymbols header.sh_info
        else st.totalNumberOfLocalSymbols) := by
  unfold scanHeader
  simp only []
  split_ifs <;> exact ⟨rfl, rfl⟩

theorem scanHeaders_totals (stringTable : Memory) (inputIndex : Nat)
    (headers : List Elf64_Shdr) (i : Nat) (st : InitScan) :
    (forEachIndexedFrom (scanHeader stringTable inputIndex) i headers
        st).totalStringTableMemorySize =
      headers.foldl (fun acc h => if h.sh_type = SHT_STRTAB then add64 acc h.sh_size else acc)
        st.totalStringTableMemorySize ∧
    (forEachIndexedFrom (scanHeader stringTable inputIndex) i headers
        st).totalNumberOfLocalSymbols =
      headers.foldl (fun acc h => if h.sh_type = SHT_SYMTAB then add64 acc h.sh_info else acc)
        st.totalNumberOfLocalSymbols := by
  induction headers generalizing i st with
  | nil => exact ⟨rfl, rfl⟩
  | cons x xs ih =>
    rw [forEachIndexedFrom, List.foldl_cons, List.foldl_cons]
    obtain ⟨h1, h2⟩ := ih (i + 1) (scanHeader stringTable inputIndex st x i)
    obtain ⟨t1, t2⟩ := scanHeader_totals stringTable inputIndex st x i
    rw [h1, h2, t1, t2]
    exact ⟨rfl, rfl⟩

theorem foldl_keep {α : Type} (f : Nat → α → Nat) (l : List α) (a : Nat)
    (h : ∀ x ∈ l, ∀ b, f b x = b) : l.foldl f a = a := by
  induction l generalizing a with
  | nil => rfl
  | cons x xs ih =>
    rw [List.foldl_cons, h x (List.mem_cons_self _ _)]
    exact ih a (fun y hy => h y (List.mem_cons_of_mem _ hy))

theorem shortSectionHeaders_types (n : Nat) :
    ∀ x ∈ shortSectionHeaders n, x.sh_type ≠ SHT_STRTAB ∧ x.sh_type ≠ SHT_SYMTAB := by
  intro x hx
  unfold shortSectionHeaders at hx
  simp only [List.mem_cons, List.mem_map, List.mem_range] at hx
  rcases hx with rfl | ⟨i, -, rfl⟩
  · exact ⟨by decide, by decide⟩
  · exact ⟨by show SHT_PROGBITS ≠ SHT_STRTAB; decide,
      by show SHT_PROGBITS ≠ SHT_SYMTAB; decide⟩

/-- The sizes that `initOutputSections` counts for the object `objManySections n`: the
two string tables have `5 + (4 * n + 1)` bytes, and the symbol table gives one local
symbol, the null symbol. -/
theorem scanSections_objManySections (n : Nat) (hn : 4 * n + 6 < 2 ^ 64) :
    (scanSections [(objManySections n).headers]
      [shortSectionNames n]).totalStringTableMemorySize = 4 * n + 6 ∧
    (scanSections [(objManySections n).headers]
      [shortSectionNames n]).totalNumberOfLocalSymbols = 1 := by
  have hscan : ∀ headers : List Elf64_Shdr, ∀ tbl : Memory,
      scanSections [headers] [tbl] =
        forEachIndexedFrom (scanHeader tbl 0) 0 headers
          { inputToOutputSection :=
              (List.replicate 1 []).set 0 (List.replicate headers.length notAnOutputSection)
            totalNumberOfLocalSymbols := 0
            totalStringTableMemorySize := 0
            sectionMap := [] } := by
    intro headers tbl
    rfl
  rw [hscan]
  obtain ⟨t1, t2⟩ := scanHeaders_totals (shortSectionNames n) 0 (objManySections n).headers 0
    { inputToOutputSection :=
        (List.replicate 1 []).set 0
          (List.replicate (objManySections n).headers.length notAnOutputSection)
      totalNumberOfLocalSymbols := 0
      totalStringTableMemorySize := 0
      sectionMap := [] }
  rw [t1, t2]
  unfold objManySections
  simp only [List.foldl_append]
  rw [foldl_keep _ (shortSectionHeaders n) 0 (fun x hx b => by
      rw [if_neg (shortSectionHeaders_types n x hx).1]),
    foldl_keep _ (shortSectionHeaders n) 0 (fun x hx b => by
      rw [if_neg (shortSectionHeaders_types n x hx).2])]
  have hs1 : SHT_SYMTAB ≠ SHT_STRTAB := by decide
  simp only [List.foldl_cons, List.foldl_nil, hs1, if_true, if_false, add64]
  constructor
  · rw [Nat.mod_eq_of_lt (a := 0 + 5) (by omega), Nat.mod_eq_of_lt (by omega)]
    omega
  · have hs2 : SHT_STRTAB ≠ SHT_SYMTAB := by decide
    simp only [hs2, if_false]
    rfl

theorem initOutputSections_totals (sectionHeaders : List (List Elf64_Shdr))
    (sectionStringTables : List Memory) :
    (initOutputSections sectionHeaders sectionStringTables).totalStringTableMemorySize =
      (scanSections sectionHeaders sectionStringTables).totalStringTableMemorySize ∧
    (initOutputSections sectionHeaders sectionStringTables).totalNumberOfLocalSymbols =
      (scanSections sectionHeaders sectionStringTables).totalNumberOfLocalSymbols := by
  unfold initOutputSections
  simp only []
  split_ifs <;> exact ⟨rfl, rfl⟩

theorem initOutputSections_names_canonical (sectionHeaders : List (List Elf64_Shdr))
    (sectionStringTables : List Memory) :
    ∀ name ∈ (initOutputSections sectionHeaders sectionStringTables).names,
      name ∈ canonicalNamesFrom sectionStringTables 0 sectionHeaders := by
  intro name hname
  unfold initOutputSections at hname
  simp only [] at hname
  split_ifs at hname with hlimit
  · simp at hname
  · simp only [] at hname
    have hkeys := scanInputs_keys sectionStringTables sectionHeaders 0
      { inputToOutputSection := List.replicate sectionHeaders.length []
        totalNumberOfLocalSymbols := 0
        totalStringTableMemorySize := 0
        sectionMap := [] }
    have hname' : name ∈ (scanSections sectionHeaders sectionStringTables).sectionMap.map
        Prod.fst := hname
    unfold scanSections forEachIndexed at hname'
    rw [hkeys, addKey_foldl_mem] at hname'
    rcases hname' with h | h
    · simp at h
    · exact h

/-- The link of an object with `n` sections of distinct names, for `n` below the limit of
`initOutputSections`, returns `ok` with `n + 5` section headers when the entry symbol has
a definition and the names of the defined symbols take at most four bytes. -/
theorem mapInputSectionsToOutputSections_many (n : Nat) (hn : n < SHN_LORESERVE - 4)
    (lib : LibraryChoices) (sortKeys : List Nat) (symbolTable : SymbolTable)
    (entrySymbolInfo : GlobalSymbolTableEntry)
    (hentry : entrySymbolInfo.firstLoad.symbol ≠ none)
    (hbytes : nameBytes (loadedNames (lib.visitSymbols symbolTable)) ≤ 4)
    (hcount : (loadedNames (lib.visitSymbols symbolTable)).length ≤ symbolTable.length)
    (hsmall : symbolTable.length < 2 ^ 32) :
    (initOutputSections [(objManySections n).headers] [shortSectionNames n]).status =
      StatusCode.ok ∧
    ∃ out, mapInputSectionsToOutputSections lib [objManySections n] sortKeys
        [shortSectionNames n] symbolTable entrySymbolInfo = MapResult.done out ∧
      out.elfHeader.e_shnum = n + 5 := by
  have hlim : SHN_LORESERVE = 65280 := by decide
  rw [hlim] at hn
  have hcountn := distinctOutputNames_objManySections n (by omega)
  have hinit : (initOutputSections [(objManySections n).headers] [shortSectionNames n]).status =
      StatusCode.ok := by
    apply initOutputSections_uniform_ok _ _ SHT_PROGBITS SHF_ALLOC (by rw [hcountn, hlim]; exact hn)
    intro hs hhs h hh hreach
    simp only [List.mem_singleton] at hhs
    subst hhs
    rcases mem_objManySections_headers n h hh with h1 | h1 | h1 | h1
    · rw [h1.1] at hreach
      exact absurd hreach (by decide)
    · exact h1
    · rw [h1.1] at hreach
      exact absurd hreach (by decide)
    · rw [h1.1] at hreach
      exact absurd hreach (by decide)
  have hnames := (initOutputSections_of_lt_limit [(objManySections n).headers]
    [shortSectionNames n] (by rw [hcountn, hlim]; exact hn)).2
  rw [hcountn] at hnames
  obtain ⟨t1, t2⟩ := initOutputSections_totals [(objManySections n).headers]
    [shortSectionNames n]
  obtain ⟨s1, s2⟩ := scanSections_objManySections n (by omega)
  rw [s1] at t1
  rw [s2] at t2
  have hlen3 : ∀ name ∈ (initOutputSections [(objManySections n).headers]
      [shortSectionNames n]).names, name.length = 3 := by
    intro name hname
    have := initOutputSections_names_canonical _ _ name hname
    rw [canonicalNamesFrom_objManySections] at this
    obtain ⟨i, -, rfl⟩ := List.mem_map.mp this
    rfl
  have hnb := nameBytes_uniform 3 _ hlen3
  rw [hnames] at hnb
  obtain ⟨out, hout⟩ := mapInputSectionsToOutputSections_returns lib [objManySections n]
    sortKeys [shortSectionNames n] symbolTable entrySymbolInfo hinit
    (by
      intro e he h hh
      simp only [List.mem_singleton] at he
      subst he
      rcases mem_objManySections_headers n h hh with h1 | h1 | h1 | h1
      · rw [h1.2]; decide
      · rw [h1.2]; decide
      · rw [h1.2.1]; decide
      · rw [h1.2]; decide)
    (by
      intro e he h hh
      simp only [List.mem_singleton] at he
      subst he
      rcases mem_objManySections_headers n h hh with h1 | h1 | h1 | h1 <;> rw [h1.1] <;> decide)
    hentry
    (by
      intro e he h hh hsym
      simp only [List.mem_singleton] at he
      subst he
      rcases mem_objManySections_headers n h hh with h1 | h1 | h1 | h1
      · rw [h1.1] at hsym
        exact absurd hsym (by decide)
      · rw [h1.1] at hsym
        exact absurd hsym (by decide)
      · rw [h1.2.2]
      · rw [h1.1] at hsym
        exact absurd hsym (by decide))
    (by
      simp only [List.map_cons, List.map_nil]
      rw [t1, hnb]
      unfold add64
      rw [Nat.mod_eq_of_lt (by omega)]
      omega)
    (by
      simp only [List.map_cons, List.map_nil]
      rw [t2]
      unfold sizeof_Elf64_Sym
      rw [Nat.mod_eq_of_lt (by omega)]
      omega)
  refine ⟨hinit, out, hout, ?_⟩
  have hshnum := (mapInputSectionsToOutputSections_shnum _ _ _ _ _ _ _ hout).2.2
  simp only [List.map_cons, List.map_nil] at hshnum
  rw [hshnum, hnames]

theorem collectSymtabs_skip (mem : Memory) (secHeaders : List Elf64_Shdr) (elfID startID : Nat)
    (pre rest : List Elf64_Shdr) (acc : StatusCode × List SymtabView)
    (hpre : ∀ h ∈ pre, h.sh_type ≠ SHT_SYMTAB) :
    collectSymtabs mem secHeaders elfID startID (pre ++ rest) acc =
      collectSymtabs mem secHeaders elfID startID rest acc := by
  induction pre with
  | nil => rfl
  | cons h pre ih =>
    obtain ⟨status, views⟩ := acc
    rw [List.cons_append, collectSymtabs, if_pos (hpre h (List.mem_cons_self _ _))]
    exact ih (fun x hx => hpre x (List.mem_cons_of_mem _ hx))


theorem readByte_append_left (a b : Memory) (i : Nat) (h : i < a.length) :
    readByte (a ++ b) i = readByte a i := by
  unfold readByte
  rw [List.getD_append _ _ _ _ h]

theorem readLE_append_left (a b : Memory) (off k : Nat) (h : off + k ≤ a.length) :
    readLE (a ++ b) off k = readLE a off k := by
  induction k generalizing off with
  | zero => rfl
  | succ k ih =>
    rw [readLE, readLE, readByte_append_left a b off (by omega), ih (off + 1) (by omega)]

theorem readSym_append_left (a b : Memory) (off : Nat) (h : off + 24 ≤ a.length) :
    readSym (a ++ b) off = readSym a off := by
  unfold readSym
  rw [readLE_append_left a b off 4 (by omega), readByte_append_left a b (off + 4) (by omega),
    readByte_append_left a b (off + 5) (by omega), readLE_append_left a b (off + 6) 2 (by omega),
    readLE_append_left a b (off + 8) 8 (by omega), readLE_append_left a b (off + 16) 8 (by omega)]

theorem view_as_span_Sym_append_left (a b : Memory) (off m : Nat)
    (h : off + 24 * m ≤ a.length) :
    view_as_span_Sym (a ++ b) off m = view_as_span_Sym a off m := by
  unfold view_as_span_Sym
  apply List.map_congr_left
  intro i hi
  have hi' := List.mem_range.mp hi
  apply readSym_append_left
  unfold sizeof_Elf64_Sym
  have : 24 * (i + 1) ≤ 24 * m := Nat.mul_le_mul_left _ (by omega)
  omega

theorem shortSectionHeaders_length (n : Nat) : (shortSectionHeaders n).length = n + 1 := by
  simp [shortSectionHeaders]

/-- The symbol table that `insertSymbolsIntoSymbolTable` builds from the object
`objManySections n`: the global symbol `a`, defined in the section 1 of the input 0. -/
theorem insertSymbolsIntoSymbolTable_objManySections (n : Nat) :
    insertSymbolsIntoSymbolTable [objManySections n] [0] 0 [] =
      { status := StatusCode.ok
        symbolTable := [(bytesOf "a", ⟨default, ⟨some (mkSym 1 STB_GLOBAL 1 0), 0⟩⟩)]
        searchedSymbolNames := [] } := by
  have hcollect : collectAllSymtabs [objManySections n] 0 =
      (StatusCode.ok,
        [{ syms := [default, mkSym 1 STB_GLOBAL 1 0], strings := strtabAB ++ shortSectionNames n,
           elfID := 0 }]) := by
    unfold collectAllSymtabs forEachIndexed
    simp only [forEachIndexedFrom]
    have hheaders : (objManySections n).headers = shortSectionHeaders n ++ [
        { sh_name := 0, sh_type := SHT_SYMTAB, sh_flags := 0, sh_addr := 0, sh_offset := 0,
          sh_size := 48, sh_link := n + 2, sh_info := 1, sh_addralign := 8,
          sh_entsize := sizeof_Elf64_Sym },
        { sh_name := 0, sh_type := SHT_STRTAB, sh_flags := 0, sh_addr := 0, sh_offset := 48,
          sh_size := 5, sh_link := 0, sh_info := 0, sh_addralign := 1, sh_entsize := 0 },
        { sh_name := 0, sh_type := SHT_STRTAB, sh_flags := 0, sh_addr := 0, sh_offset := 53,
          sh_size := 4 * n + 1, sh_link := 0, sh_info := 0, sh_addralign := 1,
          sh_entsize := 0 }] := rfl
    have hskip := collectSymtabs_skip (objManySections n).mem (objManySections n).headers 0 0
      (shortSectionHeaders n) [
        { sh_name := 0, sh_type := SHT_SYMTAB, sh_flags := 0, sh_addr := 0, sh_offset := 0,
          sh_size := 48, sh_link := n + 2, sh_info := 1, sh_addralign := 8,
          sh_entsize := sizeof_Elf64_Sym },
        { sh_name := 0, sh_type := SHT_STRTAB, sh_flags := 0, sh_addr := 0, sh_offset := 48,
          sh_size := 5, sh_link := 0, sh_info := 0, sh_addralign := 1, sh_entsize := 0 },
        { sh_name := 0, sh_type := SHT_STRTAB, sh_flags := 0, sh_addr := 0, sh_offset := 53,
          sh_size := 4 * n + 1, sh_link := 0, sh_info := 0, sh_addralign := 1,
          sh_entsize := 0 }]
      (StatusCode.ok, []) (fun h hh => (shortSectionHeaders_types n h hh).2)
    rw [← hheaders] at hskip
    rw [hskip]
    have hlink : (objManySections n).headers.getD (n + 2) default =
        { sh_name := 0, sh_type := SHT_STRTAB, sh_flags := 0, sh_addr := 0, sh_offset := 48,
          sh_size := 5, sh_link := 0, sh_info := 0, sh_addralign := 1, sh_entsize := 0 } := by
      rw [hheaders, List.getD_eq_getElem?_getD,
        List.getElem?_append_right (by rw [shortSectionHeaders_length]; omega),
        shortSectionHeaders_length]
      have : n + 2 - (n + 1) = 1 := by omega
      rw [this]
      rfl
    simp only [collectSymtabs, ne_eq, not_true_eq_false, if_false, hlink]
    have hstr : SHT_STRTAB ≠ SHT_SYMTAB := by decide
    rw [if_pos hstr, if_pos hstr]
    have hmem : (objManySections n).mem =
        (encodeSym default ++ encodeSym (mkSym 1 STB_GLOBAL 1 0)) ++
          (strtabAB ++ shortSectionNames n) := by
      unfold objManySections
      simp only [List.append_assoc]
    have hsyms : view_as_span_Sym (objManySections n).mem 0 (48 / sizeof_Elf64_Sym) =
        [default, mkSym 1 STB_GLOBAL 1 0] := by
      rw [hmem, show (48 : Nat) / sizeof_Elf64_Sym = 2 from rfl,
        view_as_span_Sym_append_left _ _ 0 2 (by decide)]
      decide
    have hstrings : (objManySections n).mem.drop 48 = strtabAB ++ shortSectionNames n := by
      rw [hmem]
      exact List.drop_left' (by decide)
    rw [hsyms, hstrings]
    rfl
  have hname : cstrAt (strtabAB ++ shortSectionNames n) (mkSym 1 STB_GLOBAL 1 0).st_name =
      cstrAt strtabAB (mkSym 1 STB_GLOBAL 1 0).st_name := by
    simp [cstrAt, cstrOf, strtabAB, mkSym]
  have hview : ∀ st : InsertState,
      insertSymtab [0] st
        { syms := [default, mkSym 1 STB_GLOBAL 1 0], strings := strtabAB ++ shortSectionNames n,
          elfID := 0 } =
      insertSymtab [0] st
        { syms := [default, mkSym 1 STB_GLOBAL 1 0], strings := strtabAB, elfID := 0 } := by
    intro st
    unfold insertSymtab forEachIndexed
    have h0 : (0 : Nat) = STN_UNDEF := rfl
    simp only [forEachIndexedFrom, insertSymbol, hname, if_pos h0]
  unfold insertSymbolsIntoSymbolTable
  simp only [hcollect]
  rw [if_neg (by decide), List.foldl_cons, List.foldl_nil, hview]
  decide

theorem objManySections_symbols_fit (lib : LibraryChoices)
    (hvisit : (lib.visitSymbols
        (insertSymbolsIntoSymbolTable [objManySections 65275] [0] 0 []).symbolTable).Perm
      (insertSymbolsIntoSymbolTable [objManySections 65275] [0] 0 []).symbolTable) :
    nameBytes (loadedNames (lib.visitSymbols
      (insertSymbolsIntoSymbolTable [objManySections 65275] [0] 0 []).symbolTable)) ≤ 4 ∧
    (loadedNames (lib.visitSymbols
      (insertSymbolsIntoSymbolTable [objManySections 65275] [0] 0 []).symbolTable)).length ≤
      (insertSymbolsIntoSymbolTable [objManySections 65275] [0] 0 []).symbolTable.length ∧
    (insertSymbolsIntoSymbolTable [objManySections 65275] [0] 0 []).symbolTable.length <
      2 ^ 32 := by
  rw [insertSymbolsIntoSymbolTable_objManySections] at hvisit ⊢
  simp only [] at hvisit ⊢
  rw [List.perm_singleton.mp hvisit]
  decide

theorem simpleLibrary_visitSymbols_perm (symbolTable : SymbolTable) :
    (simpleLibrary.visitSymbols symbolTable).Perm symbolTable :=
  List.Perm.refl symbolTable

/-- C35 as amended.  For every link that returns `ok`, `initOutputSections` has returned
`ok`, and the `e_shnum` of the emitted header is the number of the output section names of
`initOutputSections` plus five, for the four synthetic sections and the null header; so
`1 ≤ e_shnum ≤ SHN_LORESERVE`, and `e_shnum` is below `SHN_LORESERVE` exactly when there
are fewer than `SHN_LORESERVE - 5` names.  The object `objManySections 65275` with
`SHN_LORESERVE - 5` names passes `initOutputSections`, and its link, with a library that
visits every entry of the symbol table once, returns `ok` with
`e_shnum = SHN_LORESERVE`. -/
theorem mapInputSectionsToOutputSections_shnum_range (lib : LibraryChoices)
    (inputs : List ElfInput) (sortKeys : List Nat) (sectionStringTables : List Memory)
    (symbolTable : SymbolTable) (entrySymbolInfo : GlobalSymbolTableEntry) (out : MapOutput)
    (h : mapInputSectionsToOutputSections lib inputs sortKeys sectionStringTables symbolTable
      entrySymbolInfo = MapResult.done out) :
    (initOutputSections (inputs.map ElfInput.headers) sectionStringTables).status =
      StatusCode.ok ∧
    out.elfHeader.e_shnum =
      (initOutputSections (inputs.map ElfInput.headers) sectionStringTables).names.length + 5 ∧
    1 ≤ out.elfHeader.e_shnum ∧ out.elfHeader.e_shnum ≤ SHN_LORESERVE ∧
    (out.elfHeader.e_shnum < SHN_LORESERVE ↔
      (initOutputSections (inputs.map ElfInput.headers) sectionStringTables).names.length <
        SHN_LORESERVE - 5) ∧
    ((initOutputSections [(objManySections 65275).headers] [shortSectionNames 65275]).status =
        StatusCode.ok ∧
      ∀ (lib2 : LibraryChoices) (sortKeys2 : List Nat),
        (lib2.visitSymbols
            (insertSymbolsIntoSymbolTable [objManySections 65275] [0] 0 []).symbolTable).Perm
          (insertSymbolsIntoSymbolTable [objManySections 65275] [0] 0 []).symbolTable →
        ∃ out2, mapInputSectionsToOutputSections lib2 [objManySections 65275] sortKeys2
            [shortSectionNames 65275]
            (insertSymbolsIntoSymbolTable [objManySections 65275] [0] 0 []).symbolTable
            (SymbolTable.get
              (insertSymbolsIntoSymbolTable [objManySections 65275] [0] 0 []).symbolTable
              (bytesOf "a")) = MapResult.done out2 ∧
          out2.elfHeader.e_shnum = SHN_LORESERVE) := by
  obtain ⟨h1, h2, h3⟩ := mapInputSectionsToOutputSections_shnum _ _ _ _ _ _ _ h
  have hlim : SHN_LORESERVE = 65280 := by decide
  rw [hlim] at h2 ⊢
  refine ⟨h1, h3, by omega, by omega, by omega, ?_⟩
  have hentry : (SymbolTable.get
      (insertSymbolsIntoSymbolTable [objManySections 65275] [0] 0 []).symbolTable
      (bytesOf "a")).firstLoad.symbol ≠ none := by
    rw [insertSymbolsIntoSymbolTable_objManySections]
    decide
  have hinit := (mapInputSectionsToOutputSections_many 65275 (by unfold SHN_LORESERVE; omega) simpleLibrary [0]
    (insertSymbolsIntoSymbolTable [objManySections 65275] [0] 0 []).symbolTable
    (SymbolTable.get (insertSymbolsIntoSymbolTable [objManySections 65275] [0] 0 []).symbolTable
      (bytesOf "a")) hentry
    (objManySections_symbols_fit simpleLibrary (simpleLibrary_visitSymbols_perm _)).1
    (objManySections_symbols_fit simpleLibrary (simpleLibrary_visitSymbols_perm _)).2.1
    (objManySections_symbols_fit simpleLibrary (simpleLibrary_visitSymbols_perm _)).2.2).1
  refine ⟨hinit, ?_⟩
  intro lib2 sortKeys2 hvisit
  obtain ⟨f1, f2, f3⟩ := objManySections_symbols_fit lib2 hvisit
  obtain ⟨-, out2, m2, m3⟩ := mapInputSectionsToOutputSections_many 65275 (by unfold SHN_LORESERVE; omega) lib2
    sortKeys2 (insertSymbolsIntoSymbolTable [objManySections 65275] [0] 0 []).symbolTable
    (SymbolTable.get (insertSymbolsIntoSymbolTable [objManySections 65275] [0] 0 []).symbolTable
      (bytesOf "a")) hentry f1 f2 f3
  exact ⟨out2, m2, m3⟩

/-- The link of an object with `.text`, `.data` and `.bss`: `e_shnum` is 8, between 1 and
`SHN_LORESERVE`. -/
theorem mapInputSectionsToOutputSections_shnum_range_witness :
    ∃ out, linkTextDataBss = MapResult.done out ∧ out.elfHeader.e_shnum = 8 ∧
      1 ≤ out.elfHeader.e_shnum ∧ out.elfHeader.e_shnum ≤ SHN_LORESERVE := by
  have hsome : (linkTextDataBss.output?.map (fun out => out.elfHeader.e_shnum)) = some 8 := by
    decide
  cases hout : linkTextDataBss.output? with
  | none => simp [hout] at hsome
  | some out =>
    simp only [hout, Option.map_some', Option.some.injEq] at hsome
    have hdone := MapResult.eq_done_of_output? _ _ hout
    have h := mapInputSectionsToOutputSections_shnum_range simpleLibrary [objTextDataBss] [0]
      [objTextDataBss.mem.drop 53]
      (insertSymbolsIntoSymbolTable [objTextDataBss] [0] 0 []).symbolTable
      (SymbolTable.get (insertSymbolsIntoSymbolTable [objTextDataBss] [0] 0 []).symbolTable
        (bytesOf "a")) out hdone
    exact ⟨out, hdone, hsome, h.2.2.1, h.2.2.2.1⟩

/-- C35 fails on the code at the largest accepted input.  The object
`objManySections 65275` has 65279 section headers, fewer than `SHN_LORESERVE`, and
`65275 = SHN_LORESERVE - 5` sections with pairwise distinct names of three bytes that
reach the output; its two string tables have 5 and 261101 bytes, and the names of its
sections are the string table at the offset 53 of the file.  `initOutputSections` returns
`ok` for it.  Its symbol table defines the symbol `a`, and its link with the entry symbol
`a` returns `ok`, the string tables and the symbol table it writes being within the
memory reserved for them, with every library that visits the one entry of the symbol
table once, with `e_shnum = 65280 = SHN_LORESERVE`: the output sections, the four
synthetic sections and the null header.  So `e_shnum < SHN_LORESERVE` does not hold. -/
theorem mapInputSectionsToOutputSections_shnum_reserved :
    (objManySections 65275).headers.length = 65279 ∧
    65279 < SHN_LORESERVE ∧
    (objManySections 65275).mem.drop 53 = shortSectionNames 65275 ∧
    distinctOutputNames [(objManySections 65275).headers] [shortSectionNames 65275] =
      SHN_LORESERVE - 5 ∧
    (initOutputSections [(objManySections 65275).headers] [shortSectionNames 65275]).status =
      StatusCode.ok ∧
    (initOutputSections [(objManySections 65275).headers]
      [shortSectionNames 65275]).totalStringTableMemorySize = 5 + 261101 ∧
    (SymbolTable.get (insertSymbolsIntoSymbolTable [objManySections 65275] [0] 0 []).symbolTable
      (bytesOf "a")).firstLoad = ⟨some (mkSym 1 STB_GLOBAL 1 0), 0⟩ ∧
    (∀ (lib : LibraryChoices) (sortKeys : List Nat),
      (lib.visitSymbols
          (insertSymbolsIntoSymbolTable [objManySections 65275] [0] 0 []).symbolTable).Perm
        (insertSymbolsIntoSymbolTable [objManySections 65275] [0] 0 []).symbolTable →
      ∃ out, mapInputSectionsToOutputSections lib [objManySections 65275] sortKeys
          [shortSectionNames 65275]
          (insertSymbolsIntoSymbolTable [objManySections 65275] [0] 0 []).symbolTable
          (SymbolTable.get
            (insertSymbolsIntoSymbolTable [objManySections 65275] [0] 0 []).symbolTable
            (bytesOf "a")) = MapResult.done out ∧
        out.elfHeader.e_shnum = 65280 ∧ out.elfHeader.e_shnum = SHN_LORESERVE ∧
        ¬ out.elfHeader.e_shnum < SHN_LORESERVE) ∧
    ∃ out, mapInputSectionsToOutputSections simpleLibrary [objManySections 65275] [0]
        [shortSectionNames 65275]
        (insertSymbolsIntoSymbolTable [objManySections 65275] [0] 0 []).symbolTable
        (SymbolTable.get
          (insertSymbolsIntoSymbolTable [objManySections 65275] [0] 0 []).symbolTable
          (bytesOf "a")) = MapResult.done out ∧
      out.elfHeader.e_shnum = SHN_LORESERVE := by
  have hlim : SHN_LORESERVE = 65280 := by decide
  have hentry : (SymbolTable.get
      (insertSymbolsIntoSymbolTable [objManySections 65275] [0] 0 []).symbolTable
      (bytesOf "a")).firstLoad.symbol ≠ none := by
    rw [insertSymbolsIntoSymbolTable_objManySections]
    decide
  have hall : ∀ (lib : LibraryChoices) (sortKeys : List Nat),
      (lib.visitSymbols
          (insertSymbolsIntoSymbolTable [objManySections 65275] [0] 0 []).symbolTable).Perm
        (insertSymbolsIntoSymbolTable [objManySections 65275] [0] 0 []).symbolTable →
      (initOutputSections [(objManySections 65275).headers] [shortSectionNames 65275]).status =
        StatusCode.ok ∧
      ∃ out, mapInputSectionsToOutputSections lib [objManySections 65275] sortKeys
          [shortSectionNames 65275]
          (insertSymbolsIntoSymbolTable [objManySections 65275] [0] 0 []).symbolTable
          (SymbolTable.get
            (insertSymbolsIntoSymbolTable [objManySections 65275] [0] 0 []).symbolTable
            (bytesOf "a")) = MapResult.done out ∧
        out.elfHeader.e_shnum = 65275 + 5 := by
    intro lib sortKeys hvisit
    obtain ⟨f1, f2, f3⟩ := objManySections_symbols_fit lib hvisit
    exact mapInputSectionsToOutputSections_many 65275 (by unfold SHN_LORESERVE; omega) lib sortKeys _ _ hentry f1 f2 f3
  have hsimple := hall simpleLibrary [0] (simpleLibrary_visitSymbols_perm _)
  refine ⟨?_, by decide, ?_, ?_, hsimple.1, ?_, ?_, ?_, ?_⟩
  · show (shortSectionHeaders 65275 ++ _).length = 65279
    rw [List.length_append, shortSectionHeaders_length]
    rfl
  · unfold objManySections
    simp only []
    exact List.drop_left' (by decide)
  · rw [distinctOutputNames_objManySections 65275 (by decide)]
    decide
  · rw [(initOutputSections_totals _ _).1, (scanSections_objManySections 65275 (by decide)).1]
  · rw [insertSymbolsIntoSymbolTable_objManySections]
    decide
  · intro lib sortKeys hvisit
    obtain ⟨-, out, m2, m3⟩ := hall lib sortKeys hvisit
    refine ⟨out, m2, m3, by rw [m3, hlim], ?_⟩
    rw [m3, hlim]
    decide
  · obtain ⟨-, out, m2, m3⟩ := hsimple
    exact ⟨out, m2, by rw [m3, hlim]⟩

/-! ## Claim C31: the loop that extracts archive members -/

theorem memberState_cases (l : List ArchiveMemberState) (i : Nat) :
    l.getD i ArchiveMemberState.lazy = ArchiveMemberState.lazy ∨
      l.getD i ArchiveMemberState.lazy = ArchiveMemberState.loaded := by
  cases l.getD i ArchiveMemberState.lazy
  · exact Or.inl rfl
  · exact Or.inr rfl

theorem lazyCount_set_loaded (l : List ArchiveMemberState) (i : Nat) (hi : i < l.length)
    (hlazy : l.getD i ArchiveMemberState.lazy = ArchiveMemberState.lazy) :
    lazyCount (l.set i ArchiveMemberState.loaded) + 1 = lazyCount l := by
  induction l generalizing i with
  | nil => simp at hi
  | cons a t ih =>
    cases i with
    | zero =>
      simp only [List.getD_cons_zero] at hlazy
      subst hlazy
      simp [lazyCount]
    | succ i =>
      simp only [List.getD_cons_succ] at hlazy
      simp only [List.length_cons, Nat.succ_lt_succ_iff] at hi
      have := ih i hi hlazy
      unfold lazyCount at this ⊢
      rw [List.set_cons_succ, List.count_cons, List.count_cons]
      omega

theorem statesAdvance_refl (l : List ArchiveMemberState) : statesAdvance l l :=
  ⟨rfl, fun _ h => h⟩

theorem statesAdvance_trans (a b c : List ArchiveMemberState) (h1 : statesAdvance a b)
    (h2 : statesAdvance b c) : statesAdvance a c :=
  ⟨h2.1.trans h1.1, fun i h => h2.2 i (h1.2 i h)⟩

theorem statesAdvance_set (l : List ArchiveMemberState) (i : Nat) :
    statesAdvance l (l.set i ArchiveMemberState.loaded) := by
  refine ⟨List.length_set _ _ _, fun j hj => ?_⟩
  by_cases hij : i = j
  · subst hij
    by_cases hlt : i < l.length
    · simp [List.getD, hlt]
    · rw [List.set_eq_of_length_le (by omega)]
      exact hj
  · simp only [List.getD_eq_getElem?_getD, List.getElem?_set_ne hij] at hj ⊢
    exact hj

/-- The body of the loop of `extractArchiveMembers` for a lazy member: it returns a status
other than `ok` and leaves the vectors, or it appends one ELF input with the sort key of
the member. -/
theorem extractLazyMember_cases (addresses : List Memory)
    (memSizes archiveMemberSortKeys : List Nat) (st : ExtractState) (memberID : Nat) :
    (∃ code, extractLazyMember addresses memSizes archiveMemberSortKeys st memberID =
      LoopStep.return code st ∧ code ≠ StatusCode.ok) ∨
    ∃ input table, extractLazyMember addresses memSizes archiveMemberSortKeys st memberID =
      LoopStep.continue
        { st with
          elfSortKeys := st.elfSortKeys ++ [archiveMemberSortKeys.getD memberID 0]
          elfInputs := st.elfInputs ++ [input]
          sectionStringTables := st.sectionStringTables ++ [table] } := by
  unfold extractLazyMember
  simp only []
  split_ifs with h1
  · exact Or.inl ⟨_, rfl, by decide⟩
  · split
    · exact Or.inl ⟨_, rfl, by decide⟩
    · split_ifs with h2 h3
      · exact Or.inl ⟨_, rfl, by decide⟩
      · exact Or.inl ⟨_, rfl, h3⟩
      · exact Or.inr ⟨_, _, rfl⟩

theorem appendsMembers_refl (keys : List Nat) (st : ExtractState) :
    appendsMembers keys st st [] :=
  ⟨List.nodup_nil, fun _ h => absurd h (List.not_mem_nil _), by simp, by simp, ⟨[], by simp⟩,
    by simp⟩

theorem appendsMembers_trans (keys : List Nat) (a b c : ExtractState) (l1 l2 : List Nat)
    (hab : statesAdvance a.memberStates b.memberStates)
    (hbc : statesAdvance b.memberStates c.memberStates)
    (h1 : appendsMembers keys a b l1) (h2 : appendsMembers keys b c l2) :
    appendsMembers keys a c (l1 ++ l2) := by
  obtain ⟨n1, m1, k1, e1, ⟨x1, a1⟩, t1⟩ := h1
  obtain ⟨n2, m2, k2, e2, ⟨x2, a2⟩, t2⟩ := h2
  refine ⟨?_, ?_, ?_, ?_, ?_, ?_⟩
  · rw [List.nodup_append]
    refine ⟨n1, n2, ?_⟩
    intro x hx1 hx2
    have hb1 := (m1 x hx1).2.2
    have hb2 := (m2 x hx2).2.1
    rw [hb1] at hb2
    exact nomatch hb2
  · intro id hid
    rcases List.mem_append.mp hid with hid | hid
    · obtain ⟨p1, p2, p3⟩ := m1 id hid
      exact ⟨p1, p2, hbc.2 id p3⟩
    · obtain ⟨p1, p2, p3⟩ := m2 id hid
      refine ⟨by rw [← hab.1]; exact p1, ?_, p3⟩
      rcases memberState_cases a.memberStates id with h | h
      · exact h
      · have := hab.2 id h
        rw [this] at p2
        exact nomatch p2
  · rw [k2, k1, List.map_append, List.append_assoc]
  · rw [e2, e1, List.length_append]
    omega
  · exact ⟨x1 ++ x2, by rw [a2, a1, List.append_assoc]⟩
  · rw [t2, t1, List.length_append]
    omega

/-- The function `extractArchiveMembers`, when its subscripts are in range: no member goes
back to `lazy`; it appends one ELF input for each member of a list of pairwise distinct
members that were lazy and are loaded; and for each of them one lazy member less is
left. -/
theorem extractArchiveMembers_spec (addresses : List Memory)
    (memSizes archiveMemberSortKeys : List Nat) (ids : List Nat) (st : ExtractState)
    (code : StatusCode) (st1 : ExtractState)
    (h : extractArchiveMembers addresses memSizes archiveMemberSortKeys ids st =
      some (code, st1)) :
    statesAdvance st.memberStates st1.memberStates ∧
    ∃ appended, appendsMembers archiveMemberSortKeys st st1 appended ∧
      (∀ id ∈ appended, id ∈ ids) ∧
      lazyCount st1.memberStates + appended.length ≤ lazyCount st.memberStates := by
  induction ids generalizing st with
  | nil =>
    simp only [extractArchiveMembers, Option.some.injEq, Prod.mk.injEq] at h
    obtain ⟨-, rfl⟩ := h
    exact ⟨statesAdvance_refl _, [], appendsMembers_refl _ _, by simp, by simp⟩
  | cons id rest ih =>
    rw [extractArchiveMembers] at h
    split_ifs at h with hoob hloaded
    · obtain ⟨i1, appended, i2, i3, i4⟩ := ih st h
      exact ⟨i1, appended, i2, fun x hx => List.mem_cons_of_mem _ (i3 x hx), i4⟩
    · have hlt : id < st.memberStates.length := by omega
      have hlazy : st.memberStates.getD id ArchiveMemberState.lazy = ArchiveMemberState.lazy := by
        rcases memberState_cases st.memberStates id with h0 | h0
        · exact h0
        · exact absurd h0 hloaded
      have hcount := lazyCount_set_loaded st.memberStates id hlt hlazy
      have hadv := statesAdvance_set st.memberStates id
      have hset : (st.memberStates.set id ArchiveMemberState.loaded).getD id
          ArchiveMemberState.lazy = ArchiveMemberState.loaded := by
        simp [List.getD, hlt]
      rcases extractLazyMember_cases addresses memSizes archiveMemberSortKeys
        { st with memberStates := st.memberStates.set id ArchiveMemberState.loaded } id with
        ⟨c, hc, -⟩ | ⟨input, table, hc⟩
      · rw [hc] at h
        simp only [Option.some.injEq, Prod.mk.injEq] at h
        obtain ⟨-, rfl⟩ := h
        refine ⟨hadv, [], ?_, by simp, ?_⟩
        · exact ⟨List.nodup_nil, fun _ h => absurd h (List.not_mem_nil _), by simp, by simp,
            ⟨[], by simp⟩, by simp⟩
        · simp only [List.length_nil]
          omega
      · rw [hc] at h
        simp only [] at h
        obtain ⟨i1, appended, i2, i3, i4⟩ := ih _ h
        simp only [] at i1 i4
        obtain ⟨n2, m2, k2, e2, ⟨x2, a2⟩, t2⟩ := i2
        simp only [] at m2 k2 e2 a2 t2
        have hnot : id ∉ appended := by
          intro hmem
          have := (m2 id hmem).2.1
          rw [hset] at this
          exact nomatch this
        refine ⟨statesAdvance_trans _ _ _ hadv i1, id :: appended, ⟨?_, ?_, ?_, ?_, ?_, ?_⟩, ?_, ?_⟩
        · exact List.nodup_cons.mpr ⟨hnot, n2⟩
        · intro x hx
          rcases List.mem_cons.mp hx with rfl | hx
          · exact ⟨hlt, hlazy, i1.2 _ hset⟩
          · obtain ⟨p1, p2, p3⟩ := m2 x hx
            have hne : id ≠ x := fun he => hnot (he ▸ hx)
            refine ⟨by simpa using p1, ?_, p3⟩
            simp only [List.getD_eq_getElem?_getD, List.getElem?_set_ne hne] at p2 ⊢
            exact p2
        · rw [k2, List.map_cons, List.append_assoc]
          rfl
        · rw [e2]
          simp only [List.length_append, List.length_cons, List.length_nil]
          omega
        · exact ⟨input :: x2, by rw [a2, List.append_assoc]; rfl⟩
        · rw [t2]
          simp only [List.length_append, List.length_cons, List.length_nil]
          omega
        · intro x hx
          rcases List.mem_cons.mp hx with rfl | hx
          · exact List.mem_cons_self _ _
          · exact List.mem_cons_of_mem _ (i3 x hx)
        · simp only [List.length_cons]
          omega

/-- One round of the loop of `parseInputAndCreateSymbolTable`.  No member goes back to
`lazy`, and the ELF inputs that are appended are those of pairwise distinct members that
were lazy and are loaded; a round after which the loop goes on has appended an ELF input
and leaves fewer lazy members. -/
theorem extractionRound_spec (addresses : List Memory)
    (memSizes archiveMemberSortKeys : List Nat) (archiveSymbolTable : ArchiveSymbolTable)
    (s : ExtractionLoopState) :
    (∀ s1, extractionRound addresses memSizes archiveMemberSortKeys archiveSymbolTable s =
        ExtractionRound.next s1 →
      lazyCount s1.extract.memberStates < lazyCount s.extract.memberStates ∧
      statesAdvance s.extract.memberStates s1.extract.memberStates ∧
      ∃ appended, appended ≠ [] ∧
        appendsMembers archiveMemberSortKeys s.extract s1.extract appended) ∧
    (∀ e s1, extractionRound addresses memSizes archiveMemberSortKeys archiveSymbolTable s =
        ExtractionRound.ends e s1 →
      statesAdvance s.extract.memberStates s1.extract.memberStates ∧
      ∃ appended, appendsMembers archiveMemberSortKeys s.extract s1.extract appended) := by
  refine ⟨?_, ?_⟩
  · intro s1 h
    unfold extractionRound at h
    split at h
    · exact nomatch h
    · rename_i status ids hdet
      split_ifs at h with hst
      simp only [] at h
      split at h
      · exact nomatch h
      · rename_i status1 ext hext
        obtain ⟨e1, appended, e2, -, e4⟩ := extractArchiveMembers_spec _ _ _ _ _ _ _ hext
        split_ifs at h with h1 h2 h3
        simp only [ExtractionRound.next.injEq] at h
        subst h
        simp only []
        have hlen := e2.2.2.2.1
        have hne : appended ≠ [] := by
          intro hnil
          rw [hnil] at hlen
          simp only [List.length_nil, Nat.add_zero] at hlen
          exact h2 hlen.symm
        have hpos : 0 < appended.length := List.length_pos.mpr hne
        exact ⟨by omega, e1, appended, hne, e2⟩
  · intro e s1 h
    unfold extractionRound at h
    split at h
    · simp only [ExtractionRound.ends.injEq] at h
      obtain ⟨-, rfl⟩ := h
      exact ⟨statesAdvance_refl _, [], appendsMembers_refl _ _⟩
    · rename_i status ids hdet
      split_ifs at h with hst
      · simp only [ExtractionRound.ends.injEq] at h
        obtain ⟨-, rfl⟩ := h
        exact ⟨statesAdvance_refl _, [], appendsMembers_refl _ _⟩
      · simp only [] at h
        split at h
        · simp only [ExtractionRound.ends.injEq] at h
          obtain ⟨-, rfl⟩ := h
          exact ⟨statesAdvance_refl _, [], appendsMembers_refl _ _⟩
        · rename_i status1 ext hext
          obtain ⟨e1, appended, e2, -, -⟩ := extractArchiveMembers_spec _ _ _ _ _ _ _ hext
          split_ifs at h with h1 h2 h3
          · simp only [ExtractionRound.ends.injEq] at h
            obtain ⟨-, rfl⟩ := h
            exact ⟨e1, appended, e2⟩
          · simp only [ExtractionRound.ends.injEq] at h
            obtain ⟨-, rfl⟩ := h
            exact ⟨e1, appended, e2⟩
          · simp only [ExtractionRound.ends.injEq] at h
            obtain ⟨-, rfl⟩ := h
            exact ⟨e1, appended, e2⟩

/-- The loop of `parseInputAndCreateSymbolTable` ends within one round more than there are
lazy members. -/
theorem extractionLoop_ends (addresses : List Memory)
    (memSizes archiveMemberSortKeys : List Nat) (archiveSymbolTable : ArchiveSymbolTable)
    (fuel : Nat) (s : ExtractionLoopState)
    (hfuel : lazyCount s.extract.memberStates + 1 ≤ fuel) :
    ∃ e s1 rounds,
      extractionLoop addresses memSizes archiveMemberSortKeys archiveSymbolTable fuel s =
        some (e, s1, rounds) ∧
      rounds ≤ lazyCount s.extract.memberStates + 1 ∧
      statesAdvance s.extract.memberStates s1.extract.memberStates ∧
      ∃ appended, appendsMembers archiveMemberSortKeys s.extract s1.extract appended := by
  induction fuel generalizing s with
  | zero => omega
  | succ fuel ih =>
    obtain ⟨r1, r2⟩ := extractionRound_spec addresses memSizes archiveMemberSortKeys
      archiveSymbolTable s
    rw [extractionLoop]
    cases hround : extractionRound addresses memSizes archiveMemberSortKeys
        archiveSymbolTable s with
    | ends e s1 =>
      obtain ⟨a1, appended, a2⟩ := r2 e s1 hround
      exact ⟨e, s1, 1, rfl, by omega, a1, appended, a2⟩
    | next s1 =>
      obtain ⟨a0, a1, appended, -, a2⟩ := r1 s1 hround
      obtain ⟨e, s2, rounds, b0, b1, b2, appended2, b3⟩ := ih s1 (by omega)
      simp only []
      rw [b0]
      exact ⟨e, s2, rounds + 1, rfl, by omega, statesAdvance_trans _ _ _ a1 b2,
        appended ++ appended2, appendsMembers_trans _ _ _ _ _ _ a1 b2 a2 b3⟩

theorem extractionLoop_fuel (addresses : List Memory)
    (memSizes archiveMemberSortKeys : List Nat) (archiveSymbolTable : ArchiveSymbolTable)
    (fuel fuel2 : Nat) (s : ExtractionLoopState)
    (hfuel : lazyCount s.extract.memberStates + 1 ≤ fuel)
    (hfuel2 : lazyCount s.extract.memberStates + 1 ≤ fuel2) :
    extractionLoop addresses memSizes archiveMemberSortKeys archiveSymbolTable fuel s =
      extractionLoop addresses memSizes archiveMemberSortKeys archiveSymbolTable fuel2 s := by
  induction fuel generalizing s fuel2 with
  | zero => omega
  | succ fuel ih =>
    cases fuel2 with
    | zero => omega
    | succ fuel2 =>
      obtain ⟨r1, -⟩ := extractionRound_spec addresses memSizes archiveMemberSortKeys
        archiveSymbolTable s
      rw [extractionLoop, extractionLoop]
      cases hround : extractionRound addresses memSizes archiveMemberSortKeys
          archiveSymbolTable s with
      | ends e s1 => rfl
      | next s1 =>
        obtain ⟨a0, -, -⟩ := r1 s1 hround
        simp only []
        rw [ih fuel2 s1 (by omega) (by omega)]

theorem loadFromSearch_mem (archiveMemberSortKeys : List Nat) (archMemIDs : List Nat)
    (firstSearchSortKey : Nat) (hne : archMemIDs ≠ []) :
    loadFromSearch archiveMemberSortKeys archMemIDs firstSearchSortKey ∈ archMemIDs := by
  unfold loadFromSearch
  split
  · rename_i memID hfind
    exact List.mem_of_find?_eq_some hfind
  · cases archMemIDs with
    | nil => exact absurd rfl hne
    | cons a t => simp

/-- The member ids that `determineArchiveMembersToExtract` pushes are ids of the archive
symbol table. -/
theorem determineLoop_ids (symbolTable : SymbolTable) (archiveSymbolTable : ArchiveSymbolTable)
    (elfSortKeys archiveMemberSortKeys : List Nat) (names : List Name) (ids0 : List Nat)
    (status : StatusCode) (ids : List Nat)
    (h : determineLoop symbolTable archiveSymbolTable elfSortKeys archiveMemberSortKeys names
      ids0 = some (status, ids)) :
    ∀ id ∈ ids, id ∈ ids0 ∨
      ∃ n members, ArchiveSymbolTable.find archiveSymbolTable n = some members ∧
        id ∈ members := by
  induction names generalizing ids0 with
  | nil =>
    simp only [determineLoop, Option.some.injEq, Prod.mk.injEq] at h
    obtain ⟨-, rfl⟩ := h
    exact fun id hid => Or.inl hid
  | cons n rest ih =>
    rw [determineLoop] at h
    split at h
    · exact nomatch h
    · rename_i elfRef hfind
      split at h
      · exact ih ids0 h
      · rename_i archMemIDs hmembers
        split_ifs at h with hempty
        · exact ih ids0 h
        · simp only [] at h
          have hne : archMemIDs ≠ [] := by
            intro hnil
            rw [hnil] at hempty
            exact hempty rfl
          split at h
          · intro id hid
            rcases ih _ h id hid with h1 | h1
            · rcases List.mem_append.mp h1 with h2 | h2
              · exact Or.inl h2
              · simp only [List.mem_singleton] at h2
                subst h2
                exact Or.inr ⟨n, archMemIDs, hmembers, loadFromSearch_mem _ _ _ hne⟩
            · exact Or.inr h1
          · split_ifs at h with hconflict
            · simp only [Option.some.injEq, Prod.mk.injEq] at h
              obtain ⟨-, rfl⟩ := h
              exact fun id hid => Or.inl hid
            · exact ih ids0 h

theorem extractArchiveMembers_defined (addresses : List Memory)
    (memSizes archiveMemberSortKeys : List Nat) (ids : List Nat) (st : ExtractState)
    (hids : ∀ id ∈ ids, id < st.memberStates.length) :
    extractArchiveMembers addresses memSizes archiveMemberSortKeys ids st ≠ none := by
  induction ids generalizing st with
  | nil => simp [extractArchiveMembers]
  | cons id rest ih =>
    have hid := hids id (List.mem_cons_self _ _)
    rw [extractArchiveMembers, if_neg (by omega)]
    split_ifs with hloaded
    · exact ih st (fun x hx => hids x (List.mem_cons_of_mem _ hx))
    · rcases extractLazyMember_cases addresses memSizes archiveMemberSortKeys
        { st with memberStates := st.memberStates.set id ArchiveMemberState.loaded } id with
        ⟨c, hc, -⟩ | ⟨input, table, hc⟩
      · rw [hc]
        simp
      · rw [hc]
        simp only []
        apply ih
        intro x hx
        simpa using hids x (List.mem_cons_of_mem _ hx)

theorem extractionRound_defined (addresses : List Memory)
    (memSizes archiveMemberSortKeys : List Nat) (archiveSymbolTable : ArchiveSymbolTable)
    (s : ExtractionLoopState)
    (hids : ∀ n members, ArchiveSymbolTable.find archiveSymbolTable n = some members →
      ∀ id ∈ members, id < s.extract.memberStates.length) (s1 : ExtractionLoopState) :
    extractionRound addresses memSizes archiveMemberSortKeys archiveSymbolTable s ≠
      ExtractionRound.ends ExtractionEnd.undefined s1 := by
  intro h
  unfold extractionRound at h
  split at h
  · simp at h
  · rename_i status ids hdet
    split_ifs at h with hst
    · simp at h
    · simp only [] at h
      split at h
      · rename_i hext
        refine extractArchiveMembers_defined addresses memSizes archiveMemberSortKeys ids
          s.extract ?_ hext
        intro id hid
        unfold determineArchiveMembersToExtract at hdet
        rcases determineLoop_ids _ _ _ _ _ _ _ _ hdet id hid with h1 | ⟨n, members, h1, h2⟩
        · simp at h1
        · exact hids n members h1 id h2
      · split_ifs at h <;> simp at h

theorem extractionLoop_defined (addresses : List Memory)
    (memSizes archiveMemberSortKeys : List Nat) (archiveSymbolTable : ArchiveSymbolTable)
    (fuel : Nat) (s : ExtractionLoopState)
    (hids : ∀ n members, ArchiveSymbolTable.find archiveSymbolTable n = some members →
      ∀ id ∈ members, id < s.extract.memberStates.length)
    (e : ExtractionEnd) (s1 : ExtractionLoopState) (rounds : Nat)
    (h : extractionLoop addresses memSizes archiveMemberSortKeys archiveSymbolTable fuel s =
      some (e, s1, rounds)) : e ≠ ExtractionEnd.undefined := by
  induction fuel generalizing s s1 rounds with
  | zero => exact nomatch h
  | succ fuel ih =>
    obtain ⟨r1, -⟩ := extractionRound_spec addresses memSizes archiveMemberSortKeys
      archiveSymbolTable s
    rw [extractionLoop] at h
    cases hround : extractionRound addresses memSizes archiveMemberSortKeys
        archiveSymbolTable s with
    | ends e2 s2 =>
      rw [hround] at h
      simp only [Option.some.injEq, Prod.mk.injEq] at h
      obtain ⟨rfl, rfl, -⟩ := h
      intro hu
      subst hu
      exact extractionRound_defined _ _ _ _ s hids _ hround
    | next s2 =>
      rw [hround] at h
      simp only [] at h
      obtain ⟨-, a1, -⟩ := r1 s2 hround
      split at h
      · exact nomatch h
      · rename_i e3 s3 rounds3 hrec
        simp only [Option.some.injEq, Prod.mk.injEq] at h
        obtain ⟨rfl, -, -⟩ := h
        exact ih s2 (by rw [a1.1]; exact hids) s3 rounds3 hrec

/-- C31. The loop of `parseInputAndCreateSymbolTable` that extracts archive members ends
for every state of its variables: run for any number of rounds above the number of archive
members, it ends, in the same way, after at most as many rounds as there are lazy members
plus one, which is at most the number of archive members plus one.  From the start to the
end of the loop no member goes back from `loaded` to `lazy`, and the ELF inputs appended
are one for each member of a list of pairwise distinct members that were lazy at the
start and are loaded at the end.  The same holds of every call of `extractArchiveMembers`
that returns, and a round after which the loop goes on has appended an input and leaves
fewer lazy members.  When the ids of the archive symbol table are indices of the member
states, the loop does not end in a subscript out of range. -/
theorem extractionLoop_terminates (addresses : List Memory)
    (memSizes archiveMemberSortKeys : List Nat) (archiveSymbolTable : ArchiveSymbolTable)
    (s : ExtractionLoopState) (fuel : Nat)
    (hfuel : s.extract.memberStates.length + 1 ≤ fuel) :
    (∃ e s1 rounds,
      extractionLoop addresses memSizes archiveMemberSortKeys archiveSymbolTable fuel s =
        some (e, s1, rounds) ∧
      (∀ fuel2, s.extract.memberStates.length + 1 ≤ fuel2 →
        extractionLoop addresses memSizes archiveMemberSortKeys archiveSymbolTable fuel2 s =
          some (e, s1, rounds)) ∧
      rounds ≤ lazyCount s.extract.memberStates + 1 ∧
      rounds ≤ s.extract.memberStates.length + 1 ∧
      statesAdvance s.extract.memberStates s1.extract.memberStates ∧
      (∃ appended, appendsMembers archiveMemberSortKeys s.extract s1.extract appended) ∧
      ((∀ n members, ArchiveSymbolTable.find archiveSymbolTable n = some members →
          ∀ id ∈ members, id < s.extract.memberStates.length) →
        e ≠ ExtractionEnd.undefined)) ∧
    (∀ ids st code st1,
      extractArchiveMembers addresses memSizes archiveMemberSortKeys ids st =
        some (code, st1) →
      statesAdvance st.memberStates st1.memberStates ∧
      ∃ appended, appendsMembers archiveMemberSortKeys st st1 appended ∧
        (∀ id ∈ appended, id ∈ ids)) ∧
    (∀ s2 s3, extractionRound addresses memSizes archiveMemberSortKeys archiveSymbolTable s2 =
        ExtractionRound.next s3 →
      lazyCount s3.extract.memberStates < lazyCount s2.extract.memberStates ∧
      s2.extract.elfInputs.length < s3.extract.elfInputs.length) := by
  have hcount : lazyCount s.extract.memberStates ≤ s.extract.memberStates.length :=
    List.count_le_length _ _
  obtain ⟨e, s1, rounds, h0, h1, h2, h3⟩ := extractionLoop_ends addresses memSizes
    archiveMemberSortKeys archiveSymbolTable fuel s (by omega)
  refine ⟨⟨e, s1, rounds, h0, ?_, h1, by omega, h2, h3, ?_⟩, ?_, ?_⟩
  · intro fuel2 hfuel2
    rw [← h0]
    exact extractionLoop_fuel _ _ _ _ _ _ _ (by omega) (by omega)
  · intro hids
    exact extractionLoop_defined _ _ _ _ fuel s hids e s1 rounds h0
  · intro ids st code st1 hext
    obtain ⟨e1, appended, e2, e3, -⟩ := extractArchiveMembers_spec _ _ _ _ _ _ _ hext
    exact ⟨e1, appended, e2, e3⟩
  · intro s2 s3 hround
    obtain ⟨a0, -, appended, a1, a2⟩ := (extractionRound_spec addresses memSizes
      archiveMemberSortKeys archiveSymbolTable s2).1 s3 hround
    refine ⟨a0, ?_⟩
    have hpos : 0 < appended.length := List.length_pos.mpr a1
    rw [a2.2.2.2.1]
    omega

/-- C31 on the link of `a.o`, which refers to `exit`, with an archive whose one member
is scheduled for `exit`: with two rounds the loop returns `ok`, the member is loaded and
its ELF file is the second input; one round is not enough. -/
theorem extractionLoop_terminates_witness :
    extractionStart.extract.memberStates.length + 1 ≤ 2 ∧
    (extractionLoop [objA.mem, archiveWithElfMember] [objA.mem.length, 196]
        [makeSortKey 1 8] archiveB 2 extractionStart).map
      (fun r => (r.1, r.2.2, r.2.1.extract.memberStates, r.2.1.extract.elfSortKeys,
        r.2.1.extract.elfInputs.length)) =
      some (ExtractionEnd.returns StatusCode.ok, 2, [ArchiveMemberState.loaded],
        [makeSortKey 0 0, makeSortKey 1 8], 2) ∧
    extractionLoop [objA.mem, archiveWithElfMember] [objA.mem.length, 196]
      [makeSortKey 1 8] archiveB 1 extractionStart = none ∧
    ∃ e s1 rounds,
      extractionLoop [objA.mem, archiveWithElfMember] [objA.mem.length, 196]
        [makeSortKey 1 8] archiveB 2 extractionStart = some (e, s1, rounds) ∧
      rounds ≤ extractionStart.extract.memberStates.length + 1 :=
  ⟨by decide, by (set_option maxRecDepth 1000000 in decide),
   by (set_option maxRecDepth 1000000 in decide),
   (extractionLoop_terminates [objA.mem, archiveWithElfMember] [objA.mem.length, 196]
      [makeSortKey 1 8] archiveB extractionStart 2 (by decide)).1.imp
    (fun _ h => h.imp (fun _ h => h.imp (fun _ h => ⟨h.1, h.2.2.2.1⟩)))⟩

end cppld
